import Mathlib

/-! GraphChi sliding shard and text parsers: a shallow embedding.

The definitions below follow `src/shards/slidingshard.hpp` and
`src/preprocessing/conversions.hpp` function by function.

Conventions of the embedding.

* `vid_t` and `uint32_t` are natural numbers reduced modulo `2^32`, `size_t` is a
  natural number reduced modulo `2^64`, `int` is an integer (`to_int` is the
  conversion of a 32-bit unsigned value to `int`).  The loop counter `i` of
  `read_next_vertices` is an exact integer: its overflow is undefined behaviour in
  the source and is not given a meaning here.
* A pointer into a buffer is the pair of the buffer and a displacement from the
  buffer start (counted modulo `2^64`).
* A failed `assert`, and an access outside a buffer or a vector, end the run: the
  functions that can fail return `Except (fault × sliding_shard) _`, the state
  being the one reached at the point of failure.
-/

namespace graphchi

/-! ## Machine integers -/

/-- Reduction to `size_t` (64 bits). -/
def u64 (x : Nat) : Nat := x % 18446744073709551616

/-- Reduction to `vid_t` / `uint32_t` (32 bits). -/
def u32 (x : Nat) : Nat := x % 4294967296

/-- Conversion of an `int` to `size_t`. -/
def int_to_size_t (x : Int) : Nat := (x % 18446744073709551616).toNat

/-- Conversion `(int) v` of a 32-bit unsigned value. -/
def to_int (v : Nat) : Int :=
  if u32 v < 2147483648 then (u32 v : Int) else (u32 v : Int) - 4294967296

/-! ## The striped I/O manager (external collaborator) -/

/-- A buffer handed out by `managed_malloc`: a fresh identity, the session it was asked
for, the logical file offset and the length given in the request. -/
structure buffer where
  id : Nat
  session : Int
  offset : Nat
  length : Nat
  deriving DecidableEq, Repr

/-- The calls the sliding shard makes on the I/O manager. -/
inductive iocall where
  | open_session (session : Int) (writable : Bool)
  | managed_malloc (session : Int) (buf : buffer)
  | managed_release (session : Int) (buf : buffer)
  | managed_preada_now (session : Int) (buf : buffer) (len off : Nat)
  | managed_preada_async (session : Int) (buf : buffer) (len off : Nat)
  | managed_pwritea_now (session : Int) (buf : buffer) (len off : Nat)
  | managed_pwritea_async (session : Int) (buf : buffer) (len off : Nat) (free_after : Bool)
  | print_session (session : Int)
  | close_session (session : Int)
  deriving DecidableEq, Repr

/-- Modelled from the spec: the striped I/O manager (`io/stripedio.hpp` is not part of the
source tree).  It is a recorder: every call is appended to `calls`; sessions and buffers
are numbered in the order they are handed out. -/
structure stripedio where
  calls : List iocall
  nsessions : Nat
  nbufs : Nat
  deriving DecidableEq, Repr

/-- Record one call. -/
def stripedio.call (io : stripedio) (c : iocall) : stripedio :=
  { io with calls := io.calls ++ [c] }

/-- Model of `open_session(path, writable?)`: the next session descriptor. -/
def stripedio.open_session (io : stripedio) (writable : Bool) : Int × stripedio :=
  ((io.nsessions : Int),
   { io with calls := io.calls ++ [iocall.open_session io.nsessions writable],
             nsessions := io.nsessions + 1 })

/-- Model of `managed_malloc(session, &buf, length, logical_offset)`: a fresh buffer. -/
def stripedio.managed_malloc (io : stripedio) (session : Int) (len off : Nat) :
    buffer × stripedio :=
  let b : buffer := { id := io.nbufs, session := session, offset := off, length := len }
  (b, { io with calls := io.calls ++ [iocall.managed_malloc session b], nbufs := io.nbufs + 1 })

/-! ## Streaming blocks -/

/-- The struct `sblock`.  `data` is `none` for `NULL`; `ptr` is the displacement
`ptr - data` of the read pointer from the start of the buffer the block was given. -/
structure sblock where
  writedesc : Int
  readdesc : Int
  offset : Nat
  end_ : Nat
  data : Option buffer
  ptr : Nat
  active : Bool
  deriving DecidableEq, Repr

/-- `sblock::commit_async`. -/
def sblock.commit_async (b : sblock) (io : stripedio) : stripedio :=
  match b.data with
  | some d =>
    if b.active = true ∧ 0 ≤ b.writedesc then
      io.call (iocall.managed_pwritea_async b.writedesc d (b.end_ - b.offset) b.offset true)
    else io
  | none => io

/-- `sblock::commit_now`. -/
def sblock.commit_now (b : sblock) (io : stripedio) : stripedio :=
  match b.data with
  | some d =>
    if b.active = true ∧ 0 ≤ b.writedesc then
      let len := b.ptr
      let len := if len > b.end_ - b.offset then b.end_ - b.offset else len
      io.call (iocall.managed_pwritea_now b.writedesc d len b.offset)
    else io
  | none => io

/-- `sblock::read_async`. -/
def sblock.read_async (b : sblock) (io : stripedio) : stripedio :=
  match b.data with
  | some d => io.call (iocall.managed_preada_async b.readdesc d (b.end_ - b.offset) b.offset)
  | none => io

/-- `sblock::read_now`. -/
def sblock.read_now (b : sblock) (io : stripedio) : stripedio :=
  match b.data with
  | some d => io.call (iocall.managed_preada_now b.readdesc d (b.end_ - b.offset) b.offset)
  | none => io

/-- `sblock::release`. -/
def sblock.release (b : sblock) (io : stripedio) : sblock × stripedio :=
  match b.data with
  | some d => ({ b with data := none }, io.call (iocall.managed_release b.readdesc d))
  | none => ({ b with data := none }, io)

/-- The struct `indexentry`. -/
structure indexentry where
  adjoffset : Nat
  edataoffset : Nat
  deriving DecidableEq, Repr

/-! ## Vertices handed in by the caller -/

/-- A pointer to an edge value: the buffer it points into (`none` when the block had no
buffer) and the displacement from the buffer start. -/
structure edgeptr where
  base : Option buffer
  disp : Nat
  deriving DecidableEq, Repr

/-- One out-edge as passed to `add_outedge(target, evalue, special_edge)`;
`evalue = none` is the `NULL` pointer. -/
structure outedge where
  target : Nat
  evalue : Option edgeptr
  special : Bool
  deriving DecidableEq, Repr

/-- The part of `graphchi_vertex` the sliding shard uses. -/
structure svertex where
  id : Nat
  scheduled : Bool
  outedges : List outedge
  deriving DecidableEq, Repr

/-- Modelled from the spec: `graphchi_vertex::add_outedge` (`api/graph_objects.hpp` is not
part of the source tree) appends the edge to the vertex's out-edge list. -/
def svertex.add_outedge (v : svertex) (target : Nat) (evalue : Option edgeptr)
    (special : Bool) : svertex :=
  { v with outedges := v.outedges ++ [{ target := target, evalue := evalue, special := special }] }

/-! ## The sliding shard -/

/-- Lines written to the logger by the sliding shard. -/
inductive logline where
  | debug_moved (range_st : Nat) (closest_vid : Int) (closest_adjoffset : Nat) (v : Nat)
      (curvid : Nat) (adjoffset : Nat)
  | error_not_in (target range_st range_end : Nat)
  deriving DecidableEq, Repr

/-- Template parameters of `sliding_shard`, the capabilities of `svertex_t`, the build flag
`SUPPORT_DELETIONS`, and the function `translate_edge(vid, special&)` (declared outside
the source tree, used only when `sizeof(ET) != sizeof(ETspecial)`). -/
structure params where
  sizeof_ET : Nat
  sizeof_ETspecial : Nat
  computational_edges : Bool
  read_outedges : Bool
  support_deletions : Bool
  translate_edge : Nat → Nat × Bool

/-- The class `sliding_shard`.  `curblock` is an index into `activeblocks`.  The I/O
manager and the logger are threaded through the state.  `decoded` is a ghost field that
no function reads: the source ids at which `read_next_vertices` decoded a destination
record, in order. -/
structure sliding_shard where
  iomgr : stripedio
  range_st : Nat
  range_end : Nat
  blocksize : Nat
  curvid : Nat
  adjoffset : Nat
  edataoffset : Nat
  adjfilesize : Nat
  edatafilesize : Nat
  window_start_edataoffset : Nat
  activeblocks : List sblock
  edata_session : Int
  adjfile_session : Int
  curblock : Option Nat
  curadjblock : Option sblock
  sparse_index : List (Int × indexentry)
  disable_writes : Bool
  async_edata_loading : Bool
  need_read_outedges : Bool
  only_adjacency : Bool
  logger : List logline
  decoded : List Nat
  deriving DecidableEq, Repr

/-- Failures that end a run. -/
inductive fault where
  | assert_blocksize_multiple
  | assert_closest_vid_nonneg
  | assert_closest_vid_le
  | assert_newblock_end_ge_offset
  | assert_adjblock_end_pos
  | assert_adjblock_end_ge_offset
  | assert_activeblocks_le_one
  | assert_vertex_id
  | assert_target_in_range
  | out_of_bounds
  deriving DecidableEq, Repr

/-- Result of a fallible member function. -/
abbrev res (α : Type) := Except (fault × sliding_shard) α

/-! ### The sparse index (`std::map<int, indexentry>`) -/

/-- `std::map::insert`: the list is kept sorted by key; an existing key is left alone. -/
def map_insert (k : Int) (e : indexentry) : List (Int × indexentry) → List (Int × indexentry)
  | [] => [(k, e)]
  | (k', e') :: m =>
    if k < k' then (k, e) :: (k', e') :: m
    else if k = k' then (k', e') :: m
    else (k', e') :: map_insert k e m

/-- `std::map::lower_bound`: the first entry whose key is not less than `k`;
`none` is `end()`. -/
def map_lower_bound (k : Int) : List (Int × indexentry) → Option (Int × indexentry)
  | [] => none
  | (k', e') :: m => if k ≤ k' then some (k', e') else map_lower_bound k m

/-- `sliding_shard::save_offset`. -/
def save_offset (s : sliding_shard) : sliding_shard :=
  { s with sparse_index :=
      map_insert (-(to_int s.curvid)) (indexentry.mk s.adjoffset s.edataoffset) s.sparse_index }

/-- Apply `f` to the block `curblock` points to. -/
def modify_block (bs : List sblock) (idx : Nat) (f : sblock → sblock) : List sblock :=
  match bs[idx]? with
  | some b => bs.set idx (f b)
  | none => bs

/-- `sliding_shard::move_close_to`. -/
def move_close_to (v : Nat) (s : sliding_shard) : res sliding_shard :=
  if s.curvid ≥ v then pure s
  else
    match map_lower_bound (-(to_int v)) s.sparse_index with
    | none => throw (fault.out_of_bounds, s)
    | some (key, closest_offset) =>
      let closest_vid : Int := -key
      if ¬ (closest_vid ≥ 0) then throw (fault.assert_closest_vid_nonneg, s)
      else if ¬ (closest_vid ≤ to_int v) then throw (fault.assert_closest_vid_le, s)
      else if closest_vid > to_int s.curvid then
        let s := { s with logger := s.logger ++
          [logline.debug_moved s.range_st closest_vid closest_offset.adjoffset v s.curvid
            s.adjoffset] }
        let s :=
          match s.curblock with
          | some idx =>
            { s with activeblocks := modify_block s.activeblocks idx (fun b =>
                { b with ptr := u64 (b.ptr +
                    u64 (closest_offset.edataoffset + 18446744073709551616 - s.edataoffset)) }) }
          | none => s
        let s :=
          match s.curadjblock with
          | some b =>
            { s with curadjblock := some { b with ptr := u64 (b.ptr +
                u64 (closest_offset.adjoffset + 18446744073709551616 - s.adjoffset)) } }
          | none => s
        pure { s with curvid := u32 closest_vid.toNat,
                      adjoffset := closest_offset.adjoffset,
                      edataoffset := closest_offset.edataoffset }
      else pure s

/-- The allocation half of `check_curblock`: a new block at the current edge-data offset. -/
def load_next_block (s : sliding_shard) : res sliding_shard :=
  let offset := s.edataoffset
  let end_ := min s.edatafilesize (u64 (s.edataoffset + s.blocksize))
  if ¬ (end_ ≥ offset) then throw (fault.assert_newblock_end_ge_offset, s)
  else
    let (d, io) := s.iomgr.managed_malloc s.edata_session (end_ - offset) offset
    let newblock : sblock :=
      { writedesc := s.edata_session, readdesc := s.edata_session, offset := offset,
        end_ := end_, data := some d, ptr := 0, active := false }
    pure { s with iomgr := io, activeblocks := s.activeblocks ++ [newblock],
                  curblock := some s.activeblocks.length }

/-- `sliding_shard::check_curblock`. -/
def check_curblock (toread : Nat) (s : sliding_shard) : res sliding_shard :=
  match s.curblock with
  | none => load_next_block s
  | some idx =>
    match s.activeblocks[idx]? with
    | none => throw (fault.out_of_bounds, s)
    | some cb =>
      if cb.end_ < u64 (s.edataoffset + toread) then
        if cb.active = false then
          let (cb', io) := cb.release s.iomgr
          load_next_block { s with iomgr := io, activeblocks := s.activeblocks.set idx cb' }
        else load_next_block s
      else pure s

/-- The loading half of `check_adjblock`: a new adjacency block at the current adjacency
offset, read synchronously. -/
def load_adjblock (s : sliding_shard) : res sliding_shard :=
  let offset := s.adjoffset
  let end_ := min s.adjfilesize (u64 (s.adjoffset + s.blocksize))
  if ¬ (end_ > 0) then throw (fault.assert_adjblock_end_pos, s)
  else if ¬ (end_ ≥ offset) then throw (fault.assert_adjblock_end_ge_offset, s)
  else
    let (d, io) := s.iomgr.managed_malloc s.adjfile_session (end_ - offset) s.adjoffset
    let io := io.call (iocall.managed_preada_now s.adjfile_session d (end_ - offset) s.adjoffset)
    pure { s with iomgr := io,
                  curadjblock := some { writedesc := 0, readdesc := s.adjfile_session,
                                        offset := offset, end_ := end_, data := some d,
                                        ptr := 0, active := false } }

/-- `sliding_shard::check_adjblock`. -/
def check_adjblock (toread : Nat) (s : sliding_shard) : res sliding_shard :=
  match s.curadjblock with
  | none => load_adjblock s
  | some b =>
    if b.end_ ≤ u64 (s.adjoffset + toread) then
      load_adjblock { s with iomgr := (b.release s.iomgr).2, curadjblock := none }
    else pure s

/-- Little-endian value of a byte string. -/
def le_value : List Nat → Nat
  | [] => 0
  | b :: bs => b + 256 * le_value bs

/-- `sliding_shard::read_val<U>` with `sz = sizeof(U)`.  The buffer of the adjacency block
holds the bytes `[offset, offset + length)` of the adjacency file `adj`, which
`check_adjblock` read into it. -/
def read_val (adj : List Nat) (sz : Nat) (s : sliding_shard) : res (Nat × sliding_shard) :=
  match check_adjblock sz s with
  | .error e => .error e
  | .ok s =>
    match s.curadjblock with
    | none => throw (fault.out_of_bounds, s)
    | some b =>
      match b.data with
      | none => throw (fault.out_of_bounds, s)
      | some d =>
        if b.ptr + sz ≤ d.length ∧ d.offset + b.ptr + sz ≤ adj.length then
          let v := le_value ((adj.drop (d.offset + b.ptr)).take sz)
          pure (v, { s with adjoffset := u64 (s.adjoffset + sz),
                            curadjblock := some { b with ptr := u64 (b.ptr + sz) } })
        else throw (fault.out_of_bounds, s)

/-- `sliding_shard::read_edgeptr<U>` with `sz = sizeof(U)`; `none` is `NULL`. -/
def read_edgeptr (sz : Nat) (s : sliding_shard) : res (Option edgeptr × sliding_shard) :=
  if s.only_adjacency = true then pure (none, s)
  else
    match check_curblock sz s with
    | .error e => .error e
    | .ok s =>
      match s.curblock with
      | none => throw (fault.out_of_bounds, s)
      | some idx =>
        match s.activeblocks[idx]? with
        | none => throw (fault.out_of_bounds, s)
        | some cb =>
          let resptr : edgeptr := { base := cb.data, disp := cb.ptr }
          pure (some resptr,
            { s with edataoffset := u64 (s.edataoffset + sz),
                     activeblocks := s.activeblocks.set idx { cb with ptr := u64 (cb.ptr + sz) } })

/-- `sliding_shard::skip(n, sz)`. -/
def skip (P : params) (n sz : Int) (s : sliding_shard) : sliding_shard :=
  let tot : Nat := int_to_size_t (n * sz)
  let s := { s with adjoffset := u64 (s.adjoffset + tot) }
  let s :=
    match s.curadjblock with
    | some b => { s with curadjblock := some { b with ptr := u64 (b.ptr + tot) } }
    | none => s
  let etot : Nat := int_to_size_t ((P.sizeof_ET : Int) * n)
  let s := { s with edataoffset := u64 (s.edataoffset + etot) }
  match s.curblock with
  | some idx =>
    { s with activeblocks := modify_block s.activeblocks idx (fun b =>
        { b with ptr := u64 (b.ptr + etot) }) }
  | none => s

/-- `sliding_shard::commit`.  The block is returned as `release` leaves it. -/
def commit (b : sblock) (synchronously disable_writes : Bool) (io : stripedio) :
    sblock × stripedio :=
  if synchronously = true then
    let io := if disable_writes = false then b.commit_now io else io
    b.release io
  else
    if disable_writes = false then (b, b.commit_async io)
    else b.release io

/-- The loop of `release_prior_to_offset` over the blocks, the last block first: the
blocks that stay, in their order, and the I/O manager after the commits. -/
def release_blocks (all disable_writes : Bool) (edataoffset : Nat) :
    List sblock → stripedio → List sblock × stripedio
  | [], io => ([], io)
  | b :: bs, io =>
    let (bs', io) := release_blocks all disable_writes edataoffset bs io
    if b.end_ ≤ edataoffset ∨ all = true then
      (bs', (commit b all disable_writes io).2)
    else (b :: bs', io)

/-- `sliding_shard::release_prior_to_offset`. -/
def release_prior_to_offset (all disable_writes : Bool) (s : sliding_shard) : sliding_shard :=
  let (bs, io) := release_blocks all disable_writes s.edataoffset s.activeblocks s.iomgr
  { s with activeblocks := bs, iomgr := io }

/-- `sliding_shard::flush`. -/
def flush (s : sliding_shard) : sliding_shard :=
  let s := release_prior_to_offset true false s
  match s.curadjblock with
  | some b => { s with iomgr := (b.release s.iomgr).2, curadjblock := none }
  | none => s

/-- `sliding_shard::set_offset`. -/
def set_offset (newoff : Nat) (_curvid : Nat) (edgeptr_ : Nat) (s : sliding_shard) :
    sliding_shard :=
  let s := { s with adjoffset := newoff, curvid := _curvid, edataoffset := edgeptr_ }
  match s.curadjblock with
  | some b => { s with iomgr := (b.release s.iomgr).2, curadjblock := none }
  | none => s

/-- `sliding_shard::num_edges`. -/
def num_edges (P : params) (s : sliding_shard) : Nat := s.edatafilesize / P.sizeof_ET

/-- The statements of the edge loop of `read_next_vertices` that follow `read_edgeptr`
when `only_adjacency` is false: load the current block unless it is active, and mark it
active. -/
def activate_curblock (s : sliding_shard) : res sliding_shard :=
  match s.curblock with
  | none => throw (fault.out_of_bounds, s)
  | some idx =>
    match s.activeblocks[idx]? with
    | none => throw (fault.out_of_bounds, s)
    | some cb =>
      let io :=
        if cb.active = false then
          if s.async_edata_loading = true then cb.read_async s.iomgr
          else if s.need_read_outedges = true then cb.read_now s.iomgr
          else s.iomgr
        else s.iomgr
      pure { s with iomgr := io, activeblocks := s.activeblocks.set idx { cb with active := true } }

/-- The bounds check at the end of the body of `while(--n>=0)`: log, print the session and
fail when `target` is outside `[range_st, range_end]`. -/
def check_target (target : Nat) (s : sliding_shard) (vertex : svertex) :
    res (sliding_shard × svertex) :=
  if ¬ (target ≥ s.range_st ∧ target ≤ s.range_end) then
    let s := { s with logger := s.logger ++ [logline.error_not_in target s.range_st s.range_end] }
    let s := { s with iomgr := s.iomgr.call (iocall.print_session s.adjfile_session) }
    throw (fault.assert_target_in_range, s)
  else pure (s, vertex)

/-- One pass of the body of `while(--n>=0)` in `read_next_vertices`: decode one
destination and attach it to `vertex`. -/
def read_edge (P : params) (adj : List Nat) (s : sliding_shard) (vertex : svertex) :
    res (sliding_shard × svertex) :=
  match read_val adj 4 s with
  | .error e => .error e
  | .ok (raw, s) =>
    let ts : Nat × Bool :=
      if P.sizeof_ET = P.sizeof_ETspecial then (raw, false) else P.translate_edge raw
    let target := ts.1
    let special_edge := ts.2
    match read_edgeptr (if special_edge = true then P.sizeof_ETspecial else P.sizeof_ET) s with
    | .error e => .error e
    | .ok (evalue, s) =>
      match (if s.only_adjacency = false then activate_curblock s else pure s) with
      | .error e => .error e
      | .ok s => check_target target s (vertex.add_outedge target evalue special_edge)

/-- The loop `while(--n>=0)` run `k` times. -/
def read_edges (P : params) (adj : List Nat) :
    Nat → sliding_shard → svertex → res (sliding_shard × svertex)
  | 0, s, vertex => pure (s, vertex)
  | k + 1, s, vertex =>
    match read_edge P adj s vertex with
    | .error e => .error e
    | .ok (s, vertex) => read_edges P adj k s vertex

/-- The checkpoint test at the head of the loop body of `read_next_vertices`: the state
and the new value of `lastrec`. -/
def record_checkpoint (nvecs : Int) (record_index : Bool) (lastrec : Nat) (s : sliding_shard) :
    sliding_shard × Nat :=
  if record_index = true ∧
      u32 (s.curvid + 4294967296 - lastrec) ≥ (max (100000 : Int) (nvecs.tdiv 16)).toNat then
    (save_offset s, s.curvid)
  else (s, lastrec)

/-- The count `n` of a record whose first byte is `ns` (not `0x00`). -/
def read_count (adj : List Nat) (ns : Nat) (s : sliding_shard) : res (Int × sliding_shard) :=
  if ns = 255 then
    match read_val adj 4 s with
    | .error e => .error e
    | .ok (c, s) => pure (to_int c, s)
  else pure ((ns : Int), s)

/-- The part of the loop body of `read_next_vertices` that handles the `n` destinations of
a record: skip them when `i < 0` or the vertex is not scheduled, attach them otherwise. -/
def read_record (P : params) (adj : List Nat) (i n : Int) (s : sliding_shard)
    (prealloc : List svertex) : res (sliding_shard × List svertex) :=
  if i < 0 then pure (skip P n 4 s, prealloc)
  else
    match prealloc[i.toNat]? with
    | none => throw (fault.out_of_bounds, s)
    | some vertex =>
      if ¬ (vertex.id = s.curvid) then throw (fault.assert_vertex_id, s)
      else if vertex.scheduled = true then
        match read_edges P adj n.toNat s vertex with
        | .error e => .error e
        | .ok (s, vertex) => pure (s, prealloc.set i.toNat vertex)
      else pure (skip P n 4 s, prealloc)

/-- The body of the `for` loop of `read_next_vertices`, from the checkpoint test to the
end of the iteration (`continue` included).  It returns the value of `i` at the end of the
body (before the `i++` of the loop header), `lastrec`, the state and the vertices. -/
def rnv_body (P : params) (adj : List Nat) (nvecs : Int) (record_index : Bool)
    (i : Int) (lastrec : Nat) (s : sliding_shard) (prealloc : List svertex) :
    res (Int × Nat × sliding_shard × List svertex) :=
  let sl := record_checkpoint nvecs record_index lastrec s
  match read_val adj 1 sl.1 with
  | .error e => .error e
  | .ok (ns, s) =>
    if ns = 0 then
      match read_val adj 1 { s with curvid := u32 (s.curvid + 1) } with
      | .error e => .error e
      | .ok (nz, s) => pure (i + nz, sl.2, { s with curvid := u32 (s.curvid + nz) }, prealloc)
    else
      match read_count adj ns s with
      | .error e => .error e
      | .ok (n, s) =>
        match read_record P adj i n s prealloc with
        | .error e => .error e
        | .ok (s, prealloc) =>
          pure (i, sl.2,
            { s with decoded := s.decoded ++ [s.curvid], curvid := u32 (s.curvid + 1) }, prealloc)

/-- The `for` loop of `read_next_vertices`.  Every pass adds at least one to `i`, so
`nvecs - i` passes are enough: the first argument counts them down. -/
def rnv_loop (P : params) (adj : List Nat) (nvecs : Int) (record_index : Bool) :
    Nat → Int → Nat → sliding_shard → List svertex → res (sliding_shard × List svertex)
  | 0, _, _, s, prealloc => pure (s, prealloc)
  | fuel + 1, i, lastrec, s, prealloc =>
    if i < nvecs then
      if s.adjoffset ≥ s.adjfilesize then pure (s, prealloc)
      else
        match rnv_body P adj nvecs record_index i lastrec s prealloc with
        | .error e => .error e
        | .ok (i, lastrec, s, prealloc) =>
          rnv_loop P adj nvecs record_index fuel (i + 1) lastrec s prealloc
    else pure (s, prealloc)

/-- The statements of `read_next_vertices` between `move_close_to` and the loop: release
the blocks that are not needed any more, check that at most one is left and make it the
current block. -/
def rnv_prepare (disable_writes : Bool) (s : sliding_shard) : res sliding_shard :=
  let s := { s with curblock := none }
  let s := release_prior_to_offset false disable_writes s
  if ¬ (s.activeblocks.length ≤ 1) then throw (fault.assert_activeblocks_le_one, s)
  else
    let s :=
      if ¬ s.activeblocks.isEmpty ∧ s.only_adjacency = false then { s with curblock := some 0 }
      else s
    pure { s with window_start_edataoffset := s.edataoffset }

/-- `sliding_shard::read_next_vertices`. -/
def read_next_vertices (P : params) (adj : List Nat) (nvecs : Int) (start : Nat)
    (prealloc : List svertex) (record_index disable_writes : Bool) (s : sliding_shard) :
    res (sliding_shard × List svertex) :=
  match (if record_index = false then move_close_to start s else pure s) with
  | .error e => .error e
  | .ok s =>
    match rnv_prepare disable_writes s with
    | .error e => .error e
    | .ok s =>
      let lastrec := start
      let i : Int := to_int s.curvid - to_int start
      match rnv_loop P adj nvecs record_index (nvecs - i).toNat i lastrec s prealloc with
      | .error e => .error e
      | .ok (s, prealloc) => pure ({ s with curblock := none }, prealloc)

/-- The padding loop `while(blocksize % sizeof(ET) != 0) blocksize++` of the constructor;
`sizeof(ET)` passes are enough. -/
def pad_blocksize (sz : Nat) : Nat → Nat → Nat
  | 0, blocksize => blocksize
  | fuel + 1, blocksize =>
    if blocksize % sz ≠ 0 then pad_blocksize sz fuel (u64 (blocksize + 1)) else blocksize

/-- The constructor of `sliding_shard`.  `adjfilesize` and `edatafilesize` are what
`get_filesize` returns for the two files; `none` is a failure of
`assert(blocksize % sizeof(ET)==0)`.  The member initialiser `disable_writes(_disable_writes)`
is followed by the assignment `disable_writes = false` of the body. -/
def sliding_shard.construct (P : params) (iomgr : stripedio) (edatafilesize adjfilesize : Nat)
    (_range_st _range_en _blocksize : Nat) (_disable_writes onlyadj : Bool) :
    Option sliding_shard :=
  let blocksize := pad_blocksize P.sizeof_ET P.sizeof_ET _blocksize
  if ¬ (blocksize % P.sizeof_ET = 0) then none
  else
    let (edata_session, iomgr) :=
      if onlyadj = false then iomgr.open_session false else ((-1 : Int), iomgr)
    let (adjfile_session, iomgr) := iomgr.open_session true
    let s : sliding_shard :=
      { iomgr := iomgr, range_st := _range_st, range_end := _range_en, blocksize := blocksize,
        curvid := 0, adjoffset := 0, edataoffset := 0, adjfilesize := adjfilesize,
        edatafilesize := edatafilesize, window_start_edataoffset := 0, activeblocks := [],
        edata_session := edata_session, adjfile_session := adjfile_session,
        curblock := none, curadjblock := none, sparse_index := [],
        disable_writes := _disable_writes,
        async_edata_loading := if P.support_deletions = true then false
                               else !P.computational_edges,
        need_read_outedges := P.read_outedges, only_adjacency := onlyadj,
        logger := [], decoded := [] }
    let s := { s with disable_writes := false }
    some (save_offset s)

/-- The destructor of `sliding_shard`. -/
def sliding_shard.destroy (s : sliding_shard) : sliding_shard :=
  let s := release_prior_to_offset true false s
  let s :=
    match s.curblock with
    | some idx =>
      match s.activeblocks[idx]? with
      | some cb => { s with iomgr := (cb.release s.iomgr).2, curblock := none }
      | none => { s with curblock := none }
    | none => s
  let s :=
    match s.curadjblock with
    | some b => { s with iomgr := (b.release s.iomgr).2, curadjblock := none }
    | none => s
  let s :=
    if s.edata_session ≥ 0 then
      { s with iomgr := s.iomgr.call (iocall.close_session s.edata_session) }
    else s
  { s with iomgr := s.iomgr.call (iocall.close_session s.adjfile_session) }

/-! ### Sequences of calls on one sliding shard -/

/-- A call of a public member function. -/
inductive op where
  | read (nvecs : Int) (start : Nat) (prealloc : List svertex) (record_index disable_writes : Bool)
  | flush
  | set_offset (newoff vid edgeptr_ : Nat)
  deriving DecidableEq, Repr

/-- Run one call; a `read` returns the vertices as the call leaves them. -/
def exec (P : params) (adj : List Nat) (s : sliding_shard) : op → res (sliding_shard × List svertex)
  | op.read nvecs start prealloc record_index disable_writes =>
    read_next_vertices P adj nvecs start prealloc record_index disable_writes s
  | op.flush => pure (flush s, [])
  | op.set_offset newoff vid edgeptr_ => pure (set_offset newoff vid edgeptr_ s, [])

/-- Run a sequence of calls, collecting what each call returns. -/
def run (P : params) (adj : List Nat) :
    sliding_shard → List op → res (sliding_shard × List (List svertex))
  | s, [] => pure (s, [])
  | s, o :: os =>
    match exec P adj s o with
    | .error e => .error e
    | .ok (s, out) =>
      match run P adj s os with
      | .error e => .error e
      | .ok (s, outs) => pure (s, out :: outs)

/-! ## Definitions used in the statements and proofs -/

/-- `s'` differs from `s` at most in the I/O manager, the two offsets and the blocks. -/
def frame6 (s s' : sliding_shard) : Prop :=
  ∃ (io : stripedio) (ao : Nat) (cab : Option sblock) (eo : Nat) (bl : List sblock)
    (cb : Option Nat),
    s' = { s with iomgr := io, adjoffset := ao, curadjblock := cab, edataoffset := eo,
                  activeblocks := bl, curblock := cb }

/-- `v'` is `v` with out-edges appended, every new target inside `[lo, hi]`. -/
def vext (lo hi : Nat) (v v' : svertex) : Prop :=
  v'.id = v.id ∧ v'.scheduled = v.scheduled ∧
    ∃ new, v'.outedges = v.outedges ++ new ∧ ∀ e ∈ new, lo ≤ e.target ∧ e.target ≤ hi

/-- Slot by slot, `pre'` is `pre` with out-edges appended, every new target inside `[lo, hi]`. -/
def slots_ext (lo hi : Nat) (pre pre' : List svertex) : Prop :=
  pre'.length = pre.length ∧
    ∀ (j : Nat) (v : svertex), pre[j]? = some v → ∃ v', pre'[j]? = some v' ∧ vext lo hi v v'

/-- The result is not a failure of the bounds assertion. -/
def no_bounds_fault {α : Type} (r : res α) : Prop :=
  ∀ s', r ≠ .error (fault.assert_target_in_range, s')

/-- What a failure of the bounds assertion leaves behind: the diagnostic is the last line
of the log, it names a target outside `[lo, hi]` and both bounds. -/
def bounds_diag (lo hi : Nat) (s' : sliding_shard) : Prop :=
  ∃ t log0, s'.logger = log0 ++ [logline.error_not_in t lo hi] ∧ ¬ (lo ≤ t ∧ t ≤ hi) ∧
    ∃ io0, s'.iomgr.calls = io0 ++ [iocall.print_session s'.adjfile_session]

/-- Fields that the loop of `read_next_vertices` never writes. -/
def loop_frame (s s' : sliding_shard) : Prop :=
  s'.range_st = s.range_st ∧ s'.range_end = s.range_end ∧ s'.logger = s.logger ∧
  s'.adjfilesize = s.adjfilesize

/-- The ghost list of decoded sources is strictly increasing and lies below the cursor. -/
def decoded_sorted (s : sliding_shard) : Prop :=
  s.decoded.Pairwise (fun a b => a < b) ∧ ∀ x ∈ s.decoded, x < s.curvid

/-- Calls admitted in a run without `set_offset`: reads of `nvecs ≥ 0` vertices whose
range stays below `2^31 - 256`, and flushes. -/
def op_forward : op → Prop
  | op.read nvecs start _ _ _ => 0 ≤ nvecs ∧ (start : Int) + nvecs + 256 ≤ 2147483648
  | op.flush => True
  | op.set_offset _ _ _ => False

/-- The calls a synchronous commit of block `b` makes: the write of the prefix filled so
far (when the block is active, has a buffer and a valid descriptor), then the release of
the buffer. -/
def sync_commit_calls (b : sblock) : List iocall :=
  match b.data with
  | some d =>
    (if b.active = true ∧ 0 ≤ b.writedesc then
      [iocall.managed_pwritea_now b.writedesc d (min b.ptr (b.end_ - b.offset)) b.offset]
     else []) ++ [iocall.managed_release b.readdesc d]
  | none => []

/-- One entry of an adjacency file: a skip pair `0x00 nz`, or a destination record, in the
short form (one count byte) or the long form (`0xff` and a 32-bit count). -/
inductive adjitem where
  | skip (nz : Nat)
  | record (long : Bool) (dsts : List Nat)
  deriving DecidableEq, Repr

/-- The four bytes of a 32-bit value, least significant first. -/
def le4 (v : Nat) : List Nat :=
  [v % 256, v / 256 % 256, v / 65536 % 256, v / 16777216 % 256]

/-- The bytes of the destinations of a record. -/
def encode_dsts : List Nat → List Nat
  | [] => []
  | d :: ds => le4 d ++ encode_dsts ds

/-- The bytes of one entry. -/
def encode_item : adjitem → List Nat
  | adjitem.skip nz => [0, nz]
  | adjitem.record false dsts => dsts.length :: encode_dsts dsts
  | adjitem.record true dsts => 255 :: (le4 dsts.length ++ encode_dsts dsts)

/-- The bytes of a sequence of entries: a well-formed adjacency file. -/
def encode_items : List adjitem → List Nat
  | [] => []
  | it :: its => encode_item it ++ encode_items its

/-- An entry the decoder reads back as written: a skip byte below 256; destinations that
are 32-bit values; a count between 1 and 254 in the short form, and a count that fits
`int` in the long form. -/
def valid_item : adjitem → Prop
  | adjitem.skip nz => nz < 256
  | adjitem.record false dsts => (∀ d ∈ dsts, d < 4294967296) ∧ 0 < dsts.length ∧ dsts.length < 255
  | adjitem.record true dsts => (∀ d ∈ dsts, d < 4294967296) ∧ dsts.length < 2147483648

instance (it : adjitem) : Decidable (valid_item it) := by
  cases it with
  | skip nz => unfold valid_item; infer_instance
  | record long dsts => cases long <;> unfold valid_item <;> infer_instance

/-- Number of source ids an entry covers. -/
def item_span : adjitem → Nat
  | adjitem.skip nz => nz + 1
  | adjitem.record _ _ => 1

/-- Number of source ids a sequence of entries covers. -/
def span : List adjitem → Nat
  | [] => 0
  | it :: its => item_span it + span its

/-- Number of destinations in a sequence of entries. -/
def ndsts : List adjitem → Nat
  | [] => 0
  | adjitem.skip _ :: its => ndsts its
  | adjitem.record _ dsts :: its => dsts.length + ndsts its

/-- All destinations of a sequence of entries, in file order. -/
def all_dsts : List adjitem → List Nat
  | [] => []
  | adjitem.skip _ :: its => all_dsts its
  | adjitem.record _ dsts :: its => dsts ++ all_dsts its

/-- The adjacency block, when present, holds the bytes `[offset, end)` of the file in a
buffer of the adjacency session, and its read pointer stands at the adjacency offset. -/
def adj_coherent (s : sliding_shard) : Prop :=
  ∀ b, s.curadjblock = some b →
    ∃ d, b.data = some d ∧ d.session = s.adjfile_session ∧ d.id < s.iomgr.nbufs ∧
      d.offset = b.offset ∧ d.length = b.end_ - b.offset ∧ b.offset ≤ b.end_ ∧
      b.end_ ≤ s.adjfilesize ∧ b.offset + b.ptr = s.adjoffset ∧ b.readdesc = s.adjfile_session

/-- The buffer a call is about. -/
def iocall.buf : iocall → Option buffer
  | iocall.open_session _ _ => none
  | iocall.managed_malloc _ b => some b
  | iocall.managed_release _ b => some b
  | iocall.managed_preada_now _ b _ _ => some b
  | iocall.managed_preada_async _ b _ _ => some b
  | iocall.managed_pwritea_now _ b _ _ => some b
  | iocall.managed_pwritea_async _ b _ _ _ => some b
  | iocall.print_session _ => none
  | iocall.close_session _ => none

/-- The session a call is made on. -/
def iocall.session : iocall → Int
  | iocall.open_session s _ => s
  | iocall.managed_malloc s _ => s
  | iocall.managed_release s _ => s
  | iocall.managed_preada_now s _ _ _ => s
  | iocall.managed_preada_async s _ _ _ => s
  | iocall.managed_pwritea_now s _ _ _ => s
  | iocall.managed_pwritea_async s _ _ _ _ => s
  | iocall.print_session s => s
  | iocall.close_session s => s

/-- The I/O manager `io'` is `io` after calls that are all made on session `a`, about
buffers of session `a`. -/
def adj_io (a : Int) (io io' : stripedio) : Prop :=
  ∃ ext, io'.calls = io.calls ++ ext ∧ io'.nsessions = io.nsessions ∧ io.nbufs ≤ io'.nbufs ∧
    ∀ c ∈ ext, c.session = a ∧ ∃ d, c.buf = some d ∧ d.session = a ∧ d.id < io'.nbufs

/-- The call reads into buffer `d`. -/
def is_read_of (d : buffer) : iocall → Bool
  | iocall.managed_preada_now _ b _ _ => decide (b = d)
  | iocall.managed_preada_async _ b _ _ => decide (b = d)
  | _ => false

/-- The call writes buffer `d`. -/
def is_write_of (d : buffer) : iocall → Bool
  | iocall.managed_pwritea_now _ b _ _ => decide (b = d)
  | iocall.managed_pwritea_async _ b _ _ _ => decide (b = d)
  | _ => false

/-- The call releases buffer `d`. -/
def is_release_of (d : buffer) : iocall → Bool
  | iocall.managed_release _ b => decide (b = d)
  | _ => false

/-- The call is a block read on session `e`. -/
def is_sess_read (e : Int) : iocall → Bool
  | iocall.managed_preada_now s _ _ _ => decide (s = e)
  | iocall.managed_preada_async s _ _ _ => decide (s = e)
  | _ => false

/-- The call is a block write on session `e`. -/
def is_sess_write (e : Int) : iocall → Bool
  | iocall.managed_pwritea_now s _ _ _ => decide (s = e)
  | iocall.managed_pwritea_async s _ _ _ _ => decide (s = e)
  | _ => false

/-- The call allocates a block buffer on session `e`. -/
def is_sess_malloc (e : Int) : iocall → Bool
  | iocall.managed_malloc s _ => decide (s = e)
  | _ => false

/-- The call writes buffer `d` at the file offset of the buffer, with a length that
covers the `sz` bytes at displacement `p`. -/
def write_covers (sz : Nat) (d : buffer) (p : Nat) : iocall → Prop
  | iocall.managed_pwritea_now _ b len off => b = d ∧ off = d.offset ∧ p + sz ≤ len
  | iocall.managed_pwritea_async _ b len off _ => b = d ∧ off = d.offset ∧ p + sz ≤ len
  | _ => False

/-- In the call sequence there is a write of buffer `d` covering the `sz` bytes at
displacement `p`, and no release of `d` comes before it. -/
def covered (sz : Nat) (d : buffer) (p : Nat) (calls : List iocall) : Prop :=
  ∃ l1 w l2, calls = l1 ++ w :: l2 ∧ write_covers sz d p w ∧ ∀ c ∈ l1, is_release_of d c = false

/-- An edge-data block as `check_curblock` makes it and the edge loop leaves it: it owns a
buffer of the edge-data session for the bytes `[offset, end)`, `end` is the block size
further or the end of the file, it is active, its read pointer is not ahead of the
cursor, and its buffer has been neither written nor released. -/
def blk_ok (P : params) (s : sliding_shard) (b : sblock) : Prop :=
  ∃ d, b.data = some d ∧ d.session = s.edata_session ∧ d.id < s.iomgr.nbufs ∧
    d.offset = b.offset ∧ d.length = b.end_ - b.offset ∧
    b.writedesc = s.edata_session ∧ b.readdesc = s.edata_session ∧
    b.end_ = min s.edatafilesize (b.offset + s.blocksize) ∧ b.offset < b.end_ ∧
    P.sizeof_ET ∣ b.offset ∧ b.active = true ∧ b.offset + b.ptr ≤ s.edataoffset ∧
    s.iomgr.calls.countP (is_write_of d) = 0 ∧ s.iomgr.calls.countP (is_release_of d) = 0

/-- The invariant of the edge-data side of a sliding shard, between two destinations.
`H` is the list of edge pointers handed out so far. -/
structure einv (P : params) (H : List edgeptr) (s : sliding_shard) : Prop where
  fresh : ∀ c ∈ s.iomgr.calls, ∀ d, c.buf = some d → d.id < s.iomgr.nbufs
  blocks : ∀ b ∈ s.activeblocks, blk_ok P s b
  order : s.activeblocks.Pairwise (fun b1 b2 => b1.end_ ≤ b2.offset)
  lastptr : ∀ init lb, s.activeblocks = init ++ [lb] → lb.offset + lb.ptr = s.edataoffset
  once : ∀ d, d.session = s.edata_session →
    s.iomgr.calls.countP (is_read_of d) ≤ 1 ∧ s.iomgr.calls.countP (is_write_of d) ≤ 1
  reads : s.iomgr.calls.countP (is_sess_read s.edata_session)
    ≤ s.iomgr.calls.countP (is_sess_malloc s.edata_session)
  writes : s.iomgr.calls.countP (is_sess_write s.edata_session) + s.activeblocks.length
    ≤ s.iomgr.calls.countP (is_sess_malloc s.edata_session)
  front1 : s.iomgr.calls.countP (is_sess_malloc s.edata_session) = 0 ∨
    (s.iomgr.calls.countP (is_sess_malloc s.edata_session) - 1) * s.blocksize + P.sizeof_ET
      ≤ s.edatafilesize
  front2 : s.activeblocks = [] →
    s.iomgr.calls.countP (is_sess_malloc s.edata_session) * s.blocksize ≤ s.edataoffset ∨
    s.edatafilesize ≤ s.edataoffset
  front3 : ∀ init lb, s.activeblocks = init ++ [lb] →
    1 ≤ s.iomgr.calls.countP (is_sess_malloc s.edata_session) ∧
    (s.iomgr.calls.countP (is_sess_malloc s.edata_session) - 1) * s.blocksize ≤ lb.offset
  align : P.sizeof_ET ∣ s.edataoffset
  ptrs : ∀ p ∈ H, ∃ d, p.base = some d ∧ d.session = s.edata_session ∧
    p.disp + P.sizeof_ET ≤ d.length ∧
    ((∃ b ∈ s.activeblocks, b.data = some d ∧ p.disp + P.sizeof_ET ≤ b.ptr) ∨
      covered P.sizeof_ET d p.disp s.iomgr.calls)

/-- Inside the loop of `read_next_vertices` the current block is the last active block,
or there is no block at all. -/
def cur_ok (s : sliding_shard) : Prop :=
  (s.curblock = none ∧ s.activeblocks = []) ∨
  (∃ init lb, s.activeblocks = init ++ [lb] ∧ s.curblock = some init.length)

/-- The static configuration the theorems about a well-formed shard assume: a positive
record size shared by `ET` and `ETspecial`, a block size of at least four bytes that is a
multiple of the record size, sizes below `2^62`, edge data in use, and distinct
non-negative session descriptors. -/
def cfg_ok (P : params) (adj : List Nat) (s : sliding_shard) : Prop :=
  0 < P.sizeof_ET ∧ P.sizeof_ET = P.sizeof_ETspecial ∧ s.adjfilesize = adj.length ∧
  adj.length < 4611686018427387904 ∧ s.edatafilesize < 4611686018427387904 ∧
  4 ≤ s.blocksize ∧ s.blocksize < 4611686018427387904 ∧ P.sizeof_ET ∣ s.blocksize ∧
  s.only_adjacency = false ∧ s.edata_session ≠ s.adjfile_session ∧ 0 ≤ s.edata_session

/-- The buffer `check_curblock` allocates at the current edge-data offset. -/
def new_buffer (s : sliding_shard) : buffer :=
  { id := s.iomgr.nbufs, session := s.edata_session, offset := s.edataoffset,
    length := min s.edatafilesize (s.edataoffset + s.blocksize) - s.edataoffset }

/-- The read the edge loop issues for a block that is not active yet. -/
def load_calls (s : sliding_shard) : List iocall :=
  if s.async_edata_loading = true then
    [iocall.managed_preada_async s.edata_session (new_buffer s) (new_buffer s).length s.edataoffset]
  else if s.need_read_outedges = true then
    [iocall.managed_preada_now s.edata_session (new_buffer s) (new_buffer s).length s.edataoffset]
  else []

/-- The block `check_curblock` allocates at the current edge-data offset, after the edge
loop has handed out its first record and marked it active. -/
def new_block (P : params) (s : sliding_shard) : sblock :=
  { writedesc := s.edata_session, readdesc := s.edata_session, offset := s.edataoffset,
    end_ := min s.edatafilesize (s.edataoffset + s.blocksize), data := some (new_buffer s),
    ptr := P.sizeof_ET, active := true }

/-- The state after one destination got its edge pointer from a block allocated for it:
the new block is appended, loaded, active and current, and its read pointer stands after
the first record. -/
def edge_new (P : params) (s : sliding_shard) : sliding_shard :=
  { s with
    edataoffset := s.edataoffset + P.sizeof_ET,
    iomgr := { calls := s.iomgr.calls ++ [iocall.managed_malloc s.edata_session (new_buffer s)]
                  ++ load_calls s,
               nsessions := s.iomgr.nsessions, nbufs := s.iomgr.nbufs + 1 },
    activeblocks := s.activeblocks ++ [new_block P s],
    curblock := some s.activeblocks.length }

/-- The state after one destination got its edge pointer from the current block `lb`, the
last of the active blocks. -/
def edge_fit (P : params) (s : sliding_shard) (init : List sblock) (lb : sblock) : sliding_shard :=
  { s with
    edataoffset := s.edataoffset + P.sizeof_ET,
    activeblocks := init ++ [{ lb with ptr := lb.ptr + P.sizeof_ET }] }

/-- `s'` differs from `s` at most in the I/O manager, the edge-data offset and the blocks. -/
def frame_ed (s s' : sliding_shard) : Prop :=
  ∃ (io : stripedio) (eo : Nat) (bl : List sblock) (cb : Option Nat),
    s' = { s with iomgr := io, edataoffset := eo, activeblocks := bl, curblock := cb }

/-- The calls `edge_new` adds: the allocation of the new buffer, then its load. -/
def new_calls (s : sliding_shard) : List iocall :=
  iocall.managed_malloc s.edata_session (new_buffer s) :: load_calls s

/-- The invariant of the loop of `read_next_vertices` between two destinations: static
configuration, coherent adjacency block, edge-data invariant, current block in place. -/
structure linv (P : params) (adj : List Nat) (H : List edgeptr) (s : sliding_shard) : Prop where
  cfg : cfg_ok P adj s
  adjc : adj_coherent s
  ed : einv P H s
  cur : cur_ok s

/-- The out-edge `e` carries destination `dg.1` and a pointer to record number `dg.2` of
the edge-data file. -/
def edge_at (P : params) (e : outedge) (dg : Nat × Nat) : Prop :=
  e.target = dg.1 ∧ e.special = false ∧
    ∃ p d, e.evalue = some p ∧ p.base = some d ∧ d.offset + p.disp = P.sizeof_ET * dg.2

/-- The out-edges `new` are, in order, the pairs of `spec` (destination, number of the
edge-data record), and their pointers are all recorded in `H`. -/
def new_ok (P : params) (H : List edgeptr) (new : List outedge) (spec : List (Nat × Nat)) : Prop :=
  List.Forall₂ (edge_at P) new spec ∧ ∀ e ∈ new, ∃ p, e.evalue = some p ∧ p ∈ H

/-- The destinations of a record paired with the numbers of their edge-data records, the
first destination having number `g`. -/
def rec_spec : Nat → List Nat → List (Nat × Nat)
  | _, [] => []
  | g, d :: ds => (d, g) :: rec_spec (g + 1) ds

/-- The two states agree on every field the loop invariant looks at. -/
def same_core (s s' : sliding_shard) : Prop :=
  s'.iomgr = s.iomgr ∧ s'.blocksize = s.blocksize ∧ s'.adjoffset = s.adjoffset ∧
  s'.edataoffset = s.edataoffset ∧ s'.adjfilesize = s.adjfilesize ∧
  s'.edatafilesize = s.edatafilesize ∧ s'.activeblocks = s.activeblocks ∧
  s'.edata_session = s.edata_session ∧ s'.adjfile_session = s.adjfile_session ∧
  s'.curblock = s.curblock ∧ s'.curadjblock = s.curadjblock ∧
  s'.only_adjacency = s.only_adjacency ∧ s'.async_edata_loading = s.async_edata_loading ∧
  s'.need_read_outedges = s.need_read_outedges

/-- Number of destinations of an entry. -/
def item_ndsts : adjitem → Nat
  | adjitem.skip _ => 0
  | adjitem.record _ dsts => dsts.length

/-- The destinations of an entry. -/
def item_dsts : adjitem → List Nat
  | adjitem.skip _ => []
  | adjitem.record _ dsts => dsts

/-- What the loop of `read_next_vertices` must attach to slot `j` when it decodes entry
`it` with loop counter `i`, the first destination of the entry being number `g` of the
file: the destinations of a record whose slot is `j`, when that slot is scheduled. -/
def item_new (sched : Nat → Bool) (j : Nat) (i : Int) (g : Nat) : adjitem → List (Nat × Nat)
  | adjitem.skip _ => []
  | adjitem.record _ dsts => if i = (j : Int) ∧ sched j = true then rec_spec g dsts else []

/-- What the loop of `read_next_vertices` must attach to slot `j` when it runs over the
entries `rest` from loop counter `i`, the next destination being number `g` of the file. -/
def spec_new (nvecs : Int) (sched : Nat → Bool) (j : Nat) :
    List adjitem → Int → Nat → List (Nat × Nat)
  | [], _, _ => []
  | it :: rest, i, g =>
    if i < nvecs then
      item_new sched j i g it ++ spec_new nvecs sched j rest (i + item_span it) (g + item_ndsts it)
    else []

/-- Slot by slot, `slots'` is `slots` with the out-edges prescribed by `spec` appended. -/
def slots_rel (P : params) (H : List edgeptr) (spec : Nat → List (Nat × Nat))
    (slots slots' : List svertex) : Prop :=
  slots'.length = slots.length ∧
    ∀ (j : Nat) (v : svertex), slots[j]? = some v →
      ∃ new, slots'[j]? = some { v with outedges := v.outedges ++ new } ∧ new_ok P H new (spec j)

/-- `s'` differs from `s` at most in the I/O manager, the adjacency offset and the
adjacency block. -/
def frame_adj (s s' : sliding_shard) : Prop :=
  ∃ (io : stripedio) (ao : Nat) (cab : Option sblock),
    s' = { s with iomgr := io, adjoffset := ao, curadjblock := cab }

/-- Fields a pass of the loop body leaves alone, apart from those of `loop_frame`. -/
def body_static (s s' : sliding_shard) : Prop :=
  s'.range_st = s.range_st ∧ s'.range_end = s.range_end ∧ s'.edatafilesize = s.edatafilesize ∧
  (s'.sparse_index = s.sparse_index ∨ s'.sparse_index = (save_offset s).sparse_index)

/-- The entry of the sparse index for the cursor that stands after the entries `d0`. -/
def cursor_entry (P : params) (d0 : List adjitem) : Int × indexentry :=
  (-((span d0 : Nat) : Int), indexentry.mk (encode_items d0).length (P.sizeof_ET * ndsts d0))

/-- The invariant of a sliding shard over the adjacency file `encode_items items` between
two entries, `done` being the entries decoded so far and `H` the edge pointers handed
out so far: the configuration is sound, the adjacency block and the edge-data blocks are
coherent, the cursor stands right after `done`, and every entry of the sparse index is
the cursor after some entries of the file, not ahead of the current one. -/
structure winv (P : params) (items : List adjitem) (H : List edgeptr) (done : List adjitem)
    (s : sliding_shard) : Prop where
  cfg : cfg_ok P (encode_items items) s
  adjc : adj_coherent s
  ed : einv P H s
  valid : ∀ it ∈ items, valid_item it
  room : P.sizeof_ET * ndsts items ≤ s.edatafilesize
  range : ∀ d ∈ all_dsts items, s.range_st ≤ d ∧ d ≤ s.range_end
  pre : ∃ rest, items = done ++ rest
  adjo : s.adjoffset = (encode_items done).length
  cv : s.curvid = span done
  cvb : s.curvid < 2147483648
  edo : s.edataoffset = P.sizeof_ET * ndsts done
  si : ∀ ke ∈ s.sparse_index, ∃ d0 r0, items = d0 ++ r0 ∧ ke = cursor_entry P d0 ∧
    span d0 ≤ s.curvid
  si0 : ∃ e, ((0 : Int), e) ∈ s.sparse_index

/-- The calls `commit` makes for block `b`. -/
def commit_calls (all dw : Bool) (b : sblock) : List iocall :=
  (commit b all dw (stripedio.mk [] 0 0)).2.calls

/-- The calls `release_prior_to_offset` makes for the blocks `bs`, in the order it makes
them (the last block first). -/
def released_calls (all dw : Bool) (eo : Nat) : List sblock → List iocall
  | [] => []
  | b :: bs =>
    released_calls all dw eo bs ++ (if b.end_ ≤ eo ∨ all = true then commit_calls all dw b else [])

/-- What the edge-data invariant says of a block, as far as committing it goes: it owns
a buffer `d` for its bytes, it is active, and its descriptors are the session `e ≥ 0`. -/
def blk_commit (e : Int) (b : sblock) (d : buffer) : Prop :=
  b.data = some d ∧ b.active = true ∧ b.writedesc = e ∧ b.readdesc = e ∧ 0 ≤ e ∧
  d.offset = b.offset ∧ d.length = b.end_ - b.offset

/-- The two states agree on every field the cursor invariant looks at. -/
def same_wcore (s s' : sliding_shard) : Prop :=
  s'.iomgr = s.iomgr ∧ s'.range_st = s.range_st ∧ s'.range_end = s.range_end ∧
  s'.blocksize = s.blocksize ∧ s'.curvid = s.curvid ∧ s'.adjoffset = s.adjoffset ∧
  s'.edataoffset = s.edataoffset ∧ s'.adjfilesize = s.adjfilesize ∧
  s'.edatafilesize = s.edatafilesize ∧ s'.activeblocks = s.activeblocks ∧
  s'.edata_session = s.edata_session ∧ s'.adjfile_session = s.adjfile_session ∧
  s'.curadjblock = s.curadjblock ∧ s'.sparse_index = s.sparse_index ∧
  s'.only_adjacency = s.only_adjacency

/-- An I/O manager whose recorded calls only mention sessions it has opened and buffers it
has allocated. -/
def io_wf (io : stripedio) : Prop :=
  ∀ c ∈ io.calls, c.session < (io.nsessions : Int) ∧
    ∀ d, c.buf = some d → d.id < io.nbufs ∧ d.session < (io.nsessions : Int)

/-- The state the constructor builds for a shard with edge data, `B` being the padded
block size. -/
def fresh_shard (P : params) (io : stripedio) (F A rs re B : Nat) : sliding_shard :=
  { iomgr := stripedio.mk
      (io.calls ++ [iocall.open_session (io.nsessions : Int) false] ++
        [iocall.open_session ((io.nsessions + 1 : Nat) : Int) true]) (io.nsessions + 1 + 1) io.nbufs,
    range_st := rs, range_end := re, blocksize := B,
    curvid := 0, adjoffset := 0, edataoffset := 0, adjfilesize := A,
    edatafilesize := F, window_start_edataoffset := 0, activeblocks := [],
    edata_session := (io.nsessions : Int), adjfile_session := ((io.nsessions + 1 : Nat) : Int),
    curblock := none, curadjblock := none,
    sparse_index := [((0 : Int), indexentry.mk 0 0)],
    disable_writes := false,
    async_edata_loading := if P.support_deletions = true then false
                           else !P.computational_edges,
    need_read_outedges := P.read_outedges, only_adjacency := false,
    logger := [], decoded := [] }

/-- A well-formed call of `read_next_vertices`: `nvecs ≥ 0` slots are asked for and handed
in, slot `j` is the vertex `start + j`, and the vertex ids stay below `2^31 - 256`. -/
def read_ok : op → Prop
  | op.read nvecs start slots _ _ =>
    0 ≤ nvecs ∧ (start : Int) + nvecs + 256 ≤ 2147483648 ∧ nvecs ≤ slots.length ∧
      ∀ (j : Nat) (v : svertex), slots[j]? = some v → v.id = start + j
  | op.flush => False
  | op.set_offset _ _ _ => False

/-- The call leaves writes enabled. -/
def writes_on : op → Prop
  | op.read _ _ _ _ dw => dw = false
  | op.flush => True
  | op.set_offset _ _ _ => True

/-- The slots a call hands in. -/
def op_slots : op → List svertex
  | op.read _ _ slots _ _ => slots
  | op.flush => []
  | op.set_offset _ _ _ => []

/-- Whether slot `j` is scheduled. -/
def sched_of (slots : List svertex) (j : Nat) : Bool :=
  match slots[j]? with
  | some v => v.scheduled
  | none => false

/-- Every call of the run returned its slots with out-edges appended whose pointers are
all in `H`. -/
def handed (P : params) (H : List edgeptr) (ops : List op) (outs : List (List svertex)) : Prop :=
  List.Forall₂ (fun o out => ∃ spec, slots_rel P H spec (op_slots o) out) ops outs

/-- The destinations of the record of source `v` in the entries `its`, the first entry
standing at source `cur`; empty when `v` has no record (it is covered by a skip pair, or
lies outside the file). -/
def record_of : List adjitem → Nat → Nat → List Nat
  | [], _, _ => []
  | adjitem.skip nz :: r, cur, v => record_of r (cur + (nz + 1)) v
  | adjitem.record _ dsts :: r, cur, v => if cur = v then dsts else record_of r (cur + 1) v

/-- A shard the theorems on well-formed shards are about: the adjacency file is
`encode_items items` with entries the decoder reads back as written, the edge-data file of
`F` bytes has room for one record of `sizeof(ET)` bytes per destination, every destination
lies in the interval `[rs, re]`, `sizeof(ET) = sizeof(ETspecial)` (no special edges), the
block size asked for is at least four bytes, all sizes are below `2^62`, and the I/O
manager is well formed. -/
def shard_ok (P : params) (items : List adjitem) (io : stripedio) (F rs re bs : Nat) : Prop :=
  io_wf io ∧ 0 < P.sizeof_ET ∧ P.sizeof_ET = P.sizeof_ETspecial ∧
  (encode_items items).length < 4611686018427387904 ∧ F < 4611686018427387904 ∧
  4 ≤ bs ∧ bs + P.sizeof_ET < 4611686018427387904 ∧ (∀ it ∈ items, valid_item it) ∧
  P.sizeof_ET * ndsts items ≤ F ∧ (∀ d ∈ all_dsts items, rs ≤ d ∧ d ≤ re)

/-- Sample parameters: four-byte edge values, no special edges. -/
def sample_params : params :=
  { sizeof_ET := 4, sizeof_ETspecial := 4, computational_edges := false, read_outedges := true,
    support_deletions := false, translate_edge := fun v => (v, false) }

/-- A sample adjacency file: sources 0 and 1 with one destination each, source 2 skipped,
source 3 with two destinations. -/
def sample_items : List adjitem :=
  [adjitem.record false [7], adjitem.record false [8], adjitem.skip 0,
    adjitem.record false [9, 6]]

/-- An I/O manager on which nothing has been called yet. -/
def sample_io : stripedio := stripedio.mk [] 0 0

/-- A scheduled vertex without edges. -/
def sample_vertex (id : Nat) : svertex := { id := id, scheduled := true, outedges := [] }

/-- Four slots for the vertices 0 to 3. -/
def sample_slots : List svertex :=
  [sample_vertex 0, sample_vertex 1, sample_vertex 2, sample_vertex 3]

/-- Fields no member function of a sliding shard writes after construction. -/
def stat (s s' : sliding_shard) : Prop :=
  s'.edata_session = s.edata_session ∧ s'.adjfile_session = s.adjfile_session ∧
  s'.blocksize = s.blocksize ∧ s'.edatafilesize = s.edatafilesize ∧
  s'.adjfilesize = s.adjfilesize ∧ s'.range_st = s.range_st ∧ s'.range_end = s.range_end

/-- The offset in the edge-data file of the record an out-edge points to. -/
def edge_file_offset (e : outedge) : Option Nat :=
  match e.evalue with
  | some p =>
    match p.base with
    | some d => some (d.offset + p.disp)
    | none => none
  | none => none

/-- An adjacency file with four sources of one destination each. -/
def ff_items : List adjitem :=
  [adjitem.record false [7], adjitem.record false [8], adjitem.record false [9],
    adjitem.record false [6]]

/-- A run that records a checkpoint at source 2, rewinds with `set_offset(0, 0, 0)`, reads
vertex 0 and then asks for vertex 3, which fast-forwards through the sparse index. -/
def ff_ops : List op :=
  [op.read 2 0 [sample_vertex 0, sample_vertex 1] false false,
   op.read 1 3 [sample_vertex 3] true false,
   op.flush,
   op.set_offset 0 0 0,
   op.read 1 0 [sample_vertex 0] false false,
   op.read 1 3 [sample_vertex 3] false false]

/-- For every call and every slot it returned: the vertex id and, for each out-edge, the
destination and the offset in the edge-data file of the record its pointer addresses. -/
def edge_views (outs : List (List svertex)) : List (List (Nat × List (Nat × Option Nat))) :=
  outs.map (fun out =>
    out.map (fun v => (v.id, v.outedges.map (fun e => (e.target, edge_file_offset e)))))

/-- Modelled from the spec: the encoder of adjacency files (the sharder) is not among the
sources.  The skip pairs of section 3 for `k` consecutive skipped sources: byte `0x00`
followed by a byte giving the number of skipped sources, runs longer than 254 being split
into consecutive pairs.  The first argument bounds the number of pairs. -/
def spec_skip_bytes : Nat → Nat → List Nat
  | 0, _ => []
  | fuel + 1, k =>
    if k = 0 then []
    else if k ≤ 254 then [0, k]
    else [0, 254] ++ spec_skip_bytes fuel (k - 254)

/-- Modelled from the spec: the count of a record, one byte `n` if `n < 255`, else `0xff`
followed by a 32-bit count. -/
def spec_count_bytes (n : Nat) : List Nat :=
  if n < 255 then [n] else 255 :: le4 n

/-- Modelled from the spec: the adjacency file section 3 prescribes for the sources
`srcs` (in ascending order, each with its destinations), `next` being the source that
follows the previously written one: the skip pairs for the gap `u - next = u - u' - 1`,
the count, the destinations. -/
def spec_encode : Nat → List (Nat × List Nat) → List Nat
  | _, [] => []
  | next, (u, dsts) :: r =>
    spec_skip_bytes (u - next) (u - next) ++ spec_count_bytes dsts.length ++ encode_dsts dsts
      ++ spec_encode (u + 1) r

/-- Modelled from the spec: the skip pairs with the skip byte amended to what the decoder
reads, for `k` consecutive skipped sources: each pair covers up to 255 sources and its
second byte is the number of sources it covers minus one. -/
def skip_items : Nat → Nat → List adjitem
  | 0, _ => []
  | fuel + 1, k =>
    if k = 0 then []
    else adjitem.skip (min 254 (k - 1)) :: skip_items fuel (k - 1 - min 254 (k - 1))

/-- Modelled from the spec: the encoder of section 3 with the amended skip pairs, as a
list of entries; the long form of the count is used from 255 destinations on. -/
def amended_items : Nat → List (Nat × List Nat) → List adjitem
  | _, [] => []
  | next, (u, dsts) :: r =>
    skip_items (u - next) (u - next)
      ++ adjitem.record (decide (255 ≤ dsts.length)) dsts :: amended_items (u + 1) r

/-- Sources in ascending order from `next` on, each with at least one and fewer than
`2^31` destinations that are 32-bit values. -/
def srcs_ok : Nat → List (Nat × List Nat) → Prop
  | _, [] => True
  | next, (u, dsts) :: r =>
    next ≤ u ∧ 0 < dsts.length ∧ dsts.length < 2147483648 ∧ (∀ d ∈ dsts, d < 4294967296) ∧
      srcs_ok (u + 1) r

/-- The destinations listed for source `v`. -/
def lookup_src : List (Nat × List Nat) → Nat → List Nat
  | [], _ => []
  | (u, dsts) :: r, v => if u = v then dsts else lookup_src r v

/-- The `(source, destination)` pairs of a list of sources. -/
def src_pairs (srcs : List (Nat × List Nat)) : List (Nat × Nat) :=
  (srcs.map (fun ud => ud.2.map (fun d => (ud.1, d)))).flatten

/-- The `(source, destination)` pairs the slots hold. -/
def decoded_pairs (slots : List svertex) : List (Nat × Nat) :=
  (slots.map (fun v => v.outedges.map (fun e => (v.id, e.target)))).flatten

/-- Sample sources: source 0 with destination 1, source 2 with destination 3. -/
def gap_srcs : List (Nat × List Nat) := [(0, [1]), (2, [3])]

/-- The edge-list parser of `preprocessing/conversions.hpp`.  Characters are their byte
values: `10` is the newline, `9` the tab, `32` the space, `35` and `37` the comment
marks `#` and `%`, `48 .. 57` the digits, `0` the terminator of a C string.  This function gives
the characters `fgets` stores for a buffer with room for `k` more characters, and the
rest of the stream: it stops after a newline, at the end of the stream, or when the buffer
is full. -/
def fgets_take : Nat → List Nat → List Nat × List Nat
  | 0, inp => ([], inp)
  | _ + 1, [] => ([], [])
  | k + 1, c :: cs =>
    if c = 10 then ([c], cs)
    else ((c :: (fgets_take k cs).1), (fgets_take k cs).2)

/-- `fgets(s, n, inf)`: `none` is the `NULL` returned at the end of the stream; otherwise
the characters stored in `s` and the rest of the stream. -/
def fgets (n : Nat) (inp : List Nat) : Option (List Nat × List Nat) :=
  match inp with
  | [] => none
  | _ :: _ => some (fgets_take (n - 1) inp)

/-- The C string held by a buffer: its characters up to the first terminator. -/
def cstr (s : List Nat) : List Nat := s.takeWhile (fun c => c ≠ 0)

/-- `FIXLINE`: removes the newline at the end of the string.  `none` is the read of
`s[-1]` on an empty string. -/
def FIXLINE (s : List Nat) : Option (List Nat) :=
  match (cstr s).getLast? with
  | none => none
  | some c => if c = 10 then some (cstr s).dropLast else some (cstr s)

/-- `strtok` on the string `s` (the saved position of the previous call, for
`strtok(NULL, ..)`): `none` is `NULL`; otherwise the token and the position saved for the
next call. -/
def strtok (delims : List Nat) (s : List Nat) : Option (List Nat × List Nat) :=
  match s.dropWhile (fun c => c ∈ delims) with
  | [] => none
  | c :: cs =>
    some ((c :: cs).takeWhile (fun c => c ∉ delims),
      ((c :: cs).dropWhile (fun c => c ∉ delims)).drop 1)

/-- `isspace` in the C locale. -/
def isspace (c : Nat) : Bool :=
  c = 32 ∨ c = 9 ∨ c = 10 ∨ c = 11 ∨ c = 12 ∨ c = 13

/-- The value of the leading decimal digits of a string, `acc` being the value of the
digits already read. -/
def digits_value (acc : Nat) : List Nat → Nat
  | [] => acc
  | c :: cs => if 48 ≤ c ∧ c ≤ 57 then digits_value (acc * 10 + (c - 48)) cs else acc

/-- `atoi`: leading white space, an optional sign, decimal digits.  `none` is a value
that does not fit `int` (undefined behaviour). -/
def atoi (t : List Nat) : Option Int :=
  let v : Int :=
    match t.dropWhile isspace with
    | 45 :: r => -((digits_value 0 r : Nat) : Int)
    | 43 :: r => ((digits_value 0 r : Nat) : Int)
    | r => ((digits_value 0 r : Nat) : Int)
  if -2147483648 ≤ v ∧ v ≤ 2147483647 then some v else none

/-- Conversion `(vid_t) x` of an `int`. -/
def int_to_vid (x : Int) : Nat := (x % 4294967296).toNat

/-- The body of the loop of `convert_edgelist` from the comment tests on, for the line
`s` as `FIXLINE` leaves it: the call of `preprocessing_add_edge` it makes, if any.  The
outer `none` is undefined behaviour (`atoi(NULL)` when a token is missing, or a number
that does not fit `int`).  `parse` and `dflt` stand for `parse<EdgeDataType>` and
`EdgeDataType()`. -/
def convert_line {V : Type} (parse : List Nat → V) (dflt : V) (s : List Nat) :
    Option (Option (Nat × Nat × V)) :=
  if s.head? = some 35 then some none
  else if s.head? = some 37 then some none
  else
    match strtok [9, 32] s with
    | none => none
    | some (t1, s1) =>
      match atoi t1 with
      | none => none
      | some a =>
        match strtok [9, 32] s1 with
        | none => none
        | some (t2, s2) =>
          match atoi t2 with
          | none => none
          | some b =>
            let val : V :=
              match strtok [9, 32] s2 with
              | some (t3, _) => parse t3
              | none => dflt
            if int_to_vid a ≠ int_to_vid b then some (some (int_to_vid a, int_to_vid b, val))
            else some none

/-- The loop `while(fgets(s, 1024, inf) != NULL)` of `convert_edgelist`: the calls of
`preprocessing_add_edge`, in order.  Every pass consumes at least one character, so one
pass more than there are characters is enough: the first argument counts them down. -/
def convert_edgelist_loop {V : Type} (parse : List Nat → V) (dflt : V) :
    Nat → List Nat → Option (List (Nat × Nat × V))
  | 0, _ => some []
  | fuel + 1, inp =>
    match fgets 1024 inp with
    | none => some []
    | some (s, rest) =>
      match FIXLINE s with
      | none => none
      | some s =>
        match convert_line parse dflt s with
        | none => none
        | some c =>
          match convert_edgelist_loop parse dflt fuel rest with
          | none => none
          | some cs => some (c.toList ++ cs)

/-- `convert_edgelist` on a file with the contents `inp`. -/
def convert_edgelist {V : Type} (parse : List Nat → V) (dflt : V) (inp : List Nat) :
    Option (List (Nat × Nat × V)) :=
  convert_edgelist_loop parse dflt (inp.length + 1) inp

/-- A line of an edge list: a comment (its mark and the text after it), or an edge
`src dst` with an optional value, with the separators as written. -/
inductive srcline where
  | comment (mark : Nat) (text : List Nat)
  | edge (a sep b : List Nat) (val : Option (List Nat × List Nat))

/-- The characters of a line, without the newline. -/
def srcline.render : srcline → List Nat
  | srcline.comment mark text => mark :: text
  | srcline.edge a sep b none => a ++ sep ++ b
  | srcline.edge a sep b (some (sep2, v)) => a ++ sep ++ b ++ sep2 ++ v

/-- The contents of a file with the given lines; `nl` tells whether the last line ends
with a newline. -/
def render_all (nl : Bool) : List srcline → List Nat
  | [] => []
  | [l] => l.render ++ (if nl = true then [10] else [])
  | l :: l2 :: ls => l.render ++ [10] ++ render_all nl (l2 :: ls)

/-- The value of a string of decimal digits. -/
def decimal (ds : List Nat) : Nat := ds.foldl (fun acc c => acc * 10 + (c - 48)) 0

/-- The call of `preprocessing_add_edge` the claim prescribes for a line. -/
def expected_call {V : Type} (parse : List Nat → V) (dflt : V) :
    srcline → Option (Nat × Nat × V)
  | srcline.comment _ _ => none
  | srcline.edge a _ b val =>
    if decimal a ≠ decimal b then
      some (decimal a, decimal b,
        match val with
        | some (_, v) => parse v
        | none => dflt)
    else none

/-- A comment line whose text is longer than the buffer of `fgets`: `#`, 1022 times `x`,
then `1 2`. -/
def long_comment : srcline :=
  srcline.comment 35 (List.replicate 1022 120 ++ [49, 32, 50])

/-- A string of decimal digits, not empty, whose value fits `int`. -/
def number_ok (a : List Nat) : Prop :=
  a ≠ [] ∧ (∀ c ∈ a, 48 ≤ c ∧ c ≤ 57) ∧ decimal a ≤ 2147483647

/-- A separator: spaces and tabs, at least one. -/
def seps_ok (sep : List Nat) : Prop :=
  sep ≠ [] ∧ ∀ c ∈ sep, c = 9 ∨ c = 32

/-- A line of the form the claim is about: a comment starts with `#` or `%` and holds no
newline; an edge is `src dst` or `src dst value`, the numbers in decimal digits, separated
by spaces and tabs, the value a non-empty string without space, tab, newline or
terminator. -/
def line_ok : srcline → Prop
  | srcline.comment mark text => (mark = 35 ∨ mark = 37) ∧ ∀ c ∈ text, c ≠ 10
  | srcline.edge a sep b none => number_ok a ∧ seps_ok sep ∧ number_ok b
  | srcline.edge a sep b (some (sep2, v)) =>
    number_ok a ∧ seps_ok sep ∧ number_ok b ∧ seps_ok sep2 ∧ v ≠ [] ∧
      ∀ c ∈ v, c ≠ 0 ∧ c ≠ 9 ∧ c ≠ 10 ∧ c ≠ 32

/-- A sample edge list: a comment, the edge `12 3`, the self-edge `1 1`, and the edge
`5 6` with the value `3.5`. -/
def sample_lines : List srcline :=
  [srcline.comment 35 [49, 32, 50], srcline.edge [49, 50] [32, 9] [51] none,
    srcline.edge [49] [32] [49] none, srcline.edge [53] [32] [54] (some ([9], [51, 46, 53]))]

/-- How a run of a parser ends: it reaches the end of the input; or the assertion
`assert(num == i)` of `convert_adjlist` fails; or the behaviour is undefined (`atoi(NULL)`
when a line has no token, a number that does not fit `int`, `FIXLINE` on an empty
string). -/
inductive parse_end where
  | finished
  | assert_degree
  | undefined
  deriving DecidableEq, Repr

/-- What a run of `convert_adjlist` does, up to the point where it ends: the calls of
`preprocessing_add_edge` in order, the mismatches it logs with `LOG_ERROR` (declared
degree `num`, number `i` of destinations read, line number), and how the run ends. -/
structure adj_out (V : Type) where
  calls : List (Nat × Nat × V)
  errors : List (Nat × Nat × Nat)
  ending : parse_end

/-- The size `maxlen` of the line buffer of `convert_adjlist`. -/
def maxlen : Nat := 100000000

/-- The loop `while((t = strtok(NULL, delims)) != NULL)` of `convert_adjlist` on the saved
position `s`, `i` being the number of destinations read so far: the calls made, the final
`i`, and whether every token was converted (`false` is a number that does not fit `int`).
Every pass consumes at least one character: the first argument counts the passes down. -/
def adj_dests {V : Type} (dflt : V) (from_ : Nat) :
    Nat → List Nat → Nat → List (Nat × Nat × V) × Nat × Bool
  | 0, _, i => ([], i, true)
  | fuel + 1, s, i =>
    match strtok [32, 9] s with
    | none => ([], i, true)
    | some (t, s') =>
      match atoi t with
      | none => ([], i, false)
      | some x =>
        ((if from_ ≠ int_to_vid x then [(from_, int_to_vid x, dflt)] else [])
            ++ (adj_dests dflt from_ fuel s' (u32 (i + 1))).1,
          (adj_dests dflt from_ fuel s' (u32 (i + 1))).2.1,
          (adj_dests dflt from_ fuel s' (u32 (i + 1))).2.2)

/-- The body of the loop of `convert_adjlist` from the comment tests on, for line number
`linenum` and the line `s` as `FIXLINE` leaves it.  The ending `finished` means that the
loop goes on with the next line. -/
def adj_line {V : Type} (dflt : V) (linenum : Nat) (s : List Nat) : adj_out V :=
  if s.head? = some 35 then ⟨[], [], parse_end.finished⟩
  else if s.head? = some 37 then ⟨[], [], parse_end.finished⟩
  else
    match strtok [32, 9] s with
    | none => ⟨[], [], parse_end.undefined⟩
    | some (t1, s1) =>
      match atoi t1 with
      | none => ⟨[], [], parse_end.undefined⟩
      | some a =>
        match strtok [32, 9] s1 with
        | none => ⟨[], [], parse_end.finished⟩
        | some (t2, s2) =>
          match atoi t2 with
          | none => ⟨[], [], parse_end.undefined⟩
          | some n =>
            let r := adj_dests dflt (int_to_vid a) (s2.length + 1) s2 0
            if r.2.2 = false then ⟨r.1, [], parse_end.undefined⟩
            else if int_to_vid n ≠ r.2.1 then
              ⟨r.1, [(int_to_vid n, r.2.1, linenum)], parse_end.assert_degree⟩
            else ⟨r.1, [], parse_end.finished⟩

/-- The loop `while(fgets(s, maxlen, inf) != NULL)` of `convert_adjlist`, `linenum` being
the number of lines read so far.  Every pass consumes at least one character: the first
argument counts the passes down. -/
def convert_adjlist_loop {V : Type} (dflt : V) : Nat → List Nat → Nat → adj_out V
  | 0, _, _ => ⟨[], [], parse_end.finished⟩
  | fuel + 1, inp, linenum =>
    match fgets maxlen inp with
    | none => ⟨[], [], parse_end.finished⟩
    | some (s, rest) =>
      match FIXLINE s with
      | none => ⟨[], [], parse_end.undefined⟩
      | some s =>
        match (adj_line dflt (u64 (linenum + 1)) s).ending with
        | parse_end.finished =>
          ⟨(adj_line dflt (u64 (linenum + 1)) s).calls
              ++ (convert_adjlist_loop dflt fuel rest (u64 (linenum + 1))).calls,
            (adj_line dflt (u64 (linenum + 1)) s).errors
              ++ (convert_adjlist_loop dflt fuel rest (u64 (linenum + 1))).errors,
            (convert_adjlist_loop dflt fuel rest (u64 (linenum + 1))).ending⟩
        | _ => adj_line dflt (u64 (linenum + 1)) s

/-- `convert_adjlist` on a file with the contents `inp`; `dflt` stands for
`EdgeDataType()`. -/
def convert_adjlist {V : Type} (dflt : V) (inp : List Nat) : adj_out V :=
  convert_adjlist_loop dflt (inp.length + 1) inp 0

/-- The contents of a file with the given lines (each without its newline); `nl` tells
whether the last line ends with a newline. -/
def text_lines (nl : Bool) : List (List Nat) → List Nat
  | [] => []
  | [l] => l ++ (if nl = true then [10] else [])
  | l :: l2 :: ls => l ++ [10] ++ text_lines nl (l2 :: ls)

/-- The text of a sequence of tokens, each with the separator written before it. -/
def tail_text : List (List Nat × List Nat) → List Nat
  | [] => []
  | p :: r => p.1 ++ p.2 ++ tail_text r

/-- The position `strtok` saves when it has returned the token before the text
`tail_text r`: behind the first character of that text, which it has overwritten. -/
def pos_text (r : List (List Nat × List Nat)) : List Nat := (tail_text r).drop 1

/-- A line of an adjacency list: a comment (its mark and the text after it), or a vertex
line, the token `src` and the tokens after it, each with the separator before it: none (a
line with only `src`), or `deg` and the destinations. -/
inductive adjline where
  | comment (mark : Nat) (text : List Nat)
  | vertex (a : List Nat) (rest : List (List Nat × List Nat))

/-- The characters of a line, without the newline. -/
def adjline.render : adjline → List Nat
  | adjline.comment mark text => mark :: text
  | adjline.vertex a rest => a ++ tail_text rest

/-- The calls of `preprocessing_add_edge` for the vertex `src` and the destination tokens
`dests`: one for each destination other than `src`, in token order. -/
def dest_calls {V : Type} (dflt : V) (src : Nat) (dests : List (List Nat × List Nat)) :
    List (Nat × Nat × V) :=
  dests.filterMap (fun p => if src ≠ decimal p.2 then some (src, decimal p.2, dflt) else none)

/-- The calls of `preprocessing_add_edge` the claim prescribes for a line. -/
def expected_adj {V : Type} (dflt : V) : adjline → List (Nat × Nat × V)
  | adjline.comment _ _ => []
  | adjline.vertex _ [] => []
  | adjline.vertex a (_ :: dests) => dest_calls dflt (decimal a) dests

/-- The tokens of a vertex line are written the way the format asks for: numbers in decimal
digits that fit `int`, each token after the first preceded by spaces and tabs. -/
def tokens_ok (a : List Nat) (rest : List (List Nat × List Nat)) : Prop :=
  number_ok a ∧ ∀ p ∈ rest, seps_ok p.1 ∧ number_ok p.2

/-- A line that is written the way the format asks for: a comment starts with `#` or `%`
and holds no newline; a vertex line is `src` alone, or `src deg d1 .. dk`. -/
def adjline_written : adjline → Prop
  | adjline.comment mark text => (mark = 35 ∨ mark = 37) ∧ ∀ c ∈ text, c ≠ 10
  | adjline.vertex a rest => tokens_ok a rest

/-- The declared degree of a vertex line is the number of its destination tokens. -/
def degree_ok : adjline → Prop
  | adjline.comment _ _ => True
  | adjline.vertex _ [] => True
  | adjline.vertex _ (p :: dests) => decimal p.2 = dests.length

/-- A line of the form the claim is about: written as the format asks for, and followed by
exactly `deg` destination tokens. -/
def adjline_ok (l : adjline) : Prop := adjline_written l ∧ degree_ok l

/-- A line whose declared degree is not the number of its destination tokens. -/
def adjline_mismatch (l : adjline) : Prop := adjline_written l ∧ ¬ degree_ok l

/-- The mismatches `convert_adjlist` logs for line number `linenum`, the line being `l`:
the declared degree and the number of destinations read. -/
def expected_errors (linenum : Nat) : adjline → List (Nat × Nat × Nat)
  | adjline.comment _ _ => []
  | adjline.vertex _ [] => []
  | adjline.vertex _ (p :: dests) =>
    if decimal p.2 ≠ dests.length then [(decimal p.2, dests.length, linenum)] else []

/-- How the pass of the loop of `convert_adjlist` over the line `l` ends: `finished` means
that the loop goes on with the next line. -/
def expected_ending : adjline → parse_end
  | adjline.comment _ _ => parse_end.finished
  | adjline.vertex _ [] => parse_end.finished
  | adjline.vertex _ (p :: dests) =>
    if decimal p.2 ≠ dests.length then parse_end.assert_degree else parse_end.finished

/-- A sample adjacency list: the line `7 3 2 8 9`, a comment, the line `5` with only a
source, and the line `5 2 5 6`, with a self-edge and a tab. -/
def sample_adj : List adjline :=
  [adjline.vertex [55] [([32], [51]), ([32], [50]), ([32], [56]), ([32], [57])],
    adjline.comment 35 [32, 52],
    adjline.vertex [53] [],
    adjline.vertex [53] [([32], [50]), ([32], [53]), ([9], [54])]]

/-- The line `7 4 1 2`, which declares four destinations and has two. -/
def sample_mismatch : adjline :=
  adjline.vertex [55] [([32], [52]), ([32], [49]), ([32], [50])]

/-- The text `5 1 6` and a newline. -/
def sample_after : List Nat := [53, 32, 49, 32, 54, 10]

/-- The text of a long comment line: 99999998 times `x`. -/
def long_text : List Nat := List.replicate 99999998 120

/-- A comment line that does not fit the buffer of `convert_adjlist`: `#`, 99999998 times
`x`, then `1 1 2`. -/
def long_adj_comment : adjline :=
  adjline.comment 35 (long_text ++ [49, 32, 49, 32, 50])

/-- The calls of `preprocessing_add_edge` the claim prescribes for a sequence of lines. -/
def expected_adj_all {V : Type} (dflt : V) : List adjline → List (Nat × Nat × V)
  | [] => []
  | l :: ls => expected_adj dflt l ++ expected_adj_all dflt ls

instance number_ok_decidable (a : List Nat) : Decidable (number_ok a) := by
  unfold number_ok
  infer_instance

instance seps_ok_decidable (sep : List Nat) : Decidable (seps_ok sep) := by
  unfold seps_ok
  infer_instance

instance tokens_ok_decidable (a : List Nat) (rest : List (List Nat × List Nat)) :
    Decidable (tokens_ok a rest) := by
  unfold tokens_ok
  infer_instance

instance adjline_written_decidable : (l : adjline) → Decidable (adjline_written l)
  | adjline.comment mark text => by
    unfold adjline_written
    infer_instance
  | adjline.vertex a rest => by
    unfold adjline_written
    infer_instance

instance degree_ok_decidable : (l : adjline) → Decidable (degree_ok l)
  | adjline.comment _ _ => isTrue trivial
  | adjline.vertex _ [] => isTrue trivial
  | adjline.vertex _ (p :: dests) => by
    unfold degree_ok
    infer_instance

instance adjline_ok_decidable (l : adjline) : Decidable (adjline_ok l) := by
  unfold adjline_ok
  infer_instance

instance adjline_mismatch_decidable (l : adjline) : Decidable (adjline_mismatch l) := by
  unfold adjline_mismatch
  infer_instance

/-- An adjacency list with a mismatch on its second line: `7 3 2 8 9`, `7 4 1 2`, and
`5 1 6`. -/
def sample_bad_adj : List adjline :=
  [adjline.vertex [55] [([32], [51]), ([32], [50]), ([32], [56]), ([32], [57])],
    sample_mismatch,
    adjline.vertex [53] [([32], [49]), ([32], [54])]]

/-- A token: a non-empty string without space, tab, newline or terminator. -/
def token_ok (t : List Nat) : Prop :=
  t ≠ [] ∧ ∀ c ∈ t, c ≠ 0 ∧ c ≠ 9 ∧ c ≠ 10 ∧ c ≠ 32

/-- The vertex id `(vid_t) atoi(t)` the parsers read from a token. -/
def atoi_vid (t : List Nat) : Nat := int_to_vid ((atoi t).getD 0)

/-- A line of an edge list with at least two tokens, whatever the tokens are: a comment
starts with `#` or `%` and holds no newline; on an edge line the first token does not start
with a comment mark, and the values `atoi` reads from the first two tokens fit `int`. -/
def raw_line_ok : srcline → Prop
  | srcline.comment mark text => (mark = 35 ∨ mark = 37) ∧ ∀ c ∈ text, c ≠ 10
  | srcline.edge a sep b val =>
    token_ok a ∧ a.head? ≠ some 35 ∧ a.head? ≠ some 37 ∧ (atoi a).isSome = true ∧ seps_ok sep ∧
      token_ok b ∧ (atoi b).isSome = true ∧
      match val with
      | none => True
      | some (sep2, v) => seps_ok sep2 ∧ token_ok v

/-- The call of `preprocessing_add_edge` for a line with at least two tokens: the vertex
ids are what `atoi` reads from the tokens. -/
def raw_call {V : Type} (parse : List Nat → V) (dflt : V) : srcline → Option (Nat × Nat × V)
  | srcline.comment _ _ => none
  | srcline.edge a _ b val =>
    if atoi_vid a ≠ atoi_vid b then
      some (atoi_vid a, atoi_vid b,
        match val with
        | some (_, v) => parse v
        | none => dflt)
    else none

instance token_ok_decidable (t : List Nat) : Decidable (token_ok t) := by
  unfold token_ok
  infer_instance

instance raw_line_ok_decidable : (l : srcline) → Decidable (raw_line_ok l)
  | srcline.comment mark text => by
    unfold raw_line_ok
    infer_instance
  | srcline.edge a sep b none => by
    unfold raw_line_ok
    infer_instance
  | srcline.edge a sep b (some (sep2, v)) => by
    unfold raw_line_ok
    infer_instance

/-- An edge list with a malformed line: `x 5`, whose source token is not a decimal number,
the edge `1 2`, and the line `7 3abc 9`, whose destination token is not one. -/
def sample_raw : List srcline :=
  [srcline.edge [120] [32] [53] none, srcline.edge [49] [32] [50] none,
    srcline.edge [55] [32] [51, 97, 98, 99] (some ([32], [57]))]

/-- The pair a pass of the loop of `convert_edgelist` parses from the line `s`, before the
test `from != to`: the values of `from`, `to` and `val`.  The outer `none` is undefined
behaviour, `some none` a comment line. -/
def parsed_line {V : Type} (parse : List Nat → V) (dflt : V) (s : List Nat) :
    Option (Option (Nat × Nat × V)) :=
  if s.head? = some 35 then some none
  else if s.head? = some 37 then some none
  else
    match strtok [9, 32] s with
    | none => none
    | some (t1, s1) =>
      match atoi t1 with
      | none => none
      | some a =>
        match strtok [9, 32] s1 with
        | none => none
        | some (t2, s2) =>
          match atoi t2 with
          | none => none
          | some b =>
            some (some (int_to_vid a, int_to_vid b,
              match strtok [9, 32] s2 with
              | some (t3, _) => parse t3
              | none => dflt))

/-- The values of `to` the loop over the destination tokens of `convert_adjlist` reads from
the saved position `s`, before the test `from != to`. -/
def parsed_dests : Nat → List Nat → List Nat
  | 0, _ => []
  | fuel + 1, s =>
    match strtok [32, 9] s with
    | none => []
    | some (t, s') =>
      match atoi t with
      | none => []
      | some x => int_to_vid x :: parsed_dests fuel s'

/-- The entry `struct vertex_degree` of the degree array of `OrderByDegree`: `deg` is an
`int`, `id` a `vid_t`. -/
structure vertex_degree where
  deg : Int
  id : Nat
  deriving DecidableEq, Repr

/-- The order `vertex_degree_less` handed to `quickSort`. -/
def vertex_degree_less (a b : vertex_degree) : Bool :=
  decide (a.deg < b.deg) || (decide (a.deg = b.deg) && decide (a.id < b.id))

/-- An edge of the preprocessed file, `edge_with_value<EdgeDataType>`. -/
structure edge_t (V : Type) where
  src : Nat
  dst : Nat
  value : V
  deriving DecidableEq, Repr

/-- The statement `degarray[v].deg++` of `OrderByDegree::reprocess`.  `none` is undefined
behaviour: an index outside the array, or the overflow of the `int`. -/
def deg_incr (degarray : List vertex_degree) (v : Nat) : Option (List vertex_degree) :=
  match degarray[v]? with
  | none => none
  | some d =>
    if d.deg + 1 ≤ 2147483647 then some (degarray.set v ⟨d.deg + 1, d.id⟩) else none

/-- The first pass of `OrderByDegree::reprocess` over the edges of the preprocessed file:
`degarray[ptr[i].src].deg++; degarray[ptr[i].dst].deg++;` for every edge, in file order. -/
def count_degrees {V : Type} :
    List vertex_degree → List (edge_t V) → Option (List vertex_degree)
  | degarray, [] => some degarray
  | degarray, e :: es =>
    match deg_incr degarray e.src with
    | none => none
    | some d1 =>
      match deg_incr d1 e.dst with
      | none => none
      | some d2 => count_degrees d2 es

/-- The degree array after `calloc` and the loop `degarray[i].id = i`. -/
def init_degarray (nverts : Nat) : List vertex_degree :=
  (List.range nverts).map (fun i => vertex_degree.mk 0 i)

/-- The degree array `OrderByDegree::reprocess` hands to `quickSort`, for a preprocessed file
with the header `max_vertex_id` and the given edges; `none` is undefined behaviour. -/
def degarray_of {V : Type} (max_vertex_id : Nat) (edges : List (edge_t V)) :
    Option (List vertex_degree) :=
  count_degrees (init_degarray (u32 (max_vertex_id + 1))) edges

/-- The loop `for(vid_t i=0; i<nverts; i++) translate_table[degarray[i].id] = i;` over the
sorted degree array, from index `i` on.  `none` is a write outside the table. -/
def fill_table : List Nat → List vertex_degree → Nat → Option (List Nat)
  | table, [], _ => some table
  | table, d :: ds, i =>
    if d.id < table.length then fill_table (table.set d.id i) ds (i + 1) else none

/-- `OrderByDegree::translate`.  `none` is a read outside the table. -/
def translate (max_vertex_id : Nat) (translate_table : List Nat) (vid : Nat) : Option Nat :=
  if vid ≥ max_vertex_id then some vid else translate_table[vid]?

/-- The second pass of `OrderByDegree::reprocess` over the edges: every edge is written with
`src` and `dst` translated, in file order. -/
def rewrite_edges {V : Type} (max_vertex_id : Nat) (translate_table : List Nat) :
    List (edge_t V) → Option (List (edge_t V))
  | [] => some []
  | e :: es =>
    match translate max_vertex_id translate_table e.src with
    | none => none
    | some s =>
      match translate max_vertex_id translate_table e.dst with
      | none => none
      | some d =>
        match rewrite_edges max_vertex_id translate_table es with
        | none => none
        | some r => some (⟨s, d, e.value⟩ :: r)

/-- The four bytes of a `vid_t` in memory (little-endian). -/
def vid_bytes (x : Nat) : List Nat :=
  [x % 256, x / 256 % 256, x / 65536 % 256, x / 16777216 % 256]

/-- The bytes of the array `translate_table` in memory. -/
def table_bytes : List Nat → List Nat
  | [] => []
  | x :: xs => vid_bytes x ++ table_bytes xs

/-- What `OrderByDegree::reprocess` leaves behind: the translation table, the bytes it
writes at offset 0 of the file `basefilename.vertexmap`, and the header and the edges of the
rewritten preprocessed file. -/
structure reprocessed (V : Type) where
  translate_table : List Nat
  vertexmap : List Nat
  max_vertex_id : Nat
  edges : List (edge_t V)

/-- `OrderByDegree::reprocess` on a preprocessed file with the header `max_vertex_id` and
the given edges.  `quickSort` stands for the function of that name, which is not part of
the sources at hand: it gives the array after the call
`quickSort(degarray, nverts, vertex_degree_less)`.  `pwrite(df, translate_table, nverts, 0)`
writes the first `nverts` bytes of the table.  `none` is undefined behaviour. -/
def reprocess {V : Type} (quickSort : List vertex_degree → List vertex_degree)
    (max_vertex_id : Nat) (edges : List (edge_t V)) : Option (reprocessed V) :=
  match degarray_of max_vertex_id edges with
  | none => none
  | some degarray =>
    match fill_table (List.replicate (u32 (max_vertex_id + 1)) 0) (quickSort degarray) 0 with
    | none => none
    | some table =>
      match rewrite_edges max_vertex_id table edges with
      | none => none
      | some edges' =>
        some ⟨table, (table_bytes table).take (u32 (max_vertex_id + 1)), max_vertex_id, edges'⟩

/-- The degree of a vertex in a list of edges: the number of edges that have it as `src`
plus the number that have it as `dst`. -/
def degree {V : Type} (edges : List (edge_t V)) (v : Nat) : Nat :=
  edges.countP (fun e => e.src = v) + edges.countP (fun e => e.dst = v)

/-- The array is in ascending order of `vertex_degree_less`: no entry is less than an
earlier one. -/
def sorted_by_degree (l : List vertex_degree) : Prop :=
  l.Pairwise (fun a b => vertex_degree_less b a = false)

/-- A sorting function that stands in for `quickSort` in the samples: insertion sort. -/
def sample_sort (l : List vertex_degree) : List vertex_degree :=
  l.insertionSort (fun a b => vertex_degree_less a b = true)

/-- A preprocessed file with the maximum vertex id 2 and the edges `(0,1)` and `(0,2)`. -/
def sample_edges : List (edge_t Nat) := [⟨0, 1, 10⟩, ⟨0, 2, 20⟩]

instance sorted_by_degree_decidable (l : List vertex_degree) : Decidable (sorted_by_degree l) := by
  unfold sorted_by_degree
  infer_instance

/-- The degree array with the degrees `f i`: entry `i` is `(f i, i)`. -/
def deg_array (n : Nat) (f : Nat → Int) : List vertex_degree :=
  (List.range n).map (fun i => vertex_degree.mk (f i) i)

/-- The edge data types `T` for which `main` of `sharder_basic.cpp` instantiates
`convert<T>`: `float`, `PairContainer<float>`, `int`, `unsigned int`, `PairContainer<int>`,
`short`, `double`, `char`, `bool`, `long`. -/
inductive edge_type where
  | float_t
  | pair_float
  | int_t
  | uint_t
  | pair_int
  | short_t
  | double_t
  | char_t
  | bool_t
  | long_t
  deriving DecidableEq, Repr

/-- The function `main` of `sharder_basic.cpp` for the value `edge_data_type` of the option
`edgedatatype`, every conversion it starts completing: the conversions `convert<T>` it runs,
in order, and the value it returns.  The test for `"float"` is an `if` of its own: the chain
of `else if` starts at the test for `"float-float"`. -/
def main (edge_data_type : String) : List edge_type × Int :=
  let first : List edge_type := if edge_data_type = "float" then [edge_type.float_t] else []
  if edge_data_type = "float-float" then (first ++ [edge_type.pair_float], 0)
  else if edge_data_type = "int" then (first ++ [edge_type.int_t], 0)
  else if edge_data_type = "uint" then (first ++ [edge_type.uint_t], 0)
  else if edge_data_type = "int-int" then (first ++ [edge_type.pair_int], 0)
  else if edge_data_type = "short" then (first ++ [edge_type.short_t], 0)
  else if edge_data_type = "double" then (first ++ [edge_type.double_t], 0)
  else if edge_data_type = "char" then (first ++ [edge_type.char_t], 0)
  else if edge_data_type = "boolean" then (first ++ [edge_type.bool_t], 0)
  else if edge_data_type = "long" then (first ++ [edge_type.long_t], 0)
  else (first, -1)

/-- The conversion the claim prescribes for a value of `edgedatatype`, if it is one of the
ten supported names. -/
def supported_type (edge_data_type : String) : Option edge_type :=
  if edge_data_type = "int" then some edge_type.int_t
  else if edge_data_type = "uint" then some edge_type.uint_t
  else if edge_data_type = "short" then some edge_type.short_t
  else if edge_data_type = "float" then some edge_type.float_t
  else if edge_data_type = "char" then some edge_type.char_t
  else if edge_data_type = "double" then some edge_type.double_t
  else if edge_data_type = "boolean" then some edge_type.bool_t
  else if edge_data_type = "long" then some edge_type.long_t
  else if edge_data_type = "int-int" then some edge_type.pair_int
  else if edge_data_type = "float-float" then some edge_type.pair_float
  else none

/-- What `convert` does to the sharder object and the log, as far as the claims go: the
error about the file type, the calls of `start_preprocessing`, `preprocessing_add_edge`,
`end_preprocessing`, `reprocess` of the preprocessor and `execute_sharding`, and the
mismatch `convert_adjlist` logs. -/
inductive sharder_step (V : Type) where
  | log_error_filetype
  | start_preprocessing
  | add_edge (src dst : Nat) (value : V)
  | log_mismatch (num i linenum : Nat)
  | end_preprocessing
  | reprocess
  | execute_sharding

/-- How a call of `convert` ends: it returns the number of shards, or an assertion fails,
or the behaviour is undefined (see `parse_end.undefined`). -/
inductive outcome where
  | returned (nshards : Int)
  | assertion_failed
  | undefined
  deriving DecidableEq, Repr

/-- The edges handed to `preprocessing_add_edge` in a sequence of steps. -/
def ingested {V : Type} : List (sharder_step V) → List (Nat × Nat × V)
  | [] => []
  | sharder_step.add_edge src dst value :: r => (src, dst, value) :: ingested r
  | _ :: r => ingested r

/-- The steps of a run of `convert_adjlist`. -/
def adjlist_steps {V : Type} (r : adj_out V) : List (sharder_step V) :=
  r.calls.map (fun c => sharder_step.add_edge c.1 c.2.1 c.2.2)
    ++ r.errors.map (fun e => sharder_step.log_mismatch e.1 e.2.1 e.2.2)

/-- What follows the parser in `convert`: `end_preprocessing`, `reprocess` if there is a
preprocessor, and `execute_sharding`. -/
def finish_steps {V : Type} (preprocessor : Bool) : List (sharder_step V) :=
  [sharder_step.end_preprocessing]
    ++ (if preprocessor = true then [sharder_step.reprocess] else [])
    ++ [sharder_step.execute_sharding]

/-- The function `convert`: `preprocessor` tells whether a preprocessor is given,
`preprocessed_file_exists` is the answer of the sharder object, `file_type_str` the value of
the option `filetype`, `input` the contents of the input file, and `nshards` the value
`execute_sharding` returns.  `parse` and `dflt` stand for `parse<EdgeDataType>` and
`EdgeDataType()`. -/
def convert {V : Type} (parse : List Nat → V) (dflt : V) (preprocessor : Bool)
    (preprocessed_file_exists : Bool) (file_type_str : String) (input : List Nat)
    (nshards : Int) : List (sharder_step V) × outcome :=
  if preprocessed_file_exists = false then
    if file_type_str ≠ "adjlist" ∧ file_type_str ≠ "edgelist" then
      ([sharder_step.log_error_filetype], outcome.assertion_failed)
    else if file_type_str = "adjlist" then
      match (convert_adjlist dflt input).ending with
      | parse_end.finished =>
        ([sharder_step.start_preprocessing] ++ adjlist_steps (convert_adjlist dflt input)
          ++ finish_steps preprocessor, outcome.returned nshards)
      | parse_end.assert_degree =>
        ([sharder_step.start_preprocessing] ++ adjlist_steps (convert_adjlist dflt input),
          outcome.assertion_failed)
      | parse_end.undefined =>
        ([sharder_step.start_preprocessing] ++ adjlist_steps (convert_adjlist dflt input),
          outcome.undefined)
    else if file_type_str = "edgelist" then
      match convert_edgelist parse dflt input with
      | none => ([sharder_step.start_preprocessing], outcome.undefined)
      | some calls =>
        ([sharder_step.start_preprocessing]
          ++ calls.map (fun c => sharder_step.add_edge c.1 c.2.1 c.2.2)
          ++ finish_steps preprocessor, outcome.returned nshards)
    else
      ([sharder_step.start_preprocessing] ++ finish_steps preprocessor,
        outcome.returned nshards)
  else ([sharder_step.execute_sharding], outcome.returned nshards)

/-- The function `convert_if_notexists`: `found` is the value of
`find_shards<EdgeDataType>(basefilename + suffix, nshards_string)`; the other arguments are
those of `convert`. -/
def convert_if_notexists {V : Type} (parse : List Nat → V) (dflt : V) (found : Int)
    (preprocessor : Bool) (preprocessed_file_exists : Bool) (file_type_str : String)
    (input : List Nat) (nshards : Int) : List (sharder_step V) × outcome :=
  if found ≠ 0 then ([], outcome.returned found)
  else convert parse dflt preprocessor preprocessed_file_exists file_type_str input nshards

/-- The text of the sample adjacency list. -/
def sample_adj_text : List Nat := text_lines true (sample_adj.map adjline.render)

/-- The calls `release` makes for the adjacency block, if there is one. -/
def adjblock_release_calls (s : sliding_shard) : List iocall :=
  match s.curadjblock with
  | some b =>
    match b.data with
    | some d => [iocall.managed_release b.readdesc d]
    | none => []
  | none => []

/-- A block that is not active and owns a buffer for the bytes `[0, 8)` of the edge-data
file. -/
def idle_block : sblock :=
  { writedesc := 0, readdesc := 0, offset := 0, end_ := 8,
    data := some { id := 0, session := 0, offset := 0, length := 8 }, ptr := 0,
    active := false }

/-- A state whose active block list holds the block `idle_block`, the edge-data offset
standing at its end. -/
def idle_state : sliding_shard :=
  { fresh_shard sample_params sample_io 16 8 0 100 1000 with
    activeblocks := [idle_block]
    edataoffset := 8 }

/-- The sparse index after `save_offset` has been called on an empty index at the cursors
`cps`, in order: a cursor is the value of `curvid` and the entry of the two offsets. -/
def recorded (cps : List (Nat × indexentry)) : List (Int × indexentry) :=
  cps.foldl (fun m c => map_insert (-(to_int c.1)) c.2 m) []

/-- The keys of the index are in strictly ascending order. -/
def index_sorted (m : List (Int × indexentry)) : Prop :=
  m.Pairwise (fun a b => a.1 < b.1)

/-- Sample checkpoints: the cursor of the constructor, then the sources 200000 and 100000,
then the source 100000 again with other offsets. -/
def sample_checkpoints : List (Nat × indexentry) :=
  [(0, indexentry.mk 0 0), (200000, indexentry.mk 900 800), (100000, indexentry.mk 500 400),
    (100000, indexentry.mk 7 7)]

/-- One `save_offset` with the cursor at the checkpoint `c`. -/
def record_at (s : sliding_shard) (c : Nat × indexentry) : sliding_shard :=
  save_offset { s with curvid := c.1, adjoffset := c.2.adjoffset, edataoffset := c.2.edataoffset }

/-- The reads the flags of the shard `s` leave room for: an asynchronous read only when
asynchronous loading is on, a synchronous read only on the adjacency session or when
asynchronous loading is off and the vertex program reads its out-edges.  Every other call
is allowed. -/
def allowed (s : sliding_shard) : iocall → Prop
  | iocall.managed_preada_async _ _ _ _ => s.async_edata_loading = true
  | iocall.managed_preada_now sess _ _ _ =>
    sess = s.adjfile_session ∨ (s.async_edata_loading = false ∧ s.need_read_outedges = true)
  | _ => True

/-- The state `s'` continues the trace of `s`: the calls of `s` followed by calls the flags
allow, no buffer number given back, the same sessions and the same flags. -/
structure tr (s s' : sliding_shard) : Prop where
  calls : ∃ cs, s'.iomgr.calls = s.iomgr.calls ++ cs ∧ ∀ c ∈ cs, allowed s c
  nbufs : s.iomgr.nbufs ≤ s'.iomgr.nbufs
  esess : s'.edata_session = s.edata_session
  asess : s'.adjfile_session = s.adjfile_session
  asyncl : s'.async_edata_loading = s.async_edata_loading
  needr : s'.need_read_outedges = s.need_read_outedges
  onlya : s'.only_adjacency = s.only_adjacency

/-- The state a call ends in, whether it returns or fails. -/
def final_state {α : Type} (st : α → sliding_shard) : res α → sliding_shard
  | .ok x => st x
  | .error e => e.2

/-- The state a call ends in continues the trace of `s`. -/
def tr_res {α : Type} (s : sliding_shard) (st : α → sliding_shard) (r : res α) : Prop :=
  tr s (final_state st r)

/-- Sample parameters of a vertex program that does not read its out-edges and has no
computational edges. -/
def wo_params : params := { sample_params with read_outedges := false }

/-- Sample parameters of a vertex program with computational edges. -/
def ce_params : params := { sample_params with computational_edges := true }

/-- Sample parameters of a vertex program with computational edges that does not read its
out-edges. -/
def co_params : params :=
  { sample_params with computational_edges := true, read_outedges := false }

/-- The sliding shard the constructor builds over the sample files for the vertex program
`P`. -/
def sample_shard (P : params) : sliding_shard :=
  fresh_shard P sample_io 16 (encode_items sample_items).length 0 100 1000

/-- The synchronous read of the whole buffer `d` on the edge-data session, as `read_now`
issues it. -/
def sync_read (s : sliding_shard) (d : buffer) : iocall :=
  iocall.managed_preada_now s.edata_session d d.length d.offset

/-- A block that owns a buffer reads on the edge-data session, the buffer is as long as
the block and starts where it starts, and, once the block is active, asynchronous loading
being off and the vertex program reading its out-edges, the trace holds the synchronous
read of the buffer. -/
def block_loaded (s : sliding_shard) (b : sblock) : Prop :=
  ∀ d, b.data = some d →
    b.readdesc = s.edata_session ∧ d.length = b.end_ - b.offset ∧ d.offset = b.offset ∧
    (b.active = true → s.async_edata_loading = false → s.need_read_outedges = true →
      sync_read s d ∈ s.iomgr.calls)

/-- Every streaming block of the shard is loaded in the sense of `block_loaded`. -/
def blocks_loaded (s : sliding_shard) : Prop :=
  ∀ b ∈ s.activeblocks, block_loaded s b

/-- The out-edge points to nothing or into a buffer whose synchronous read is in the trace
of `s` (asynchronous loading being off and the vertex program reading its out-edges). -/
def loaded_edge (s : sliding_shard) (e : outedge) : Prop :=
  ∀ (d : buffer) (disp : Nat), e.evalue = some (edgeptr.mk (some d) disp) →
    s.async_edata_loading = false → s.need_read_outedges = true →
    sync_read s d ∈ s.iomgr.calls

/-- The vertex `v'` is `v` with out-edges attached at the end, each of them loaded. -/
def vloaded (s : sliding_shard) (v v' : svertex) : Prop :=
  ∃ new, v'.outedges = v.outedges ++ new ∧ ∀ e ∈ new, loaded_edge s e

/-- Slot by slot, the vertices `pre'` are the vertices `pre` with loaded out-edges
attached. -/
def slots_loaded (s : sliding_shard) (pre pre' : List svertex) : Prop :=
  pre'.length = pre.length ∧
    ∀ (j : Nat) (v : svertex), pre[j]? = some v → ∃ v', pre'[j]? = some v' ∧ vloaded s v v'

/-- The static configuration is sound and the adjacency block is coherent. -/
structure aok (P : params) (adj : List Nat) (s : sliding_shard) : Prop where
  cfg : cfg_ok P adj s
  coh : adj_coherent s

/-- A record whose destinations `skip` can step over: `n * sizeof(vid_t)` is computed in
`int`, so the count stays below `2^29`. -/
def small_item : adjitem → Prop
  | adjitem.skip _ => True
  | adjitem.record _ dsts => dsts.length < 536870912

/-- The cursor invariant of a sliding shard over the adjacency file `encode_items items`
between two entries, `done` being the entries before the cursor: the configuration is
sound, the adjacency block is coherent, the cursor stands right after `done`, and every
entry of the sparse index is the cursor after some entries of the file. -/
structure cinv (P : params) (items : List adjitem) (done : List adjitem) (s : sliding_shard) :
    Prop where
  ok : aok P (encode_items items) s
  valid : ∀ it ∈ items, valid_item it
  small : ∀ it ∈ items, small_item it
  spanb : span items < 2147483648
  room : P.sizeof_ET * ndsts items < 4611686018427387904
  pre : ∃ rest, items = done ++ rest
  adjo : s.adjoffset = (encode_items done).length
  cv : s.curvid = span done
  edo : s.edataoffset = P.sizeof_ET * ndsts done
  si : ∀ ke ∈ s.sparse_index, ∃ d0 r0, items = d0 ++ r0 ∧ ke = cursor_entry P d0
  si0 : ∃ e, ((0 : Int), e) ∈ s.sparse_index

/-- The calls of the runs considered for the fast-forward: any `read_next_vertices`, `flush`,
and `set_offset(0, 0, 0)`. -/
def rewind_ok : op → Prop
  | op.read _ _ _ _ _ => True
  | op.flush => True
  | op.set_offset newoff vid edgeptr_ => newoff = 0 ∧ vid = 0 ∧ edgeptr_ = 0

instance (it : adjitem) : Decidable (small_item it) := by
  cases it with
  | skip nz => unfold small_item; infer_instance
  | record long dsts => unfold small_item; infer_instance

instance (o : op) : Decidable (rewind_ok o) := by
  cases o with
  | read nvecs start slots ri dw => unfold rewind_ok; infer_instance
  | flush => unfold rewind_ok; infer_instance
  | set_offset a v e => unfold rewind_ok; infer_instance

/-- A run that records a checkpoint at source 2, rewinds with `set_offset(0, 0, 0)` and
reads vertex 0 again: the cursor is at source 1 and the checkpoint of source 2 ahead. -/
def rewind_ops : List op :=
  [op.read 2 0 [sample_vertex 0, sample_vertex 1] false false,
   op.read 1 3 [sample_vertex 3] true false,
   op.flush,
   op.set_offset 0 0 0,
   op.read 1 0 [sample_vertex 0] false false]

/-- A vertex that is not scheduled, without edges. -/
def idle_vertex (id : Nat) : svertex := { id := id, scheduled := false, outedges := [] }

/-- The run `rewind_ops` with vertex 0 not scheduled in the last call, so that its
destinations are skipped. -/
def rewind_skip_ops : List op :=
  [op.read 2 0 [sample_vertex 0, sample_vertex 1] false false,
   op.read 1 3 [sample_vertex 3] true false,
   op.flush,
   op.set_offset 0 0 0,
   op.read 1 0 [idle_vertex 0] false false]

/-- The sparse index of `s'` holds every checkpoint of `s`, and is sorted by key if the
index of `s` is: what a sequence of `save_offset` calls does to the index. -/
def index_grown (s s' : sliding_shard) : Prop :=
  (index_sorted s.sparse_index → index_sorted s'.sparse_index) ∧
  ∀ x ∈ s.sparse_index, x ∈ s'.sparse_index

/-- A sample sequence of calls: the four vertices are read with checkpoints recorded, the
cursor is sent back to the start, and one vertex is read again. -/
def lookup_ops : List op :=
  [op.read 4 0 sample_slots true false, op.flush, op.set_offset 0 0 0,
    op.read 1 0 [sample_vertex 0] false false]

/-- The state `s` with the member `disable_writes` set to `b`. -/
def with_disable_writes (b : Bool) (s : sliding_shard) : sliding_shard :=
  { s with disable_writes := b }

/-- The result `r` with the member `disable_writes` of the state it carries set to `b`;
`up` does it for a value that is returned. -/
def res_with {α : Type} (up : α → α) (b : Bool) : res α → res α
  | .ok x => .ok (up x)
  | .error (f, s) => .error (f, with_disable_writes b s)

/-- The struct `PairContainer<T>` as the parser uses it: the members `left` and `right`. -/
structure PairContainer (T : Type) where
  left : T
  right : T
  deriving DecidableEq, Repr

/-- An overload `parse(T &x, const char * s)` of an element type: the assignment
`x = value(s)`, as in `parse(int &x, s)` with `atoi(s)` and `parse(float &x, s)` with
`(float) atof(s)`. -/
def parse_elem {T : Type} (value : List Nat → T) (_x : T) (s : List Nat) : T := value s

/-- The overload `parse(PairContainer<T> &x, const char * s)`: `parse(x.left, s)` and then
`parse(x.right, s)`, with the overload `parse_T` of the element type. -/
def parse_pair {T : Type} (parse_T : T → List Nat → T) (x : PairContainer T) (s : List Nat) :
    PairContainer T :=
  let x := { x with left := parse_T x.left s }
  { x with right := parse_T x.right s }

/-- The line `1 2 5 7` and a newline: an edge from 1 to 2 with the value token `5` and a
fourth token `7`. -/
def sample_pair_line : List Nat := [49, 32, 50, 32, 53, 32, 55, 10]

/-- The struct `labelcount_tt<LabelType>` of `util/labelanalysis.hpp`, for a label type of
four bytes that holds vertex ids (`vid_t`). -/
structure labelcount_t where
  label : Nat
  count : Nat
  deriving DecidableEq, Repr

/-- The loop of `analyze_labels` that marks the vertices carrying their own id as label
with `0xffffffff`: the buffer after the loop and the value of `curvid` after it. -/
def mark_own : List Nat → Nat → List Nat × Nat
  | [], curvid => ([], curvid)
  | l :: buffer, curvid =>
    ((if l = curvid then 4294967295 else l) :: (mark_own buffer (u32 (curvid + 1))).1,
      (mark_own buffer (u32 (curvid + 1))).2)

/-- The statement `newlabels[newlabels.size() - 1].count ++`; `none` is the access to an
element of an empty vector. -/
def bump_last (newlabels : List labelcount_t) : Option (List labelcount_t) :=
  match newlabels.getLast? with
  | none => none
  | some e => some (newlabels.dropLast ++ [{ e with count := u32 (e.count + 1) }])

/-- The collect loop of `analyze_labels` over the sorted buffer, from the entry `buffer[i]`
on: `newlabels` and `lastlabel` are the vector and the variable as the earlier passes left
them. -/
def collect : List Nat → List labelcount_t → Nat → Option (List labelcount_t)
  | [], newlabels, _ => some newlabels
  | x :: buffer, newlabels, lastlabel =>
    if x ≠ 4294967295 then
      if x ≠ lastlabel then collect buffer (newlabels ++ [labelcount_t.mk x 1]) x
      else
        match bump_last newlabels with
        | none => none
        | some newlabels => collect buffer newlabels x
    else collect buffer newlabels lastlabel

/-- The merge of `curlabels` and `newlabels` in `analyze_labels`: the entries pushed to
`merged`, in order, for the entries of the two vectors from `cl` and `nl` on.  The first
loop ends when one vector is exhausted, the two loops after it copy what is left.  Every
pass of the first loop consumes an entry, so as many passes as there are entries are
enough: the first argument counts them down. -/
def merge_labels : Nat → List labelcount_t → List labelcount_t → List labelcount_t
  | fuel + 1, c :: curlabels, n :: newlabels =>
    if n.label = c.label then
      labelcount_t.mk n.label (u32 (n.count + c.count)) :: merge_labels fuel curlabels newlabels
    else if n.label < c.label then n :: merge_labels fuel (c :: curlabels) newlabels
    else c :: merge_labels fuel curlabels (n :: newlabels)
  | _, curlabels, newlabels => curlabels ++ newlabels

/-- The loop `while (nread < sz)` of `analyze_labels` on a vertex-data file that holds the
labels `labels`, four bytes each, read `bufsize` bytes a time: `curlabels` after the loop.
`quickSort` stands for the function of that name of `util/qsort.hpp`, called with
`std::less<LabelType>`.  Every pass reads at least one label, so one pass more than there
are labels is enough: the first argument counts them down; `none` is a pass that is left
over, or the failure of `bump_last`. -/
def analyze_loop (quickSort : List Nat → List Nat) (bufsize : Nat) (labels : List Nat) :
    Nat → Nat → Bool → Nat → List labelcount_t → Option (List labelcount_t)
  | 0, _, _, _, _ => none
  | fuel + 1, nread, first, curvid, curlabels =>
    let sz := 4 * labels.length
    if nread < sz then
      let len := min (sz - nread) bufsize
      let nt := len / 4
      let buffer := (labels.drop (nread / 4)).take nt
      let marked := mark_own buffer curvid
      let buffer := quickSort marked.1
      match collect buffer [] 4294967295 with
      | none => none
      | some newlabels =>
        let curlabels :=
          if first = true then curlabels ++ newlabels
          else merge_labels (curlabels.length + newlabels.length) curlabels newlabels
        analyze_loop quickSort bufsize labels fuel (nread + len) false marked.2 curlabels
    else some curlabels

/-- The list `curlabels` of `analyze_labels` before the final sort, for a file with the
labels `labels`: one megabyte is read a time. -/
def collected_labels (quickSort : List Nat → List Nat) (labels : List Nat) :
    Option (List labelcount_t) :=
  analyze_loop quickSort 1048576 labels (labels.length + 1) 0 true 0 []

/-- The function `analyze_labels`: the lines `label,size` it writes to the output file, as
pairs.  `std_sort` stands for `std::sort` with `label_count_greater`. -/
def analyze_labels (quickSort : List Nat → List Nat)
    (std_sort : List labelcount_t → List labelcount_t) (labels : List Nat) :
    Option (List (Nat × Nat)) :=
  match collected_labels quickSort labels with
  | none => none
  | some curlabels => some ((std_sort curlabels).map (fun e => (e.label, u32 (e.count + 1))))

/-- The number of vertices `v ≠ L` that carry the label `L`, as the claim counts them. -/
def label_carriers (labels : List Nat) (L : Nat) : Nat :=
  ((List.range labels.length).filter (fun v => decide (labels[v]? = some L ∧ v ≠ L))).length

/-- The number of positions `i` of `chunk` with the label `L` and `k + i ≠ L`: the vertices
other than `L` that carry `L`, in a chunk that starts at vertex `k`. -/
def carriers_from : Nat → List Nat → Nat → Nat
  | _, [], _ => 0
  | k, l :: chunk, L => (if l = L ∧ k ≠ L then 1 else 0) + carriers_from (k + 1) chunk L

/-- The sum of the counts of the entries with the label `L`. -/
def count_of (nl : List labelcount_t) (L : Nat) : Nat :=
  ((nl.filter (fun e => decide (e.label = L))).map (fun e => e.count)).sum

/-- A list of entries is strictly increasing by label. -/
def labels_increasing (nl : List labelcount_t) : Prop :=
  nl.Pairwise (fun a b => a.label < b.label)

instance labels_increasing_decidable (nl : List labelcount_t) :
    Decidable (labels_increasing nl) := by
  unfold labels_increasing
  infer_instance

/-- A list of entries as the collect and merge steps build them: strictly increasing by
label, every count positive, no label `0xffffffff`. -/
def good_entries (nl : List labelcount_t) : Prop :=
  labels_increasing nl ∧ ∀ e ∈ nl, 0 < e.count ∧ e.label ≠ 4294967295

/-- A sorting function that stands in for `quickSort` with `std::less` in the samples:
insertion sort. -/
def sample_label_sort (l : List Nat) : List Nat := l.insertionSort (fun a b => a ≤ b)

/-- A sorting function that stands in for `std::sort` with `label_count_greater` in the
samples: insertion sort by decreasing count. -/
def sample_count_sort (l : List labelcount_t) : List labelcount_t :=
  l.insertionSort (fun a b => a.count ≥ b.count)

/-- Sample labels of the vertices 0 to 6: the vertices 0, 1 and 3 carry the label 0, the
vertices 2 and 4 the label 2, the vertex 5 its own id, the vertex 6 the label 9. -/
def sample_labels : List Nat := [0, 0, 2, 0, 2, 5, 9]

/-- The failures of the read path below the slot lookup: the assertions of
`check_curblock` and `check_adjblock`, an access outside a buffer or a vector, and the
failure of the bounds check of a target. -/
def data_fault (f : fault) : Prop :=
  f = fault.assert_newblock_end_ge_offset ∨ f = fault.assert_adjblock_end_pos ∨
  f = fault.assert_adjblock_end_ge_offset ∨ f = fault.out_of_bounds ∨
  f = fault.assert_target_in_range

/-- The passes of the `for` loop of `read_next_vertices` that run the body: the value of
`i`, the state and the vertices at the start of each pass, in order (a ghost of
`rnv_loop`, which it follows step by step). -/
def rnv_trace (P : params) (adj : List Nat) (nvecs : Int) (record_index : Bool) :
    Nat → Int → Nat → sliding_shard → List svertex → List (Int × sliding_shard × List svertex)
  | 0, _, _, _, _ => []
  | fuel + 1, i, lastrec, s, prealloc =>
    if i < nvecs then
      if s.adjoffset ≥ s.adjfilesize then []
      else
        (i, s, prealloc) ::
          match rnv_body P adj nvecs record_index i lastrec s prealloc with
          | .error _ => []
          | .ok (i, lastrec, s, prealloc) =>
            rnv_trace P adj nvecs record_index fuel (i + 1) lastrec s prealloc
    else []

/-- The passes of the loop in a call of `read_next_vertices`. -/
def rnv_passes (P : params) (adj : List Nat) (nvecs : Int) (start : Nat)
    (prealloc : List svertex) (record_index disable_writes : Bool) (s : sliding_shard) :
    List (Int × sliding_shard × List svertex) :=
  match (if record_index = false then move_close_to start s else pure s) with
  | .error _ => []
  | .ok s =>
    match rnv_prepare disable_writes s with
    | .error _ => []
    | .ok s =>
      rnv_trace P adj nvecs record_index (nvecs - (to_int s.curvid - to_int start)).toNat
        (to_int s.curvid - to_int start) start s prealloc

/-- The slot `j` holds the vertex `start + j`, for every `j` in `[0, nvecs)`. -/
def slots_numbered (start : Nat) (nvecs : Int) (prealloc : List svertex) : Prop :=
  ∀ j : Nat, (j : Int) < nvecs → ∃ v, prealloc[j]? = some v ∧ v.id = start + j

/-- The byte ranges `[offset, end)` of the active blocks, in the order of the vector. -/
def block_spans (s : sliding_shard) : List (Nat × Nat) :=
  s.activeblocks.map (fun b => (b.offset, b.end_))

/-- The blocks lie behind the cursor: every block but the last ends at or before the
edge-data offset, every block ends at a multiple of the record size `z`, and the blocks do
not overlap. -/
structure blocks_behind (z : Nat) (s : sliding_shard) : Prop where
  tail : ∀ init e, block_spans s = init ++ [e] → ∀ x ∈ init, x.2 ≤ s.edataoffset
  algn : ∀ x ∈ block_spans s, z ∣ x.2
  order : (block_spans s).Pairwise (fun a b => a.2 ≤ b.1)

/-- The current block is the last block of the vector, or there is no block at all. -/
def cur_last (s : sliding_shard) : Prop :=
  (s.curblock = none ∧ block_spans s = []) ∨
  ∃ init e, block_spans s = init ++ [e] ∧ s.curblock = some init.length

/-- The arguments of `set_offset` are the offsets and the vertex id of one position of the
shard: the cursor after some of the entries of the adjacency file. -/
def position_ok (P : params) (items : List adjitem) (newoff vid edgeptr_ : Nat) : Prop :=
  ∃ d0 r0, items = d0 ++ r0 ∧ newoff = (encode_items d0).length ∧ vid = span d0 ∧
    edgeptr_ = P.sizeof_ET * ndsts d0

/-- A sequence of calls in which every `set_offset` comes right after a `flush` and names
a position of the shard; `flushed` tells whether the call before the sequence was a
`flush`. -/
def guarded (P : params) (items : List adjitem) : Bool → List op → Prop
  | _, [] => True
  | _, op.read _ _ _ _ _ :: ops => guarded P items false ops
  | _, op.flush :: ops => guarded P items true ops
  | flushed, op.set_offset newoff vid edgeptr_ :: ops =>
    flushed = true ∧ position_ok P items newoff vid edgeptr_ ∧ guarded P items false ops

/-- A shard with six sources, one destination each: 24 bytes of edge data. -/
def six_items : List adjitem :=
  [adjitem.record false [7], adjitem.record false [8], adjitem.record false [9],
   adjitem.record false [5], adjitem.record false [6], adjitem.record false [4]]

/-- A run on `six_items` with blocks of four bytes: the vertices 0 to 2 are read; a call
for vertex 4 with `record_index` records the checkpoint of vertex 3 (edge-data offset 12);
after `flush`, `set_offset(0, 0, 12)` puts the cursor at vertex 0 with the edge-data offset
of vertex 3; the vertices 0 and 1 are read, which allocates the blocks `[12, 16)` and
`[16, 20)`; the last call asks for vertex 4. -/
def six_ops : List op :=
  [op.read 3 0 [sample_vertex 0, sample_vertex 1, sample_vertex 2] false false,
   op.read 1 4 [sample_vertex 4] true false,
   op.flush,
   op.set_offset 0 0 12,
   op.read 2 0 [sample_vertex 0, sample_vertex 1] false false,
   op.read 1 4 [sample_vertex 4] false false]

/-- A shard with three sources of one destination, 392 skip pairs of 256 sources each, and
three more sources of one destination: 24 bytes of edge data. -/
def far_items : List adjitem :=
  [adjitem.record false [7], adjitem.record false [8], adjitem.record false [9]] ++
    List.replicate 392 (adjitem.skip 255) ++
  [adjitem.record false [5], adjitem.record false [6], adjitem.record false [4]]

/-- A run on `far_items` with blocks of four bytes.  After `flush`,
`set_offset(797, 100099, 12)` puts the cursor before the last skip pair, at vertex 100099;
these are the offsets and the vertex id of that position.  A call with `record_index` and
`start = 0` makes one pass: no slot is accessed, and the checkpoint of vertex 100099
(edge-data offset 12) is recorded, 100000 vertices or more after the start.  After `flush`,
`set_offset(0, 0, 12)` puts the cursor at vertex 0 with that edge-data offset; the vertices
0 and 1 are read, which allocates the blocks `[12, 16)` and `[16, 20)`; the last call asks
for vertex 100099. -/
def far_ops : List op :=
  [op.flush,
   op.set_offset 797 100099 12,
   op.read 100100 0 [] true false,
   op.flush,
   op.set_offset 0 0 12,
   op.read 2 0 [sample_vertex 0, sample_vertex 1] false false,
   op.read 1 100099 [sample_vertex 100099] false false]

/-- A guarded run on `six_items`: as `six_ops`, but `set_offset(5, 1, 4)` puts the cursor at
vertex 1 with the offsets of vertex 1, and the vertices 1 and 2 are read again. -/
def behind_ops : List op :=
  [op.read 3 0 [sample_vertex 0, sample_vertex 1, sample_vertex 2] false false,
   op.read 1 4 [sample_vertex 4] true false,
   op.flush,
   op.set_offset 5 1 4,
   op.read 2 1 [sample_vertex 1, sample_vertex 2] false false]

/-- A block as the edge loop leaves it: marked active, owning a buffer, with a valid write
descriptor. -/
def block_live (b : sblock) : Prop :=
  b.active = true ∧ b.data ≠ none ∧ 0 ≤ b.writedesc

/-- Every block of the list is live, and the edge-data session is a valid descriptor unless
the shard reads the adjacency only. -/
def blocks_live (s : sliding_shard) : Prop :=
  (s.only_adjacency = false → 0 ≤ s.edata_session) ∧ ∀ b ∈ s.activeblocks, block_live b

/-- The state between `check_curblock` and the statements of the edge loop that mark the
current block active: every block owns a buffer and has a valid write descriptor, and every
block but the current one is active. -/
def blocks_pending (s : sliding_shard) : Prop :=
  (s.only_adjacency = false → 0 ≤ s.edata_session) ∧
  ∀ i b, s.activeblocks[i]? = some b →
    b.data ≠ none ∧ 0 ≤ b.writedesc ∧ (b.active = true ∨ s.curblock = some i)

/-- The states in which `release_prior_to_offset` runs when the shard is in the state `s`:
`s` itself, for a call from outside, and, in `read_next_vertices`, the state after
`curblock = NULL`, without or with the fast-forward of `move_close_to` before it. -/
def eviction_state (s t : sliding_shard) : Prop :=
  t = s ∨ t = { s with curblock := none } ∨
    ∃ v s1, move_close_to v s = .ok s1 ∧ t = { s1 with curblock := none }

/-- A run on `six_items` with blocks of four bytes that reads the vertices 0 to 2: it
leaves the blocks `[0, 4)`, `[4, 8)` and `[8, 12)` in the list, the edge-data offset at
12. -/
def evict_ops : List op :=
  [op.read 3 0 [sample_vertex 0, sample_vertex 1, sample_vertex 2] false false]

/-! ## Theorems -/

theorem frame6_refl (s : sliding_shard) : frame6 s s :=
  ⟨s.iomgr, s.adjoffset, s.curadjblock, s.edataoffset, s.activeblocks, s.curblock, rfl⟩

theorem frame6_trans {s1 s2 s3 : sliding_shard} (h1 : frame6 s1 s2) (h2 : frame6 s2 s3) :
    frame6 s1 s3 := by
  obtain ⟨io, ao, cab, eo, bl, cb, rfl⟩ := h1
  obtain ⟨io', ao', cab', eo', bl', cb', rfl⟩ := h2
  exact ⟨io', ao', cab', eo', bl', cb', rfl⟩

theorem load_adjblock_frame {s s' : sliding_shard} (h : load_adjblock s = .ok s') :
    frame6 s s' := by
  unfold load_adjblock at h
  simp only [] at h
  split at h
  · cases h
  · split at h
    · cases h
    · cases h
      exact ⟨_, _, _, _, _, _, rfl⟩

theorem check_adjblock_frame {sz : Nat} {s s' : sliding_shard} (h : check_adjblock sz s = .ok s') :
    frame6 s s' := by
  unfold check_adjblock at h
  split at h
  · exact load_adjblock_frame h
  · split at h
    · exact frame6_trans ⟨_, _, _, _, _, _, rfl⟩ (load_adjblock_frame h)
    · cases h; exact frame6_refl _

theorem read_val_frame {adj : List Nat} {sz v : Nat} {s s' : sliding_shard}
    (h : read_val adj sz s = .ok (v, s')) : frame6 s s' := by
  unfold read_val at h
  split at h
  · cases h
  · rename_i s1 h1
    have f1 := check_adjblock_frame h1
    split at h
    · cases h
    · split at h
      · cases h
      · split at h
        · cases h
          exact frame6_trans f1 ⟨_, _, _, _, _, _, rfl⟩
        · cases h

theorem load_next_block_frame {s s' : sliding_shard} (h : load_next_block s = .ok s') :
    frame6 s s' := by
  unfold load_next_block at h
  simp only [] at h
  split at h
  · cases h
  · cases h
    exact ⟨_, _, _, _, _, _, rfl⟩

theorem check_curblock_frame {sz : Nat} {s s' : sliding_shard} (h : check_curblock sz s = .ok s') :
    frame6 s s' := by
  unfold check_curblock at h
  split at h
  · exact load_next_block_frame h
  · split at h
    · cases h
    · split at h
      · split at h
        · exact frame6_trans ⟨_, _, _, _, _, _, rfl⟩ (load_next_block_frame h)
        · exact load_next_block_frame h
      · cases h; exact frame6_refl _

theorem read_edgeptr_frame {sz : Nat} {e : Option edgeptr} {s s' : sliding_shard}
    (h : read_edgeptr sz s = .ok (e, s')) : frame6 s s' := by
  unfold read_edgeptr at h
  split at h
  · cases h; exact frame6_refl _
  · split at h
    · cases h
    · rename_i s1 h1
      have f1 := check_curblock_frame h1
      split at h
      · cases h
      · split at h
        · cases h
        · cases h
          exact frame6_trans f1 ⟨_, _, _, _, _, _, rfl⟩

theorem activate_curblock_frame {s s' : sliding_shard} (h : activate_curblock s = .ok s') :
    frame6 s s' := by
  unfold activate_curblock at h
  split at h
  · cases h
  · split at h
    · cases h
    · cases h
      exact ⟨_, _, _, _, _, _, rfl⟩

theorem skip_frame (P : params) (n sz : Int) (s : sliding_shard) : frame6 s (skip P n sz s) := by
  unfold skip
  simp only []
  split <;> split <;> exact ⟨_, _, _, _, _, _, rfl⟩

theorem vext_refl (lo hi : Nat) (v : svertex) : vext lo hi v v :=
  ⟨rfl, rfl, [], by simp, by simp⟩

theorem vext_trans {lo hi : Nat} {a b c : svertex} (h1 : vext lo hi a b) (h2 : vext lo hi b c) :
    vext lo hi a c := by
  obtain ⟨i1, s1, n1, e1, r1⟩ := h1
  obtain ⟨i2, s2, n2, e2, r2⟩ := h2
  refine ⟨i2.trans i1, s2.trans s1, n1 ++ n2, by rw [e2, e1, List.append_assoc], ?_⟩
  intro e he
  rcases List.mem_append.mp he with h | h
  · exact r1 e h
  · exact r2 e h

theorem slots_ext_refl (lo hi : Nat) (pre : List svertex) : slots_ext lo hi pre pre :=
  ⟨rfl, fun _ v hv => ⟨v, hv, vext_refl lo hi v⟩⟩

theorem slots_ext_trans {lo hi : Nat} {a b c : List svertex} (h1 : slots_ext lo hi a b)
    (h2 : slots_ext lo hi b c) : slots_ext lo hi a c := by
  refine ⟨h2.1.trans h1.1, ?_⟩
  intro j v hv
  obtain ⟨v1, hv1, x1⟩ := h1.2 j v hv
  obtain ⟨v2, hv2, x2⟩ := h2.2 j v1 hv1
  exact ⟨v2, hv2, vext_trans x1 x2⟩

theorem slots_ext_set {lo hi : Nat} {pre : List svertex} {k : Nat} {v v' : svertex}
    (hk : pre[k]? = some v) (hv : vext lo hi v v') : slots_ext lo hi pre (pre.set k v') := by
  refine ⟨by simp, ?_⟩
  intro j w hw
  by_cases hjk : k = j
  · subst hjk
    have hlt : k < pre.length := by
      rcases Nat.lt_or_ge k pre.length with h | h
      · exact h
      · rw [List.getElem?_eq_none h] at hk; cases hk
    refine ⟨v', by simp [List.getElem?_set, hlt], ?_⟩
    rw [hk] at hw; cases hw; exact hv
  · exact ⟨w, by simp [List.getElem?_set, hjk, hw], vext_refl lo hi w⟩

theorem frame6_range {s s' : sliding_shard} (h : frame6 s s') :
    s'.range_st = s.range_st ∧ s'.range_end = s.range_end ∧ s'.logger = s.logger ∧
    s'.curvid = s.curvid ∧ s'.decoded = s.decoded ∧ s'.sparse_index = s.sparse_index ∧
    s'.adjfilesize = s.adjfilesize := by
  obtain ⟨io, ao, cab, eo, bl, cb, rfl⟩ := h
  exact ⟨rfl, rfl, rfl, rfl, rfl, rfl, rfl⟩

theorem check_target_ok {t : Nat} {s s' : sliding_shard} {v v' : svertex}
    (h : check_target t s v = .ok (s', v')) :
    s' = s ∧ v' = v ∧ s.range_st ≤ t ∧ t ≤ s.range_end := by
  unfold check_target at h
  split at h
  · cases h
  · rename_i hr
    cases h
    simp only [not_not] at hr
    exact ⟨rfl, rfl, hr.1, hr.2⟩

theorem read_edge_ok {P : params} {adj : List Nat} {s s' : sliding_shard} {v v' : svertex}
    (h : read_edge P adj s v = .ok (s', v')) :
    frame6 s s' ∧ ∃ e : outedge, v' = v.add_outedge e.target e.evalue e.special ∧
      s.range_st ≤ e.target ∧ e.target ≤ s.range_end := by
  unfold read_edge at h
  split at h
  · cases h
  · rename_i raw s1 h1
    have f1 := read_val_frame h1
    simp only [] at h
    split at h
    · cases h
    · rename_i ev s2 h2
      have f2 := read_edgeptr_frame h2
      split at h
      · cases h
      · rename_i s3 h3
        have f3 : frame6 s2 s3 := by
          split at h3
          · exact activate_curblock_frame h3
          · cases h3; exact frame6_refl _
        obtain ⟨rfl, rfl, hlo, hhi⟩ := check_target_ok h
        have f := frame6_trans f1 (frame6_trans f2 f3)
        have fr := frame6_range f
        refine ⟨f, ⟨_, ev, _⟩, rfl, ?_, ?_⟩
        · rw [← fr.1]; exact hlo
        · rw [← fr.2.1]; exact hhi

theorem read_edges_ok {P : params} {adj : List Nat} (k : Nat) :
    ∀ {s s' : sliding_shard} {v v' : svertex}, read_edges P adj k s v = .ok (s', v') →
    frame6 s s' ∧ vext s.range_st s.range_end v v' := by
  induction k with
  | zero =>
    intro s s' v v' h
    unfold read_edges at h
    cases h
    exact ⟨frame6_refl _, vext_refl _ _ _⟩
  | succ k ih =>
    intro s s' v v' h
    unfold read_edges at h
    split at h
    · cases h
    · rename_i s1 v1 h1
      obtain ⟨f1, e, rfl, hlo, hhi⟩ := read_edge_ok h1
      obtain ⟨f2, x2⟩ := ih h
      have fr := frame6_range f1
      rw [fr.1, fr.2.1] at x2
      have x1 : vext s.range_st s.range_end v (v.add_outedge e.target e.evalue e.special) := by
        refine ⟨rfl, rfl, [⟨e.target, e.evalue, e.special⟩], rfl, ?_⟩
        intro e' he'
        simp only [List.mem_singleton] at he'
        subst he'
        exact ⟨hlo, hhi⟩
      exact ⟨frame6_trans f1 f2, vext_trans x1 x2⟩

theorem no_bounds_fault_ok {α : Type} (a : α) : no_bounds_fault (.ok a : res α) := by
  intro s' h; cases h

theorem load_adjblock_nbf (s : sliding_shard) : no_bounds_fault (load_adjblock s) := by
  intro s' h
  unfold load_adjblock at h
  simp only [] at h
  split at h
  · cases h
  · split at h <;> cases h

theorem check_adjblock_nbf (sz : Nat) (s : sliding_shard) :
    no_bounds_fault (check_adjblock sz s) := by
  intro s' h
  unfold check_adjblock at h
  split at h
  · exact load_adjblock_nbf _ _ h
  · split at h
    · exact load_adjblock_nbf _ _ h
    · cases h

theorem read_val_nbf (adj : List Nat) (sz : Nat) (s : sliding_shard) :
    no_bounds_fault (read_val adj sz s) := by
  intro s' h
  unfold read_val at h
  split at h
  · rename_i e h1
    cases h
    exact check_adjblock_nbf _ _ _ h1
  · split at h
    · cases h
    · split at h
      · cases h
      · split at h <;> cases h

theorem load_next_block_nbf (s : sliding_shard) : no_bounds_fault (load_next_block s) := by
  intro s' h
  unfold load_next_block at h
  simp only [] at h
  split at h <;> cases h

theorem check_curblock_nbf (sz : Nat) (s : sliding_shard) :
    no_bounds_fault (check_curblock sz s) := by
  intro s' h
  unfold check_curblock at h
  split at h
  · exact load_next_block_nbf _ _ h
  · split at h
    · cases h
    · split at h
      · split at h <;> exact load_next_block_nbf _ _ h
      · cases h

theorem read_edgeptr_nbf (sz : Nat) (s : sliding_shard) :
    no_bounds_fault (read_edgeptr sz s) := by
  intro s' h
  unfold read_edgeptr at h
  split at h
  · cases h
  · split at h
    · rename_i e h1
      cases h
      exact check_curblock_nbf _ _ _ h1
    · split at h
      · cases h
      · split at h <;> cases h

theorem activate_curblock_nbf (s : sliding_shard) : no_bounds_fault (activate_curblock s) := by
  intro s' h
  unfold activate_curblock at h
  split at h
  · cases h
  · split at h <;> cases h

theorem read_count_nbf (adj : List Nat) (ns : Nat) (s : sliding_shard) :
    no_bounds_fault (read_count adj ns s) := by
  intro s' h
  unfold read_count at h
  split at h
  · split at h
    · rename_i e h1
      cases h
      exact read_val_nbf _ _ _ _ h1
    · cases h
  · cases h

theorem move_close_to_nbf (v : Nat) (s : sliding_shard) : no_bounds_fault (move_close_to v s) := by
  intro s' h
  unfold move_close_to at h
  split at h
  · cases h
  · split at h
    · cases h
    · simp only [] at h
      split at h
      · cases h
      · split at h
        · cases h
        · split at h <;> cases h

theorem rnv_prepare_nbf (dw : Bool) (s : sliding_shard) : no_bounds_fault (rnv_prepare dw s) := by
  intro s' h
  unfold rnv_prepare at h
  simp only [] at h
  split at h <;> cases h

theorem check_target_fail {t : Nat} {s s' : sliding_shard} {v : svertex} {f : fault}
    (h : check_target t s v = .error (f, s')) :
    f = fault.assert_target_in_range ∧ ¬ (s.range_st ≤ t ∧ t ≤ s.range_end) ∧
    s'.logger = s.logger ++ [logline.error_not_in t s.range_st s.range_end] ∧
    s'.iomgr.calls = s.iomgr.calls ++ [iocall.print_session s.adjfile_session] ∧
    s'.adjfile_session = s.adjfile_session := by
  unfold check_target at h
  split at h
  · rename_i hr
    cases h
    exact ⟨rfl, hr, rfl, rfl, rfl⟩
  · cases h

theorem read_edge_fail {P : params} {adj : List Nat} {s s' : sliding_shard} {v : svertex}
    (h : read_edge P adj s v = .error (fault.assert_target_in_range, s')) :
    bounds_diag s.range_st s.range_end s' ∧
    ∃ raw s1 t, read_val adj 4 s = .ok (raw, s1) ∧
      t = (if P.sizeof_ET = P.sizeof_ETspecial then (raw, false) else P.translate_edge raw).1 ∧
      ¬ (s.range_st ≤ t ∧ t ≤ s.range_end) ∧
      s'.logger = s.logger ++ [logline.error_not_in t s.range_st s.range_end] := by
  unfold read_edge at h
  split at h
  · rename_i e h1
    cases h
    exact absurd h1 (read_val_nbf _ _ _ _)
  · rename_i raw s1 h1
    have f1 := read_val_frame h1
    simp only [] at h
    split at h
    · rename_i e h2
      cases h
      exact absurd h2 (read_edgeptr_nbf _ _ _)
    · rename_i ev s2 h2
      have f2 := read_edgeptr_frame h2
      split at h
      · rename_i e h3
        cases h
        split at h3
        · exact absurd h3 (activate_curblock_nbf _ _)
        · cases h3
      · rename_i s3 h3
        have f3 : frame6 s2 s3 := by
          split at h3
          · exact activate_curblock_frame h3
          · cases h3; exact frame6_refl _
        have fr := frame6_range (frame6_trans f1 (frame6_trans f2 f3))
        obtain ⟨_, hr, hl, hio, hsess⟩ := check_target_fail h
        rw [fr.1, fr.2.1] at hr hl
        rw [fr.2.2.1] at hl
        refine ⟨⟨_, _, hl, hr, s3.iomgr.calls, ?_⟩, raw, s1, _, h1, rfl, hr, hl⟩
        rw [hio, hsess]

theorem read_edges_fail {P : params} {adj : List Nat} (k : Nat) :
    ∀ {s s' : sliding_shard} {v : svertex},
    read_edges P adj k s v = .error (fault.assert_target_in_range, s') →
    bounds_diag s.range_st s.range_end s' := by
  induction k with
  | zero =>
    intro s s' v h
    unfold read_edges at h
    cases h
  | succ k ih =>
    intro s s' v h
    unfold read_edges at h
    split at h
    · rename_i e h1
      cases h
      exact (read_edge_fail h1).1
    · rename_i s1 v1 h1
      have fr := frame6_range (read_edge_ok h1).1
      have := ih h
      rw [fr.1, fr.2.1] at this
      exact this

theorem read_val_value {adj : List Nat} {sz v : Nat} {s s' : sliding_shard}
    (h : read_val adj sz s = .ok (v, s')) : ∃ p, v = le_value ((adj.drop p).take sz) := by
  unfold read_val at h
  split at h
  · cases h
  · split at h
    · cases h
    · split at h
      · cases h
      · split at h
        · cases h
          exact ⟨_, rfl⟩
        · cases h

theorem le_value_lt (l : List Nat) (hl : ∀ b ∈ l, b < 256) : le_value l < 256 ^ l.length := by
  induction l with
  | nil => simp [le_value]
  | cons b bs ih =>
    have hb : b < 256 := hl b (List.mem_cons_self _ _)
    have ih' := ih (fun x hx => hl x (List.mem_cons_of_mem _ hx))
    simp only [le_value, List.length_cons, pow_succ]
    omega

theorem read_val_byte_lt {adj : List Nat} {v : Nat} {s s' : sliding_shard}
    (hb : ∀ b ∈ adj, b < 256) (h : read_val adj 1 s = .ok (v, s')) : v < 256 := by
  obtain ⟨p, rfl⟩ := read_val_value h
  have h1 : ∀ b ∈ (adj.drop p).take 1, b < 256 :=
    fun b hbm => hb b (List.mem_of_mem_drop (List.mem_of_mem_take hbm))
  have h2 := le_value_lt _ h1
  have h3 : ((adj.drop p).take 1).length ≤ 1 := by simp
  have h4 : 256 ^ ((adj.drop p).take 1).length ≤ 256 ^ 1 :=
    Nat.pow_le_pow_right (by decide) h3
  omega

theorem record_checkpoint_fields (nvecs : Int) (ri : Bool) (l : Nat) (s : sliding_shard) :
    (record_checkpoint nvecs ri l s).1 = s ∨ (record_checkpoint nvecs ri l s).1 = save_offset s := by
  unfold record_checkpoint
  split
  · right; rfl
  · left; rfl

theorem read_count_ok {adj : List Nat} {ns : Nat} {n : Int} {s s' : sliding_shard}
    (h : read_count adj ns s = .ok (n, s')) : frame6 s s' := by
  unfold read_count at h
  split at h
  · split at h
    · cases h
    · rename_i c s1 h1
      cases h
      exact read_val_frame h1
  · cases h; exact frame6_refl _

theorem read_record_ok {P : params} {adj : List Nat} {i n : Int} {s s' : sliding_shard}
    {pre pre' : List svertex} (h : read_record P adj i n s pre = .ok (s', pre')) :
    frame6 s s' ∧ slots_ext s.range_st s.range_end pre pre' := by
  unfold read_record at h
  split at h
  · cases h; exact ⟨skip_frame _ _ _ _, slots_ext_refl _ _ _⟩
  · split at h
    · cases h
    · rename_i vertex hv
      split at h
      · cases h
      · split at h
        · split at h
          · cases h
          · rename_i s1 v1 h1
            cases h
            obtain ⟨f, x⟩ := read_edges_ok _ h1
            exact ⟨f, slots_ext_set hv x⟩
        · cases h; exact ⟨skip_frame _ _ _ _, slots_ext_refl _ _ _⟩

theorem read_record_fail {P : params} {adj : List Nat} {i n : Int} {s s' : sliding_shard}
    {pre : List svertex} (h : read_record P adj i n s pre = .error (fault.assert_target_in_range, s')) :
    bounds_diag s.range_st s.range_end s' := by
  unfold read_record at h
  split at h
  · cases h
  · split at h
    · cases h
    · split at h
      · cases h
      · split at h
        · split at h
          · rename_i e h1
            cases h
            exact read_edges_fail _ h1
          · cases h
        · cases h

theorem rnv_body_ok {P : params} {adj : List Nat} {nvecs : Int} {ri : Bool} {i i' : Int}
    {lastrec lastrec' : Nat} {s s' : sliding_shard} {pre pre' : List svertex}
    (h : rnv_body P adj nvecs ri i lastrec s pre = .ok (i', lastrec', s', pre')) :
    loop_frame s s' ∧ slots_ext s.range_st s.range_end pre pre' ∧
    ((∃ nz p, nz = le_value ((adj.drop p).take 1) ∧ i' = i + nz ∧
        s'.curvid = u32 (u32 (s.curvid + 1) + nz) ∧ s'.decoded = s.decoded) ∨
     (i' = i ∧ s'.curvid = u32 (s.curvid + 1) ∧ s'.decoded = s.decoded ++ [s.curvid])) := by
  unfold rnv_body at h
  simp only [] at h
  have hsl : ∀ x : sliding_shard, frame6 (record_checkpoint nvecs ri lastrec s).1 x →
      x.range_st = s.range_st ∧ x.range_end = s.range_end ∧ x.logger = s.logger ∧
      x.curvid = s.curvid ∧ x.decoded = s.decoded ∧ x.adjfilesize = s.adjfilesize := by
    intro x hx
    have fr := frame6_range hx
    rcases record_checkpoint_fields nvecs ri lastrec s with e | e <;> rw [e] at fr
    · exact ⟨fr.1, fr.2.1, fr.2.2.1, fr.2.2.2.1, fr.2.2.2.2.1, fr.2.2.2.2.2.2⟩
    · exact ⟨fr.1, fr.2.1, fr.2.2.1, fr.2.2.2.1, fr.2.2.2.2.1, fr.2.2.2.2.2.2⟩
  split at h
  · cases h
  · rename_i ns s1 h1
    have f1 := read_val_frame h1
    have g1 := hsl s1 f1
    split at h
    · split at h
      · cases h
      · rename_i nz s2 h2
        have f2 := frame6_range (read_val_frame h2)
        obtain ⟨p, hp⟩ := read_val_value h2
        cases h
        refine ⟨⟨?_, ?_, ?_, ?_⟩, slots_ext_refl _ _ _, Or.inl ⟨nz, p, hp, rfl, ?_, ?_⟩⟩
        · simp [f2.1, g1.1]
        · simp [f2.2.1, g1.2.1]
        · simp [f2.2.2.1, g1.2.2.1]
        · simp [f2.2.2.2.2.2.2, g1.2.2.2.2.2]
        · simp [f2.2.2.2.1, g1.2.2.2.1]
        · simp [f2.2.2.2.2.1, g1.2.2.2.2.1]
    · split at h
      · cases h
      · rename_i n s2 h2
        have f2 := read_count_ok h2
        split at h
        · cases h
        · rename_i s3 pre3 h3
          obtain ⟨f3, x3⟩ := read_record_ok h3
          have g3 := hsl s3 (frame6_trans f1 (frame6_trans f2 f3))
          have g2 := hsl s2 (frame6_trans f1 f2)
          cases h
          rw [g2.1, g2.2.1] at x3
          refine ⟨⟨g3.1, g3.2.1, g3.2.2.1, g3.2.2.2.2.2⟩, x3, Or.inr ⟨rfl, ?_, ?_⟩⟩
          · simp [g3.2.2.2.1]
          · simp [g3.2.2.2.1, g3.2.2.2.2.1]

theorem rnv_body_fail {P : params} {adj : List Nat} {nvecs : Int} {ri : Bool} {i : Int}
    {lastrec : Nat} {s s' : sliding_shard} {pre : List svertex}
    (h : rnv_body P adj nvecs ri i lastrec s pre = .error (fault.assert_target_in_range, s')) :
    bounds_diag s.range_st s.range_end s' := by
  unfold rnv_body at h
  simp only [] at h
  have hsl : ∀ x : sliding_shard, frame6 (record_checkpoint nvecs ri lastrec s).1 x →
      x.range_st = s.range_st ∧ x.range_end = s.range_end := by
    intro x hx
    have fr := frame6_range hx
    rcases record_checkpoint_fields nvecs ri lastrec s with e | e <;> rw [e] at fr
    · exact ⟨fr.1, fr.2.1⟩
    · exact ⟨fr.1, fr.2.1⟩
  split at h
  · rename_i e h1
    cases h
    exact absurd h1 (read_val_nbf _ _ _ _)
  · rename_i ns s1 h1
    have f1 := read_val_frame h1
    split at h
    · split at h
      · rename_i e h2
        cases h
        exact absurd h2 (read_val_nbf _ _ _ _)
      · cases h
    · split at h
      · rename_i e h2
        cases h
        exact absurd h2 (read_count_nbf _ _ _ _)
      · rename_i n s2 h2
        have f2 := read_count_ok h2
        have g2 := hsl s2 (frame6_trans f1 f2)
        split at h
        · rename_i e h3
          cases h
          have := read_record_fail h3
          rw [g2.1, g2.2] at this
          exact this
        · cases h

theorem rnv_loop_ok_ext {P : params} {adj : List Nat} {nvecs : Int} {ri : Bool} (fuel : Nat) :
    ∀ {i : Int} {lastrec : Nat} {s s' : sliding_shard} {pre pre' : List svertex},
    rnv_loop P adj nvecs ri fuel i lastrec s pre = .ok (s', pre') →
    loop_frame s s' ∧ slots_ext s.range_st s.range_end pre pre' := by
  induction fuel with
  | zero =>
    intro i lastrec s s' pre pre' h
    unfold rnv_loop at h
    cases h
    exact ⟨⟨rfl, rfl, rfl, rfl⟩, slots_ext_refl _ _ _⟩
  | succ fuel ih =>
    intro i lastrec s s' pre pre' h
    unfold rnv_loop at h
    split at h
    · split at h
      · cases h
        exact ⟨⟨rfl, rfl, rfl, rfl⟩, slots_ext_refl _ _ _⟩
      · split at h
        · cases h
        · rename_i i1 l1 s1 pre1 h1
          obtain ⟨fr1, x1, _⟩ := rnv_body_ok h1
          obtain ⟨fr2, x2⟩ := ih h
          rw [fr1.1, fr1.2.1] at x2
          exact ⟨⟨fr2.1.trans fr1.1, fr2.2.1.trans fr1.2.1, fr2.2.2.1.trans fr1.2.2.1,
            fr2.2.2.2.trans fr1.2.2.2⟩, slots_ext_trans x1 x2⟩
    · cases h
      exact ⟨⟨rfl, rfl, rfl, rfl⟩, slots_ext_refl _ _ _⟩

theorem rnv_loop_fail {P : params} {adj : List Nat} {nvecs : Int} {ri : Bool} (fuel : Nat) :
    ∀ {i : Int} {lastrec : Nat} {s s' : sliding_shard} {pre : List svertex},
    rnv_loop P adj nvecs ri fuel i lastrec s pre = .error (fault.assert_target_in_range, s') →
    bounds_diag s.range_st s.range_end s' := by
  induction fuel with
  | zero =>
    intro i lastrec s s' pre h
    unfold rnv_loop at h
    cases h
  | succ fuel ih =>
    intro i lastrec s s' pre h
    unfold rnv_loop at h
    split at h
    · split at h
      · cases h
      · split at h
        · rename_i e h1
          cases h
          exact rnv_body_fail h1
        · rename_i i1 l1 s1 pre1 h1
          obtain ⟨fr1, _, _⟩ := rnv_body_ok h1
          have := ih h
          rw [fr1.1, fr1.2.1] at this
          exact this
    · cases h

theorem move_close_to_range {v : Nat} {s s' : sliding_shard} (h : move_close_to v s = .ok s') :
    s'.range_st = s.range_st ∧ s'.range_end = s.range_end ∧ s'.decoded = s.decoded ∧
    s'.adjfile_session = s.adjfile_session := by
  unfold move_close_to at h
  split at h
  · cases h; exact ⟨rfl, rfl, rfl, rfl⟩
  · split at h
    · cases h
    · simp only [] at h
      split at h
      · cases h
      · split at h
        · cases h
        · split at h
          · split at h <;> split at h <;> cases h <;> exact ⟨rfl, rfl, rfl, rfl⟩
          · cases h; exact ⟨rfl, rfl, rfl, rfl⟩

theorem rnv_prepare_range {dw : Bool} {s s' : sliding_shard} (h : rnv_prepare dw s = .ok s') :
    s'.range_st = s.range_st ∧ s'.range_end = s.range_end ∧ s'.decoded = s.decoded ∧
    s'.curvid = s.curvid := by
  unfold rnv_prepare release_prior_to_offset at h
  simp only [] at h
  split at h
  · cases h
  · split at h <;> cases h <;> exact ⟨rfl, rfl, rfl, rfl⟩

theorem read_edge_rejects {P : params} {adj : List Nat} {s s1 : sliding_shard} {v : svertex}
    {raw : Nat} (h1 : read_val adj 4 s = .ok (raw, s1))
    (hr : ¬ (s.range_st ≤
          (if P.sizeof_ET = P.sizeof_ETspecial then (raw, false) else P.translate_edge raw).1 ∧
        (if P.sizeof_ET = P.sizeof_ETspecial then (raw, false) else P.translate_edge raw).1 ≤
          s.range_end)) :
    ∀ s' v', read_edge P adj s v ≠ .ok (s', v') := by
  intro s' v' h
  obtain ⟨f, e, hv, hlo, hhi⟩ := read_edge_ok h
  unfold read_edge at h
  rw [h1] at h
  simp only [] at h
  split at h
  · cases h
  · rename_i ev s2 h2
    split at h
    · cases h
    · rename_i s3 h3
      have f3 : frame6 s2 s3 := by
        split at h3
        · exact activate_curblock_frame h3
        · cases h3; exact frame6_refl _
      have fr := frame6_range (frame6_trans (read_val_frame h1)
        (frame6_trans (read_edgeptr_frame h2) f3))
      obtain ⟨_, _, hlo', hhi'⟩ := check_target_ok h
      rw [fr.1] at hlo'
      rw [fr.2.1] at hhi'
      exact hr ⟨hlo', hhi'⟩

/-- C8. A destination outside the shard interval is fatal.  For every state and every call
of `read_next_vertices`: (1) if the call returns, every out-edge it attached has its target
inside `[range_st, range_end]`; (2) if the call fails on the bounds assertion, the last
line logged is the diagnostic naming a target outside the interval together with both
bounds (and the session was printed last); (3) decoding one destination whose value lies
outside the interval never returns. -/
theorem read_next_vertices_bounds_fatal (P : params) (adj : List Nat) (nvecs : Int) (start : Nat)
    (prealloc : List svertex) (record_index disable_writes : Bool) (s : sliding_shard) :
    (∀ s' slots', read_next_vertices P adj nvecs start prealloc record_index disable_writes s
        = .ok (s', slots') → slots_ext s.range_st s.range_end prealloc slots') ∧
    (∀ s', read_next_vertices P adj nvecs start prealloc record_index disable_writes s
        = .error (fault.assert_target_in_range, s') → bounds_diag s.range_st s.range_end s') ∧
    (∀ (v : svertex) (raw : Nat) (s1 : sliding_shard), read_val adj 4 s = .ok (raw, s1) →
      ¬ (s.range_st ≤
          (if P.sizeof_ET = P.sizeof_ETspecial then (raw, false) else P.translate_edge raw).1 ∧
        (if P.sizeof_ET = P.sizeof_ETspecial then (raw, false) else P.translate_edge raw).1 ≤
          s.range_end) →
      ∀ s' v', read_edge P adj s v ≠ .ok (s', v')) := by
  refine ⟨?_, ?_, fun v raw s1 h1 hr => read_edge_rejects h1 hr⟩
  · intro s' slots' h
    unfold read_next_vertices at h
    split at h
    · cases h
    · rename_i s1 h1
      have r1 : s1.range_st = s.range_st ∧ s1.range_end = s.range_end := by
        split at h1
        · exact ⟨(move_close_to_range h1).1, (move_close_to_range h1).2.1⟩
        · cases h1; exact ⟨rfl, rfl⟩
      split at h
      · cases h
      · rename_i s2 h2
        have r2 := rnv_prepare_range h2
        simp only [] at h
        split at h
        · cases h
        · rename_i s3 pre3 h3
          cases h
          have := (rnv_loop_ok_ext _ h3).2
          rw [r2.1, r2.2.1, r1.1, r1.2] at this
          exact this
  · intro s' h
    unfold read_next_vertices at h
    split at h
    · rename_i e h1
      cases h
      split at h1
      · exact absurd h1 (move_close_to_nbf _ _ _)
      · cases h1
    · rename_i s1 h1
      have r1 : s1.range_st = s.range_st ∧ s1.range_end = s.range_end := by
        split at h1
        · exact ⟨(move_close_to_range h1).1, (move_close_to_range h1).2.1⟩
        · cases h1; exact ⟨rfl, rfl⟩
      split at h
      · rename_i e h2
        cases h
        exact absurd h2 (rnv_prepare_nbf _ _ _)
      · rename_i s2 h2
        have r2 := rnv_prepare_range h2
        simp only [] at h
        split at h
        · rename_i e h3
          cases h
          have := rnv_loop_fail _ h3
          rw [r2.1, r2.2.1, r1.1, r1.2] at this
          exact this
        · cases h

theorem to_int_of_lt {v : Nat} (h : v < 2147483648) : to_int v = (v : Int) := by
  unfold to_int u32
  have : v % 4294967296 = v := Nat.mod_eq_of_lt (by omega)
  rw [this]
  simp [h]

theorem to_int_le (v : Nat) : to_int v ≤ (v : Int) := by
  unfold to_int u32
  have : v % 4294967296 ≤ v := Nat.mod_le _ _
  split <;> omega

theorem rnv_loop_mono {P : params} {adj : List Nat} {nvecs : Int} {ri : Bool} {start : Nat}
    (hb : ∀ b ∈ adj, b < 256) (hn : (start : Int) + nvecs + 256 ≤ 2147483648) (fuel : Nat) :
    ∀ {i : Int} {lastrec : Nat} {s s' : sliding_shard} {pre pre' : List svertex},
    rnv_loop P adj nvecs ri fuel i lastrec s pre = .ok (s', pre') →
    (s.curvid : Int) = start + i → decoded_sorted s →
    decoded_sorted s' ∧ s.curvid ≤ s'.curvid ∧ s.decoded <+: s'.decoded ∧
      ((s'.curvid : Int) ≤ max (s.curvid : Int) (start + nvecs + 255)) := by
  induction fuel with
  | zero =>
    intro i lastrec s s' pre pre' h _ hJ
    unfold rnv_loop at h
    cases h
    exact ⟨hJ, le_refl _, List.prefix_refl _, le_max_left _ _⟩
  | succ fuel ih =>
    intro i lastrec s s' pre pre' h hc hJ
    unfold rnv_loop at h
    split at h
    · rename_i hlt
      split at h
      · cases h
        exact ⟨hJ, le_refl _, List.prefix_refl _, le_max_left _ _⟩
      · split at h
        · cases h
        · rename_i i1 l1 s1 pre1 h1
          obtain ⟨_, _, hcase⟩ := rnv_body_ok h1
          have hcur : s.curvid + 256 < 2147483648 := by omega
          rcases hcase with ⟨nz, p, hnz, hi1, hcv, hdec⟩ | ⟨hi1, hcv, hdec⟩
          · have hnzlt : nz < 256 := by
              have h1' : ∀ b ∈ (adj.drop p).take 1, b < 256 :=
                fun b hbm => hb b (List.mem_of_mem_drop (List.mem_of_mem_take hbm))
              have h2 := le_value_lt _ h1'
              have h3 : ((adj.drop p).take 1).length ≤ 1 := by simp
              have h4 : 256 ^ ((adj.drop p).take 1).length ≤ 256 ^ 1 :=
                Nat.pow_le_pow_right (by decide) h3
              omega
            have hcv' : s1.curvid = s.curvid + 1 + nz := by
              rw [hcv]; unfold u32; omega
            have hJ1 : decoded_sorted s1 := by
              refine ⟨by rw [hdec]; exact hJ.1, ?_⟩
              intro x hx
              rw [hdec] at hx
              have := hJ.2 x hx
              omega
            obtain ⟨hJ', hle, hpre, hmax⟩ := ih h (by rw [hcv', hi1]; push_cast; omega) hJ1
            refine ⟨hJ', by omega, ?_, ?_⟩
            · rw [hdec] at hpre; exact hpre
            · rcases le_max_iff.mp hmax with hm | hm
              · exact le_max_of_le_right (by omega)
              · exact le_max_of_le_right hm
          · have hcv' : s1.curvid = s.curvid + 1 := by
              rw [hcv]; unfold u32; omega
            have hJ1 : decoded_sorted s1 := by
              refine ⟨?_, ?_⟩
              · rw [hdec, List.pairwise_append]
                refine ⟨hJ.1, List.pairwise_singleton _ _, ?_⟩
                intro a ha b hb'
                simp only [List.mem_singleton] at hb'
                subst hb'
                exact hJ.2 a ha
              · intro x hx
                rw [hdec] at hx
                rcases List.mem_append.mp hx with hx | hx
                · have := hJ.2 x hx; omega
                · simp only [List.mem_singleton] at hx; omega
            obtain ⟨hJ', hle, hpre, hmax⟩ := ih h (by rw [hcv', hi1]; push_cast; omega) hJ1
            refine ⟨hJ', by omega, ?_, ?_⟩
            · rw [hdec] at hpre
              exact (List.prefix_append _ _).trans hpre
            · rcases le_max_iff.mp hmax with hm | hm
              · exact le_max_of_le_right (by omega)
              · exact le_max_of_le_right hm
    · cases h
      exact ⟨hJ, le_refl _, List.prefix_refl _, le_max_left _ _⟩

theorem move_close_to_curvid {v : Nat} {s s' : sliding_shard} (h : move_close_to v s = .ok s')
    (hc : s.curvid < 2147483648) :
    s.curvid ≤ s'.curvid ∧ s'.curvid < 2147483648 := by
  unfold move_close_to at h
  split at h
  · cases h; exact ⟨le_refl _, hc⟩
  · split at h
    · cases h
    · rename_i key co hlb
      simp only [] at h
      split at h
      · cases h
      · rename_i h0
        split at h
        · cases h
        · rename_i h1
          have hv := to_int_le v
          have hci := to_int_of_lt hc
          have hv2 : to_int v < 2147483648 := by
            unfold to_int u32; split <;> omega
          split at h
          · rename_i h2
            have key1 : u32 (-key).toNat = (-key).toNat := by
              unfold u32; omega
            have : s'.curvid = (-key).toNat := by
              split at h <;> split at h <;> cases h <;> exact key1
            rw [this]
            omega
          · cases h; exact ⟨le_refl _, hc⟩

theorem read_next_vertices_mono {P : params} {adj : List Nat} {nvecs : Int} {start : Nat}
    {prealloc slots' : List svertex} {ri dw : Bool} {s s' : sliding_shard}
    (hb : ∀ b ∈ adj, b < 256) (hn0 : 0 ≤ nvecs) (hn : (start : Int) + nvecs + 256 ≤ 2147483648)
    (h : read_next_vertices P adj nvecs start prealloc ri dw s = .ok (s', slots'))
    (hc : s.curvid < 2147483648) (hJ : decoded_sorted s) :
    decoded_sorted s' ∧ s.curvid ≤ s'.curvid ∧ s.decoded <+: s'.decoded ∧
      s'.curvid < 2147483648 := by
  unfold read_next_vertices at h
  split at h
  · cases h
  · rename_i s1 h1
    have r1 : s1.decoded = s.decoded ∧ s.curvid ≤ s1.curvid ∧ s1.curvid < 2147483648 := by
      split at h1
      · exact ⟨(move_close_to_range h1).2.2.1, move_close_to_curvid h1 hc⟩
      · cases h1; exact ⟨rfl, le_refl _, hc⟩
    split at h
    · cases h
    · rename_i s2 h2
      have r2 := rnv_prepare_range h2
      simp only [] at h
      split at h
      · cases h
      · rename_i s3 pre3 h3
        cases h
        have hst : start < 2147483648 := by omega
        have hJ2 : decoded_sorted s2 := by
          refine ⟨by rw [r2.2.2.1, r1.1]; exact hJ.1, ?_⟩
          intro x hx
          rw [r2.2.2.1, r1.1] at hx
          have := hJ.2 x hx
          rw [r2.2.2.2]
          omega
        have hi : (s2.curvid : Int) = start + (to_int s2.curvid - to_int start) := by
          rw [to_int_of_lt hst, to_int_of_lt (by rw [r2.2.2.2]; exact r1.2.2)]
          omega
        obtain ⟨hJ', hle, hpre, hmax⟩ := rnv_loop_mono hb hn _ h3 hi hJ2
        refine ⟨hJ', ?_, ?_, ?_⟩
        · show s.curvid ≤ s3.curvid
          rw [r2.2.2.2] at hle
          omega
        · show s.decoded <+: s3.decoded
          rw [r2.2.2.1, r1.1] at hpre
          exact hpre
        · show s3.curvid < 2147483648
          rw [r2.2.2.2] at hmax
          rcases le_max_iff.mp hmax with hm | hm <;> omega

theorem flush_cursor (s : sliding_shard) :
    (flush s).curvid = s.curvid ∧ (flush s).decoded = s.decoded ∧
    (flush s).adjoffset = s.adjoffset ∧ (flush s).edataoffset = s.edataoffset ∧
    (flush s).sparse_index = s.sparse_index := by
  unfold flush release_prior_to_offset
  simp only []
  split <;> exact ⟨rfl, rfl, rfl, rfl, rfl⟩

theorem run_mono {P : params} {adj : List Nat} (hb : ∀ b ∈ adj, b < 256) (ops : List op) :
    ∀ {s s' : sliding_shard} {outs : List (List svertex)},
    (∀ o ∈ ops, op_forward o) → run P adj s ops = .ok (s', outs) →
    s.curvid < 2147483648 → decoded_sorted s →
    decoded_sorted s' ∧ s.curvid ≤ s'.curvid ∧ s.decoded <+: s'.decoded ∧
      s'.curvid < 2147483648 := by
  induction ops with
  | nil =>
    intro s s' outs _ h hc hJ
    unfold run at h
    cases h
    exact ⟨hJ, le_refl _, List.prefix_refl _, hc⟩
  | cons o os ih =>
    intro s s' outs hops h hc hJ
    unfold run at h
    split at h
    · cases h
    · rename_i s1 out1 h1
      split at h
      · cases h
      · rename_i s2 outs2 h2
        cases h
        have hstep : decoded_sorted s1 ∧ s.curvid ≤ s1.curvid ∧ s.decoded <+: s1.decoded ∧
            s1.curvid < 2147483648 := by
          have ho := hops o (List.mem_cons_self _ _)
          cases o with
          | read nvecs start prealloc ri dw =>
            exact read_next_vertices_mono hb ho.1 ho.2 h1 hc hJ
          | flush =>
            unfold exec at h1
            cases h1
            have fc := flush_cursor s
            refine ⟨⟨by rw [fc.2.1]; exact hJ.1, ?_⟩, by rw [fc.1], by rw [fc.2.1], by rw [fc.1]; exact hc⟩
            intro x hx
            rw [fc.2.1] at hx
            rw [fc.1]
            exact hJ.2 x hx
          | set_offset a b c => exact absurd ho (by simp [op_forward])
        obtain ⟨hJ', hle, hpre, hlt⟩ :=
          ih (fun o ho => hops o (List.mem_cons_of_mem _ ho)) h2 hstep.2.2.2 hstep.1
        exact ⟨hJ', le_trans hstep.2.1 hle, hstep.2.2.1.trans hpre, hlt⟩

/-- C4. Sources are decoded in strictly increasing order.  (1) One pass of the loop body
of `read_next_vertices` over any bytes, with the source id at least 256 below `2^32`:
either it decodes a skip pair with second byte `nz < 256`, and then `curvid` and the loop
counter grow by `nz + 1` and by `nz` (plus the `i++` of the loop) and no source is
recorded, or it decodes a destination record, `curvid` grows by exactly 1 and the old
`curvid` is recorded as the source of that record.  (2) For every adjacency byte string and
every run of `read_next_vertices` and `flush` calls (no `set_offset`; vertex ranges below
`2^31 - 256`), the list of sources at which records were decoded stays strictly
increasing, is only extended, and `curvid` never decreases. -/
theorem decoded_sources_strictly_increasing (P : params) (adj : List Nat)
    (hb : ∀ b ∈ adj, b < 256) :
    (∀ (nvecs : Int) (ri : Bool) (i i' : Int) (lastrec lastrec' : Nat) (s s' : sliding_shard)
        (pre pre' : List svertex),
        rnv_body P adj nvecs ri i lastrec s pre = .ok (i', lastrec', s', pre') →
        s.curvid + 256 < 4294967296 →
        (∃ nz : Nat, nz < 256 ∧ i' = i + nz ∧ s'.curvid = s.curvid + (nz + 1) ∧
            s'.decoded = s.decoded) ∨
        (i' = i ∧ s'.curvid = s.curvid + 1 ∧ s'.decoded = s.decoded ++ [s.curvid])) ∧
    (∀ (ops : List op) (s s' : sliding_shard) (outs : List (List svertex)),
        (∀ o ∈ ops, op_forward o) → run P adj s ops = .ok (s', outs) →
        s.curvid < 2147483648 → decoded_sorted s →
        decoded_sorted s' ∧ s.curvid ≤ s'.curvid ∧ s.decoded <+: s'.decoded) := by
  refine ⟨?_, ?_⟩
  · intro nvecs ri i i' lastrec lastrec' s s' pre pre' h hc
    obtain ⟨_, _, hcase⟩ := rnv_body_ok h
    rcases hcase with ⟨nz, p, hnz, hi1, hcv, hdec⟩ | ⟨hi1, hcv, hdec⟩
    · left
      have hnzlt : nz < 256 := by
        have h1' : ∀ b ∈ (adj.drop p).take 1, b < 256 :=
          fun b hbm => hb b (List.mem_of_mem_drop (List.mem_of_mem_take hbm))
        have h2 := le_value_lt _ h1'
        have h3 : ((adj.drop p).take 1).length ≤ 1 := by simp
        have h4 : 256 ^ ((adj.drop p).take 1).length ≤ 256 ^ 1 :=
          Nat.pow_le_pow_right (by decide) h3
        omega
      refine ⟨nz, hnzlt, hi1, ?_, hdec⟩
      rw [hcv]; unfold u32; omega
    · right
      refine ⟨hi1, ?_, hdec⟩
      rw [hcv]; unfold u32; omega
  · intro ops s s' outs hops h hc hJ
    obtain ⟨a, b, c, _⟩ := run_mono hb ops hops h hc hJ
    exact ⟨a, b, c⟩

theorem commit_sync_calls (b : sblock) (io : stripedio) :
    (commit b true false io).2.calls = io.calls ++ sync_commit_calls b := by
  unfold commit sblock.commit_now sblock.release sync_commit_calls stripedio.call
  cases hd : b.data with
  | none => simp
  | some d =>
    by_cases hc : b.active = true ∧ 0 ≤ b.writedesc
    · simp only [hc, and_self, if_true, if_false]
      have hmin : (if b.ptr > b.end_ - b.offset then b.end_ - b.offset else b.ptr)
          = min b.ptr (b.end_ - b.offset) := by
        split <;> omega
      simp [hmin]
    · simp [hc]

theorem release_blocks_all (dw : Bool) (eo : Nat) (bs : List sblock) (io : stripedio) :
    (release_blocks true dw eo bs io).1 = [] := by
  induction bs generalizing io with
  | nil => rfl
  | cons b bs ih =>
    unfold release_blocks
    simp [ih]

theorem release_blocks_sync_calls (eo : Nat) (bs : List sblock) (io : stripedio) :
    (release_blocks true false eo bs io).2.calls
      = io.calls ++ (bs.reverse.map sync_commit_calls).flatten := by
  induction bs generalizing io with
  | nil => simp [release_blocks]
  | cons b bs ih =>
    unfold release_blocks
    simp only [or_true, if_true]
    rw [commit_sync_calls, ih]
    simp [List.append_assoc]

/-- C7. `flush()` commits and releases every block, the adjacency block included.  For
every state: afterwards the active block list is empty and the adjacency block is absent;
the cursor and the sparse index are unchanged; the calls made on the I/O manager are
exactly, for the blocks taken from the last to the first, the synchronous write of the
block (when it is active with a live buffer and a valid write descriptor) at the block's
offset followed by the release of its buffer (when it has one), and finally the release of
the adjacency buffer. -/
theorem flush_commits_and_releases (s : sliding_shard) :
    (flush s).activeblocks = [] ∧ (flush s).curadjblock = none ∧
    (flush s).curvid = s.curvid ∧ (flush s).adjoffset = s.adjoffset ∧
    (flush s).edataoffset = s.edataoffset ∧ (flush s).sparse_index = s.sparse_index ∧
    (flush s).iomgr.calls = s.iomgr.calls ++ (s.activeblocks.reverse.map sync_commit_calls).flatten
      ++ (match s.curadjblock with
          | some b =>
            (match b.data with
             | some d => [iocall.managed_release b.readdesc d]
             | none => [])
          | none => []) ∧
    (∀ b ∈ s.activeblocks, ∀ d, b.data = some d → b.active = true → 0 ≤ b.writedesc →
      [iocall.managed_pwritea_now b.writedesc d (min b.ptr (b.end_ - b.offset)) b.offset,
        iocall.managed_release b.readdesc d] <:+: (flush s).iomgr.calls) ∧
    (∀ b ∈ s.activeblocks, ∀ d, b.data = some d →
      iocall.managed_release b.readdesc d ∈ (flush s).iomgr.calls) ∧
    (∀ b d, s.curadjblock = some b → b.data = some d →
      iocall.managed_release b.readdesc d ∈ (flush s).iomgr.calls) := by
  have hfc := flush_cursor s
  have hcalls : (flush s).iomgr.calls = s.iomgr.calls ++
      (s.activeblocks.reverse.map sync_commit_calls).flatten
      ++ (match s.curadjblock with
          | some b =>
            (match b.data with
             | some d => [iocall.managed_release b.readdesc d]
             | none => [])
          | none => []) := by
    unfold flush release_prior_to_offset
    simp only []
    cases hb : s.curadjblock with
    | none => simp [release_blocks_sync_calls]
    | some b =>
      cases hd : b.data with
      | none => simp [sblock.release, hd, release_blocks_sync_calls]
      | some d => simp [sblock.release, hd, release_blocks_sync_calls, stripedio.call]
  have hblocks : (flush s).activeblocks = [] ∧ (flush s).curadjblock = none := by
    unfold flush release_prior_to_offset
    simp only []
    split <;> exact ⟨release_blocks_all _ _ _ _, by simp_all⟩
  have hmem : ∀ b ∈ s.activeblocks, sync_commit_calls b <:+:
      (s.activeblocks.reverse.map sync_commit_calls).flatten := by
    intro b hb
    have : sync_commit_calls b ∈ s.activeblocks.reverse.map sync_commit_calls :=
      List.mem_map.mpr ⟨b, List.mem_reverse.mpr hb, rfl⟩
    exact List.infix_of_mem_flatten this
  refine ⟨hblocks.1, hblocks.2, hfc.1, hfc.2.2.1, hfc.2.2.2.1, hfc.2.2.2.2, hcalls, ?_, ?_, ?_⟩
  · intro b hb d hd ha hw
    have h1 := hmem b hb
    have h2 : sync_commit_calls b =
        [iocall.managed_pwritea_now b.writedesc d (min b.ptr (b.end_ - b.offset)) b.offset,
          iocall.managed_release b.readdesc d] := by
      simp [sync_commit_calls, hd, ha, hw]
    rw [h2] at h1
    rw [hcalls]
    exact h1.trans (List.infix_append _ _ _)
  · intro b hb d hd
    have h1 := hmem b hb
    have h2 : iocall.managed_release b.readdesc d ∈ sync_commit_calls b := by
      simp [sync_commit_calls, hd]
    rw [hcalls]
    exact List.mem_append_left _ (List.mem_append_right _ (h1.subset h2))
  · intro b d hb hd
    rw [hcalls, hb]
    simp [hd]

theorem adj_io_refl (a : Int) (io : stripedio) : adj_io a io io :=
  ⟨[], by simp, rfl, le_refl _, by simp⟩

theorem adj_io_trans {a : Int} {io1 io2 io3 : stripedio} (h1 : adj_io a io1 io2)
    (h2 : adj_io a io2 io3) : adj_io a io1 io3 := by
  obtain ⟨e1, c1, n1, b1, p1⟩ := h1
  obtain ⟨e2, c2, n2, b2, p2⟩ := h2
  refine ⟨e1 ++ e2, by rw [c2, c1, List.append_assoc], n2.trans n1, le_trans b1 b2, ?_⟩
  intro c hc
  rcases List.mem_append.mp hc with h | h
  · obtain ⟨hs, d, hd, hds, hid⟩ := p1 c h
    exact ⟨hs, d, hd, hds, lt_of_lt_of_le hid b2⟩
  · exact p2 c h

theorem u64_of_lt {x : Nat} (h : x < 18446744073709551616) : u64 x = x :=
  Nat.mod_eq_of_lt h

theorem le_value_le4 {v : Nat} (h : v < 4294967296) : le_value (le4 v) = v := by
  simp only [le4, le_value]
  omega

theorem le4_length (v : Nat) : (le4 v).length = 4 := rfl

/-- `read_val` on a coherent state with `sz` bytes left in the file: it returns the value
of the next `sz` bytes and advances the adjacency offset; everything but the adjacency
offset, the adjacency block and the I/O manager is unchanged. -/
theorem read_val_spec {adj : List Nat} {sz : Nat} {s : sliding_shard}
    (hadj : s.adjfilesize = adj.length) (hlt : adj.length < 4611686018427387904)
    (hbs : sz ≤ s.blocksize) (hbl : s.blocksize < 4611686018427387904) (hsz : 0 < sz)
    (hcoh : adj_coherent s) (hin : s.adjoffset + sz ≤ s.adjfilesize) :
    ∃ b' io', read_val adj sz s = .ok (le_value ((adj.drop s.adjoffset).take sz),
        { s with adjoffset := s.adjoffset + sz, curadjblock := some b', iomgr := io' }) ∧
      adj_coherent { s with adjoffset := s.adjoffset + sz, curadjblock := some b', iomgr := io' } ∧
      adj_io s.adjfile_session s.iomgr io' := by
  have hu1 : u64 (s.adjoffset + sz) = s.adjoffset + sz := u64_of_lt (by omega)
  have hu2 : u64 (s.adjoffset + s.blocksize) = s.adjoffset + s.blocksize := u64_of_lt (by omega)
  -- the state a (re)load produces
  have hload : ∀ (io0 : stripedio), adj_io s.adjfile_session s.iomgr io0 →
      ∃ b' io', read_val adj sz { s with iomgr := io0, curadjblock := none }
          = .ok (le_value ((adj.drop s.adjoffset).take sz),
            { s with adjoffset := s.adjoffset + sz, curadjblock := some b', iomgr := io' }) ∧
        adj_coherent { s with adjoffset := s.adjoffset + sz, curadjblock := some b', iomgr := io' } ∧
        adj_io s.adjfile_session s.iomgr io' := by
    intro io0 hio0
    have hmin1 : 0 < min s.adjfilesize (s.adjoffset + s.blocksize) := by
      rw [Nat.lt_min]; omega
    have hmin2 : s.adjoffset ≤ min s.adjfilesize (s.adjoffset + s.blocksize) := by
      rw [Nat.le_min]; omega
    have hmin3 : s.adjoffset + sz ≤ min s.adjfilesize (s.adjoffset + s.blocksize) := by
      rw [Nat.le_min]; omega
    refine ⟨{ writedesc := 0, readdesc := s.adjfile_session, offset := s.adjoffset,
              end_ := min s.adjfilesize (s.adjoffset + s.blocksize),
              data := some { id := io0.nbufs, session := s.adjfile_session, offset := s.adjoffset,
                             length := min s.adjfilesize (s.adjoffset + s.blocksize) - s.adjoffset },
              ptr := 0 + sz, active := false },
            { calls := io0.calls ++ [iocall.managed_malloc s.adjfile_session
                  { id := io0.nbufs, session := s.adjfile_session, offset := s.adjoffset,
                    length := min s.adjfilesize (s.adjoffset + s.blocksize) - s.adjoffset }] ++
                [iocall.managed_preada_now s.adjfile_session
                  { id := io0.nbufs, session := s.adjfile_session, offset := s.adjoffset,
                    length := min s.adjfilesize (s.adjoffset + s.blocksize) - s.adjoffset }
                  (min s.adjfilesize (s.adjoffset + s.blocksize) - s.adjoffset) s.adjoffset],
              nsessions := io0.nsessions, nbufs := io0.nbufs + 1 }, ?_, ?_, ?_⟩
    · unfold read_val check_adjblock load_adjblock stripedio.managed_malloc stripedio.call
      simp only [hu2, gt_iff_lt, hmin1, not_true_eq_false, if_false, ge_iff_le, hmin2]
      simp only [throw, throwThe, MonadExceptOf.throw, pure, Except.pure]
      have : 0 + sz ≤ min s.adjfilesize (s.adjoffset + s.blocksize) - s.adjoffset ∧
          s.adjoffset + 0 + sz ≤ adj.length := by omega
      simp only [this, and_self, if_true, hu1, Nat.add_zero]
      have hz : u64 (0 + sz) = 0 + sz := u64_of_lt (by omega)
      rw [hz, if_pos ⟨trivial, by omega⟩]
    · intro b hb
      simp only [Option.some.injEq] at hb
      subst hb
      refine ⟨_, rfl, rfl, ?_, rfl, rfl, hmin2, Nat.min_le_left _ _, ?_, rfl⟩
      · show io0.nbufs < io0.nbufs + 1
        omega
      · show s.adjoffset + (0 + sz) = s.adjoffset + sz
        omega
    · refine adj_io_trans hio0 ⟨[iocall.managed_malloc s.adjfile_session
                  { id := io0.nbufs, session := s.adjfile_session, offset := s.adjoffset,
                    length := min s.adjfilesize (s.adjoffset + s.blocksize) - s.adjoffset },
                iocall.managed_preada_now s.adjfile_session
                  { id := io0.nbufs, session := s.adjfile_session, offset := s.adjoffset,
                    length := min s.adjfilesize (s.adjoffset + s.blocksize) - s.adjoffset }
                  (min s.adjfilesize (s.adjoffset + s.blocksize) - s.adjoffset) s.adjoffset],
              by simp, rfl, ?_, ?_⟩
      · show io0.nbufs ≤ io0.nbufs + 1
        omega
      · intro c hc
        simp only [List.mem_cons, List.mem_singleton, List.not_mem_nil, or_false] at hc
        rcases hc with rfl | rfl
        · exact ⟨rfl, _, rfl, rfl, Nat.lt_succ_self _⟩
        · exact ⟨rfl, _, rfl, rfl, Nat.lt_succ_self _⟩
  cases hcab : s.curadjblock with
  | none =>
    have hs : s = { s with iomgr := s.iomgr, curadjblock := none } := by
      cases s; simp_all
    have := hload s.iomgr (adj_io_refl _ _)
    rw [← hs] at this
    exact this
  | some b =>
    obtain ⟨d, hd, hds, hid, hdo, hdl, hoe, hef, hptr, hrd⟩ := hcoh b hcab
    by_cases hre : b.end_ ≤ s.adjoffset + sz
    · -- reload
      have hrel : adj_io s.adjfile_session s.iomgr (b.release s.iomgr).2 := by
        unfold sblock.release stripedio.call
        rw [hd]
        refine ⟨[iocall.managed_release b.readdesc d], rfl, rfl, le_refl _, ?_⟩
        intro c hc
        simp only [List.mem_singleton] at hc
        subst hc
        exact ⟨hrd, d, rfl, hds, hid⟩
      obtain ⟨b', io', h1, h2, h3⟩ := hload _ hrel
      refine ⟨b', io', ?_, h2, h3⟩
      rw [← h1]
      unfold read_val check_adjblock
      simp only [hcab, hu1, hre, if_true]
    · refine ⟨{ b with ptr := b.ptr + sz }, s.iomgr, ?_, ?_, adj_io_refl _ _⟩
      · unfold read_val check_adjblock
        simp only [hcab, hu1, hre, if_false, hd]
        simp only [throw, throwThe, MonadExceptOf.throw, pure, Except.pure]
        have : b.ptr + sz ≤ d.length ∧ d.offset + b.ptr + sz ≤ adj.length := by omega
        have hz : u64 (b.ptr + sz) = b.ptr + sz := u64_of_lt (by omega)
        simp only [hcab, hd, this, and_self, if_true, hz, hdo, hptr]
        rw [if_pos ⟨trivial, by omega⟩, hu1]
      · intro b2 hb2
        simp only [Option.some.injEq] at hb2
        subst hb2
        exact ⟨d, hd, hds, hid, hdo, hdl, hoe, hef, by show b.offset + (b.ptr + sz) = s.adjoffset + sz; omega, hrd⟩

theorem countP_append_zero {α : Type} (p : α → Bool) (l ext : List α)
    (h : ∀ c ∈ ext, p c = false) : (l ++ ext).countP p = l.countP p := by
  rw [List.countP_append]
  have : ext.countP p = 0 := by
    rw [List.countP_eq_zero]
    intro c hc
    simp [h c hc]
  omega

theorem covered_append {sz : Nat} {d : buffer} {p : Nat} {calls : List iocall}
    (h : covered sz d p calls) (ext : List iocall) : covered sz d p (calls ++ ext) := by
  obtain ⟨l1, w, l2, hc, hw, hr⟩ := h
  exact ⟨l1, w, l2 ++ ext, by rw [hc]; simp, hw, hr⟩

theorem is_read_of_buf {d : buffer} {c : iocall} (h : is_read_of d c = true) : c.buf = some d := by
  cases c <;> simp_all [is_read_of, iocall.buf]

theorem is_write_of_buf {d : buffer} {c : iocall} (h : is_write_of d c = true) :
    c.buf = some d := by
  cases c <;> simp_all [is_write_of, iocall.buf]

theorem is_release_of_buf {d : buffer} {c : iocall} (h : is_release_of d c = true) :
    c.buf = some d := by
  cases c <;> simp_all [is_release_of, iocall.buf]

theorem is_sess_read_session {e : Int} {c : iocall} (h : is_sess_read e c = true) :
    c.session = e := by
  cases c <;> simp_all [is_sess_read, iocall.session]

theorem is_sess_write_session {e : Int} {c : iocall} (h : is_sess_write e c = true) :
    c.session = e := by
  cases c <;> simp_all [is_sess_write, iocall.session]

theorem is_sess_malloc_session {e : Int} {c : iocall} (h : is_sess_malloc e c = true) :
    c.session = e := by
  cases c <;> simp_all [is_sess_malloc, iocall.session]

theorem bool_false_of_not_true {b : Bool} (h : b = true → False) : b = false := by
  cases b
  · rfl
  · exact absurd rfl h

/-- Calls made on the adjacency session, about adjacency buffers, leave the edge-data
invariant alone. -/
theorem einv_of_adj_io {P : params} {H : List edgeptr} {s : sliding_shard} {io' : stripedio}
    (ao : Nat) (cab : Option sblock)
    (hinv : einv P H s) (hio : adj_io s.adjfile_session s.iomgr io')
    (hne : s.edata_session ≠ s.adjfile_session) :
    einv P H { s with iomgr := io', adjoffset := ao, curadjblock := cab } := by
  obtain ⟨ext, hcalls, hns, hnb, hext⟩ := hio
  have hbufne : ∀ d : buffer, d.session = s.edata_session → ∀ c ∈ ext, c.buf ≠ some d := by
    intro d hd c hc hcb
    obtain ⟨_, d', hd', hs', _⟩ := hext c hc
    rw [hcb] at hd'
    cases hd'
    exact hne (hd.symm.trans hs')
  have hr : ∀ d : buffer, d.session = s.edata_session →
      io'.calls.countP (is_read_of d) = s.iomgr.calls.countP (is_read_of d) := by
    intro d hd
    rw [hcalls]
    exact countP_append_zero _ _ _ (fun c hc =>
      bool_false_of_not_true (fun h => hbufne d hd c hc (is_read_of_buf h)))
  have hw : ∀ d : buffer, d.session = s.edata_session →
      io'.calls.countP (is_write_of d) = s.iomgr.calls.countP (is_write_of d) := by
    intro d hd
    rw [hcalls]
    exact countP_append_zero _ _ _ (fun c hc =>
      bool_false_of_not_true (fun h => hbufne d hd c hc (is_write_of_buf h)))
  have hrel : ∀ d : buffer, d.session = s.edata_session →
      io'.calls.countP (is_release_of d) = s.iomgr.calls.countP (is_release_of d) := by
    intro d hd
    rw [hcalls]
    exact countP_append_zero _ _ _ (fun c hc =>
      bool_false_of_not_true (fun h => hbufne d hd c hc (is_release_of_buf h)))
  have hsr : io'.calls.countP (is_sess_read s.edata_session)
      = s.iomgr.calls.countP (is_sess_read s.edata_session) := by
    rw [hcalls]
    exact countP_append_zero _ _ _ (fun c hc =>
      bool_false_of_not_true (fun h => hne ((is_sess_read_session h).symm.trans (hext c hc).1)))
  have hsw : io'.calls.countP (is_sess_write s.edata_session)
      = s.iomgr.calls.countP (is_sess_write s.edata_session) := by
    rw [hcalls]
    exact countP_append_zero _ _ _ (fun c hc =>
      bool_false_of_not_true (fun h => hne ((is_sess_write_session h).symm.trans (hext c hc).1)))
  have hsm : io'.calls.countP (is_sess_malloc s.edata_session)
      = s.iomgr.calls.countP (is_sess_malloc s.edata_session) := by
    rw [hcalls]
    exact countP_append_zero _ _ _ (fun c hc =>
      bool_false_of_not_true (fun h => hne ((is_sess_malloc_session h).symm.trans (hext c hc).1)))
  refine ⟨?_, ?_, hinv.order, hinv.lastptr, ?_, ?_, ?_, ?_, ?_, ?_, hinv.align, ?_⟩
  · intro c hc d hd
    show d.id < io'.nbufs
    rw [hcalls] at hc
    rcases List.mem_append.mp hc with h | h
    · exact lt_of_lt_of_le (hinv.fresh c h d hd) hnb
    · obtain ⟨_, d', hd', _, hid⟩ := hext c h
      rw [hd] at hd'
      cases hd'
      exact hid
  · intro b hb
    obtain ⟨d, h1, h2, h3, h4, h5, h6, h7, h8, h9, h10, h11, h12, h13, h14⟩ := hinv.blocks b hb
    exact ⟨d, h1, h2, lt_of_lt_of_le h3 hnb, h4, h5, h6, h7, h8, h9, h10, h11, h12,
      (hw d h2).trans h13, (hrel d h2).trans h14⟩
  · intro d hd
    show io'.calls.countP (is_read_of d) ≤ 1 ∧ io'.calls.countP (is_write_of d) ≤ 1
    rw [hr d hd, hw d hd]
    exact hinv.once d hd
  · show io'.calls.countP (is_sess_read s.edata_session)
      ≤ io'.calls.countP (is_sess_malloc s.edata_session)
    rw [hsr, hsm]; exact hinv.reads
  · show io'.calls.countP (is_sess_write s.edata_session) + s.activeblocks.length
      ≤ io'.calls.countP (is_sess_malloc s.edata_session)
    rw [hsw, hsm]; exact hinv.writes
  · show io'.calls.countP (is_sess_malloc s.edata_session) = 0 ∨ _
    rw [hsm]; exact hinv.front1
  · intro he
    show io'.calls.countP (is_sess_malloc s.edata_session) * s.blocksize ≤ s.edataoffset ∨ _
    rw [hsm]; exact hinv.front2 he
  · intro init lb he
    show 1 ≤ io'.calls.countP (is_sess_malloc s.edata_session) ∧ _
    rw [hsm]; exact hinv.front3 init lb he
  · intro p hp
    obtain ⟨d, h1, h2, h3, h4⟩ := hinv.ptrs p hp
    refine ⟨d, h1, h2, h3, ?_⟩
    rcases h4 with h | h
    · exact Or.inl h
    · right
      show covered P.sizeof_ET d p.disp io'.calls
      rw [hcalls]
      exact covered_append h ext

theorem dvd_le_of_lt_add {z a b : Nat} (ha : z ∣ a) (hb : z ∣ b) (h : a < b + z) : a ≤ b := by
  obtain ⟨x, rfl⟩ := ha
  obtain ⟨y, rfl⟩ := hb
  rcases Nat.eq_zero_or_pos z with hz | hz
  · subst hz; simp
  · have h2 : z * x < z * (y + 1) := by rw [Nat.mul_add, Nat.mul_one]; exact h
    have h3 : x < y + 1 := Nat.lt_of_mul_lt_mul_left h2
    exact Nat.mul_le_mul_left z (Nat.lt_succ_iff.mp h3)

theorem getElem?_append_last {α : Type} (init : List α) (x : α) :
    (init ++ [x])[init.length]? = some x := by
  simp

theorem set_append_last {α : Type} (init : List α) (x y : α) :
    (init ++ [x]).set init.length y = init ++ [y] := by
  induction init with
  | nil => rfl
  | cons a as ih => simp [List.set, ih]

theorem edge_fit_run {P : params} {s : sliding_shard} {init : List sblock} {lb : sblock}
    (hadj : s.only_adjacency = false) (hbl : s.activeblocks = init ++ [lb])
    (hcb : s.curblock = some init.length) (hact : lb.active = true)
    (hfit : ¬ lb.end_ < s.edataoffset + P.sizeof_ET)
    (hlt : s.edataoffset + P.sizeof_ET < 4611686018427387904)
    (hptr : lb.ptr ≤ s.edataoffset) :
    ∃ s1, read_edgeptr P.sizeof_ET s = .ok (some ⟨lb.data, lb.ptr⟩, s1) ∧
      activate_curblock s1 = .ok (edge_fit P s init lb) := by
  have hu : u64 (s.edataoffset + P.sizeof_ET) = s.edataoffset + P.sizeof_ET :=
    u64_of_lt (by omega)
  have hu2 : u64 (lb.ptr + P.sizeof_ET) = lb.ptr + P.sizeof_ET := u64_of_lt (by omega)
  have hget : s.activeblocks[init.length]? = some lb := by
    rw [hbl]; exact getElem?_append_last _ _
  refine ⟨edge_fit P s init lb, ?_, ?_⟩
  · unfold read_edgeptr check_curblock edge_fit
    simp only [hadj, Bool.false_eq_true, if_false, hcb, hu, hfit, hu2, pure, Except.pure, hbl,
      set_append_last, getElem?_append_last]
  · unfold activate_curblock edge_fit
    simp only [hbl, set_append_last, getElem?_append_last, hcb, hact, Bool.true_eq_false,
      if_false]
    rfl

theorem edge_new_run {P : params} {s : sliding_shard}
    (hadj : s.only_adjacency = false)
    (hcur : (s.curblock = none) ∨
      (∃ idx cb, s.curblock = some idx ∧ s.activeblocks[idx]? = some cb ∧ cb.active = true ∧
        cb.end_ < s.edataoffset + P.sizeof_ET))
    (hlt : s.edataoffset + P.sizeof_ET ≤ s.edatafilesize)
    (hF : s.edatafilesize < 4611686018427387904) (hB : s.blocksize < 4611686018427387904)
    (hsz : 0 < P.sizeof_ET) :
    ∃ s1, read_edgeptr P.sizeof_ET s = .ok (some ⟨some (new_buffer s), 0⟩, s1) ∧
      activate_curblock s1 = .ok (edge_new P s) := by
  have hu : u64 (s.edataoffset + P.sizeof_ET) = s.edataoffset + P.sizeof_ET :=
    u64_of_lt (by omega)
  have hu2 : u64 (s.edataoffset + s.blocksize) = s.edataoffset + s.blocksize :=
    u64_of_lt (by omega)
  have hu3 : u64 (0 + P.sizeof_ET) = P.sizeof_ET := by
    rw [Nat.zero_add]; exact u64_of_lt (by omega)
  have hge : min s.edatafilesize (s.edataoffset + s.blocksize) ≥ s.edataoffset := by
    rw [ge_iff_le, Nat.le_min]; omega
  have hload : load_next_block s = .ok
      { s with iomgr := { calls := s.iomgr.calls ++
                            [iocall.managed_malloc s.edata_session (new_buffer s)],
                          nsessions := s.iomgr.nsessions, nbufs := s.iomgr.nbufs + 1 },
               activeblocks := s.activeblocks ++
                 [{ writedesc := s.edata_session, readdesc := s.edata_session,
                    offset := s.edataoffset,
                    end_ := min s.edatafilesize (s.edataoffset + s.blocksize),
                    data := some (new_buffer s), ptr := 0, active := false }],
               curblock := some s.activeblocks.length } := by
    unfold load_next_block stripedio.managed_malloc
    simp only [hu2, hge, not_true_eq_false, if_false]
    rfl
  have hcheck : check_curblock P.sizeof_ET s = load_next_block s := by
    unfold check_curblock
    rcases hcur with h | ⟨idx, cb, h1, h2, h3, h4⟩
    · simp only [h]
    · simp only [h1, h2, hu, h4, if_true, h3, Bool.true_eq_false, if_false]
  refine ⟨{ s with
      edataoffset := s.edataoffset + P.sizeof_ET,
      iomgr := { calls := s.iomgr.calls ++ [iocall.managed_malloc s.edata_session (new_buffer s)],
                 nsessions := s.iomgr.nsessions, nbufs := s.iomgr.nbufs + 1 },
      activeblocks := s.activeblocks ++
        [{ writedesc := s.edata_session, readdesc := s.edata_session, offset := s.edataoffset,
           end_ := min s.edatafilesize (s.edataoffset + s.blocksize),
           data := some (new_buffer s), ptr := P.sizeof_ET, active := false }],
      curblock := some s.activeblocks.length }, ?_, ?_⟩
  · unfold read_edgeptr
    simp only [hadj, Bool.false_eq_true, if_false, hcheck, hload, getElem?_append_last,
      set_append_last, hu, hu3]
    rfl
  · unfold activate_curblock
    simp only [getElem?_append_last, set_append_last]
    unfold edge_new new_block load_calls sblock.read_async sblock.read_now stripedio.call new_buffer
    by_cases ha : s.async_edata_loading = true
    · simp [ha, pure, Except.pure]
    · by_cases hn : s.need_read_outedges = true
      · simp [ha, hn, pure, Except.pure]
      · simp [ha, hn, pure, Except.pure]

theorem append_singleton_inj {α : Type} {l1 l2 : List α} {a b : α}
    (h : l1 ++ [a] = l2 ++ [b]) : l1 = l2 ∧ a = b := by
  have h1 := List.append_inj' h rfl
  exact ⟨h1.1, by simpa using h1.2⟩

theorem einv_edge_fit {P : params} {H : List edgeptr} {s : sliding_shard} {init : List sblock}
    {lb : sblock} (hinv : einv P H s) (hbl : s.activeblocks = init ++ [lb])
    (hfit : ¬ lb.end_ < s.edataoffset + P.sizeof_ET) :
    einv P (⟨lb.data, lb.ptr⟩ :: H) (edge_fit P s init lb) := by
  have hlbmem : lb ∈ s.activeblocks := by rw [hbl]; simp
  have hlast := hinv.lastptr init lb hbl
  obtain ⟨dl, l1, l2, l3, l4, l5, l6, l7, l8, l9, l10, l11, l12, l13, l14⟩ := hinv.blocks lb hlbmem
  refine ⟨hinv.fresh, ?_, ?_, ?_, hinv.once, hinv.reads, ?_, hinv.front1, ?_, ?_, ?_, ?_⟩
  · intro b hb
    have hb' : b ∈ init ++ [{ lb with ptr := lb.ptr + P.sizeof_ET }] := hb
    rcases List.mem_append.mp hb' with h | h
    · have hbm : b ∈ s.activeblocks := by rw [hbl]; exact List.mem_append_left _ h
      obtain ⟨d, h1, h2, h3, h4, h5, h6, h7, h8, h9, h10, h11, h12, h13, h14⟩ := hinv.blocks b hbm
      refine ⟨d, h1, h2, h3, h4, h5, h6, h7, h8, h9, h10, h11, ?_, h13, h14⟩
      show b.offset + b.ptr ≤ s.edataoffset + P.sizeof_ET
      omega
    · simp only [List.mem_singleton] at h
      subst h
      refine ⟨dl, l1, l2, l3, l4, l5, l6, l7, l8, l9, l10, l11, ?_, l13, l14⟩
      show lb.offset + (lb.ptr + P.sizeof_ET) ≤ s.edataoffset + P.sizeof_ET
      omega
  · show (init ++ [{ lb with ptr := lb.ptr + P.sizeof_ET }]).Pairwise (fun (b1 b2 : sblock) => b1.end_ ≤ b2.offset)
    have ho := hinv.order
    rw [hbl, List.pairwise_append] at ho
    rw [List.pairwise_append]
    refine ⟨ho.1, List.pairwise_singleton _ _, ?_⟩
    intro a ha b hb
    simp only [List.mem_singleton] at hb
    subst hb
    exact ho.2.2 a ha lb (List.mem_singleton_self _)
  · intro init' lb' he
    have he' : init ++ [{ lb with ptr := lb.ptr + P.sizeof_ET }] = init' ++ [lb'] := he
    obtain ⟨_, rfl⟩ := append_singleton_inj he'
    show lb.offset + (lb.ptr + P.sizeof_ET) = s.edataoffset + P.sizeof_ET
    omega
  · show s.iomgr.calls.countP (is_sess_write s.edata_session) +
      (init ++ [{ lb with ptr := lb.ptr + P.sizeof_ET }]).length ≤ _
    have := hinv.writes
    rw [hbl] at this
    simpa using this
  · intro he
    have he' : init ++ [{ lb with ptr := lb.ptr + P.sizeof_ET }] = [] := he
    simp at he'
  · intro init' lb' he
    have he' : init ++ [{ lb with ptr := lb.ptr + P.sizeof_ET }] = init' ++ [lb'] := he
    obtain ⟨_, rfl⟩ := append_singleton_inj he'
    exact hinv.front3 init lb hbl
  · show P.sizeof_ET ∣ s.edataoffset + P.sizeof_ET
    exact Nat.dvd_add hinv.align (dvd_refl _)
  · intro p hp
    rcases List.mem_cons.mp hp with h | h
    · subst h
      refine ⟨dl, l1, l2, ?_, Or.inl ⟨{ lb with ptr := lb.ptr + P.sizeof_ET }, ?_, l1, ?_⟩⟩
      · show lb.ptr + P.sizeof_ET ≤ dl.length
        omega
      · show _ ∈ init ++ [{ lb with ptr := lb.ptr + P.sizeof_ET }]
        simp
      · show lb.ptr + P.sizeof_ET ≤ lb.ptr + P.sizeof_ET
        omega
    · obtain ⟨d, h1, h2, h3, h4⟩ := hinv.ptrs p h
      refine ⟨d, h1, h2, h3, ?_⟩
      rcases h4 with ⟨b, hb, hbd, hbp⟩ | h4
      · left
        rw [hbl] at hb
        rcases List.mem_append.mp hb with hb | hb
        · exact ⟨b, List.mem_append_left _ hb, hbd, hbp⟩
        · simp only [List.mem_singleton] at hb
          subst hb
          refine ⟨{ b with ptr := b.ptr + P.sizeof_ET }, ?_, hbd, ?_⟩
          · show _ ∈ init ++ [{ b with ptr := b.ptr + P.sizeof_ET }]
            simp
          · show p.disp + P.sizeof_ET ≤ b.ptr + P.sizeof_ET
            omega
      · exact Or.inr h4

theorem cur_ok_edge_fit {P : params} {s : sliding_shard} {init : List sblock} {lb : sblock}
    (hcb : s.curblock = some init.length) : cur_ok (edge_fit P s init lb) :=
  Or.inr ⟨init, { lb with ptr := lb.ptr + P.sizeof_ET }, rfl, hcb⟩

theorem cur_ok_edge_new (P : params) (s : sliding_shard) : cur_ok (edge_new P s) :=
  Or.inr ⟨s.activeblocks, _, rfl, rfl⟩

theorem countP_zero_of_fresh {calls : List iocall} {n : Nat} {d : buffer} (p : buffer → iocall → Bool)
    (hp : ∀ c, p d c = true → c.buf = some d)
    (hfresh : ∀ c ∈ calls, ∀ d', c.buf = some d' → d'.id < n) (hd : d.id = n) :
    calls.countP (p d) = 0 := by
  rw [List.countP_eq_zero]
  intro c hc hpc
  have := hfresh c hc d (hp c hpc)
  omega

theorem edge_new_calls (P : params) (s : sliding_shard) :
    (edge_new P s).iomgr.calls = s.iomgr.calls ++ new_calls s := by
  simp [edge_new, new_calls]

theorem load_calls_facts (s : sliding_shard) :
    (load_calls s).length ≤ 1 ∧
    ∀ c ∈ load_calls s,
      c = iocall.managed_preada_async s.edata_session (new_buffer s) (new_buffer s).length
            s.edataoffset ∨
      c = iocall.managed_preada_now s.edata_session (new_buffer s) (new_buffer s).length
            s.edataoffset := by
  unfold load_calls
  split
  · exact ⟨by simp, fun c hc => Or.inl (by simpa using hc)⟩
  · split
    · exact ⟨by simp, fun c hc => Or.inr (by simpa using hc)⟩
    · exact ⟨by simp, fun c hc => by cases hc⟩

theorem new_calls_facts (s : sliding_shard) :
    (∀ c ∈ new_calls s, c.buf = some (new_buffer s)) ∧
    (new_calls s).countP (is_sess_malloc s.edata_session) = 1 ∧
    (new_calls s).countP (is_sess_read s.edata_session) ≤ 1 ∧
    (new_calls s).countP (is_sess_write s.edata_session) = 0 ∧
    (∀ d, (new_calls s).countP (is_write_of d) = 0 ∧ (new_calls s).countP (is_release_of d) = 0) ∧
    (∀ d, (new_calls s).countP (is_read_of d) ≤ 1) := by
  obtain ⟨hlen, hall⟩ := load_calls_facts s
  have hz : ∀ p : iocall → Bool,
      (∀ a b c d, p (iocall.managed_preada_async a b c d) = false) →
      (∀ a b c d, p (iocall.managed_preada_now a b c d) = false) →
      (load_calls s).countP p = 0 := by
    intro p h1 h2
    rw [List.countP_eq_zero]
    intro c hc
    rcases hall c hc with rfl | rfl
    · simp [h1]
    · simp [h2]
  have hle : ∀ p : iocall → Bool, (load_calls s).countP p ≤ 1 :=
    fun p => le_trans (List.countP_le_length _) hlen
  unfold new_calls
  refine ⟨?_, ?_, ?_, ?_, ?_, ?_⟩
  · intro c hc
    rcases List.mem_cons.mp hc with rfl | h
    · rfl
    · rcases hall c h with rfl | rfl <;> rfl
  · rw [List.countP_cons, hz _ (fun _ _ _ _ => rfl) (fun _ _ _ _ => rfl)]
    simp [is_sess_malloc]
  · rw [List.countP_cons]
    have := hle (is_sess_read s.edata_session)
    simp only [is_sess_read, Bool.false_eq_true, if_false]
    omega
  · rw [List.countP_cons, hz _ (fun _ _ _ _ => rfl) (fun _ _ _ _ => rfl)]
    simp [is_sess_write]
  · intro d
    rw [List.countP_cons, List.countP_cons, hz _ (fun _ _ _ _ => rfl) (fun _ _ _ _ => rfl),
      hz _ (fun _ _ _ _ => rfl) (fun _ _ _ _ => rfl)]
    simp [is_write_of, is_release_of]
  · intro d
    rw [List.countP_cons]
    have := hle (is_read_of d)
    simp only [is_read_of, Bool.false_eq_true, if_false]
    omega

theorem succ_pred_mul {k B : Nat} (hk : 1 ≤ k) : k * B = (k - 1) * B + B := by
  obtain ⟨k', rfl⟩ : ∃ k', k = k' + 1 := ⟨k - 1, by omega⟩
  simp [Nat.add_mul]

theorem einv_edge_new {P : params} {H : List edgeptr} {s : sliding_shard}
    (hinv : einv P H s) (hsz : 0 < P.sizeof_ET) (hdvd : P.sizeof_ET ∣ s.blocksize)
    (hB : 0 < s.blocksize) (hroom : s.edataoffset + P.sizeof_ET ≤ s.edatafilesize)
    (hlast : ∀ init lb, s.activeblocks = init ++ [lb] → lb.end_ < s.edataoffset + P.sizeof_ET) :
    einv P (⟨some (new_buffer s), 0⟩ :: H) (edge_new P s) := by
  obtain ⟨X1, X2, X3, X4, X5, X6⟩ := new_calls_facts s
  have hcalls := edge_new_calls P s
  have hszB : P.sizeof_ET ≤ s.blocksize := Nat.le_of_dvd hB hdvd
  have hend : s.edataoffset + P.sizeof_ET ≤ min s.edatafilesize (s.edataoffset + s.blocksize) := by
    rw [Nat.le_min]; omega
  -- the last block ends at or before the cursor
  have hlastend : ∀ init lb, s.activeblocks = init ++ [lb] →
      lb.offset + s.blocksize ≤ s.edataoffset ∧ lb.end_ = lb.offset + s.blocksize := by
    intro init lb he
    have hlt := hlast init lb he
    have hm : lb ∈ s.activeblocks := by rw [he]; simp
    obtain ⟨d, h1, h2, h3, h4, h5, h6, h7, h8, h9, h10, h11, h12, h13, h14⟩ := hinv.blocks lb hm
    have hcase : lb.end_ = lb.offset + s.blocksize := by
      rw [h8]
      rcases Nat.le_total s.edatafilesize (lb.offset + s.blocksize) with hle | hle
      · rw [Nat.min_eq_left hle] at h8; omega
      · exact Nat.min_eq_right hle
    refine ⟨?_, hcase⟩
    rw [hcase] at hlt
    exact dvd_le_of_lt_add (Nat.dvd_add h10 hdvd) hinv.align hlt
  have hallend : ∀ b ∈ s.activeblocks, b.end_ ≤ s.edataoffset := by
    intro b hb
    rcases List.eq_nil_or_concat s.activeblocks with hnil | ⟨init, lb, he⟩
    · rw [hnil] at hb; cases hb
    · have he' : s.activeblocks = init ++ [lb] := by rw [he, List.concat_eq_append]
      obtain ⟨hl1, hl2⟩ := hlastend init lb he'
      rw [he'] at hb
      rcases List.mem_append.mp hb with h | h
      · have ho := hinv.order
        rw [he', List.pairwise_append] at ho
        have := ho.2.2 b h lb (List.mem_singleton_self _)
        omega
      · simp only [List.mem_singleton] at h
        subst h; omega
  have hk : s.iomgr.calls.countP (is_sess_malloc s.edata_session) * s.blocksize
      ≤ s.edataoffset := by
    rcases List.eq_nil_or_concat s.activeblocks with hnil | ⟨init, lb, he⟩
    · rcases hinv.front2 hnil with h | h
      · exact h
      · omega
    · have he' : s.activeblocks = init ++ [lb] := by rw [he, List.concat_eq_append]
      obtain ⟨hl1, _⟩ := hlastend init lb he'
      obtain ⟨hk1, hk2⟩ := hinv.front3 init lb he'
      rw [succ_pred_mul hk1]
      omega
  have hnewbuf_notin : ∀ (p : buffer → iocall → Bool),
      (∀ c, p (new_buffer s) c = true → c.buf = some (new_buffer s)) →
      s.iomgr.calls.countP (p (new_buffer s)) = 0 :=
    fun p hp => countP_zero_of_fresh p hp hinv.fresh rfl
  refine ⟨?_, ?_, ?_, ?_, ?_, ?_, ?_, ?_, ?_, ?_, ?_, ?_⟩
  · intro c hc d hd
    show d.id < s.iomgr.nbufs + 1
    rw [hcalls] at hc
    rcases List.mem_append.mp hc with h | h
    · have := hinv.fresh c h d hd; omega
    · have := X1 c h
      rw [hd] at this
      cases this
      show s.iomgr.nbufs < s.iomgr.nbufs + 1
      omega
  · intro b hb
    have hb' : b ∈ s.activeblocks ++ [new_block P s] := hb
    rcases List.mem_append.mp hb' with h | h
    · obtain ⟨d, h1, h2, h3, h4, h5, h6, h7, h8, h9, h10, h11, h12, h13, h14⟩ := hinv.blocks b h
      refine ⟨d, h1, h2, ?_, h4, h5, h6, h7, h8, h9, h10, h11, ?_, ?_, ?_⟩
      · show d.id < s.iomgr.nbufs + 1
        omega
      · show b.offset + b.ptr ≤ s.edataoffset + P.sizeof_ET
        omega
      · rw [hcalls, List.countP_append, h13, (X5 d).1]
      · rw [hcalls, List.countP_append, h14, (X5 d).2]
    · simp only [List.mem_singleton] at h
      subst h
      refine ⟨new_buffer s, rfl, rfl, ?_, rfl, rfl, rfl, rfl, rfl, ?_, hinv.align, rfl, ?_, ?_, ?_⟩
      · show s.iomgr.nbufs < s.iomgr.nbufs + 1
        omega
      · show s.edataoffset < min s.edatafilesize (s.edataoffset + s.blocksize)
        omega
      · show s.edataoffset + P.sizeof_ET ≤ s.edataoffset + P.sizeof_ET
        omega
      · rw [hcalls, List.countP_append, hnewbuf_notin is_write_of (fun c h => is_write_of_buf h),
          (X5 _).1]
      · rw [hcalls, List.countP_append,
          hnewbuf_notin is_release_of (fun c h => is_release_of_buf h), (X5 _).2]
  · show (s.activeblocks ++ [_]).Pairwise (fun (b1 b2 : sblock) => b1.end_ ≤ b2.offset)
    rw [List.pairwise_append]
    refine ⟨hinv.order, List.pairwise_singleton _ _, ?_⟩
    intro a ha b hb
    simp only [List.mem_singleton] at hb
    subst hb
    exact hallend a ha
  · intro init' lb' he
    have he' : s.activeblocks ++ [new_block P s] = init' ++ [lb'] := he
    obtain ⟨_, rfl⟩ := append_singleton_inj he'
    rfl
  · intro d hd
    have ho := hinv.once d hd
    rw [hcalls, List.countP_append, List.countP_append, (X5 d).1]
    refine ⟨?_, by omega⟩
    by_cases hdn : d = new_buffer s
    · subst hdn
      rw [hnewbuf_notin is_read_of (fun c h => is_read_of_buf h)]
      have := X6 (new_buffer s)
      omega
    · have : (new_calls s).countP (is_read_of d) = 0 := by
        rw [List.countP_eq_zero]
        intro c hc hr
        have h1 := X1 c hc
        rw [is_read_of_buf hr] at h1
        cases h1
        exact hdn rfl
      omega
  · show (edge_new P s).iomgr.calls.countP (is_sess_read s.edata_session)
      ≤ (edge_new P s).iomgr.calls.countP (is_sess_malloc s.edata_session)
    rw [hcalls, List.countP_append, List.countP_append, X2]
    have := hinv.reads
    omega
  · show (edge_new P s).iomgr.calls.countP (is_sess_write s.edata_session)
      + (s.activeblocks ++ [_]).length
      ≤ (edge_new P s).iomgr.calls.countP (is_sess_malloc s.edata_session)
    rw [hcalls, List.countP_append, List.countP_append, X2, X4]
    have := hinv.writes
    simp only [List.length_append, List.length_singleton]
    omega
  · right
    show ((edge_new P s).iomgr.calls.countP (is_sess_malloc s.edata_session) - 1) * s.blocksize
      + P.sizeof_ET ≤ s.edatafilesize
    rw [hcalls, List.countP_append, X2, Nat.add_sub_cancel]
    omega
  · intro he
    have he' : s.activeblocks ++ [new_block P s] = [] := he
    simp at he'
  · intro init' lb' he
    have he' : s.activeblocks ++ [new_block P s] = init' ++ [lb'] := he
    obtain ⟨_, rfl⟩ := append_singleton_inj he'
    show 1 ≤ (edge_new P s).iomgr.calls.countP (is_sess_malloc s.edata_session) ∧
      ((edge_new P s).iomgr.calls.countP (is_sess_malloc s.edata_session) - 1) * s.blocksize
        ≤ s.edataoffset
    rw [hcalls, List.countP_append, X2, Nat.add_sub_cancel]
    exact ⟨by omega, hk⟩
  · show P.sizeof_ET ∣ s.edataoffset + P.sizeof_ET
    exact Nat.dvd_add hinv.align (dvd_refl _)
  · intro p hp
    rcases List.mem_cons.mp hp with h | h
    · subst h
      refine ⟨new_buffer s, rfl, rfl, ?_, Or.inl ⟨_, List.mem_append_right _ (List.mem_singleton_self _), rfl, ?_⟩⟩
      · show 0 + P.sizeof_ET ≤ min s.edatafilesize (s.edataoffset + s.blocksize) - s.edataoffset
        omega
      · show 0 + P.sizeof_ET ≤ P.sizeof_ET
        omega
    · obtain ⟨d, h1, h2, h3, h4⟩ := hinv.ptrs p h
      refine ⟨d, h1, h2, h3, ?_⟩
      rcases h4 with ⟨b, hb, hbd, hbp⟩ | h4
      · exact Or.inl ⟨b, List.mem_append_left _ hb, hbd, hbp⟩
      · right
        show covered P.sizeof_ET d p.disp (edge_new P s).iomgr.calls
        rw [hcalls]
        exact covered_append h4 _

theorem adj_coherent_frame_ed {s s2 : sliding_shard} (h : adj_coherent s) (hf : frame_ed s s2)
    (hn : s.iomgr.nbufs ≤ s2.iomgr.nbufs) : adj_coherent s2 := by
  obtain ⟨io, eo, bl, cb, rfl⟩ := hf
  intro b hb
  obtain ⟨d, h1, h2, h3, h4, h5, h6, h7, h8, h9⟩ := h b hb
  exact ⟨d, h1, h2, lt_of_lt_of_le h3 hn, h4, h5, h6, h7, h8, h9⟩

/-- One destination gets its edge pointer: `read_edgeptr` and the activation that
follows it succeed on a state satisfying the edge-data invariant with room for one more
record in the edge-data file; the pointer addresses the record at the old edge-data
offset, and the invariant holds again with the new pointer recorded. -/
theorem edata_step {P : params} {H : List edgeptr} {s : sliding_shard}
    (hinv : einv P H s) (hcur : cur_ok s) (hadj : s.only_adjacency = false)
    (hsz : 0 < P.sizeof_ET) (hdvd : P.sizeof_ET ∣ s.blocksize) (hB : 0 < s.blocksize)
    (hroom : s.edataoffset + P.sizeof_ET ≤ s.edatafilesize)
    (hF : s.edatafilesize < 4611686018427387904) (hBlt : s.blocksize < 4611686018427387904) :
    ∃ p s1 s2, read_edgeptr P.sizeof_ET s = .ok (some p, s1) ∧ activate_curblock s1 = .ok s2 ∧
      einv P (p :: H) s2 ∧ cur_ok s2 ∧ frame_ed s s2 ∧
      s2.edataoffset = s.edataoffset + P.sizeof_ET ∧ s.iomgr.nbufs ≤ s2.iomgr.nbufs ∧
      ∃ d, p.base = some d ∧ d.offset + p.disp = s.edataoffset := by
  rcases hcur with ⟨hcb, hnil⟩ | ⟨init, lb, hbl, hcb⟩
  · obtain ⟨s1, h1, h2⟩ := edge_new_run (P := P) hadj (Or.inl hcb) hroom hF hBlt hsz
    refine ⟨_, s1, _, h1, h2, ?_, cur_ok_edge_new P s, ⟨_, _, _, _, rfl⟩, rfl, ?_, _, rfl, ?_⟩
    · refine einv_edge_new hinv hsz hdvd hB hroom ?_
      intro init lb he
      rw [hnil] at he
      simp at he
    · show s.iomgr.nbufs ≤ s.iomgr.nbufs + 1
      omega
    · show s.edataoffset + 0 = s.edataoffset
      omega
  · have hlbmem : lb ∈ s.activeblocks := by rw [hbl]; simp
    obtain ⟨dl, l1, l2, l3, l4, l5, l6, l7, l8, l9, l10, l11, l12, l13, l14⟩ :=
      hinv.blocks lb hlbmem
    have hlast := hinv.lastptr init lb hbl
    have hget : s.activeblocks[init.length]? = some lb := by
      rw [hbl]; exact getElem?_append_last _ _
    by_cases hfit : lb.end_ < s.edataoffset + P.sizeof_ET
    · obtain ⟨s1, h1, h2⟩ := edge_new_run (P := P) hadj
        (Or.inr ⟨init.length, lb, hcb, hget, l11, hfit⟩) hroom hF hBlt hsz
      refine ⟨_, s1, _, h1, h2, ?_, cur_ok_edge_new P s, ⟨_, _, _, _, rfl⟩, rfl, ?_, _, rfl, ?_⟩
      · refine einv_edge_new hinv hsz hdvd hB hroom ?_
        intro init' lb' he
        rw [hbl] at he
        obtain ⟨_, rfl⟩ := append_singleton_inj he
        exact hfit
      · show s.iomgr.nbufs ≤ s.iomgr.nbufs + 1
        omega
      · show s.edataoffset + 0 = s.edataoffset
        omega
    · obtain ⟨s1, h1, h2⟩ := edge_fit_run (P := P) hadj hbl hcb l11 hfit (by omega) (by omega)
      refine ⟨_, s1, _, h1, h2, einv_edge_fit hinv hbl hfit, cur_ok_edge_fit hcb,
        ⟨_, _, _, _, rfl⟩, rfl, le_refl _, dl, l1, ?_⟩
      show dl.offset + lb.ptr = s.edataoffset
      omega

theorem cfg_ok_of_frame6 {P : params} {adj : List Nat} {s s' : sliding_shard}
    (hf : frame6 s s') (h : cfg_ok P adj s) : cfg_ok P adj s' := by
  obtain ⟨io, ao, cab, eo, bl, cb, rfl⟩ := hf
  exact h

theorem frame6_static {s s' : sliding_shard} (hf : frame6 s s') :
    s'.only_adjacency = s.only_adjacency ∧ s'.edatafilesize = s.edatafilesize ∧
    s'.blocksize = s.blocksize ∧ s'.edata_session = s.edata_session ∧
    s'.adjfile_session = s.adjfile_session ∧ s'.window_start_edataoffset = s.window_start_edataoffset := by
  obtain ⟨io, ao, cab, eo, bl, cb, rfl⟩ := hf
  exact ⟨rfl, rfl, rfl, rfl, rfl, rfl⟩

/-- Decoding one destination of a well-formed record: `read_edge` returns, the vertex
gets the destination with a pointer to the record at the old edge-data offset, both
offsets advance, and the loop invariant holds again. -/
theorem read_edge_spec {P : params} {adj : List Nat} {H : List edgeptr} {s : sliding_shard}
    {v : svertex} {dst : Nat}
    (hl : linv P adj H s) (hbytes : (adj.drop s.adjoffset).take 4 = le4 dst)
    (hdst : dst < 4294967296) (hin : s.adjoffset + 4 ≤ s.adjfilesize)
    (hroom : s.edataoffset + P.sizeof_ET ≤ s.edatafilesize)
    (hrange : s.range_st ≤ dst ∧ dst ≤ s.range_end) :
    ∃ p s', read_edge P adj s v = .ok (s', v.add_outedge dst (some p) false) ∧
      linv P adj (p :: H) s' ∧ s'.adjoffset = s.adjoffset + 4 ∧
      s'.edataoffset = s.edataoffset + P.sizeof_ET ∧
      ∃ d, p.base = some d ∧ d.offset + p.disp = s.edataoffset := by
  obtain ⟨c1, c2, c3, c4, c5, c6, c7, c8, c9, c10, c11⟩ := hl.cfg
  obtain ⟨b', io', hrv, hcoh1, hio⟩ :=
    @read_val_spec adj 4 s c3 c4 c6 c7 (by decide) hl.adjc hin
  rw [hbytes, le_value_le4 hdst] at hrv
  have hinv1 := einv_of_adj_io (s.adjoffset + 4) (some b') hl.ed hio c10
  obtain ⟨p, s1', s2, hre, hact, hinv2, hcur2, hfr, heo, hnb, hp⟩ :=
    edata_step hinv1 hl.cur c9 c1 c8 (by show 0 < s.blocksize; omega) hroom c5 c7
  have hoa : s1'.only_adjacency = false := by
    rw [(frame6_static (read_edgeptr_frame hre)).1]; exact c9
  have heq : read_edge P adj s v = .ok (s2, v.add_outedge dst (some p) false) := by
    unfold read_edge
    rw [hrv]
    simp only [c2, if_true, Bool.false_eq_true, if_false]
    rw [← c2, hre]
    simp only [hoa, if_true, hact]
    unfold check_target
    have hr2 : s2.range_st = s.range_st ∧ s2.range_end = s.range_end := by
      obtain ⟨io, eo, bl, cb, rfl⟩ := hfr
      exact ⟨rfl, rfl⟩
    rw [hr2.1, hr2.2]
    simp only [ge_iff_le, hrange, and_self, not_true_eq_false, if_false]
    rfl
  have hf6 := (read_edge_ok heq).1
  refine ⟨p, s2, heq, ⟨cfg_ok_of_frame6 hf6 hl.cfg, adj_coherent_frame_ed hcoh1 hfr hnb, hinv2,
    hcur2⟩, ?_, heo, hp⟩
  obtain ⟨io, eo, bl, cb, rfl⟩ := hfr
  rfl

theorem new_ok_mono {P : params} {H H' : List edgeptr} {new : List outedge}
    {spec : List (Nat × Nat)} (hsub : ∀ p ∈ H, p ∈ H') (h : new_ok P H new spec) :
    new_ok P H' new spec :=
  ⟨h.1, fun e he => by
    obtain ⟨p, hp1, hp2⟩ := h.2 e he
    exact ⟨p, hp1, hsub p hp2⟩⟩

theorem new_ok_nil (P : params) (H : List edgeptr) : new_ok P H [] [] :=
  ⟨List.Forall₂.nil, fun e he => by cases he⟩

theorem forall2_append {α β : Type} {R : α → β → Prop} {a1 a2 : List α} {b1 b2 : List β}
    (h1 : List.Forall₂ R a1 b1) (h2 : List.Forall₂ R a2 b2) :
    List.Forall₂ R (a1 ++ a2) (b1 ++ b2) := by
  induction h1 with
  | nil => exact h2
  | cons hab _ ih => exact List.Forall₂.cons hab ih

theorem new_ok_append {P : params} {H : List edgeptr} {n1 n2 : List outedge}
    {s1 s2 : List (Nat × Nat)} (h1 : new_ok P H n1 s1) (h2 : new_ok P H n2 s2) :
    new_ok P H (n1 ++ n2) (s1 ++ s2) := by
  refine ⟨forall2_append h1.1 h2.1, ?_⟩
  · intro e he
    rcases List.mem_append.mp he with h | h
    · exact h1.2 e h
    · exact h2.2 e h

/-- The bytes of the destinations of a record, read one after the other: `read_edges`
returns, the vertex gets the destinations in order, each with a pointer to its own
edge-data record, and the loop invariant holds again. -/
theorem read_edges_spec {P : params} {adj : List Nat} (dsts : List Nat) :
    ∀ {H : List edgeptr} {s : sliding_shard} {v : svertex} (pre rest : List Nat) (g : Nat),
    linv P adj H s → adj = pre ++ (encode_dsts dsts ++ rest) → s.adjoffset = pre.length →
    (∀ d ∈ dsts, d < 4294967296) → s.edataoffset = P.sizeof_ET * g →
    P.sizeof_ET * (g + dsts.length) ≤ s.edatafilesize →
    (∀ d ∈ dsts, s.range_st ≤ d ∧ d ≤ s.range_end) →
    ∃ new H' s', read_edges P adj dsts.length s v = .ok (s',
        { v with outedges := v.outedges ++ new }) ∧
      linv P adj H' s' ∧ (∀ p ∈ H, p ∈ H') ∧ new_ok P H' new (rec_spec g dsts) ∧
      s'.adjoffset = s.adjoffset + 4 * dsts.length ∧
      s'.edataoffset = P.sizeof_ET * (g + dsts.length) := by
  induction dsts with
  | nil =>
    intro H s v pre rest g hl _ _ _ he _ _
    refine ⟨[], H, s, ?_, hl, fun p hp => hp, new_ok_nil _ _, by simp, by simpa using he⟩
    unfold read_edges
    simp [pure, Except.pure]
  | cons dst ds ih =>
    intro H s v pre rest g hl hadj hoff hlt he hroom hrange
    obtain ⟨c1, c2, c3, c4, c5, c6, c7, c8, c9, c10, c11⟩ := hl.cfg
    have hbytes : (adj.drop s.adjoffset).take 4 = le4 dst := by
      rw [hadj, hoff, List.drop_left]
      simp only [encode_dsts, List.append_assoc]
      rw [List.take_left' (le4_length dst)]
    have hlen : adj.length = pre.length + (4 + (encode_dsts ds).length + rest.length) := by
      rw [hadj]
      simp only [encode_dsts, List.length_append, le4_length]
    have hmul : P.sizeof_ET * (g + (dst :: ds).length)
        = P.sizeof_ET * g + P.sizeof_ET + P.sizeof_ET * ds.length := by
      simp only [List.length_cons, Nat.mul_add, Nat.mul_succ]
      omega
    have hmul2 : P.sizeof_ET * (g + 1 + ds.length)
        = P.sizeof_ET * g + P.sizeof_ET + P.sizeof_ET * ds.length := by
      simp only [Nat.mul_add, Nat.mul_one]
    have hmul3 : P.sizeof_ET * (g + 1) = P.sizeof_ET * g + P.sizeof_ET := by
      simp only [Nat.mul_add, Nat.mul_one]
    obtain ⟨p, s1, h1, hl1, ha1, he1, hp1⟩ := read_edge_spec (v := v) hl hbytes
      (hlt dst (List.mem_cons_self _ _)) (by rw [c3, hoff]; omega)
      (by rw [hmul] at hroom; omega) (hrange dst (List.mem_cons_self _ _))
    have hf1 := (read_edge_ok h1).1
    have hr1 := frame6_range hf1
    have hs1 := frame6_static hf1
    obtain ⟨new, H', s2, h2, hl2, hsub2, hnew2, ha2, he2⟩ :=
      ih (H := p :: H) (s := s1) (v := v.add_outedge dst (some p) false) (pre ++ le4 dst) rest
        (g + 1) hl1
        (by rw [hadj]; simp [encode_dsts, List.append_assoc])
        (by rw [ha1, hoff]; simp [le4_length])
        (fun d hd => hlt d (List.mem_cons_of_mem _ hd))
        (by rw [he1, he, hmul3])
        (by rw [hs1.2.1, hmul2]; rw [hmul] at hroom; exact hroom)
        (fun d hd => by rw [hr1.1, hr1.2.1]; exact hrange d (List.mem_cons_of_mem _ hd))
    have hpH' : p ∈ H' := hsub2 p (List.mem_cons_self _ _)
    refine ⟨⟨dst, some p, false⟩ :: new, H', s2, ?_, hl2,
      fun q hq => hsub2 q (List.mem_cons_of_mem _ hq), ⟨?_, ?_⟩, ?_, ?_⟩
    · show read_edges P adj (ds.length + 1) s v = _
      unfold read_edges
      rw [h1]
      simp only []
      rw [h2]
      simp [svertex.add_outedge, List.append_assoc]
    · refine List.Forall₂.cons ⟨rfl, rfl, p, ?_⟩ hnew2.1
      obtain ⟨d, hd1, hd2⟩ := hp1
      exact ⟨d, rfl, hd1, by rw [hd2, he]⟩
    · intro e hem
      rcases List.mem_cons.mp hem with rfl | h
      · exact ⟨p, rfl, hpH'⟩
      · exact hnew2.2 e h
    · rw [ha2, ha1]; simp only [List.length_cons]; omega
    · rw [he2]; simp only [List.length_cons]; congr 1; omega

theorem int_to_size_t_nat {x : Nat} (h : x < 18446744073709551616) :
    int_to_size_t (x : Int) = x := by
  unfold int_to_size_t
  omega

theorem modify_block_last (init : List sblock) (lb : sblock) (f : sblock → sblock) :
    modify_block (init ++ [lb]) init.length f = init ++ [f lb] := by
  unfold modify_block
  rw [getElem?_append_last]
  exact set_append_last _ _ _

/-- Skipping the `m` destinations of a record on a state satisfying the loop invariant:
both offsets advance, and the invariant holds again. -/
theorem skip_spec {P : params} {adj : List Nat} {H : List edgeptr} {s : sliding_shard} (m : Nat)
    (hl : linv P adj H s) (hin : s.adjoffset + 4 * m ≤ s.adjfilesize)
    (hroom : s.edataoffset + P.sizeof_ET * m ≤ s.edatafilesize) :
    linv P adj H (skip P (m : Int) 4 s) ∧
    (skip P (m : Int) 4 s).adjoffset = s.adjoffset + 4 * m ∧
    (skip P (m : Int) 4 s).edataoffset = s.edataoffset + P.sizeof_ET * m := by
  obtain ⟨c1, c2, c3, c4, c5, c6, c7, c8, c9, c10, c11⟩ := hl.cfg
  have ht : int_to_size_t ((m : Int) * 4) = 4 * m := by
    have : ((m : Int) * 4) = ((4 * m : Nat) : Int) := by push_cast; ring
    rw [this]; exact int_to_size_t_nat (by omega)
  have het : int_to_size_t ((P.sizeof_ET : Int) * (m : Int)) = P.sizeof_ET * m := by
    have : ((P.sizeof_ET : Int) * (m : Int)) = ((P.sizeof_ET * m : Nat) : Int) := by push_cast; ring
    rw [this]; exact int_to_size_t_nat (by omega)
  have hua : u64 (s.adjoffset + 4 * m) = s.adjoffset + 4 * m := u64_of_lt (by omega)
  have hue : u64 (s.edataoffset + P.sizeof_ET * m) = s.edataoffset + P.sizeof_ET * m :=
    u64_of_lt (by omega)
  -- the adjacency side
  have hadjside : ∀ s' : sliding_shard, s'.adjoffset = s.adjoffset + 4 * m →
      s'.adjfilesize = s.adjfilesize → s'.adjfile_session = s.adjfile_session →
      s'.iomgr = s.iomgr →
      (∀ b', s'.curadjblock = some b' → ∃ b, s.curadjblock = some b ∧
        b' = { b with ptr := u64 (b.ptr + 4 * m) }) → adj_coherent s' := by
    intro s' h1 h2 h3 h4 h5 b' hb'
    obtain ⟨b, hb, rfl⟩ := h5 b' hb'
    obtain ⟨d, g1, g2, g3, g4, g5, g6, g7, g8, g9⟩ := hl.adjc b hb
    have hup : u64 (b.ptr + 4 * m) = b.ptr + 4 * m := u64_of_lt (by omega)
    refine ⟨d, g1, by rw [h3]; exact g2, by rw [h4]; exact g3, g4, g5, g6, by rw [h2]; exact g7, ?_,
      by rw [h3]; exact g9⟩
    show b.offset + u64 (b.ptr + 4 * m) = s'.adjoffset
    rw [hup, h1]; omega
  -- the edge-data side, for a state with the same I/O manager
  have hedside : ∀ bl : List sblock,
      ((s.curblock = none ∧ s.activeblocks = [] ∧ bl = []) ∨
       (∃ init lb, s.activeblocks = init ++ [lb] ∧ s.curblock = some init.length ∧
          bl = init ++ [{ lb with ptr := lb.ptr + P.sizeof_ET * m }])) →
      ∀ (ao : Nat) (cab : Option sblock),
      einv P H { s with adjoffset := ao, curadjblock := cab,
                        edataoffset := s.edataoffset + P.sizeof_ET * m, activeblocks := bl } ∧
      cur_ok { s with adjoffset := ao, curadjblock := cab,
                      edataoffset := s.edataoffset + P.sizeof_ET * m, activeblocks := bl } := by
    intro bl hbl ao cab
    have hinv := hl.ed
    rcases hbl with ⟨hcb, hnil, rfl⟩ | ⟨init, lb, he, hcb, rfl⟩
    · refine ⟨⟨hinv.fresh, (by intro b hb; cases hb), List.Pairwise.nil, ?_, hinv.once, hinv.reads,
        ?_, hinv.front1, ?_, ?_, Nat.dvd_add hinv.align (Dvd.intro _ rfl), ?_⟩, Or.inl ⟨hcb, rfl⟩⟩
      · intro init lb he
        have he' : ([] : List sblock) = init ++ [lb] := he
        simp at he'
      · have := hinv.writes
        rw [hnil] at this
        exact this
      · intro _
        rcases hinv.front2 hnil with h | h
        · exact Or.inl (le_trans h (Nat.le_add_right _ _))
        · exact Or.inr (le_trans h (Nat.le_add_right _ _))
      · intro init lb he
        have he' : ([] : List sblock) = init ++ [lb] := he
        simp at he'
      · intro p hp
        obtain ⟨d, h1, h2, h3, h4⟩ := hinv.ptrs p hp
        refine ⟨d, h1, h2, h3, ?_⟩
        rcases h4 with ⟨b, hb, _, _⟩ | h4
        · rw [hnil] at hb; cases hb
        · exact Or.inr h4
    · have hlbmem : lb ∈ s.activeblocks := by rw [he]; simp
      have hlast := hinv.lastptr init lb he
      obtain ⟨dl, l1, l2, l3, l4, l5, l6, l7, l8, l9, l10, l11, l12, l13, l14⟩ :=
        hinv.blocks lb hlbmem
      refine ⟨⟨hinv.fresh, ?_, ?_, ?_, hinv.once, hinv.reads, ?_, hinv.front1, ?_, ?_,
        Nat.dvd_add hinv.align (Dvd.intro _ rfl), ?_⟩, Or.inr ⟨init, _, rfl, hcb⟩⟩
      · intro b hb
        have hb' : b ∈ init ++ [{ lb with ptr := lb.ptr + P.sizeof_ET * m }] := hb
        rcases List.mem_append.mp hb' with h | h
        · have hbm : b ∈ s.activeblocks := by rw [he]; exact List.mem_append_left _ h
          obtain ⟨d, h1, h2, h3, h4, h5, h6, h7, h8, h9, h10, h11, h12, h13, h14⟩ :=
            hinv.blocks b hbm
          refine ⟨d, h1, h2, h3, h4, h5, h6, h7, h8, h9, h10, h11, ?_, h13, h14⟩
          show b.offset + b.ptr ≤ s.edataoffset + P.sizeof_ET * m
          omega
        · simp only [List.mem_singleton] at h
          subst h
          refine ⟨dl, l1, l2, l3, l4, l5, l6, l7, l8, l9, l10, l11, ?_, l13, l14⟩
          show lb.offset + (lb.ptr + P.sizeof_ET * m) ≤ s.edataoffset + P.sizeof_ET * m
          omega
      · show (init ++ [{ lb with ptr := lb.ptr + P.sizeof_ET * m }]).Pairwise
          (fun (b1 b2 : sblock) => b1.end_ ≤ b2.offset)
        have ho := hinv.order
        rw [he, List.pairwise_append] at ho
        rw [List.pairwise_append]
        refine ⟨ho.1, List.pairwise_singleton _ _, ?_⟩
        intro a ha b hb
        simp only [List.mem_singleton] at hb
        subst hb
        exact ho.2.2 a ha lb (List.mem_singleton_self _)
      · intro init' lb' he2
        have he' : init ++ [{ lb with ptr := lb.ptr + P.sizeof_ET * m }] = init' ++ [lb'] := he2
        obtain ⟨_, rfl⟩ := append_singleton_inj he'
        show lb.offset + (lb.ptr + P.sizeof_ET * m) = s.edataoffset + P.sizeof_ET * m
        omega
      · show s.iomgr.calls.countP (is_sess_write s.edata_session) +
          (init ++ [{ lb with ptr := lb.ptr + P.sizeof_ET * m }]).length ≤ _
        have := hinv.writes
        rw [he] at this
        simpa using this
      · intro he2
        have he' : init ++ [{ lb with ptr := lb.ptr + P.sizeof_ET * m }] = [] := he2
        simp at he'
      · intro init' lb' he2
        have he' : init ++ [{ lb with ptr := lb.ptr + P.sizeof_ET * m }] = init' ++ [lb'] := he2
        obtain ⟨_, rfl⟩ := append_singleton_inj he'
        exact hinv.front3 init lb he
      · intro p hp
        obtain ⟨d, h1, h2, h3, h4⟩ := hinv.ptrs p hp
        refine ⟨d, h1, h2, h3, ?_⟩
        rcases h4 with ⟨b, hb, hbd, hbp⟩ | h4
        · left
          rw [he] at hb
          rcases List.mem_append.mp hb with hb | hb
          · exact ⟨b, List.mem_append_left _ hb, hbd, hbp⟩
          · simp only [List.mem_singleton] at hb
            subst hb
            refine ⟨{ b with ptr := b.ptr + P.sizeof_ET * m }, ?_, hbd, ?_⟩
            · show _ ∈ init ++ [{ b with ptr := b.ptr + P.sizeof_ET * m }]
              simp
            · show p.disp + P.sizeof_ET ≤ b.ptr + P.sizeof_ET * m
              omega
        · exact Or.inr h4
  have hcfg' : cfg_ok P adj (skip P (m : Int) 4 s) := cfg_ok_of_frame6 (skip_frame _ _ _ _) hl.cfg
  -- compute `skip` in the four cases
  rcases hl.cur with ⟨hcb, hnil⟩ | ⟨init, lb, he, hcb⟩
  · cases hcab : s.curadjblock with
    | none =>
      have hskip : skip P (m : Int) 4 s =
          { s with
            adjoffset := s.adjoffset + 4 * m,
            curadjblock := none,
            edataoffset := s.edataoffset + P.sizeof_ET * m,
            activeblocks := [] } := by
        unfold skip
        simp only [ht, het, hua, hue, hcab, hcb]
        rw [← hnil, ← hcab]
      rw [hskip]
      obtain ⟨hA, hB⟩ := hedside [] (Or.inl ⟨hcb, hnil, rfl⟩) (s.adjoffset + 4 * m) none
      refine ⟨⟨by rw [← hskip]; exact hcfg', ?_, hA, hB⟩, rfl, rfl⟩
      exact hadjside _ rfl rfl rfl rfl (fun b' hb' => by cases hb')
    | some b =>
      have hskip : skip P (m : Int) 4 s =
          { s with
            adjoffset := s.adjoffset + 4 * m,
            curadjblock := some { b with ptr := u64 (b.ptr + 4 * m) },
            edataoffset := s.edataoffset + P.sizeof_ET * m,
            activeblocks := [] } := by
        unfold skip
        simp only [ht, het, hua, hue, hcab, hcb]
        rw [← hnil]
      rw [hskip]
      obtain ⟨hA, hB⟩ := hedside [] (Or.inl ⟨hcb, hnil, rfl⟩) (s.adjoffset + 4 * m)
        (some { b with ptr := u64 (b.ptr + 4 * m) })
      refine ⟨⟨by rw [← hskip]; exact hcfg', ?_, hA, hB⟩, rfl, rfl⟩
      exact hadjside _ rfl rfl rfl rfl (fun b' hb' => ⟨b, hcab, by cases hb'; rfl⟩)
  · have hlast := hl.ed.lastptr init lb he
    have hup : u64 (lb.ptr + P.sizeof_ET * m) = lb.ptr + P.sizeof_ET * m := u64_of_lt (by omega)
    cases hcab : s.curadjblock with
    | none =>
      have hskip : skip P (m : Int) 4 s =
          { s with
            adjoffset := s.adjoffset + 4 * m,
            curadjblock := none,
            edataoffset := s.edataoffset + P.sizeof_ET * m,
            activeblocks := init ++ [{ lb with ptr := lb.ptr + P.sizeof_ET * m }] } := by
        unfold skip
        simp only [ht, het, hua, hue, hcab, hcb, he, modify_block_last, hup]
      rw [hskip]
      obtain ⟨hA, hB⟩ := hedside _ (Or.inr ⟨init, lb, he, hcb, rfl⟩) (s.adjoffset + 4 * m) none
      refine ⟨⟨by rw [← hskip]; exact hcfg', ?_, hA, hB⟩, rfl, rfl⟩
      exact hadjside _ rfl rfl rfl rfl (fun b' hb' => by cases hb')
    | some b =>
      have hskip : skip P (m : Int) 4 s =
          { s with
            adjoffset := s.adjoffset + 4 * m,
            curadjblock := some { b with ptr := u64 (b.ptr + 4 * m) },
            edataoffset := s.edataoffset + P.sizeof_ET * m,
            activeblocks := init ++ [{ lb with ptr := lb.ptr + P.sizeof_ET * m }] } := by
        unfold skip
        simp only [ht, het, hua, hue, hcab, hcb, he, modify_block_last, hup]
      rw [hskip]
      obtain ⟨hA, hB⟩ := hedside _ (Or.inr ⟨init, lb, he, hcb, rfl⟩) (s.adjoffset + 4 * m)
        (some { b with ptr := u64 (b.ptr + 4 * m) })
      refine ⟨⟨by rw [← hskip]; exact hcfg', ?_, hA, hB⟩, rfl, rfl⟩
      exact hadjside _ rfl rfl rfl rfl (fun b' hb' => ⟨b, hcab, by cases hb'; rfl⟩)

theorem einv_of_same_core {P : params} {H : List edgeptr} {s s' : sliding_shard}
    (hc : same_core s s') (h : einv P H s) : einv P H s' := by
  obtain ⟨e1, e2, e3, e4, e5, e6, e7, e8, e9, e10, e11, e12, e13, e14⟩ := hc
  obtain ⟨f1, f2, f3, f4, f5, f6, f7, f8, f9, f10, f11, f12⟩ := h
  cases s
  cases s'
  simp only at e1 e2 e3 e4 e5 e6 e7 e8 e9 e10 e11 e12 e13 e14
  subst e1 e2 e3 e4 e5 e6 e7 e8 e9 e10 e11 e12 e13 e14
  exact ⟨f1, f2, f3, f4, f5, f6, f7, f8, f9, f10, f11, f12⟩

theorem linv_of_same_core {P : params} {adj : List Nat} {H : List edgeptr} {s s' : sliding_shard}
    (hc : same_core s s') (h : linv P adj H s) : linv P adj H s' := by
  have hed := einv_of_same_core hc h.ed
  obtain ⟨e1, e2, e3, e4, e5, e6, e7, e8, e9, e10, e11, e12, e13, e14⟩ := hc
  obtain ⟨g1, g2, g3, g4⟩ := h
  cases s
  cases s'
  simp only at e1 e2 e3 e4 e5 e6 e7 e8 e9 e10 e11 e12 e13 e14
  subst e1 e2 e3 e4 e5 e6 e7 e8 e9 e10 e11 e12 e13 e14
  exact ⟨g1, g2, hed, g4⟩

theorem linv_mono {P : params} {adj : List Nat} {H H' : List edgeptr} {s : sliding_shard}
    (hsub : ∀ p ∈ H', p ∈ H) (h : linv P adj H s) : linv P adj H' s :=
  ⟨h.cfg, h.adjc,
    ⟨h.ed.fresh, h.ed.blocks, h.ed.order, h.ed.lastptr, h.ed.once, h.ed.reads, h.ed.writes,
      h.ed.front1, h.ed.front2, h.ed.front3, h.ed.align, fun p hp => h.ed.ptrs p (hsub p hp)⟩,
    h.cur⟩

theorem same_core_save_offset (s : sliding_shard) : same_core s (save_offset s) :=
  ⟨rfl, rfl, rfl, rfl, rfl, rfl, rfl, rfl, rfl, rfl, rfl, rfl, rfl, rfl⟩

theorem same_core_record_checkpoint (nvecs : Int) (ri : Bool) (l : Nat) (s : sliding_shard) :
    same_core s (record_checkpoint nvecs ri l s).1 := by
  rcases record_checkpoint_fields nvecs ri l s with e | e <;> rw [e]
  · exact ⟨rfl, rfl, rfl, rfl, rfl, rfl, rfl, rfl, rfl, rfl, rfl, rfl, rfl, rfl⟩
  · exact same_core_save_offset s

theorem slots_rel_refl (P : params) (H : List edgeptr) (slots : List svertex) :
    slots_rel P H (fun _ => []) slots slots := by
  refine ⟨rfl, ?_⟩
  intro j v hv
  refine ⟨[], ?_, new_ok_nil _ _⟩
  rw [hv]
  simp

theorem slots_rel_trans {P : params} {H1 H2 : List edgeptr} {sp1 sp2 : Nat → List (Nat × Nat)}
    {a b c : List svertex} (h1 : slots_rel P H1 sp1 a b) (h2 : slots_rel P H2 sp2 b c)
    (hsub : ∀ p ∈ H1, p ∈ H2) : slots_rel P H2 (fun j => sp1 j ++ sp2 j) a c := by
  refine ⟨h2.1.trans h1.1, ?_⟩
  intro j v hv
  obtain ⟨n1, hb, ok1⟩ := h1.2 j v hv
  obtain ⟨n2, hc, ok2⟩ := h2.2 j _ hb
  refine ⟨n1 ++ n2, ?_, new_ok_append (new_ok_mono hsub ok1) ok2⟩
  rw [hc]
  simp [List.append_assoc]

theorem slots_rel_mono {P : params} {H1 H2 : List edgeptr} {sp : Nat → List (Nat × Nat)}
    {a b : List svertex} (h1 : slots_rel P H1 sp a b) (hsub : ∀ p ∈ H1, p ∈ H2) :
    slots_rel P H2 sp a b :=
  ⟨h1.1, fun j v hv => by
    obtain ⟨n1, hb, ok1⟩ := h1.2 j v hv
    exact ⟨n1, hb, new_ok_mono hsub ok1⟩⟩

theorem slots_rel_congr {P : params} {H : List edgeptr} {sp sp' : Nat → List (Nat × Nat)}
    {a b : List svertex} (h1 : slots_rel P H sp a b) (he : ∀ j, j < a.length → sp j = sp' j) :
    slots_rel P H sp' a b :=
  ⟨h1.1, fun j v hv => by
    obtain ⟨n1, hb, ok1⟩ := h1.2 j v hv
    have hj : j < a.length := by
      rcases Nat.lt_or_ge j a.length with h | h
      · exact h
      · rw [List.getElem?_eq_none h] at hv; cases hv
    rw [he j hj] at ok1
    exact ⟨n1, hb, ok1⟩⟩

theorem take_drop_bytes {adj pre bytes rest : List Nat} (h : adj = pre ++ (bytes ++ rest)) :
    (adj.drop pre.length).take bytes.length = bytes := by
  rw [h, List.drop_left, List.take_left]

/-- `read_val` on a state satisfying the loop invariant, with `sz ≤ 4` bytes left: it
returns the value of the next bytes, advances the adjacency offset, and the invariant
holds again. -/
theorem read_val_linv {P : params} {adj : List Nat} {H : List edgeptr} {s : sliding_shard}
    {sz : Nat} (hl : linv P adj H s) (hsz : 0 < sz) (hsz4 : sz ≤ 4)
    (hin : s.adjoffset + sz ≤ s.adjfilesize) :
    ∃ s', read_val adj sz s = .ok (le_value ((adj.drop s.adjoffset).take sz), s') ∧
      linv P adj H s' ∧ s'.adjoffset = s.adjoffset + sz ∧ frame_adj s s' := by
  obtain ⟨c1, c2, c3, c4, c5, c6, c7, c8, c9, c10, c11⟩ := hl.cfg
  obtain ⟨b', io', hrv, hcoh1, hio⟩ :=
    @read_val_spec adj sz s c3 c4 (by omega) c7 hsz hl.adjc hin
  exact ⟨_, hrv, ⟨hl.cfg, hcoh1, einv_of_adj_io _ _ hl.ed hio c10, hl.cur⟩, rfl, ⟨_, _, _, rfl⟩⟩

theorem svertex_eta (v : svertex) : ({ v with outedges := v.outedges ++ [] } : svertex) = v := by
  cases v; simp

theorem slots_rel_set {P : params} {H : List edgeptr} {slots : List svertex} {k : Nat}
    {v : svertex} {new : List outedge} {sp : List (Nat × Nat)}
    (hk : slots[k]? = some v) (hnew : new_ok P H new sp) :
    slots_rel P H (fun j => if j = k then sp else [])
      slots (slots.set k { v with outedges := v.outedges ++ new }) := by
  refine ⟨by simp, ?_⟩
  intro j w hw
  have hlt : k < slots.length := by
    rcases Nat.lt_or_ge k slots.length with h | h
    · exact h
    · rw [List.getElem?_eq_none h] at hk; cases hk
  by_cases hjk : j = k
  · subst hjk
    rw [hk] at hw
    cases hw
    refine ⟨new, by simp [List.getElem?_set, hlt], ?_⟩
    simpa using hnew
  · refine ⟨[], ?_, ?_⟩
    · rw [List.getElem?_set]
      have : ¬ k = j := fun h => hjk h.symm
      simp only [this, if_false, hw, svertex_eta]
    · simp only [hjk, if_false]
      exact new_ok_nil _ _

/-- The destinations of a record on a state satisfying the loop invariant: `read_record`
returns; it attaches the destinations to slot `i` when `0 ≤ i` and the slot is scheduled,
and skips them otherwise; both offsets advance past the record. -/
theorem read_record_spec {P : params} {adj : List Nat} {H : List edgeptr} {s : sliding_shard}
    {slots : List svertex} {nvecs : Int} {start : Nat} {sched : Nat → Bool} {i : Int}
    (dsts : List Nat) (pre tail : List Nat) (g : Nat)
    (hl : linv P adj H s) (hadj : adj = pre ++ (encode_dsts dsts ++ tail))
    (hoff : s.adjoffset = pre.length) (hval : ∀ d ∈ dsts, d < 4294967296)
    (heo : s.edataoffset = P.sizeof_ET * g)
    (hroom : P.sizeof_ET * (g + dsts.length) ≤ s.edatafilesize)
    (hrange : ∀ d ∈ dsts, s.range_st ≤ d ∧ d ≤ s.range_end)
    (hcur : (s.curvid : Int) = start + i) (hi : i < nvecs) (hlen : nvecs ≤ slots.length)
    (hslots : ∀ (j : Nat) (v : svertex), slots[j]? = some v →
      v.id = start + j ∧ v.scheduled = sched j) :
    ∃ H1 s1 slots1, read_record P adj i (dsts.length : Int) s slots = .ok (s1, slots1) ∧
      linv P adj H1 s1 ∧ (∀ p ∈ H, p ∈ H1) ∧
      slots_rel P H1 (fun j => if i = (j : Int) ∧ sched j = true then rec_spec g dsts else [])
        slots slots1 ∧
      s1.adjoffset = s.adjoffset + 4 * dsts.length ∧
      s1.edataoffset = P.sizeof_ET * (g + dsts.length) := by
  obtain ⟨c1, c2, c3, c4, c5, c6, c7, c8, c9, c10, c11⟩ := hl.cfg
  have hdl : (encode_dsts dsts).length = 4 * dsts.length := by
    clear hadj hval hroom hrange
    induction dsts with
    | nil => rfl
    | cons d ds ih => simp only [encode_dsts, List.length_append, le4_length, ih, List.length_cons]; omega
  have hin : s.adjoffset + 4 * dsts.length ≤ s.adjfilesize := by
    rw [c3, hoff, hadj]
    simp only [List.length_append, hdl]
    omega
  have hroom' : s.edataoffset + P.sizeof_ET * dsts.length ≤ s.edatafilesize := by
    rw [heo, ← Nat.mul_add]; exact hroom
  have hskipcase : ∃ H1 s1 slots1, (.ok (skip P (dsts.length : Int) 4 s, slots) :
        res (sliding_shard × List svertex)) = .ok (s1, slots1) ∧
      linv P adj H1 s1 ∧ (∀ p ∈ H, p ∈ H1) ∧
      slots_rel P H1 (fun _ => []) slots slots1 ∧
      s1.adjoffset = s.adjoffset + 4 * dsts.length ∧
      s1.edataoffset = P.sizeof_ET * (g + dsts.length) := by
    obtain ⟨k1, k2, k3⟩ := skip_spec dsts.length hl hin hroom'
    exact ⟨H, _, _, rfl, k1, fun p hp => hp, slots_rel_refl _ _ _, k2,
      by rw [k3, heo, Nat.mul_add]⟩
  unfold read_record
  by_cases hneg : i < 0
  · simp only [hneg, if_true, pure, Except.pure]
    obtain ⟨H1, s1, slots1, e, k1, k2, k3, k4, k5⟩ := hskipcase
    refine ⟨H1, s1, slots1, e, k1, k2, slots_rel_congr k3 ?_, k4, k5⟩
    intro j _
    have : ¬ (i = (j : Int) ∧ sched j = true) := by
      intro h; omega
    simp only [this, if_false]
  · simp only [hneg, if_false]
    have hk : i.toNat < slots.length := by omega
    obtain ⟨v, hv⟩ : ∃ v, slots[i.toNat]? = some v := ⟨slots[i.toNat], by simp [hk]⟩
    obtain ⟨hid, hsc⟩ := hslots _ _ hv
    have hidc : v.id = s.curvid := by
      rw [hid]
      have : (s.curvid : Int) = ((start + i.toNat : Nat) : Int) := by
        rw [hcur]; push_cast; omega
      exact_mod_cast this.symm
    simp only [hv, hidc, not_true_eq_false, if_false]
    by_cases hs : v.scheduled = true
    · simp only [hs, if_true, Int.toNat_ofNat]
      obtain ⟨new, H', s2, h2, hl2, hsub2, hnew2, ha2, he2⟩ :=
        read_edges_spec (v := v) dsts pre tail g hl hadj hoff hval heo hroom hrange
      rw [h2]
      refine ⟨H', s2, _, rfl, hl2, hsub2, slots_rel_congr (slots_rel_set hv hnew2) ?_, ha2, he2⟩
      intro j _
      by_cases hj : j = i.toNat
      · have h1 : i = (j : Int) := by omega
        have h2 : sched j = true := by rw [hj, ← hsc]; exact hs
        simp only [hj, if_true]
        rw [if_pos]
        exact ⟨by omega, by rw [← hsc]; exact hs⟩
      · have : ¬ (i = (j : Int) ∧ sched j = true) := by
          intro h; omega
        simp only [hj, this, if_false]
    · simp only [hs, if_false, pure, Except.pure]
      obtain ⟨H1, s1, slots1, e, k1, k2, k3, k4, k5⟩ := hskipcase
      refine ⟨H1, s1, slots1, e, k1, k2, slots_rel_congr k3 ?_, k4, k5⟩
      intro j _
      have : ¬ (i = (j : Int) ∧ sched j = true) := by
        intro h
        have hj : j = i.toNat := by omega
        rw [hj, ← hsc] at h
        exact hs h.2
      simp only [this, if_false]

theorem read_val_at {P : params} {adj : List Nat} {H : List edgeptr} {s : sliding_shard}
    {pre bytes rest : List Nat} (hl : linv P adj H s) (hadj : adj = pre ++ (bytes ++ rest))
    (hoff : s.adjoffset = pre.length) (hpos : 0 < bytes.length) (h4 : bytes.length ≤ 4) :
    ∃ s', read_val adj bytes.length s = .ok (le_value bytes, s') ∧
      linv P adj H s' ∧ s'.adjoffset = pre.length + bytes.length ∧ frame_adj s s' := by
  obtain ⟨c1, c2, c3, c4, c5, c6, c7, c8, c9, c10, c11⟩ := hl.cfg
  have hin : s.adjoffset + bytes.length ≤ s.adjfilesize := by
    rw [c3, hoff, hadj]
    simp only [List.length_append]
    omega
  obtain ⟨s', h1, h2, h3, h4⟩ := read_val_linv hl hpos h4 hin
  rw [hoff, take_drop_bytes hadj] at h1
  exact ⟨s', h1, h2, by rw [h3, hoff], h4⟩

theorem encode_dsts_length (dsts : List Nat) : (encode_dsts dsts).length = 4 * dsts.length := by
  induction dsts with
  | nil => rfl
  | cons d ds ih =>
    simp only [encode_dsts, List.length_append, le4_length, ih, List.length_cons]
    omega

theorem frame6_of_frame_adj {s s' : sliding_shard} (h : frame_adj s s') : frame6 s s' := by
  obtain ⟨io, ao, cab, rfl⟩ := h
  exact ⟨io, ao, cab, s.edataoffset, s.activeblocks, s.curblock, rfl⟩

theorem frame6_body_static {s0 s s' : sliding_shard} (h0 : body_static s0 s) (h : frame6 s s') :
    body_static s0 s' := by
  obtain ⟨io, ao, cab, eo, bl, cb, rfl⟩ := h
  exact h0

theorem record_checkpoint_static (nvecs : Int) (ri : Bool) (l : Nat) (s : sliding_shard) :
    body_static s (record_checkpoint nvecs ri l s).1 ∧
      (record_checkpoint nvecs ri l s).1.curvid = s.curvid := by
  rcases record_checkpoint_fields nvecs ri l s with e | e <;> rw [e]
  · exact ⟨⟨rfl, rfl, rfl, Or.inl rfl⟩, rfl⟩
  · exact ⟨⟨rfl, rfl, rfl, Or.inr rfl⟩, rfl⟩

theorem le_value_single (b : Nat) : le_value [b] = b := by
  simp [le_value]

theorem linv_curvid {P : params} {adj : List Nat} {H : List edgeptr} {s : sliding_shard}
    (c : Nat) (h : linv P adj H s) : linv P adj H { s with curvid := c } :=
  @linv_of_same_core P adj H s _ ⟨rfl, rfl, rfl, rfl, rfl, rfl, rfl, rfl, rfl, rfl, rfl, rfl, rfl, rfl⟩ h

theorem linv_curvid_decoded {P : params} {adj : List Nat} {H : List edgeptr} {s : sliding_shard}
    (c : Nat) (l : List Nat) (h : linv P adj H s) :
    linv P adj H { s with decoded := l, curvid := c } :=
  @linv_of_same_core P adj H s _ ⟨rfl, rfl, rfl, rfl, rfl, rfl, rfl, rfl, rfl, rfl, rfl, rfl, rfl, rfl⟩ h

/-- A pass of the loop body over a skip pair `0x00 nz` on a state satisfying the loop
invariant: it returns with the loop counter advanced by `nz`, the source id by `nz + 1`,
the adjacency offset by two, and nothing else changed but the adjacency block. -/
theorem rnv_body_skip {P : params} {adj : List Nat} {H : List edgeptr} {s : sliding_shard}
    {slots : List svertex} {nvecs : Int} {ri : Bool} {i : Int} {lastrec : Nat}
    (nz : Nat) (pre tail : List Nat)
    (hl : linv P adj H s) (hadj : adj = pre ++ ([0, nz] ++ tail))
    (hoff : s.adjoffset = pre.length) (hnz : nz < 256) (hcv : s.curvid + 256 < 4294967296) :
    ∃ s1 lastrec1, rnv_body P adj nvecs ri i lastrec s slots = .ok (i + nz, lastrec1, s1, slots) ∧
      linv P adj H s1 ∧ s1.adjoffset = s.adjoffset + 2 ∧ s1.edataoffset = s.edataoffset ∧
      s1.curvid = s.curvid + (nz + 1) ∧ body_static s s1 := by
  obtain ⟨hst0, hcv0⟩ := record_checkpoint_static nvecs ri lastrec s
  have hsc0 := same_core_record_checkpoint nvecs ri lastrec s
  have hl0 := linv_of_same_core hsc0 hl
  have hoff0 : (record_checkpoint nvecs ri lastrec s).1.adjoffset = pre.length := by
    rw [hsc0.2.2.1]; exact hoff
  have heo0 : (record_checkpoint nvecs ri lastrec s).1.edataoffset = s.edataoffset :=
    hsc0.2.2.2.1
  unfold rnv_body
  simp only []
  generalize (record_checkpoint nvecs ri lastrec s).1 = s0 at *
  generalize (record_checkpoint nvecs ri lastrec s).2 = l0 at *
  have hadj1 : adj = pre ++ ([0] ++ (nz :: tail)) := hadj
  obtain ⟨s1, h1, hl1, ha1, hf1⟩ := read_val_at hl0 hadj1 hoff0 (by decide) (by decide)
  obtain ⟨io1, ao1, cab1, rfl⟩ := hf1
  have hl1c := linv_curvid (u32 (s0.curvid + 1)) hl1
  have hadj2 : adj = (pre ++ [0]) ++ ([nz] ++ tail) := by rw [hadj]; simp
  obtain ⟨s2, h2, hl2, ha2, hf2⟩ := read_val_at hl1c hadj2 (by simpa using ha1)
    (by simp) (by simp)
  obtain ⟨io2, ao2, cab2, rfl⟩ := hf2
  simp only [List.length_singleton, le_value_single] at h1 h2
  refine ⟨{ s0 with iomgr := io2, adjoffset := ao2, curadjblock := cab2,
                      curvid := u32 (u32 (s0.curvid + 1) + nz) }, l0, ?_, ?_, ?_, ?_, ?_, ?_⟩
  · rw [h1]
    simp only [if_true]
    rw [h2]
    rfl
  · exact linv_curvid _ hl2
  · simp only [List.length_append, List.length_singleton] at ha2
    show ao2 = s.adjoffset + 2
    rw [ha2, hoff]
  · exact heo0
  · show u32 (u32 (s0.curvid + 1) + nz) = s.curvid + (nz + 1)
    rw [hcv0]
    unfold u32
    omega
  · exact hst0

/-- The header of a destination record on a state satisfying the loop invariant: the
first byte is not `0x00`, and `read_count` returns the number of destinations. -/
theorem read_header_spec {P : params} {adj : List Nat} {H : List edgeptr} {s : sliding_shard}
    ( long : Bool) (dsts : List Nat) (pre tail : List Nat)
    (hl : linv P adj H s) (hadj : adj = pre ++ (encode_item (adjitem.record long dsts) ++ tail))
    (hoff : s.adjoffset = pre.length) (hval : valid_item (adjitem.record long dsts)) :
    ∃ ns s1 s2 pre2, read_val adj 1 s = .ok (ns, s1) ∧ ns ≠ 0 ∧
      read_count adj ns s1 = .ok ((dsts.length : Int), s2) ∧ linv P adj H s2 ∧
      adj = pre2 ++ (encode_dsts dsts ++ tail) ∧ s2.adjoffset = pre2.length ∧
      pre2.length + (encode_dsts dsts).length
        = pre.length + (encode_item (adjitem.record long dsts)).length ∧
      frame_adj s s2 := by
  cases long with
  | false =>
    obtain ⟨hv1, hv2, hv3⟩ := hval
    have hadj1 : adj = pre ++ ([dsts.length] ++ (encode_dsts dsts ++ tail)) := by
      rw [hadj]; simp [encode_item]
    obtain ⟨s1, h1, hl1, ha1, hf1⟩ := read_val_at hl hadj1 hoff (by simp) (by simp)
    simp only [List.length_singleton, le_value_single] at h1 ha1
    refine ⟨dsts.length, s1, s1, pre ++ [dsts.length], h1, by omega, ?_, hl1, ?_, ?_, ?_, hf1⟩
    · unfold read_count
      have : ¬ dsts.length = 255 := by omega
      simp only [this, if_false]
      rfl
    · rw [hadj]; simp [encode_item]
    · simpa using ha1
    · simp [encode_item]; omega
  | true =>
    obtain ⟨hv1, hv2⟩ := hval
    have hadj1 : adj = pre ++ ([255] ++ (le4 dsts.length ++ (encode_dsts dsts ++ tail))) := by
      rw [hadj]; simp [encode_item]
    obtain ⟨s1, h1, hl1, ha1, hf1⟩ := read_val_at hl hadj1 hoff (by simp) (by simp)
    simp only [List.length_singleton, le_value_single] at h1 ha1
    have hadj2 : adj = (pre ++ [255]) ++ (le4 dsts.length ++ (encode_dsts dsts ++ tail)) := by
      rw [hadj]; simp [encode_item]
    obtain ⟨s2, h2, hl2, ha2, hf2⟩ := read_val_at hl1 hadj2 (by simpa using ha1)
      (by simp [le4_length]) (by simp [le4_length])
    rw [le4_length, le_value_le4 (by omega)] at h2
    obtain ⟨io1, ao1, cab1, rfl⟩ := hf1
    obtain ⟨io2, ao2, cab2, rfl⟩ := hf2
    refine ⟨255, _, _, (pre ++ [255]) ++ le4 dsts.length, h1, by decide, ?_, hl2, ?_, ?_, ?_,
      ⟨_, _, _, rfl⟩⟩
    · unfold read_count
      simp only [if_true]
      rw [h2]
      simp only [pure, Except.pure, to_int_of_lt hv2]
    · rw [hadj]; simp [encode_item]
    · simpa [le4_length] using ha2
    · simp [encode_item, le4_length]; omega

/-- A pass of the loop body over a destination record on a state satisfying the loop
invariant: it returns with the loop counter unchanged and the source id advanced by one;
the destinations are attached to slot `i` when `0 ≤ i` and the slot is scheduled, and
skipped otherwise; both offsets advance past the record. -/
theorem rnv_body_record {P : params} {adj : List Nat} {H : List edgeptr} {s : sliding_shard}
    {slots : List svertex} {nvecs : Int} {ri : Bool} {start : Nat} {sched : Nat → Bool} {i : Int}
    {lastrec : Nat} ( long : Bool) (dsts : List Nat) (pre tail : List Nat) (g : Nat)
    (hl : linv P adj H s) (hadj : adj = pre ++ (encode_item (adjitem.record long dsts) ++ tail))
    (hoff : s.adjoffset = pre.length) (hval : valid_item (adjitem.record long dsts))
    (heo : s.edataoffset = P.sizeof_ET * g)
    (hroom : P.sizeof_ET * (g + dsts.length) ≤ s.edatafilesize)
    (hrange : ∀ d ∈ dsts, s.range_st ≤ d ∧ d ≤ s.range_end)
    (hcur : (s.curvid : Int) = start + i) (hi : i < nvecs) (hlen : nvecs ≤ slots.length)
    (hcv : s.curvid + 256 < 4294967296)
    (hslots : ∀ (j : Nat) (v : svertex), slots[j]? = some v →
      v.id = start + j ∧ v.scheduled = sched j) :
    ∃ H1 s1 slots1 lastrec1,
      rnv_body P adj nvecs ri i lastrec s slots = .ok (i, lastrec1, s1, slots1) ∧
      linv P adj H1 s1 ∧ (∀ p ∈ H, p ∈ H1) ∧
      slots_rel P H1 (fun j => if i = (j : Int) ∧ sched j = true then rec_spec g dsts else [])
        slots slots1 ∧
      s1.adjoffset = s.adjoffset + (encode_item (adjitem.record long dsts)).length ∧
      s1.edataoffset = P.sizeof_ET * (g + dsts.length) ∧
      s1.curvid = s.curvid + 1 ∧ body_static s s1 := by
  obtain ⟨hst0, hcv0⟩ := record_checkpoint_static nvecs ri lastrec s
  have hsc0 := same_core_record_checkpoint nvecs ri lastrec s
  have hl0 := linv_of_same_core hsc0 hl
  have hoff0 : (record_checkpoint nvecs ri lastrec s).1.adjoffset = pre.length := by
    rw [hsc0.2.2.1]; exact hoff
  have heo0 : (record_checkpoint nvecs ri lastrec s).1.edataoffset = s.edataoffset :=
    hsc0.2.2.2.1
  unfold rnv_body
  simp only []
  generalize (record_checkpoint nvecs ri lastrec s).1 = s0 at *
  generalize (record_checkpoint nvecs ri lastrec s).2 = l0 at *
  obtain ⟨ns, s1, s2, pre2, h1, hns, hrc, hl2, hadj2, hoff2, hlen2, hf2⟩ :=
    read_header_spec long dsts pre tail hl0 hadj hoff0 hval
  have hvd : ∀ d ∈ dsts, d < 4294967296 := by
    cases long
    · exact hval.1
    · exact hval.1
  obtain ⟨io2, ao2, cab2, rfl⟩ := hf2
  obtain ⟨r1, r2, r3, r4⟩ := hst0
  obtain ⟨H1, s3, slots1, h3, hl3, hsub3, hrel3, ha3, he3⟩ :=
    @read_record_spec P adj H _ slots nvecs start sched i dsts pre2 tail g hl2 hadj2 hoff2 hvd (by rw [← heo]; exact heo0)
      (by show P.sizeof_ET * (g + dsts.length) ≤ s0.edatafilesize; rw [r3]; exact hroom)
      (by
        intro d hd
        show s0.range_st ≤ d ∧ d ≤ s0.range_end
        rw [r1, r2]; exact hrange d hd)
      (by show ((s0.curvid : Nat) : Int) = start + i; rw [hcv0]; exact hcur) hi hlen hslots
  obtain ⟨f3, -⟩ := read_record_ok h3
  have fr3 := frame6_range f3
  have fs3 := frame6_static f3
  refine ⟨H1, { s3 with decoded := s3.decoded ++ [s3.curvid], curvid := u32 (s3.curvid + 1) },
    slots1, l0, ?_, linv_curvid_decoded _ _ hl3, hsub3, hrel3, ?_, he3, ?_, ?_⟩
  · rw [h1]
    simp only [hns, if_false]
    rw [hrc]
    simp only []
    rw [h3]
    rfl
  · show s3.adjoffset = _
    rw [ha3, hoff, ← hlen2, encode_dsts_length]
    show ao2 + 4 * dsts.length = _
    rw [show ao2 = pre2.length from hoff2]
  · show u32 (s3.curvid + 1) = s.curvid + 1
    rw [fr3.2.2.2.1]
    show u32 (s0.curvid + 1) = _
    rw [hcv0]
    unfold u32
    omega
  · refine ⟨?_, ?_, ?_, ?_⟩
    · show s3.range_st = _
      rw [fr3.1]; exact r1
    · show s3.range_end = _
      rw [fr3.2.1]; exact r2
    · show s3.edatafilesize = _
      rw [fs3.2.1]; exact r3
    · show s3.sparse_index = _ ∨ s3.sparse_index = _
      rw [fr3.2.2.2.2.2.1]; exact r4

theorem encode_items_append (a b : List adjitem) :
    encode_items (a ++ b) = encode_items a ++ encode_items b := by
  induction a with
  | nil => rfl
  | cons it a ih =>
    show encode_item it ++ encode_items (a ++ b) = (encode_item it ++ encode_items a) ++ _
    rw [ih, List.append_assoc]

theorem span_append (a b : List adjitem) : span (a ++ b) = span a + span b := by
  induction a with
  | nil => simp [span]
  | cons it a ih =>
    show item_span it + span (a ++ b) = (item_span it + span a) + span b
    rw [ih, Nat.add_assoc]

theorem ndsts_cons (it : adjitem) (a : List adjitem) :
    ndsts (it :: a) = item_ndsts it + ndsts a := by
  cases it <;> simp [ndsts, item_ndsts]

theorem ndsts_append (a b : List adjitem) : ndsts (a ++ b) = ndsts a + ndsts b := by
  induction a with
  | nil => simp [ndsts]
  | cons it a ih => simp only [List.cons_append, ndsts_cons, ih]; omega

theorem all_dsts_cons (it : adjitem) (a : List adjitem) :
    all_dsts (it :: a) = item_dsts it ++ all_dsts a := by
  cases it <;> simp [all_dsts, item_dsts]

theorem all_dsts_append (a b : List adjitem) : all_dsts (a ++ b) = all_dsts a ++ all_dsts b := by
  induction a with
  | nil => simp [all_dsts]
  | cons it a ih => simp only [List.cons_append, all_dsts_cons, ih, List.append_assoc]

theorem item_dsts_length (it : adjitem) : (item_dsts it).length = item_ndsts it := by
  cases it <;> rfl

theorem encode_item_pos (it : adjitem) : 0 < (encode_item it).length := by
  cases it with
  | skip nz => simp [encode_item]
  | record long dsts => cases long <;> simp [encode_item]

theorem item_span_le (it : adjitem) (h : valid_item it) : 1 ≤ item_span it ∧ item_span it ≤ 256 := by
  cases it with
  | skip nz =>
    have : nz < 256 := h
    simp only [item_span]; omega
  | record long dsts => simp [item_span]

theorem mem_map_insert {k : Int} {e : indexentry} {m : List (Int × indexentry)}
    {x : Int × indexentry} (h : x ∈ map_insert k e m) : x = (k, e) ∨ x ∈ m := by
  induction m with
  | nil =>
    simp only [map_insert, List.mem_singleton] at h
    exact Or.inl h
  | cons a m ih =>
    obtain ⟨k', e'⟩ := a
    unfold map_insert at h
    split at h
    · rcases List.mem_cons.1 h with h | h
      · exact Or.inl h
      · exact Or.inr h
    · split at h
      · exact Or.inr h
      · rcases List.mem_cons.1 h with h | h
        · exact Or.inr (h ▸ List.mem_cons_self _ _)
        · rcases ih h with h | h
          · exact Or.inl h
          · exact Or.inr (List.mem_cons_of_mem _ h)

theorem mem_map_insert_of_mem {k : Int} {e : indexentry} {m : List (Int × indexentry)}
    {x : Int × indexentry} (h : x ∈ m) : x ∈ map_insert k e m := by
  induction m with
  | nil => cases h
  | cons a m ih =>
    obtain ⟨k', e'⟩ := a
    unfold map_insert
    split
    · exact List.mem_cons_of_mem _ h
    · split
      · exact h
      · rcases List.mem_cons.1 h with h | h
        · exact h ▸ List.mem_cons_self _ _
        · exact List.mem_cons_of_mem _ (ih h)

theorem winv_linv {P : params} {items : List adjitem} {H : List edgeptr} {done : List adjitem}
    {s : sliding_shard} (h : winv P items H done s) (hc : cur_ok s) :
    linv P (encode_items items) H s :=
  ⟨h.cfg, h.adjc, h.ed, hc⟩

theorem winv_step {P : params} {items : List adjitem} {H H1 : List edgeptr}
    {done : List adjitem} {s s1 : sliding_shard} (it : adjitem) (rest : List adjitem)
    (hw : winv P items H done s) (hit : items = done ++ it :: rest)
    (hl1 : linv P (encode_items items) H1 s1)
    (ha : s1.adjoffset = s.adjoffset + (encode_item it).length)
    (he : s1.edataoffset = P.sizeof_ET * (ndsts done + item_ndsts it))
    (hcv1 : s1.curvid = s.curvid + item_span it)
    (hcvb : s.curvid + item_span it < 2147483648) (hst : body_static s s1) :
    winv P items H1 (done ++ [it]) s1 := by
  obtain ⟨r1, r2, r3, r4⟩ := hst
  have hsi : ∀ ke ∈ (save_offset s).sparse_index, ∃ d0 r0, items = d0 ++ r0 ∧
      ke = cursor_entry P d0 ∧ span d0 ≤ s.curvid := by
    intro ke hke
    rcases mem_map_insert hke with h | h
    · refine ⟨done, it :: rest, hit, ?_, by rw [hw.cv]⟩
      rw [h, to_int_of_lt hw.cvb, hw.cv, hw.adjo, hw.edo]
      rfl
    · exact hw.si ke h
  refine ⟨hl1.cfg, hl1.adjc, hl1.ed, hw.valid, by rw [r3]; exact hw.room, ?_, ⟨rest, by rw [hit]; simp⟩,
    ?_, ?_, by rw [hcv1]; exact hcvb, ?_, ?_, ?_⟩
  · intro d hd
    rw [r1, r2]; exact hw.range d hd
  · rw [ha, hw.adjo, encode_items_append]
    simp [encode_items]
  · rw [hcv1, hw.cv, span_append]
    simp [span]
  · rw [he, ndsts_append, ndsts_cons]
    simp [ndsts]
  · intro ke hke
    have : ∃ d0 r0, items = d0 ++ r0 ∧ ke = cursor_entry P d0 ∧ span d0 ≤ s.curvid := by
      rcases r4 with e | e
      · rw [e] at hke; exact hw.si ke hke
      · rw [e] at hke; exact hsi ke hke
    obtain ⟨d0, r0, h1, h2, h3⟩ := this
    exact ⟨d0, r0, h1, h2, by rw [hcv1]; omega⟩
  · obtain ⟨e0, he0⟩ := hw.si0
    rcases r4 with e | e
    · exact ⟨e0, by rw [e]; exact he0⟩
    · exact ⟨e0, by rw [e]; exact mem_map_insert_of_mem he0⟩

/-- A pass of the loop body over the next entry of a well-formed adjacency file: it
returns, the cursor stands after the entry, the invariant holds again, and the slots have
received what `item_new` prescribes. -/
theorem rnv_body_winv {P : params} {items : List adjitem} {H : List edgeptr}
    {done : List adjitem} {s : sliding_shard} {slots : List svertex} {nvecs : Int} {ri : Bool}
    {start : Nat} {sched : Nat → Bool} {i : Int} {lastrec : Nat}
    (it : adjitem) (rest : List adjitem)
    (hw : winv P items H done s) (hc : cur_ok s) (hit : items = done ++ it :: rest)
    (hcur : (s.curvid : Int) = start + i) (hi : i < nvecs)
    (hn : (start : Int) + nvecs + 256 ≤ 2147483648) (hlen : nvecs ≤ slots.length)
    (hslots : ∀ (j : Nat) (v : svertex), slots[j]? = some v →
      v.id = start + j ∧ v.scheduled = sched j) :
    ∃ H1 s1 slots1 lastrec1 i1,
      rnv_body P (encode_items items) nvecs ri i lastrec s slots = .ok (i1, lastrec1, s1, slots1) ∧
      i1 + 1 = i + item_span it ∧ winv P items H1 (done ++ [it]) s1 ∧ cur_ok s1 ∧
      (∀ p ∈ H, p ∈ H1) ∧
      slots_rel P H1 (fun j => item_new sched j i (ndsts done) it) slots slots1 := by
  have hl := winv_linv hw hc
  have hadj : encode_items items
      = encode_items done ++ (encode_item it ++ encode_items rest) := by
    rw [hit, encode_items_append]; rfl
  have hvalid : valid_item it := hw.valid it (by rw [hit]; simp)
  have hsp := item_span_le it hvalid
  have hcv : s.curvid + 256 < 4294967296 := by have := hw.cvb; omega
  have hcvb : s.curvid + item_span it < 2147483648 := by omega
  cases it with
  | skip nz =>
    obtain ⟨s1, l1, h, hl1, ha, he, hcv1, hst⟩ :=
      @rnv_body_skip P (encode_items items) H s slots nvecs ri i lastrec nz
        (encode_items done) (encode_items rest) hl hadj hw.adjo hvalid hcv
    refine ⟨H, s1, slots, l1, _, h, ?_, ?_, hl1.cur, fun p hp => hp, slots_rel_refl _ _ _⟩
    · simp only [item_span]; push_cast; ring
    · exact winv_step (adjitem.skip nz) rest hw hit hl1 ha
        (by rw [he, hw.edo]; simp [item_ndsts]) hcv1 hcvb hst
  | record long dsts =>
    have hroom : P.sizeof_ET * (ndsts done + dsts.length) ≤ s.edatafilesize := by
      refine le_trans (Nat.mul_le_mul_left _ ?_) hw.room
      rw [hit, ndsts_append, ndsts_cons]
      simp only [item_ndsts]
      omega
    have hrange : ∀ d ∈ dsts, s.range_st ≤ d ∧ d ≤ s.range_end := by
      intro d hd
      apply hw.range
      rw [hit, all_dsts_append, all_dsts_cons]
      simp only [item_dsts, List.mem_append]
      exact Or.inr (Or.inl hd)
    obtain ⟨H1, s1, slots1, l1, h, hl1, hsub, hrel, ha, he, hcv1, hst⟩ :=
      @rnv_body_record P (encode_items items) H s slots nvecs ri start sched i lastrec long dsts
        (encode_items done) (encode_items rest) (ndsts done) hl hadj hw.adjo hvalid hw.edo
        hroom hrange hcur hi hlen hcv hslots
    refine ⟨H1, s1, slots1, l1, i, h, ?_, ?_, hl1.cur, hsub, hrel⟩
    · simp only [item_span]; push_cast; ring
    · exact winv_step (adjitem.record long dsts) rest hw hit hl1 ha he hcv1 hcvb hst

theorem spec_new_ge {nvecs : Int} {sched : Nat → Bool} {j : Nat} (rest : List adjitem)
    {i : Int} {g : Nat} (h : nvecs ≤ i) : spec_new nvecs sched j rest i g = [] := by
  cases rest with
  | nil => rfl
  | cons it r =>
    have : ¬ i < nvecs := not_lt.2 h
    simp only [spec_new, this, if_false]

theorem slots_rel_ids {P : params} {H : List edgeptr} {sp : Nat → List (Nat × Nat)}
    {slots slots' : List svertex} {start : Nat} {sched : Nat → Bool}
    (h : slots_rel P H sp slots slots')
    (hslots : ∀ (j : Nat) (v : svertex), slots[j]? = some v →
      v.id = start + j ∧ v.scheduled = sched j) :
    ∀ (j : Nat) (v : svertex), slots'[j]? = some v → v.id = start + j ∧ v.scheduled = sched j := by
  intro j v hv
  have hj : j < slots.length := by
    rcases Nat.lt_or_ge j slots'.length with h1 | h1
    · rw [← h.1]; exact h1
    · rw [List.getElem?_eq_none h1] at hv; cases hv
  obtain ⟨new, h1, -⟩ := h.2 j slots[j] (by simp [hj])
  rw [h1] at hv
  cases hv
  exact hslots j slots[j] (by simp [hj])

/-- The loop of `read_next_vertices` over the remaining entries `rest` of a well-formed
adjacency file: it returns, the invariant holds again, and every slot has received what
`spec_new` prescribes. -/
theorem rnv_loop_winv {P : params} {items : List adjitem} {nvecs : Int} {ri : Bool}
    {start : Nat} {sched : Nat → Bool} (hn : (start : Int) + nvecs + 256 ≤ 2147483648)
    (rest : List adjitem) :
    ∀ (done : List adjitem) (H : List edgeptr) (s : sliding_shard) (slots : List svertex)
      (i : Int) (lastrec fuel : Nat),
      winv P items H done s → cur_ok s → items = done ++ rest → (s.curvid : Int) = start + i →
      (nvecs - i).toNat ≤ fuel → nvecs ≤ slots.length →
      (∀ (j : Nat) (v : svertex), slots[j]? = some v →
        v.id = start + j ∧ v.scheduled = sched j) →
      ∃ H' s' slots' done',
        rnv_loop P (encode_items items) nvecs ri fuel i lastrec s slots = .ok (s', slots') ∧
        winv P items H' done' s' ∧ cur_ok s' ∧ (∀ p ∈ H, p ∈ H') ∧
        slots_rel P H' (fun j => spec_new nvecs sched j rest i (ndsts done)) slots slots' := by
  induction rest with
  | nil =>
    intro done H s slots i lastrec fuel hw hc hit hcur hfuel hlen hslots
    refine ⟨H, s, slots, done, ?_, hw, hc, fun p hp => hp, slots_rel_refl _ _ _⟩
    cases fuel with
    | zero => rfl
    | succ fuel =>
      unfold rnv_loop
      have hge : s.adjoffset ≥ s.adjfilesize := by
        rw [hw.adjo, hw.cfg.2.2.1, hit, List.append_nil]
      by_cases hi : i < nvecs
      · simp only [hi, hge, if_true]; rfl
      · simp only [hi, if_false]; rfl
  | cons it rest ih =>
    intro done H s slots i lastrec fuel hw hc hit hcur hfuel hlen hslots
    have hstop : nvecs ≤ i → ∃ H' s' slots' done',
        (pure (s, slots) : res (sliding_shard × List svertex)) = .ok (s', slots') ∧
        winv P items H' done' s' ∧ cur_ok s' ∧ (∀ p ∈ H, p ∈ H') ∧
        slots_rel P H' (fun j => spec_new nvecs sched j (it :: rest) i (ndsts done))
          slots slots' := by
      intro hge
      refine ⟨H, s, slots, done, rfl, hw, hc, fun p hp => hp, ?_⟩
      exact slots_rel_congr (slots_rel_refl _ _ _) (fun j _ => (spec_new_ge _ hge).symm)
    cases fuel with
    | zero =>
      have hge : nvecs ≤ i := by omega
      exact hstop hge
    | succ fuel =>
      unfold rnv_loop
      by_cases hi : i < nvecs
      · have hlt : ¬ s.adjoffset ≥ s.adjfilesize := by
          rw [hw.adjo, hw.cfg.2.2.1, hit, encode_items_append]
          have := encode_item_pos it
          simp only [encode_items, List.length_append]
          omega
        simp only [hi, hlt, if_true, if_false]
        obtain ⟨H1, s1, slots1, l1, i1, h1, hi1, hw1, hc1, hsub1, hrel1⟩ :=
          @rnv_body_winv P items H done s slots nvecs ri start sched i lastrec it rest
            hw hc hit hcur hi hn hlen hslots
        rw [h1]
        simp only []
        have hsp := item_span_le it (hw.valid it (by rw [hit]; simp))
        have hcur1 : (s1.curvid : Int) = start + (i1 + 1) := by
          have e1 : s1.curvid = s.curvid + item_span it := by
            rw [hw1.cv, hw.cv, span_append]; simp [span]
          rw [e1, hi1]; push_cast; rw [hcur]; ring
        obtain ⟨H2, s2, slots2, done2, h2, hw2, hc2, hsub2, hrel2⟩ :=
          ih (done ++ [it]) H1 s1 slots1 (i1 + 1) l1 fuel hw1 hc1 (by rw [hit]; simp) hcur1
            (by omega) (by rw [hrel1.1]; exact hlen) (slots_rel_ids hrel1 hslots)
        refine ⟨H2, s2, slots2, done2, h2, hw2, hc2, fun p hp => hsub2 p (hsub1 p hp), ?_⟩
        refine slots_rel_congr (slots_rel_trans hrel1 hrel2 hsub2) ?_
        intro j _
        simp only [spec_new, hi, if_true]
        rw [hi1, ndsts_append, ndsts_cons]
        simp [ndsts]
      · simp only [hi, if_false]
        exact hstop (by omega)

theorem commit_eq (b : sblock) (all dw : Bool) (io : stripedio) :
    (commit b all dw io).2 = { io with calls := io.calls ++ commit_calls all dw b } := by
  unfold commit_calls commit sblock.commit_now sblock.commit_async sblock.release stripedio.call
  cases b.data <;> cases all <;> cases dw <;> simp <;> split <;> simp

theorem release_blocks_eq (all dw : Bool) (eo : Nat) (bs : List sblock) (io : stripedio) :
    release_blocks all dw eo bs io
      = (bs.filter (fun b => !decide (b.end_ ≤ eo ∨ all = true)),
         { io with calls := io.calls ++ released_calls all dw eo bs }) := by
  induction bs generalizing io with
  | nil => simp [release_blocks, released_calls]
  | cons b bs ih =>
    unfold release_blocks
    rw [ih]
    by_cases h : b.end_ ≤ eo ∨ all = true
    · simp only [h, if_true, commit_eq, released_calls, List.filter_cons, decide_True,
        Bool.not_true, Bool.false_eq_true, if_false, List.append_assoc]
    · simp only [h, if_false, released_calls, List.filter_cons, decide_False, Bool.not_false,
        if_true, List.append_nil]

theorem commit_calls_ok {e : Int} {b : sblock} {d : buffer} (h : blk_commit e b d)
    (all dw : Bool) :
    commit_calls all dw b =
      (if dw = false then
        (if all = true then
          [iocall.managed_pwritea_now e d (min b.ptr (b.end_ - b.offset)) b.offset,
            iocall.managed_release e d]
         else [iocall.managed_pwritea_async e d (b.end_ - b.offset) b.offset true])
       else [iocall.managed_release e d]) := by
  obtain ⟨h1, h2, h3, h4, h5, -, -⟩ := h
  have hmin : (if b.ptr > b.end_ - b.offset then b.end_ - b.offset else b.ptr)
      = min b.ptr (b.end_ - b.offset) := by
    split <;> omega
  unfold commit_calls commit sblock.commit_now sblock.commit_async sblock.release stripedio.call
  cases all <;> cases dw <;> simp [h1, h2, h3, h4, h5, hmin]

theorem mem_released_calls {all dw : Bool} {eo : Nat} {bs : List sblock} {c : iocall}
    (h : c ∈ released_calls all dw eo bs) :
    ∃ b ∈ bs, (b.end_ ≤ eo ∨ all = true) ∧ c ∈ commit_calls all dw b := by
  induction bs with
  | nil => cases h
  | cons b bs ih =>
    unfold released_calls at h
    rcases List.mem_append.1 h with h | h
    · obtain ⟨b', hb', h1, h2⟩ := ih h
      exact ⟨b', List.mem_cons_of_mem _ hb', h1, h2⟩
    · by_cases hev : b.end_ ≤ eo ∨ all = true
      · rw [if_pos hev] at h
        exact ⟨b, List.mem_cons_self _ _, hev, h⟩
      · rw [if_neg hev] at h
        cases h

theorem commit_calls_buf {e : Int} {b : sblock} {d : buffer} (h : blk_commit e b d)
    {all dw : Bool} {c : iocall} (hc : c ∈ commit_calls all dw b) :
    c.buf = some d ∧ c.session = e ∧ is_sess_read e c = false ∧ is_sess_malloc e c = false ∧
      (∀ d', is_read_of d' c = false) ∧ (dw = false → all = false → is_release_of d c = false) := by
  rw [commit_calls_ok h] at hc
  cases all <;> cases dw <;> simp at hc
  · subst hc; simp [iocall.buf, iocall.session, is_sess_read, is_sess_malloc, is_read_of, is_release_of]
  · subst hc; simp [iocall.buf, iocall.session, is_sess_read, is_sess_malloc, is_read_of]
  · rcases hc with hc | hc <;> subst hc <;>
      simp [iocall.buf, iocall.session, is_sess_read, is_sess_malloc, is_read_of]
  · subst hc; simp [iocall.buf, iocall.session, is_sess_read, is_sess_malloc, is_read_of]

theorem commit_calls_count {e : Int} {b : sblock} {d : buffer} (h : blk_commit e b d)
    (all dw : Bool) (d' : buffer) :
    (commit_calls all dw b).countP (is_sess_write e) ≤ 1 ∧
    (commit_calls all dw b).countP (is_write_of d') ≤ 1 := by
  rw [commit_calls_ok h]
  cases all <;> cases dw <;> simp [List.countP_cons, is_sess_write, is_write_of] <;> split <;> simp

theorem commit_calls_covered {e : Int} {b : sblock} {d : buffer} (h : blk_commit e b d)
    (all : Bool) {sz p : Nat} (hp : p + sz ≤ b.ptr) (hd : p + sz ≤ d.length) :
    covered sz d p (commit_calls all false b) := by
  rw [commit_calls_ok h]
  obtain ⟨h1, h2, h3, h4, h5, h6, h7⟩ := h
  cases all
  · refine ⟨[], _, [], rfl, ?_, by simp⟩
    exact ⟨rfl, h6.symm, by rw [← h7]; exact hd⟩
  · refine ⟨[], _, [_], rfl, ?_, by simp⟩
    refine ⟨rfl, h6.symm, ?_⟩
    rw [← h7]
    exact le_min hp hd

theorem covered_prepend {sz : Nat} {d : buffer} {p : Nat} {calls : List iocall}
    (h : covered sz d p calls) (l0 : List iocall) (h0 : ∀ c ∈ l0, is_release_of d c = false) :
    covered sz d p (l0 ++ calls) := by
  obtain ⟨l1, w, l2, hc, hw, hr⟩ := h
  refine ⟨l0 ++ l1, w, l2, by rw [hc]; simp, hw, ?_⟩
  intro c hc'
  rcases List.mem_append.1 hc' with h | h
  · exact h0 c h
  · exact hr c h

theorem released_buf {e : Int} {all dw : Bool} {eo : Nat} {bs : List sblock}
    (hbc : ∀ b ∈ bs, ∃ d, blk_commit e b d) {c : iocall}
    (h : c ∈ released_calls all dw eo bs) :
    ∃ b ∈ bs, (b.end_ ≤ eo ∨ all = true) ∧ ∃ d, blk_commit e b d ∧ c.buf = some d ∧
      is_sess_read e c = false ∧ is_sess_malloc e c = false ∧ (∀ d', is_read_of d' c = false) ∧
      (dw = false → all = false → is_release_of d c = false) := by
  obtain ⟨b, hb, hev, hc⟩ := mem_released_calls h
  obtain ⟨d, hd⟩ := hbc b hb
  obtain ⟨h1, -, h3, h4, h5, h6⟩ := commit_calls_buf hd hc
  exact ⟨b, hb, hev, d, hd, h1, h3, h4, h5, h6⟩

theorem released_count_le {e : Int} (all dw : Bool) (eo : Nat) (bs : List sblock)
    (hbc : ∀ b ∈ bs, ∃ d, blk_commit e b d) :
    (released_calls all dw eo bs).countP (is_sess_write e)
      + (bs.filter (fun b => !decide (b.end_ ≤ eo ∨ all = true))).length ≤ bs.length := by
  induction bs with
  | nil => simp [released_calls]
  | cons b bs ih =>
    have ih := ih (fun b' hb' => hbc b' (List.mem_cons_of_mem _ hb'))
    obtain ⟨d, hd⟩ := hbc b (List.mem_cons_self _ _)
    have hc := (commit_calls_count hd all dw d).1
    unfold released_calls
    rw [List.countP_append]
    by_cases hev : b.end_ ≤ eo ∨ all = true
    · simp only [hev, if_true, List.filter_cons, decide_True, Bool.not_true,
        Bool.false_eq_true, if_false, List.length_cons]
      omega
    · simp only [hev, if_false, List.filter_cons, decide_False, Bool.not_false, if_true,
        List.length_cons, List.countP_nil]
      omega

theorem offset_inj {bs : List sblock} (hdist : bs.Pairwise (fun a b => a.offset ≠ b.offset))
    {a b : sblock} (ha : a ∈ bs) (hb : b ∈ bs) (h : a.offset = b.offset) : a = b := by
  by_contra hne
  exact List.Pairwise.forall (fun x y hxy => fun h' => hxy h'.symm) hdist ha hb hne h

theorem released_write_once {e : Int} (all dw : Bool) (eo : Nat) (bs : List sblock)
    (hbc : ∀ b ∈ bs, ∃ d, blk_commit e b d)
    (hdist : bs.Pairwise (fun a b => a.offset ≠ b.offset)) (d : buffer) :
    (released_calls all dw eo bs).countP (is_write_of d) ≤ 1 := by
  induction bs with
  | nil => simp [released_calls]
  | cons b bs ih =>
    have hbc' : ∀ b' ∈ bs, ∃ d, blk_commit e b' d :=
      fun b' hb' => hbc b' (List.mem_cons_of_mem _ hb')
    have ih := ih hbc' (List.pairwise_cons.1 hdist).2
    obtain ⟨db, hdb⟩ := hbc b (List.mem_cons_self _ _)
    have hc := (commit_calls_count hdb all dw d).2
    unfold released_calls
    rw [List.countP_append]
    by_cases hz : (if b.end_ ≤ eo ∨ all = true then commit_calls all dw b else []).countP
        (is_write_of d) = 0
    · omega
    · have hpos : 0 < (if b.end_ ≤ eo ∨ all = true then commit_calls all dw b else []).countP
          (is_write_of d) := Nat.pos_of_ne_zero hz
      obtain ⟨c, hc1, hc2⟩ := List.countP_pos_iff.1 hpos
      have hcm : c ∈ commit_calls all dw b := by
        by_cases hev : b.end_ ≤ eo ∨ all = true
        · rw [if_pos hev] at hc1; exact hc1
        · rw [if_neg hev] at hc1; cases hc1
      have e1 := (commit_calls_buf hdb hcm).1
      have e2 := is_write_of_buf hc2
      have hdd : db = d := by rw [e1] at e2; exact Option.some.inj e2
      have hrest : (released_calls all dw eo bs).countP (is_write_of d) = 0 := by
        rw [List.countP_eq_zero]
        intro c' hc' hw'
        obtain ⟨b', hb', -, d', hd', hbuf', -⟩ := released_buf hbc' hc'
        have e3 := is_write_of_buf hw'
        have : d' = d := by rw [hbuf'] at e3; exact Option.some.inj e3
        have hoff : b.offset = b'.offset := by
          rw [← hdb.2.2.2.2.2.1, ← hd'.2.2.2.2.2.1, hdd, this]
        exact (List.pairwise_cons.1 hdist).1 b' hb' hoff
      have hif : (if b.end_ ≤ eo ∨ all = true then commit_calls all dw b else []).countP
          (is_write_of d) ≤ 1 := by
        by_cases hev : b.end_ ≤ eo ∨ all = true
        · rw [if_pos hev]; exact hc
        · rw [if_neg hev]; simp
      omega

theorem released_covered {e : Int} (all : Bool) (eo : Nat) (bs : List sblock)
    (hbc : ∀ b ∈ bs, ∃ d, blk_commit e b d)
    (hdist : bs.Pairwise (fun a b => a.offset ≠ b.offset))
    {b : sblock} {d : buffer} (hb : b ∈ bs) (hev : b.end_ ≤ eo ∨ all = true)
    (hd : blk_commit e b d) {sz p : Nat} (hp : p + sz ≤ b.ptr) (hl : p + sz ≤ d.length) :
    covered sz d p (released_calls all false eo bs) := by
  induction bs with
  | nil => cases hb
  | cons b0 bs ih =>
    have hbc' : ∀ b' ∈ bs, ∃ d, blk_commit e b' d :=
      fun b' hb' => hbc b' (List.mem_cons_of_mem _ hb')
    unfold released_calls
    by_cases hin : b ∈ bs
    · exact covered_append (ih hbc' (List.pairwise_cons.1 hdist).2 hin) _
    · have hb0 : b = b0 := by
        rcases List.mem_cons.1 hb with h | h
        · exact h
        · exact absurd h hin
      subst hb0
      rw [if_pos hev]
      refine covered_prepend (commit_calls_covered hd all hp hl) _ ?_
      intro c hc
      by_contra hrel
      have hrel' : is_release_of d c = true := by
        cases h : is_release_of d c
        · exact absurd h hrel
        · rfl
      obtain ⟨b', hb', -, d', hd', hbuf', -⟩ := released_buf hbc' hc
      have e3 := is_release_of_buf hrel'
      have : d' = d := by rw [hbuf'] at e3; exact Option.some.inj e3
      have hoff : b.offset = b'.offset := by
        rw [← hd.2.2.2.2.2.1, ← hd'.2.2.2.2.2.1, this]
      exact (List.pairwise_cons.1 hdist).1 b' hb' hoff

theorem blk_ok_commit {P : params} {s : sliding_shard} {b : sblock} (he : 0 ≤ s.edata_session)
    (h : blk_ok P s b) : ∃ d, blk_commit s.edata_session b d := by
  obtain ⟨d, h1, h2, h3, h4, h5, h6, h7, h8, h9, h10, h11, h12, h13, h14⟩ := h
  exact ⟨d, h1, h11, h6, h7, he, h4, h5⟩

theorem einv_distinct {P : params} {H : List edgeptr} {s : sliding_shard} (h : einv P H s) :
    s.activeblocks.Pairwise (fun a b => a.offset ≠ b.offset) := by
  refine List.Pairwise.imp_of_mem ?_ h.order
  intro a b ha _ hab
  obtain ⟨d, h1, h2, h3, h4, h5, h6, h7, h8, h9, -⟩ := h.blocks a ha
  omega

/-- The blocks `release_prior_to_offset(false, ..)` keeps: none, or the last block. -/
theorem kept_blocks {P : params} {H : List edgeptr} {s : sliding_shard} (h : einv P H s) :
    s.activeblocks.filter (fun b => !decide (b.end_ ≤ s.edataoffset ∨ false = true)) = [] ∨
    ∃ init lb, s.activeblocks = init ++ [lb] ∧ ¬ lb.end_ ≤ s.edataoffset ∧
      s.activeblocks.filter (fun b => !decide (b.end_ ≤ s.edataoffset ∨ false = true)) = [lb] := by
  rcases List.eq_nil_or_concat s.activeblocks with hn | ⟨init, lb, hc⟩
  · left; rw [hn]; rfl
  · rw [List.concat_eq_append] at hc
    have hlast := h.lastptr init lb hc
    have hord := h.order
    rw [hc] at hord ⊢
    have hinit : init.filter (fun b => !decide (b.end_ ≤ s.edataoffset ∨ false = true)) = [] := by
      rw [List.filter_eq_nil_iff]
      intro b hb
      have := (List.pairwise_append.1 hord).2.2 b hb lb (List.mem_singleton_self _)
      have hle : b.end_ ≤ s.edataoffset := by omega
      simp [hle]
    rw [List.filter_append, hinit, List.nil_append]
    by_cases hev : lb.end_ ≤ s.edataoffset
    · left; simp [hev]
    · right
      exact ⟨init, lb, rfl, hev, by simp [hev]⟩

theorem release_prior_eq (all dw : Bool) (s : sliding_shard) :
    release_prior_to_offset all dw s =
      { s with
        activeblocks := s.activeblocks.filter (fun b => !decide (b.end_ ≤ s.edataoffset ∨ all = true)),
        iomgr := stripedio.mk (s.iomgr.calls ++ released_calls all dw s.edataoffset s.activeblocks)
          s.iomgr.nsessions s.iomgr.nbufs } := by
  unfold release_prior_to_offset
  rw [release_blocks_eq]

theorem countP_false_of_mem {α : Type} {p : α → Bool} {l : List α}
    (h : ∀ c ∈ l, p c = false) : l.countP p = 0 := by
  rw [List.countP_eq_zero]
  intro c hc
  simp [h c hc]

/-- The edge-data invariant survives the eviction of the blocks that lie before the
edge-data offset, as `read_next_vertices` does it at the start of a call.  With writes
disabled the evicted blocks are not written, so no pointer may be outstanding. -/
theorem einv_release {P : params} {H : List edgeptr} {s : sliding_shard} (dw : Bool)
    (he : 0 ≤ s.edata_session) (h : einv P H s) (hH : dw = true → H = []) :
    einv P H (release_prior_to_offset false dw s) := by
  have hbc : ∀ b ∈ s.activeblocks, ∃ d, blk_commit s.edata_session b d :=
    fun b hb => blk_ok_commit he (h.blocks b hb)
  have hdist := einv_distinct h
  have hR := fun c hc => @released_buf s.edata_session false dw s.edataoffset s.activeblocks hbc c hc
  have hnr : (released_calls false dw s.edataoffset s.activeblocks).countP
      (is_sess_read s.edata_session) = 0 :=
    countP_false_of_mem (fun c hc => by
      obtain ⟨b, -, -, d, -, -, h1, -⟩ := hR c hc
      exact h1)
  have hnm : (released_calls false dw s.edataoffset s.activeblocks).countP
      (is_sess_malloc s.edata_session) = 0 :=
    countP_false_of_mem (fun c hc => by
      obtain ⟨b, -, -, d, -, -, -, h1, -⟩ := hR c hc
      exact h1)
  have hkeep : ∀ b, b ∈ s.activeblocks.filter
      (fun b => !decide (b.end_ ≤ s.edataoffset ∨ false = true)) →
      b ∈ s.activeblocks ∧ ¬ b.end_ ≤ s.edataoffset := by
    intro b hb
    have := List.mem_filter.1 hb
    exact ⟨this.1, by simpa using this.2⟩
  have hother : ∀ b d, b ∈ s.activeblocks → ¬ b.end_ ≤ s.edataoffset → b.data = some d →
      ∀ c ∈ released_calls false dw s.edataoffset s.activeblocks, c.buf ≠ some d := by
    intro b d hb hk hd c hc hbuf
    obtain ⟨b', hb', hev, d', hd', hbuf', -⟩ := hR c hc
    have e1 : d' = d := by rw [hbuf'] at hbuf; exact Option.some.inj hbuf
    obtain ⟨d0, hd0⟩ := hbc b hb
    have e0 : d0 = d := by
      have := hd0.1; rw [hd] at this; exact (Option.some.inj this).symm
    have hoff : b'.offset = b.offset := by
      rw [← hd'.2.2.2.2.2.1, ← hd0.2.2.2.2.2.1, e1, e0]
    have := offset_inj hdist hb' hb hoff
    rw [this] at hev
    rcases hev with hev | hev
    · exact hk hev
    · cases hev
  rw [release_prior_eq]
  refine ⟨?_, ?_, ?_, ?_, ?_, ?_, ?_, ?_, ?_, ?_, h.align, ?_⟩
  · intro c hc d hd
    rcases List.mem_append.1 hc with hc | hc
    · exact h.fresh c hc d hd
    · obtain ⟨b, hb, -, d', hd', hbuf', -⟩ := hR c hc
      have e1 : d' = d := by rw [hbuf'] at hd; exact Option.some.inj hd
      obtain ⟨d2, h1, h2, h3, -⟩ := h.blocks b hb
      have : d2 = d' := by
        have := hd'.1; rw [h1] at this; exact Option.some.inj this
      rw [← e1, ← this]; exact h3
  · intro b hb
    obtain ⟨hb1, hb2⟩ := hkeep b hb
    obtain ⟨d, h1, h2, h3, h4, h5, h6, h7, h8, h9, h10, h11, h12, h13, h14⟩ := h.blocks b hb1
    refine ⟨d, h1, h2, h3, h4, h5, h6, h7, h8, h9, h10, h11, h12, ?_, ?_⟩
    · show (s.iomgr.calls ++ _).countP (is_write_of d) = 0
      rw [List.countP_append, h13, countP_false_of_mem, Nat.add_zero]
      intro c hc
      cases hw : is_write_of d c
      · rfl
      · exact absurd (is_write_of_buf hw) (hother b d hb1 hb2 h1 c hc)
    · show (s.iomgr.calls ++ _).countP (is_release_of d) = 0
      rw [List.countP_append, h14, countP_false_of_mem, Nat.add_zero]
      intro c hc
      cases hw : is_release_of d c
      · rfl
      · exact absurd (is_release_of_buf hw) (hother b d hb1 hb2 h1 c hc)
  · exact h.order.sublist (List.filter_sublist _)
  · intro init lb hl
    rcases kept_blocks h with hk | ⟨init0, lb0, hbs, -, hk⟩
    · rw [hk] at hl
      exact absurd hl (by simp)
    · rw [hk] at hl
      have := @append_singleton_inj sblock [] init lb0 lb hl
      rw [← this.2]
      exact h.lastptr init0 lb0 hbs
  · intro d hd
    obtain ⟨o1, o2⟩ := h.once d hd
    refine ⟨?_, ?_⟩
    · show (s.iomgr.calls ++ _).countP (is_read_of d) ≤ 1
      have hz : (released_calls false dw s.edataoffset s.activeblocks).countP (is_read_of d) = 0 :=
        countP_false_of_mem (fun c hc => by
          obtain ⟨b, -, -, d', -, -, -, -, h1, -⟩ := hR c hc
          exact h1 d)
      rw [List.countP_append, hz]
      exact o1
    · show (s.iomgr.calls ++ _).countP (is_write_of d) ≤ 1
      rw [List.countP_append]
      have hw1 := released_write_once false dw s.edataoffset s.activeblocks hbc hdist d
      by_cases hz : (released_calls false dw s.edataoffset s.activeblocks).countP
          (is_write_of d) = 0
      · omega
      · obtain ⟨c, hc1, hc2⟩ := List.countP_pos_iff.1 (Nat.pos_of_ne_zero hz)
        obtain ⟨b, hb, -, d', hd', hbuf', -⟩ := hR c hc1
        have e3 := is_write_of_buf hc2
        have e1 : d' = d := by rw [hbuf'] at e3; exact Option.some.inj e3
        obtain ⟨d2, h1, -, -, -, -, -, -, -, -, -, -, -, h13, -⟩ := h.blocks b hb
        have : d2 = d := by
          have := hd'.1; rw [h1] at this; rw [← e1]; exact Option.some.inj this
        rw [this] at h13
        omega
  · show (s.iomgr.calls ++ _).countP (is_sess_read s.edata_session)
      ≤ (s.iomgr.calls ++ _).countP (is_sess_malloc s.edata_session)
    rw [List.countP_append, List.countP_append, hnr, hnm]
    exact h.reads
  · show (s.iomgr.calls ++ _).countP (is_sess_write s.edata_session) + _
      ≤ (s.iomgr.calls ++ _).countP (is_sess_malloc s.edata_session)
    rw [List.countP_append, List.countP_append, hnm]
    have h1 := released_count_le false dw s.edataoffset s.activeblocks hbc
    have h2 := h.writes
    simp only [Nat.add_zero]
    show _ + _ + (List.filter _ s.activeblocks).length ≤ _
    omega
  · show (s.iomgr.calls ++ _).countP (is_sess_malloc s.edata_session) = 0 ∨
      ((s.iomgr.calls ++ _).countP (is_sess_malloc s.edata_session) - 1) * s.blocksize
        + P.sizeof_ET ≤ s.edatafilesize
    rw [List.countP_append, hnm]
    exact h.front1
  · intro hnil
    show (s.iomgr.calls ++ _).countP (is_sess_malloc s.edata_session) * s.blocksize
        ≤ s.edataoffset ∨ s.edatafilesize ≤ s.edataoffset
    rw [List.countP_append, hnm, Nat.add_zero]
    rcases List.eq_nil_or_concat s.activeblocks with hn | ⟨init, lb, hc⟩
    · exact h.front2 hn
    · rw [List.concat_eq_append] at hc
      have hlb : lb ∈ s.activeblocks := by rw [hc]; simp
      have hev : lb.end_ ≤ s.edataoffset := by
        by_contra hne
        have : lb ∈ s.activeblocks.filter
            (fun b => !decide (b.end_ ≤ s.edataoffset ∨ false = true)) :=
          List.mem_filter.2 ⟨hlb, by simp [hne]⟩
        have hnil' : s.activeblocks.filter
            (fun b => !decide (b.end_ ≤ s.edataoffset ∨ false = true)) = [] := hnil
        rw [hnil'] at this
        cases this
      obtain ⟨d, -, -, -, -, -, -, -, h8, -⟩ := h.blocks lb hlb
      obtain ⟨f1, f2⟩ := h.front3 init lb hc
      have hm := @succ_pred_mul _ s.blocksize f1
      by_cases hF : s.edatafilesize ≤ lb.offset + s.blocksize
      · right
        rw [Nat.min_eq_left hF] at h8
        omega
      · left
        rw [Nat.min_eq_right (by omega)] at h8
        omega
  · intro init lb hl
    show 1 ≤ (s.iomgr.calls ++ _).countP (is_sess_malloc s.edata_session) ∧
      ((s.iomgr.calls ++ _).countP (is_sess_malloc s.edata_session) - 1) * s.blocksize
        ≤ lb.offset
    rw [List.countP_append, hnm, Nat.add_zero]
    rcases kept_blocks h with hk | ⟨init0, lb0, hbs, -, hk⟩
    · have hl' : s.activeblocks.filter
          (fun b => !decide (b.end_ ≤ s.edataoffset ∨ false = true)) = init ++ [lb] := hl
      rw [hk] at hl'
      exact absurd hl' (by simp)
    · have hl' : s.activeblocks.filter
          (fun b => !decide (b.end_ ≤ s.edataoffset ∨ false = true)) = init ++ [lb] := hl
      rw [hk] at hl'
      have := @append_singleton_inj sblock [] init lb0 lb hl'
      rw [← this.2]
      exact h.front3 init0 lb0 hbs
  · intro p hp
    have hdw : dw = false := by
      cases dw
      · rfl
      · rw [hH rfl] at hp; cases hp
    subst hdw
    obtain ⟨d, p1, p2, p3, p4⟩ := h.ptrs p hp
    refine ⟨d, p1, p2, p3, ?_⟩
    rcases p4 with ⟨b, hb, hbd, hbp⟩ | hcov
    · by_cases hev : b.end_ ≤ s.edataoffset
      · right
        obtain ⟨d0, hd0⟩ := hbc b hb
        have e0 : d0 = d := by
          have := hd0.1; rw [hbd] at this; exact (Option.some.inj this).symm
        rw [e0] at hd0
        have hc := released_covered false s.edataoffset s.activeblocks hbc hdist hb
          (Or.inl hev) hd0 hbp p3
        refine covered_prepend hc _ ?_
        obtain ⟨d2, h1, -, -, -, -, -, -, -, -, -, -, -, -, h14⟩ := h.blocks b hb
        have e2 : d2 = d := by rw [hbd] at h1; exact (Option.some.inj h1).symm
        rw [e2, List.countP_eq_zero] at h14
        intro c hc
        cases hr : is_release_of d c
        · rfl
        · exact absurd hr (h14 c hc)
      · left
        exact ⟨b, List.mem_filter.2 ⟨hb, by simp [hev]⟩, hbd, hbp⟩
    · right
      exact covered_append hcov _

theorem einv_congr {P : params} {H : List edgeptr} {s s' : sliding_shard}
    (e1 : s'.iomgr = s.iomgr) (e2 : s'.activeblocks = s.activeblocks)
    (e3 : s'.edataoffset = s.edataoffset) (e4 : s'.edata_session = s.edata_session)
    (e5 : s'.blocksize = s.blocksize) (e6 : s'.edatafilesize = s.edatafilesize)
    (h : einv P H s) : einv P H s' := by
  obtain ⟨f1, f2, f3, f4, f5, f6, f7, f8, f9, f10, f11, f12⟩ := h
  cases s
  cases s'
  simp only at e1 e2 e3 e4 e5 e6
  subst e1 e2 e3 e4 e5 e6
  exact ⟨f1, f2, f3, f4, f5, f6, f7, f8, f9, f10, f11, f12⟩

theorem winv_congr {P : params} {items : List adjitem} {H : List edgeptr}
    {done : List adjitem} {s s' : sliding_shard} (hc : same_wcore s s')
    (h : winv P items H done s) : winv P items H done s' := by
  obtain ⟨e1, e2, e3, e4, e5, e6, e7, e8, e9, e10, e11, e12, e13, e14, e15⟩ := hc
  have hed := einv_congr e1 e10 e7 e11 e4 e9 h.ed
  obtain ⟨g1, g2, g3, g4, g5, g6, g7, g8, g9, g10, g11, g12, g13⟩ := h
  cases s
  cases s'
  simp only at e1 e2 e3 e4 e5 e6 e7 e8 e9 e10 e11 e12 e13 e14 e15
  subst e1 e2 e3 e4 e5 e6 e7 e8 e9 e10 e11 e12 e13 e14 e15
  exact ⟨g1, g2, hed, g4, g5, g6, g7, g8, g9, g10, g11, g12, g13⟩

theorem einv_mono_nil {P : params} {H : List edgeptr} {s : sliding_shard} (h : einv P H s) :
    einv P [] s :=
  ⟨h.fresh, h.blocks, h.order, h.lastptr, h.once, h.reads, h.writes, h.front1, h.front2,
    h.front3, h.align, fun p hp => by cases hp⟩

theorem winv_mono_nil {P : params} {items : List adjitem} {H : List edgeptr}
    {done : List adjitem} {s : sliding_shard} (h : winv P items H done s) :
    winv P items [] done s :=
  ⟨h.cfg, h.adjc, einv_mono_nil h.ed, h.valid, h.room, h.range, h.pre, h.adjo, h.cv, h.cvb,
    h.edo, h.si, h.si0⟩

/-- The cursor invariant survives the eviction at the start of a call. -/
theorem winv_release {P : params} {items : List adjitem} {H : List edgeptr}
    {done : List adjitem} {s : sliding_shard} (dw : Bool) (h : winv P items H done s)
    (hH : dw = true → H = []) :
    winv P items H done (release_prior_to_offset false dw s) := by
  have hed := einv_release dw h.cfg.2.2.2.2.2.2.2.2.2.2 h.ed hH
  rw [release_prior_eq] at hed ⊢
  exact ⟨h.cfg, h.adjc, hed, h.valid, h.room, h.range, h.pre, h.adjo, h.cv, h.cvb, h.edo,
    h.si, h.si0⟩

/-- The statements of `read_next_vertices` before its loop, on a state satisfying the
cursor invariant: no assertion fails, the invariant holds again, and the current block is
the only block left, if any. -/
theorem rnv_prepare_winv {P : params} {items : List adjitem} {H : List edgeptr}
    {done : List adjitem} {s : sliding_shard} (dw : Bool) (h : winv P items H done s)
    (hH : dw = true → H = []) :
    ∃ s', rnv_prepare dw s = .ok s' ∧ winv P items H done s' ∧ cur_ok s' := by
  have h1 : winv P items H done { s with curblock := none } :=
    @winv_congr P items H done s _ ⟨rfl, rfl, rfl, rfl, rfl, rfl, rfl, rfl, rfl, rfl, rfl, rfl, rfl, rfl, rfl⟩ h
  have h2 := winv_release dw h1 hH
  have hk := kept_blocks h1.ed
  have hoa : (release_prior_to_offset false dw { s with curblock := none }).only_adjacency
      = false := h2.cfg.2.2.2.2.2.2.2.2.1
  have hcb : (release_prior_to_offset false dw { s with curblock := none }).curblock = none := by
    rw [release_prior_eq]
  have hab : (release_prior_to_offset false dw { s with curblock := none }).activeblocks
      = s.activeblocks.filter (fun b => !decide (b.end_ ≤ s.edataoffset ∨ false = true)) := by
    rw [release_prior_eq]
  unfold rnv_prepare
  simp only []
  generalize release_prior_to_offset false dw { s with curblock := none } = s2 at *
  rcases hk with hk | ⟨init, lb, -, -, hk⟩
  · have hk' : s2.activeblocks = [] := by rw [hab]; exact hk
    refine ⟨{ s2 with window_start_edataoffset := s2.edataoffset }, ?_, ?_, ?_⟩
    · simp [hk', pure, Except.pure]
    · exact @winv_congr P items H done s2 _
        ⟨rfl, rfl, rfl, rfl, rfl, rfl, rfl, rfl, rfl, rfl, rfl, rfl, rfl, rfl, rfl⟩ h2
    · exact Or.inl ⟨hcb, hk'⟩
  · have hk' : s2.activeblocks = [lb] := by rw [hab]; exact hk
    refine ⟨{ s2 with curblock := some 0, window_start_edataoffset := s2.edataoffset }, ?_, ?_, ?_⟩
    · simp [hk', hoa, pure, Except.pure]
    · exact @winv_congr P items H done s2 _
        ⟨rfl, rfl, rfl, rfl, rfl, rfl, rfl, rfl, rfl, rfl, rfl, rfl, rfl, rfl, rfl⟩ h2
    · exact Or.inr ⟨[], lb, hk', rfl⟩

theorem map_lower_bound_some {k k0 : Int} {e0 : indexentry} {m : List (Int × indexentry)}
    (hm : (k0, e0) ∈ m) (hk : k ≤ k0) :
    ∃ ke, map_lower_bound k m = some ke ∧ ke ∈ m ∧ k ≤ ke.1 := by
  induction m with
  | nil => cases hm
  | cons a m ih =>
    obtain ⟨k', e'⟩ := a
    unfold map_lower_bound
    by_cases h : k ≤ k'
    · exact ⟨(k', e'), by simp [h], List.mem_cons_self _ _, h⟩
    · have hm' : (k0, e0) ∈ m := by
        rcases List.mem_cons.1 hm with h1 | h1
        · cases h1; exact absurd hk h
        · exact h1
      obtain ⟨ke, h1, h2, h3⟩ := ih hm'
      exact ⟨ke, by simp [h, h1], List.mem_cons_of_mem _ h2, h3⟩

/-- On a state satisfying the cursor invariant the sparse index holds no cursor ahead of
the current one, so `move_close_to` leaves the state alone. -/
theorem move_close_to_winv {P : params} {items : List adjitem} {H : List edgeptr}
    {done : List adjitem} {s : sliding_shard} {start : Nat} (h : winv P items H done s)
    (hs : start < 2147483648) : move_close_to start s = .ok s := by
  unfold move_close_to
  by_cases hge : s.curvid ≥ start
  · simp only [hge, if_true]; rfl
  · simp only [hge, if_false]
    obtain ⟨e0, h0⟩ := h.si0
    obtain ⟨ke, h1, h2, h3⟩ := map_lower_bound_some (k := -(to_int start)) h0
      (by rw [to_int_of_lt hs]; omega)
    obtain ⟨d0, r0, -, hke, hsp⟩ := h.si ke h2
    rw [h1, hke]
    rw [hke] at h3
    simp only [cursor_entry] at h3 ⊢
    rw [to_int_of_lt hs] at h3 ⊢
    rw [to_int_of_lt h.cvb]
    have c1 : (-(-((span d0 : Nat) : Int))) ≥ 0 := by omega
    have c2 : (-(-((span d0 : Nat) : Int))) ≤ (start : Int) := by omega
    have c3 : ¬ (-(-((span d0 : Nat) : Int))) > (s.curvid : Int) := by omega
    simp only [c1, c2, c3, not_true_eq_false, if_false]
    rfl

/-- One call of `read_next_vertices` on a state satisfying the cursor invariant, for
`nvecs` slots whose ids are `start, start + 1, ..`: the call returns, the invariant holds
again, and every slot has received what `spec_new` prescribes for the entries not yet
decoded. -/
theorem read_next_vertices_winv {P : params} {items : List adjitem} {H : List edgeptr}
    {done rest : List adjitem} {s : sliding_shard} {slots : List svertex} {nvecs : Int}
    {start : Nat} {sched : Nat → Bool} (ri dw : Bool)
    (hw : winv P items H done s) (hH : dw = true → H = []) (hit : items = done ++ rest)
    (hnv : 0 ≤ nvecs) (hn : (start : Int) + nvecs + 256 ≤ 2147483648)
    (hlen : nvecs ≤ slots.length)
    (hslots : ∀ (j : Nat) (v : svertex), slots[j]? = some v →
      v.id = start + j ∧ v.scheduled = sched j) :
    ∃ H' s' slots' done',
      read_next_vertices P (encode_items items) nvecs start slots ri dw s = .ok (s', slots') ∧
      winv P items H' done' s' ∧ (∀ p ∈ H, p ∈ H') ∧
      slots_rel P H' (fun j => spec_new nvecs sched j rest ((span done : Int) - start)
        (ndsts done)) slots slots' := by
  have hs : start < 2147483648 := by omega
  have hm : (if ri = false then move_close_to start s else pure s) = .ok s := by
    split
    · exact move_close_to_winv hw hs
    · rfl
  obtain ⟨s1, hp, hw1, hc1⟩ := rnv_prepare_winv dw hw hH
  have hi : to_int s1.curvid - to_int start = (span done : Int) - start := by
    rw [to_int_of_lt hw1.cvb, to_int_of_lt hs, hw1.cv]
  have hcur : (s1.curvid : Int) = start + (to_int s1.curvid - to_int start) := by
    rw [hi, hw1.cv]; ring
  obtain ⟨H2, s2, slots2, done2, hl, hw2, hc2, hsub, hrel⟩ :=
    @rnv_loop_winv P items nvecs ri start sched hn rest done H s1 slots
      (to_int s1.curvid - to_int start) start
      (nvecs - (to_int s1.curvid - to_int start)).toNat hw1 hc1 hit hcur (le_refl _) hlen hslots
  rw [hi] at hrel
  unfold read_next_vertices
  rw [hm]
  simp only []
  rw [hp]
  simp only []
  rw [hl]
  refine ⟨H2, { s2 with curblock := none }, slots2, done2, rfl, ?_, hsub, hrel⟩
  exact @winv_congr P items H2 done2 s2 _
    ⟨rfl, rfl, rfl, rfl, rfl, rfl, rfl, rfl, rfl, rfl, rfl, rfl, rfl, rfl, rfl⟩ hw2

theorem pad_blocksize_run (sz : Nat) :
    ∀ (fuel b k : Nat), k ≤ fuel → (b + k) % sz = 0 → b + k < 18446744073709551616 →
      ∃ r, r ≤ k ∧ pad_blocksize sz fuel b = b + r ∧ (b + r) % sz = 0 := by
  intro fuel
  induction fuel with
  | zero =>
    intro b k hk hm _
    have : k = 0 := by omega
    subst this
    exact ⟨0, le_refl _, rfl, hm⟩
  | succ fuel ih =>
    intro b k hk hm hlt
    unfold pad_blocksize
    by_cases hb : b % sz ≠ 0
    · rw [if_pos hb]
      have hk0 : k ≠ 0 := by
        intro h0; rw [h0] at hm; exact hb hm
      obtain ⟨k', rfl⟩ : ∃ k', k = k' + 1 := ⟨k - 1, by omega⟩
      have hu : u64 (b + 1) = b + 1 := u64_of_lt (by omega)
      rw [hu]
      obtain ⟨r, h1, h2, h3⟩ := ih (b + 1) k' (by omega)
        (by rw [show b + 1 + k' = b + (k' + 1) by omega]; exact hm) (by omega)
      exact ⟨r + 1, by omega, by rw [h2]; omega,
        by rw [show b + (r + 1) = b + 1 + r by omega]; exact h3⟩
    · rw [if_neg hb]
      exact ⟨0, Nat.zero_le _, rfl, by simpa using hb⟩

theorem pad_blocksize_spec {sz b : Nat} (hsz : 0 < sz) (hlt : b + sz < 18446744073709551616) :
    sz ∣ pad_blocksize sz sz b ∧ b ≤ pad_blocksize sz sz b ∧ pad_blocksize sz sz b < b + sz := by
  have hm : b % sz < sz := Nat.mod_lt _ hsz
  have hk : (sz - b % sz) % sz < sz := Nat.mod_lt _ hsz
  have hz : (b + (sz - b % sz) % sz) % sz = 0 := by
    rw [Nat.add_mod, Nat.mod_mod]
    by_cases h0 : b % sz = 0
    · rw [h0]; simp
    · rw [Nat.mod_eq_of_lt (show sz - b % sz < sz by omega),
        show b % sz + (sz - b % sz) = sz by omega]
      exact Nat.mod_self _
  obtain ⟨r, h1, h2, h3⟩ := pad_blocksize_run sz sz b _ (le_of_lt hk) hz (by omega)
  rw [h2]
  exact ⟨Nat.dvd_of_mod_eq_zero h3, by omega, by omega⟩

theorem construct_eq {P : params} (io : stripedio) (F A rs re bs : Nat) (dwf : Bool)
    (hsz : 0 < P.sizeof_ET) (hlt : bs + P.sizeof_ET < 18446744073709551616) :
    sliding_shard.construct P io F A rs re bs dwf false
      = some (fresh_shard P io F A rs re (pad_blocksize P.sizeof_ET P.sizeof_ET bs)) := by
  have hm : pad_blocksize P.sizeof_ET P.sizeof_ET bs % P.sizeof_ET = 0 :=
    Nat.mod_eq_zero_of_dvd (pad_blocksize_spec hsz hlt).1
  unfold sliding_shard.construct
  simp only [hm, not_true_eq_false, if_false, if_true, stripedio.open_session]
  rfl

/-- The state the constructor builds satisfies the cursor invariant, with the cursor at
the start of the file and no pointer handed out. -/
theorem fresh_winv {P : params} {items : List adjitem} {io : stripedio} {F rs re B : Nat}
    (hio : io_wf io) (hsz : 0 < P.sizeof_ET) (hsp : P.sizeof_ET = P.sizeof_ETspecial)
    (hA : (encode_items items).length < 4611686018427387904)
    (hF : F < 4611686018427387904) (hB4 : 4 ≤ B) (hB : B < 4611686018427387904)
    (hdvd : P.sizeof_ET ∣ B) (hvalid : ∀ it ∈ items, valid_item it)
    (hroom : P.sizeof_ET * ndsts items ≤ F)
    (hrange : ∀ d ∈ all_dsts items, rs ≤ d ∧ d ≤ re) :
    winv P items [] [] (fresh_shard P io F (encode_items items).length rs re B) := by
  have hold : ∀ c ∈ io.calls, is_sess_read (io.nsessions : Int) c = false ∧
      is_sess_write (io.nsessions : Int) c = false ∧
      is_sess_malloc (io.nsessions : Int) c = false ∧
      ∀ d, d.session = (io.nsessions : Int) → is_read_of d c = false ∧ is_write_of d c = false := by
    intro c hc
    obtain ⟨h1, h2⟩ := hio c hc
    refine ⟨?_, ?_, ?_, ?_⟩
    · cases h : is_sess_read (io.nsessions : Int) c
      · rfl
      · have := is_sess_read_session h; omega
    · cases h : is_sess_write (io.nsessions : Int) c
      · rfl
      · have := is_sess_write_session h; omega
    · cases h : is_sess_malloc (io.nsessions : Int) c
      · rfl
      · have := is_sess_malloc_session h; omega
    · intro d hd
      refine ⟨?_, ?_⟩
      · cases h : is_read_of d c
        · rfl
        · have := (h2 d (is_read_of_buf h)).2; omega
      · cases h : is_write_of d c
        · rfl
        · have := (h2 d (is_write_of_buf h)).2; omega
  have hcount : ∀ p : iocall → Bool, (∀ c ∈ io.calls, p c = false) →
      p (iocall.open_session (io.nsessions : Int) false) = false →
      p (iocall.open_session ((io.nsessions + 1 : Nat) : Int) true) = false →
      (io.calls ++ [iocall.open_session (io.nsessions : Int) false] ++
        [iocall.open_session ((io.nsessions + 1 : Nat) : Int) true]).countP p = 0 := by
    intro p h1 h2 h3
    apply countP_false_of_mem
    intro c hc
    rcases List.mem_append.1 hc with h | h
    · rcases List.mem_append.1 h with h | h
      · exact h1 c h
      · rw [List.mem_singleton.1 h]; exact h2
    · rw [List.mem_singleton.1 h]; exact h3
  have hr := hcount (is_sess_read (io.nsessions : Int)) (fun c hc => (hold c hc).1) rfl rfl
  have hwr := hcount (is_sess_write (io.nsessions : Int)) (fun c hc => (hold c hc).2.1) rfl rfl
  have hma := hcount (is_sess_malloc (io.nsessions : Int)) (fun c hc => (hold c hc).2.2.1) rfl rfl
  refine ⟨⟨hsz, hsp, rfl, hA, hF, hB4, hB, hdvd, rfl, ?_, ?_⟩, ?_, ?_, hvalid, hroom, hrange,
    ⟨items, rfl⟩, rfl, rfl, (by show (0 : Nat) < 2147483648; omega), ?_, ?_, ⟨_, List.mem_singleton_self _⟩⟩
  · show (io.nsessions : Int) ≠ ((io.nsessions + 1 : Nat) : Int)
    push_cast; omega
  · show 0 ≤ (io.nsessions : Int)
    omega
  · intro b hb
    cases hb
  · refine ⟨?_, ?_, List.Pairwise.nil, ?_, ?_, ?_, ?_, Or.inl hma, ?_, ?_, ?_, ?_⟩
    · intro c hc d hd
      rcases List.mem_append.1 hc with h | h
      · rcases List.mem_append.1 h with h | h
        · exact ((hio c h).2 d hd).1
        · rw [List.mem_singleton.1 h] at hd; cases hd
      · rw [List.mem_singleton.1 h] at hd; cases hd
    · intro b hb
      cases hb
    · intro init lb h
      exact absurd h (by simp [fresh_shard])
    · intro d hd
      exact ⟨le_of_eq (hcount _ (fun c hc => ((hold c hc).2.2.2 d hd).1) rfl rfl) |>.trans
          (Nat.zero_le _),
        le_of_eq (hcount _ (fun c hc => ((hold c hc).2.2.2 d hd).2) rfl rfl) |>.trans
          (Nat.zero_le _)⟩
    · simp only [fresh_shard]
      rw [hr]; exact Nat.zero_le _
    · simp only [fresh_shard]
      rw [hwr, hma]; simp
    · intro _
      left
      simp only [fresh_shard]
      rw [hma]; simp
    · intro init lb h
      exact absurd h (by simp [fresh_shard])
    · exact dvd_zero _
    · intro p hp
      cases hp
  · show 0 = P.sizeof_ET * ndsts []
    simp [ndsts]
  · intro ke hke
    have : ke = ((0 : Int), indexentry.mk 0 0) := List.mem_singleton.1 hke
    refine ⟨[], items, rfl, ?_, Nat.zero_le _⟩
    rw [this]
    simp [cursor_entry, span, encode_items, ndsts]

theorem handed_mono {P : params} {H H' : List edgeptr} {ops : List op}
    {outs : List (List svertex)} (hsub : ∀ p ∈ H, p ∈ H') (h : handed P H ops outs) :
    handed P H' ops outs := by
  unfold handed at h ⊢
  exact List.Forall₂.imp (fun o out ⟨spec, hs⟩ => ⟨spec, slots_rel_mono hs hsub⟩) h

theorem read_ok_slots {nvecs : Int} {start : Nat} {slots : List svertex} {ri dw : Bool}
    (h : read_ok (op.read nvecs start slots ri dw)) :
    ∀ (j : Nat) (v : svertex), slots[j]? = some v →
      v.id = start + j ∧ v.scheduled = sched_of slots j := by
  intro j v hv
  refine ⟨h.2.2.2 j v hv, ?_⟩
  unfold sched_of
  rw [hv]

/-- A run of well-formed `read_next_vertices` calls from a state satisfying the cursor
invariant: every call returns and the invariant holds at the end; when no call disables
writes, all edge pointers handed out before and during the run are accounted for. -/
theorem run_winv {P : params} {items : List adjitem} (ops : List op) :
    ∀ (H : List edgeptr) (done : List adjitem) (s : sliding_shard),
      winv P items H done s → (∀ o ∈ ops, read_ok o) →
      ∃ H' s' outs done', run P (encode_items items) s ops = .ok (s', outs) ∧
        winv P items H' done' s' ∧
        ((∀ o ∈ ops, writes_on o) → (∀ p ∈ H, p ∈ H') ∧ handed P H' ops outs) := by
  induction ops with
  | nil =>
    intro H done s hw _
    exact ⟨H, s, [], done, rfl, hw, fun _ => ⟨fun p hp => hp, List.Forall₂.nil⟩⟩
  | cons o ops ih =>
    intro H done s hw hok
    have ho := hok o (List.mem_cons_self _ _)
    have hok' : ∀ o' ∈ ops, read_ok o' := fun o' h' => hok o' (List.mem_cons_of_mem _ h')
    cases o with
    | flush => exact absurd ho (by simp [read_ok])
    | set_offset a b c => exact absurd ho (by simp [read_ok])
    | read nvecs start slots ri dw =>
      obtain ⟨rest, hit⟩ := hw.pre
      have hcall : ∃ H1 s1 slots1 done1,
          read_next_vertices P (encode_items items) nvecs start slots ri dw s
            = .ok (s1, slots1) ∧ winv P items H1 done1 s1 ∧
          (dw = false → (∀ p ∈ H, p ∈ H1) ∧ ∃ spec, slots_rel P H1 spec slots slots1) := by
        cases dw with
        | false =>
          obtain ⟨H1, s1, slots1, done1, h1, hw1, hsub1, hrel1⟩ :=
            read_next_vertices_winv ri false hw (by simp) hit ho.1 ho.2.1 ho.2.2.1
              (read_ok_slots ho)
          exact ⟨H1, s1, slots1, done1, h1, hw1, fun _ => ⟨hsub1, _, hrel1⟩⟩
        | true =>
          obtain ⟨H1, s1, slots1, done1, h1, hw1, -, -⟩ :=
            read_next_vertices_winv ri true (winv_mono_nil hw) (fun _ => rfl) hit ho.1 ho.2.1
              ho.2.2.1 (read_ok_slots ho)
          exact ⟨H1, s1, slots1, done1, h1, hw1, fun h => by cases h⟩
      obtain ⟨H1, s1, slots1, done1, h1, hw1, hc1⟩ := hcall
      obtain ⟨H2, s2, outs, done2, h2, hw2, hc2⟩ := ih H1 done1 s1 hw1 hok'
      refine ⟨H2, s2, slots1 :: outs, done2, ?_, hw2, ?_⟩
      · unfold run exec
        simp only []
        rw [h1]
        simp only []
        rw [h2]
        rfl
      · intro hall
        have hdw : dw = false := hall _ (List.mem_cons_self _ _)
        obtain ⟨hsub1, spec, hrel1⟩ := hc1 hdw
        obtain ⟨hsub2, hh2⟩ := hc2 (fun o' h' => hall o' (List.mem_cons_of_mem _ h'))
        exact ⟨fun p hp => hsub2 p (hsub1 p hp),
          List.Forall₂.cons ⟨spec, slots_rel_mono hrel1 hsub2⟩ hh2⟩

theorem record_of_lt (r : List adjitem) : ∀ (cur v : Nat), v < cur → record_of r cur v = [] := by
  induction r with
  | nil => intro cur v _; rfl
  | cons it r ih =>
    intro cur v h
    cases it with
    | skip nz => exact ih _ _ (by omega)
    | record l dsts =>
      unfold record_of
      rw [if_neg (by omega)]
      exact ih _ _ (by omega)

theorem record_of_append (done rest : List adjitem) :
    ∀ (cur v : Nat), cur + span done ≤ v →
      record_of (done ++ rest) cur v = record_of rest (cur + span done) v := by
  induction done with
  | nil => intro cur v _; simp [span]
  | cons it d ih =>
    intro cur v h
    cases it with
    | skip nz =>
      simp only [span, item_span] at h
      show record_of (d ++ rest) (cur + (nz + 1)) v = _
      rw [ih _ _ (by omega)]
      simp only [span, item_span, Nat.add_assoc]
    | record l dsts =>
      simp only [span, item_span] at h
      have hs := span_append [] d
      show (if cur = v then dsts else record_of (d ++ rest) (cur + 1) v) = _
      rw [if_neg (by omega), ih _ _ (by omega)]
      simp only [span, item_span, Nat.add_assoc]

theorem rec_spec_fst (dsts : List Nat) : ∀ g, (rec_spec g dsts).map Prod.fst = dsts := by
  induction dsts with
  | nil => intro g; rfl
  | cons d ds ih => intro g; simp [rec_spec, ih]

theorem rec_spec_snd (dsts : List Nat) :
    ∀ g, (rec_spec g dsts).map Prod.snd = List.range' g dsts.length := by
  induction dsts with
  | nil => intro g; rfl
  | cons d ds ih => intro g; simp [rec_spec, ih, List.range']

/-- The destinations `spec_new` prescribes for a scheduled slot `j` are those of the
record of source `start + j`, when `j < nvecs`. -/
theorem spec_new_targets {nvecs : Int} {sched : Nat → Bool} {j start : Nat}
    (hs : sched j = true) (rest : List adjitem) :
    ∀ (cur g : Nat), (spec_new nvecs sched j rest ((cur : Int) - start) g).map Prod.fst
      = if (j : Int) < nvecs then record_of rest cur (start + j) else [] := by
  induction rest with
  | nil => intro cur g; simp [spec_new, record_of]
  | cons it r ih =>
    intro cur g
    unfold spec_new
    by_cases hi : (cur : Int) - start < nvecs
    · rw [if_pos hi]
      cases it with
      | skip nz =>
        have e : (cur : Int) - start + ((item_span (adjitem.skip nz) : Nat) : Int)
            = ((cur + (nz + 1) : Nat) : Int) - start := by
          simp only [item_span]; push_cast; ring
        rw [e]
        simp only [item_new, List.nil_append]
        rw [ih]
        rfl
      | record l dsts =>
        have e : (cur : Int) - start + ((item_span (adjitem.record l dsts) : Nat) : Int)
            = ((cur + 1 : Nat) : Int) - start := by
          simp only [item_span]; push_cast; ring
        rw [e, List.map_append, ih]
        by_cases hij : (cur : Int) - start = (j : Int)
        · have hc : cur = start + j := by omega
          have hj : (j : Int) < nvecs := by omega
          simp only [item_new, hij, hs, and_self, if_true, rec_spec_fst, hj]
          rw [record_of_lt r _ _ (by omega)]
          simp [record_of, hc]
        · have hc : ¬ cur = start + j := by omega
          simp only [item_new, hij, false_and, if_false, List.map_nil, List.nil_append]
          simp only [record_of, hc, if_false]
    · rw [if_neg hi]
      by_cases hj : (j : Int) < nvecs
      · rw [if_pos hj, record_of_lt _ _ _ (by omega)]
        rfl
      · rw [if_neg hj]
        rfl

theorem forall2_edge_targets {P : params} {new : List outedge} {spec : List (Nat × Nat)}
    (h : List.Forall₂ (edge_at P) new spec) :
    new.map (fun e => e.target) = spec.map Prod.fst := by
  induction h with
  | nil => rfl
  | cons hab _ ih => simp [hab.1, ih]

theorem fresh_ok {P : params} {items : List adjitem} {io : stripedio} {F rs re bs : Nat}
    (dwf : Bool) (h : shard_ok P items io F rs re bs) :
    ∃ s0, sliding_shard.construct P io F (encode_items items).length rs re bs dwf false = some s0 ∧
      winv P items [] [] s0 ∧ s0.edatafilesize = F ∧ bs ≤ s0.blocksize ∧
      s0.blocksize < bs + P.sizeof_ET ∧ P.sizeof_ET ∣ s0.blocksize ∧
      s0.edata_session = (io.nsessions : Int) ∧
      s0.iomgr.calls.countP (is_sess_malloc s0.edata_session) = 0 := by
  obtain ⟨h1, h2, h3, h4, h5, h6, h7, h8, h9, h10⟩ := h
  obtain ⟨p1, p2, p3⟩ := @pad_blocksize_spec P.sizeof_ET bs h2 (by omega)
  have hw := @fresh_winv P items io F rs re (pad_blocksize P.sizeof_ET P.sizeof_ET bs)
    h1 h2 h3 h4 h5 (by omega) (by omega) p1 h8 h9 h10
  refine ⟨_, construct_eq io F _ rs re bs dwf h2 (by omega), hw, rfl, p2, p3, p1, rfl, ?_⟩
  rcases hw.ed.front1 with h | h
  · exact h
  · have := hw.ed.front2 rfl
    rcases this with h' | h'
    · have hB : 0 < pad_blocksize P.sizeof_ET P.sizeof_ET bs := by omega
      have h'' : List.countP (is_sess_malloc
          (fresh_shard P io F (encode_items items).length rs re
            (pad_blocksize P.sizeof_ET P.sizeof_ET bs)).edata_session)
          (fresh_shard P io F (encode_items items).length rs re
            (pad_blocksize P.sizeof_ET P.sizeof_ET bs)).iomgr.calls
          * pad_blocksize P.sizeof_ET P.sizeof_ET bs ≤ 0 := h'
      rcases Nat.eq_zero_or_pos (List.countP (is_sess_malloc
          (fresh_shard P io F (encode_items items).length rs re
            (pad_blocksize P.sizeof_ET P.sizeof_ET bs)).edata_session)
          (fresh_shard P io F (encode_items items).length rs re
            (pad_blocksize P.sizeof_ET P.sizeof_ET bs)).iomgr.calls) with hz | hp
      · exact hz
      · have := Nat.mul_pos hp hB
        omega
    · have h'' : F ≤ 0 := h'
      have hF : (fresh_shard P io F (encode_items items).length rs re
          (pad_blocksize P.sizeof_ET P.sizeof_ET bs)).edatafilesize = F := rfl
      rw [hF] at h
      omega

/-- C1. `read_next_vertices` decodes the adjacency format entry by entry (`encode_item`:
a skip pair `0x00 nz` advances the source id by `nz + 1` with no destination; a record is
a count byte `n`, or `0xff` and a 32-bit little-endian count, followed by `n` 4-byte
destinations, and advances the source id by one).  Consequently, for every well-formed
shard built by the constructor (with edge data), after any run of well-formed earlier
calls that leaves the source cursor at most at `start`, a call for `nvecs` slots that are
all scheduled, slot `j` being vertex `start + j`, returns, and it appends to slot `j`
exactly the destinations of the record of source `start + j`, in file order (nothing for
`j ≥ nvecs`).  `record_of` is the record lookup: the record that follows the entries
`done` has source `span done`, and a source covered by a skip pair has no destination. -/
theorem read_next_vertices_attaches_records (P : params) (items : List adjitem)
    (io : stripedio) (F rs re bs : Nat) (dwf : Bool) (hok : shard_ok P items io F rs re bs)
    (ops : List op) (hops : ∀ o ∈ ops, read_ok o)
    (nvecs : Int) (start : Nat) (slots : List svertex) (ri dw : Bool)
    (hcall : read_ok (op.read nvecs start slots ri dw))
    (hsched : ∀ v ∈ slots, v.scheduled = true)
    (hfwd : ∀ s0 s outs,
      sliding_shard.construct P io F (encode_items items).length rs re bs dwf false = some s0 →
      run P (encode_items items) s0 ops = .ok (s, outs) → s.curvid ≤ start) :
    ∃ s0 s outs s' slots',
      sliding_shard.construct P io F (encode_items items).length rs re bs dwf false = some s0 ∧
      run P (encode_items items) s0 ops = .ok (s, outs) ∧
      read_next_vertices P (encode_items items) nvecs start slots ri dw s = .ok (s', slots') ∧
      slots'.length = slots.length ∧
      (∀ (j : Nat) (v : svertex), slots[j]? = some v →
        ∃ new, slots'[j]? = some { v with outedges := v.outedges ++ new } ∧
          new.map (fun e => e.target)
            = if (j : Int) < nvecs then record_of items 0 (start + j) else []) ∧
      (∀ (done : List adjitem) (l : Bool) (dsts : List Nat) (rest : List adjitem),
        items = done ++ adjitem.record l dsts :: rest → record_of items 0 (span done) = dsts) ∧
      (∀ (done : List adjitem) (nz : Nat) (rest : List adjitem) (v : Nat),
        items = done ++ adjitem.skip nz :: rest → span done ≤ v → v ≤ span done + nz →
        record_of items 0 v = []) := by
  obtain ⟨s0, hc, hw0, -⟩ := fresh_ok dwf hok
  obtain ⟨H, s, outs, done, hr, hw, -⟩ := run_winv ops [] [] s0 hw0 hops
  have hcv := hfwd s0 s outs hc hr
  obtain ⟨rest, hit⟩ := hw.pre
  obtain ⟨H', s', slots', done', hcall', -, -, hrel⟩ :=
    read_next_vertices_winv ri dw (winv_mono_nil hw) (fun _ => rfl) hit hcall.1 hcall.2.1
      hcall.2.2.1 (read_ok_slots hcall)
  refine ⟨s0, s, outs, s', slots', hc, hr, hcall', hrel.1, ?_, ?_, ?_⟩
  · intro j v hv
    obtain ⟨new, h1, h2⟩ := hrel.2 j v hv
    refine ⟨new, h1, ?_⟩
    have hs : sched_of slots j = true := by
      unfold sched_of
      rw [hv]
      exact hsched v (List.getElem?_mem hv)
    rw [forall2_edge_targets h2.1, spec_new_targets hs rest (span done) (ndsts done)]
    have hle : 0 + span done ≤ start + j := by rw [← hw.cv]; omega
    rw [hit, record_of_append done rest 0 (start + j) hle, Nat.zero_add]
  · intro d l dsts r h
    rw [h, record_of_append d _ 0 (span d) (by omega), Nat.zero_add]
    simp [record_of]
  · intro d nz r v h h1 h2
    rw [h, record_of_append d _ 0 v (by omega), Nat.zero_add]
    exact record_of_lt r _ _ (by omega)

theorem sample_shard_ok : shard_ok sample_params sample_items sample_io 16 0 100 1000 := by
  refine ⟨?_, by decide, rfl, by decide, by decide, by decide, by decide, by decide, by decide,
    by decide⟩
  intro c hc
  cases hc

theorem sample_read_ok : read_ok (op.read 4 0 sample_slots false false) := by
  refine ⟨by decide, by decide, by decide, ?_⟩
  intro j v hv
  match j, hv with
  | 0, hv => cases hv; rfl
  | 1, hv => cases hv; rfl
  | 2, hv => cases hv; rfl
  | 3, hv => cases hv; rfl
  | (n + 4), hv => cases hv

/-- Witness for C1: on the sample shard, a first call for the four vertices 0 to 3 returns
and gives vertex 3 the destinations 9 and 6. -/
theorem read_next_vertices_attaches_records_witness :
    shard_ok sample_params sample_items sample_io 16 0 100 1000 ∧
    read_ok (op.read 4 0 sample_slots false false) ∧
    ∃ s0 s' slots',
      sliding_shard.construct sample_params sample_io 16 (encode_items sample_items).length
        0 100 1000 false false = some s0 ∧
      read_next_vertices sample_params (encode_items sample_items) 4 0 sample_slots false false s0
        = .ok (s', slots') ∧
      ∃ new, slots'[3]? = some { sample_vertex 3 with outedges := new } ∧
        new.map (fun e => e.target) = [9, 6] := by
  refine ⟨sample_shard_ok, sample_read_ok, ?_⟩
  obtain ⟨s0, s, outs, s', slots', h1, h2, h3, -, h5, -⟩ :=
    read_next_vertices_attaches_records sample_params sample_items sample_io 16 0 100 1000 false
      sample_shard_ok [] (by simp) 4 0 sample_slots false false sample_read_ok (by decide)
      (by
        intro s0 s outs h1 h2
        cases h1
        cases h2
        decide)
  cases h2
  obtain ⟨new, h6, h7⟩ := h5 3 (sample_vertex 3) rfl
  exact ⟨s0, s', slots', h1, h3, new, h6, h7⟩

/-- Witness for C4: on the sample adjacency file every byte is below 256, and a call for
the four vertices 0 to 3 on the freshly built shard decodes records at the sources 0, 1
and 3, a strictly increasing list. -/
theorem decoded_sources_strictly_increasing_witness :
    (∀ b ∈ encode_items sample_items, b < 256) ∧
    ∃ s' outs,
      run sample_params (encode_items sample_items)
        (fresh_shard sample_params sample_io 16 21 0 100 1000)
        [op.read 4 0 sample_slots false false] = .ok (s', outs) ∧
      s'.decoded = [0, 1, 3] ∧ decoded_sorted s' := by
  refine ⟨by decide, _, _, rfl, rfl, ?_⟩
  exact ((decoded_sources_strictly_increasing sample_params (encode_items sample_items)
    (by decide)).2 [op.read 4 0 sample_slots false false]
    (fresh_shard sample_params sample_io 16 21 0 100 1000) _ _
    (by
      intro o ho
      rw [List.mem_singleton.1 ho]
      exact ⟨by decide, by decide⟩)
    rfl (by decide) ⟨List.Pairwise.nil, by intro x hx; cases hx⟩).1

/-- What the edge-data invariant gives once every block is committed synchronously and
released, as `flush` and the destructor do: no block read or allocation is added, the
writes of the session stay within the number of blocks allocated, every buffer is read at
most once and written at most once, and every pointer handed out is covered by a write
that no release of its buffer precedes. -/
theorem einv_release_all {P : params} {H : List edgeptr} {s : sliding_shard}
    (he : 0 ≤ s.edata_session) (h : einv P H s) :
    (release_prior_to_offset true false s).iomgr.calls.countP (is_sess_read s.edata_session)
      = s.iomgr.calls.countP (is_sess_read s.edata_session) ∧
    (release_prior_to_offset true false s).iomgr.calls.countP (is_sess_malloc s.edata_session)
      = s.iomgr.calls.countP (is_sess_malloc s.edata_session) ∧
    (release_prior_to_offset true false s).iomgr.calls.countP (is_sess_write s.edata_session)
      ≤ s.iomgr.calls.countP (is_sess_malloc s.edata_session) ∧
    (∀ d, d.session = s.edata_session →
      (release_prior_to_offset true false s).iomgr.calls.countP (is_read_of d) ≤ 1 ∧
      (release_prior_to_offset true false s).iomgr.calls.countP (is_write_of d) ≤ 1) ∧
    (∀ p ∈ H, ∃ d, p.base = some d ∧ d.session = s.edata_session ∧
      covered P.sizeof_ET d p.disp (release_prior_to_offset true false s).iomgr.calls) := by
  have hbc : ∀ b ∈ s.activeblocks, ∃ d, blk_commit s.edata_session b d :=
    fun b hb => blk_ok_commit he (h.blocks b hb)
  have hdist := einv_distinct h
  have hR := fun c hc => @released_buf s.edata_session true false s.edataoffset s.activeblocks hbc c hc
  have hnr : (released_calls true false s.edataoffset s.activeblocks).countP
      (is_sess_read s.edata_session) = 0 :=
    countP_false_of_mem (fun c hc => by
      obtain ⟨b, -, -, d, -, -, h1, -⟩ := hR c hc
      exact h1)
  have hnm : (released_calls true false s.edataoffset s.activeblocks).countP
      (is_sess_malloc s.edata_session) = 0 :=
    countP_false_of_mem (fun c hc => by
      obtain ⟨b, -, -, d, -, -, -, h1, -⟩ := hR c hc
      exact h1)
  rw [release_prior_eq]
  refine ⟨?_, ?_, ?_, ?_, ?_⟩
  · show (s.iomgr.calls ++ _).countP (is_sess_read s.edata_session) = _
    rw [List.countP_append, hnr, Nat.add_zero]
  · show (s.iomgr.calls ++ _).countP (is_sess_malloc s.edata_session) = _
    rw [List.countP_append, hnm, Nat.add_zero]
  · show (s.iomgr.calls ++ _).countP (is_sess_write s.edata_session) ≤ _
    rw [List.countP_append]
    have h1 := released_count_le true false s.edataoffset s.activeblocks hbc
    have h2 := h.writes
    omega
  · intro d hd
    obtain ⟨o1, o2⟩ := h.once d hd
    refine ⟨?_, ?_⟩
    · show (s.iomgr.calls ++ _).countP (is_read_of d) ≤ 1
      have hz : (released_calls true false s.edataoffset s.activeblocks).countP (is_read_of d) = 0 :=
        countP_false_of_mem (fun c hc => by
          obtain ⟨b, -, -, d', -, -, -, -, h1, -⟩ := hR c hc
          exact h1 d)
      rw [List.countP_append, hz]
      exact o1
    · show (s.iomgr.calls ++ _).countP (is_write_of d) ≤ 1
      rw [List.countP_append]
      have hw1 := released_write_once true false s.edataoffset s.activeblocks hbc hdist d
      by_cases hz : (released_calls true false s.edataoffset s.activeblocks).countP
          (is_write_of d) = 0
      · omega
      · obtain ⟨c, hc1, hc2⟩ := List.countP_pos_iff.1 (Nat.pos_of_ne_zero hz)
        obtain ⟨b, hb, -, d', hd', hbuf', -⟩ := hR c hc1
        have e3 := is_write_of_buf hc2
        have e1 : d' = d := by rw [hbuf'] at e3; exact Option.some.inj e3
        obtain ⟨d2, h1, -, -, -, -, -, -, -, -, -, -, -, h13, -⟩ := h.blocks b hb
        have : d2 = d := by
          have := hd'.1; rw [h1] at this; rw [← e1]; exact Option.some.inj this
        rw [this] at h13
        omega
  · intro p hp
    obtain ⟨d, p1, p2, p3, p4⟩ := h.ptrs p hp
    refine ⟨d, p1, p2, ?_⟩
    rcases p4 with ⟨b, hb, hbd, hbp⟩ | hcov
    · obtain ⟨d0, hd0⟩ := hbc b hb
      have e0 : d0 = d := by
        have := hd0.1; rw [hbd] at this; exact (Option.some.inj this).symm
      rw [e0] at hd0
      have hc := released_covered true s.edataoffset s.activeblocks hbc hdist hb
        (Or.inr rfl) hd0 hbp p3
      refine covered_prepend hc _ ?_
      obtain ⟨d2, h1, -, -, -, -, -, -, -, -, -, -, -, -, h14⟩ := h.blocks b hb
      have e2 : d2 = d := by rw [hbd] at h1; exact (Option.some.inj h1).symm
      rw [e2, List.countP_eq_zero] at h14
      intro c hc
      cases hr : is_release_of d c
      · rfl
      · exact absurd hr (h14 c hc)
    · exact covered_append hcov _

/-- The calls of `flush` are those of the synchronous release of all blocks, followed
by at most the release of the adjacency buffer. -/
theorem flush_calls (s : sliding_shard) :
    ∃ ext, (flush s).iomgr.calls = (release_prior_to_offset true false s).iomgr.calls ++ ext ∧
      ∀ c ∈ ext, ∃ e d, c = iocall.managed_release e d := by
  unfold flush
  simp only []
  generalize release_prior_to_offset true false s = s1
  cases hcab : s1.curadjblock with
  | none => exact ⟨[], by simp, by simp⟩
  | some b =>
    simp only []
    unfold sblock.release
    cases hd : b.data with
    | none => exact ⟨[], by simp, by simp⟩
    | some d =>
      refine ⟨[iocall.managed_release b.readdesc d], by simp [stripedio.call], ?_⟩
      intro c hc
      exact ⟨_, _, List.mem_singleton.1 hc⟩

/-- The calls of the destructor start with those of the synchronous release of all
blocks. -/
theorem destroy_calls (s : sliding_shard) :
    ∃ ext, (sliding_shard.destroy s).iomgr.calls
      = (release_prior_to_offset true false s).iomgr.calls ++ ext := by
  unfold sliding_shard.destroy
  simp only []
  generalize release_prior_to_offset true false s = s1
  have step1 : ∃ e1, (match s1.curblock with
      | some idx =>
        match s1.activeblocks[idx]? with
        | some cb => { s1 with iomgr := (cb.release s1.iomgr).2, curblock := none }
        | none => { s1 with curblock := none }
      | none => s1).iomgr.calls = s1.iomgr.calls ++ e1 := by
    cases s1.curblock with
    | none => exact ⟨[], by simp⟩
    | some idx =>
      simp only []
      cases s1.activeblocks[idx]? with
      | none => exact ⟨[], by simp⟩
      | some cb =>
        simp only []
        unfold sblock.release
        cases cb.data with
        | none => exact ⟨[], by simp⟩
        | some d => exact ⟨[iocall.managed_release cb.readdesc d], by simp [stripedio.call]⟩
  obtain ⟨e1, h1⟩ := step1
  generalize (match s1.curblock with
      | some idx =>
        match s1.activeblocks[idx]? with
        | some cb => { s1 with iomgr := (cb.release s1.iomgr).2, curblock := none }
        | none => { s1 with curblock := none }
      | none => s1) = s2 at h1 ⊢
  have step2 : ∃ e2, (match s2.curadjblock with
      | some b => { s2 with iomgr := (b.release s2.iomgr).2, curadjblock := none }
      | none => s2).iomgr.calls = s2.iomgr.calls ++ e2 := by
    cases s2.curadjblock with
    | none => exact ⟨[], by simp⟩
    | some b =>
      simp only []
      unfold sblock.release
      cases b.data with
      | none => exact ⟨[], by simp⟩
      | some d => exact ⟨[iocall.managed_release b.readdesc d], by simp [stripedio.call]⟩
  obtain ⟨e2, h2⟩ := step2
  generalize (match s2.curadjblock with
      | some b => { s2 with iomgr := (b.release s2.iomgr).2, curadjblock := none }
      | none => s2) = s3 at h2 ⊢
  by_cases hs : s3.edata_session ≥ 0
  · simp only [hs, if_true, stripedio.call]
    exact ⟨e1 ++ e2 ++ [iocall.close_session s3.edata_session]
      ++ [iocall.close_session s3.adjfile_session], by rw [h2, h1]; simp⟩
  · simp only [hs, if_false, stripedio.call]
    exact ⟨e1 ++ e2 ++ [iocall.close_session s3.adjfile_session], by rw [h2, h1]; simp⟩

theorem stat_refl (s : sliding_shard) : stat s s := ⟨rfl, rfl, rfl, rfl, rfl, rfl, rfl⟩

theorem stat_trans {a b c : sliding_shard} (h1 : stat a b) (h2 : stat b c) : stat a c :=
  ⟨h2.1.trans h1.1, h2.2.1.trans h1.2.1, h2.2.2.1.trans h1.2.2.1,
    h2.2.2.2.1.trans h1.2.2.2.1, h2.2.2.2.2.1.trans h1.2.2.2.2.1,
    h2.2.2.2.2.2.1.trans h1.2.2.2.2.2.1, h2.2.2.2.2.2.2.trans h1.2.2.2.2.2.2⟩

theorem frame6_stat {s s' : sliding_shard} (h : frame6 s s') : stat s s' := by
  obtain ⟨io, ao, cab, eo, bl, cb, rfl⟩ := h
  exact stat_refl _

theorem record_checkpoint_stat (nvecs : Int) (ri : Bool) (l : Nat) (s : sliding_shard) :
    stat s (record_checkpoint nvecs ri l s).1 := by
  rcases record_checkpoint_fields nvecs ri l s with e | e <;> rw [e]
  · exact stat_refl _
  · exact stat_refl _

theorem rnv_body_stat {P : params} {adj : List Nat} {nvecs : Int} {ri : Bool} {i i' : Int}
    {lastrec lastrec' : Nat} {s s' : sliding_shard} {pre pre' : List svertex}
    (h : rnv_body P adj nvecs ri i lastrec s pre = .ok (i', lastrec', s', pre')) :
    stat s s' := by
  unfold rnv_body at h
  simp only [] at h
  have h0 := record_checkpoint_stat nvecs ri lastrec s
  split at h
  · cases h
  · rename_i ns s1 h1
    have f1 := stat_trans h0 (frame6_stat (read_val_frame h1))
    split at h
    · split at h
      · cases h
      · rename_i nz s2 h2
        have f2 := frame6_stat (read_val_frame h2)
        cases h
        exact stat_trans f1 f2
    · split at h
      · cases h
      · rename_i n s2 h2
        have f2 := frame6_stat (read_count_ok h2)
        split at h
        · cases h
        · rename_i s3 pre3 h3
          have f3 := frame6_stat (read_record_ok h3).1
          cases h
          exact stat_trans f1 (stat_trans f2 f3)

theorem rnv_loop_stat {P : params} {adj : List Nat} {nvecs : Int} {ri : Bool} (fuel : Nat) :
    ∀ {i : Int} {lastrec : Nat} {s s' : sliding_shard} {pre pre' : List svertex},
    rnv_loop P adj nvecs ri fuel i lastrec s pre = .ok (s', pre') → stat s s' := by
  induction fuel with
  | zero =>
    intro i lastrec s s' pre pre' h
    unfold rnv_loop at h
    cases h
    exact stat_refl _
  | succ fuel ih =>
    intro i lastrec s s' pre pre' h
    unfold rnv_loop at h
    split at h
    · split at h
      · cases h
        exact stat_refl _
      · split at h
        · cases h
        · rename_i i1 l1 s1 pre1 h1
          exact stat_trans (rnv_body_stat h1) (ih h)
    · cases h
      exact stat_refl _

theorem move_close_to_stat {v : Nat} {s s' : sliding_shard} (h : move_close_to v s = .ok s') :
    stat s s' := by
  unfold move_close_to at h
  split at h
  · cases h; exact stat_refl _
  · split at h
    · cases h
    · simp only [] at h
      split at h
      · cases h
      · split at h
        · cases h
        · split at h
          · split at h <;> split at h <;> cases h <;> exact stat_refl _
          · cases h; exact stat_refl _

theorem rnv_prepare_stat {dw : Bool} {s s' : sliding_shard} (h : rnv_prepare dw s = .ok s') :
    stat s s' := by
  unfold rnv_prepare release_prior_to_offset at h
  simp only [] at h
  split at h
  · cases h
  · split at h <;> cases h <;> exact stat_refl _

theorem read_next_vertices_stat {P : params} {adj : List Nat} {nvecs : Int} {start : Nat}
    {pre pre' : List svertex} {ri dw : Bool} {s s' : sliding_shard}
    (h : read_next_vertices P adj nvecs start pre ri dw s = .ok (s', pre')) : stat s s' := by
  unfold read_next_vertices at h
  split at h
  · cases h
  · rename_i s1 h1
    have f1 : stat s s1 := by
      split at h1
      · exact move_close_to_stat h1
      · cases h1; exact stat_refl _
    split at h
    · cases h
    · rename_i s2 h2
      have f2 := rnv_prepare_stat h2
      simp only [] at h
      split at h
      · cases h
      · rename_i s3 pre3 h3
        have f3 := rnv_loop_stat _ h3
        cases h
        exact stat_trans f1 (stat_trans f2 f3)

theorem flush_stat (s : sliding_shard) : stat s (flush s) := by
  unfold flush release_prior_to_offset
  simp only []
  split <;> exact stat_refl _

theorem set_offset_stat (a v e : Nat) (s : sliding_shard) : stat s (set_offset a v e s) := by
  unfold set_offset
  simp only []
  split <;> exact stat_refl _

theorem run_stat {P : params} {adj : List Nat} (ops : List op) :
    ∀ {s s' : sliding_shard} {outs : List (List svertex)},
    run P adj s ops = .ok (s', outs) → stat s s' := by
  induction ops with
  | nil =>
    intro s s' outs h
    cases h
    exact stat_refl _
  | cons o ops ih =>
    intro s s' outs h
    unfold run at h
    split at h
    · cases h
    · rename_i s1 out h1
      have f1 : stat s s1 := by
        cases o with
        | read nvecs start pre ri dw => exact read_next_vertices_stat h1
        | flush => cases h1; exact flush_stat _
        | set_offset a v e => cases h1; exact set_offset_stat _ _ _ _
      split at h
      · cases h
      · rename_i s2 outs2 h2
        cases h
        exact stat_trans f1 (ih h2)

theorem blocks_le_ceil {m B sz F : Nat} (hB : 0 < B) (hsz : 0 < sz)
    (h : m = 0 ∨ (m - 1) * B + sz ≤ F) : m ≤ (F + B - 1) / B := by
  rw [Nat.le_div_iff_mul_le hB]
  rcases h with h | h
  · rw [h]; simp
  · rcases Nat.eq_zero_or_pos m with h0 | hp
    · rw [h0]; simp
    · have := @succ_pred_mul m B hp
      omega

/-- C9. Bounded block I/O per traversal.  For every well-formed shard whose edge-data
file has `F` bytes and every block size (the constructor pads it to a multiple `B` of
`sizeof(ET)`, `bs ≤ B < bs + sizeof(ET)`), a freshly built sliding shard on which any run
of well-formed `read_next_vertices` calls and then `flush` is executed returns from every
call, and over the whole run the block reads issued on the edge-data session are at most
`⌈F / B⌉`, the block writes issued on it are at most `⌈F / B⌉`, and every block buffer of
the session is read at most once and written at most once. -/
theorem traversal_block_io_bounded (P : params) (items : List adjitem) (io : stripedio)
    (F rs re bs : Nat) (dwf : Bool) (hok : shard_ok P items io F rs re bs)
    (ops : List op) (hops : ∀ o ∈ ops, read_ok o) :
    ∃ s0 s outs,
      sliding_shard.construct P io F (encode_items items).length rs re bs dwf false = some s0 ∧
      run P (encode_items items) s0 ops = .ok (s, outs) ∧
      P.sizeof_ET ∣ s0.blocksize ∧ bs ≤ s0.blocksize ∧ s0.blocksize < bs + P.sizeof_ET ∧
      (flush s).iomgr.calls.countP (is_sess_read s0.edata_session)
        ≤ (F + s0.blocksize - 1) / s0.blocksize ∧
      (flush s).iomgr.calls.countP (is_sess_write s0.edata_session)
        ≤ (F + s0.blocksize - 1) / s0.blocksize ∧
      (∀ d, d.session = s0.edata_session →
        (flush s).iomgr.calls.countP (is_read_of d) ≤ 1 ∧
        (flush s).iomgr.calls.countP (is_write_of d) ≤ 1) := by
  obtain ⟨s0, hc, hw0, hF, hB1, hB2, hB3, hes, -⟩ := fresh_ok dwf hok
  obtain ⟨H, s, outs, done, hr, hw, -⟩ := run_winv ops [] [] s0 hw0 hops
  obtain ⟨t1, -, t3, t4, -⟩ := run_stat ops hr
  have he : 0 ≤ s.edata_session := hw.cfg.2.2.2.2.2.2.2.2.2.2
  obtain ⟨r1, r2, r3, r4, -⟩ := einv_release_all he hw.ed
  obtain ⟨ext, hext, hrel⟩ := flush_calls s
  have hz : ∀ p : iocall → Bool, (∀ e d, p (iocall.managed_release e d) = false) →
      ext.countP p = 0 := by
    intro p hp
    apply countP_false_of_mem
    intro c hc
    obtain ⟨e, d, rfl⟩ := hrel c hc
    exact hp e d
  have hsz : 0 < P.sizeof_ET := hok.2.1
  have hB : 0 < s.blocksize := by
    have := hw.cfg.2.2.2.2.2.1; omega
  have hm := blocks_le_ceil hB hsz hw.ed.front1
  rw [t3, t4, hF, t1] at hm
  rw [t1] at r1 r2 r3 r4
  refine ⟨s0, s, outs, hc, hr, hB3, hB1, hB2, ?_, ?_, ?_⟩
  · rw [hext, List.countP_append, hz _ (fun _ _ => rfl), Nat.add_zero, r1]
    have := hw.ed.reads
    rw [t1] at this
    exact le_trans this hm
  · rw [hext, List.countP_append, hz _ (fun _ _ => rfl), Nat.add_zero]
    exact le_trans r3 hm
  · intro d hd
    obtain ⟨q1, q2⟩ := r4 d hd
    rw [hext, List.countP_append, List.countP_append, hz _ (fun _ _ => rfl),
      hz _ (fun _ _ => rfl)]
    exact ⟨q1, q2⟩

theorem forall2_getElem {α β : Type} {R : α → β → Prop} {l1 : List α} {l2 : List β}
    (h : List.Forall₂ R l1 l2) :
    ∀ (k : Nat) (a : α) (b : β), l1[k]? = some a → l2[k]? = some b → R a b := by
  induction h with
  | nil => intro k a b h1; cases h1
  | cons hab _ ih =>
    intro k a b h1 h2
    cases k with
    | zero =>
      simp only [List.getElem?_cons_zero, Option.some.injEq] at h1 h2
      rw [← h1, ← h2]; exact hab
    | succ k =>
      simp only [List.getElem?_cons_succ] at h1 h2
      exact ih k a b h1 h2

/-- C6. The active flag guarantees write-before-release.  For every well-formed shard, a
freshly built sliding shard on which any run of well-formed `read_next_vertices` calls
with writes enabled is executed returns from every call, and then: every block still in
the active list is marked active, its asynchronous commit writes the whole range
`[offset, end)` at `offset` and its synchronous commit writes the prefix of length
`min(ptr - data, end - offset)` at `offset` before releasing the buffer; every call has
appended out-edges to its slots, and for every edge value pointer handed out that way,
its block is in the active list, marked active, with the pointer below the block's read
pointer, or a write covering the pointer's bytes has already been issued with no release
of the buffer before it; and after `flush()`, and likewise after destruction, a write of
the buffer at the block's file offset covering the pointer's bytes has been issued that
no release of the buffer precedes. -/
theorem active_blocks_written_before_release (P : params) (items : List adjitem)
    (io : stripedio) (F rs re bs : Nat) (dwf : Bool) (hok : shard_ok P items io F rs re bs)
    (ops : List op) (hops : ∀ o ∈ ops, read_ok o) (hdw : ∀ o ∈ ops, writes_on o) :
    ∃ s0 s outs,
      sliding_shard.construct P io F (encode_items items).length rs re bs dwf false = some s0 ∧
      run P (encode_items items) s0 ops = .ok (s, outs) ∧
      (∀ b ∈ s.activeblocks, b.active = true ∧ ∃ d, b.data = some d ∧
        commit_calls false false b =
          [iocall.managed_pwritea_async s.edata_session d (b.end_ - b.offset) b.offset true] ∧
        commit_calls true false b =
          [iocall.managed_pwritea_now s.edata_session d (min b.ptr (b.end_ - b.offset)) b.offset,
            iocall.managed_release s.edata_session d]) ∧
      (∀ (k : Nat) (o : op) (out : List svertex), ops[k]? = some o → outs[k]? = some out →
        ∀ (j : Nat) (v : svertex), (op_slots o)[j]? = some v →
          ∃ new, out[j]? = some { v with outedges := v.outedges ++ new } ∧
            ∀ e ∈ new, ∃ p d, e.evalue = some p ∧ p.base = some d ∧
              ((∃ b ∈ s.activeblocks, b.data = some d ∧ b.active = true ∧
                  p.disp + P.sizeof_ET ≤ b.ptr) ∨
                covered P.sizeof_ET d p.disp s.iomgr.calls) ∧
              covered P.sizeof_ET d p.disp (flush s).iomgr.calls ∧
              covered P.sizeof_ET d p.disp (sliding_shard.destroy s).iomgr.calls) := by
  obtain ⟨s0, hc, hw0, -⟩ := fresh_ok dwf hok
  obtain ⟨H, s, outs, done, hr, hw, hh⟩ := run_winv ops [] [] s0 hw0 hops
  obtain ⟨-, hhand⟩ := hh hdw
  have he : 0 ≤ s.edata_session := hw.cfg.2.2.2.2.2.2.2.2.2.2
  obtain ⟨-, -, -, -, hcov⟩ := einv_release_all he hw.ed
  obtain ⟨ext1, hext1, -⟩ := flush_calls s
  obtain ⟨ext2, hext2⟩ := destroy_calls s
  refine ⟨s0, s, outs, hc, hr, ?_, ?_⟩
  · intro b hb
    obtain ⟨d, hd⟩ := blk_ok_commit he (hw.ed.blocks b hb)
    refine ⟨hd.2.1, d, hd.1, ?_, ?_⟩
    · rw [commit_calls_ok hd]; rfl
    · rw [commit_calls_ok hd]; rfl
  · intro k o out ho hout j v hv
    obtain ⟨spec, hrel⟩ := forall2_getElem hhand k o out ho hout
    obtain ⟨new, h1, h2⟩ := hrel.2 j v hv
    refine ⟨new, h1, ?_⟩
    intro e he'
    obtain ⟨p, hp1, hp2⟩ := h2.2 e he'
    obtain ⟨d, q1, -, -, q4⟩ := hw.ed.ptrs p hp2
    obtain ⟨d', q1', -, q3'⟩ := hcov p hp2
    have hdd : d' = d := by rw [q1] at q1'; exact (Option.some.inj q1').symm
    rw [hdd] at q3'
    refine ⟨p, d, hp1, q1, ?_, ?_, ?_⟩
    · rcases q4 with ⟨b, hb, hbd, hbp⟩ | hc'
      · left
        obtain ⟨d2, hd2⟩ := blk_ok_commit he (hw.ed.blocks b hb)
        exact ⟨b, hb, hbd, hd2.2.1, hbp⟩
      · exact Or.inr hc'
    · rw [hext1]; exact covered_append q3' _
    · rw [hext2]; exact covered_append q3' _

theorem item_span_pos (it : adjitem) : 1 ≤ item_span it := by
  cases it <;> simp [item_span]

theorem spec_new_skip {nvecs : Int} {sched : Nat → Bool} {j : Nat} (hnv : 0 ≤ nvecs)
    (d0 rest : List adjitem) :
    ∀ (i : Int) (g : Nat), i + (span d0 : Int) ≤ 0 →
      spec_new nvecs sched j (d0 ++ rest) i g
        = spec_new nvecs sched j rest (i + (span d0 : Int)) (g + ndsts d0) := by
  induction d0 with
  | nil => intro i g _; simp [span, ndsts]
  | cons it d ih =>
    intro i g h
    have hp := item_span_pos it
    have hs : span (it :: d) = item_span it + span d := rfl
    rw [hs] at h ⊢
    push_cast at h ⊢
    have hi : i < nvecs := by omega
    have hnew : item_new sched j i g it = [] := by
      cases it with
      | skip nz => rfl
      | record l dsts =>
        have : ¬ (i = (j : Int) ∧ sched j = true) := by
          intro h'; omega
        simp only [item_new, this, if_false]
    show spec_new nvecs sched j (it :: (d ++ rest)) i g = _
    simp only [spec_new, hi, if_true, hnew, List.nil_append]
    rw [ih _ _ (by omega), ndsts_cons]
    congr 1
    · ring
    · omega

theorem forall2_edge_view {P : params} {new : List outedge} {spec : List (Nat × Nat)}
    (h : List.Forall₂ (edge_at P) new spec) :
    new.map (fun e => (e.target, e.special, edge_file_offset e))
      = spec.map (fun dg => (dg.1, false, some (P.sizeof_ET * dg.2))) := by
  induction h with
  | nil => rfl
  | cons hab _ ih =>
    obtain ⟨h1, h2, p, d, h3, h4, h5⟩ := hab
    simp only [List.map_cons]
    rw [ih]
    simp only [h1, h2, edge_file_offset, h3, h4, h5]

/-- A freshly built shard reset with `set_offset` to the cursor that stands after the
entries `d0` satisfies the cursor invariant at that cursor. -/
theorem fresh_set_offset_winv {P : params} {items d0 rest : List adjitem} {io : stripedio}
    {F rs re B : Nat} (hw0 : winv P items [] []
      (fresh_shard P io F (encode_items items).length rs re B))
    (hm : (fresh_shard P io F (encode_items items).length rs re B).iomgr.calls.countP
      (is_sess_malloc (io.nsessions : Int)) = 0)
    (hit : items = d0 ++ rest) (hs : span d0 < 2147483648) :
    winv P items [] d0
      (set_offset (encode_items d0).length (span d0) (P.sizeof_ET * ndsts d0)
        (fresh_shard P io F (encode_items items).length rs re B)) := by
  refine ⟨hw0.cfg, ?_, ?_, hw0.valid, hw0.room, hw0.range, ⟨rest, hit⟩, rfl, rfl, hs, rfl, ?_,
    hw0.si0⟩
  · intro b hb
    cases hb
  · refine ⟨hw0.ed.fresh, ?_, List.Pairwise.nil, ?_, hw0.ed.once, hw0.ed.reads, hw0.ed.writes,
      hw0.ed.front1, ?_, ?_, Dvd.intro _ rfl, ?_⟩
    · intro b hb
      cases hb
    · intro init lb h
      exact absurd h (by simp [set_offset, fresh_shard])
    · intro _
      left
      have hcalls : (set_offset (encode_items d0).length (span d0) (P.sizeof_ET * ndsts d0)
          (fresh_shard P io F (encode_items items).length rs re B)).iomgr.calls
          = (fresh_shard P io F (encode_items items).length rs re B).iomgr.calls := rfl
      show List.countP (is_sess_malloc (io.nsessions : Int)) _ * B ≤ _
      rw [hcalls, hm]
      simp
    · intro init lb h
      exact absurd h (by simp [set_offset, fresh_shard])
    · intro p hp
      cases hp
  · intro ke hke
    have : ke = ((0 : Int), indexentry.mk 0 0) := List.mem_singleton.1 hke
    refine ⟨[], items, rfl, ?_, Nat.zero_le _⟩
    rw [this]
    simp [cursor_entry, span, encode_items, ndsts]

/-- C5. Checkpoint correctness.  For every well-formed shard and every run of well-formed
`read_next_vertices` calls on the freshly built sliding shard (calls with
`record_index = true` record checkpoints), every checkpoint `(vid, adjoff, edataoff)`
found in the sparse index after the run is the cursor at the first byte of an entry of the
adjacency file: `vid` sources, `adjoff` bytes and `edataoff / sizeof(ET)` destinations
precede it.  And a fresh sliding shard on which `set_offset(adjoff, vid, edataoff)` is
called and which then reads `nvecs` vertices from `vid` attaches to every slot the same
out-edges (same destinations, same offsets in the edge-data file) as a fresh sliding
shard that reads the same vertices from offset 0, skipping to `vid`. -/
theorem checkpoint_is_cursor (P : params) (items : List adjitem) (io : stripedio)
    (F rs re bs : Nat) (dwf : Bool) (hok : shard_ok P items io F rs re bs)
    (ops : List op) (hops : ∀ o ∈ ops, read_ok o) (vid adjoff edataoff : Nat)
    (hrec : ∀ s0 s outs,
      sliding_shard.construct P io F (encode_items items).length rs re bs dwf false = some s0 →
      run P (encode_items items) s0 ops = .ok (s, outs) →
      (-(vid : Int), indexentry.mk adjoff edataoff) ∈ s.sparse_index)
    (nvecs : Int) (slots : List svertex) (ri dw : Bool)
    (hcall : read_ok (op.read nvecs vid slots ri dw)) :
    ∃ s0 s outs d0 rest sa outa sb outb,
      sliding_shard.construct P io F (encode_items items).length rs re bs dwf false = some s0 ∧
      run P (encode_items items) s0 ops = .ok (s, outs) ∧
      items = d0 ++ rest ∧ vid = span d0 ∧ adjoff = (encode_items d0).length ∧
      edataoff = P.sizeof_ET * ndsts d0 ∧
      read_next_vertices P (encode_items items) nvecs vid slots ri dw
        (set_offset adjoff vid edataoff s0) = .ok (sa, outa) ∧
      read_next_vertices P (encode_items items) nvecs vid slots ri dw s0 = .ok (sb, outb) ∧
      ∀ (j : Nat) (v : svertex), slots[j]? = some v →
        ∃ newa newb, outa[j]? = some { v with outedges := v.outedges ++ newa } ∧
          outb[j]? = some { v with outedges := v.outedges ++ newb } ∧
          newa.map (fun e => (e.target, e.special, edge_file_offset e))
            = newb.map (fun e => (e.target, e.special, edge_file_offset e)) := by
  obtain ⟨s0, hc, hw0, -, -, -, -, hes, hm⟩ := fresh_ok dwf hok
  have hc' := construct_eq io F (encode_items items).length rs re bs dwf hok.2.1
    (by have := hok.2.2.2.2.2.2.1; omega)
  have hs0 : fresh_shard P io F (encode_items items).length rs re
      (pad_blocksize P.sizeof_ET P.sizeof_ET bs) = s0 := by
    rw [hc'] at hc; exact Option.some.inj hc
  subst hs0
  obtain ⟨H, s, outs, done, hr, hw, -⟩ := run_winv ops [] [] _ hw0 hops
  obtain ⟨d0, rest, hit, hke, -⟩ := hw.si _ (hrec _ s outs hc' hr)
  simp only [cursor_entry, Prod.mk.injEq, neg_inj, Nat.cast_inj, indexentry.mk.injEq] at hke
  obtain ⟨hv, ha, he⟩ := hke
  subst hv ha he
  have hs : span d0 < 2147483648 := by
    have h1 := hcall.1
    have h2 := hcall.2.1
    omega
  have hwa := fresh_set_offset_winv hw0 hm hit hs
  obtain ⟨Ha, sa, outa, donea, hra, -, -, hrela⟩ :=
    read_next_vertices_winv ri dw hwa (fun _ => rfl) hit hcall.1 hcall.2.1 hcall.2.2.1
      (read_ok_slots hcall)
  obtain ⟨Hb, sb, outb, doneb, hrb, -, -, hrelb⟩ :=
    read_next_vertices_winv ri dw hw0 (fun _ => rfl) (List.nil_append items).symm hcall.1
      hcall.2.1 hcall.2.2.1 (read_ok_slots hcall)
  refine ⟨_, s, outs, d0, rest, sa, outa, sb, outb, hc', hr, hit, rfl, rfl, rfl, hra, hrb, ?_⟩
  intro j v hv
  obtain ⟨newa, a1, a2⟩ := hrela.2 j v hv
  obtain ⟨newb, b1, b2⟩ := hrelb.2 j v hv
  refine ⟨newa, newb, a1, b1, ?_⟩
  rw [forall2_edge_view a2.1, forall2_edge_view b2.1]
  have e1 : spec_new nvecs (sched_of slots) j items (((span [] : Nat) : Int) - (span d0 : Int))
      (ndsts []) = spec_new nvecs (sched_of slots) j rest ((span d0 : Int) - (span d0 : Int))
      (ndsts d0) := by
    have hsk := @spec_new_skip nvecs (sched_of slots) j hcall.1 d0 rest
      (-(span d0 : Int)) 0 (by omega)
    rw [← hit] at hsk
    have z1 : ((span [] : Nat) : Int) - (span d0 : Int) = -(span d0 : Int) := by
      simp [span]
    have z2 : (span d0 : Int) - (span d0 : Int) = -(span d0 : Int) + (span d0 : Int) := by ring
    have z3 : ndsts [] = 0 := rfl
    rw [z1, z2, z3, hsk, Nat.zero_add]
  beta_reduce
  rw [e1]

theorem sample_ops_ok :
    ∀ o ∈ [op.read 1 0 [sample_vertex 0] false false, op.read 1 3 [sample_vertex 3] true false],
      read_ok o := by
  intro o ho
  simp only [List.mem_cons, List.mem_singleton, List.not_mem_nil, or_false] at ho
  rcases ho with rfl | rfl
  · refine ⟨by decide, by decide, by decide, ?_⟩
    intro j v hv
    match j, hv with
    | 0, hv => cases hv; rfl
    | (n + 1), hv => cases hv
  · refine ⟨by decide, by decide, by decide, ?_⟩
    intro j v hv
    match j, hv with
    | 0, hv => cases hv; rfl
    | (n + 1), hv => cases hv

theorem sample_read_ok_one :
    read_ok (op.read 3 1 [sample_vertex 1, sample_vertex 2, sample_vertex 3] false false) := by
  refine ⟨by decide, by decide, by decide, ?_⟩
  intro j v hv
  match j, hv with
  | 0, hv => cases hv; rfl
  | 1, hv => cases hv; rfl
  | 2, hv => cases hv; rfl
  | (n + 3), hv => cases hv

/-- Witness for C5: on the sample shard, a call for vertex 0 followed by a call for
vertex 3 with `record_index = true` records the checkpoint `(1, 5, 4)`; it is the cursor
after one entry, and reading the vertices 1 to 3 after `set_offset(5, 1, 4)` and from
offset 0 both return. -/
theorem checkpoint_is_cursor_witness :
    shard_ok sample_params sample_items sample_io 16 0 100 1000 ∧
    read_ok (op.read 3 1 [sample_vertex 1, sample_vertex 2, sample_vertex 3] false false) ∧
    ∃ d0 rest, sample_items = d0 ++ rest ∧ 1 = span d0 ∧ 5 = (encode_items d0).length ∧
      4 = sample_params.sizeof_ET * ndsts d0 := by
  refine ⟨sample_shard_ok, sample_read_ok_one, ?_⟩
  obtain ⟨s0, s, outs, d0, rest, sa, outa, sb, outb, -, -, h3, h4, h5, h6, -⟩ :=
    checkpoint_is_cursor sample_params sample_items sample_io 16 0 100 1000 false
      sample_shard_ok
      [op.read 1 0 [sample_vertex 0] false false, op.read 1 3 [sample_vertex 3] true false]
      sample_ops_ok 1 5 4
      (by
        intro s0 s outs h1 h2
        cases h1
        cases h2
        decide)
      3 [sample_vertex 1, sample_vertex 2, sample_vertex 3] false false sample_read_ok_one
  exact ⟨d0, rest, h3, h4, h5, h6⟩

/-- Witness for C6: on the sample shard, after a call for the vertices 0 to 3 with writes
enabled every block of the active list is marked active. -/
theorem active_blocks_written_before_release_witness :
    shard_ok sample_params sample_items sample_io 16 0 100 1000 ∧
    (∀ o ∈ [op.read 4 0 sample_slots false false], read_ok o) ∧
    (∀ o ∈ [op.read 4 0 sample_slots false false], writes_on o) ∧
    ∃ s0 s outs,
      sliding_shard.construct sample_params sample_io 16 (encode_items sample_items).length
        0 100 1000 false false = some s0 ∧
      run sample_params (encode_items sample_items) s0 [op.read 4 0 sample_slots false false]
        = .ok (s, outs) ∧
      ∀ b ∈ s.activeblocks, b.active = true := by
  have h1 : ∀ o ∈ [op.read 4 0 sample_slots false false], read_ok o := by
    intro o ho
    rw [List.mem_singleton.1 ho]
    exact sample_read_ok
  have h2 : ∀ o ∈ [op.read 4 0 sample_slots false false], writes_on o := by
    intro o ho
    rw [List.mem_singleton.1 ho]
    rfl
  refine ⟨sample_shard_ok, h1, h2, ?_⟩
  obtain ⟨s0, s, outs, a1, a2, a3, -⟩ :=
    active_blocks_written_before_release sample_params sample_items sample_io 16 0 100 1000
      false sample_shard_ok [op.read 4 0 sample_slots false false] h1 h2
  exact ⟨s0, s, outs, a1, a2, fun b hb => (a3 b hb).1⟩

/-- Witness for C9: on the sample shard with a block size of eight bytes, a call for the
vertices 0 to 3 and then `flush` issue at most `⌈16 / 8⌉` block reads and as many block
writes on the edge-data session. -/
theorem traversal_block_io_bounded_witness :
    shard_ok sample_params sample_items sample_io 16 0 100 8 ∧
    (∀ o ∈ [op.read 4 0 sample_slots false false], read_ok o) ∧
    ∃ s0 s outs,
      sliding_shard.construct sample_params sample_io 16 (encode_items sample_items).length
        0 100 8 false false = some s0 ∧
      run sample_params (encode_items sample_items) s0 [op.read 4 0 sample_slots false false]
        = .ok (s, outs) ∧
      (flush s).iomgr.calls.countP (is_sess_read s0.edata_session)
        ≤ (16 + s0.blocksize - 1) / s0.blocksize ∧
      (flush s).iomgr.calls.countP (is_sess_write s0.edata_session)
        ≤ (16 + s0.blocksize - 1) / s0.blocksize := by
  have h0 : shard_ok sample_params sample_items sample_io 16 0 100 8 := by
    refine ⟨?_, by decide, rfl, by decide, by decide, by decide, by decide, by decide,
      by decide, by decide⟩
    intro c hc
    cases hc
  have h1 : ∀ o ∈ [op.read 4 0 sample_slots false false], read_ok o := by
    intro o ho
    rw [List.mem_singleton.1 ho]
    exact sample_read_ok
  refine ⟨h0, h1, ?_⟩
  obtain ⟨s0, s, outs, a1, a2, -, -, -, a6, a7, -⟩ :=
    traversal_block_io_bounded sample_params sample_items sample_io 16 0 100 8 false h0
      [op.read 4 0 sample_slots false false] h1
  exact ⟨s0, s, outs, a1, a2, a6, a7⟩

/-- C2, evaluation at the failing input.  On the shard `ff_items` (destinations 7, 8, 9, 6
in file order, four-byte edge values) the run `ff_ops` returns from every call.  The
second call, which skips sources forward, attaches destination 6 (number 3 of the file)
with a pointer to offset 12 of the edge-data file.  The last call, which fast-forwards
through the sparse index inside the live block, attaches the same destination with a
pointer to offset 8, the record of destination 9. -/
theorem fast_forward_hands_out_stale_pointer :
    ∃ s0 s outs,
      sliding_shard.construct sample_params sample_io 16 (encode_items ff_items).length
        0 100 1000 false false = some s0 ∧
      run sample_params (encode_items ff_items) s0 ff_ops = .ok (s, outs) ∧
      edge_views outs =
        [[(0, [(7, some 0)]), (1, [(8, some 4)])], [(3, [(6, some 12)])], [], [],
          [(0, [(7, some 0)])], [(3, [(6, some 8)])]] ∧
      s.sparse_index = [(-2, indexentry.mk 10 8), (0, indexentry.mk 0 0)] :=
  ⟨_, _, _, rfl, rfl, rfl, rfl⟩

theorem skip_items_valid : ∀ (fuel k : Nat), ∀ it ∈ skip_items fuel k, valid_item it := by
  intro fuel
  induction fuel with
  | zero => intro k it h; cases h
  | succ fuel ih =>
    intro k it h
    unfold skip_items at h
    by_cases hk : k = 0
    · rw [if_pos hk] at h; cases h
    · rw [if_neg hk] at h
      rcases List.mem_cons.1 h with h | h
      · rw [h]
        show min 254 (k - 1) < 256
        omega
      · exact ih _ it h

theorem amended_items_valid (srcs : List (Nat × List Nat)) :
    ∀ next, srcs_ok next srcs → ∀ it ∈ amended_items next srcs, valid_item it := by
  induction srcs with
  | nil => intro next _ it h; cases h
  | cons ud r ih =>
    intro next hs it h
    obtain ⟨u, dsts⟩ := ud
    obtain ⟨h1, h2, h3, h4, h5⟩ := hs
    unfold amended_items at h
    rcases List.mem_append.1 h with h | h
    · exact skip_items_valid _ _ it h
    · rcases List.mem_cons.1 h with h | h
      · rw [h]
        by_cases hl : 255 ≤ dsts.length
        · simp only [hl, decide_True]
          exact ⟨h4, h3⟩
        · simp only [hl, decide_False]
          exact ⟨h4, h2, by omega⟩
      · exact ih _ h5 it h

theorem record_of_skip_items (rest : List adjitem) (v : Nat) :
    ∀ (fuel k cur : Nat), k ≤ fuel →
      record_of (skip_items fuel k ++ rest) cur v = record_of rest (cur + k) v := by
  intro fuel
  induction fuel with
  | zero =>
    intro k cur hk
    have : k = 0 := by omega
    subst this
    rfl
  | succ fuel ih =>
    intro k cur hk
    unfold skip_items
    by_cases h0 : k = 0
    · rw [if_pos h0, h0]; rfl
    · rw [if_neg h0]
      show record_of (skip_items fuel (k - 1 - min 254 (k - 1)) ++ rest)
        (cur + (min 254 (k - 1) + 1)) v = _
      rw [ih _ _ (by omega)]
      congr 1
      omega

theorem record_of_amended (srcs : List (Nat × List Nat)) (v : Nat) :
    ∀ next, srcs_ok next srcs → record_of (amended_items next srcs) next v = lookup_src srcs v := by
  induction srcs with
  | nil => intro next _; rfl
  | cons ud r ih =>
    intro next hs
    obtain ⟨u, dsts⟩ := ud
    obtain ⟨h1, h2, h3, h4, h5⟩ := hs
    unfold amended_items
    rw [record_of_skip_items _ v _ _ next (le_refl _)]
    have e : next + (u - next) = u := by omega
    rw [e]
    show (if u = v then dsts else record_of (amended_items (u + 1) r) (u + 1) v) = _
    rw [ih _ h5]
    rfl

/-- C3, counterexample.  Sources 0 (destination 1) and 2 (destination 3) encoded as
section 3 prescribes: the gap between 0 and 2 is written as the skip pair `0x00 0x01`
(`u - u' - 1 = 1`).  The decoder of `read_next_vertices`, on a freshly built shard and
four slots, advances the source id by `nz + 1 = 2` at that pair and attaches destination 3
to source 3: the pairs read back are `(0, 1)` and `(3, 3)`, not `(0, 1)` and `(2, 3)`. -/
theorem spec_skip_byte_round_trip_fails :
    ∃ s0 s' slots',
      sliding_shard.construct sample_params sample_io 8 (spec_encode 0 gap_srcs).length
        0 100 1000 false false = some s0 ∧
      read_next_vertices sample_params (spec_encode 0 gap_srcs) 4 0 sample_slots false false s0
        = .ok (s', slots') ∧
      decoded_pairs slots' = [(0, 1), (3, 3)] ∧ decoded_pairs slots' ≠ src_pairs gap_srcs :=
  ⟨_, _, _, rfl, rfl, rfl, by decide⟩

/-- C3, amended.  Round trip of the adjacency codec with the skip byte the decoder
expects: for every list of sources in ascending order with their destinations (at least
one and fewer than `2^31` per source, 32-bit values), encoded with skip pairs whose second
byte is the number of skipped sources minus one (at most 254, so a pair covers up to 255
sources), a one-byte count below 255 or `0xff` and a 32-bit count, and the destinations,
the decoder of `read_next_vertices` on a freshly built shard (source cursor at 0) and
scheduled slots for the vertices `0 .. nvecs - 1` returns, and attaches to every slot
`j < nvecs` exactly the destinations listed for source `j`, in order, and nothing to a
source that is not listed. -/
theorem amended_codec_round_trip (P : params) (io : stripedio) (F rs re bs : Nat) (dwf : Bool)
    (srcs : List (Nat × List Nat)) (hsrcs : srcs_ok 0 srcs)
    (hio : io_wf io) (hsz : 0 < P.sizeof_ET) (hsp : P.sizeof_ET = P.sizeof_ETspecial)
    (hA : (encode_items (amended_items 0 srcs)).length < 4611686018427387904)
    (hF : F < 4611686018427387904) (hbs : 4 ≤ bs)
    (hB : bs + P.sizeof_ET < 4611686018427387904)
    (hroom : P.sizeof_ET * ndsts (amended_items 0 srcs) ≤ F)
    (hrange : ∀ d ∈ all_dsts (amended_items 0 srcs), rs ≤ d ∧ d ≤ re)
    (nvecs : Int) (slots : List svertex) (ri dw : Bool)
    (hcall : read_ok (op.read nvecs 0 slots ri dw))
    (hsched : ∀ v ∈ slots, v.scheduled = true) :
    ∃ s0 s' slots',
      sliding_shard.construct P io F (encode_items (amended_items 0 srcs)).length rs re bs
        dwf false = some s0 ∧
      read_next_vertices P (encode_items (amended_items 0 srcs)) nvecs 0 slots ri dw s0
        = .ok (s', slots') ∧
      slots'.length = slots.length ∧
      ∀ (j : Nat) (v : svertex), slots[j]? = some v →
        ∃ new, slots'[j]? = some { v with outedges := v.outedges ++ new } ∧
          new.map (fun e => e.target) = if (j : Int) < nvecs then lookup_src srcs j else [] := by
  have hok : shard_ok P (amended_items 0 srcs) io F rs re bs :=
    ⟨hio, hsz, hsp, hA, hF, hbs, hB, amended_items_valid srcs 0 hsrcs, hroom, hrange⟩
  obtain ⟨s0, hc, hw0, -⟩ := fresh_ok dwf hok
  obtain ⟨H', s', slots', done', hcall', -, -, hrel⟩ :=
    read_next_vertices_winv ri dw hw0 (fun _ => rfl)
      (List.nil_append (amended_items 0 srcs)).symm hcall.1 hcall.2.1 hcall.2.2.1
      (read_ok_slots hcall)
  refine ⟨s0, s', slots', hc, hcall', hrel.1, ?_⟩
  intro j v hv
  obtain ⟨new, h1, h2⟩ := hrel.2 j v hv
  refine ⟨new, h1, ?_⟩
  have hs : sched_of slots j = true := by
    unfold sched_of
    rw [hv]
    exact hsched v (List.getElem?_mem hv)
  have ht := @spec_new_targets nvecs (sched_of slots) j 0 hs (amended_items 0 srcs) 0 0
  rw [forall2_edge_targets h2.1]
  have e : ((span ([] : List adjitem) : Nat) : Int) - ((0 : Nat) : Int)
      = ((0 : Nat) : Int) - ((0 : Nat) : Int) := rfl
  beta_reduce
  rw [e, show ndsts ([] : List adjitem) = 0 from rfl, ht, Nat.zero_add,
    record_of_amended srcs j 0 hsrcs]

/-- Witness for the amended C3: the sources 0 (destination 1) and 2 (destination 3) are
read back at the sources 0 and 2. -/
theorem amended_codec_round_trip_witness :
    srcs_ok 0 gap_srcs ∧ read_ok (op.read 4 0 sample_slots false false) ∧
    ∃ s0 s' slots',
      sliding_shard.construct sample_params sample_io 8
        (encode_items (amended_items 0 gap_srcs)).length 0 100 1000 false false = some s0 ∧
      read_next_vertices sample_params (encode_items (amended_items 0 gap_srcs)) 4 0
        sample_slots false false s0 = .ok (s', slots') ∧
      ∃ new, slots'[2]? = some { sample_vertex 2 with outedges := new } ∧
        new.map (fun e => e.target) = [3] := by
  have h0 : srcs_ok 0 gap_srcs := by
    refine ⟨le_refl _, by decide, by decide, by decide, ?_, by decide, by decide, by decide,
      trivial⟩
    decide
  refine ⟨h0, sample_read_ok, ?_⟩
  obtain ⟨s0, s', slots', h1, h2, -, h4⟩ :=
    amended_codec_round_trip sample_params sample_io 8 0 100 1000 false gap_srcs h0
      (by intro c hc; cases hc) (by decide) rfl (by decide) (by decide) (by decide) (by decide)
      (by decide) (by decide) 4 sample_slots false false sample_read_ok (by decide)
  obtain ⟨new, h5, h6⟩ := h4 2 (sample_vertex 2) rfl
  exact ⟨s0, s', slots', h1, h2, new, h5, h6⟩

theorem fgets_take_cons {c : Nat} (h : c ≠ 10) (k : Nat) (cs : List Nat) :
    fgets_take (k + 1) (c :: cs) = (c :: (fgets_take k cs).1, (fgets_take k cs).2) := by
  rw [fgets_take, if_neg h]

theorem fgets_take_line (rest : List Nat) :
    ∀ (text : List Nat) (k : Nat), (∀ c ∈ text, c ≠ 10) → text.length < k →
      fgets_take k (text ++ 10 :: rest) = (text ++ [10], rest) := by
  intro text
  induction text with
  | nil =>
    intro k _ hk
    obtain ⟨k', rfl⟩ : ∃ k', k = k' + 1 := ⟨k - 1, by simp at hk; omega⟩
    simp [fgets_take]
  | cons c t ih =>
    intro k hc hk
    obtain ⟨k', rfl⟩ : ∃ k', k = k' + 1 := ⟨k - 1, by simp at hk; omega⟩
    have hne : c ≠ 10 := hc c (List.mem_cons_self _ _)
    have := ih k' (fun x hx => hc x (List.mem_cons_of_mem _ hx))
      (by simp at hk; omega)
    rw [List.cons_append, fgets_take_cons hne, this]
    rfl

theorem fgets_take_last :
    ∀ (text : List Nat) (k : Nat), (∀ c ∈ text, c ≠ 10) → text.length ≤ k →
      fgets_take k text = (text, []) := by
  intro text
  induction text with
  | nil =>
    intro k _ _
    cases k <;> rfl
  | cons c t ih =>
    intro k hc hk
    obtain ⟨k', rfl⟩ : ∃ k', k = k' + 1 := ⟨k - 1, by simp at hk; omega⟩
    have hne : c ≠ 10 := hc c (List.mem_cons_self _ _)
    have := ih k' (fun x hx => hc x (List.mem_cons_of_mem _ hx))
      (by simp at hk; omega)
    rw [fgets_take_cons hne, this]

theorem takeWhile_append_all {p : Nat → Bool} (l1 l2 : List Nat) (h : ∀ c ∈ l1, p c = true) :
    (l1 ++ l2).takeWhile p = l1 ++ l2.takeWhile p := by
  induction l1 with
  | nil => rfl
  | cons c t ih =>
    simp only [List.cons_append, List.takeWhile_cons, h c (List.mem_cons_self _ _), if_true]
    rw [ih (fun x hx => h x (List.mem_cons_of_mem _ hx))]

theorem dropWhile_append_all {p : Nat → Bool} (l1 l2 : List Nat) (h : ∀ c ∈ l1, p c = true) :
    (l1 ++ l2).dropWhile p = l2.dropWhile p := by
  induction l1 with
  | nil => rfl
  | cons c t ih =>
    simp only [List.cons_append, List.dropWhile_cons, h c (List.mem_cons_self _ _), if_true]
    exact ih (fun x hx => h x (List.mem_cons_of_mem _ hx))

/-- `strtok` on separators, a token, and then the end of the string or a separator: the
token, and the position after the separator that ends it. -/
theorem strtok_token (delims pre tok : List Nat) (hpre : ∀ c ∈ pre, c ∈ delims)
    (htok : ∀ c ∈ tok, c ∉ delims) (hne : tok ≠ []) :
    strtok delims (pre ++ tok) = some (tok, []) ∧
    ∀ d post, d ∈ delims → strtok delims (pre ++ tok ++ d :: post) = some (tok, post) := by
  obtain ⟨t0, ts, rfl⟩ : ∃ t0 ts, tok = t0 :: ts := by
    cases tok with
    | nil => exact absurd rfl hne
    | cons a b => exact ⟨a, b, rfl⟩
  have h0 : t0 ∉ delims := htok t0 (List.mem_cons_self _ _)
  have hp : ∀ c ∈ pre, (fun c => decide (c ∈ delims)) c = true := by
    intro c hc; simpa using hpre c hc
  have ht : ∀ c ∈ t0 :: ts, (fun c => decide (c ∉ delims)) c = true := by
    intro c hc; simpa using htok c hc
  have hdrop : ∀ R : List Nat,
      (pre ++ (t0 :: ts ++ R)).dropWhile (fun c => decide (c ∈ delims)) = t0 :: (ts ++ R) := by
    intro R
    rw [dropWhile_append_all pre _ hp]
    simp only [List.cons_append, List.dropWhile_cons, h0, decide_False, Bool.false_eq_true,
      if_false]
  refine ⟨?_, ?_⟩
  · have hd := hdrop []
    have e1 := takeWhile_append_all (t0 :: ts) [] ht
    have e2 := dropWhile_append_all (t0 :: ts) [] ht
    simp only [List.append_nil, List.takeWhile_nil, List.dropWhile_nil] at hd e1 e2
    unfold strtok
    rw [hd]
    simp only []
    rw [e1, e2]
    rfl
  · intro d post hd
    have hdr := hdrop (d :: post)
    have hdd : decide (d ∉ delims) = false := by simpa using hd
    have e1 := takeWhile_append_all (t0 :: ts) (d :: post) ht
    have e2 := dropWhile_append_all (t0 :: ts) (d :: post) ht
    rw [List.takeWhile_cons, hdd] at e1
    rw [List.dropWhile_cons, hdd] at e2
    simp only [Bool.false_eq_true, if_false, List.append_nil] at e1 e2
    unfold strtok
    rw [List.append_assoc, hdr]
    simp only []
    rw [← List.cons_append, e1, e2]
    rfl

theorem digits_value_eq (a : List Nat) (h : ∀ c ∈ a, 48 ≤ c ∧ c ≤ 57) :
    ∀ acc, digits_value acc a = a.foldl (fun acc c => acc * 10 + (c - 48)) acc := by
  induction a with
  | nil => intro acc; rfl
  | cons c t ih =>
    intro acc
    have hc := h c (List.mem_cons_self _ _)
    simp only [digits_value, hc, and_self, if_true, List.foldl_cons]
    exact ih (fun x hx => h x (List.mem_cons_of_mem _ hx)) _

theorem atoi_number {a : List Nat} (h : number_ok a) : atoi a = some ((decimal a : Nat) : Int) := by
  obtain ⟨hne, hd, hv⟩ := h
  obtain ⟨c, t, rfl⟩ : ∃ c t, a = c :: t := by
    cases a with
    | nil => exact absurd rfl hne
    | cons x y => exact ⟨x, y, rfl⟩
  have hc := hd c (List.mem_cons_self _ _)
  have hsp : isspace c = false := by
    unfold isspace
    simp only [decide_eq_false_iff_not]
    omega
  have hdv : digits_value 0 (c :: t) = decimal (c :: t) := digits_value_eq _ hd 0
  have hm : (match c :: t with
      | 45 :: r => -((digits_value 0 r : Nat) : Int)
      | 43 :: r => ((digits_value 0 r : Nat) : Int)
      | r => ((digits_value 0 r : Nat) : Int)) = ((digits_value 0 (c :: t) : Nat) : Int) := by
    split
    · rename_i heq
      cases heq
      omega
    · rename_i heq
      cases heq
      omega
    · rfl
  unfold atoi
  simp only [List.dropWhile_cons, hsp, Bool.false_eq_true, if_false]
  rw [hm, hdv]
  have : (-2147483648 : Int) ≤ ((decimal (c :: t) : Nat) : Int) ∧
      ((decimal (c :: t) : Nat) : Int) ≤ 2147483647 := by
    constructor <;> omega
  simp only [this, and_self, if_true]

theorem int_to_vid_nat {n : Nat} (h : n ≤ 2147483647) : int_to_vid (n : Int) = n := by
  unfold int_to_vid
  omega

theorem fixline_head (m : Nat) (X : List Nat) (hm0 : m ≠ 0) (hm10 : m ≠ 10) :
    ∃ s', FIXLINE (m :: X) = some s' ∧ s'.head? = some m := by
  have hc : cstr (m :: X) = m :: X.takeWhile (fun c => c ≠ 0) := by
    unfold cstr
    simp [List.takeWhile_cons, hm0]
  unfold FIXLINE
  rw [hc]
  cases hY : X.takeWhile (fun c => decide (c ≠ 0)) with
  | nil =>
    simp only [List.getLast?_singleton, hm10, if_false]
    exact ⟨_, rfl, rfl⟩
  | cons y Y =>
    cases hl : (m :: y :: Y).getLast? with
    | none => simp at hl
    | some z =>
      simp only []
      by_cases hz : z = 10
      · rw [if_pos hz]
        exact ⟨_, rfl, by simp [List.dropLast]⟩
      · rw [if_neg hz]
        exact ⟨_, rfl, rfl⟩

theorem fixline_text {T : List Nat} (hne : T ≠ []) (h : ∀ c ∈ T, c ≠ 0 ∧ c ≠ 10) :
    FIXLINE (T ++ [10]) = some T ∧ FIXLINE T = some T := by
  have hT : cstr T = T := by
    unfold cstr
    rw [List.takeWhile_eq_self_iff]
    intro c hc
    simpa using (h c hc).1
  have hT1 : cstr (T ++ [10]) = T ++ [10] := by
    unfold cstr
    rw [List.takeWhile_eq_self_iff]
    intro c hc
    rcases List.mem_append.1 hc with h1 | h1
    · simpa using (h c h1).1
    · rw [List.mem_singleton.1 h1]; decide
  refine ⟨?_, ?_⟩
  · unfold FIXLINE
    rw [hT1]
    simp
  · unfold FIXLINE
    rw [hT]
    cases hl : T.getLast? with
    | none => exact absurd (List.getLast?_eq_none_iff.1 hl) hne
    | some z =>
      have hz : z ∈ T := List.mem_of_getLast?_eq_some hl
      simp only [(h z hz).2, if_false]

theorem number_token {a : List Nat} (h : number_ok a) :
    a ≠ [] ∧ (∀ c ∈ a, c ∉ [9, 32]) ∧ (∀ c ∈ a, c ≠ 0 ∧ c ≠ 10) ∧
      atoi a = some ((decimal a : Nat) : Int) ∧ int_to_vid ((decimal a : Nat) : Int) = decimal a := by
  refine ⟨h.1, ?_, ?_, atoi_number h, int_to_vid_nat h.2.2⟩
  · intro c hc
    have := h.2.1 c hc
    simp only [List.mem_cons, List.mem_singleton, List.not_mem_nil, or_false]
    omega
  · intro c hc
    have := h.2.1 c hc
    omega

theorem seps_split {sep : List Nat} (h : seps_ok sep) :
    ∃ d sep', sep = d :: sep' ∧ d ∈ [9, 32] ∧ (∀ c ∈ sep', c ∈ [9, 32]) ∧
      ∀ c ∈ sep, c ≠ 0 ∧ c ≠ 10 := by
  obtain ⟨hne, hs⟩ := h
  cases sep with
  | nil => exact absurd rfl hne
  | cons d sep' =>
    refine ⟨d, sep', rfl, ?_, ?_, ?_⟩
    · have := hs d (List.mem_cons_self _ _)
      simp only [List.mem_cons, List.mem_singleton, List.not_mem_nil, or_false]
      exact this
    · intro c hc
      have := hs c (List.mem_cons_of_mem _ hc)
      simp only [List.mem_cons, List.mem_singleton, List.not_mem_nil, or_false]
      exact this
    · intro c hc
      have := hs c hc
      omega

theorem head_number {a : List Nat} (h : number_ok a) (R : List Nat) :
    ∃ c, (a ++ R).head? = some c ∧ 48 ≤ c := by
  obtain ⟨hne, hd, -⟩ := h
  cases a with
  | nil => exact absurd rfl hne
  | cons c t => exact ⟨c, rfl, (hd c (List.mem_cons_self _ _)).1⟩

/-- The body of the loop on an edge line `a sep b` followed by `R`, the rest of the line
as the third `strtok` sees it: `R` is empty, or a separator and a value. -/
theorem convert_line_edge {V : Type} (parse : List Nat → V) (dflt : V) {a sep b : List Nat}
    (ha : number_ok a) (hs : seps_ok sep) (hb : number_ok b) (R : List Nat) (val : V)
    (hR : (R = [] ∧ val = dflt) ∨
      ∃ sep2 v, R = sep2 ++ v ∧ seps_ok sep2 ∧ v ≠ [] ∧ (∀ c ∈ v, c ∉ [9, 32]) ∧
        val = parse v) :
    convert_line parse dflt (a ++ sep ++ b ++ R) =
      some (if decimal a ≠ decimal b then some (decimal a, decimal b, val) else none) := by
  obtain ⟨a1, a2, -, a4, a5⟩ := number_token ha
  obtain ⟨b1, b2, -, b4, b5⟩ := number_token hb
  obtain ⟨d, sep', rfl, hd, hsep', -⟩ := seps_split hs
  obtain ⟨c, hc, hc48⟩ := head_number ha (d :: sep' ++ b ++ R)
  have hhead : (a ++ d :: sep' ++ b ++ R).head? = some c := by
    rw [List.append_assoc, List.append_assoc]; rw [List.append_assoc] at hc; exact hc
  have h35 : ¬ (some c = some 35) := by
    intro h; have := Option.some.inj h; omega
  have h37 : ¬ (some c = some 37) := by
    intro h; have := Option.some.inj h; omega
  have t1 : strtok [9, 32] (a ++ d :: sep' ++ b ++ R) = some (a, sep' ++ b ++ R) := by
    have := (strtok_token [9, 32] [] a (by intro c hc; cases hc) a2 a1).2 d (sep' ++ b ++ R) hd
    simpa [List.append_assoc] using this
  have t2 : ∃ s2, strtok [9, 32] (sep' ++ b ++ R) = some (b, s2) ∧
      (match strtok [9, 32] s2 with
        | some (t3, _) => parse t3
        | none => dflt) = val := by
    rcases hR with ⟨rfl, rfl⟩ | ⟨sep2, v, rfl, hs2, hv1, hv2, rfl⟩
    · refine ⟨[], ?_, rfl⟩
      have := (strtok_token [9, 32] sep' b hsep' b2 b1).1
      simpa using this
    · obtain ⟨d2, sep2', rfl, hd2, hsep2', -⟩ := seps_split hs2
      refine ⟨sep2' ++ v, ?_, ?_⟩
      · have := (strtok_token [9, 32] sep' b hsep' b2 b1).2 d2 (sep2' ++ v) hd2
        simpa [List.append_assoc] using this
      · rw [(strtok_token [9, 32] sep2' v hsep2' hv2 hv1).1]
  obtain ⟨s2, t2a, t2b⟩ := t2
  unfold convert_line
  rw [hhead]
  simp only [h35, h37, if_false]
  rw [t1]
  simp only []
  rw [a4]
  simp only []
  rw [t2a]
  simp only []
  rw [b4]
  simp only []
  rw [t2b, a5, b5]
  by_cases hne : decimal a ≠ decimal b
  · simp only [hne, not_false_eq_true, if_true, ne_eq]
  · simp only [hne, if_false]

/-- One line of a well-formed edge list, with or without its newline, as `fgets` hands
it over: `FIXLINE` succeeds and the body of the loop makes the call the claim prescribes
for the line. -/
theorem line_step {V : Type} (parse : List Nat → V) (dflt : V) {l : srcline} (h : line_ok l) :
    (∃ s', FIXLINE (l.render ++ [10]) = some s' ∧
      convert_line parse dflt s' = some (expected_call parse dflt l)) ∧
    (∃ s', FIXLINE l.render = some s' ∧
      convert_line parse dflt s' = some (expected_call parse dflt l)) := by
  cases l with
  | comment mark text =>
    obtain ⟨hm, -⟩ := h
    have hm0 : mark ≠ 0 := by omega
    have hm10 : mark ≠ 10 := by omega
    have hcl : ∀ s' : List Nat, s'.head? = some mark →
        convert_line parse dflt s' = some (expected_call parse dflt (srcline.comment mark text)) := by
      intro s' hs'
      unfold convert_line
      rw [hs']
      rcases hm with rfl | rfl
      · simp [expected_call]
      · simp [expected_call]
    obtain ⟨s1, f1, g1⟩ := fixline_head mark (text ++ [10]) hm0 hm10
    obtain ⟨s2, f2, g2⟩ := fixline_head mark text hm0 hm10
    exact ⟨⟨s1, f1, hcl s1 g1⟩, ⟨s2, f2, hcl s2 g2⟩⟩
  | edge a sep b val =>
    cases val with
    | none =>
      obtain ⟨ha, hs, hb⟩ := h
      have hT : ∀ c ∈ a ++ sep ++ b, c ≠ 0 ∧ c ≠ 10 := by
        intro c hc
        simp only [List.mem_append] at hc
        rcases hc with (hc | hc) | hc
        · exact (number_token ha).2.2.1 c hc
        · obtain ⟨_, _, _, _, _, h4⟩ := seps_split hs
          exact h4 c hc
        · exact (number_token hb).2.2.1 c hc
      have hne : a ++ sep ++ b ≠ [] := by
        intro h0
        have := congrArg List.length h0
        have ha1 := List.length_pos.2 ha.1
        simp only [List.length_append, List.length_nil] at this
        omega
      obtain ⟨f1, f2⟩ := fixline_text hne hT
      have hcl := convert_line_edge parse dflt ha hs hb [] dflt (Or.inl ⟨rfl, rfl⟩)
      rw [List.append_nil] at hcl
      exact ⟨⟨_, f1, hcl⟩, ⟨_, f2, hcl⟩⟩
    | some sv =>
      obtain ⟨sep2, v⟩ := sv
      obtain ⟨ha, hs, hb, hs2, hv1, hv2⟩ := h
      have hT : ∀ c ∈ a ++ sep ++ b ++ sep2 ++ v, c ≠ 0 ∧ c ≠ 10 := by
        intro c hc
        simp only [List.mem_append] at hc
        rcases hc with (((hc | hc) | hc) | hc) | hc
        · exact (number_token ha).2.2.1 c hc
        · obtain ⟨_, _, _, _, _, h4⟩ := seps_split hs
          exact h4 c hc
        · exact (number_token hb).2.2.1 c hc
        · obtain ⟨_, _, _, _, _, h4⟩ := seps_split hs2
          exact h4 c hc
        · exact ⟨(hv2 c hc).1, (hv2 c hc).2.2.1⟩
      have hne : a ++ sep ++ b ++ sep2 ++ v ≠ [] := by
        intro h0
        have := congrArg List.length h0
        have ha1 := List.length_pos.2 ha.1
        simp only [List.length_append, List.length_nil] at this
        omega
      obtain ⟨f1, f2⟩ := fixline_text hne hT
      have hv3 : ∀ c ∈ v, c ∉ [9, 32] := by
        intro c hc
        have := hv2 c hc
        simp only [List.mem_cons, List.mem_singleton, List.not_mem_nil, or_false]
        omega
      have hcl := convert_line_edge parse dflt ha hs hb (sep2 ++ v) (parse v)
        (Or.inr ⟨sep2, v, rfl, hs2, hv1, hv3, rfl⟩)
      rw [← List.append_assoc] at hcl
      exact ⟨⟨_, f1, hcl⟩, ⟨_, f2, hcl⟩⟩

theorem render_ok {l : srcline} (h : line_ok l) : l.render ≠ [] ∧ ∀ c ∈ l.render, c ≠ 10 := by
  cases l with
  | comment mark text =>
    obtain ⟨hm, ht⟩ := h
    refine ⟨by simp [srcline.render], ?_⟩
    intro c hc
    rcases List.mem_cons.1 hc with h1 | h1
    · rw [h1]; omega
    · exact ht c h1
  | edge a sep b val =>
    cases val with
    | none =>
      obtain ⟨ha, hs, hb⟩ := h
      have ha1 := List.length_pos.2 ha.1
      refine ⟨?_, ?_⟩
      · intro h0
        have := congrArg List.length h0
        simp only [srcline.render, List.length_append, List.length_nil] at this
        omega
      · intro c hc
        simp only [srcline.render, List.mem_append] at hc
        rcases hc with (hc | hc) | hc
        · exact ((number_token ha).2.2.1 c hc).2
        · obtain ⟨_, _, _, _, _, h4⟩ := seps_split hs
          exact (h4 c hc).2
        · exact ((number_token hb).2.2.1 c hc).2
    | some sv =>
      obtain ⟨sep2, v⟩ := sv
      obtain ⟨ha, hs, hb, hs2, hv1, hv2⟩ := h
      have ha1 := List.length_pos.2 ha.1
      refine ⟨?_, ?_⟩
      · intro h0
        have := congrArg List.length h0
        simp only [srcline.render, List.length_append, List.length_nil] at this
        omega
      · intro c hc
        simp only [srcline.render, List.mem_append] at hc
        rcases hc with (((hc | hc) | hc) | hc) | hc
        · exact ((number_token ha).2.2.1 c hc).2
        · obtain ⟨_, _, _, _, _, h4⟩ := seps_split hs
          exact (h4 c hc).2
        · exact ((number_token hb).2.2.1 c hc).2
        · obtain ⟨_, _, _, _, _, h4⟩ := seps_split hs2
          exact (h4 c hc).2
        · exact (hv2 c hc).2.2.1

theorem render_all_cons (nl : Bool) (l : srcline) (ls : List srcline) :
    (render_all nl (l :: ls) = l.render ++ 10 :: render_all nl ls) ∨
    (ls = [] ∧ render_all nl (l :: ls) = l.render) := by
  cases ls with
  | nil =>
    cases nl
    · right; exact ⟨rfl, by simp [render_all]⟩
    · left; simp [render_all]
  | cons l2 ls => left; simp [render_all]

theorem fgets_ne {inp : List Nat} (h : inp ≠ []) (n : Nat) :
    fgets n inp = some (fgets_take (n - 1) inp) := by
  cases inp with
  | nil => exact absurd rfl h
  | cons c cs => rfl

theorem convert_edgelist_loop_lines {V : Type} (parse : List Nat → V) (dflt : V) (nl : Bool)
    (lines : List srcline) :
    (∀ l ∈ lines, line_ok l) → (∀ l ∈ lines, l.render.length ≤ 1022) →
    ∀ fuel, (render_all nl lines).length < fuel →
      convert_edgelist_loop parse dflt fuel (render_all nl lines)
        = some (lines.filterMap (expected_call parse dflt)) := by
  induction lines with
  | nil =>
    intro _ _ fuel hf
    obtain ⟨f, rfl⟩ : ∃ f, fuel = f + 1 := ⟨fuel - 1, by omega⟩
    rfl
  | cons l ls ih =>
    intro hok hlen fuel hf
    obtain ⟨f, rfl⟩ : ∃ f, fuel = f + 1 := ⟨fuel - 1, by omega⟩
    have hl := hok l (List.mem_cons_self _ _)
    have hll := hlen l (List.mem_cons_self _ _)
    obtain ⟨hne, hno⟩ := render_ok hl
    obtain ⟨⟨s1, f1, g1⟩, ⟨s2, f2, g2⟩⟩ := line_step parse dflt hl
    have ih' := ih (fun x hx => hok x (List.mem_cons_of_mem _ hx))
      (fun x hx => hlen x (List.mem_cons_of_mem _ hx)) f
    have hcons : (expected_call parse dflt l).toList ++ ls.filterMap (expected_call parse dflt)
        = (l :: ls).filterMap (expected_call parse dflt) := by
      cases he : expected_call parse dflt l with
      | none => simp [List.filterMap_cons, he]
      | some c => simp [List.filterMap_cons, he]
    rcases render_all_cons nl l ls with hr | ⟨hls, hr⟩
    · rw [hr] at hf ⊢
      have hfg : fgets 1024 (l.render ++ 10 :: render_all nl ls)
          = some (l.render ++ [10], render_all nl ls) := by
        rw [fgets_ne (by simp), fgets_take_line _ _ _ hno (by omega)]
      have hlen' : (render_all nl ls).length < f := by
        simp only [List.length_append, List.length_cons] at hf
        omega
      unfold convert_edgelist_loop
      rw [hfg]
      simp only []
      rw [f1]
      simp only []
      rw [g1]
      simp only []
      rw [ih' hlen']
      simp only []
      rw [hcons]
    · rw [hr] at hf ⊢
      have hfg : fgets 1024 l.render = some (l.render, []) := by
        rw [fgets_ne hne, fgets_take_last _ _ hno (by omega)]
      have hrest : convert_edgelist_loop parse dflt f []
          = some (ls.filterMap (expected_call parse dflt)) := by
        rw [hls]
        cases f <;> rfl
      unfold convert_edgelist_loop
      rw [hfg]
      simp only []
      rw [f2]
      simp only []
      rw [g2]
      simp only []
      rw [hrest]
      simp only []
      rw [hcons]

set_option maxRecDepth 20000 in
/-- C10, counterexample.  A file that consists of one comment line: `#`, 1022 times `x`,
then `1 2`, and the newline.  `fgets(s, 1024, inf)` returns the first 1023 characters,
which are skipped as a comment, and then the tail `1 2` as a line of its own:
`convert_edgelist` calls `preprocessing_add_edge(1, 2, EdgeDataType())`, where the claim
prescribes no call for a line whose first character is `#`. -/
theorem long_comment_tail_is_parsed :
    line_ok long_comment ∧
    convert_edgelist (fun _ => (1 : Nat)) 0 (render_all true [long_comment])
      = some [(1, 2, 0)] ∧
    [long_comment].filterMap (expected_call (fun _ => (1 : Nat)) 0) = [] := by
  refine ⟨⟨Or.inl rfl, ?_⟩, rfl, rfl⟩
  intro c hc
  rcases List.mem_append.1 hc with h | h
  · rw [(List.mem_replicate.1 h).2]; decide
  · simp only [List.mem_cons, List.mem_singleton, List.not_mem_nil, or_false] at h
    rcases h with rfl | rfl | rfl <;> decide

/-- C10, amended.  `convert_edgelist` emits one edge per non-comment line when no line is
longer than the buffer of `fgets`: for every input whose lines have at most 1022
characters, each a comment (first character `#` or `%`) or of the form `src dst` or
`src dst value` with space/tab separators and decimal numbers that fit `int`, the last
line with or without its newline, it calls `preprocessing_add_edge` exactly once for each
edge line with `src != dst`, in input order, with the parsed `src` and `dst` and with
`parse<EdgeDataType>` of the third token when there is one and `EdgeDataType()` otherwise,
and it makes no call for a comment line. -/
theorem convert_edgelist_short_lines {V : Type} (parse : List Nat → V) (dflt : V) (nl : Bool)
    (lines : List srcline) (hok : ∀ l ∈ lines, line_ok l)
    (hlen : ∀ l ∈ lines, l.render.length ≤ 1022) :
    convert_edgelist parse dflt (render_all nl lines)
      = some (lines.filterMap (expected_call parse dflt)) :=
  convert_edgelist_loop_lines parse dflt nl lines hok hlen _ (Nat.lt_succ_self _)

/-- Witness for the amended C10: the sample edge list gives the edges `12 3` (default
value) and `5 6` (parsed value), and nothing for the comment and the self-edge. -/
theorem convert_edgelist_short_lines_witness :
    (∀ l ∈ sample_lines, line_ok l) ∧ (∀ l ∈ sample_lines, l.render.length ≤ 1022) ∧
    convert_edgelist (fun v => v.length) 0 (render_all true sample_lines)
      = some [(12, 3, 0), (5, 6, 3)] := by
  have h1 : ∀ l ∈ sample_lines, line_ok l := by
    intro l hl
    simp only [sample_lines, List.mem_cons, List.mem_singleton, List.not_mem_nil, or_false] at hl
    rcases hl with rfl | rfl | rfl | rfl
    · exact ⟨Or.inl rfl, by decide⟩
    · exact ⟨⟨by decide, by decide, by decide⟩, ⟨by decide, by decide⟩,
        ⟨by decide, by decide, by decide⟩⟩
    · exact ⟨⟨by decide, by decide, by decide⟩, ⟨by decide, by decide⟩,
        ⟨by decide, by decide, by decide⟩⟩
    · exact ⟨⟨by decide, by decide, by decide⟩, ⟨by decide, by decide⟩,
        ⟨by decide, by decide, by decide⟩, ⟨by decide, by decide⟩, by decide, by decide⟩
  have h2 : ∀ l ∈ sample_lines, l.render.length ≤ 1022 := by decide
  exact ⟨h1, h2, convert_edgelist_short_lines (fun v => v.length) 0 true sample_lines h1 h2⟩

theorem strtok_none (delims pre : List Nat) (hpre : ∀ c ∈ pre, c ∈ delims) :
    strtok delims pre = none := by
  have hp : ∀ c ∈ pre, (fun c => decide (c ∈ delims)) c = true := by
    intro c hc; simpa using hpre c hc
  have := dropWhile_append_all pre [] hp
  simp only [List.append_nil, List.dropWhile_nil] at this
  unfold strtok
  rw [this]

theorem adj_number_token {a : List Nat} (h : number_ok a) :
    a ≠ [] ∧ (∀ c ∈ a, c ∉ [32, 9]) ∧ (∀ c ∈ a, c ≠ 0 ∧ c ≠ 10) ∧
      atoi a = some ((decimal a : Nat) : Int) ∧ int_to_vid ((decimal a : Nat) : Int) = decimal a := by
  obtain ⟨h1, h2, h3, h4, h5⟩ := number_token h
  refine ⟨h1, ?_, h3, h4, h5⟩
  intro c hc
  have := h2 c hc
  simp only [List.mem_cons, List.mem_singleton, List.not_mem_nil, or_false] at this ⊢
  tauto

theorem adj_seps_split {sep : List Nat} (h : seps_ok sep) :
    ∃ d sep', sep = d :: sep' ∧ d ∈ [32, 9] ∧ (∀ c ∈ sep', c ∈ [32, 9]) ∧
      ∀ c ∈ sep, c ≠ 0 ∧ c ≠ 10 := by
  obtain ⟨d, sep', rfl, h1, h2, h3⟩ := seps_split h
  refine ⟨d, sep', rfl, ?_, ?_, h3⟩
  · simp only [List.mem_cons, List.mem_singleton, List.not_mem_nil, or_false] at h1 ⊢
    tauto
  · intro c hc
    have := h2 c hc
    simp only [List.mem_cons, List.mem_singleton, List.not_mem_nil, or_false] at this ⊢
    tauto

/-- The token `t`, after delimiters `pre` and before the tokens `r`: `strtok` returns it
and saves the position behind the character that follows it. -/
theorem strtok_tail (pre t : List Nat) (r : List (List Nat × List Nat))
    (hpre : ∀ c ∈ pre, c ∈ [32, 9]) (ht : number_ok t) (hr : ∀ p ∈ r, seps_ok p.1) :
    strtok [32, 9] (pre ++ t ++ tail_text r) = some (t, pos_text r) := by
  obtain ⟨t1, t2, -, -, -⟩ := adj_number_token ht
  cases r with
  | nil =>
    have := (strtok_token [32, 9] pre t hpre t2 t1).1
    simpa [tail_text, pos_text] using this
  | cons p r' =>
    obtain ⟨d, sep', hsep, hd, -, -⟩ := adj_seps_split (hr p (List.mem_cons_self _ _))
    have := (strtok_token [32, 9] pre t hpre t2 t1).2 d (sep' ++ p.2 ++ tail_text r') hd
    have e : tail_text (p :: r') = d :: (sep' ++ p.2 ++ tail_text r') := by
      simp only [tail_text, hsep, List.cons_append, List.append_assoc]
    rw [e]
    rw [this]
    simp only [pos_text, e, List.drop_succ_cons, List.drop_zero]

/-- The saved position before the tokens `p :: r`: the next `strtok(NULL, delims)` returns
the token of `p`. -/
theorem strtok_pos (p : List Nat × List Nat) (r : List (List Nat × List Nat))
    (hp : seps_ok p.1 ∧ number_ok p.2) (hr : ∀ q ∈ r, seps_ok q.1) :
    strtok [32, 9] (pos_text (p :: r)) = some (p.2, pos_text r) := by
  obtain ⟨d, sep', hsep, -, hs, -⟩ := adj_seps_split hp.1
  have e : pos_text (p :: r) = sep' ++ p.2 ++ tail_text r := by
    simp only [pos_text, tail_text, hsep, List.cons_append, List.append_assoc,
      List.drop_succ_cons, List.drop_zero]
  rw [e]
  exact strtok_tail sep' p.2 r hs hp.2 hr

theorem tail_text_length (r : List (List Nat × List Nat)) (h : ∀ p ∈ r, number_ok p.2) :
    r.length ≤ (tail_text r).length := by
  induction r with
  | nil => simp
  | cons p r ih =>
    have h1 := List.length_pos.2 (h p (List.mem_cons_self _ _)).1
    have h2 := ih (fun q hq => h q (List.mem_cons_of_mem _ hq))
    simp only [tail_text, List.length_append, List.length_cons]
    omega

theorem pos_text_length (p : List Nat × List Nat) (r : List (List Nat × List Nat))
    (hp : seps_ok p.1 ∧ number_ok p.2) :
    (pos_text r).length < (pos_text (p :: r)).length := by
  have h1 := List.length_pos.2 hp.2.1
  have h2 := List.length_pos.2 hp.1.1
  simp only [pos_text, tail_text, List.length_drop, List.length_append]
  omega

/-- The loop over the destination tokens `dests` of a vertex line: a call for every
destination other than `from`, and the number of tokens added to `i`. -/
theorem adj_dests_tokens {V : Type} (dflt : V) (src : Nat) :
    ∀ (dests : List (List Nat × List Nat)) (fuel i : Nat),
      (∀ p ∈ dests, seps_ok p.1 ∧ number_ok p.2) → (pos_text dests).length < fuel →
      i + dests.length < 4294967296 →
      adj_dests dflt src fuel (pos_text dests) i
        = (dest_calls dflt src dests, i + dests.length, true) := by
  intro dests
  induction dests with
  | nil =>
    intro fuel i _ hf _
    obtain ⟨f, rfl⟩ : ∃ f, fuel = f + 1 := ⟨fuel - 1, by omega⟩
    rfl
  | cons p r ih =>
    intro fuel i hok hf hi
    obtain ⟨f, rfl⟩ : ∃ f, fuel = f + 1 := ⟨fuel - 1, by omega⟩
    have hp := hok p (List.mem_cons_self _ _)
    have hr : ∀ q ∈ r, seps_ok q.1 ∧ number_ok q.2 := fun q hq => hok q (List.mem_cons_of_mem _ hq)
    obtain ⟨-, -, -, p4, p5⟩ := adj_number_token hp.2
    have hlen := pos_text_length p r hp
    have hu : u32 (i + 1) = i + 1 := by
      simp only [List.length_cons] at hi
      unfold u32
      omega
    have ih' := ih f (i + 1) hr (by omega) (by simp only [List.length_cons] at hi; omega)
    unfold adj_dests
    rw [strtok_pos p r hp (fun q hq => (hr q hq).1)]
    simp only []
    rw [p4]
    simp only []
    rw [hu, ih', p5]
    simp only [dest_calls, List.filterMap_cons, List.length_cons]
    by_cases hne : src ≠ decimal p.2
    · simp only [hne, not_false_eq_true, if_true, ne_eq, List.singleton_append, Prod.mk.injEq,
        true_and, and_true]
      omega
    · simp only [hne, if_false, List.nil_append, Prod.mk.injEq, true_and, and_true]
      omega

theorem adj_line_comment {V : Type} (dflt : V) (ln mark : Nat) (s : List Nat)
    (hm : mark = 35 ∨ mark = 37) (hs : s.head? = some mark) :
    adj_line dflt ln s = ⟨[], [], parse_end.finished⟩ := by
  unfold adj_line
  rw [hs]
  rcases hm with rfl | rfl
  · simp
  · simp

/-- The body of the loop of `convert_adjlist` on a vertex line with well-written tokens. -/
theorem adj_line_vertex {V : Type} (dflt : V) (ln : Nat) {a : List Nat}
    {rest : List (List Nat × List Nat)} (h : tokens_ok a rest) (hlen : rest.length ≤ 4294967296) :
    adj_line dflt ln (a ++ tail_text rest) =
      ⟨expected_adj dflt (adjline.vertex a rest), expected_errors ln (adjline.vertex a rest),
        expected_ending (adjline.vertex a rest)⟩ := by
  obtain ⟨ha, hrest⟩ := h
  obtain ⟨-, -, -, a4, a5⟩ := adj_number_token ha
  obtain ⟨c, hc, hc48⟩ := head_number ha (tail_text rest)
  have h35 : ¬ (some c = some 35) := by
    intro h; have := Option.some.inj h; omega
  have h37 : ¬ (some c = some 37) := by
    intro h; have := Option.some.inj h; omega
  have t1 : strtok [32, 9] (a ++ tail_text rest) = some (a, pos_text rest) := by
    have := strtok_tail [] a rest (by intro c hc; cases hc) ha (fun p hp => (hrest p hp).1)
    simpa using this
  unfold adj_line
  rw [hc]
  simp only [h35, h37, if_false]
  rw [t1]
  simp only []
  rw [a4]
  simp only []
  cases rest with
  | nil =>
    have t2 : strtok [32, 9] (pos_text []) = none := rfl
    rw [t2]
    rfl
  | cons p dests =>
    have hp := hrest p (List.mem_cons_self _ _)
    have hd : ∀ q ∈ dests, seps_ok q.1 ∧ number_ok q.2 :=
      fun q hq => hrest q (List.mem_cons_of_mem _ hq)
    obtain ⟨-, -, -, p4, p5⟩ := adj_number_token hp.2
    have hr := adj_dests_tokens dflt (decimal a) dests ((pos_text dests).length + 1) 0 hd
      (Nat.lt_succ_self _) (by simp only [List.length_cons] at hlen; omega)
    rw [strtok_pos p dests hp (fun q hq => (hd q hq).1)]
    simp only []
    rw [p4]
    simp only [a5, p5, hr, Nat.zero_add, expected_adj, expected_errors, expected_ending]
    by_cases hne : decimal p.2 = dests.length
    · simp [hne]
    · simp [hne]

theorem adj_render_chars {l : adjline} (h : adjline_written l) :
    l.render ≠ [] ∧ ∀ c ∈ l.render, c ≠ 10 := by
  cases l with
  | comment mark text =>
    obtain ⟨hm, ht⟩ := h
    refine ⟨by simp [adjline.render], ?_⟩
    intro c hc
    rcases List.mem_cons.1 hc with h1 | h1
    · rcases hm with rfl | rfl <;> omega
    · exact ht c h1
  | vertex a rest =>
    obtain ⟨ha, hrest⟩ := h
    refine ⟨?_, ?_⟩
    · intro h0
      have := congrArg List.length h0
      have ha1 := List.length_pos.2 ha.1
      simp only [adjline.render, List.length_append, List.length_nil] at this
      omega
    · have ht : ∀ r : List (List Nat × List Nat), (∀ p ∈ r, seps_ok p.1 ∧ number_ok p.2) →
          ∀ c ∈ tail_text r, c ≠ 0 ∧ c ≠ 10 := by
        intro r
        induction r with
        | nil => intro _ c hc; cases hc
        | cons p r ih =>
          intro hr c hc
          have hp := hr p (List.mem_cons_self _ _)
          simp only [tail_text, List.mem_append] at hc
          rcases hc with (hc | hc) | hc
          · obtain ⟨_, _, _, _, _, h4⟩ := adj_seps_split hp.1
            exact h4 c hc
          · exact (adj_number_token hp.2).2.2.1 c hc
          · exact ih (fun q hq => hr q (List.mem_cons_of_mem _ hq)) c hc
      intro c hc
      simp only [adjline.render, List.mem_append] at hc
      rcases hc with hc | hc
      · exact ((adj_number_token ha).2.2.1 c hc).2
      · exact (ht rest hrest c hc).2

theorem adj_vertex_chars {a : List Nat} {rest : List (List Nat × List Nat)}
    (h : tokens_ok a rest) : ∀ c ∈ a ++ tail_text rest, c ≠ 0 ∧ c ≠ 10 := by
  obtain ⟨ha, hrest⟩ := h
  have ht : ∀ r : List (List Nat × List Nat), (∀ p ∈ r, seps_ok p.1 ∧ number_ok p.2) →
      ∀ c ∈ tail_text r, c ≠ 0 ∧ c ≠ 10 := by
    intro r
    induction r with
    | nil => intro _ c hc; cases hc
    | cons p r ih =>
      intro hr c hc
      have hp := hr p (List.mem_cons_self _ _)
      simp only [tail_text, List.mem_append] at hc
      rcases hc with (hc | hc) | hc
      · obtain ⟨_, _, _, _, _, h4⟩ := adj_seps_split hp.1
        exact h4 c hc
      · exact (adj_number_token hp.2).2.2.1 c hc
      · exact ih (fun q hq => hr q (List.mem_cons_of_mem _ hq)) c hc
  intro c hc
  simp only [List.mem_append] at hc
  rcases hc with hc | hc
  · exact (adj_number_token ha).2.2.1 c hc
  · exact ht rest hrest c hc

/-- One well-written line, with or without its newline, as `fgets` hands it over: `FIXLINE`
succeeds, and the body of the loop makes the calls for the destinations of the line, logs the
mismatch of the degree, if any, and then fails the assertion. -/
theorem adj_line_step {V : Type} (dflt : V) (ln : Nat) {l : adjline} (h : adjline_written l)
    (hlen : l.render.length ≤ 4294967296) :
    (∃ s', FIXLINE (l.render ++ [10]) = some s' ∧
      adj_line dflt ln s' = ⟨expected_adj dflt l, expected_errors ln l, expected_ending l⟩) ∧
    (∃ s', FIXLINE l.render = some s' ∧
      adj_line dflt ln s' = ⟨expected_adj dflt l, expected_errors ln l, expected_ending l⟩) := by
  cases l with
  | comment mark text =>
    obtain ⟨hm, -⟩ := h
    have hm0 : mark ≠ 0 := by omega
    have hm10 : mark ≠ 10 := by omega
    obtain ⟨s1, f1, g1⟩ := fixline_head mark (text ++ [10]) hm0 hm10
    obtain ⟨s2, f2, g2⟩ := fixline_head mark text hm0 hm10
    exact ⟨⟨s1, f1, adj_line_comment dflt ln mark s1 hm g1⟩,
      ⟨s2, f2, adj_line_comment dflt ln mark s2 hm g2⟩⟩
  | vertex a rest =>
    have hne := (adj_render_chars h).1
    obtain ⟨f1, f2⟩ := fixline_text hne (adj_vertex_chars h)
    have hr : rest.length ≤ 4294967296 := by
      have := tail_text_length rest (fun p hp => (h.2 p hp).2)
      simp only [adjline.render, List.length_append] at hlen
      omega
    exact ⟨⟨_, f1, adj_line_vertex dflt ln h hr⟩, ⟨_, f2, adj_line_vertex dflt ln h hr⟩⟩

theorem text_lines_cons (nl : Bool) (l : List Nat) (ls : List (List Nat)) :
    (text_lines nl (l :: ls) = l ++ 10 :: text_lines nl ls) ∨
    (ls = [] ∧ text_lines nl (l :: ls) = l) := by
  cases ls with
  | nil =>
    cases nl
    · right; exact ⟨rfl, by simp [text_lines]⟩
    · left; simp [text_lines]
  | cons l2 ls => left; simp [text_lines]

theorem text_lines_true (l : List Nat) (ls : List (List Nat)) :
    text_lines true (l :: ls) = l ++ 10 :: text_lines true ls := by
  cases ls with
  | nil => simp [text_lines]
  | cons l2 ls => simp [text_lines]

theorem u64_succ (x y : Nat) : u64 (u64 (x + 1) + y) = u64 (x + (y + 1)) := by
  unfold u64
  omega

theorem fgets_maxlen_line (text rest : List Nat) (hno : ∀ c ∈ text, c ≠ 10)
    (hlen : text.length ≤ 99999998) :
    fgets maxlen (text ++ 10 :: rest) = some (text ++ [10], rest) := by
  rw [fgets_ne (by simp)]
  have : maxlen - 1 = 99999999 := by decide
  rw [this, fgets_take_line _ _ _ hno (by omega)]

theorem fgets_maxlen_last (text : List Nat) (hne : text ≠ []) (hno : ∀ c ∈ text, c ≠ 10)
    (hlen : text.length ≤ 99999998) :
    fgets maxlen text = some (text, []) := by
  rw [fgets_ne hne]
  have : maxlen - 1 = 99999999 := by decide
  rw [this, fgets_take_last _ _ hno (by omega)]

theorem adj_ok_ending {l : adjline} (h : adjline_ok l) (ln : Nat) :
    expected_errors ln l = [] ∧ expected_ending l = parse_end.finished := by
  obtain ⟨-, hd⟩ := h
  cases l with
  | comment mark text => exact ⟨rfl, rfl⟩
  | vertex a rest =>
    cases rest with
    | nil => exact ⟨rfl, rfl⟩
    | cons p dests =>
      have hd' : decimal p.2 = dests.length := hd
      simp [expected_errors, expected_ending, hd']

theorem adj_mismatch_ending {l : adjline} (h : adjline_mismatch l) (ln : Nat) :
    ∃ num i, num ≠ i ∧ expected_errors ln l = [(num, i, ln)] ∧
      expected_ending l = parse_end.assert_degree := by
  obtain ⟨-, hd⟩ := h
  cases l with
  | comment mark text => exact absurd trivial hd
  | vertex a rest =>
    cases rest with
    | nil => exact absurd trivial hd
    | cons p dests =>
      have hd' : ¬ decimal p.2 = dests.length := hd
      exact ⟨decimal p.2, dests.length, hd', by simp [expected_errors, hd'],
        by simp [expected_ending, hd']⟩

/-- One pass of the loop of `convert_adjlist` over a well-written line that ends with a
newline. -/
theorem adj_pass_line {V : Type} (dflt : V) {l : adjline} (h : adjline_written l)
    (hlen : l.render.length ≤ 99999998) (rest : List Nat) (f ln : Nat) :
    convert_adjlist_loop dflt (f + 1) (l.render ++ 10 :: rest) ln =
      match expected_ending l with
      | parse_end.finished =>
        ⟨expected_adj dflt l ++ (convert_adjlist_loop dflt f rest (u64 (ln + 1))).calls,
          expected_errors (u64 (ln + 1)) l ++ (convert_adjlist_loop dflt f rest (u64 (ln + 1))).errors,
          (convert_adjlist_loop dflt f rest (u64 (ln + 1))).ending⟩
      | _ => ⟨expected_adj dflt l, expected_errors (u64 (ln + 1)) l, expected_ending l⟩ := by
  obtain ⟨⟨s1, f1, g1⟩, -⟩ := adj_line_step dflt (u64 (ln + 1)) h (by omega)
  rw [convert_adjlist_loop, fgets_maxlen_line _ _ (adj_render_chars h).2 hlen]
  simp only []
  rw [f1]
  simp only []
  rw [g1]

/-- One pass of the loop of `convert_adjlist` over a well-written last line without a
newline. -/
theorem adj_pass_last {V : Type} (dflt : V) {l : adjline} (h : adjline_written l)
    (hlen : l.render.length ≤ 99999998) (f ln : Nat) :
    convert_adjlist_loop dflt (f + 1) l.render ln =
      ⟨expected_adj dflt l, expected_errors (u64 (ln + 1)) l, expected_ending l⟩ := by
  obtain ⟨-, ⟨s2, f2, g2⟩⟩ := adj_line_step dflt (u64 (ln + 1)) h (by omega)
  have hnil : ∀ n : Nat, convert_adjlist_loop dflt f [] n = ⟨[], [], parse_end.finished⟩ := by
    intro n
    cases f <;> rfl
  rw [convert_adjlist_loop, fgets_maxlen_last _ (adj_render_chars h).1 (adj_render_chars h).2 hlen]
  simp only []
  rw [f2]
  simp only []
  rw [g2]
  simp only [hnil, List.append_nil]
  cases expected_ending l <;> rfl

theorem adj_loop_lines {V : Type} (dflt : V) (nl : Bool) (lines : List adjline) :
    (∀ l ∈ lines, adjline_ok l) → (∀ l ∈ lines, l.render.length ≤ 99999998) →
    ∀ fuel ln, (text_lines nl (lines.map adjline.render)).length < fuel →
      convert_adjlist_loop dflt fuel (text_lines nl (lines.map adjline.render)) ln
        = ⟨expected_adj_all dflt lines, [], parse_end.finished⟩ := by
  induction lines with
  | nil =>
    intro _ _ fuel ln hf
    obtain ⟨f, rfl⟩ : ∃ f, fuel = f + 1 := ⟨fuel - 1, by omega⟩
    rfl
  | cons l ls ih =>
    intro hok hlen fuel ln hf
    obtain ⟨f, rfl⟩ : ∃ f, fuel = f + 1 := ⟨fuel - 1, by omega⟩
    have hl := hok l (List.mem_cons_self _ _)
    have hll := hlen l (List.mem_cons_self _ _)
    obtain ⟨e1, e2⟩ := adj_ok_ending hl (u64 (ln + 1))
    have ih' := ih (fun x hx => hok x (List.mem_cons_of_mem _ hx))
      (fun x hx => hlen x (List.mem_cons_of_mem _ hx)) f (u64 (ln + 1))
    rw [List.map_cons] at hf ⊢
    rcases text_lines_cons nl l.render (ls.map adjline.render) with hr | ⟨hls, hr⟩
    · rw [hr] at hf ⊢
      have hlen' : (text_lines nl (ls.map adjline.render)).length < f := by
        simp only [List.length_append, List.length_cons] at hf
        omega
      rw [adj_pass_line dflt hl.1 hll, e2]
      simp only []
      rw [ih' hlen', e1]
      rfl
    · rw [hr]
      have hnil : ls = [] := List.map_eq_nil_iff.1 hls
      rw [adj_pass_last dflt hl.1 hll, e1, e2, hnil]
      simp [expected_adj_all]

theorem long_text_length : long_text.length = 99999998 := List.length_replicate _ _

theorem long_text_chars : ∀ c ∈ long_text, c = 120 := fun _ hc => List.eq_of_mem_replicate hc

theorem fgets_take_full : ∀ (text : List Nat) (k : Nat) (rest : List Nat),
    (∀ c ∈ text, c ≠ 10) → text.length = k → fgets_take k (text ++ rest) = (text, rest) := by
  intro text
  induction text with
  | nil =>
    intro k rest _ hk
    simp only [List.length_nil] at hk
    subst hk
    rfl
  | cons c t ih =>
    intro k rest hno hk
    simp only [List.length_cons] at hk
    subst hk
    rw [List.cons_append, fgets_take_cons (hno c (List.mem_cons_self _ _)),
      ih _ rest (fun x hx => hno x (List.mem_cons_of_mem _ hx)) rfl]

/-- A comment line that fills the buffer: `fgets` returns its first `maxlen - 1` characters,
the pass over them makes no call, and the loop goes on with what follows them on the line. -/
theorem adj_pass_full {V : Type} (dflt : V) (mark : Nat) (X rest : List Nat)
    (hm : mark = 35 ∨ mark = 37) (hX : ∀ c ∈ X, c ≠ 10) (hlen : X.length = 99999998)
    (f ln : Nat) :
    convert_adjlist_loop dflt (f + 1) ((mark :: X) ++ rest) ln
      = convert_adjlist_loop dflt f rest (u64 (ln + 1)) := by
  have hm0 : mark ≠ 0 := by omega
  have hm10 : mark ≠ 10 := by omega
  have hfg : fgets maxlen ((mark :: X) ++ rest) = some (mark :: X, rest) := by
    rw [fgets_ne (by simp)]
    have : maxlen - 1 = 99999999 := by decide
    rw [this, fgets_take_full]
    · intro c hc
      rcases List.mem_cons.1 hc with h1 | h1
      · omega
      · exact hX c h1
    · rw [List.length_cons, hlen]
  obtain ⟨s1, f1, g1⟩ := fixline_head mark X hm0 hm10
  rw [convert_adjlist_loop, hfg]
  simp only []
  rw [f1]
  simp only []
  rw [adj_line_comment dflt _ mark s1 hm g1]
  simp only [List.nil_append]

/-- C12, counterexample.  A file that consists of one comment line: `#`, 99999998 times
`x`, then `1 1 2`, and the newline.  `fgets(s, maxlen, inf)` returns the first 99999999
characters, which are skipped as a comment, and then the tail `1 1 2` as a line of its own:
`convert_adjlist` calls `preprocessing_add_edge(1, 2, EdgeDataType())`, where the claim
prescribes no call for a line that starts with `#`. -/
theorem long_adj_comment_tail_is_parsed :
    adjline_ok long_adj_comment ∧
    (convert_adjlist (0 : Nat) (text_lines true [long_adj_comment.render])).calls = [(1, 2, 0)] ∧
    expected_adj (0 : Nat) long_adj_comment = [] := by
  have hx : ∀ c ∈ long_text, c ≠ 10 := by
    intro c hc
    rw [long_text_chars c hc]
    decide
  refine ⟨⟨⟨Or.inl rfl, ?_⟩, trivial⟩, ?_, rfl⟩
  · intro c hc
    rcases List.mem_append.1 hc with h1 | h1
    · exact hx c h1
    · have h5 : ∀ c ∈ [49, 32, 49, 32, 50], c ≠ 10 := by decide
      exact h5 c h1
  · have hrender : long_adj_comment.render
        = (35 :: long_text) ++ [49, 32, 49, 32, 50] := rfl
    have htail : text_lines true
        ([adjline.vertex [49] [([32], [49]), ([32], [50])]].map adjline.render)
          = [49, 32, 49, 32, 50, 10] := rfl
    have htext : text_lines true [long_adj_comment.render]
        = (35 :: long_text) ++ [49, 32, 49, 32, 50, 10] := by
      simp only [text_lines, hrender, if_true, List.append_assoc, List.cons_append,
        List.nil_append]
    have hok : ∀ l ∈ [adjline.vertex [49] [([32], [49]), ([32], [50])]], adjline_ok l := by
      intro l hl
      rw [List.mem_singleton] at hl
      subst hl
      refine ⟨⟨⟨by decide, by decide, by decide⟩, ?_⟩, rfl⟩
      intro p hp
      simp only [List.mem_cons, List.mem_singleton, List.not_mem_nil, or_false] at hp
      rcases hp with rfl | rfl
      · exact ⟨⟨by decide, by decide⟩, ⟨by decide, by decide, by decide⟩⟩
      · exact ⟨⟨by decide, by decide⟩, ⟨by decide, by decide, by decide⟩⟩
    have hshort : ∀ l ∈ [adjline.vertex [49] [([32], [49]), ([32], [50])]],
        l.render.length ≤ 99999998 := by
      intro l hl
      rw [List.mem_singleton] at hl
      subst hl
      decide
    have hloop := adj_loop_lines (0 : Nat) true _ hok hshort
      (long_text.length + 7) (u64 (0 + 1)) (by rw [htail]; exact Nat.lt_add_left _ (by decide))
    rw [htail] at hloop
    have hfuel : ((35 :: long_text) ++ [49, 32, 49, 32, 50, 10]).length + 1
        = (long_text.length + 7) + 1 := by
      have e1 := List.length_append (35 :: long_text) [49, 32, 49, 32, 50, 10]
      have e2 := List.length_cons 35 long_text
      have h6 : [49, 32, 49, 32, 50, 10].length = 6 := rfl
      omega
    rw [htext, convert_adjlist, hfuel,
      adj_pass_full (0 : Nat) 35 long_text _ (Or.inl rfl) hx long_text_length, hloop]
    rfl

/-- C12, amended.  For a file of well-formed lines, each at most 99999998 characters long
(so that a line and its newline fit the buffer of `maxlen` characters): `convert_adjlist`
calls `preprocessing_add_edge(src, d_j, EdgeDataType())` once for each destination
`d_j != src` of each line `src deg d1 .. d_deg`, in the order of the lines and the tokens,
makes no call for a line with only `src` and for a comment, logs no error and reaches the end
of the file. -/
theorem convert_adjlist_short_lines {V : Type} (dflt : V) (nl : Bool) (lines : List adjline)
    (hok : ∀ l ∈ lines, adjline_ok l) (hlen : ∀ l ∈ lines, l.render.length ≤ 99999998) :
    (convert_adjlist dflt (text_lines nl (lines.map adjline.render))).calls
        = expected_adj_all dflt lines ∧
      (convert_adjlist dflt (text_lines nl (lines.map adjline.render))).errors = [] ∧
      (convert_adjlist dflt (text_lines nl (lines.map adjline.render))).ending
        = parse_end.finished := by
  have h := adj_loop_lines dflt nl lines hok hlen _ 0 (Nat.lt_succ_self _)
  unfold convert_adjlist
  rw [h]
  exact ⟨rfl, rfl, rfl⟩

/-- Witness for the amended C12: the sample adjacency list gives the edges of the line
`7 3 2 8 9` and the edge `5 6` of the line `5 2 5 6`, nothing for the comment, the line `5`
and the self-edge, and no error. -/
theorem convert_adjlist_short_lines_witness :
    (∀ l ∈ sample_adj, adjline_ok l) ∧ (∀ l ∈ sample_adj, l.render.length ≤ 99999998) ∧
    (convert_adjlist (0 : Nat) (text_lines true (sample_adj.map adjline.render))).calls
      = [(7, 2, 0), (7, 8, 0), (7, 9, 0), (5, 6, 0)] ∧
    (convert_adjlist (0 : Nat) (text_lines true (sample_adj.map adjline.render))).errors = [] ∧
    (convert_adjlist (0 : Nat) (text_lines true (sample_adj.map adjline.render))).ending
      = parse_end.finished :=
  ⟨by decide, by decide,
    convert_adjlist_short_lines (0 : Nat) true sample_adj (by decide) (by decide)⟩

theorem adj_loop_mismatch {V : Type} (dflt : V) (bad : adjline) (post : List Nat)
    (hbad : adjline_mismatch bad) (hbl : bad.render.length ≤ 99999998) (pre : List adjline) :
    (∀ l ∈ pre, adjline_ok l) → (∀ l ∈ pre, l.render.length ≤ 99999998) →
    ∀ fuel ln,
      (text_lines true (pre.map adjline.render) ++ (bad.render ++ 10 :: post)).length < fuel →
      convert_adjlist_loop dflt fuel
          (text_lines true (pre.map adjline.render) ++ (bad.render ++ 10 :: post)) ln
        = ⟨expected_adj_all dflt pre ++ expected_adj dflt bad,
            expected_errors (u64 (ln + (pre.length + 1))) bad, parse_end.assert_degree⟩ := by
  induction pre with
  | nil =>
    intro _ _ fuel ln hf
    obtain ⟨f, rfl⟩ : ∃ f, fuel = f + 1 := ⟨fuel - 1, by omega⟩
    obtain ⟨num, i, -, -, e2⟩ := adj_mismatch_ending hbad (u64 (ln + 1))
    have h := adj_pass_line dflt hbad.1 hbl post f ln
    rw [e2] at h
    simp only [List.map_nil, text_lines, List.nil_append, expected_adj_all, List.length_nil,
      Nat.zero_add]
    rw [h]
  | cons l ls ih =>
    intro hok hlen fuel ln hf
    obtain ⟨f, rfl⟩ : ∃ f, fuel = f + 1 := ⟨fuel - 1, by omega⟩
    have hl := hok l (List.mem_cons_self _ _)
    have hll := hlen l (List.mem_cons_self _ _)
    obtain ⟨e1, e2⟩ := adj_ok_ending hl (u64 (ln + 1))
    have ih' := ih (fun x hx => hok x (List.mem_cons_of_mem _ hx))
      (fun x hx => hlen x (List.mem_cons_of_mem _ hx)) f (u64 (ln + 1))
    rw [List.map_cons, text_lines_true, List.append_assoc, List.cons_append] at hf ⊢
    have hlen' : (text_lines true (ls.map adjline.render)
        ++ (bad.render ++ 10 :: post)).length < f := by
      rw [List.length_append, List.length_cons] at hf
      omega
    rw [adj_pass_line dflt hl.1 hll, e2]
    simp only []
    rw [ih' hlen', e1, u64_succ]
    simp only [expected_adj_all, List.append_assoc, List.nil_append, List.length_cons]

/-- C13, counterexample.  The file `7 3 2 8 9`, `7 4 1 2`, `5 1 6`: on the second line
`convert_adjlist` emits the two actual edges `(7,1)` and `(7,2)` and logs the mismatch
(declared 4, read 2, line 2), and then the assertion `assert(num == i)` fails: the run ends
there, and the edge `(5,6)` of the following line is never emitted. -/
theorem mismatch_stops_the_run :
    adjline_mismatch sample_mismatch ∧
    (convert_adjlist (0 : Nat) (text_lines true (sample_bad_adj.map adjline.render))).calls
      = [(7, 2, 0), (7, 8, 0), (7, 9, 0), (7, 1, 0), (7, 2, 0)] ∧
    (convert_adjlist (0 : Nat) (text_lines true (sample_bad_adj.map adjline.render))).errors
      = [(4, 2, 2)] ∧
    (convert_adjlist (0 : Nat) (text_lines true (sample_bad_adj.map adjline.render))).ending
      = parse_end.assert_degree ∧
    expected_adj (0 : Nat) (adjline.vertex [53] [([32], [49]), ([32], [54])]) = [(5, 6, 0)] := by
  refine ⟨by decide, ?_, ?_, ?_, rfl⟩
  · decide
  · decide
  · decide

/-- C13, amended.  For a file whose first lines are well-formed and are followed by a line
whose declared degree differs from the number of its destination tokens (all lines at most
99999998 characters long), whatever comes after that line: `convert_adjlist` makes the calls
of the well-formed lines, emits an edge for every actual destination of the mismatched line,
logs one error with the declared degree, the number of destinations read and the line number,
and then stops at the failing assertion `assert(num == i)`; nothing after that line is
parsed. -/
theorem convert_adjlist_mismatch_aborts {V : Type} (dflt : V) (pre : List adjline)
    (bad : adjline) (post : List Nat) (hok : ∀ l ∈ pre, adjline_ok l)
    (hlen : ∀ l ∈ pre, l.render.length ≤ 99999998) (hbad : adjline_mismatch bad)
    (hbl : bad.render.length ≤ 99999998) :
    (convert_adjlist dflt
        (text_lines true (pre.map adjline.render) ++ (bad.render ++ 10 :: post))).calls
        = expected_adj_all dflt pre ++ expected_adj dflt bad ∧
      (∃ num i, num ≠ i ∧
        (convert_adjlist dflt
          (text_lines true (pre.map adjline.render) ++ (bad.render ++ 10 :: post))).errors
          = [(num, i, u64 (pre.length + 1))]) ∧
      (convert_adjlist dflt
        (text_lines true (pre.map adjline.render) ++ (bad.render ++ 10 :: post))).ending
        = parse_end.assert_degree := by
  have h := adj_loop_mismatch dflt bad post hbad hbl pre hok hlen _ 0 (Nat.lt_succ_self _)
  obtain ⟨num, i, hne, e1, -⟩ := adj_mismatch_ending hbad (u64 (0 + (pre.length + 1)))
  unfold convert_adjlist
  rw [h, e1, Nat.zero_add]
  exact ⟨rfl, ⟨num, i, hne, rfl⟩, rfl⟩

/-- Witness for the amended C13: the line `7 3 2 8 9`, then the mismatched line `7 4 1 2`,
then the text `5 1 6`. -/
theorem convert_adjlist_mismatch_aborts_witness :
    (∀ l ∈ sample_bad_adj.take 1, adjline_ok l) ∧
    (∀ l ∈ sample_bad_adj.take 1, l.render.length ≤ 99999998) ∧
    adjline_mismatch sample_mismatch ∧ sample_mismatch.render.length ≤ 99999998 ∧
    (convert_adjlist (0 : Nat)
        (text_lines true ((sample_bad_adj.take 1).map adjline.render)
          ++ (sample_mismatch.render ++ 10 :: sample_after))).calls
        = [(7, 2, 0), (7, 8, 0), (7, 9, 0), (7, 1, 0), (7, 2, 0)] ∧
    (convert_adjlist (0 : Nat)
        (text_lines true ((sample_bad_adj.take 1).map adjline.render)
          ++ (sample_mismatch.render ++ 10 :: sample_after))).ending
        = parse_end.assert_degree := by
  obtain ⟨h1, -, h3⟩ := convert_adjlist_mismatch_aborts (0 : Nat) (sample_bad_adj.take 1)
    sample_mismatch sample_after (by decide) (by decide) (by decide) (by decide)
  exact ⟨by decide, by decide, by decide, by decide, h1, h3⟩

theorem token_facts {t : List Nat} (h : token_ok t) :
    t ≠ [] ∧ (∀ c ∈ t, c ∉ [9, 32]) ∧ (∀ c ∈ t, c ≠ 0 ∧ c ≠ 10) := by
  refine ⟨h.1, ?_, ?_⟩
  · intro c hc
    have := h.2 c hc
    simp only [List.mem_cons, List.mem_singleton, List.not_mem_nil, or_false]
    omega
  · intro c hc
    exact ⟨(h.2 c hc).1, (h.2 c hc).2.2.1⟩

theorem atoi_vid_eq {t : List Nat} {x : Int} (h : atoi t = some x) : int_to_vid x = atoi_vid t := by
  unfold atoi_vid
  rw [h]
  rfl

/-- The body of the loop of `convert_edgelist` on a line `a sep b` followed by `R`, the rest
of the line as the third `strtok` sees it, for any two tokens `a` and `b`: the vertex ids are
what `atoi` reads from them. -/
theorem convert_line_tokens {V : Type} (parse : List Nat → V) (dflt : V) {a sep b : List Nat}
    (ha : token_ok a) (h35 : a.head? ≠ some 35) (h37 : a.head? ≠ some 37)
    (hx : (atoi a).isSome = true) (hs : seps_ok sep) (hb : token_ok b)
    (hy : (atoi b).isSome = true) (R : List Nat) (val : V)
    (hR : (R = [] ∧ val = dflt) ∨
      ∃ sep2 v, R = sep2 ++ v ∧ seps_ok sep2 ∧ v ≠ [] ∧ (∀ c ∈ v, c ∉ [9, 32]) ∧
        val = parse v) :
    convert_line parse dflt (a ++ sep ++ b ++ R) =
      some (if atoi_vid a ≠ atoi_vid b then some (atoi_vid a, atoi_vid b, val) else none) := by
  obtain ⟨a1, a2, -⟩ := token_facts ha
  obtain ⟨b1, b2, -⟩ := token_facts hb
  obtain ⟨x, a4⟩ := Option.isSome_iff_exists.1 hx
  obtain ⟨y, b4⟩ := Option.isSome_iff_exists.1 hy
  have a5 := atoi_vid_eq a4
  have b5 := atoi_vid_eq b4
  obtain ⟨d, sep', rfl, hd, hsep', -⟩ := seps_split hs
  have hhead : (a ++ d :: sep' ++ b ++ R).head? = a.head? := by
    cases a with
    | nil => exact absurd rfl a1
    | cons c t => rfl
  have t1 : strtok [9, 32] (a ++ d :: sep' ++ b ++ R) = some (a, sep' ++ b ++ R) := by
    have := (strtok_token [9, 32] [] a (by intro c hc; cases hc) a2 a1).2 d (sep' ++ b ++ R) hd
    simpa [List.append_assoc] using this
  have t2 : ∃ s2, strtok [9, 32] (sep' ++ b ++ R) = some (b, s2) ∧
      (match strtok [9, 32] s2 with
        | some (t3, _) => parse t3
        | none => dflt) = val := by
    rcases hR with ⟨rfl, rfl⟩ | ⟨sep2, v, rfl, hs2, hv1, hv2, rfl⟩
    · refine ⟨[], ?_, rfl⟩
      have := (strtok_token [9, 32] sep' b hsep' b2 b1).1
      simpa using this
    · obtain ⟨d2, sep2', rfl, hd2, hsep2', -⟩ := seps_split hs2
      refine ⟨sep2' ++ v, ?_, ?_⟩
      · have := (strtok_token [9, 32] sep' b hsep' b2 b1).2 d2 (sep2' ++ v) hd2
        simpa [List.append_assoc] using this
      · rw [(strtok_token [9, 32] sep2' v hsep2' hv2 hv1).1]
  obtain ⟨s2, t2a, t2b⟩ := t2
  unfold convert_line
  rw [hhead]
  simp only [h35, h37, if_false]
  rw [t1]
  simp only []
  rw [a4]
  simp only []
  rw [t2a]
  simp only []
  rw [b4]
  simp only []
  rw [t2b, a5, b5]
  by_cases hne : atoi_vid a ≠ atoi_vid b
  · simp only [hne, not_false_eq_true, if_true, ne_eq]
  · simp only [hne, if_false]

theorem raw_render_ok {l : srcline} (h : raw_line_ok l) :
    l.render ≠ [] ∧ (∀ c ∈ l.render, c ≠ 10) ∧
      ∀ a sep b val, l = srcline.edge a sep b val → ∀ c ∈ l.render, c ≠ 0 := by
  cases l with
  | comment mark text =>
    obtain ⟨hm, ht⟩ := h
    refine ⟨by simp [srcline.render], ?_, ?_⟩
    · intro c hc
      rcases List.mem_cons.1 hc with h1 | h1
      · rw [h1]; omega
      · exact ht c h1
    · intro a sep b val h0
      cases h0
  | edge a sep b val =>
    obtain ⟨ha, -, -, -, hs, hb, -, hv⟩ := h
    have ha1 := List.length_pos.2 ha.1
    obtain ⟨-, -, -, -, -, hs4⟩ := seps_split hs
    have ha3 := (token_facts ha).2.2
    have hb3 := (token_facts hb).2.2
    cases val with
    | none =>
      have hall : ∀ c ∈ (srcline.edge a sep b none).render, c ≠ 0 ∧ c ≠ 10 := by
        intro c hc
        simp only [srcline.render, List.mem_append] at hc
        rcases hc with (hc | hc) | hc
        · exact ha3 c hc
        · exact hs4 c hc
        · exact hb3 c hc
      refine ⟨?_, fun c hc => (hall c hc).2, fun _ _ _ _ _ c hc => (hall c hc).1⟩
      intro h0
      have := congrArg List.length h0
      simp only [srcline.render, List.length_append, List.length_nil] at this
      omega
    | some sv =>
      obtain ⟨sep2, v⟩ := sv
      obtain ⟨hs2, hv2⟩ := hv
      obtain ⟨-, -, -, -, -, hs5⟩ := seps_split hs2
      have hv3 := (token_facts hv2).2.2
      have hall : ∀ c ∈ (srcline.edge a sep b (some (sep2, v))).render, c ≠ 0 ∧ c ≠ 10 := by
        intro c hc
        simp only [srcline.render, List.mem_append] at hc
        rcases hc with (((hc | hc) | hc) | hc) | hc
        · exact ha3 c hc
        · exact hs4 c hc
        · exact hb3 c hc
        · exact hs5 c hc
        · exact hv3 c hc
      refine ⟨?_, fun c hc => (hall c hc).2, fun _ _ _ _ _ c hc => (hall c hc).1⟩
      intro h0
      have := congrArg List.length h0
      simp only [srcline.render, List.length_append, List.length_nil] at this
      omega

/-- One line with at least two tokens, with or without its newline, as `fgets` hands it
over: `FIXLINE` succeeds and the body of the loop makes the call for the values `atoi`
reads. -/
theorem raw_line_step {V : Type} (parse : List Nat → V) (dflt : V) {l : srcline}
    (h : raw_line_ok l) :
    (∃ s', FIXLINE (l.render ++ [10]) = some s' ∧
      convert_line parse dflt s' = some (raw_call parse dflt l)) ∧
    (∃ s', FIXLINE l.render = some s' ∧
      convert_line parse dflt s' = some (raw_call parse dflt l)) := by
  obtain ⟨hne, hno, h0⟩ := raw_render_ok h
  cases l with
  | comment mark text =>
    obtain ⟨hm, -⟩ := h
    have hm0 : mark ≠ 0 := by omega
    have hm10 : mark ≠ 10 := by omega
    have hcl : ∀ s' : List Nat, s'.head? = some mark →
        convert_line parse dflt s' = some (raw_call parse dflt (srcline.comment mark text)) := by
      intro s' hs'
      unfold convert_line
      rw [hs']
      rcases hm with rfl | rfl
      · simp [raw_call]
      · simp [raw_call]
    obtain ⟨s1, f1, g1⟩ := fixline_head mark (text ++ [10]) hm0 hm10
    obtain ⟨s2, f2, g2⟩ := fixline_head mark text hm0 hm10
    exact ⟨⟨s1, f1, hcl s1 g1⟩, ⟨s2, f2, hcl s2 g2⟩⟩
  | edge a sep b val =>
    obtain ⟨f1, f2⟩ := fixline_text hne (fun c hc => ⟨h0 a sep b val rfl c hc, hno c hc⟩)
    obtain ⟨ha, h35, h37, hx, hs, hb, hy, hv⟩ := h
    cases val with
    | none =>
      have hcl := convert_line_tokens parse dflt ha h35 h37 hx hs hb hy [] dflt
        (Or.inl ⟨rfl, rfl⟩)
      rw [List.append_nil] at hcl
      exact ⟨⟨_, f1, hcl⟩, ⟨_, f2, hcl⟩⟩
    | some sv =>
      obtain ⟨sep2, v⟩ := sv
      obtain ⟨hs2, hv2⟩ := hv
      have hcl := convert_line_tokens parse dflt ha h35 h37 hx hs hb hy (sep2 ++ v) (parse v)
        (Or.inr ⟨sep2, v, rfl, hs2, (token_facts hv2).1, (token_facts hv2).2.1, rfl⟩)
      rw [← List.append_assoc] at hcl
      exact ⟨⟨_, f1, hcl⟩, ⟨_, f2, hcl⟩⟩

theorem convert_edgelist_loop_raw {V : Type} (parse : List Nat → V) (dflt : V) (nl : Bool)
    (lines : List srcline) :
    (∀ l ∈ lines, raw_line_ok l) → (∀ l ∈ lines, l.render.length ≤ 1022) →
    ∀ fuel, (render_all nl lines).length < fuel →
      convert_edgelist_loop parse dflt fuel (render_all nl lines)
        = some (lines.filterMap (raw_call parse dflt)) := by
  induction lines with
  | nil =>
    intro _ _ fuel hf
    obtain ⟨f, rfl⟩ : ∃ f, fuel = f + 1 := ⟨fuel - 1, by omega⟩
    rfl
  | cons l ls ih =>
    intro hok hlen fuel hf
    obtain ⟨f, rfl⟩ : ∃ f, fuel = f + 1 := ⟨fuel - 1, by omega⟩
    have hl := hok l (List.mem_cons_self _ _)
    have hll := hlen l (List.mem_cons_self _ _)
    obtain ⟨hne, hno, -⟩ := raw_render_ok hl
    obtain ⟨⟨s1, f1, g1⟩, ⟨s2, f2, g2⟩⟩ := raw_line_step parse dflt hl
    have ih' := ih (fun x hx => hok x (List.mem_cons_of_mem _ hx))
      (fun x hx => hlen x (List.mem_cons_of_mem _ hx)) f
    have hcons : (raw_call parse dflt l).toList ++ ls.filterMap (raw_call parse dflt)
        = (l :: ls).filterMap (raw_call parse dflt) := by
      cases he : raw_call parse dflt l with
      | none => simp [List.filterMap_cons, he]
      | some c => simp [List.filterMap_cons, he]
    rcases render_all_cons nl l ls with hr | ⟨hls, hr⟩
    · rw [hr] at hf ⊢
      have hfg : fgets 1024 (l.render ++ 10 :: render_all nl ls)
          = some (l.render ++ [10], render_all nl ls) := by
        rw [fgets_ne (by simp), fgets_take_line _ _ _ hno (by omega)]
      have hlen' : (render_all nl ls).length < f := by
        simp only [List.length_append, List.length_cons] at hf
        omega
      unfold convert_edgelist_loop
      rw [hfg]
      simp only []
      rw [f1]
      simp only []
      rw [g1]
      simp only []
      rw [ih' hlen']
      simp only []
      rw [hcons]
    · rw [hr] at hf ⊢
      have hfg : fgets 1024 l.render = some (l.render, []) := by
        rw [fgets_ne hne, fgets_take_last _ _ hno (by omega)]
      have hrest : convert_edgelist_loop parse dflt f []
          = some (ls.filterMap (raw_call parse dflt)) := by
        rw [hls]
        cases f <;> rfl
      unfold convert_edgelist_loop
      rw [hfg]
      simp only []
      rw [f2]
      simp only []
      rw [g2]
      simp only []
      rw [hrest]
      simp only []
      rw [hcons]

/-- C14, counterexample.  The file `x 5`, `1 2`: the source token of the first line is not a
decimal number, and `convert_edgelist` does not skip the line: `atoi("x")` is 0 and it calls
`preprocessing_add_edge(0, 5, EdgeDataType())`.  An empty line, and a line without a `dst`
token, are not skipped either: `strtok` returns `NULL` and the parser calls `atoi(NULL)`,
which is undefined behaviour (`none`), so that the lines after it are not known to be
parsed. -/
theorem malformed_line_is_not_skipped :
    ¬ number_ok [120] ∧
    convert_edgelist (fun v => v.length) 0 (render_all true (sample_raw.take 2))
      = some [(0, 5, 0), (1, 2, 0)] ∧
    convert_edgelist (fun v => v.length) 0 [10, 49, 32, 53, 10] = none ∧
    convert_edgelist (fun v => v.length) 0 [49, 10, 49, 32, 53, 10] = none := by
  refine ⟨by decide, ?_, ?_, ?_⟩
  · rfl
  · rfl
  · rfl

/-- C14, amended.  `convert_edgelist` does not validate the tokens of a line.  For a file
whose lines are comments or have at least two tokens, whatever the tokens are (the first not
starting with a comment mark, the values read from them fitting `int`), each line at most
1022 characters long: for every non-comment line it calls `preprocessing_add_edge` with the
vertex ids that `atoi` reads from the first two tokens (0 for a token without leading digits)
unless the two ids are equal, and it goes on to parse the lines after it.  Lines without two
tokens are left out: there the parser passes `NULL` to `atoi`. -/
theorem convert_edgelist_reads_any_tokens {V : Type} (parse : List Nat → V) (dflt : V)
    (nl : Bool) (lines : List srcline) (hok : ∀ l ∈ lines, raw_line_ok l)
    (hlen : ∀ l ∈ lines, l.render.length ≤ 1022) :
    convert_edgelist parse dflt (render_all nl lines)
      = some (lines.filterMap (raw_call parse dflt)) :=
  convert_edgelist_loop_raw parse dflt nl lines hok hlen _ (Nat.lt_succ_self _)

/-- Witness for the amended C14: the lines `x 5`, `1 2` and `7 3abc 9` give the edges
`(0,5)`, `(1,2)` and `(7,3)`. -/
theorem convert_edgelist_reads_any_tokens_witness :
    (∀ l ∈ sample_raw, raw_line_ok l) ∧ (∀ l ∈ sample_raw, l.render.length ≤ 1022) ∧
    convert_edgelist (fun v => v.length) 0 (render_all true sample_raw)
      = some [(0, 5, 0), (1, 2, 0), (7, 3, 1)] :=
  ⟨by decide, by decide,
    convert_edgelist_reads_any_tokens (fun v => v.length) 0 true sample_raw (by decide)
      (by decide)⟩

theorem convert_line_parsed {V : Type} (parse : List Nat → V) (dflt : V) (s : List Nat) :
    convert_line parse dflt s =
      match parsed_line parse dflt s with
      | none => none
      | some none => some none
      | some (some p) => if p.1 ≠ p.2.1 then some (some p) else some none := by
  unfold convert_line parsed_line
  by_cases h35 : s.head? = some 35
  · simp only [h35, if_true]
  by_cases h37 : s.head? = some 37
  · simp [h37]
  simp only [h35, h37, if_false]
  cases strtok [9, 32] s with
  | none => rfl
  | some r1 =>
    obtain ⟨t1, s1⟩ := r1
    simp only []
    cases atoi t1 with
    | none => rfl
    | some a =>
      simp only []
      cases strtok [9, 32] s1 with
      | none => rfl
      | some r2 =>
        obtain ⟨t2, s2⟩ := r2
        simp only []
        cases atoi t2 with
        | none => rfl
        | some b => rfl

theorem convert_line_no_self {V : Type} (parse : List Nat → V) (dflt : V) (s : List Nat)
    (c : Nat × Nat × V) (h : convert_line parse dflt s = some (some c)) : c.1 ≠ c.2.1 := by
  rw [convert_line_parsed] at h
  cases hp : parsed_line parse dflt s with
  | none => rw [hp] at h; cases h
  | some r =>
    cases r with
    | none => rw [hp] at h; cases h
    | some p =>
      rw [hp] at h
      simp only [ne_eq, ite_not] at h
      by_cases hne : p.1 = p.2.1
      · rw [if_pos hne] at h; cases h
      · rw [if_neg hne] at h
        cases h
        exact hne

theorem convert_edgelist_loop_no_self {V : Type} (parse : List Nat → V) (dflt : V) :
    ∀ (fuel : Nat) (inp : List Nat) (calls : List (Nat × Nat × V)),
      convert_edgelist_loop parse dflt fuel inp = some calls → ∀ c ∈ calls, c.1 ≠ c.2.1 := by
  intro fuel
  induction fuel with
  | zero =>
    intro inp calls h c hc
    cases h
    cases hc
  | succ f ih =>
    intro inp calls h c hc
    unfold convert_edgelist_loop at h
    cases hfg : fgets 1024 inp with
    | none =>
      rw [hfg] at h
      cases h
      cases hc
    | some r =>
      obtain ⟨s, rest⟩ := r
      rw [hfg] at h
      simp only [] at h
      cases hfix : FIXLINE s with
      | none => rw [hfix] at h; cases h
      | some s' =>
        rw [hfix] at h
        simp only [] at h
        cases hcl : convert_line parse dflt s' with
        | none => rw [hcl] at h; cases h
        | some oc =>
          rw [hcl] at h
          simp only [] at h
          cases hrec : convert_edgelist_loop parse dflt f rest with
          | none => rw [hrec] at h; cases h
          | some cs =>
            rw [hrec] at h
            cases h
            rcases List.mem_append.1 hc with h1 | h1
            · cases oc with
              | none => cases h1
              | some c0 =>
                simp only [Option.toList, List.mem_singleton] at h1
                subst h1
                exact convert_line_no_self parse dflt s' c hcl
            · exact ih rest cs hrec c h1

theorem adj_dests_parsed {V : Type} (dflt : V) (src : Nat) :
    ∀ (fuel : Nat) (s : List Nat) (i : Nat),
      (adj_dests dflt src fuel s i).1
        = (parsed_dests fuel s).filterMap
            (fun dst => if src ≠ dst then some (src, dst, dflt) else none) := by
  intro fuel
  induction fuel with
  | zero => intro s i; rfl
  | succ f ih =>
    intro s i
    unfold adj_dests parsed_dests
    cases strtok [32, 9] s with
    | none => rfl
    | some r =>
      obtain ⟨t, s'⟩ := r
      simp only []
      cases atoi t with
      | none => rfl
      | some x =>
        simp only []
        rw [ih, List.filterMap_cons]
        by_cases hne : src = int_to_vid x
        · simp [hne]
        · simp [hne]

theorem adj_dests_no_self {V : Type} (dflt : V) (src fuel : Nat) (s : List Nat) (i : Nat) :
    ∀ c ∈ (adj_dests dflt src fuel s i).1, c.1 ≠ c.2.1 := by
  intro c hc
  rw [adj_dests_parsed, List.mem_filterMap] at hc
  obtain ⟨dst, -, hto⟩ := hc
  by_cases hne : src = dst
  · simp [hne] at hto
  · simp only [ne_eq, hne, not_false_eq_true, if_true, Option.some.injEq] at hto
    subst hto
    exact hne

theorem adj_line_no_self {V : Type} (dflt : V) (ln : Nat) (s : List Nat) :
    ∀ c ∈ (adj_line dflt ln s).calls, c.1 ≠ c.2.1 := by
  unfold adj_line
  by_cases h35 : s.head? = some 35
  · simp [h35]
  by_cases h37 : s.head? = some 37
  · simp [h35, h37]
  simp only [h35, h37, if_false]
  cases strtok [32, 9] s with
  | none => intro c hc; cases hc
  | some r1 =>
    obtain ⟨t1, s1⟩ := r1
    simp only []
    cases atoi t1 with
    | none => intro c hc; cases hc
    | some a =>
      simp only []
      cases strtok [32, 9] s1 with
      | none => intro c hc; cases hc
      | some r2 =>
        obtain ⟨t2, s2⟩ := r2
        simp only []
        cases atoi t2 with
        | none => intro c hc; cases hc
        | some n =>
          simp only []
          have hd := adj_dests_no_self dflt (int_to_vid a) (s2.length + 1) s2 0
          split
          · exact hd
          · split
            · exact hd
            · exact hd

theorem convert_adjlist_loop_no_self {V : Type} (dflt : V) :
    ∀ (fuel : Nat) (inp : List Nat) (ln : Nat),
      ∀ c ∈ (convert_adjlist_loop dflt fuel inp ln).calls, c.1 ≠ c.2.1 := by
  intro fuel
  induction fuel with
  | zero => intro inp ln c hc; cases hc
  | succ f ih =>
    intro inp ln
    unfold convert_adjlist_loop
    cases fgets maxlen inp with
    | none => intro c hc; cases hc
    | some r =>
      obtain ⟨s, rest⟩ := r
      simp only []
      cases FIXLINE s with
      | none => intro c hc; cases hc
      | some s' =>
        simp only []
        have hl := adj_line_no_self dflt (u64 (ln + 1)) s'
        cases he : (adj_line dflt (u64 (ln + 1)) s').ending with
        | finished =>
          intro c hc
          rcases List.mem_append.1 hc with h1 | h1
          · exact hl c h1
          · exact ih rest (u64 (ln + 1)) c h1
        | assert_degree => exact hl
        | undefined => exact hl

/-- C11.  Self-edges are dropped by both parsers.  For every input text: no call of
`preprocessing_add_edge` that `convert_edgelist` makes has `src == dst`, and no call that
`convert_adjlist` makes has `src == dst`, also in a run that ends at the failing assertion.
Every parsed pair with `src != dst` is passed on: a pass of the loop of `convert_edgelist`
makes the call for the pair it parses from the line exactly when `from != to`, and the loop
over the destinations of `convert_adjlist` makes a call for exactly the values `to` it reads
with `from != to`, in token order. -/
theorem parsers_drop_self_edges {V : Type} (parse : List Nat → V) (dflt : V) :
    (∀ (inp : List Nat) (calls : List (Nat × Nat × V)),
      convert_edgelist parse dflt inp = some calls → ∀ c ∈ calls, c.1 ≠ c.2.1) ∧
    (∀ (inp : List Nat), ∀ c ∈ (convert_adjlist dflt inp).calls, c.1 ≠ c.2.1) ∧
    (∀ (s : List Nat) (p : Nat × Nat × V), parsed_line parse dflt s = some (some p) →
      convert_line parse dflt s = some (if p.1 ≠ p.2.1 then some p else none)) ∧
    (∀ (src fuel : Nat) (s : List Nat) (i : Nat),
      (adj_dests dflt src fuel s i).1
        = (parsed_dests fuel s).filterMap
            (fun dst => if src ≠ dst then some (src, dst, dflt) else none)) := by
  refine ⟨?_, ?_, ?_, ?_⟩
  · intro inp calls h
    exact convert_edgelist_loop_no_self parse dflt _ inp calls h
  · intro inp
    exact convert_adjlist_loop_no_self dflt _ inp 0
  · intro s p hp
    rw [convert_line_parsed, hp]
    by_cases hne : p.1 = p.2.1
    · simp [hne]
    · simp [hne]
  · intro src fuel s i
    exact adj_dests_parsed dflt src fuel s i

/-- Witness for C11: the sample edge list, whose self-edge `1 1` is parsed and makes no
call while the pair `5 6` is passed on, and the sample adjacency list. -/
theorem parsers_drop_self_edges_witness :
    convert_edgelist (fun v => v.length) 0 (render_all true sample_lines)
      = some [(12, 3, 0), (5, 6, 3)] ∧
    (∀ c ∈ [(12, 3, 0), (5, 6, 3)], c.1 ≠ c.2.1) ∧
    (∀ c ∈ (convert_adjlist (0 : Nat) (text_lines true (sample_adj.map adjline.render))).calls,
      c.1 ≠ c.2.1) ∧
    parsed_line (fun v => v.length) 0 [49, 32, 49] = some (some (1, 1, 0)) ∧
    convert_line (fun v => v.length) 0 [49, 32, 49] = some none ∧
    parsed_line (fun v => v.length) 0 [53, 32, 54] = some (some (5, 6, 0)) ∧
    convert_line (fun v => v.length) 0 [53, 32, 54] = some (some (5, 6, 0)) := by
  obtain ⟨h1, h2, h3, -⟩ := parsers_drop_self_edges (fun v => v.length) (0 : Nat)
  exact ⟨rfl, h1 (render_all true sample_lines) _ rfl, h2 _, rfl, h3 [49, 32, 49] (1, 1, 0) rfl, rfl,
    h3 [53, 32, 54] (5, 6, 0) rfl⟩

theorem deg_array_getElem? (n : Nat) (f : Nat → Int) (i : Nat) :
    (deg_array n f)[i]? = if i < n then some ⟨f i, i⟩ else none := by
  unfold deg_array
  rw [List.getElem?_map]
  by_cases h : i < n
  · rw [List.getElem?_range h, if_pos h]
    rfl
  · rw [if_neg h, List.getElem?_eq_none (by simpa using h)]
    rfl

theorem deg_array_length (n : Nat) (f : Nat → Int) : (deg_array n f).length = n := by
  simp [deg_array]

theorem deg_array_congr (n : Nat) (f g : Nat → Int) (h : ∀ i, i < n → f i = g i) :
    deg_array n f = deg_array n g := by
  apply List.ext_getElem?
  intro i
  rw [deg_array_getElem?, deg_array_getElem?]
  by_cases hi : i < n
  · rw [if_pos hi, if_pos hi, h i hi]
  · rw [if_neg hi, if_neg hi]

theorem deg_incr_array (n : Nat) (f : Nat → Int) (v : Nat) (hv : v < n)
    (hf : f v + 1 ≤ 2147483647) :
    deg_incr (deg_array n f) v
      = some (deg_array n (fun i => if i = v then f i + 1 else f i)) := by
  unfold deg_incr
  rw [deg_array_getElem?, if_pos hv]
  simp only []
  rw [if_pos hf]
  congr 1
  apply List.ext_getElem?
  intro i
  rw [List.getElem?_set, deg_array_getElem?, deg_array_getElem?, deg_array_length]
  by_cases hiv : v = i
  · subst hiv
    simp [hv]
  · have hiv' : ¬ i = v := fun h => hiv h.symm
    simp [hiv, hiv']

theorem degree_cons {V : Type} (e : edge_t V) (es : List (edge_t V)) (i : Nat) :
    degree (e :: es) i
      = degree es i + (if e.src = i then 1 else 0) + (if e.dst = i then 1 else 0) := by
  unfold degree
  simp only [List.countP_cons, decide_eq_true_eq]
  omega

theorem degree_le {V : Type} (es : List (edge_t V)) (i : Nat) : degree es i ≤ 2 * es.length := by
  unfold degree
  have h1 := List.countP_le_length (fun e : edge_t V => decide (e.src = i)) (l := es)
  have h2 := List.countP_le_length (fun e : edge_t V => decide (e.dst = i)) (l := es)
  omega

/-- The first pass counts the degrees: entry `i` of the array grows by the number of edges
that have `i` as `src` plus the number that have it as `dst`. -/
theorem count_degrees_array {V : Type} (n : Nat) :
    ∀ (edges : List (edge_t V)) (f : Nat → Int),
      (∀ e ∈ edges, e.src < n ∧ e.dst < n) →
      (∀ i, f i + 2 * (edges.length : Int) ≤ 2147483647) →
      count_degrees (deg_array n f) edges
        = some (deg_array n (fun i => f i + (degree edges i : Int))) := by
  intro edges
  induction edges with
  | nil =>
    intro f _ _
    unfold count_degrees
    congr 1
    apply deg_array_congr
    intro i _
    simp [degree]
  | cons e es ih =>
    intro f hE hf
    have he := hE e (List.mem_cons_self _ _)
    have hlen : ((e :: es).length : Int) = (es.length : Int) + 1 := by
      simp [List.length_cons]
    have h1 : f e.src + 1 ≤ 2147483647 := by
      have := hf e.src
      omega
    have h2 : (fun i => if i = e.src then f i + 1 else f i) e.dst + 1 ≤ 2147483647 := by
      have := hf e.dst
      simp only []
      split <;> omega
    unfold count_degrees
    rw [deg_incr_array n f e.src he.1 h1]
    simp only []
    rw [deg_incr_array n _ e.dst he.2 h2]
    simp only []
    rw [ih _ (fun x hx => hE x (List.mem_cons_of_mem _ hx))
      (by
        intro i
        have := hf i
        rw [hlen] at this
        split <;> split <;> omega)]
    congr 1
    apply deg_array_congr
    intro i _
    rw [degree_cons]
    have e1 : (e.src = i) = (i = e.src) := propext ⟨Eq.symm, Eq.symm⟩
    have e2 : (e.dst = i) = (i = e.dst) := propext ⟨Eq.symm, Eq.symm⟩
    simp only [e1, e2, Nat.cast_add, Nat.cast_ite, Nat.cast_one, Nat.cast_zero]
    split <;> split <;> omega

theorem vertex_degree_less_iff (a b : vertex_degree) :
    vertex_degree_less a b = true ↔ a.deg < b.deg ∨ (a.deg = b.deg ∧ a.id < b.id) := by
  simp [vertex_degree_less]

theorem vertex_degree_less_false_iff (a b : vertex_degree) :
    vertex_degree_less a b = false ↔ ¬ (a.deg < b.deg ∨ (a.deg = b.deg ∧ a.id < b.id)) := by
  rw [← vertex_degree_less_iff]
  simp

theorem deg_array_ids (n : Nat) (f : Nat → Int) :
    (deg_array n f).map (fun d => d.id) = List.range n := by
  unfold deg_array
  rw [List.map_map]
  exact List.map_id _

theorem mem_deg_array (n : Nat) (f : Nat → Int) (d : vertex_degree) :
    d ∈ deg_array n f ↔ d.id < n ∧ d.deg = f d.id := by
  rw [List.mem_iff_getElem?]
  constructor
  · rintro ⟨i, hi⟩
    rw [deg_array_getElem?] at hi
    by_cases h : i < n
    · rw [if_pos h] at hi
      cases hi
      exact ⟨h, rfl⟩
    · rw [if_neg h] at hi
      cases hi
  · rintro ⟨h1, h2⟩
    refine ⟨d.id, ?_⟩
    rw [deg_array_getElem?, if_pos h1, ← h2]

/-- The loop that fills the translation table, over an array whose ids are distinct and
inside the table: the entry for the id at index `j` of the array is `i + j`, and the other
entries keep their values. -/
theorem fill_table_spec :
    ∀ (l : List vertex_degree) (table : List Nat) (i : Nat),
      (l.map (fun d => d.id)).Nodup → (∀ d ∈ l, d.id < table.length) →
      ∃ t, fill_table table l i = some t ∧ t.length = table.length ∧
        (∀ j d, l[j]? = some d → t[d.id]? = some (i + j)) ∧
        (∀ v, (∀ d ∈ l, d.id ≠ v) → t[v]? = table[v]?) := by
  intro l
  induction l with
  | nil =>
    intro table i _ _
    refine ⟨table, rfl, rfl, ?_, fun _ _ => rfl⟩
    intro j d h
    cases h
  | cons d ds ih =>
    intro table i hnd hlt
    have hd := hlt d (List.mem_cons_self _ _)
    rw [List.map_cons, List.nodup_cons] at hnd
    obtain ⟨hnotin, hnd'⟩ := hnd
    obtain ⟨t, h1, h2, h3, h4⟩ := ih (table.set d.id i) (i + 1) hnd'
      (fun x hx => by rw [List.length_set]; exact hlt x (List.mem_cons_of_mem _ hx))
    have hfresh : ∀ x ∈ ds, x.id ≠ d.id := by
      intro x hx he
      exact hnotin (List.mem_map.2 ⟨x, hx, he⟩)
    refine ⟨t, ?_, ?_, ?_, ?_⟩
    · unfold fill_table
      rw [if_pos hd]
      exact h1
    · rw [h2, List.length_set]
    · intro j x hj
      cases j with
      | zero =>
        simp only [List.getElem?_cons_zero, Option.some.injEq] at hj
        subst hj
        rw [h4 d.id hfresh, List.getElem?_set_self hd]
        rfl
      | succ j =>
        simp only [List.getElem?_cons_succ] at hj
        rw [h3 j x hj]
        congr 1
        omega
    · intro v hv
      rw [h4 v (fun x hx => hv x (List.mem_cons_of_mem _ hx))]
      exact List.getElem?_set_ne (hv d (List.mem_cons_self _ _))

theorem translate_some (M : Nat) (t : List Nat) (ht : M < t.length) (vid : Nat) :
    ∃ r, translate M t vid = some r := by
  unfold translate
  by_cases h : vid ≥ M
  · exact ⟨vid, if_pos h⟩
  · rw [if_neg h]
    exact ⟨t[vid], List.getElem?_eq_getElem (by omega)⟩

theorem rewrite_edges_some {V : Type} (M : Nat) (t : List Nat) (ht : M < t.length) :
    ∀ edges : List (edge_t V), ∃ r, rewrite_edges M t edges = some r := by
  intro edges
  induction edges with
  | nil => exact ⟨[], rfl⟩
  | cons e es ih =>
    obtain ⟨r, hr⟩ := ih
    obtain ⟨s, hs⟩ := translate_some M t ht e.src
    obtain ⟨d, hd⟩ := translate_some M t ht e.dst
    refine ⟨⟨s, d, e.value⟩ :: r, ?_⟩
    unfold rewrite_edges
    rw [hs]
    simp only []
    rw [hd]
    simp only []
    rw [hr]

theorem rank_order (sorted : List vertex_degree) (hs : sorted_by_degree sorted) (j1 j2 : Nat)
    (a b : vertex_degree) (h1 : sorted[j1]? = some a) (h2 : sorted[j2]? = some b)
    (hne : a.id ≠ b.id) : j1 < j2 ↔ vertex_degree_less a b = true := by
  obtain ⟨l1, g1⟩ := List.getElem?_eq_some_iff.1 h1
  obtain ⟨l2, g2⟩ := List.getElem?_eq_some_iff.1 h2
  have hp := List.pairwise_iff_getElem.1 hs
  constructor
  · intro hlt
    have := hp j1 j2 l1 l2 hlt
    rw [g1, g2, vertex_degree_less_false_iff] at this
    rw [vertex_degree_less_iff]
    omega
  · intro hless
    by_contra hnot
    rcases Nat.lt_or_ge j2 j1 with h | h
    · have := hp j2 j1 l2 l1 h
      rw [g1, g2, hless] at this
      cases this
    · have hj : j1 = j2 := by omega
      subst hj
      rw [h1] at h2
      cases h2
      exact hne rfl

/-- The table `OrderByDegree::reprocess` computes: it has an entry for every vertex, and the
entry of the id at index `j` of the sorted degree array is `j`. -/
theorem reprocess_table {V : Type} (quickSort : List vertex_degree → List vertex_degree)
    (M : Nat) (edges : List (edge_t V)) (hM : M + 1 < 4294967296)
    (hE : ∀ e ∈ edges, e.src ≤ M ∧ e.dst ≤ M) (hlen : 2 * edges.length ≤ 2147483647)
    (hsort : ∀ degs, degarray_of M edges = some degs →
      (quickSort degs).Perm degs ∧ sorted_by_degree (quickSort degs)) :
    ∃ (r : reprocessed V) (sorted : List vertex_degree),
      reprocess quickSort M edges = some r ∧ r.translate_table.length = M + 1 ∧
      sorted.Perm (deg_array (M + 1) (fun i => (degree edges i : Int))) ∧
      sorted_by_degree sorted ∧
      ∀ (j : Nat) (d : vertex_degree), sorted[j]? = some d →
        r.translate_table[d.id]? = some j := by
  have hu : u32 (M + 1) = M + 1 := by
    unfold u32
    omega
  have hinit : init_degarray (M + 1) = deg_array (M + 1) (fun _ => 0) := rfl
  have hcount : degarray_of M edges
      = some (deg_array (M + 1) (fun i => (degree edges i : Int))) := by
    unfold degarray_of
    rw [hu, hinit, count_degrees_array (M + 1) edges (fun _ => 0)
      (fun e he => ⟨by have := (hE e he).1; omega, by have := (hE e he).2; omega⟩)
      (fun i => by show (0 : Int) + 2 * (edges.length : Int) ≤ 2147483647; omega)]
    congr 1
    apply deg_array_congr
    intro i _
    omega
  obtain ⟨hperm, hsorted⟩ := hsort _ hcount
  have hids : ((quickSort (deg_array (M + 1) (fun i => (degree edges i : Int)))).map
      (fun d => d.id)).Nodup := by
    rw [(hperm.map (fun d => d.id)).nodup_iff, deg_array_ids]
    exact List.nodup_range _
  have hin : ∀ d ∈ quickSort (deg_array (M + 1) (fun i => (degree edges i : Int))),
      d.id < (List.replicate (M + 1) 0).length := by
    intro d hd
    rw [List.length_replicate]
    exact ((mem_deg_array _ _ d).1 (hperm.mem_iff.1 hd)).1
  obtain ⟨t, h1, h2, h3, -⟩ := fill_table_spec _ (List.replicate (M + 1) 0) 0 hids hin
  rw [List.length_replicate] at h2
  obtain ⟨r', hr'⟩ := rewrite_edges_some M t (by omega) edges
  refine ⟨⟨t, (table_bytes t).take (u32 (M + 1)), M, r'⟩, _, ?_, h2, hperm, hsorted, ?_⟩
  · unfold reprocess
    rw [hcount]
    simp only []
    rw [hu, h1]
    simp only []
    rw [hr']
  · intro j d hj
    have := h3 j d hj
    rw [Nat.zero_add] at this
    exact this

/-- C15.  The degree-order translation table is the ranking by `(deg, id)` ascending.  For a
preprocessed file with the maximum vertex id `M` (with `M + 1` vertices counted in a `vid_t`)
whose edges have their endpoints in `[0, M]` and are few enough for the degrees to fit `int`,
and for a `quickSort` that leaves the degree array sorted by `vertex_degree_less` and a
permutation of what it was: `reprocess` produces a table with `M + 1` entries that maps
`[0, M]` into `[0, M]`, onto and one to one, with `table[u] < table[v]` exactly when
`deg(u) < deg(v)`, or `deg(u) == deg(v)` and `u < v`; the vertex with the table value 0 has
minimum degree. -/
theorem degree_order_table_is_ranking {V : Type}
    (quickSort : List vertex_degree → List vertex_degree)
    (M : Nat) (edges : List (edge_t V)) (hM : M + 1 < 4294967296)
    (hE : ∀ e ∈ edges, e.src ≤ M ∧ e.dst ≤ M) (hlen : 2 * edges.length ≤ 2147483647)
    (hsort : ∀ degs, degarray_of M edges = some degs →
      (quickSort degs).Perm degs ∧ sorted_by_degree (quickSort degs)) :
    ∃ r, reprocess quickSort M edges = some r ∧ r.translate_table.length = M + 1 ∧
      (∀ v, v ≤ M → r.translate_table.getD v 0 ≤ M) ∧
      (∀ k, k ≤ M → ∃ v, v ≤ M ∧ r.translate_table.getD v 0 = k) ∧
      (∀ u v, u ≤ M → v ≤ M →
        r.translate_table.getD u 0 = r.translate_table.getD v 0 → u = v) ∧
      (∀ u v, u ≤ M → v ≤ M →
        (r.translate_table.getD u 0 < r.translate_table.getD v 0 ↔
          degree edges u < degree edges v ∨ (degree edges u = degree edges v ∧ u < v))) ∧
      (∀ v, v ≤ M → r.translate_table.getD v 0 = 0 →
        ∀ u, u ≤ M → degree edges v ≤ degree edges u) := by
  obtain ⟨r, sorted, hr, hlen', hperm, hsorted, hidx⟩ :=
    reprocess_table quickSort M edges hM hE hlen hsort
  have hsl : sorted.length = M + 1 := by
    rw [hperm.length_eq, deg_array_length]
  have hrank : ∀ v, v ≤ M → ∃ j, j ≤ M ∧
      sorted[j]? = some ⟨(degree edges v : Int), v⟩ ∧ r.translate_table.getD v 0 = j := by
    intro v hv
    have hmem : (⟨(degree edges v : Int), v⟩ : vertex_degree) ∈ sorted :=
      hperm.mem_iff.2 ((mem_deg_array _ _ _).2 ⟨by simp only []; omega, rfl⟩)
    obtain ⟨j, hj⟩ := List.mem_iff_getElem?.1 hmem
    obtain ⟨lj, -⟩ := List.getElem?_eq_some_iff.1 hj
    refine ⟨j, by omega, hj, ?_⟩
    rw [List.getD_eq_getElem?_getD, hidx j _ hj]
    rfl
  have hinj : ∀ u v, u ≤ M → v ≤ M →
      r.translate_table.getD u 0 = r.translate_table.getD v 0 → u = v := by
    intro u v hu hv he
    obtain ⟨j1, -, a1, b1⟩ := hrank u hu
    obtain ⟨j2, -, a2, b2⟩ := hrank v hv
    have hj : j1 = j2 := by rw [← b1, ← b2, he]
    subst hj
    rw [a1] at a2
    exact congrArg vertex_degree.id (Option.some.inj a2)
  have hord : ∀ u v, u ≤ M → v ≤ M →
      (r.translate_table.getD u 0 < r.translate_table.getD v 0 ↔
        degree edges u < degree edges v ∨ (degree edges u = degree edges v ∧ u < v)) := by
    intro u v hu hv
    obtain ⟨j1, -, a1, b1⟩ := hrank u hu
    obtain ⟨j2, -, a2, b2⟩ := hrank v hv
    by_cases huv : u = v
    · subst huv
      omega
    · rw [b1, b2, rank_order sorted hsorted j1 j2 _ _ a1 a2 huv, vertex_degree_less_iff]
      simp only []
      omega
  refine ⟨r, hr, hlen', ?_, ?_, hinj, hord, ?_⟩
  · intro v hv
    obtain ⟨j, hj, -, b⟩ := hrank v hv
    omega
  · intro k hk
    have hk' : k < sorted.length := by omega
    have hmem : sorted[k] ∈ deg_array (M + 1) (fun i => (degree edges i : Int)) :=
      hperm.mem_iff.1 (List.getElem_mem hk')
    have hid := ((mem_deg_array _ _ _).1 hmem).1
    refine ⟨sorted[k].id, by omega, ?_⟩
    rw [List.getD_eq_getElem?_getD, hidx k _ (List.getElem?_eq_getElem hk')]
    rfl
  · intro v hv h0 u hu
    by_cases huv : u = v
    · subst huv
      exact le_refl _
    · have hne : r.translate_table.getD u 0 ≠ r.translate_table.getD v 0 :=
        fun he => huv (hinj u v hu hv he)
      have := (hord v u hv hu).1 (by omega)
      omega

/-- Witness for C15: the file with the maximum vertex id 2 and the edges `(0,1)`, `(0,2)`,
sorted by insertion sort.  The degrees are 2, 1, 1, and the table is `[2, 0, 1]`: vertex 1
gets rank 0, vertex 2 rank 1, vertex 0 rank 2. -/
theorem degree_order_table_is_ranking_witness :
    2 + 1 < 4294967296 ∧ (∀ e ∈ sample_edges, e.src ≤ 2 ∧ e.dst ≤ 2) ∧
    2 * sample_edges.length ≤ 2147483647 ∧
    (∀ degs, degarray_of 2 sample_edges = some degs →
      (sample_sort degs).Perm degs ∧ sorted_by_degree (sample_sort degs)) ∧
    (reprocess sample_sort 2 sample_edges).map (fun r => r.translate_table) = some [2, 0, 1] ∧
    ∃ r, reprocess sample_sort 2 sample_edges = some r ∧
      (∀ u v, u ≤ 2 → v ≤ 2 →
        (r.translate_table.getD u 0 < r.translate_table.getD v 0 ↔
          degree sample_edges u < degree sample_edges v ∨
            (degree sample_edges u = degree sample_edges v ∧ u < v))) := by
  have hs : ∀ degs, degarray_of 2 sample_edges = some degs →
      (sample_sort degs).Perm degs ∧ sorted_by_degree (sample_sort degs) := by
    intro degs h
    have e : degarray_of 2 sample_edges = some [⟨2, 0⟩, ⟨1, 1⟩, ⟨1, 2⟩] := rfl
    rw [e] at h
    cases h
    exact ⟨by decide, by decide⟩
  obtain ⟨r, hr, -, -, -, -, hord, -⟩ :=
    degree_order_table_is_ranking sample_sort 2 sample_edges (by decide) (by decide)
      (by decide) hs
  exact ⟨by decide, by decide, by decide, hs, rfl, r, hr, hord⟩

/-- C16, the code at the failing input.  The file with the maximum vertex id 2 and the edges
`(0,1)` and `(0,2)`: the table is `[2, 0, 1]`, and the edge `(0,2)` is written as `(2,2)`,
not as `(table[0], table[2]) = (2,1)`: `translate` returns `vid` unchanged for
`vid >= max_vertex_id`, so the vertex with the maximum id is never translated. -/
theorem translate_skips_max_vertex :
    (reprocess sample_sort 2 sample_edges).map (fun r => (r.translate_table, r.edges))
      = some ([2, 0, 1], [⟨2, 0, 10⟩, ⟨2, 2, 20⟩]) ∧
    translate 2 [2, 0, 1] 2 = some 2 ∧ [2, 0, 1].getD 2 0 = 1 := by
  refine ⟨rfl, rfl, rfl⟩

/-- C17, the code at the failing input.  The file with the maximum vertex id 2 and the edges
`(0,1)` and `(0,2)`: the table `[2, 0, 1]` takes 12 bytes, and
`pwrite(df, translate_table, nverts, 0)` writes the first 3 of them: the vertex-map file
does not hold the entries of the vertices 1 and 2. -/
theorem vertexmap_is_truncated :
    (reprocess sample_sort 2 sample_edges).map (fun r => (r.translate_table, r.vertexmap))
      = some ([2, 0, 1], [2, 0, 0]) ∧
    table_bytes [2, 0, 1] = [2, 0, 0, 0, 0, 0, 0, 0, 1, 0, 0, 0] := by
  refine ⟨rfl, rfl⟩

theorem ingested_append {V : Type} (a b : List (sharder_step V)) :
    ingested (a ++ b) = ingested a ++ ingested b := by
  induction a with
  | nil => rfl
  | cons x r ih =>
    cases x <;> simp [ingested, ih]

theorem ingested_calls {V : Type} (calls : List (Nat × Nat × V)) :
    ingested (calls.map (fun c => sharder_step.add_edge c.1 c.2.1 c.2.2)) = calls := by
  induction calls with
  | nil => rfl
  | cons c r ih => simp [ingested, ih]

theorem ingested_errors {V : Type} (errors : List (Nat × Nat × Nat)) :
    ingested (errors.map (fun e => (sharder_step.log_mismatch e.1 e.2.1 e.2.2 : sharder_step V)))
      = [] := by
  induction errors with
  | nil => rfl
  | cons c r ih => simp [ingested, ih]

theorem ingested_finish {V : Type} (preprocessor : Bool) :
    ingested (finish_steps preprocessor : List (sharder_step V)) = [] := by
  cases preprocessor <;> rfl

theorem ingested_adjlist {V : Type} (r : adj_out V) : ingested (adjlist_steps r) = r.calls := by
  unfold adjlist_steps
  rw [ingested_append, ingested_calls, ingested_errors, List.append_nil]

/-- The values of `edgedatatype` other than `"float"`: `main` runs exactly the conversion of
a supported name and returns 0, and runs no conversion and returns -1 for any other
string. -/
theorem main_other_types (edge_data_type : String) (h : edge_data_type ≠ "float") :
    main edge_data_type =
      match supported_type edge_data_type with
      | some t => ([t], 0)
      | none => ([], -1) := by
  unfold main supported_type
  simp only [h, if_false]
  by_cases h1 : edge_data_type = "float-float"
  · subst h1; decide
  by_cases h2 : edge_data_type = "int"
  · subst h2; decide
  by_cases h3 : edge_data_type = "uint"
  · subst h3; decide
  by_cases h4 : edge_data_type = "int-int"
  · subst h4; decide
  by_cases h5 : edge_data_type = "short"
  · subst h5; decide
  by_cases h6 : edge_data_type = "double"
  · subst h6; decide
  by_cases h7 : edge_data_type = "char"
  · subst h7; decide
  by_cases h8 : edge_data_type = "boolean"
  · subst h8; decide
  by_cases h9 : edge_data_type = "long"
  · subst h9; decide
  simp only [h1, h2, h3, h4, h5, h6, h7, h8, h9, if_false, List.nil_append]

/-- C18, the code at the failing input.  For `edgedatatype=float`, one of the ten supported
names, `main` runs `convert<float>` and then returns -1: the test for `"float"` is not
part of the chain of `else if`, so that after the conversion the chain falls through to its
final `else`, which logs that the type is not supported. -/
theorem float_conversion_returns_failure :
    supported_type "float" = some edge_type.float_t ∧
    main "float" = ([edge_type.float_t], -1) := by
  decide

/-- C19.  Sharding is a no-op when shards exist.  When `find_shards` reports a non-zero
count `n`, `convert_if_notexists` returns `n` and takes no step: it ingests no edge, does
not run the preprocessor and does not call `execute_sharding`.  Otherwise it does what
`convert` does and returns its result.  A second invocation, for which `find_shards` finds
the shards the first one has created, is the first case. -/
theorem convert_if_notexists_existing_shards {V : Type} (parse : List Nat → V) (dflt : V)
    (found : Int) (preprocessor : Bool) (preprocessed_file_exists : Bool)
    (file_type_str : String) (input : List Nat) (nshards : Int) :
    (found ≠ 0 →
      convert_if_notexists parse dflt found preprocessor preprocessed_file_exists
        file_type_str input nshards = ([], outcome.returned found)) ∧
    (found = 0 →
      convert_if_notexists parse dflt found preprocessor preprocessed_file_exists
        file_type_str input nshards
        = convert parse dflt preprocessor preprocessed_file_exists file_type_str input
            nshards) := by
  unfold convert_if_notexists
  refine ⟨fun h => if_pos h, fun h => if_neg (fun hne => hne h)⟩

/-- Witness for C19: with 4 shards found nothing is done and 4 is returned; with none found
the sample adjacency list is converted and the result of `execute_sharding` is returned. -/
theorem convert_if_notexists_existing_shards_witness :
    (4 : Int) ≠ 0 ∧
    convert_if_notexists (fun v => v.length) 0 4 true false "adjlist" sample_adj_text 3
      = ([], outcome.returned 4) ∧
    (0 : Int) = 0 ∧
    convert_if_notexists (fun v => v.length) 0 0 true false "adjlist" sample_adj_text 3
      = convert (fun v => v.length) 0 true false "adjlist" sample_adj_text 3 ∧
    (convert (fun v => v.length) 0 true false "adjlist" sample_adj_text 3).2
      = outcome.returned 3 := by
  have h := convert_if_notexists_existing_shards (fun v => v.length) 0 4 true false
    "adjlist" sample_adj_text 3
  have h0 := convert_if_notexists_existing_shards (fun v => v.length) 0 0 true false
    "adjlist" sample_adj_text 3
  exact ⟨by decide, h.1 (by decide), rfl, h0.2 rfl, by decide⟩

/-- C20.  A missing or unknown file type is fatal at startup.  When `convert` has to
preprocess (there is no preprocessed file) and the option `filetype` is neither `"adjlist"`
nor `"edgelist"`, it logs the error and fails the assertion, before `start_preprocessing`,
with no edge ingested and no sharding executed.  With `"adjlist"` it calls
`start_preprocessing` and runs `convert_adjlist`, the edges ingested being those of
`convert_adjlist`; with `"edgelist"` it calls `start_preprocessing` and runs
`convert_edgelist`, the edges ingested being those of `convert_edgelist`, and then finishes
the preprocessing and executes the sharding. -/
theorem convert_checks_filetype {V : Type} (parse : List Nat → V) (dflt : V)
    (preprocessor : Bool) (file_type_str : String) (input : List Nat) (nshards : Int) :
    (file_type_str ≠ "adjlist" → file_type_str ≠ "edgelist" →
      convert parse dflt preprocessor false file_type_str input nshards
        = ([sharder_step.log_error_filetype], outcome.assertion_failed)) ∧
    (file_type_str = "adjlist" →
      (convert parse dflt preprocessor false file_type_str input nshards).1
        = [sharder_step.start_preprocessing] ++ adjlist_steps (convert_adjlist dflt input)
            ++ (if (convert_adjlist dflt input).ending = parse_end.finished
                then finish_steps preprocessor else []) ∧
      ingested (convert parse dflt preprocessor false file_type_str input nshards).1
        = (convert_adjlist dflt input).calls) ∧
    (file_type_str = "edgelist" → ∀ calls, convert_edgelist parse dflt input = some calls →
      convert parse dflt preprocessor false file_type_str input nshards
        = ([sharder_step.start_preprocessing]
            ++ calls.map (fun c => sharder_step.add_edge c.1 c.2.1 c.2.2)
            ++ finish_steps preprocessor, outcome.returned nshards) ∧
      ingested (convert parse dflt preprocessor false file_type_str input nshards).1
        = calls) := by
  refine ⟨?_, ?_, ?_⟩
  · intro h1 h2
    unfold convert
    rw [if_pos rfl, if_pos ⟨h1, h2⟩]
  · intro h
    subst h
    have hc : convert parse dflt preprocessor false "adjlist" input nshards
        = match (convert_adjlist dflt input).ending with
          | parse_end.finished =>
            ([sharder_step.start_preprocessing] ++ adjlist_steps (convert_adjlist dflt input)
              ++ finish_steps preprocessor, outcome.returned nshards)
          | parse_end.assert_degree =>
            ([sharder_step.start_preprocessing] ++ adjlist_steps (convert_adjlist dflt input),
              outcome.assertion_failed)
          | parse_end.undefined =>
            ([sharder_step.start_preprocessing] ++ adjlist_steps (convert_adjlist dflt input),
              outcome.undefined) := by
      unfold convert
      rw [if_pos rfl, if_neg (by decide), if_pos rfl]
    rw [hc]
    cases (convert_adjlist dflt input).ending with
    | finished =>
      refine ⟨by simp, ?_⟩
      simp only [ingested_append, ingested_adjlist, ingested_finish, List.append_nil]
      rfl
    | assert_degree =>
      refine ⟨by simp, ?_⟩
      simp only [ingested_append, ingested_adjlist]
      rfl
    | undefined =>
      refine ⟨by simp, ?_⟩
      simp only [ingested_append, ingested_adjlist]
      rfl
  · intro h calls hcalls
    subst h
    have hc : convert parse dflt preprocessor false "edgelist" input nshards
        = ([sharder_step.start_preprocessing]
            ++ calls.map (fun c => sharder_step.add_edge c.1 c.2.1 c.2.2)
            ++ finish_steps preprocessor, outcome.returned nshards) := by
      unfold convert
      rw [if_pos rfl, if_neg (by decide), if_neg (by decide), if_pos rfl, hcalls]
    rw [hc]
    refine ⟨rfl, ?_⟩
    simp only [ingested_append, ingested_calls, ingested_finish, List.append_nil]
    rfl

/-- Witness for C20: without a file type the assertion fails at once; with `adjlist` the
sample adjacency list is ingested; with `edgelist` the sample edge list. -/
theorem convert_checks_filetype_witness :
    convert (fun v => v.length) 0 true false "" sample_adj_text 3
      = ([sharder_step.log_error_filetype], outcome.assertion_failed) ∧
    ingested (convert (fun v => v.length) 0 true false "adjlist" sample_adj_text 3).1
      = [(7, 2, 0), (7, 8, 0), (7, 9, 0), (5, 6, 0)] ∧
    convert_edgelist (fun v => v.length) 0 (render_all true sample_lines)
      = some [(12, 3, 0), (5, 6, 3)] ∧
    ingested (convert (fun v => v.length) 0 true false "edgelist"
      (render_all true sample_lines) 3).1 = [(12, 3, 0), (5, 6, 3)] := by
  have h1 := (convert_checks_filetype (fun v => v.length) 0 true "" sample_adj_text 3).1
    (by decide) (by decide)
  have h2 := ((convert_checks_filetype (fun v => v.length) 0 true "adjlist" sample_adj_text
    3).2.1 rfl).2
  have h3 := ((convert_checks_filetype (fun v => v.length) 0 true "edgelist"
    (render_all true sample_lines) 3).2.2 rfl [(12, 3, 0), (5, 6, 3)] rfl).2
  exact ⟨h1, h2, rfl, h3⟩

/-- C21.  `set_offset(adj, vid, edata)` resets the cursor.  For every state: afterwards
`adjoffset`, `curvid` and `edataoffset` are the arguments and the adjacency block is absent,
its buffer released if it had one; the active block list, the sparse index, the file sizes,
the block size, the interval and the sessions are unchanged. -/
theorem set_offset_resets_cursor (adj vid edata : Nat) (s : sliding_shard) :
    (set_offset adj vid edata s).adjoffset = adj ∧
    (set_offset adj vid edata s).curvid = vid ∧
    (set_offset adj vid edata s).edataoffset = edata ∧
    (set_offset adj vid edata s).curadjblock = none ∧
    (set_offset adj vid edata s).iomgr.calls = s.iomgr.calls ++ adjblock_release_calls s ∧
    (set_offset adj vid edata s).activeblocks = s.activeblocks ∧
    (set_offset adj vid edata s).curblock = s.curblock ∧
    (set_offset adj vid edata s).sparse_index = s.sparse_index ∧
    (set_offset adj vid edata s).adjfilesize = s.adjfilesize ∧
    (set_offset adj vid edata s).edatafilesize = s.edatafilesize ∧
    (set_offset adj vid edata s).blocksize = s.blocksize ∧
    (set_offset adj vid edata s).range_st = s.range_st ∧
    (set_offset adj vid edata s).range_end = s.range_end ∧
    (set_offset adj vid edata s).edata_session = s.edata_session ∧
    (set_offset adj vid edata s).adjfile_session = s.adjfile_session := by
  unfold set_offset adjblock_release_calls
  cases hb : s.curadjblock with
  | none => simp
  | some b =>
    cases hd : b.data with
    | none => simp [sblock.release, hd]
    | some d => simp [sblock.release, hd, stripedio.call]

/-- C26.  `release_prior_to_offset(all = false)` removes from the active block list exactly
the blocks whose `end` is at most the current edge-data offset: the list it leaves is the
list of the other blocks, unchanged and in their order.  With `all = true` it removes every
block. -/
theorem release_prior_to_offset_removes_ended (dw : Bool) (s : sliding_shard) :
    (release_prior_to_offset false dw s).activeblocks
      = s.activeblocks.filter (fun b => decide (s.edataoffset < b.end_)) ∧
    (∀ b, b ∈ (release_prior_to_offset false dw s).activeblocks ↔
      b ∈ s.activeblocks ∧ ¬ b.end_ ≤ s.edataoffset) ∧
    (release_prior_to_offset false dw s).activeblocks.Sublist s.activeblocks ∧
    (release_prior_to_offset true dw s).activeblocks = [] := by
  have h1 : (release_prior_to_offset false dw s).activeblocks
      = s.activeblocks.filter (fun b => decide (s.edataoffset < b.end_)) := by
    unfold release_prior_to_offset
    rw [release_blocks_eq]
    simp only []
    apply List.filter_congr
    intro b _
    by_cases h : b.end_ ≤ s.edataoffset
    · have h' : ¬ s.edataoffset < b.end_ := by omega
      simp [h, h']
    · have h' : s.edataoffset < b.end_ := by omega
      simp [h, h']
  refine ⟨h1, ?_, ?_, ?_⟩
  · intro b
    rw [h1, List.mem_filter]
    simp
  · rw [h1]
    exact List.filter_sublist _
  · unfold release_prior_to_offset
    rw [release_blocks_eq]
    simp

theorem pad_blocksize_zero (sz fuel : Nat) :
    pad_blocksize sz fuel 0 = 0 := by
  cases fuel with
  | zero => rfl
  | succ f =>
    unfold pad_blocksize
    rw [if_neg (by simp)]

theorem pad_blocksize_wrap (sz : Nat) :
    ∀ (fuel b k : Nat), 1 ≤ k → k ≤ fuel → b + k = 18446744073709551616 →
      (∀ j, j < k → (b + j) % sz ≠ 0) → pad_blocksize sz fuel b = 0 := by
  intro fuel
  induction fuel with
  | zero =>
    intro b k h1 hk _ _
    omega
  | succ fuel ih =>
    intro b k h1 hk hb hno
    have h0 : b % sz ≠ 0 := by
      have := hno 0 (by omega)
      simpa using this
    unfold pad_blocksize
    rw [if_pos h0]
    by_cases hk1 : k = 1
    · have hu : u64 (b + 1) = 0 := by
        unfold u64
        omega
      rw [hu]
      exact pad_blocksize_zero sz fuel
    · have hu : u64 (b + 1) = b + 1 := u64_of_lt (by omega)
      rw [hu]
      apply ih (b + 1) (k - 1) (by omega) (by omega) (by omega)
      intro j hj
      have := hno (j + 1) (by omega)
      rw [show b + 1 + j = b + (j + 1) by omega]
      exact this

theorem least_multiple (s b : Nat) (hs : 0 < s) :
    (b + s - 1) / s * s % s = 0 ∧ b ≤ (b + s - 1) / s * s ∧ (b + s - 1) / s * s < b + s ∧
    ∀ k, k % s = 0 → b ≤ k → (b + s - 1) / s * s ≤ k := by
  have h1 := Nat.div_add_mod (b + s - 1) s
  have h2 := Nat.mod_lt (b + s - 1) hs
  have hm : (b + s - 1) / s * s = s * ((b + s - 1) / s) := Nat.mul_comm _ _
  refine ⟨Nat.mul_mod_left _ _, by omega, by omega, ?_⟩
  intro k hk hbk
  by_contra hlt
  have hk2 := Nat.div_add_mod k s
  rw [hk] at hk2
  have hq : k / s < (b + s - 1) / s := by
    by_contra hge
    have := Nat.mul_le_mul_left s (Nat.le_of_not_lt hge)
    omega
  have := Nat.mul_le_mul_left s (Nat.succ_le_of_lt hq)
  rw [Nat.mul_succ] at this
  omega

/-- C30, counterexample.  For the record size 7 and the requested block size `2^64 - 1`,
which is not a multiple of 7, the loop `while(blocksize % sizeof(ET) != 0) blocksize++`
increments the `size_t` once, to 0, and stops there: the block size it leaves is 0, a
multiple of 7 that is not greater than or equal to the requested size. -/
theorem padding_wraps_to_zero :
    18446744073709551615 % 7 ≠ 0 ∧ pad_blocksize 7 7 18446744073709551615 = 0 := by
  decide

/-- C30, amended.  For every requested block size `b` (a `size_t`) and every record size
`s ≥ 1` the padding loop of the constructor terminates, within `s` passes, and the
assertion `blocksize % sizeof(ET) == 0` holds.  When the least multiple of `s` that is at
least `b` fits a `size_t`, the loop leaves `blocksize` equal to that multiple, so that
`blocksize - b < s`; otherwise the increment wraps around and the loop leaves 0. -/
theorem blocksize_padding (s b : Nat) (hs : 0 < s) (hb : b < 18446744073709551616) :
    pad_blocksize s s b % s = 0 ∧
    ((b + s - 1) / s * s < 18446744073709551616 →
      pad_blocksize s s b = (b + s - 1) / s * s ∧ b ≤ pad_blocksize s s b ∧
      pad_blocksize s s b - b < s ∧
      ∀ k, k % s = 0 → b ≤ k → pad_blocksize s s b ≤ k) ∧
    (18446744073709551616 ≤ (b + s - 1) / s * s → pad_blocksize s s b = 0) := by
  obtain ⟨m1, m2, m3, m4⟩ := least_multiple s b hs
  have hfit : (b + s - 1) / s * s < 18446744073709551616 →
      pad_blocksize s s b = (b + s - 1) / s * s := by
    intro hlt
    obtain ⟨r, h1, h2, h3⟩ := pad_blocksize_run s s b ((b + s - 1) / s * s - b) (by omega)
      (by rw [show b + ((b + s - 1) / s * s - b) = (b + s - 1) / s * s by omega]; exact m1)
      (by omega)
    have := m4 (b + r) h3 (by omega)
    rw [h2]
    omega
  have hwrap : 18446744073709551616 ≤ (b + s - 1) / s * s → pad_blocksize s s b = 0 := by
    intro hge
    apply pad_blocksize_wrap s s b (18446744073709551616 - b) (by omega) (by omega)
      (by omega)
    intro j hj hz
    have := m4 (b + j) hz (by omega)
    omega
  refine ⟨?_, ?_, hwrap⟩
  · rcases Nat.lt_or_ge ((b + s - 1) / s * s) 18446744073709551616 with h | h
    · rw [hfit h]
      exact m1
    · rw [hwrap h]
      exact Nat.zero_mod _
  · intro hlt
    rw [hfit hlt]
    exact ⟨rfl, m2, by omega, m4⟩

/-- Witness for the amended C30: the requested block size 1001 with four-byte records is
padded to 1004. -/
theorem blocksize_padding_witness :
    0 < 4 ∧ 1001 < 18446744073709551616 ∧ (1001 + 4 - 1) / 4 * 4 < 18446744073709551616 ∧
    pad_blocksize 4 4 1001 = 1004 ∧ pad_blocksize 4 4 1001 % 4 = 0 := by
  obtain ⟨h1, h2, -⟩ := blocksize_padding 4 1001 (by decide) (by decide)
  exact ⟨by decide, by decide, by decide, (h2 (by decide)).1, h1⟩

theorem modify_block_view {β : Type} (g : sblock → β) (f : sblock → sblock)
    (hg : ∀ b, g (f b) = g b) (bs : List sblock) (idx : Nat) :
    (modify_block bs idx f).map g = bs.map g := by
  unfold modify_block
  cases h : bs[idx]? with
  | none => rfl
  | some b =>
    simp only []
    apply List.ext_getElem?
    intro k
    rw [List.getElem?_map, List.getElem?_map, List.getElem?_set]
    by_cases hk : idx = k
    · subst hk
      obtain ⟨hl, -⟩ := List.getElem?_eq_some_iff.1 h
      simp [hl, h, hg]
    · simp [hk]

theorem skip_effect (P : params) (n : Int) (s : sliding_shard) (hn0 : 0 ≤ n)
    (hn : n < 536870912) :
    (skip P n 4 s).adjoffset = u64 (s.adjoffset + 4 * n.toNat) ∧
    (skip P n 4 s).edataoffset = u64 (s.edataoffset + P.sizeof_ET * n.toNat) ∧
    (skip P n 4 s).iomgr = s.iomgr ∧ (skip P n 4 s).curblock = s.curblock ∧
    (skip P n 4 s).activeblocks.map (fun b => (b.active, b.data, b.offset, b.end_))
      = s.activeblocks.map (fun b => (b.active, b.data, b.offset, b.end_)) ∧
    (skip P n 4 s).curvid = s.curvid ∧ (skip P n 4 s).sparse_index = s.sparse_index := by
  obtain ⟨m, rfl⟩ : ∃ m : Nat, n = (m : Int) := ⟨n.toNat, by omega⟩
  have ht : int_to_size_t ((m : Int) * 4) = 4 * m := by
    have : ((m : Int) * 4) = ((4 * m : Nat) : Int) := by push_cast; ring
    rw [this]; exact int_to_size_t_nat (by omega)
  have het : int_to_size_t ((P.sizeof_ET : Int) * (m : Int))
      = (P.sizeof_ET * m) % 18446744073709551616 := by
    have : ((P.sizeof_ET : Int) * (m : Int)) = ((P.sizeof_ET * m : Nat) : Int) := by
      push_cast; ring
    rw [this]
    unfold int_to_size_t
    omega
  have hue : u64 (s.edataoffset + (P.sizeof_ET * m) % 18446744073709551616)
      = u64 (s.edataoffset + P.sizeof_ET * m) := by
    unfold u64
    omega
  simp only [Int.toNat_ofNat]
  unfold skip
  simp only [ht, het, hue]
  cases hb : s.curadjblock <;> cases hc : s.curblock <;>
    simp [modify_block_view, hue]

/-- C25.  Skipping does not touch edge data.  For a record with the decoded count
`0 ≤ n < 2^29` whose source index is below `start` (`i < 0`), and likewise for a record
whose vertex is not scheduled: `read_next_vertices` advances `adjoffset` by `4 * n` and
`edataoffset` by `n * sizeof(ET)` (in `size_t` arithmetic), hands back the slots as they
were, calls nothing on the I/O manager, and leaves every block of the active list as it was
but for the read pointer of the current block: no block is allocated, read or marked
active. -/
theorem skipping_leaves_edge_data_alone (P : params) (adj : List Nat) (i n : Int)
    (s : sliding_shard) (prealloc : List svertex) (hn0 : 0 ≤ n) (hn : n < 536870912)
    (hskip : i < 0 ∨
      ∃ v, prealloc[i.toNat]? = some v ∧ v.id = s.curvid ∧ v.scheduled = false) :
    ∃ s', read_record P adj i n s prealloc = .ok (s', prealloc) ∧
      s'.adjoffset = u64 (s.adjoffset + 4 * n.toNat) ∧
      s'.edataoffset = u64 (s.edataoffset + P.sizeof_ET * n.toNat) ∧
      s'.iomgr = s.iomgr ∧ s'.curblock = s.curblock ∧
      s'.activeblocks.map (fun b => (b.active, b.data, b.offset, b.end_))
        = s.activeblocks.map (fun b => (b.active, b.data, b.offset, b.end_)) ∧
      s'.curvid = s.curvid ∧ s'.sparse_index = s.sparse_index := by
  refine ⟨skip P n 4 s, ?_, skip_effect P n s hn0 hn⟩
  unfold read_record
  by_cases hi : i < 0
  · rw [if_pos hi]
    rfl
  · rw [if_neg hi]
    rcases hskip with h | ⟨v, h1, h2, h3⟩
    · exact absurd h hi
    · rw [h1]
      simp only [h2, h3, not_true_eq_false, if_false, Bool.false_eq_true]
      rfl

/-- Witness for C25: a record of two destinations with the source index -1 on the sample
state, whose active list holds one block: both offsets advance by 8, and the I/O manager
and the block are as before. -/
theorem skipping_leaves_edge_data_alone_witness :
    (0 : Int) ≤ 2 ∧ (2 : Int) < 536870912 ∧ (-1 : Int) < 0 ∧
    ∃ s', read_record sample_params [] (-1) 2 idle_state [] = .ok (s', []) ∧
      s'.adjoffset = 8 ∧ s'.edataoffset = 16 ∧ s'.iomgr = idle_state.iomgr ∧
      s'.activeblocks = [idle_block] := by
  obtain ⟨s', h1, h2, h3, h4, -⟩ := skipping_leaves_edge_data_alone sample_params [] (-1) 2
    idle_state [] (by decide) (by decide) (Or.inl (by decide))
  have e : read_record sample_params [] (-1) 2 idle_state [] = .ok (skip sample_params 2 4 idle_state, []) :=
    rfl
  rw [e] at h1
  cases h1
  exact ⟨by decide, by decide, by decide, _, rfl, h2, h3, h4, by decide⟩

theorem map_insert_sorted (k : Int) (e : indexentry) (m : List (Int × indexentry))
    (h : index_sorted m) : index_sorted (map_insert k e m) := by
  induction m with
  | nil => exact List.pairwise_singleton _ _
  | cons a m ih =>
    obtain ⟨k', e'⟩ := a
    have h' := List.pairwise_cons.1 h
    unfold map_insert
    by_cases h1 : k < k'
    · rw [if_pos h1]
      refine List.pairwise_cons.2 ⟨?_, h⟩
      intro x hx
      rcases List.mem_cons.1 hx with hx | hx
      · rw [hx]; exact h1
      · exact lt_trans h1 (h'.1 x hx)
    · rw [if_neg h1]
      by_cases h2 : k = k'
      · rw [if_pos h2]
        exact h
      · rw [if_neg h2]
        refine List.pairwise_cons.2 ⟨?_, ih h'.2⟩
        intro x hx
        rcases mem_map_insert hx with hx | hx
        · rw [hx]
          show k' < k
          omega
        · exact h'.1 x hx

theorem map_insert_key (k : Int) (e : indexentry) (m : List (Int × indexentry)) :
    ∃ e', (k, e') ∈ map_insert k e m := by
  induction m with
  | nil => exact ⟨e, List.mem_singleton.2 rfl⟩
  | cons a m ih =>
    obtain ⟨k', e'⟩ := a
    unfold map_insert
    by_cases h1 : k < k'
    · rw [if_pos h1]
      exact ⟨e, List.mem_cons_self _ _⟩
    · rw [if_neg h1]
      by_cases h2 : k = k'
      · rw [if_pos h2, h2]
        exact ⟨e', List.mem_cons_self _ _⟩
      · rw [if_neg h2]
        obtain ⟨e2, he2⟩ := ih
        exact ⟨e2, List.mem_cons_of_mem _ he2⟩

theorem mem_map_insert_new {k : Int} {e : indexentry} {m : List (Int × indexentry)}
    (hs : index_sorted m) {x : Int × indexentry} (h : x ∈ map_insert k e m) :
    x ∈ m ∨ (x = (k, e) ∧ ∀ y ∈ m, y.1 ≠ k) := by
  induction m with
  | nil =>
    simp only [map_insert, List.mem_singleton] at h
    exact Or.inr ⟨h, fun y hy => by cases hy⟩
  | cons a m ih =>
    obtain ⟨k', e'⟩ := a
    have h' := List.pairwise_cons.1 hs
    unfold map_insert at h
    by_cases h1 : k < k'
    · rw [if_pos h1] at h
      rcases List.mem_cons.1 h with h | h
      · right
        refine ⟨h, ?_⟩
        intro y hy
        rcases List.mem_cons.1 hy with hy | hy
        · rw [hy]
          show k' ≠ k
          omega
        · have := h'.1 y hy
          have h3 : k' < y.1 := this
          omega
      · exact Or.inl h
    · rw [if_neg h1] at h
      by_cases h2 : k = k'
      · rw [if_pos h2] at h
        exact Or.inl h
      · rw [if_neg h2] at h
        rcases List.mem_cons.1 h with h | h
        · exact Or.inl (h ▸ List.mem_cons_self _ _)
        · rcases ih h'.2 h with h3 | ⟨h3, h4⟩
          · exact Or.inl (List.mem_cons_of_mem _ h3)
          · right
            refine ⟨h3, ?_⟩
            intro y hy
            rcases List.mem_cons.1 hy with hy | hy
            · rw [hy]
              show k' ≠ k
              omega
            · exact h4 y hy

theorem map_lower_bound_min {k : Int} {m : List (Int × indexentry)} (hs : index_sorted m)
    {y : Int × indexentry} (h : map_lower_bound k m = some y) :
    y ∈ m ∧ k ≤ y.1 ∧ ∀ x ∈ m, k ≤ x.1 → y.1 ≤ x.1 := by
  induction m with
  | nil => cases h
  | cons a m ih =>
    obtain ⟨k', e'⟩ := a
    have h' := List.pairwise_cons.1 hs
    unfold map_lower_bound at h
    by_cases h1 : k ≤ k'
    · rw [if_pos h1] at h
      cases h
      refine ⟨List.mem_cons_self _ _, h1, ?_⟩
      intro x hx _
      rcases List.mem_cons.1 hx with hx | hx
      · rw [hx]
      · exact le_of_lt (h'.1 x hx)
    · rw [if_neg h1] at h
      obtain ⟨g1, g2, g3⟩ := ih h'.2 h
      refine ⟨List.mem_cons_of_mem _ g1, g2, ?_⟩
      intro x hx hk
      rcases List.mem_cons.1 hx with hx | hx
      · rw [hx] at hk
        exact absurd hk h1
      · exact g3 x hx hk

/-- The index after a sequence of `save_offset` calls on the index `m`: it is sorted, it
holds an entry for the key of every cursor, and each of its entries is one of `m` or the
entry of the first cursor recorded with its key. -/
theorem recorded_from (cps : List (Nat × indexentry)) :
    ∀ m : List (Int × indexentry), index_sorted m →
      index_sorted (cps.foldl (fun m c => map_insert (-(to_int c.1)) c.2 m) m) ∧
      (∀ x ∈ m, x ∈ cps.foldl (fun m c => map_insert (-(to_int c.1)) c.2 m) m) ∧
      (∀ c ∈ cps, ∃ e,
        (-(to_int c.1), e) ∈ cps.foldl (fun m c => map_insert (-(to_int c.1)) c.2 m) m) ∧
      (∀ x ∈ cps.foldl (fun m c => map_insert (-(to_int c.1)) c.2 m) m,
        x ∈ m ∨ ∃ l1 c l2, cps = l1 ++ c :: l2 ∧ x = (-(to_int c.1), c.2) ∧
          (∀ y ∈ l1, to_int y.1 ≠ to_int c.1) ∧ ∀ y ∈ m, y.1 ≠ -(to_int c.1)) := by
  induction cps with
  | nil =>
    intro m hm
    exact ⟨hm, fun x hx => hx, fun c hc => (by cases hc), fun x hx => Or.inl hx⟩
  | cons c cps ih =>
    intro m hm
    obtain ⟨i1, i2, i3, i4⟩ := ih (map_insert (-(to_int c.1)) c.2 m)
      (map_insert_sorted _ _ m hm)
    rw [List.foldl_cons]
    refine ⟨i1, fun x hx => i2 x (mem_map_insert_of_mem hx), ?_, ?_⟩
    · intro c' hc'
      rcases List.mem_cons.1 hc' with h | h
      · rw [h]
        obtain ⟨e, he⟩ := map_insert_key (-(to_int c.1)) c.2 m
        exact ⟨e, i2 _ he⟩
      · exact i3 c' h
    · intro x hx
      rcases i4 x hx with h | ⟨l1, c', l2, h1, h2, h3, h4⟩
      · rcases mem_map_insert_new hm h with h | ⟨h5, h6⟩
        · exact Or.inl h
        · exact Or.inr ⟨[], c, cps, rfl, h5, fun y hy => (by cases hy), h6⟩
      · right
        refine ⟨c :: l1, c', l2, by rw [h1]; rfl, h2, ?_, ?_⟩
        · intro y hy
          rcases List.mem_cons.1 hy with hy | hy
          · rw [hy]
            obtain ⟨e, he⟩ := map_insert_key (-(to_int c.1)) c.2 m
            have := h4 _ he
            intro heq
            apply this
            show -(to_int c.1) = -(to_int c'.1)
            rw [heq]
          · exact h3 y hy
        · intro y hy
          exact h4 y (mem_map_insert_of_mem hy)

theorem to_int_inj {a b : Nat} (ha : a < 4294967296) (hb : b < 4294967296)
    (h : to_int a = to_int b) : a = b := by
  unfold to_int u32 at h
  rw [Nat.mod_eq_of_lt ha, Nat.mod_eq_of_lt hb] at h
  split at h <;> split at h <;> omega

theorem to_int_nonneg {a : Nat} (ha : a < 4294967296) (h : 0 ≤ to_int a) :
    a < 2147483648 := by
  unfold to_int u32 at h
  rw [Nat.mod_eq_of_lt ha] at h
  split at h <;> omega

theorem record_at_index (cps : List (Nat × indexentry)) : ∀ s : sliding_shard,
    (cps.foldl record_at s).sparse_index =
      cps.foldl (fun m c => map_insert (-(to_int c.1)) c.2 m) s.sparse_index := by
  induction cps with
  | nil => intro s; rfl
  | cons c cps ih =>
    intro s
    rw [List.foldl_cons, List.foldl_cons, ih]
    rfl

/-- C22: the sparse-index lookup is the floor. For checkpoints `cps` recorded by
`save_offset` in this order on an empty index, and a target `v` below 2^31 with at least
one checkpoint at or below it, `lower_bound(-v)` selects the checkpoint `c` with the
largest vertex id at or below `v` (the one recorded first with this id, which is the one
the map keeps), and `move_close_to(v)` from a cursor behind `c` puts the cursor at the id
and the two offsets of `c`. -/
theorem sparse_lookup_is_floor (cps : List (Nat × indexentry)) (v : Nat)
    (hv : v < 2147483648) (hvid : ∀ c ∈ cps, c.1 < 4294967296)
    (hex : ∃ c ∈ cps, c.1 ≤ v) :
    (∀ s0 : sliding_shard, s0.sparse_index = [] →
      (cps.foldl record_at s0).sparse_index = recorded cps) ∧
    ∃ (c : Nat × indexentry) (l1 l2 : List (Nat × indexentry)),
      cps = l1 ++ c :: l2 ∧ (∀ y ∈ l1, y.1 ≠ c.1) ∧ c.1 ≤ v ∧
      (∀ c' ∈ cps, c'.1 ≤ v → c'.1 ≤ c.1) ∧
      map_lower_bound (-(to_int v)) (recorded cps) = some (-(c.1 : Int), c.2) ∧
      (∀ s : sliding_shard, s.sparse_index = recorded cps → s.curvid < c.1 →
        ∃ s', move_close_to v s = .ok s' ∧ s'.curvid = c.1 ∧
          s'.adjoffset = c.2.adjoffset ∧ s'.edataoffset = c.2.edataoffset) := by
  refine ⟨fun s0 h0 => by rw [record_at_index, h0]; rfl, ?_⟩
  obtain ⟨i1, -, i3, i4⟩ := recorded_from cps [] List.Pairwise.nil
  have key : ∀ c' ∈ cps, c'.1 ≤ v → ∃ e, (-(c'.1 : Int), e) ∈ recorded cps := by
    intro c' hc' hle
    obtain ⟨e, he⟩ := i3 c' hc'
    rw [to_int_of_lt (by omega)] at he
    exact ⟨e, he⟩
  obtain ⟨c0, hc0, hle0⟩ := hex
  obtain ⟨e0, he0⟩ := key c0 hc0 hle0
  obtain ⟨ke, h1, h2, h3⟩ := map_lower_bound_some (k := -(to_int v)) he0
    (by rw [to_int_of_lt hv]; show -(v : Int) ≤ -(c0.1 : Int); omega)
  obtain ⟨-, -, hmin⟩ := map_lower_bound_min i1 h1
  rcases i4 ke h2 with h | ⟨l1, c, l2, hcps, hke, hl1, -⟩
  · cases h
  have hc : c ∈ cps := by rw [hcps]; simp
  have hk0 := hmin _ he0 (by rw [to_int_of_lt hv]; show -(v : Int) ≤ -(c0.1 : Int); omega)
  rw [hke] at h3 hk0
  rw [to_int_of_lt hv] at h3
  have hnn : 0 ≤ to_int c.1 := by
    have : (-(to_int c.1) : Int) ≤ -(c0.1 : Int) := hk0
    omega
  have hc31 := to_int_nonneg (hvid c hc) hnn
  have hti := to_int_of_lt hc31
  rw [hti] at hke
  have hcv : c.1 ≤ v := by
    have : (-(v : Int)) ≤ -(to_int c.1) := h3
    rw [hti] at this
    omega
  refine ⟨c, l1, l2, hcps, ?_, hcv, ?_, by rw [h1, hke], ?_⟩
  · intro y hy heq
    exact hl1 y hy (by rw [heq])
  · intro c' hc' hle
    obtain ⟨e, he⟩ := key c' hc' hle
    have := hmin _ he (by rw [to_int_of_lt hv]; show -(v : Int) ≤ -(c'.1 : Int); omega)
    rw [hke] at this
    have h4 : (-(c.1 : Int)) ≤ -(c'.1 : Int) := this
    omega
  · intro s hs hlt
    have hge : ¬ s.curvid ≥ v := by omega
    unfold move_close_to
    simp only [hge, if_false]
    rw [hs, h1, hke]
    simp only []
    rw [to_int_of_lt hv, to_int_of_lt (show s.curvid < 2147483648 by omega)]
    have c1 : (-(-((c.1 : Nat) : Int))) ≥ 0 := by omega
    have c2 : (-(-((c.1 : Nat) : Int))) ≤ (v : Int) := by omega
    have c3 : (-(-((c.1 : Nat) : Int))) > (s.curvid : Int) := by omega
    simp only [c1, c2, c3, not_true_eq_false, if_false, if_true]
    refine ⟨_, rfl, ?_, rfl, rfl⟩
    show u32 (-(-((c.1 : Nat) : Int))).toNat = c.1
    rw [neg_neg, Int.toNat_ofNat]
    unfold u32
    exact Nat.mod_eq_of_lt (hvid c hc)

theorem sparse_lookup_is_floor_witness :
    (∀ s0 : sliding_shard, s0.sparse_index = [] →
      (sample_checkpoints.foldl record_at s0).sparse_index = recorded sample_checkpoints) ∧
    ∃ (c : Nat × indexentry) (l1 l2 : List (Nat × indexentry)),
      sample_checkpoints = l1 ++ c :: l2 ∧ (∀ y ∈ l1, y.1 ≠ c.1) ∧ c.1 ≤ 150000 ∧
      (∀ c' ∈ sample_checkpoints, c'.1 ≤ 150000 → c'.1 ≤ c.1) ∧
      map_lower_bound (-(to_int 150000)) (recorded sample_checkpoints) =
        some (-(c.1 : Int), c.2) ∧
      (∀ s : sliding_shard, s.sparse_index = recorded sample_checkpoints → s.curvid < c.1 →
        ∃ s', move_close_to 150000 s = .ok s' ∧ s'.curvid = c.1 ∧
          s'.adjoffset = c.2.adjoffset ∧ s'.edataoffset = c.2.edataoffset) :=
  sparse_lookup_is_floor sample_checkpoints 150000 (by decide) (by decide)
    ⟨(100000, indexentry.mk 500 400), by decide, by decide⟩

/-- The lookup of the sample: the floor of 150000 is the checkpoint at 100000 with the
offsets recorded first. -/
theorem sample_lookup :
    map_lower_bound (-(to_int 150000)) (recorded sample_checkpoints) =
      some (-100000, indexentry.mk 500 400) := by
  decide

theorem tr_refl (s : sliding_shard) : tr s s :=
  ⟨⟨[], by simp, fun c hc => by cases hc⟩, le_refl _, rfl, rfl, rfl, rfl, rfl⟩

theorem allowed_of_tr {s s' : sliding_shard} (h : tr s s') {c : iocall} (hc : allowed s' c) :
    allowed s c := by
  cases c <;> simp only [allowed] at hc ⊢
  · rw [h.asess, h.asyncl, h.needr] at hc
    exact hc
  · rw [h.asyncl] at hc
    exact hc

theorem tr_trans {a b c : sliding_shard} (h1 : tr a b) (h2 : tr b c) : tr a c := by
  obtain ⟨c1, e1, q1⟩ := h1.calls
  obtain ⟨c2, e2, q2⟩ := h2.calls
  refine ⟨⟨c1 ++ c2, by rw [e2, e1, List.append_assoc], ?_⟩, le_trans h1.nbufs h2.nbufs,
    h2.esess.trans h1.esess, h2.asess.trans h1.asess, h2.asyncl.trans h1.asyncl,
    h2.needr.trans h1.needr, h2.onlya.trans h1.onlya⟩
  intro x hx
  rcases List.mem_append.1 hx with hx | hx
  · exact q1 x hx
  · exact allowed_of_tr h1 (q2 x hx)

/-- A step that leaves the I/O manager, the sessions and the flags alone. -/
theorem tr_same {s s' : sliding_shard} (h1 : s'.iomgr = s.iomgr)
    (h2 : s'.edata_session = s.edata_session) (h3 : s'.adjfile_session = s.adjfile_session)
    (h4 : s'.async_edata_loading = s.async_edata_loading)
    (h5 : s'.need_read_outedges = s.need_read_outedges)
    (h6 : s'.only_adjacency = s.only_adjacency) : tr s s' :=
  ⟨⟨[], by rw [h1]; simp, fun c hc => by cases hc⟩, by rw [h1], h2, h3, h4, h5, h6⟩

theorem tr_frame6 {s : sliding_shard} {io : stripedio} {ao eo : Nat} {cab : Option sblock}
    {bl : List sblock} {cb : Option Nat} (cs : List iocall)
    (h1 : io.calls = s.iomgr.calls ++ cs) (h2 : ∀ c ∈ cs, allowed s c)
    (h3 : s.iomgr.nbufs ≤ io.nbufs) :
    tr s { s with iomgr := io, adjoffset := ao, curadjblock := cab, edataoffset := eo,
                  activeblocks := bl, curblock := cb } :=
  ⟨⟨cs, h1, h2⟩, h3, rfl, rfl, rfl, rfl, rfl⟩

theorem tr_res_ok {α : Type} {s : sliding_shard} {st : α → sliding_shard} {x : α}
    (h : tr s (st x)) : tr_res s st (.ok x) := h

theorem tr_res_error {α : Type} {s s' : sliding_shard} {st : α → sliding_shard} {f : fault}
    (h : tr s s') : tr_res s st (.error (f, s')) := h

theorem tr_res_trans {α : Type} {s s1 : sliding_shard} {st : α → sliding_shard} {r : res α}
    (h1 : tr s s1) (h2 : tr_res s1 st r) : tr_res s st r :=
  tr_trans h1 h2

theorem load_next_block_tr (s : sliding_shard) : tr_res s id (load_next_block s) := by
  unfold load_next_block
  simp only []
  split
  · exact tr_res_error (tr_refl s)
  · exact tr_res_ok (@tr_frame6 s _ s.adjoffset s.edataoffset s.curadjblock _ _
      [iocall.managed_malloc s.edata_session _] rfl
      (fun c hc => by rw [List.mem_singleton.1 hc]; trivial) (Nat.le_succ _))

theorem release_tr (s : sliding_shard) (b : sblock) :
    ∃ cs, (b.release s.iomgr).2.calls = s.iomgr.calls ++ cs ∧ (∀ c ∈ cs, allowed s c) ∧
      (b.release s.iomgr).2.nbufs = s.iomgr.nbufs := by
  unfold sblock.release
  split
  · exact ⟨[_], rfl, fun c hc => by rw [List.mem_singleton.1 hc]; trivial, rfl⟩
  · exact ⟨[], by simp, fun c hc => (by cases hc), rfl⟩

theorem check_curblock_tr (sz : Nat) (s : sliding_shard) :
    tr_res s id (check_curblock sz s) := by
  unfold check_curblock
  split
  · exact load_next_block_tr s
  · split
    · exact tr_res_error (tr_refl s)
    · rename_i idx cb hcb
      split
      · split
        · obtain ⟨cs, h1, h2, h3⟩ := release_tr s cb
          refine tr_res_trans ?_ (load_next_block_tr _)
          exact @tr_frame6 s _ s.adjoffset s.edataoffset s.curadjblock _ s.curblock cs h1 h2
            (le_of_eq h3.symm)
        · exact load_next_block_tr s
      · exact tr_res_ok (tr_refl s)

theorem load_adjblock_tr (s : sliding_shard) : tr_res s id (load_adjblock s) := by
  unfold load_adjblock
  simp only []
  split
  · exact tr_res_error (tr_refl s)
  · split
    · exact tr_res_error (tr_refl s)
    · refine tr_res_ok (@tr_frame6 s _ s.adjoffset s.edataoffset _ s.activeblocks s.curblock
        [iocall.managed_malloc s.adjfile_session
            { id := s.iomgr.nbufs, session := s.adjfile_session, offset := s.adjoffset,
              length := min s.adjfilesize (u64 (s.adjoffset + s.blocksize)) - s.adjoffset },
          iocall.managed_preada_now s.adjfile_session
            { id := s.iomgr.nbufs, session := s.adjfile_session, offset := s.adjoffset,
              length := min s.adjfilesize (u64 (s.adjoffset + s.blocksize)) - s.adjoffset }
            (min s.adjfilesize (u64 (s.adjoffset + s.blocksize)) - s.adjoffset) s.adjoffset]
        ?_ ?_ (Nat.le_succ _))
      · simp [stripedio.call, stripedio.managed_malloc]
      · intro c hc
        simp only [List.mem_cons, List.mem_singleton, List.not_mem_nil, or_false] at hc
        rcases hc with hc | hc <;> rw [hc]
        · trivial
        · exact Or.inl rfl

theorem check_adjblock_tr (sz : Nat) (s : sliding_shard) :
    tr_res s id (check_adjblock sz s) := by
  unfold check_adjblock
  split
  · exact load_adjblock_tr s
  · rename_i b hb
    split
    · obtain ⟨cs, h1, h2, h3⟩ := release_tr s b
      refine tr_res_trans ?_ (load_adjblock_tr _)
      exact @tr_frame6 s _ s.adjoffset s.edataoffset none s.activeblocks s.curblock cs h1 h2
        (le_of_eq h3.symm)
    · exact tr_res_ok (tr_refl s)

theorem read_val_tr (adj : List Nat) (sz : Nat) (s : sliding_shard) :
    tr_res s Prod.snd (read_val adj sz s) := by
  have h0 := check_adjblock_tr sz s
  unfold read_val
  split
  · rename_i e h1
    rw [h1] at h0
    exact h0
  · rename_i s1 h1
    rw [h1] at h0
    have t1 : tr s s1 := h0
    split
    · exact tr_res_error t1
    · split
      · exact tr_res_error t1
      · split
        · exact tr_res_ok (tr_trans t1 (tr_same rfl rfl rfl rfl rfl rfl))
        · exact tr_res_error t1

theorem read_edgeptr_tr (sz : Nat) (s : sliding_shard) :
    tr_res s Prod.snd (read_edgeptr sz s) := by
  have h0 := check_curblock_tr sz s
  unfold read_edgeptr
  split
  · exact tr_res_ok (tr_refl s)
  · split
    · rename_i e h1
      rw [h1] at h0
      exact h0
    · rename_i s1 h1
      rw [h1] at h0
      have t1 : tr s s1 := h0
      split
      · exact tr_res_error t1
      · split
        · exact tr_res_error t1
        · exact tr_res_ok (tr_trans t1 (tr_same rfl rfl rfl rfl rfl rfl))

theorem skip_tr (P : params) (n sz : Int) (s : sliding_shard) : tr s (skip P n sz s) := by
  unfold skip
  simp only []
  cases s.curadjblock <;> cases s.curblock <;> exact tr_same rfl rfl rfl rfl rfl rfl

theorem activate_curblock_tr (s : sliding_shard) : tr_res s id (activate_curblock s) := by
  unfold activate_curblock
  split
  · exact tr_res_error (tr_refl s)
  · split
    · exact tr_res_error (tr_refl s)
    · rename_i idx cb hcb
      refine tr_res_ok ?_
      have key : ∃ cs, (if cb.active = false then
            if s.async_edata_loading = true then cb.read_async s.iomgr
            else if s.need_read_outedges = true then cb.read_now s.iomgr
            else s.iomgr
          else s.iomgr).calls = s.iomgr.calls ++ cs ∧ (∀ c ∈ cs, allowed s c) ∧
          (if cb.active = false then
            if s.async_edata_loading = true then cb.read_async s.iomgr
            else if s.need_read_outedges = true then cb.read_now s.iomgr
            else s.iomgr
          else s.iomgr).nbufs = s.iomgr.nbufs := by
        have nil : ∃ cs, s.iomgr.calls = s.iomgr.calls ++ cs ∧ (∀ c ∈ cs, allowed s c) ∧
            s.iomgr.nbufs = s.iomgr.nbufs := ⟨[], by simp, fun c hc => (by cases hc), rfl⟩
        split
        · split
          · rename_i ha
            unfold sblock.read_async
            split
            · exact ⟨[_], rfl, fun c hc => by rw [List.mem_singleton.1 hc]; exact ha, rfl⟩
            · exact nil
          · rename_i ha
            split
            · rename_i hn
              unfold sblock.read_now
              split
              · refine ⟨[_], rfl, fun c hc => ?_, rfl⟩
                rw [List.mem_singleton.1 hc]
                exact Or.inr ⟨by simpa using ha, hn⟩
              · exact nil
            · exact nil
        · exact nil
      obtain ⟨cs, h1, h2, h3⟩ := key
      exact @tr_frame6 s _ s.adjoffset s.edataoffset s.curadjblock _ s.curblock cs h1 h2
        (le_of_eq h3.symm)

theorem check_target_tr (t : Nat) (s : sliding_shard) (v : svertex) :
    tr_res s Prod.fst (check_target t s v) := by
  unfold check_target
  split
  · refine tr_res_error ⟨⟨[iocall.print_session s.adjfile_session], rfl, ?_⟩, le_refl _, rfl,
      rfl, rfl, rfl, rfl⟩
    intro c hc
    rw [List.mem_singleton.1 hc]
    trivial
  · exact tr_res_ok (tr_refl s)

theorem read_edge_tr (P : params) (adj : List Nat) (s : sliding_shard) (v : svertex) :
    tr_res s Prod.fst (read_edge P adj s v) := by
  have h0 := read_val_tr adj 4 s
  unfold read_edge
  split
  · rename_i e h1
    rw [h1] at h0
    exact h0
  · rename_i raw s1 h1
    rw [h1] at h0
    have t1 : tr s s1 := h0
    simp only []
    have h2 := read_edgeptr_tr
      (if (if P.sizeof_ET = P.sizeof_ETspecial then (raw, false) else P.translate_edge raw).2
        = true then P.sizeof_ETspecial else P.sizeof_ET) s1
    split
    · rename_i e h3
      rw [h3] at h2
      exact tr_res_trans t1 h2
    · rename_i ev s2 h3
      rw [h3] at h2
      have t2 : tr s s2 := tr_trans t1 h2
      have h4 : tr_res s2 id (if s2.only_adjacency = false then activate_curblock s2
          else pure s2) := by
        split
        · exact activate_curblock_tr s2
        · exact tr_res_ok (tr_refl s2)
      split
      · rename_i e h5
        rw [h5] at h4
        exact tr_res_trans t2 h4
      · rename_i s3 h5
        rw [h5] at h4
        exact tr_res_trans (tr_trans t2 h4) (check_target_tr _ _ _)

theorem read_edges_tr (P : params) (adj : List Nat) (k : Nat) :
    ∀ (s : sliding_shard) (v : svertex), tr_res s Prod.fst (read_edges P adj k s v) := by
  induction k with
  | zero =>
    intro s v
    exact tr_res_ok (tr_refl s)
  | succ k ih =>
    intro s v
    have h0 := read_edge_tr P adj s v
    unfold read_edges
    split
    · rename_i e h1
      rw [h1] at h0
      exact h0
    · rename_i s1 v1 h1
      rw [h1] at h0
      exact tr_res_trans h0 (ih s1 v1)

theorem record_checkpoint_tr (nvecs : Int) (ri : Bool) (l : Nat) (s : sliding_shard) :
    tr s (record_checkpoint nvecs ri l s).1 := by
  rcases record_checkpoint_fields nvecs ri l s with e | e <;> rw [e]
  · exact tr_refl s
  · exact tr_same rfl rfl rfl rfl rfl rfl

theorem read_count_tr (adj : List Nat) (ns : Nat) (s : sliding_shard) :
    tr_res s Prod.snd (read_count adj ns s) := by
  have h0 := read_val_tr adj 4 s
  unfold read_count
  split
  · split
    · rename_i e h1
      rw [h1] at h0
      exact h0
    · rename_i c s1 h1
      rw [h1] at h0
      exact h0
  · exact tr_res_ok (tr_refl s)

theorem read_record_tr (P : params) (adj : List Nat) (i n : Int) (s : sliding_shard)
    (pre : List svertex) : tr_res s Prod.fst (read_record P adj i n s pre) := by
  unfold read_record
  split
  · exact tr_res_ok (skip_tr P n 4 s)
  · split
    · exact tr_res_error (tr_refl s)
    · rename_i vertex hv
      split
      · exact tr_res_error (tr_refl s)
      · split
        · have h0 := read_edges_tr P adj n.toNat s vertex
          split
          · rename_i e h1
            rw [h1] at h0
            exact h0
          · rename_i s1 v1 h1
            rw [h1] at h0
            exact h0
        · exact tr_res_ok (skip_tr P n 4 s)

theorem rnv_body_tr (P : params) (adj : List Nat) (nvecs : Int) (ri : Bool) (i : Int)
    (lastrec : Nat) (s : sliding_shard) (pre : List svertex) :
    tr_res s (fun x => x.2.2.1) (rnv_body P adj nvecs ri i lastrec s pre) := by
  have t0 := record_checkpoint_tr nvecs ri lastrec s
  have h0 := read_val_tr adj 1 (record_checkpoint nvecs ri lastrec s).1
  unfold rnv_body
  simp only []
  split
  · rename_i e h1
    rw [h1] at h0
    exact tr_res_trans t0 h0
  · rename_i ns s1 h1
    rw [h1] at h0
    have t1 : tr s s1 := tr_trans t0 h0
    split
    · have h2 := read_val_tr adj 1 { s1 with curvid := u32 (s1.curvid + 1) }
      have t2 : tr s1 { s1 with curvid := u32 (s1.curvid + 1) } :=
        tr_same rfl rfl rfl rfl rfl rfl
      split
      · rename_i e h3
        rw [h3] at h2
        exact tr_res_trans (tr_trans t1 t2) h2
      · rename_i nz s2 h3
        rw [h3] at h2
        exact tr_res_ok (tr_trans (tr_trans (tr_trans t1 t2) h2)
          (tr_same rfl rfl rfl rfl rfl rfl))
    · have h2 := read_count_tr adj ns s1
      split
      · rename_i e h3
        rw [h3] at h2
        exact tr_res_trans t1 h2
      · rename_i n s2 h3
        rw [h3] at h2
        have t2 : tr s s2 := tr_trans t1 h2
        have h4 := read_record_tr P adj i n s2 pre
        split
        · rename_i e h5
          rw [h5] at h4
          exact tr_res_trans t2 h4
        · rename_i s3 pre3 h5
          rw [h5] at h4
          exact tr_res_ok (tr_trans (tr_trans t2 h4) (tr_same rfl rfl rfl rfl rfl rfl))

theorem rnv_loop_tr (P : params) (adj : List Nat) (nvecs : Int) (ri : Bool) (fuel : Nat) :
    ∀ (i : Int) (lastrec : Nat) (s : sliding_shard) (pre : List svertex),
      tr_res s Prod.fst (rnv_loop P adj nvecs ri fuel i lastrec s pre) := by
  induction fuel with
  | zero =>
    intro i lastrec s pre
    exact tr_res_ok (tr_refl s)
  | succ fuel ih =>
    intro i lastrec s pre
    unfold rnv_loop
    split
    · split
      · exact tr_res_ok (tr_refl s)
      · have h0 := rnv_body_tr P adj nvecs ri i lastrec s pre
        split
        · rename_i e h1
          rw [h1] at h0
          exact h0
        · rename_i i1 l1 s1 pre1 h1
          rw [h1] at h0
          exact tr_res_trans h0 (ih _ _ _ _)
    · exact tr_res_ok (tr_refl s)

theorem commit_calls_allowed (s : sliding_shard) (all dw : Bool) (b : sblock) :
    ∀ c ∈ commit_calls all dw b, allowed s c := by
  intro c hc
  unfold commit_calls commit sblock.commit_now sblock.commit_async sblock.release
    stripedio.call at hc
  by_cases hact : b.active = true ∧ 0 ≤ b.writedesc <;>
    cases hd : b.data <;> cases all <;> cases dw <;> simp [hd, hact] at hc
  all_goals first
    | (rcases hc with hc | hc <;> (rw [hc]; trivial))
    | (rw [hc]; trivial)

theorem released_calls_allowed (s : sliding_shard) (all dw : Bool) (eo : Nat)
    (bs : List sblock) : ∀ c ∈ released_calls all dw eo bs, allowed s c := by
  induction bs with
  | nil => intro c hc; cases hc
  | cons b bs ih =>
    intro c hc
    unfold released_calls at hc
    rcases List.mem_append.1 hc with hc | hc
    · exact ih c hc
    · split at hc
      · exact commit_calls_allowed s all dw b c hc
      · cases hc

theorem release_prior_tr (all dw : Bool) (s : sliding_shard) :
    tr s (release_prior_to_offset all dw s) := by
  rw [release_prior_eq]
  exact ⟨⟨_, rfl, released_calls_allowed s all dw _ _⟩, le_refl _, rfl, rfl, rfl, rfl, rfl⟩

theorem rnv_prepare_tr (dw : Bool) (s : sliding_shard) : tr_res s id (rnv_prepare dw s) := by
  have t1 : tr s (release_prior_to_offset false dw { s with curblock := none }) :=
    @tr_trans s { s with curblock := none } _ (tr_same rfl rfl rfl rfl rfl rfl)
      (release_prior_tr false dw _)
  unfold rnv_prepare
  simp only []
  split
  · exact tr_res_error t1
  · refine tr_res_ok (tr_trans t1 ?_)
    split <;> exact tr_same rfl rfl rfl rfl rfl rfl

theorem move_close_to_tr (v : Nat) (s : sliding_shard) : tr_res s id (move_close_to v s) := by
  unfold move_close_to
  split
  · exact tr_res_ok (tr_refl s)
  · split
    · exact tr_res_error (tr_refl s)
    · simp only []
      split
      · exact tr_res_error (tr_refl s)
      · split
        · exact tr_res_error (tr_refl s)
        · split
          · refine tr_res_ok ?_
            cases s.curblock <;> cases s.curadjblock <;> exact tr_same rfl rfl rfl rfl rfl rfl
          · exact tr_res_ok (tr_refl s)

theorem read_next_vertices_tr (P : params) (adj : List Nat) (nvecs : Int) (start : Nat)
    (pre : List svertex) (ri dw : Bool) (s : sliding_shard) :
    tr_res s Prod.fst (read_next_vertices P adj nvecs start pre ri dw s) := by
  have h0 : tr_res s id (if ri = false then move_close_to start s else pure s) := by
    split
    · exact move_close_to_tr start s
    · exact tr_res_ok (tr_refl s)
  unfold read_next_vertices
  split
  · rename_i e h1
    rw [h1] at h0
    exact h0
  · rename_i s1 h1
    rw [h1] at h0
    have t1 : tr s s1 := h0
    have h2 := rnv_prepare_tr dw s1
    split
    · rename_i e h3
      rw [h3] at h2
      exact tr_res_trans t1 h2
    · rename_i s2 h3
      rw [h3] at h2
      have t2 : tr s s2 := tr_trans t1 h2
      simp only []
      have h4 := rnv_loop_tr P adj nvecs ri (nvecs - (to_int s2.curvid - to_int start)).toNat
        (to_int s2.curvid - to_int start) start s2 pre
      split
      · rename_i e h5
        rw [h5] at h4
        exact tr_res_trans t2 h4
      · rename_i s3 pre3 h5
        rw [h5] at h4
        exact tr_res_ok (tr_trans (tr_trans t2 h4) (tr_same rfl rfl rfl rfl rfl rfl))

theorem flush_tr (s : sliding_shard) : tr s (flush s) := by
  have t1 := release_prior_tr true false s
  unfold flush
  simp only []
  split
  · rename_i b hb
    obtain ⟨cs, h1, h2, h3⟩ := release_tr (release_prior_to_offset true false s) b
    exact tr_trans t1 ⟨⟨cs, h1, h2⟩, le_of_eq h3.symm, rfl, rfl, rfl, rfl, rfl⟩
  · exact t1

theorem set_offset_tr (a v e : Nat) (s : sliding_shard) : tr s (set_offset a v e s) := by
  unfold set_offset
  simp only []
  split
  · rename_i b hb
    obtain ⟨cs, h1, h2, h3⟩ := release_tr s b
    exact ⟨⟨cs, h1, h2⟩, le_of_eq h3.symm, rfl, rfl, rfl, rfl, rfl⟩
  · exact tr_same rfl rfl rfl rfl rfl rfl

theorem exec_tr (P : params) (adj : List Nat) (s : sliding_shard) (o : op) :
    tr_res s Prod.fst (exec P adj s o) := by
  cases o with
  | read nvecs start pre ri dw => exact read_next_vertices_tr P adj nvecs start pre ri dw s
  | flush => exact tr_res_ok (flush_tr s)
  | set_offset a v e => exact tr_res_ok (set_offset_tr a v e s)

theorem run_tr (P : params) (adj : List Nat) (ops : List op) :
    ∀ s : sliding_shard, tr_res s Prod.fst (run P adj s ops) := by
  induction ops with
  | nil =>
    intro s
    exact tr_res_ok (tr_refl s)
  | cons o ops ih =>
    intro s
    have h0 := exec_tr P adj s o
    unfold run
    split
    · rename_i e h1
      rw [h1] at h0
      exact h0
    · rename_i s1 out h1
      rw [h1] at h0
      have t1 : tr s s1 := h0
      have h2 := ih s1
      split
      · rename_i e h3
        rw [h3] at h2
        exact tr_res_trans t1 h2
      · rename_i s2 outs h3
        rw [h3] at h2
        exact tr_res_ok (tr_trans t1 h2)

/-- What the constructor fixes: the two flags follow the capabilities of the vertex
program, the two sessions differ, and the trace is the one handed in followed by the
`open_session` calls. -/
theorem construct_flags {P : params} {io : stripedio} {F A rs re bs : Nat} {dw oa : Bool}
    {s0 : sliding_shard} (h : sliding_shard.construct P io F A rs re bs dw oa = some s0) :
    s0.need_read_outedges = P.read_outedges ∧
    s0.async_edata_loading = (if P.support_deletions = true then false
      else !P.computational_edges) ∧
    s0.adjfile_session ≠ s0.edata_session ∧ s0.activeblocks = [] ∧
    s0.only_adjacency = oa := by
  unfold sliding_shard.construct at h
  simp only [] at h
  split at h
  · cases h
  · cases oa
    · simp only [stripedio.open_session, if_true] at h
      cases h
      refine ⟨rfl, rfl, ?_, rfl, rfl⟩
      show ((io.nsessions + 1 : Nat) : Int) ≠ (io.nsessions : Int)
      omega
    · simp only [stripedio.open_session, Bool.true_eq_false, if_false] at h
      cases h
      refine ⟨rfl, rfl, ?_, rfl, rfl⟩
      show (io.nsessions : Int) ≠ -1
      omega

/-- C28, counterexample: with `read_outedges()` false and `computational_edges()` false
the sample run issues `managed_preada_async` on the edge-data session for the block of
the first scheduled vertex. -/
theorem write_only_block_is_read_asynchronously :
    ∃ s0 s outs,
      sliding_shard.construct wo_params sample_io 16 (encode_items sample_items).length
        0 100 1000 false false = some s0 ∧
      s0.need_read_outedges = false ∧
      run wo_params (encode_items sample_items) s0 [op.read 4 0 sample_slots false false]
        = .ok (s, outs) ∧
      iocall.managed_preada_async s0.edata_session
        { id := 1, session := s0.edata_session, offset := 0, length := 16 } 16 0
          ∈ s.iomgr.calls :=
  ⟨_, _, _, rfl, rfl, rfl, by decide⟩

/-- C28, amended: when the vertex program does not read its out-edges and asynchronous
loading is off (it has computational edges, or the build supports deletions), no sequence
of calls on a constructed sliding shard issues a read on the edge-data session, neither
`managed_preada_now` nor `managed_preada_async`, whether the run returns or fails. -/
theorem write_only_blocks_are_not_loaded (P : params) (io : stripedio) (F A rs re bs : Nat)
    (dw oa : Bool) (adj : List Nat) (s0 : sliding_shard) (ops : List op)
    (hr : P.read_outedges = false)
    (hc : P.computational_edges = true ∨ P.support_deletions = true)
    (h0 : sliding_shard.construct P io F A rs re bs dw oa = some s0) :
    ∃ cs, (final_state Prod.fst (run P adj s0 ops)).iomgr.calls = s0.iomgr.calls ++ cs ∧
      ∀ c ∈ cs, ∀ (d : buffer) (len off : Nat),
        c ≠ iocall.managed_preada_now s0.edata_session d len off ∧
        c ≠ iocall.managed_preada_async s0.edata_session d len off := by
  obtain ⟨f1, f2, f3, -, -⟩ := construct_flags h0
  have hasync : s0.async_edata_loading = false := by
    rw [f2]
    rcases hc with hc | hc
    · rw [hc]; split <;> rfl
    · rw [hc]; rfl
  have hneed : s0.need_read_outedges = false := by rw [f1, hr]
  obtain ⟨cs, h1, h2⟩ := (run_tr P adj ops s0).calls
  refine ⟨cs, h1, ?_⟩
  intro c hc d len off
  have ha := h2 c hc
  constructor
  · intro heq
    rw [heq] at ha
    rcases ha with ha | ha
    · exact f3 ha.symm
    · rw [hneed] at ha
      exact absurd ha.2 (by decide)
  · intro heq
    rw [heq] at ha
    have : s0.async_edata_loading = true := ha
    rw [hasync] at this
    exact absurd this (by decide)

theorem write_only_blocks_are_not_loaded_witness :
    co_params.read_outedges = false ∧
    (co_params.computational_edges = true ∨ co_params.support_deletions = true) ∧
    sliding_shard.construct co_params sample_io 16 (encode_items sample_items).length
      0 100 1000 false false = some (sample_shard co_params) ∧
    ∃ cs, (final_state Prod.fst (run co_params (encode_items sample_items)
        (sample_shard co_params) [op.read 4 0 sample_slots false false])).iomgr.calls =
        (sample_shard co_params).iomgr.calls ++ cs ∧
      ∀ c ∈ cs, ∀ (d : buffer) (len off : Nat),
        c ≠ iocall.managed_preada_now (sample_shard co_params).edata_session d len off ∧
        c ≠ iocall.managed_preada_async (sample_shard co_params).edata_session d len off :=
  ⟨rfl, Or.inl rfl, rfl,
    write_only_blocks_are_not_loaded co_params sample_io 16
      (encode_items sample_items).length 0 100 1000 false false (encode_items sample_items)
      (sample_shard co_params) [op.read 4 0 sample_slots false false] rfl (Or.inl rfl) rfl⟩

theorem load_adjblock_fadj {s s' : sliding_shard} (h : load_adjblock s = .ok s') :
    frame_adj s s' := by
  unfold load_adjblock at h
  simp only [] at h
  split at h
  · cases h
  · split at h
    · cases h
    · cases h
      exact ⟨_, _, _, rfl⟩

theorem check_adjblock_fadj {sz : Nat} {s s' : sliding_shard}
    (h : check_adjblock sz s = .ok s') : frame_adj s s' := by
  unfold check_adjblock at h
  split at h
  · exact load_adjblock_fadj h
  · split at h
    · obtain ⟨io, ao, cab, e⟩ := load_adjblock_fadj h
      exact ⟨io, ao, cab, e⟩
    · cases h
      exact ⟨_, _, _, rfl⟩

theorem read_val_fadj {adj : List Nat} {sz v : Nat} {s s' : sliding_shard}
    (h : read_val adj sz s = .ok (v, s')) : frame_adj s s' := by
  unfold read_val at h
  split at h
  · cases h
  · rename_i s1 h1
    obtain ⟨io, ao, cab, rfl⟩ := check_adjblock_fadj h1
    split at h
    · cases h
    · split at h
      · cases h
      · split at h
        · cases h
          exact ⟨_, _, _, rfl⟩
        · cases h

theorem read_count_fadj {adj : List Nat} {ns : Nat} {n : Int} {s s' : sliding_shard}
    (h : read_count adj ns s = .ok (n, s')) : frame_adj s s' := by
  unfold read_count at h
  split at h
  · split at h
    · cases h
    · rename_i c s1 h1
      cases h
      exact read_val_fadj h1
  · cases h
    exact ⟨_, _, _, rfl⟩

theorem frame_adj_blocks {s s' : sliding_shard} (h : frame_adj s s') :
    s'.activeblocks = s.activeblocks ∧ s'.curblock = s.curblock ∧
    s'.edataoffset = s.edataoffset ∧ s'.curvid = s.curvid ∧
    s'.sparse_index = s.sparse_index ∧ s'.adjfilesize = s.adjfilesize ∧
    s'.blocksize = s.blocksize ∧ s'.edatafilesize = s.edatafilesize := by
  obtain ⟨io, ao, cab, rfl⟩ := h
  exact ⟨rfl, rfl, rfl, rfl, rfl, rfl, rfl, rfl⟩

theorem tr_of_ok {α : Type} {s : sliding_shard} {st : α → sliding_shard} {r : res α} {x : α}
    (h : tr_res s st r) (hr : r = .ok x) : tr s (st x) := by
  rw [hr] at h
  exact h

theorem loaded_edge_of_tr {s s' : sliding_shard} (h : tr s s') {e : outedge}
    (he : loaded_edge s e) : loaded_edge s' e := by
  intro d disp hd h2 h3
  rw [h.asyncl] at h2
  rw [h.needr] at h3
  have := he d disp hd h2 h3
  obtain ⟨cs, e1, -⟩ := h.calls
  rw [e1]
  unfold sync_read at this ⊢
  rw [h.esess]
  exact List.mem_append_left _ this

theorem block_loaded_of_tr {s s' : sliding_shard} (h : tr s s') {b : sblock}
    (hb : block_loaded s b) : block_loaded s' b := by
  intro d hd
  obtain ⟨a1, a2, a3, a4⟩ := hb d hd
  refine ⟨by rw [h.esess]; exact a1, a2, a3, ?_⟩
  intro h1 h2 h3
  rw [h.asyncl] at h2
  rw [h.needr] at h3
  have := a4 h1 h2 h3
  obtain ⟨cs, e1, -⟩ := h.calls
  rw [e1]
  unfold sync_read at this ⊢
  rw [h.esess]
  exact List.mem_append_left _ this

theorem blocks_loaded_of_tr {s s' : sliding_shard} (h : tr s s')
    (hs : ∀ b ∈ s'.activeblocks, b ∈ s.activeblocks ∨ block_loaded s' b)
    (hb : blocks_loaded s) : blocks_loaded s' := by
  intro b hb'
  rcases hs b hb' with h1 | h1
  · exact block_loaded_of_tr h (hb b h1)
  · exact h1

theorem vloaded_refl (s : sliding_shard) (v : svertex) : vloaded s v v :=
  ⟨[], by simp, fun e he => by cases he⟩

theorem vloaded_of_tr {s s' : sliding_shard} (h : tr s s') {v v' : svertex}
    (hv : vloaded s v v') : vloaded s' v v' := by
  obtain ⟨new, e1, e2⟩ := hv
  exact ⟨new, e1, fun e he => loaded_edge_of_tr h (e2 e he)⟩

theorem vloaded_trans {s : sliding_shard} {a b c : svertex} (h1 : vloaded s a b)
    (h2 : vloaded s b c) : vloaded s a c := by
  obtain ⟨n1, e1, r1⟩ := h1
  obtain ⟨n2, e2, r2⟩ := h2
  refine ⟨n1 ++ n2, by rw [e2, e1, List.append_assoc], ?_⟩
  intro e he
  rcases List.mem_append.1 he with h | h
  · exact r1 e h
  · exact r2 e h

theorem slots_loaded_refl (s : sliding_shard) (pre : List svertex) : slots_loaded s pre pre :=
  ⟨rfl, fun _ v hv => ⟨v, hv, vloaded_refl s v⟩⟩

theorem slots_loaded_of_tr {s s' : sliding_shard} (h : tr s s') {a b : List svertex}
    (hv : slots_loaded s a b) : slots_loaded s' a b := by
  refine ⟨hv.1, ?_⟩
  intro j v hj
  obtain ⟨v', h1, h2⟩ := hv.2 j v hj
  exact ⟨v', h1, vloaded_of_tr h h2⟩

theorem slots_loaded_trans {s : sliding_shard} {a b c : List svertex}
    (h1 : slots_loaded s a b) (h2 : slots_loaded s b c) : slots_loaded s a c := by
  refine ⟨h2.1.trans h1.1, ?_⟩
  intro j v hv
  obtain ⟨v1, hv1, x1⟩ := h1.2 j v hv
  obtain ⟨v2, hv2, x2⟩ := h2.2 j v1 hv1
  exact ⟨v2, hv2, vloaded_trans x1 x2⟩

theorem slots_loaded_set {s : sliding_shard} {pre : List svertex} {k : Nat} {v v' : svertex}
    (hk : pre[k]? = some v) (hv : vloaded s v v') : slots_loaded s pre (pre.set k v') := by
  refine ⟨by simp, ?_⟩
  intro j w hw
  by_cases hjk : k = j
  · subst hjk
    have hlt : k < pre.length := by
      rcases Nat.lt_or_ge k pre.length with h | h
      · exact h
      · rw [List.getElem?_eq_none h] at hk; cases hk
    refine ⟨v', by simp [List.getElem?_set, hlt], ?_⟩
    rw [hk] at hw; cases hw; exact hv
  · exact ⟨w, by simp [List.getElem?_set, hjk, hw], vloaded_refl s w⟩

theorem mem_of_getElem?_some {α : Type} {l : List α} {i : Nat} {a : α} (h : l[i]? = some a) :
    a ∈ l :=
  List.mem_iff_getElem?.2 ⟨i, h⟩

theorem mem_modify_block {bs : List sblock} {idx : Nat} {f : sblock → sblock} {b : sblock}
    (h : b ∈ modify_block bs idx f) : b ∈ bs ∨ ∃ b0 ∈ bs, b = f b0 := by
  unfold modify_block at h
  split at h
  · rename_i b0 h0
    rcases List.mem_or_eq_of_mem_set h with h1 | h1
    · exact Or.inl h1
    · exact Or.inr ⟨b0, mem_of_getElem?_some h0, h1⟩
  · exact Or.inl h

theorem release_data (b : sblock) (io : stripedio) : (b.release io).1.data = none := by
  unfold sblock.release
  split <;> rfl

theorem skip_blocks (P : params) (n sz : Int) (s : sliding_shard) :
    ∀ b ∈ (skip P n sz s).activeblocks,
      b ∈ s.activeblocks ∨ ∃ b0 ∈ s.activeblocks, ∃ p, b = { b0 with ptr := p } := by
  unfold skip
  simp only []
  cases s.curadjblock <;> cases s.curblock <;> simp only [] <;> intro b hb
  · exact Or.inl hb
  · rcases mem_modify_block hb with h1 | ⟨b0, h1, h2⟩
    · exact Or.inl h1
    · exact Or.inr ⟨b0, h1, _, h2⟩
  · exact Or.inl hb
  · rcases mem_modify_block hb with h1 | ⟨b0, h1, h2⟩
    · exact Or.inl h1
    · exact Or.inr ⟨b0, h1, _, h2⟩

/-- Blocks that are old blocks, possibly with another read pointer, stay loaded. -/
theorem blocks_loaded_ptr {s s' : sliding_shard} (t : tr s s')
    (hs : ∀ b ∈ s'.activeblocks,
      b ∈ s.activeblocks ∨ ∃ b0 ∈ s.activeblocks, ∃ p, b = { b0 with ptr := p })
    (hb : blocks_loaded s) : blocks_loaded s' := by
  refine blocks_loaded_of_tr t ?_ hb
  intro b hb'
  rcases hs b hb' with h1 | ⟨b0, h1, p, h2⟩
  · exact Or.inl h1
  · right
    rw [h2]
    have := block_loaded_of_tr t (hb b0 h1)
    exact fun d hd => this d hd

theorem load_next_block_bl {s s' : sliding_shard} (h : load_next_block s = .ok s')
    (hb : blocks_loaded s) :
    blocks_loaded s' ∧ ∃ nb, s'.activeblocks = s.activeblocks ++ [nb] ∧
      s'.curblock = some s.activeblocks.length ∧ nb.active = false := by
  have t := tr_of_ok (load_next_block_tr s) h
  unfold load_next_block at h
  simp only [] at h
  split at h
  · cases h
  · cases h
    refine ⟨?_, _, rfl, rfl, rfl⟩
    refine blocks_loaded_of_tr t ?_ hb
    intro b hb'
    rcases List.mem_append.1 hb' with h1 | h1
    · exact Or.inl h1
    · right
      rw [List.mem_singleton.1 h1]
      intro d hd
      cases hd
      exact ⟨rfl, rfl, rfl, fun h => by cases h⟩

theorem check_curblock_bl {sz : Nat} {s s' : sliding_shard} (h : check_curblock sz s = .ok s')
    (hb : blocks_loaded s) : blocks_loaded s' := by
  unfold check_curblock at h
  split at h
  · exact (load_next_block_bl h hb).1
  · split at h
    · cases h
    · rename_i _ idx hidx _ cb hcb
      split at h
      · split at h
        · refine (load_next_block_bl h ?_).1
          obtain ⟨cs, h1, h2, h3⟩ := release_tr s cb
          have t := @tr_frame6 s (cb.release s.iomgr).2 s.adjoffset s.edataoffset
            s.curadjblock (s.activeblocks.set idx (cb.release s.iomgr).1) s.curblock cs h1 h2
            (le_of_eq h3.symm)
          refine blocks_loaded_of_tr t ?_ hb
          intro b hb'
          rcases List.mem_or_eq_of_mem_set hb' with h4 | h4
          · exact Or.inl h4
          · right
            rw [h4]
            intro d hd
            exact Option.noConfusion ((release_data cb s.iomgr).symm.trans hd)
        · exact (load_next_block_bl h hb).1
      · cases h
        exact hb

theorem read_edgeptr_bl {sz : Nat} {s s' : sliding_shard} {ev : Option edgeptr}
    (h : read_edgeptr sz s = .ok (ev, s')) (hb : blocks_loaded s) :
    blocks_loaded s' ∧
    (ev = none ∨ ∃ idx cb p, s'.curblock = some idx ∧ s'.activeblocks[idx]? = some cb ∧
      ev = some (edgeptr.mk cb.data p)) := by
  unfold read_edgeptr at h
  split at h
  · cases h
    exact ⟨hb, Or.inl rfl⟩
  · split at h
    · cases h
    · rename_i s1 h1
      have hb1 := check_curblock_bl h1 hb
      split at h
      · cases h
      · rename_i idx hidx
        split at h
        · cases h
        · rename_i cb hcb
          cases h
          have hlt : idx < s1.activeblocks.length := by
            rcases Nat.lt_or_ge idx s1.activeblocks.length with h | h
            · exact h
            · rw [List.getElem?_eq_none h] at hcb; cases hcb
          refine ⟨?_, Or.inr ⟨idx, { cb with ptr := u64 (cb.ptr + sz) }, cb.ptr, hidx, ?_, rfl⟩⟩
          · refine blocks_loaded_ptr (s := s1) (tr_same rfl rfl rfl rfl rfl rfl) ?_ hb1
            intro b hb'
            rcases List.mem_or_eq_of_mem_set hb' with h4 | h4
            · exact Or.inl h4
            · exact Or.inr ⟨cb, mem_of_getElem?_some hcb, _, h4⟩
          · show (s1.activeblocks.set idx _)[idx]? = _
            simp [List.getElem?_set, hlt]

theorem activate_curblock_bl {s s' : sliding_shard} (h : activate_curblock s = .ok s')
    (hb : blocks_loaded s) :
    blocks_loaded s' ∧ s'.curblock = s.curblock ∧
    ∀ idx cb, s.curblock = some idx → s.activeblocks[idx]? = some cb →
      ∃ cb', s'.activeblocks[idx]? = some cb' ∧ cb'.data = cb.data ∧ cb'.active = true := by
  have t := tr_of_ok (activate_curblock_tr s) h
  unfold activate_curblock at h
  split at h
  · cases h
  · rename_i idx hidx
    split at h
    · cases h
    · rename_i cb hcb
      have hlt : idx < s.activeblocks.length := by
        rcases Nat.lt_or_ge idx s.activeblocks.length with h | h
        · exact h
        · rw [List.getElem?_eq_none h] at hcb; cases hcb
      have hcbl := hb cb (mem_of_getElem?_some hcb)
      have hio : ∀ d, cb.data = some d → cb.active = false → s.async_edata_loading = false →
          s.need_read_outedges = true → sync_read s d ∈ s'.iomgr.calls := by
        intro d hd ha h2 h3
        obtain ⟨a1, a2, a3, -⟩ := hcbl d hd
        cases h
        simp only [ha, h2, h3, if_true, Bool.false_eq_true, if_false]
        unfold sblock.read_now stripedio.call sync_read
        rw [hd]
        simp only []
        rw [a1, a2, a3]
        simp
      cases h
      refine ⟨?_, rfl, ?_⟩
      · intro b hb'
        rcases List.mem_or_eq_of_mem_set hb' with h4 | h4
        · exact block_loaded_of_tr t (hb b h4)
        · rw [h4]
          intro d hd
          obtain ⟨a1, a2, a3, a4⟩ := block_loaded_of_tr t hcbl d hd
          refine ⟨a1, a2, a3, ?_⟩
          intro _ h2 h3
          by_cases ha : cb.active = true
          · exact a4 ha h2 h3
          · exact hio d hd (by simpa using ha) h2 h3
      · intro idx' cb' h5 h6
        rw [hidx] at h5
        cases h5
        rw [hcb] at h6
        cases h6
        exact ⟨{ cb with active := true }, by simp [List.getElem?_set, hlt], rfl, rfl⟩

theorem read_edge_bl {P : params} {adj : List Nat} {s s' : sliding_shard} {v v' : svertex}
    (h : read_edge P adj s v = .ok (s', v')) (hb : blocks_loaded s) :
    blocks_loaded s' ∧ ∃ e : outedge, v'.outedges = v.outedges ++ [e] ∧ loaded_edge s' e := by
  unfold read_edge at h
  split at h
  · cases h
  · rename_i raw s1 h1
    have t1 := tr_of_ok (read_val_tr adj 4 s) h1
    have hb1 : blocks_loaded s1 :=
      blocks_loaded_of_tr t1 (fun b hb' => Or.inl (by
        rw [(frame_adj_blocks (read_val_fadj h1)).1] at hb'; exact hb')) hb
    simp only [] at h
    split at h
    · cases h
    · rename_i ev s2 h2
      obtain ⟨hb2, hev⟩ := read_edgeptr_bl h2 hb1
      split at h
      · cases h
      · rename_i s3 h3
        obtain ⟨rfl, rfl, -, -⟩ := check_target_ok h
        split at h3
        · rename_i hoa
          obtain ⟨hb3, hcur, hact⟩ := activate_curblock_bl h3 hb2
          refine ⟨hb3, ⟨_, ev, _⟩, rfl, ?_⟩
          intro d disp hd h4 h5
          rcases hev with hev | ⟨idx, cb, p, c1, c2, c3⟩
          · rw [hev] at hd; cases hd
          · obtain ⟨cb', d1, d2, d3⟩ := hact idx cb c1 c2
            rw [c3] at hd
            have hdd : cb.data = some d := by
              have := Option.some.inj hd
              exact congrArg edgeptr.base this
            have := hb3 cb' (mem_of_getElem?_some d1) d (by rw [d2]; exact hdd)
            exact this.2.2.2 d3 h4 h5
        · rename_i hoa
          cases h3
          refine ⟨hb2, ⟨_, ev, _⟩, rfl, ?_⟩
          intro d disp hd h4 h5
          exfalso
          have t2 := tr_of_ok (read_edgeptr_tr _ s1) h2
          have hoa' : s1.only_adjacency = true := by
            have := t2.onlya
            simp only [] at this
            rw [← this]
            simpa using hoa
          unfold read_edgeptr at h2
          rw [if_pos hoa'] at h2
          cases h2
          cases hd

theorem read_edges_bl {P : params} {adj : List Nat} (k : Nat) :
    ∀ {s s' : sliding_shard} {v v' : svertex}, read_edges P adj k s v = .ok (s', v') →
    blocks_loaded s → blocks_loaded s' ∧ vloaded s' v v' := by
  induction k with
  | zero =>
    intro s s' v v' h hb
    unfold read_edges at h
    cases h
    exact ⟨hb, vloaded_refl _ _⟩
  | succ k ih =>
    intro s s' v v' h hb
    unfold read_edges at h
    split at h
    · cases h
    · rename_i s1 v1 h1
      obtain ⟨hb1, e, he1, he2⟩ := read_edge_bl h1 hb
      obtain ⟨hb2, hv2⟩ := ih h hb1
      have t2 := tr_of_ok (read_edges_tr P adj k s1 v1) h
      exact ⟨hb2, vloaded_trans (vloaded_of_tr t2 ⟨[e], he1, fun x hx => by
        rw [List.mem_singleton.1 hx]; exact he2⟩) hv2⟩

theorem skip_bl (P : params) (n sz : Int) {s : sliding_shard} (hb : blocks_loaded s) :
    blocks_loaded (skip P n sz s) :=
  blocks_loaded_ptr (skip_tr P n sz s) (skip_blocks P n sz s) hb

theorem read_record_bl {P : params} {adj : List Nat} {i n : Int} {s s' : sliding_shard}
    {pre pre' : List svertex} (h : read_record P adj i n s pre = .ok (s', pre'))
    (hb : blocks_loaded s) : blocks_loaded s' ∧ slots_loaded s' pre pre' := by
  unfold read_record at h
  split at h
  · cases h
    exact ⟨skip_bl P n 4 hb, slots_loaded_refl _ _⟩
  · split at h
    · cases h
    · rename_i vertex hv
      split at h
      · cases h
      · split at h
        · split at h
          · cases h
          · rename_i s1 v1 h1
            cases h
            obtain ⟨hb1, hv1⟩ := read_edges_bl _ h1 hb
            exact ⟨hb1, slots_loaded_set hv hv1⟩
        · cases h
          exact ⟨skip_bl P n 4 hb, slots_loaded_refl _ _⟩

theorem blocks_loaded_fadj {s s' : sliding_shard} (t : tr s s') (f : frame_adj s s')
    (hb : blocks_loaded s) : blocks_loaded s' :=
  blocks_loaded_of_tr t (fun b hb' => Or.inl (by
    rw [(frame_adj_blocks f).1] at hb'; exact hb')) hb

theorem blocks_loaded_same {s s' : sliding_shard} (t : tr s s')
    (f : s'.activeblocks = s.activeblocks) (hb : blocks_loaded s) : blocks_loaded s' :=
  blocks_loaded_of_tr t (fun b hb' => Or.inl (by rw [f] at hb'; exact hb')) hb

theorem rnv_body_bl {P : params} {adj : List Nat} {nvecs : Int} {ri : Bool} {i i' : Int}
    {lastrec lastrec' : Nat} {s s' : sliding_shard} {pre pre' : List svertex}
    (h : rnv_body P adj nvecs ri i lastrec s pre = .ok (i', lastrec', s', pre'))
    (hb : blocks_loaded s) : blocks_loaded s' ∧ slots_loaded s' pre pre' := by
  have hb0 : blocks_loaded (record_checkpoint nvecs ri lastrec s).1 := by
    refine blocks_loaded_same (record_checkpoint_tr nvecs ri lastrec s) ?_ hb
    rcases record_checkpoint_fields nvecs ri lastrec s with e | e <;> rw [e]
    rfl
  unfold rnv_body at h
  simp only [] at h
  split at h
  · cases h
  · rename_i ns s1 h1
    have hb1 := blocks_loaded_fadj (tr_of_ok (read_val_tr _ _ _) h1) (read_val_fadj h1) hb0
    split at h
    · split at h
      · cases h
      · rename_i nz s2 h2
        cases h
        have hb2 := blocks_loaded_fadj (tr_of_ok (read_val_tr _ _ _) h2) (read_val_fadj h2)
          (blocks_loaded_same (s := s1) (tr_same rfl rfl rfl rfl rfl rfl) rfl hb1)
        exact ⟨blocks_loaded_same (tr_same rfl rfl rfl rfl rfl rfl) rfl hb2,
          slots_loaded_refl _ _⟩
    · split at h
      · cases h
      · rename_i n s2 h2
        have hb2 := blocks_loaded_fadj (tr_of_ok (read_count_tr _ _ _) h2) (read_count_fadj h2)
          hb1
        split at h
        · cases h
        · rename_i s3 pre3 h3
          cases h
          obtain ⟨hb3, hs3⟩ := read_record_bl h3 hb2
          exact ⟨blocks_loaded_same (tr_same rfl rfl rfl rfl rfl rfl) rfl hb3,
            slots_loaded_of_tr (tr_same rfl rfl rfl rfl rfl rfl) hs3⟩

theorem rnv_loop_bl {P : params} {adj : List Nat} {nvecs : Int} {ri : Bool} (fuel : Nat) :
    ∀ {i : Int} {lastrec : Nat} {s s' : sliding_shard} {pre pre' : List svertex},
    rnv_loop P adj nvecs ri fuel i lastrec s pre = .ok (s', pre') → blocks_loaded s →
    blocks_loaded s' ∧ slots_loaded s' pre pre' := by
  induction fuel with
  | zero =>
    intro i lastrec s s' pre pre' h hb
    unfold rnv_loop at h
    cases h
    exact ⟨hb, slots_loaded_refl _ _⟩
  | succ fuel ih =>
    intro i lastrec s s' pre pre' h hb
    unfold rnv_loop at h
    split at h
    · split at h
      · cases h
        exact ⟨hb, slots_loaded_refl _ _⟩
      · split at h
        · cases h
        · rename_i i1 l1 s1 pre1 h1
          obtain ⟨hb1, hs1⟩ := rnv_body_bl h1 hb
          obtain ⟨hb2, hs2⟩ := ih h hb1
          have t := tr_of_ok (rnv_loop_tr P adj nvecs ri fuel _ _ _ _) h
          exact ⟨hb2, slots_loaded_trans (slots_loaded_of_tr t hs1) hs2⟩
    · cases h
      exact ⟨hb, slots_loaded_refl _ _⟩

theorem release_prior_bl (all dw : Bool) {s : sliding_shard} (hb : blocks_loaded s) :
    blocks_loaded (release_prior_to_offset all dw s) := by
  refine blocks_loaded_of_tr (release_prior_tr all dw s) ?_ hb
  intro b hb'
  rw [release_prior_eq] at hb'
  exact Or.inl (List.mem_of_mem_filter hb')

theorem rnv_prepare_bl {dw : Bool} {s s' : sliding_shard} (h : rnv_prepare dw s = .ok s')
    (hb : blocks_loaded s) : blocks_loaded s' := by
  have h0 : blocks_loaded (release_prior_to_offset false dw { s with curblock := none }) :=
    release_prior_bl false dw
      (blocks_loaded_same (s := s) (tr_same rfl rfl rfl rfl rfl rfl) rfl hb)
  unfold rnv_prepare at h
  simp only [] at h
  split at h
  · cases h
  · cases h
    refine blocks_loaded_same ?_ ?_ h0
    · split <;> exact tr_same rfl rfl rfl rfl rfl rfl
    · split <;> rfl

theorem move_close_to_blocks {v : Nat} {s s' : sliding_shard}
    (h : move_close_to v s = .ok s') :
    ∀ b ∈ s'.activeblocks,
      b ∈ s.activeblocks ∨ ∃ b0 ∈ s.activeblocks, ∃ p, b = { b0 with ptr := p } := by
  unfold move_close_to at h
  split at h
  · cases h
    exact fun b hb => Or.inl hb
  · split at h
    · cases h
    · simp only [] at h
      split at h
      · cases h
      · split at h
        · cases h
        · split at h
          · cases h
            cases s.curblock <;> cases s.curadjblock <;> simp only [] <;> intro b hb
            · exact Or.inl hb
            · exact Or.inl hb
            · rcases mem_modify_block hb with h1 | ⟨b0, h1, h2⟩
              · exact Or.inl h1
              · exact Or.inr ⟨b0, h1, _, h2⟩
            · rcases mem_modify_block hb with h1 | ⟨b0, h1, h2⟩
              · exact Or.inl h1
              · exact Or.inr ⟨b0, h1, _, h2⟩
          · cases h
            exact fun b hb => Or.inl hb

theorem move_close_to_bl {v : Nat} {s s' : sliding_shard} (h : move_close_to v s = .ok s')
    (hb : blocks_loaded s) : blocks_loaded s' :=
  blocks_loaded_ptr (tr_of_ok (move_close_to_tr v s) h) (move_close_to_blocks h) hb

theorem read_next_vertices_bl {P : params} {adj : List Nat} {nvecs : Int} {start : Nat}
    {pre pre' : List svertex} {ri dw : Bool} {s s' : sliding_shard}
    (h : read_next_vertices P adj nvecs start pre ri dw s = .ok (s', pre'))
    (hb : blocks_loaded s) : blocks_loaded s' ∧ slots_loaded s' pre pre' := by
  unfold read_next_vertices at h
  split at h
  · cases h
  · rename_i s1 h1
    have hb1 : blocks_loaded s1 := by
      split at h1
      · exact move_close_to_bl h1 hb
      · cases h1; exact hb
    split at h
    · cases h
    · rename_i s2 h2
      have hb2 := rnv_prepare_bl h2 hb1
      simp only [] at h
      split at h
      · cases h
      · rename_i s3 pre3 h3
        cases h
        obtain ⟨hb3, hs3⟩ := rnv_loop_bl _ h3 hb2
        exact ⟨blocks_loaded_same (tr_same rfl rfl rfl rfl rfl rfl) rfl hb3,
          slots_loaded_of_tr (tr_same rfl rfl rfl rfl rfl rfl) hs3⟩

theorem flush_bl {s : sliding_shard} (hb : blocks_loaded s) : blocks_loaded (flush s) := by
  refine blocks_loaded_of_tr (flush_tr s) ?_ hb
  intro b hb'
  left
  have h1 : b ∈ (release_prior_to_offset true false s).activeblocks := by
    unfold flush at hb'
    simp only [] at hb'
    split at hb' <;> exact hb'
  rw [release_prior_eq] at h1
  exact List.mem_of_mem_filter h1

theorem set_offset_bl (a v e : Nat) {s : sliding_shard} (hb : blocks_loaded s) :
    blocks_loaded (set_offset a v e s) := by
  refine blocks_loaded_of_tr (set_offset_tr a v e s) ?_ hb
  intro b hb'
  left
  unfold set_offset at hb'
  simp only [] at hb'
  split at hb' <;> exact hb'

theorem run_bl {P : params} {adj : List Nat} (ops : List op) :
    ∀ {s s' : sliding_shard} {outs : List (List svertex)},
    run P adj s ops = .ok (s', outs) → blocks_loaded s → blocks_loaded s' := by
  induction ops with
  | nil =>
    intro s s' outs h hb
    unfold run at h
    cases h
    exact hb
  | cons o ops ih =>
    intro s s' outs h hb
    unfold run at h
    split at h
    · cases h
    · rename_i s1 out h1
      have hb1 : blocks_loaded s1 := by
        cases o with
        | read nvecs start pre ri dw => exact (read_next_vertices_bl h1 hb).1
        | flush => cases h1; exact flush_bl hb
        | set_offset a v e => cases h1; exact set_offset_bl a v e hb
      split at h
      · cases h
      · rename_i s2 outs2 h2
        cases h
        exact ih h2 hb1

/-- C29: with computational edges asynchronous edge-data loading is off.  For every run
of calls on a sliding shard constructed for a vertex program whose
`computational_edges()` is true: (1) whether the run returns or fails, none of the calls
it issues is a `managed_preada_async`; (2) when the run returns, every block that is
active and owns a buffer has the synchronous read of the buffer in the trace (the vertex
program reading its out-edges), and any further `read_next_vertices` that returns hands
back each vertex with out-edges appended whose pointers, when they point into a buffer
`d`, have the read `managed_preada_now(edata_session, d, d.length, d.offset)` in the trace
as it stands when the call returns; (3) in one pass of the edge loop, from any state in
which the active blocks are loaded, the block is read before `add_outedge` attaches the
pointer: the state the pass ends in has the read in its trace. -/
theorem computational_edges_load_synchronously (P : params) (io : stripedio)
    (F A rs re bs : Nat) (dw oa : Bool) (adj : List Nat) (s0 : sliding_shard) (ops : List op)
    (hc : P.computational_edges = true)
    (h0 : sliding_shard.construct P io F A rs re bs dw oa = some s0) :
    (∃ cs, (final_state Prod.fst (run P adj s0 ops)).iomgr.calls = s0.iomgr.calls ++ cs ∧
      ∀ c ∈ cs, ∀ (sess : Int) (d : buffer) (len off : Nat),
        c ≠ iocall.managed_preada_async sess d len off) ∧
    (∀ (s1 : sliding_shard) (outs : List (List svertex)),
      run P adj s0 ops = .ok (s1, outs) →
      (∀ b ∈ s1.activeblocks, ∀ d, b.data = some d → b.active = true →
        P.read_outedges = true →
        iocall.managed_preada_now s0.edata_session d d.length d.offset ∈ s1.iomgr.calls) ∧
      ∀ (nvecs : Int) (start : Nat) (pre pre' : List svertex) (ri dw' : Bool)
        (s2 : sliding_shard),
        read_next_vertices P adj nvecs start pre ri dw' s1 = .ok (s2, pre') →
        pre'.length = pre.length ∧
        ∀ (j : Nat) (v : svertex), pre[j]? = some v →
          ∃ v' new, pre'[j]? = some v' ∧ v'.outedges = v.outedges ++ new ∧
            ∀ e ∈ new, ∀ (d : buffer) (disp : Nat),
              e.evalue = some (edgeptr.mk (some d) disp) → P.read_outedges = true →
              iocall.managed_preada_now s0.edata_session d d.length d.offset
                ∈ s2.iomgr.calls) ∧
    (∀ (s s' : sliding_shard) (v v' : svertex), blocks_loaded s →
      read_edge P adj s v = .ok (s', v') →
      blocks_loaded s' ∧ ∃ e : outedge, v'.outedges = v.outedges ++ [e] ∧
        ∀ (d : buffer) (disp : Nat), e.evalue = some (edgeptr.mk (some d) disp) →
          s.async_edata_loading = false → s.need_read_outedges = true →
          iocall.managed_preada_now s.edata_session d d.length d.offset
            ∈ s'.iomgr.calls) := by
  obtain ⟨f1, f2, f3, f4, -⟩ := construct_flags h0
  have hasync : s0.async_edata_loading = false := by
    rw [f2, hc]
    split <;> rfl
  have hb0 : blocks_loaded s0 := by
    intro b hb
    rw [f4] at hb
    cases hb
  refine ⟨?_, ?_, ?_⟩
  · obtain ⟨cs, h1, h2⟩ := (run_tr P adj ops s0).calls
    refine ⟨cs, h1, ?_⟩
    intro c hc' sess d len off heq
    have ha := h2 c hc'
    rw [heq] at ha
    have : s0.async_edata_loading = true := ha
    rw [hasync] at this
    exact absurd this (by decide)
  · intro s1 outs hrun
    have t1 := tr_of_ok (run_tr P adj ops s0) hrun
    have hb1 := run_bl ops hrun hb0
    constructor
    · intro b hb d hd hact hro
      have := (hb1 b hb d hd).2.2.2 hact (by rw [t1.asyncl]; exact hasync)
        (by rw [t1.needr, f1]; exact hro)
      unfold sync_read at this
      rw [t1.esess] at this
      exact this
    · intro nvecs start pre pre' ri dw' s2 hcall
      have t2 := tr_of_ok (read_next_vertices_tr P adj nvecs start pre ri dw' s1) hcall
      have t02 := tr_trans t1 t2
      obtain ⟨-, hl, hs⟩ := read_next_vertices_bl hcall hb1
      refine ⟨hl, ?_⟩
      intro j v hv
      obtain ⟨v', hv', new, hnew, hall⟩ := hs j v hv
      refine ⟨v', new, hv', hnew, ?_⟩
      intro e he d disp hev hro
      have := hall e he d disp hev (by rw [t02.asyncl]; exact hasync)
        (by rw [t02.needr, f1]; exact hro)
      unfold sync_read at this
      rw [t02.esess] at this
      exact this
  · intro s s' v v' hb hre
    obtain ⟨hb', e, he1, he2⟩ := read_edge_bl hre hb
    have t := tr_of_ok (read_edge_tr P adj s v) hre
    refine ⟨hb', e, he1, ?_⟩
    intro d disp hev h2 h3
    have := he2 d disp hev (by rw [t.asyncl]; exact h2) (by rw [t.needr]; exact h3)
    unfold sync_read at this
    rw [t.esess] at this
    exact this

theorem computational_edges_load_synchronously_witness :
    ce_params.computational_edges = true ∧
    sliding_shard.construct ce_params sample_io 16 (encode_items sample_items).length
      0 100 1000 false false = some (sample_shard ce_params) ∧
    (∃ cs, (final_state Prod.fst (run ce_params (encode_items sample_items)
        (sample_shard ce_params) [op.read 4 0 sample_slots false false])).iomgr.calls =
        (sample_shard ce_params).iomgr.calls ++ cs ∧
      ∀ c ∈ cs, ∀ (sess : Int) (d : buffer) (len off : Nat),
        c ≠ iocall.managed_preada_async sess d len off) ∧
    ∀ (s1 : sliding_shard) (outs : List (List svertex)),
      run ce_params (encode_items sample_items) (sample_shard ce_params)
        [op.read 4 0 sample_slots false false] = .ok (s1, outs) →
      ∀ b ∈ s1.activeblocks, ∀ d, b.data = some d → b.active = true →
        ce_params.read_outedges = true →
        iocall.managed_preada_now (sample_shard ce_params).edata_session d d.length d.offset
          ∈ s1.iomgr.calls :=
  ⟨rfl, rfl,
    (computational_edges_load_synchronously ce_params sample_io 16
      (encode_items sample_items).length 0 100 1000 false false (encode_items sample_items)
      (sample_shard ce_params) [op.read 4 0 sample_slots false false] rfl rfl).1,
    fun s1 outs h => ((computational_edges_load_synchronously ce_params sample_io 16
      (encode_items sample_items).length 0 100 1000 false false (encode_items sample_items)
      (sample_shard ce_params) [op.read 4 0 sample_slots false false] rfl rfl).2.1 s1 outs h).1⟩

/-- The sample run with computational edges: the block of the edge data is read with
`managed_preada_now` before the adjacency block is replaced, and every pointer handed
out points into the buffer of this read. -/
theorem sample_run_loads_synchronously :
    ∃ s outs,
      run ce_params (encode_items sample_items) (sample_shard ce_params)
        [op.read 4 0 sample_slots false false] = .ok (s, outs) ∧
      s.iomgr.calls =
        [iocall.open_session 0 false, iocall.open_session 1 true,
          iocall.managed_malloc 1 (buffer.mk 0 1 0 21),
          iocall.managed_preada_now 1 (buffer.mk 0 1 0 21) 21 0,
          iocall.managed_malloc 0 (buffer.mk 1 0 0 16),
          iocall.managed_preada_now 0 (buffer.mk 1 0 0 16) 16 0,
          iocall.managed_release 1 (buffer.mk 0 1 0 21),
          iocall.managed_malloc 1 (buffer.mk 2 1 17 4),
          iocall.managed_preada_now 1 (buffer.mk 2 1 17 4) 4 17] :=
  ⟨_, _, rfl, rfl⟩

/-- C24, evaluation at the failing input.  On the shard `ff_items` a call for the
vertices 0 and 1 leaves the cursor at `curvid = 2` with the constructor's checkpoint alone
in the sparse index.  The call `read_next_vertices(1, start = 3, record_index = true)`
that follows has a threshold of `max(100000, 1/16) = 100000` source ids, and its first
pass finds `curvid - lastrec = 2 - 3`, which is `4294967295` in `vid_t`: the checkpoint
test succeeds and the call records the checkpoint of source 2 although no source id has
been visited since `start`. -/
theorem checkpoint_recorded_behind_start :
    ∃ s0 s1 out1 s2 out2,
      sliding_shard.construct sample_params sample_io 16 (encode_items ff_items).length
        0 100 1000 false false = some s0 ∧
      run sample_params (encode_items ff_items) s0
        [op.read 2 0 [sample_vertex 0, sample_vertex 1] false false] = .ok (s1, out1) ∧
      s1.curvid = 2 ∧ s1.sparse_index = [(0, indexentry.mk 0 0)] ∧
      (max (100000 : Int) ((1 : Int).tdiv 16)).toNat = 100000 ∧
      u32 (s1.curvid + 4294967296 - 3) = 4294967295 ∧
      record_checkpoint 1 true 3 s1 = (save_offset s1, 2) ∧
      read_next_vertices sample_params (encode_items ff_items) 1 3 [sample_vertex 3] true false
        s1 = .ok (s2, out2) ∧
      s2.sparse_index = [(-2, indexentry.mk 10 8), (0, indexentry.mk 0 0)] :=
  ⟨_, _, _, _, _, rfl, rfl, rfl, rfl, rfl, rfl, rfl, rfl, rfl⟩

theorem frame_ed_refl (s : sliding_shard) : frame_ed s s :=
  ⟨s.iomgr, s.edataoffset, s.activeblocks, s.curblock, rfl⟩

theorem frame_ed_trans {a b c : sliding_shard} (h1 : frame_ed a b) (h2 : frame_ed b c) :
    frame_ed a c := by
  obtain ⟨io, eo, bl, cb, rfl⟩ := h1
  obtain ⟨io', eo', bl', cb', rfl⟩ := h2
  exact ⟨io', eo', bl', cb', rfl⟩

theorem frame6_of_frame_ed {s s' : sliding_shard} (h : frame_ed s s') : frame6 s s' := by
  obtain ⟨io, eo, bl, cb, rfl⟩ := h
  exact ⟨io, s.adjoffset, s.curadjblock, eo, bl, cb, rfl⟩

theorem frame_ed_adj {s s' : sliding_shard} (h : frame_ed s s') :
    s'.adjoffset = s.adjoffset ∧ s'.curadjblock = s.curadjblock := by
  obtain ⟨io, eo, bl, cb, rfl⟩ := h
  exact ⟨rfl, rfl⟩

theorem load_next_block_fed {s s' : sliding_shard} (h : load_next_block s = .ok s') :
    frame_ed s s' ∧ s'.edataoffset = s.edataoffset := by
  unfold load_next_block at h
  simp only [] at h
  split at h
  · cases h
  · cases h
    exact ⟨⟨_, _, _, _, rfl⟩, rfl⟩

theorem check_curblock_fed {sz : Nat} {s s' : sliding_shard}
    (h : check_curblock sz s = .ok s') : frame_ed s s' ∧ s'.edataoffset = s.edataoffset := by
  unfold check_curblock at h
  split at h
  · exact load_next_block_fed h
  · split at h
    · cases h
    · split at h
      · split at h
        · obtain ⟨⟨io, eo, bl, cb, e⟩, h2⟩ := load_next_block_fed h
          exact ⟨⟨io, eo, bl, cb, e⟩, h2⟩
        · exact load_next_block_fed h
      · cases h
        exact ⟨frame_ed_refl _, rfl⟩

theorem read_edgeptr_fed {sz : Nat} {ev : Option edgeptr} {s s' : sliding_shard}
    (h : read_edgeptr sz s = .ok (ev, s')) (hoa : s.only_adjacency = false) :
    frame_ed s s' ∧ s'.edataoffset = u64 (s.edataoffset + sz) := by
  unfold read_edgeptr at h
  rw [hoa] at h
  simp only [Bool.false_eq_true, if_false] at h
  split at h
  · cases h
  · rename_i s1 h1
    obtain ⟨⟨io, eo, bl, cb, rfl⟩, h2⟩ := check_curblock_fed h1
    split at h
    · cases h
    · split at h
      · cases h
      · cases h
        refine ⟨⟨_, _, _, _, rfl⟩, ?_⟩
        show u64 (eo + sz) = _
        rw [show eo = s.edataoffset from h2]

theorem activate_curblock_fed {s s' : sliding_shard} (h : activate_curblock s = .ok s') :
    frame_ed s s' ∧ s'.edataoffset = s.edataoffset := by
  unfold activate_curblock at h
  split at h
  · cases h
  · split at h
    · cases h
    · cases h
      exact ⟨⟨_, _, _, _, rfl⟩, rfl⟩

theorem read_val_at_a {P : params} {adj : List Nat} {s : sliding_shard}
    {pre bytes rest : List Nat} (ha : aok P adj s) (hadj : adj = pre ++ (bytes ++ rest))
    (hoff : s.adjoffset = pre.length) (hpos : 0 < bytes.length) (h4 : bytes.length ≤ 4) :
    ∃ s', read_val adj bytes.length s = .ok (le_value bytes, s') ∧
      aok P adj s' ∧ s'.adjoffset = pre.length + bytes.length ∧ frame_adj s s' := by
  obtain ⟨c1, c2, c3, c4, c5, c6, c7, c8, c9, c10, c11⟩ := ha.cfg
  have hin : s.adjoffset + bytes.length ≤ s.adjfilesize := by
    rw [c3, hoff, hadj]
    simp only [List.length_append]
    omega
  obtain ⟨b', io', hrv, hcoh1, -⟩ :=
    @read_val_spec adj bytes.length s c3 c4 (by omega) c7 hpos ha.coh hin
  rw [hoff, take_drop_bytes hadj] at hrv
  refine ⟨_, hrv, ⟨?_, ?_⟩, rfl, ⟨_, _, _, rfl⟩⟩
  · exact ha.cfg
  · rw [hoff] at hcoh1
    exact hcoh1

theorem aok_of_frame_ed {P : params} {adj : List Nat} {s s' : sliding_shard} (ha : aok P adj s)
    (hf : frame_ed s s') (hn : s.iomgr.nbufs ≤ s'.iomgr.nbufs) : aok P adj s' :=
  ⟨cfg_ok_of_frame6 (frame6_of_frame_ed hf) ha.cfg, adj_coherent_frame_ed ha.coh hf hn⟩

/-- One pass of the edge loop that returns, on a coherent state with the four bytes of a
destination at the cursor: the adjacency offset advances by four, the edge-data offset by
one record. -/
theorem read_edge_a {P : params} {adj : List Nat} {s s' : sliding_shard} {v v' : svertex}
    {pre rest : List Nat} {dst : Nat} (ha : aok P adj s) (hadj : adj = pre ++ (le4 dst ++ rest))
    (hoff : s.adjoffset = pre.length)
    (hno : s.edataoffset + P.sizeof_ET < 18446744073709551616)
    (h : read_edge P adj s v = .ok (s', v')) :
    aok P adj s' ∧ s'.adjoffset = pre.length + 4 ∧
      s'.edataoffset = s.edataoffset + P.sizeof_ET ∧ frame6 s s' := by
  have hfr := (read_edge_ok h).1
  obtain ⟨s1, h1, ha1, hao1, hf1⟩ := read_val_at_a ha hadj hoff (by simp [le4_length])
    (by simp [le4_length])
  rw [le4_length] at h1 hao1
  have hsz := ha.cfg.2.1
  have hoa1 : s1.only_adjacency = false := ha1.cfg.2.2.2.2.2.2.2.2.1
  have he1 : s1.edataoffset = s.edataoffset := (frame_adj_blocks hf1).2.2.1
  unfold read_edge at h
  rw [h1] at h
  simp only [if_pos hsz, Bool.false_eq_true, if_false] at h
  split at h
  · cases h
  · rename_i ev s2 h2
    obtain ⟨f2, e2⟩ := read_edgeptr_fed h2 hoa1
    have n2 := (tr_of_ok (read_edgeptr_tr _ s1) h2).nbufs
    have hoa2 : s2.only_adjacency = false := by
      rw [(frame6_static (frame6_of_frame_ed f2)).1]; exact hoa1
    rw [hoa2] at h
    simp only [if_true] at h
    split at h
    · cases h
    · rename_i s3 h3
      obtain ⟨f3, e3⟩ := activate_curblock_fed h3
      have n3 := (tr_of_ok (activate_curblock_tr s2) h3).nbufs
      obtain ⟨rfl, -, -, -⟩ := check_target_ok h
      have f13 := frame_ed_trans f2 f3
      refine ⟨aok_of_frame_ed ha1 f13 (le_trans n2 n3), ?_, ?_, hfr⟩
      · rw [(frame_ed_adj f13).1]; exact hao1
      · rw [e3, e2, he1]
        exact u64_of_lt hno

theorem encode_dsts_cons (d : Nat) (ds : List Nat) :
    encode_dsts (d :: ds) = le4 d ++ encode_dsts ds := rfl

theorem read_edges_a {P : params} {adj : List Nat} (dsts : List Nat) :
    ∀ {s s' : sliding_shard} {v v' : svertex} {pre rest : List Nat}, aok P adj s →
    adj = pre ++ (encode_dsts dsts ++ rest) → s.adjoffset = pre.length →
    s.edataoffset + P.sizeof_ET * dsts.length < 18446744073709551616 →
    read_edges P adj dsts.length s v = .ok (s', v') →
    aok P adj s' ∧ s'.adjoffset = pre.length + 4 * dsts.length ∧
      s'.edataoffset = s.edataoffset + P.sizeof_ET * dsts.length := by
  induction dsts with
  | nil =>
    intro s s' v v' pre rest ha _ hoff _ h
    unfold read_edges at h
    cases h
    exact ⟨ha, by simpa using hoff, by simp⟩
  | cons d ds ih =>
    intro s s' v v' pre rest ha hadj hoff hno h
    have hlen : (d :: ds).length = ds.length + 1 := rfl
    rw [hlen] at h hno ⊢
    unfold read_edges at h
    split at h
    · cases h
    · rename_i s1 v1 h1
      have hadj1 : adj = pre ++ (le4 d ++ (encode_dsts ds ++ rest)) := by
        rw [hadj, encode_dsts_cons, List.append_assoc]
      have hmul : P.sizeof_ET * (ds.length + 1) = P.sizeof_ET * ds.length + P.sizeof_ET :=
        Nat.mul_succ _ _
      obtain ⟨ha1, hao1, he1, -⟩ := read_edge_a ha hadj1 hoff (by omega) h1
      have hadj2 : adj = (pre ++ le4 d) ++ (encode_dsts ds ++ rest) := by
        rw [hadj1, List.append_assoc]
      obtain ⟨ha2, hao2, he2⟩ := ih ha1 hadj2 (by rw [hao1]; simp [le4_length])
        (by rw [he1]; omega) h
      refine ⟨ha2, ?_, ?_⟩
      · rw [hao2]
        simp only [List.length_append, le4_length]
        omega
      · rw [he2, he1]
        omega

theorem skip_eq (P : params) (m : Nat) (s : sliding_shard) (hm : m < 536870912)
    (he : P.sizeof_ET * m < 18446744073709551616) :
    skip P (m : Int) 4 s =
      { s with
        adjoffset := u64 (s.adjoffset + 4 * m)
        curadjblock := s.curadjblock.map (fun b => { b with ptr := u64 (b.ptr + 4 * m) })
        edataoffset := u64 (s.edataoffset + P.sizeof_ET * m)
        activeblocks :=
          match s.curblock with
          | some idx => modify_block s.activeblocks idx (fun b =>
              { b with ptr := u64 (b.ptr + P.sizeof_ET * m) })
          | none => s.activeblocks } := by
  have ht : int_to_size_t ((m : Int) * 4) = 4 * m := by
    have : ((m : Int) * 4) = ((4 * m : Nat) : Int) := by push_cast; ring
    rw [this]; exact int_to_size_t_nat (by omega)
  have het : int_to_size_t ((P.sizeof_ET : Int) * (m : Int)) = P.sizeof_ET * m := by
    have : ((P.sizeof_ET : Int) * (m : Int)) = ((P.sizeof_ET * m : Nat) : Int) := by
      push_cast; ring
    rw [this]; exact int_to_size_t_nat he
  unfold skip
  simp only [ht, het]
  cases s.curadjblock <;> cases s.curblock <;> rfl

/-- Skipping the `m` destinations of a record on a coherent state: both offsets advance. -/
theorem skip_a {P : params} {adj : List Nat} {s : sliding_shard} (m : Nat) (ha : aok P adj s)
    (hin : s.adjoffset + 4 * m ≤ s.adjfilesize) (hm : m < 536870912)
    (hno : s.edataoffset + P.sizeof_ET * m < 18446744073709551616) :
    aok P adj (skip P (m : Int) 4 s) ∧
    (skip P (m : Int) 4 s).adjoffset = s.adjoffset + 4 * m ∧
    (skip P (m : Int) 4 s).edataoffset = s.edataoffset + P.sizeof_ET * m := by
  obtain ⟨c1, c2, c3, c4, c5, c6, c7, c8, c9, c10, c11⟩ := ha.cfg
  have hua : u64 (s.adjoffset + 4 * m) = s.adjoffset + 4 * m := u64_of_lt (by omega)
  have hue : u64 (s.edataoffset + P.sizeof_ET * m) = s.edataoffset + P.sizeof_ET * m :=
    u64_of_lt hno
  rw [skip_eq P m s hm (by omega)]
  refine ⟨⟨ha.cfg, ?_⟩, hua, hue⟩
  intro b' hb'
  cases hcab : s.curadjblock with
  | none =>
    rw [hcab] at hb'
    cases hb'
  | some b =>
    rw [hcab] at hb'
    cases hb'
    obtain ⟨d, g1, g2, g3, g4, g5, g6, g7, g8, g9⟩ := ha.coh b hcab
    have hup : u64 (b.ptr + 4 * m) = b.ptr + 4 * m := u64_of_lt (by omega)
    refine ⟨d, g1, g2, g3, g4, g5, g6, g7, ?_, g9⟩
    show b.offset + u64 (b.ptr + 4 * m) = u64 (s.adjoffset + 4 * m)
    rw [hup, hua]
    omega

theorem read_header_a {P : params} {adj : List Nat} {s : sliding_shard}
    ( long : Bool) (dsts : List Nat) (pre tail : List Nat)
    (ha : aok P adj s) (hadj : adj = pre ++ (encode_item (adjitem.record long dsts) ++ tail))
    (hoff : s.adjoffset = pre.length) (hval : valid_item (adjitem.record long dsts)) :
    ∃ ns s1 s2 pre2, read_val adj 1 s = .ok (ns, s1) ∧ ns ≠ 0 ∧
      read_count adj ns s1 = .ok ((dsts.length : Int), s2) ∧ aok P adj s2 ∧
      adj = pre2 ++ (encode_dsts dsts ++ tail) ∧ s2.adjoffset = pre2.length ∧
      pre2.length + (encode_dsts dsts).length
        = pre.length + (encode_item (adjitem.record long dsts)).length ∧
      frame_adj s s2 := by
  cases long with
  | false =>
    obtain ⟨hv1, hv2, hv3⟩ := hval
    have hadj1 : adj = pre ++ ([dsts.length] ++ (encode_dsts dsts ++ tail)) := by
      rw [hadj]; simp [encode_item]
    obtain ⟨s1, h1, hl1, ha1, hf1⟩ := read_val_at_a ha hadj1 hoff (by simp) (by simp)
    simp only [List.length_singleton, le_value_single] at h1 ha1
    refine ⟨dsts.length, s1, s1, pre ++ [dsts.length], h1, by omega, ?_, hl1, ?_, ?_, ?_, hf1⟩
    · unfold read_count
      have : ¬ dsts.length = 255 := by omega
      simp only [this, if_false]
      rfl
    · rw [hadj]; simp [encode_item]
    · simpa using ha1
    · simp [encode_item]; omega
  | true =>
    obtain ⟨hv1, hv2⟩ := hval
    have hadj1 : adj = pre ++ ([255] ++ (le4 dsts.length ++ (encode_dsts dsts ++ tail))) := by
      rw [hadj]; simp [encode_item]
    obtain ⟨s1, h1, hl1, ha1, hf1⟩ := read_val_at_a ha hadj1 hoff (by simp) (by simp)
    simp only [List.length_singleton, le_value_single] at h1 ha1
    have hadj2 : adj = (pre ++ [255]) ++ (le4 dsts.length ++ (encode_dsts dsts ++ tail)) := by
      rw [hadj]; simp [encode_item]
    obtain ⟨s2, h2, hl2, ha2, hf2⟩ := read_val_at_a hl1 hadj2 (by simpa using ha1)
      (by simp [le4_length]) (by simp [le4_length])
    rw [le4_length, le_value_le4 (by omega)] at h2
    obtain ⟨io1, ao1, cab1, rfl⟩ := hf1
    obtain ⟨io2, ao2, cab2, rfl⟩ := hf2
    refine ⟨255, _, _, (pre ++ [255]) ++ le4 dsts.length, h1, by decide, ?_, hl2, ?_, ?_, ?_,
      ⟨_, _, _, rfl⟩⟩
    · unfold read_count
      simp only [if_true]
      rw [h2]
      simp only [pure, Except.pure, to_int_of_lt hv2]
    · rw [hadj]; simp [encode_item]
    · simpa [le4_length] using ha2
    · simp [encode_item, le4_length]; omega

theorem read_record_a {P : params} {adj : List Nat} {s s' : sliding_shard} {i : Int}
    {slots slots' : List svertex} {dsts pre tail : List Nat} (ha : aok P adj s)
    (hadj : adj = pre ++ (encode_dsts dsts ++ tail)) (hoff : s.adjoffset = pre.length)
    (hm : dsts.length < 536870912)
    (hno : s.edataoffset + P.sizeof_ET * dsts.length < 18446744073709551616)
    (h : read_record P adj i (dsts.length : Int) s slots = .ok (s', slots')) :
    aok P adj s' ∧ s'.adjoffset = pre.length + 4 * dsts.length ∧
      s'.edataoffset = s.edataoffset + P.sizeof_ET * dsts.length := by
  have hin : s.adjoffset + 4 * dsts.length ≤ s.adjfilesize := by
    rw [ha.cfg.2.2.1, hoff, hadj]
    simp only [List.length_append, encode_dsts_length]
    omega
  have hskip : aok P adj (skip P (dsts.length : Int) 4 s) ∧
      (skip P (dsts.length : Int) 4 s).adjoffset = pre.length + 4 * dsts.length ∧
      (skip P (dsts.length : Int) 4 s).edataoffset
        = s.edataoffset + P.sizeof_ET * dsts.length := by
    obtain ⟨a1, a2, a3⟩ := skip_a dsts.length ha hin hm hno
    exact ⟨a1, by rw [a2, hoff], a3⟩
  unfold read_record at h
  split at h
  · cases h
    exact hskip
  · split at h
    · cases h
    · split at h
      · cases h
      · split at h
        · split at h
          · cases h
          · rename_i s1 v1 h1
            cases h
            rw [Int.toNat_ofNat] at h1
            exact read_edges_a dsts ha hadj hoff hno h1
        · cases h
          exact hskip

theorem aok_record_checkpoint {P : params} {adj : List Nat} {s : sliding_shard}
    (nvecs : Int) (ri : Bool) (l : Nat) (ha : aok P adj s) :
    aok P adj (record_checkpoint nvecs ri l s).1 := by
  rcases record_checkpoint_fields nvecs ri l s with e | e <;> rw [e]
  · exact ha
  · exact ⟨ha.cfg, ha.coh⟩

theorem aok_curvid {P : params} {adj : List Nat} {s : sliding_shard} (c : Nat)
    (ha : aok P adj s) : aok P adj { s with curvid := c } :=
  ⟨ha.cfg, ha.coh⟩

theorem aok_curvid_decoded {P : params} {adj : List Nat} {s : sliding_shard} (c : Nat)
    (l : List Nat) (ha : aok P adj s) : aok P adj { s with decoded := l, curvid := c } :=
  ⟨ha.cfg, ha.coh⟩

/-- A pass of the loop body that returns, on a coherent state with the bytes of the entry
`it` at the cursor: the cursor stands right after the entry, and the sparse index is the
old one or the old one with the old cursor recorded. -/
theorem rnv_body_a {P : params} {adj : List Nat} {s s' : sliding_shard}
    {slots slots' : List svertex} {nvecs : Int} {ri : Bool} {i i' : Int} {lastrec lastrec' : Nat}
    (it : adjitem) (pre tail : List Nat) (ha : aok P adj s)
    (hadj : adj = pre ++ (encode_item it ++ tail)) (hoff : s.adjoffset = pre.length)
    (hval : valid_item it) (hsm : small_item it) (hcv : s.curvid + 256 < 4294967296)
    (hno : s.edataoffset + P.sizeof_ET * item_ndsts it < 18446744073709551616)
    (h : rnv_body P adj nvecs ri i lastrec s slots = .ok (i', lastrec', s', slots')) :
    aok P adj s' ∧ s'.adjoffset = s.adjoffset + (encode_item it).length ∧
      s'.curvid = s.curvid + item_span it ∧
      s'.edataoffset = s.edataoffset + P.sizeof_ET * item_ndsts it ∧
      (s'.sparse_index = s.sparse_index ∨ s'.sparse_index = (save_offset s).sparse_index) := by
  obtain ⟨hst0, hcv0⟩ := record_checkpoint_static nvecs ri lastrec s
  have hsc0 := same_core_record_checkpoint nvecs ri lastrec s
  have ha0 := aok_record_checkpoint nvecs ri lastrec ha
  have hoff0 : (record_checkpoint nvecs ri lastrec s).1.adjoffset = pre.length := by
    rw [hsc0.2.2.1]; exact hoff
  have heo0 : (record_checkpoint nvecs ri lastrec s).1.edataoffset = s.edataoffset :=
    hsc0.2.2.2.1
  have hsi0 := hst0.2.2.2
  unfold rnv_body at h
  simp only [] at h
  generalize (record_checkpoint nvecs ri lastrec s).1 = s0 at *
  generalize (record_checkpoint nvecs ri lastrec s).2 = l0 at *
  cases it with
  | skip nz =>
    have hnz : nz < 256 := hval
    have hadj1 : adj = pre ++ ([0] ++ (nz :: tail)) := hadj
    obtain ⟨s1, h1, hl1, ha1, hf1⟩ := read_val_at_a ha0 hadj1 hoff0 (by decide) (by decide)
    obtain ⟨io1, ao1, cab1, rfl⟩ := hf1
    have hl1c := aok_curvid (u32 (s0.curvid + 1)) hl1
    have hadj2 : adj = (pre ++ [0]) ++ ([nz] ++ tail) := by rw [hadj]; simp [encode_item]
    obtain ⟨s2, h2, hl2, ha2, hf2⟩ := read_val_at_a hl1c hadj2 (by simpa using ha1)
      (by simp) (by simp)
    obtain ⟨io2, ao2, cab2, rfl⟩ := hf2
    simp only [List.length_singleton, le_value_single] at h1 h2
    rw [h1] at h
    simp only [if_true] at h
    rw [h2] at h
    cases h
    refine ⟨aok_curvid _ hl2, ?_, ?_, ?_, hsi0⟩
    · simp only [List.length_append, List.length_singleton] at ha2
      show ao2 = s.adjoffset + (encode_item (adjitem.skip nz)).length
      rw [ha2, hoff]
      rfl
    · show u32 (u32 (s0.curvid + 1) + nz) = s.curvid + (nz + 1)
      rw [hcv0]
      unfold u32
      omega
    · show s0.edataoffset = _
      rw [heo0]
      simp [item_ndsts]
  | record long dsts =>
    obtain ⟨ns, s1, s2, pre2, h1, hns, hrc, hl2, hadj2, hoff2, hlen2, hf2⟩ :=
      read_header_a long dsts pre tail ha0 hadj hoff0 hval
    obtain ⟨io2, ao2, cab2, rfl⟩ := hf2
    rw [h1] at h
    simp only [hns, if_false] at h
    rw [hrc] at h
    simp only [] at h
    split at h
    · cases h
    · rename_i s3 slots3 h3
      cases h
      have hno' : s.edataoffset + P.sizeof_ET * dsts.length < 18446744073709551616 := by
        simpa [item_ndsts] using hno
      obtain ⟨ha3, hao3, he3⟩ := read_record_a hl2 hadj2 hoff2 hsm
        (by show s0.edataoffset + _ < _; rw [heo0]; exact hno') h3
      have fr3 := frame6_range (read_record_ok h3).1
      refine ⟨aok_curvid_decoded _ _ ha3, ?_, ?_, ?_, ?_⟩
      · show s3.adjoffset = _
        rw [hao3, hoff, ← hlen2, encode_dsts_length]
      · show u32 (s3.curvid + 1) = s.curvid + 1
        rw [fr3.2.2.2.1]
        show u32 (s0.curvid + 1) = _
        rw [hcv0]
        unfold u32
        omega
      · show s3.edataoffset = _
        rw [he3]
        show s0.edataoffset + _ = _
        rw [heo0]
        simp [item_ndsts]
      · show s3.sparse_index = _ ∨ s3.sparse_index = _
        rw [fr3.2.2.2.2.2.1]
        exact hsi0

theorem cinv_same {P : params} {items done : List adjitem} {s s' : sliding_shard}
    (h : cinv P items done s) (ha : aok P (encode_items items) s')
    (e1 : s'.adjoffset = s.adjoffset) (e2 : s'.curvid = s.curvid)
    (e3 : s'.edataoffset = s.edataoffset) (e4 : s'.sparse_index = s.sparse_index) :
    cinv P items done s' :=
  ⟨ha, h.valid, h.small, h.spanb, h.room, h.pre, by rw [e1]; exact h.adjo,
    by rw [e2]; exact h.cv, by rw [e3]; exact h.edo, by rw [e4]; exact h.si,
    by rw [e4]; exact h.si0⟩

theorem encode_items_single (it : adjitem) : encode_items [it] = encode_item it := by
  simp [encode_items]

theorem span_single (it : adjitem) : span [it] = item_span it := by
  simp [span]

theorem ndsts_single (it : adjitem) : ndsts [it] = item_ndsts it := by
  rw [ndsts_cons]
  simp [ndsts]

theorem span_prefix_le {items done rest : List adjitem} (h : items = done ++ rest) :
    span done ≤ span items := by
  rw [h, span_append]
  omega

theorem ndsts_prefix_le {items done rest : List adjitem} (h : items = done ++ rest) :
    ndsts done ≤ ndsts items := by
  rw [h, ndsts_append]
  omega

/-- The index entry `save_offset` records on a state satisfying the cursor invariant is
the cursor after `done`. -/
theorem save_offset_entry {P : params} {items done : List adjitem} {s : sliding_shard}
    (h : cinv P items done s) :
    (save_offset s).sparse_index = map_insert (cursor_entry P done).1 (cursor_entry P done).2
      s.sparse_index := by
  obtain ⟨rest, hr⟩ := h.pre
  have hb := span_prefix_le hr
  have hs := h.spanb
  unfold save_offset cursor_entry
  simp only []
  rw [h.cv, h.adjo, h.edo, to_int_of_lt (by omega)]

/-- A pass of the loop body that returns, on a state satisfying the cursor invariant with
the entry `it` at the cursor: the invariant holds again with the cursor after `it`. -/
theorem cinv_body {P : params} {items done rest : List adjitem} {it : adjitem}
    {s s' : sliding_shard} {slots slots' : List svertex} {nvecs : Int} {ri : Bool}
    {i i' : Int} {lastrec lastrec' : Nat} (h : cinv P items done s)
    (hit : items = done ++ it :: rest)
    (hb : rnv_body P (encode_items items) nvecs ri i lastrec s slots
      = .ok (i', lastrec', s', slots')) :
    cinv P items (done ++ [it]) s' := by
  have hmem : it ∈ items := by rw [hit]; simp
  have hit2 : items = (done ++ [it]) ++ rest := by rw [hit]; simp
  have hsp := span_prefix_le hit2
  have hnd := ndsts_prefix_le hit2
  rw [span_append, span_single] at hsp
  rw [ndsts_append, ndsts_single] at hnd
  have hspb := h.spanb
  have hroom := h.room
  have hadj : encode_items items
      = encode_items done ++ (encode_item it ++ encode_items rest) := by
    rw [hit, encode_items_append]
    rfl
  have hmul : P.sizeof_ET * (ndsts done + item_ndsts it)
      = P.sizeof_ET * ndsts done + P.sizeof_ET * item_ndsts it := Nat.mul_add _ _ _
  have hle : P.sizeof_ET * (ndsts done + item_ndsts it) ≤ P.sizeof_ET * ndsts items :=
    Nat.mul_le_mul_left _ hnd
  obtain ⟨a1, a2, a3, a4, a5⟩ := rnv_body_a it (encode_items done) (encode_items rest) h.ok hadj
    h.adjo (h.valid it hmem) (h.small it hmem) (by rw [h.cv]; omega)
    (by rw [h.edo]; omega) hb
  refine ⟨a1, h.valid, h.small, h.spanb, h.room, ⟨rest, hit2⟩, ?_, ?_, ?_, ?_, ?_⟩
  · rw [a2, h.adjo, encode_items_append, encode_items_single, List.length_append]
  · rw [a3, h.cv, span_append, span_single]
  · rw [a4, h.edo, ndsts_append, ndsts_single, hmul]
  · intro ke hke
    rcases a5 with e | e
    · rw [e] at hke
      exact h.si ke hke
    · rw [e, save_offset_entry h] at hke
      rcases mem_map_insert hke with h1 | h1
      · exact ⟨done, it :: rest, hit, h1⟩
      · exact h.si ke h1
  · obtain ⟨e0, he0⟩ := h.si0
    rcases a5 with e | e
    · rw [e]; exact ⟨e0, he0⟩
    · rw [e, save_offset_entry h]
      exact ⟨e0, mem_map_insert_of_mem he0⟩

theorem cinv_loop {P : params} {items : List adjitem} {nvecs : Int} {ri : Bool} (fuel : Nat) :
    ∀ {done : List adjitem} {i : Int} {lastrec : Nat} {s s' : sliding_shard}
      {slots slots' : List svertex}, cinv P items done s →
    rnv_loop P (encode_items items) nvecs ri fuel i lastrec s slots = .ok (s', slots') →
    ∃ done', cinv P items done' s' := by
  induction fuel with
  | zero =>
    intro done i lastrec s s' slots slots' h hl
    unfold rnv_loop at hl
    cases hl
    exact ⟨done, h⟩
  | succ fuel ih =>
    intro done i lastrec s s' slots slots' h hl
    unfold rnv_loop at hl
    split at hl
    · split at hl
      · cases hl
        exact ⟨done, h⟩
      · rename_i hlt
        split at hl
        · cases hl
        · rename_i i1 l1 s1 slots1 h1
          obtain ⟨rest, hr⟩ := h.pre
          cases rest with
          | nil =>
            exfalso
            apply hlt
            rw [List.append_nil] at hr
            show s.adjfilesize ≤ s.adjoffset
            rw [h.ok.cfg.2.2.1, h.adjo, hr]
          | cons it rest =>
            exact ih (cinv_body h hr h1) hl
    · cases hl
      exact ⟨done, h⟩

theorem cinv_prepare {P : params} {items done : List adjitem} {dw : Bool}
    {s s' : sliding_shard} (h : cinv P items done s) (hp : rnv_prepare dw s = .ok s') :
    cinv P items done s' := by
  unfold rnv_prepare at hp
  simp only [] at hp
  rw [release_prior_eq] at hp
  split at hp
  · cases hp
  · cases hp
    split
    · exact cinv_same h ⟨h.ok.cfg, h.ok.coh⟩ rfl rfl rfl rfl
    · exact cinv_same h ⟨h.ok.cfg, h.ok.coh⟩ rfl rfl rfl rfl

theorem cinv_flush {P : params} {items done : List adjitem} {s : sliding_shard}
    (h : cinv P items done s) : cinv P items done (flush s) := by
  unfold flush
  simp only []
  rw [release_prior_eq]
  split
  · refine cinv_same h ⟨h.ok.cfg, ?_⟩ rfl rfl rfl rfl
    intro b hb
    cases hb
  · rename_i hn
    refine cinv_same h ⟨h.ok.cfg, ?_⟩ rfl rfl rfl rfl
    intro b hb
    have hn' : s.curadjblock = none := hn
    have hb' : s.curadjblock = some b := hb
    rw [hn'] at hb'
    cases hb'

theorem cinv_set_offset {P : params} {items done : List adjitem} {s : sliding_shard}
    (h : cinv P items done s) : cinv P items [] (set_offset 0 0 0 s) := by
  have hcoh : adj_coherent (set_offset 0 0 0 s) := by
    intro b hb
    unfold set_offset at hb
    simp only [] at hb
    split at hb
    · cases hb
    · rename_i hn
      have hn' : s.curadjblock = none := hn
      have hb' : s.curadjblock = some b := hb
      rw [hn'] at hb'
      cases hb'
  have hcfg : cfg_ok P (encode_items items) (set_offset 0 0 0 s) := by
    unfold set_offset
    simp only []
    split <;> exact h.ok.cfg
  have hf : (set_offset 0 0 0 s).adjoffset = 0 ∧ (set_offset 0 0 0 s).curvid = 0 ∧
      (set_offset 0 0 0 s).edataoffset = 0 ∧
      (set_offset 0 0 0 s).sparse_index = s.sparse_index := by
    unfold set_offset
    simp only []
    split <;> exact ⟨rfl, rfl, rfl, rfl⟩
  refine ⟨⟨hcfg, hcoh⟩, h.valid, h.small, h.spanb, h.room, ⟨items, rfl⟩, ?_, ?_, ?_, ?_, ?_⟩
  · rw [hf.1]; rfl
  · rw [hf.2.1]; rfl
  · rw [hf.2.2.1]; simp [ndsts]
  · rw [hf.2.2.2]; exact h.si
  · rw [hf.2.2.2]; exact h.si0

/-- Two prefixes of the same file, the second covering more source ids: the second
extends the first. -/
theorem prefix_of_span_lt {items done rest d0 r0 : List adjitem} (h1 : items = done ++ rest)
    (h2 : items = d0 ++ r0) (hlt : span done < span d0) : ∃ mid, d0 = done ++ mid := by
  rw [h1] at h2
  rcases List.append_eq_append_iff.1 h2 with ⟨a', ha, -⟩ | ⟨c', hc, -⟩
  · exact ⟨a', ha⟩
  · exfalso
    rw [hc, span_append] at hlt
    omega

theorem map_lower_bound_mem {k : Int} {m : List (Int × indexentry)} {x : Int × indexentry}
    (h : map_lower_bound k m = some x) : x ∈ m := by
  induction m with
  | nil => cases h
  | cons a m ih =>
    obtain ⟨k', e'⟩ := a
    unfold map_lower_bound at h
    split at h
    · cases h
      exact List.mem_cons_self _ _
    · exact List.mem_cons_of_mem _ (ih h)

theorem cfg_ok_congr {P : params} {adj : List Nat} {s s' : sliding_shard}
    (e1 : s'.adjfilesize = s.adjfilesize) (e2 : s'.edatafilesize = s.edatafilesize)
    (e3 : s'.blocksize = s.blocksize) (e4 : s'.only_adjacency = s.only_adjacency)
    (e5 : s'.edata_session = s.edata_session) (e6 : s'.adjfile_session = s.adjfile_session)
    (h : cfg_ok P adj s) : cfg_ok P adj s' := by
  unfold cfg_ok at h ⊢
  rw [e1, e2, e3, e4, e5, e6]
  exact h

/-- What `move_close_to` does when it returns: nothing, or it has found an index entry not
behind the target and ahead of the cursor, made it the cursor, and moved the read pointer
of the adjacency block by the distance. -/
theorem move_close_to_fields {v : Nat} {s s' : sliding_shard}
    (hm : move_close_to v s = .ok s') :
    s' = s ∨ ∃ key co, map_lower_bound (-(to_int v)) s.sparse_index = some (key, co) ∧
      ¬ s.curvid ≥ v ∧ -key ≥ 0 ∧ -key ≤ to_int v ∧ -key > to_int s.curvid ∧
      s'.curvid = u32 (-key).toNat ∧ s'.adjoffset = co.adjoffset ∧
      s'.edataoffset = co.edataoffset ∧ s'.sparse_index = s.sparse_index ∧
      s'.curadjblock = s.curadjblock.map (fun b => { b with ptr := u64 (b.ptr +
        u64 (co.adjoffset + 18446744073709551616 - s.adjoffset)) }) ∧
      s'.iomgr = s.iomgr ∧ s'.adjfilesize = s.adjfilesize ∧
      s'.edatafilesize = s.edatafilesize ∧ s'.blocksize = s.blocksize ∧
      s'.only_adjacency = s.only_adjacency ∧ s'.edata_session = s.edata_session ∧
      s'.adjfile_session = s.adjfile_session := by
  unfold move_close_to at hm
  split at hm
  · cases hm
    exact Or.inl rfl
  · rename_i hge
    split at hm
    · cases hm
    · rename_i key co hlb
      simp only [] at hm
      split at hm
      · cases hm
      · rename_i h1
        split at hm
        · cases hm
        · rename_i h2
          split at hm
          · rename_i h3
            cases hm
            right
            refine ⟨key, co, hlb, hge, not_not.1 h1, not_not.1 h2, h3, ?_⟩
            cases s.curblock <;> cases s.curadjblock <;>
              exact ⟨rfl, rfl, rfl, rfl, rfl, rfl, rfl, rfl, rfl, rfl, rfl, rfl⟩
          · cases hm
            exact Or.inl rfl

/-- A fast-forward that returns keeps the cursor invariant: the state is unchanged, or the
cursor stands after more entries of the file than before, not beyond the target. -/
theorem cinv_move {P : params} {items done : List adjitem} {v : Nat} {s s' : sliding_shard}
    (h : cinv P items done s) (hm : move_close_to v s = .ok s') :
    s' = s ∨ ∃ mid, cinv P items (done ++ mid) s' ∧ ((span (done ++ mid) : Nat) : Int) ≤ to_int v ∧
      span done < span (done ++ mid) := by
  rcases move_close_to_fields hm with e | ⟨key, co, hlb, -, -, h2, h3, f1, f2, f3, f4, f5, f6,
    f7, f8, f9, f10, f11, f12⟩
  · exact Or.inl e
  right
  obtain ⟨rest, hr⟩ := h.pre
  have hsb := span_prefix_le hr
  have hspan := h.spanb
  obtain ⟨d0, r0, hd0, hke⟩ := h.si _ (map_lower_bound_mem hlb)
  have hkey : key = -((span d0 : Nat) : Int) := congrArg Prod.fst hke
  have hco : co = indexentry.mk (encode_items d0).length (P.sizeof_ET * ndsts d0) :=
    congrArg Prod.snd hke
  rw [to_int_of_lt (show s.curvid < 2147483648 by rw [h.cv]; omega), h.cv, hkey] at h3
  have hlt : span done < span d0 := by omega
  obtain ⟨mid, hmid⟩ := prefix_of_span_lt hr hd0 hlt
  have hsb0 := span_prefix_le hd0
  have hao : co.adjoffset = (encode_items d0).length := by rw [hco]
  have heo : co.edataoffset = P.sizeof_ET * ndsts d0 := by rw [hco]
  have hlen : (encode_items d0).length = (encode_items done).length + (encode_items mid).length := by
    rw [hmid, encode_items_append, List.length_append]
  have hlen2 : (encode_items d0).length ≤ (encode_items items).length := by
    rw [hd0, encode_items_append, List.length_append]
    omega
  obtain ⟨c1, c2, c3, c4, c5, c6, c7, c8, c9, c10, c11⟩ := h.ok.cfg
  refine ⟨mid, ⟨⟨cfg_ok_congr f7 f8 f9 f10 f11 f12 h.ok.cfg, ?_⟩, h.valid, h.small, h.spanb,
    h.room, ⟨r0, by rw [← hmid]; exact hd0⟩, ?_, ?_, ?_, ?_, ?_⟩, ?_, ?_⟩
  · intro b' hb'
    rw [f5] at hb'
    cases hcab : s.curadjblock with
    | none =>
      rw [hcab] at hb'
      cases hb'
    | some b =>
      rw [hcab] at hb'
      cases hb'
      obtain ⟨d, g1, g2, g3, g4, g5, g6, g7, g8, g9⟩ := h.ok.coh b hcab
      have hadjo := h.adjo
      refine ⟨d, g1, by rw [f12]; exact g2, by rw [f6]; exact g3, g4, g5, g6,
        by rw [f7]; exact g7, ?_, by rw [f12]; exact g9⟩
      show b.offset + u64 (b.ptr + u64 (co.adjoffset + 18446744073709551616 - s.adjoffset))
        = s'.adjoffset
      rw [f2, hao]
      unfold u64
      omega
  · rw [f2, hao, hmid]
  · rw [f1, hkey, neg_neg, Int.toNat_ofNat, hmid]
    unfold u32
    rw [← hmid]
    omega
  · rw [f3, heo, hmid]
  · rw [f4]
    exact h.si
  · rw [f4]
    exact h.si0
  · rw [← hmid]
    rw [hkey, neg_neg] at h2
    exact h2
  · rw [← hmid]
    exact hlt

/-- On a state satisfying the cursor invariant `move_close_to` returns for every target
below `2^31`. -/
theorem move_close_to_returns {P : params} {items done : List adjitem} {v : Nat}
    {s : sliding_shard} (h : cinv P items done s) (hv : v < 2147483648) :
    ∃ s', move_close_to v s = .ok s' := by
  obtain ⟨rest, hr⟩ := h.pre
  have hsb := span_prefix_le hr
  have hspan := h.spanb
  unfold move_close_to
  by_cases hge : s.curvid ≥ v
  · exact ⟨s, by simp only [hge, if_true]; rfl⟩
  · simp only [hge, if_false]
    obtain ⟨e0, h0⟩ := h.si0
    obtain ⟨ke, h1, h2, h3⟩ := map_lower_bound_some (k := -(to_int v)) h0
      (by rw [to_int_of_lt hv]; omega)
    obtain ⟨d0, r0, -, hke⟩ := h.si ke h2
    rw [h1, hke]
    rw [hke] at h3
    simp only [cursor_entry] at h3 ⊢
    rw [to_int_of_lt hv] at h3 ⊢
    have c1 : (-(-((span d0 : Nat) : Int))) ≥ 0 := by omega
    have c2 : (-(-((span d0 : Nat) : Int))) ≤ (v : Int) := by omega
    simp only [c1, c2, not_true_eq_false, if_false]
    split
    · exact ⟨_, rfl⟩
    · exact ⟨_, rfl⟩

theorem cinv_read {P : params} {items done : List adjitem} {nvecs : Int} {start : Nat}
    {slots slots' : List svertex} {ri dw : Bool} {s s' : sliding_shard}
    (h : cinv P items done s)
    (hr : read_next_vertices P (encode_items items) nvecs start slots ri dw s
      = .ok (s', slots')) : ∃ done', cinv P items done' s' := by
  unfold read_next_vertices at hr
  split at hr
  · cases hr
  · rename_i s1 h1
    have hc1 : ∃ d1, cinv P items d1 s1 := by
      split at h1
      · rcases cinv_move h h1 with e | ⟨mid, hc, -, -⟩
        · rw [e]; exact ⟨done, h⟩
        · exact ⟨_, hc⟩
      · cases h1
        exact ⟨done, h⟩
    obtain ⟨d1, hc1⟩ := hc1
    split at hr
    · cases hr
    · rename_i s2 h2
      have hc2 := cinv_prepare hc1 h2
      simp only [] at hr
      split at hr
      · cases hr
      · rename_i s3 slots3 h3
        cases hr
        obtain ⟨d3, hc3⟩ := cinv_loop _ hc2 h3
        exact ⟨d3, cinv_same hc3 ⟨hc3.ok.cfg, hc3.ok.coh⟩ rfl rfl rfl rfl⟩

theorem cinv_run {P : params} {items : List adjitem} (ops : List op) :
    ∀ {done : List adjitem} {s s' : sliding_shard} {outs : List (List svertex)},
    (∀ o ∈ ops, rewind_ok o) → cinv P items done s →
    run P (encode_items items) s ops = .ok (s', outs) → ∃ done', cinv P items done' s' := by
  induction ops with
  | nil =>
    intro done s s' outs _ h hr
    unfold run at hr
    cases hr
    exact ⟨done, h⟩
  | cons o ops ih =>
    intro done s s' outs hops h hr
    unfold run at hr
    split at hr
    · cases hr
    · rename_i s1 out h1
      have hc1 : ∃ d1, cinv P items d1 s1 := by
        cases o with
        | read nvecs start slots ri dw => exact cinv_read h h1
        | flush =>
          cases h1
          exact ⟨done, cinv_flush h⟩
        | set_offset a v e =>
          obtain ⟨rfl, rfl, rfl⟩ : a = 0 ∧ v = 0 ∧ e = 0 := hops _ (List.mem_cons_self _ _)
          cases h1
          exact ⟨[], cinv_set_offset h⟩
      obtain ⟨d1, hc1⟩ := hc1
      split at hr
      · cases hr
      · rename_i s2 outs2 h2
        cases hr
        exact ih (fun o ho => hops o (List.mem_cons_of_mem _ ho)) hc1 h2

theorem cinv_of_winv {P : params} {items done : List adjitem} {H : List edgeptr}
    {s : sliding_shard} (h : winv P items H done s) (hsm : ∀ it ∈ items, small_item it)
    (hsp : span items < 2147483648) : cinv P items done s := by
  have hF := h.cfg.2.2.2.2.1
  have hroom := h.room
  exact ⟨⟨h.cfg, h.adjc⟩, h.valid, hsm, hsp, by omega, h.pre, h.adjo, h.cv, h.edo,
    fun ke hke => by
      obtain ⟨d0, r0, e1, e2, -⟩ := h.si ke hke
      exact ⟨d0, r0, e1, e2⟩, h.si0⟩

/-- The fast-forward on a sliding shard constructed without edge data (`only_adjacency`)
over the shard `ff_items`, where the edge-data offset is not used.  The first two calls read the scheduled
vertices 0, 1 and 3 and record the checkpoint of source 2 with the edge-data offset 0
(`read_edgeptr` returns `NULL` and leaves the offset alone); after `flush` and
`set_offset(0, 0, 0)` the call for the unscheduled vertex 0 skips its destination, which
advances the edge-data offset to 4.  `move_close_to(3)` then moves to the checkpoint of
source 2 and sets the edge-data offset back to 0. -/
theorem adjacency_only_fast_forward_goes_back :
    ∃ s0 s outs s',
      sliding_shard.construct sample_params sample_io 16 (encode_items ff_items).length
        0 100 1000 false true = some s0 ∧
      run sample_params (encode_items ff_items) s0 rewind_skip_ops = .ok (s, outs) ∧
      s.sparse_index = [(-2, indexentry.mk 10 0), (0, indexentry.mk 0 0)] ∧
      (s.curvid, s.adjoffset, s.edataoffset) = (1, 5, 4) ∧
      move_close_to 3 s = .ok s' ∧
      (s'.curvid, s'.adjoffset, s'.edataoffset) = (2, 10, 0) :=
  ⟨_, _, _, _, rfl, rfl, rfl, rfl, rfl, rfl⟩

/-- C23, counterexample: a target beyond the range of `int`.  On a freshly constructed
sliding shard, with the cursor at source 0 behind the target, the fast-forward to the
vertex id `2147483649` looks up the key `-(int) v = 2147483647`, finds no entry of the
sparse index at or above it (`lower_bound` is `end()`), and dereferences it: the call
does not return a state. -/
theorem fast_forward_beyond_int_range_fails :
    ∃ s0,
      sliding_shard.construct sample_params sample_io 16 (encode_items sample_items).length
        0 100 1000 false false = some s0 ∧
      s0.curvid = 0 ∧ s0.sparse_index = [(0, indexentry.mk 0 0)] ∧
      to_int 2147483649 = -2147483647 ∧
      map_lower_bound (-(to_int 2147483649)) s0.sparse_index = none ∧
      move_close_to 2147483649 s0 = .error (fault.out_of_bounds, s0) :=
  ⟨_, rfl, rfl, rfl, by decide, by decide, rfl⟩

/-- C23, amended: the fast-forward is never backward for targets below `2^31` on a shard
with edge data.  For every state reached from a sliding shard freshly constructed with
edge data (`only_adjacency` false, one record size) over a well-formed shard (fewer than
`2^31` source ids, fewer than `2^29` destinations per record) by calls of
`read_next_vertices`, `flush` and `set_offset(0, 0, 0)` that return, and every target
`v < 2^31`: `move_close_to(v)` returns; `curvid`, `adjoffset` and `edataoffset` are each at
least what they were; `curvid` is at most `max(previous curvid, v)`; and the state is
unchanged when `curvid ≥ v` or when the entry the lookup selects is not strictly ahead of
`curvid`. -/
theorem fast_forward_never_backward (P : params) (items : List adjitem) (io : stripedio)
    (F rs re bs : Nat) (dw : Bool) (hs : shard_ok P items io F rs re bs)
    (hsm : ∀ it ∈ items, small_item it) (hsp : span items < 2147483648)
    (ops : List op) (hops : ∀ o ∈ ops, rewind_ok o)
    (s0 s : sliding_shard) (outs : List (List svertex))
    (h0 : sliding_shard.construct P io F (encode_items items).length rs re bs dw false
      = some s0)
    (hrun : run P (encode_items items) s0 ops = .ok (s, outs))
    (v : Nat) (hv : v < 2147483648) :
    ∃ s', move_close_to v s = .ok s' ∧
      s.curvid ≤ s'.curvid ∧ s.adjoffset ≤ s'.adjoffset ∧ s.edataoffset ≤ s'.edataoffset ∧
      s'.curvid ≤ max s.curvid v ∧
      (s.curvid ≥ v → s' = s) ∧
      (∀ ke, map_lower_bound (-(to_int v)) s.sparse_index = some ke →
        -ke.1 ≤ (s.curvid : Int) → s' = s) := by
  obtain ⟨s0', e0, hw, -⟩ := fresh_ok dw hs
  rw [h0] at e0
  cases e0
  obtain ⟨done, hc⟩ := cinv_run ops hops (cinv_of_winv hw hsm hsp) hrun
  obtain ⟨s', hm⟩ := move_close_to_returns hc hv
  obtain ⟨rest, hr⟩ := hc.pre
  have hsb := span_prefix_le hr
  have hcur : to_int s.curvid = (s.curvid : Int) := to_int_of_lt (by rw [hc.cv]; omega)
  refine ⟨s', hm, ?_⟩
  have hsame : (s.curvid ≥ v → s' = s) ∧
      (∀ ke, map_lower_bound (-(to_int v)) s.sparse_index = some ke →
        -ke.1 ≤ (s.curvid : Int) → s' = s) := by
    rcases move_close_to_fields hm with e | ⟨key, co, hlb, hge, -, -, h3, -⟩
    · exact ⟨fun _ => e, fun _ _ _ => e⟩
    · refine ⟨fun h => absurd h hge, ?_⟩
      intro ke hke hle
      rw [hlb] at hke
      cases hke
      rw [hcur] at h3
      exact absurd hle (by simp only []; omega)
  rcases cinv_move hc hm with e | ⟨mid, hc', h1, h2⟩
  · rw [e]
    exact ⟨le_refl _, le_refl _, le_refl _, le_max_left _ _, fun _ => rfl, fun _ _ _ => rfl⟩
  · refine ⟨?_, ?_, ?_, ?_, hsame⟩
    · rw [hc'.cv, hc.cv]
      omega
    · rw [hc'.adjo, hc.adjo, encode_items_append, List.length_append]
      omega
    · rw [hc'.edo, hc.edo, ndsts_append]
      exact Nat.mul_le_mul_left _ (Nat.le_add_right _ _)
    · rw [hc'.cv]
      rw [to_int_of_lt hv] at h1
      have : span (done ++ mid) ≤ v := by omega
      exact le_trans this (le_max_right _ _)

theorem rewind_shard_ok : shard_ok sample_params ff_items sample_io 16 0 100 1000 := by
  refine ⟨?_, by decide, rfl, by decide, by decide, by decide, by decide, by decide, by decide,
    by decide⟩
  intro c hc
  cases hc

theorem fast_forward_never_backward_witness :
    shard_ok sample_params ff_items sample_io 16 0 100 1000 ∧
    (∀ it ∈ ff_items, small_item it) ∧ span ff_items < 2147483648 ∧
    (∀ o ∈ rewind_ops, rewind_ok o) ∧
    ∃ s0 s outs,
      sliding_shard.construct sample_params sample_io 16 (encode_items ff_items).length
        0 100 1000 false false = some s0 ∧
      run sample_params (encode_items ff_items) s0 rewind_ops = .ok (s, outs) ∧
      s.curvid = 1 ∧
      ∃ s', move_close_to 3 s = .ok s' ∧
        s.curvid ≤ s'.curvid ∧ s.adjoffset ≤ s'.adjoffset ∧
        s.edataoffset ≤ s'.edataoffset ∧ s'.curvid ≤ max s.curvid 3 ∧
        (s.curvid ≥ 3 → s' = s) ∧
        (∀ ke, map_lower_bound (-(to_int 3)) s.sparse_index = some ke →
          -ke.1 ≤ (s.curvid : Int) → s' = s) :=
  ⟨rewind_shard_ok, by decide, by decide, by decide, _, _, _, rfl, rfl, rfl,
    fast_forward_never_backward sample_params ff_items sample_io 16 0 100 1000 false
      rewind_shard_ok (by decide) (by decide) rewind_ops (by decide) _ _ _ rfl rfl 3
      (by decide)⟩

/-- The fast-forward of the sample: from the cursor at source 1 the target 3 selects the
checkpoint of source 2, and the cursor moves to it. -/
theorem sample_fast_forward :
    ∃ s0 s outs s',
      sliding_shard.construct sample_params sample_io 16 (encode_items ff_items).length
        0 100 1000 false false = some s0 ∧
      run sample_params (encode_items ff_items) s0 rewind_ops = .ok (s, outs) ∧
      (s.curvid, s.adjoffset, s.edataoffset) = (1, 5, 4) ∧
      move_close_to 3 s = .ok s' ∧
      (s'.curvid, s'.adjoffset, s'.edataoffset) = (2, 10, 8) :=
  ⟨_, _, _, _, rfl, rfl, rfl, rfl, rfl⟩

theorem index_grown_refl (s : sliding_shard) : index_grown s s := ⟨fun h => h, fun _ h => h⟩

theorem index_grown_trans {a b c : sliding_shard} (h1 : index_grown a b) (h2 : index_grown b c) :
    index_grown a c :=
  ⟨fun h => h2.1 (h1.1 h), fun x h => h2.2 x (h1.2 x h)⟩

theorem index_grown_of_eq {s s' : sliding_shard} (h : s'.sparse_index = s.sparse_index) :
    index_grown s s' := by
  unfold index_grown
  rw [h]
  exact ⟨fun h => h, fun _ h => h⟩

theorem frame6_index {s s' : sliding_shard} (h : frame6 s s') : index_grown s s' :=
  index_grown_of_eq (frame6_range h).2.2.2.2.2.1

theorem save_offset_index (s : sliding_shard) : index_grown s (save_offset s) :=
  ⟨fun h => map_insert_sorted _ _ _ h, fun _ h => mem_map_insert_of_mem h⟩

theorem record_checkpoint_index (nvecs : Int) (ri : Bool) (l : Nat) (s : sliding_shard) :
    index_grown s (record_checkpoint nvecs ri l s).1 := by
  rcases record_checkpoint_fields nvecs ri l s with e | e <;> rw [e]
  · exact index_grown_refl _
  · exact save_offset_index s

theorem rnv_body_index {P : params} {adj : List Nat} {nvecs : Int} {ri : Bool} {i i' : Int}
    {lastrec lastrec' : Nat} {s s' : sliding_shard} {pre pre' : List svertex}
    (h : rnv_body P adj nvecs ri i lastrec s pre = .ok (i', lastrec', s', pre')) :
    index_grown s s' := by
  unfold rnv_body at h
  simp only [] at h
  have h0 := record_checkpoint_index nvecs ri lastrec s
  split at h
  · cases h
  · rename_i ns s1 h1
    have f1 := index_grown_trans h0 (frame6_index (read_val_frame h1))
    split at h
    · split at h
      · cases h
      · rename_i nz s2 h2
        have f2 := frame6_index (read_val_frame h2)
        cases h
        exact index_grown_trans f1 f2
    · split at h
      · cases h
      · rename_i n s2 h2
        have f2 := frame6_index (read_count_ok h2)
        split at h
        · cases h
        · rename_i s3 pre3 h3
          have f3 := frame6_index (read_record_ok h3).1
          cases h
          exact index_grown_trans f1 (index_grown_trans f2 f3)

theorem rnv_loop_index {P : params} {adj : List Nat} {nvecs : Int} {ri : Bool} (fuel : Nat) :
    ∀ {i : Int} {lastrec : Nat} {s s' : sliding_shard} {pre pre' : List svertex},
    rnv_loop P adj nvecs ri fuel i lastrec s pre = .ok (s', pre') → index_grown s s' := by
  induction fuel with
  | zero =>
    intro i lastrec s s' pre pre' h
    unfold rnv_loop at h
    cases h
    exact index_grown_refl _
  | succ fuel ih =>
    intro i lastrec s s' pre pre' h
    unfold rnv_loop at h
    split at h
    · split at h
      · cases h
        exact index_grown_refl _
      · split at h
        · cases h
        · rename_i i1 l1 s1 pre1 h1
          exact index_grown_trans (rnv_body_index h1) (ih h)
    · cases h
      exact index_grown_refl _

theorem move_close_to_index {v : Nat} {s s' : sliding_shard} (h : move_close_to v s = .ok s') :
    index_grown s s' := by
  unfold move_close_to at h
  split at h
  · cases h; exact index_grown_refl _
  · split at h
    · cases h
    · simp only [] at h
      split at h
      · cases h
      · split at h
        · cases h
        · split at h
          · split at h <;> split at h <;> cases h <;> exact index_grown_refl _
          · cases h; exact index_grown_refl _

theorem rnv_prepare_index {dw : Bool} {s s' : sliding_shard} (h : rnv_prepare dw s = .ok s') :
    index_grown s s' := by
  unfold rnv_prepare release_prior_to_offset at h
  simp only [] at h
  split at h
  · cases h
  · split at h <;> cases h <;> exact index_grown_refl _

theorem read_next_vertices_index {P : params} {adj : List Nat} {nvecs : Int} {start : Nat}
    {pre pre' : List svertex} {ri dw : Bool} {s s' : sliding_shard}
    (h : read_next_vertices P adj nvecs start pre ri dw s = .ok (s', pre')) :
    index_grown s s' := by
  unfold read_next_vertices at h
  split at h
  · cases h
  · rename_i s1 h1
    have f1 : index_grown s s1 := by
      split at h1
      · exact move_close_to_index h1
      · cases h1; exact index_grown_refl _
    split at h
    · cases h
    · rename_i s2 h2
      have f2 := rnv_prepare_index h2
      simp only [] at h
      split at h
      · cases h
      · rename_i s3 pre3 h3
        have f3 := rnv_loop_index _ h3
        cases h
        exact index_grown_trans f1 (index_grown_trans f2 f3)

theorem flush_index (s : sliding_shard) : index_grown s (flush s) := by
  unfold flush release_prior_to_offset
  simp only []
  split <;> exact index_grown_refl _

theorem set_offset_index (a v e : Nat) (s : sliding_shard) :
    index_grown s (set_offset a v e s) := by
  unfold set_offset
  simp only []
  split <;> exact index_grown_refl _

theorem run_index {P : params} {adj : List Nat} (ops : List op) :
    ∀ {s s' : sliding_shard} {outs : List (List svertex)},
    run P adj s ops = .ok (s', outs) → index_grown s s' := by
  induction ops with
  | nil =>
    intro s s' outs h
    cases h
    exact index_grown_refl _
  | cons o ops ih =>
    intro s s' outs h
    unfold run at h
    split at h
    · cases h
    · rename_i s1 out h1
      have f1 : index_grown s s1 := by
        cases o with
        | read nvecs start pre ri dw => exact read_next_vertices_index h1
        | flush => cases h1; exact flush_index _
        | set_offset a v e => cases h1; exact set_offset_index _ _ _ _
      split at h
      · cases h
      · rename_i s2 outs2 h2
        cases h
        exact index_grown_trans f1 (ih h2)

theorem construct_index {P : params} {io : stripedio} {F A rs re bs : Nat} {dw oa : Bool}
    {s0 : sliding_shard}
    (h0 : sliding_shard.construct P io F A rs re bs dw oa = some s0) :
    s0.sparse_index = [(0, indexentry.mk 0 0)] := by
  unfold sliding_shard.construct at h0
  simp only [] at h0
  split at h0
  · cases h0
  · cases h0
    rfl

/-- The lookup in a sorted index that holds the key `0`, for a target `v` below `2^31`:
an entry is found, and its key lies between `-v` and `0`. -/
theorem lookup_in_index {m : List (Int × indexentry)} (hs : index_sorted m) {e0 : indexentry}
    (h0 : ((0 : Int), e0) ∈ m) {v : Nat} (hv : v < 2147483648) :
    ∃ ke, map_lower_bound (-(to_int v)) m = some ke ∧ ke ∈ m ∧
      0 ≤ -ke.1 ∧ -ke.1 ≤ to_int v := by
  have hv0 : (0 : Int) ≤ to_int v := by rw [to_int_of_lt hv]; exact Int.ofNat_nonneg _
  obtain ⟨ke, h1, h2, h3⟩ := @map_lower_bound_some (-(to_int v)) 0 e0 m h0 (by omega)
  have h4 := (map_lower_bound_min hs h1).2.2 _ h0 (by show -(to_int v) ≤ 0; omega)
  have h5 : ke.1 ≤ 0 := h4
  exact ⟨ke, h1, h2, by omega, by omega⟩

/-- C33: the sparse-index lookup never fails.  The constructor records the checkpoint of
vertex 0 at the offsets 0 and 0; a run of calls (with any arguments) that returns keeps
every checkpoint and keeps the index sorted; so in the state `s` it leaves, for every
target `v` with `curvid < v < 2^31`, the `lower_bound` query of `move_close_to` finds an
entry of the index, the vertex `closest_vid` of that entry is at least 0 and at most `v`,
and `move_close_to` returns. -/
theorem sparse_lookup_never_fails (P : params) (io : stripedio) (F A rs re bs : Nat)
    (dw oa : Bool) (adj : List Nat) (ops : List op) (s0 s : sliding_shard)
    (outs : List (List svertex))
    (h0 : sliding_shard.construct P io F A rs re bs dw oa = some s0)
    (hr : run P adj s0 ops = .ok (s, outs)) (v : Nat) (h1 : s.curvid < v)
    (h2 : v < 2147483648) :
    s0.sparse_index = [(0, indexentry.mk 0 0)] ∧
    (∀ x ∈ s0.sparse_index, x ∈ s.sparse_index) ∧
    (∃ ke, map_lower_bound (-(to_int v)) s.sparse_index = some ke ∧ ke ∈ s.sparse_index ∧
      0 ≤ -ke.1 ∧ -ke.1 ≤ to_int v) ∧
    ∃ s', move_close_to v s = .ok s' := by
  have hc := construct_index h0
  have hg := run_index ops hr
  have hs : index_sorted s.sparse_index := hg.1 (by rw [hc]; exact List.pairwise_singleton _ _)
  have hm : ((0 : Int), indexentry.mk 0 0) ∈ s.sparse_index :=
    hg.2 _ (by rw [hc]; exact List.mem_singleton.2 rfl)
  obtain ⟨ke, k1, k2, k3, k4⟩ := lookup_in_index hs hm h2
  refine ⟨hc, hg.2, ⟨ke, k1, k2, k3, k4⟩, ?_⟩
  unfold move_close_to
  rw [if_neg (by omega)]
  obtain ⟨key, co⟩ := ke
  rw [k1]
  simp only []
  rw [if_neg (by simp only [not_not]; exact k3), if_neg (by simp only [not_not]; exact k4)]
  split
  · exact ⟨_, rfl⟩
  · exact ⟨_, rfl⟩

theorem sparse_lookup_never_fails_witness :
    ∃ s0 s outs,
      sliding_shard.construct sample_params sample_io 16 (encode_items sample_items).length
        0 100 1000 false false = some s0 ∧
      run sample_params (encode_items sample_items) s0 lookup_ops = .ok (s, outs) ∧
      s.curvid < 3 ∧
      s0.sparse_index = [(0, indexentry.mk 0 0)] ∧
      (∀ x ∈ s0.sparse_index, x ∈ s.sparse_index) ∧
      (∃ ke, map_lower_bound (-(to_int 3)) s.sparse_index = some ke ∧ ke ∈ s.sparse_index ∧
        0 ≤ -ke.1 ∧ -ke.1 ≤ to_int 3) ∧
      ∃ s', move_close_to 3 s = .ok s' :=
  ⟨_, _, _, rfl, rfl, by decide,
    sparse_lookup_never_fails sample_params sample_io 16 (encode_items sample_items).length
      0 100 1000 false false (encode_items sample_items) lookup_ops _ _ _ rfl rfl 3
      (by decide) (by decide)⟩

theorem save_offset_dw (b : Bool) (s : sliding_shard) :
    save_offset (with_disable_writes b s) = with_disable_writes b (save_offset s) := rfl

theorem load_next_block_dw (b : Bool) (s : sliding_shard) :
    load_next_block (with_disable_writes b s) =
      res_with (with_disable_writes b) b (load_next_block s) := by
  unfold load_next_block
  simp only [with_disable_writes]
  split <;> rfl

theorem move_close_to_dw (b : Bool) (v : Nat) (s : sliding_shard) :
    move_close_to v (with_disable_writes b s) =
      res_with (with_disable_writes b) b (move_close_to v s) := by
  obtain ⟨io, rs, re, bs, cv, ao, eo, af, ef, ws, ab, es, ads, cb, cab, si, dw, ael, nro, oa,
    lg, dec⟩ := s
  unfold move_close_to
  cases cb <;> cases cab <;> simp only [with_disable_writes]
  all_goals
    split
    · rfl
    · split
      · rfl
      · split
        · rfl
        · split
          · rfl
          · split <;> rfl

theorem check_curblock_dw (b : Bool) (n : Nat) (s : sliding_shard) :
    check_curblock n (with_disable_writes b s) =
      res_with (with_disable_writes b) b (check_curblock n s) := by
  unfold check_curblock
  simp only [with_disable_writes]
  split
  · exact load_next_block_dw b s
  · rename_i idx hidx
    split
    · rfl
    · rename_i cb hcb
      split
      · split
        · exact load_next_block_dw b { s with iomgr := (cb.release s.iomgr).2,
                                              activeblocks := s.activeblocks.set idx (cb.release s.iomgr).1 }
        · exact load_next_block_dw b s
      · rfl

theorem load_adjblock_dw (b : Bool) (s : sliding_shard) :
    load_adjblock (with_disable_writes b s) =
      res_with (with_disable_writes b) b (load_adjblock s) := by
  unfold load_adjblock
  simp only [with_disable_writes]
  split
  · rfl
  · split <;> rfl

theorem check_adjblock_dw (b : Bool) (n : Nat) (s : sliding_shard) :
    check_adjblock n (with_disable_writes b s) =
      res_with (with_disable_writes b) b (check_adjblock n s) := by
  unfold check_adjblock
  simp only [with_disable_writes]
  split
  · exact load_adjblock_dw b s
  · rename_i cab hcab
    split
    · exact load_adjblock_dw b { s with iomgr := (cab.release s.iomgr).2, curadjblock := none }
    · rfl

theorem read_val_dw (b : Bool) (adj : List Nat) (sz : Nat) (s : sliding_shard) :
    read_val adj sz (with_disable_writes b s) =
      res_with (fun x => (x.1, with_disable_writes b x.2)) b (read_val adj sz s) := by
  unfold read_val
  rw [check_adjblock_dw]
  cases check_adjblock sz s with
  | error e => rfl
  | ok s1 =>
    simp only [res_with, with_disable_writes]
    split
    · rfl
    · split
      · rfl
      · split <;> rfl

theorem read_edgeptr_dw (b : Bool) (sz : Nat) (s : sliding_shard) :
    read_edgeptr sz (with_disable_writes b s) =
      res_with (fun x => (x.1, with_disable_writes b x.2)) b (read_edgeptr sz s) := by
  unfold read_edgeptr
  rw [check_curblock_dw]
  by_cases hoa : s.only_adjacency = true
  · rw [if_pos hoa, if_pos (show (with_disable_writes b s).only_adjacency = true from hoa)]
    rfl
  · rw [if_neg hoa, if_neg (show ¬ (with_disable_writes b s).only_adjacency = true from hoa)]
    cases check_curblock sz s with
    | error e => rfl
    | ok s1 =>
      simp only [res_with, with_disable_writes]
      split
      · rfl
      · split <;> rfl

theorem skip_dw (b : Bool) (P : params) (n sz : Int) (s : sliding_shard) :
    skip P n sz (with_disable_writes b s) = with_disable_writes b (skip P n sz s) := by
  obtain ⟨io, rs, re, bs, cv, ao, eo, af, ef, ws, ab, es, ads, cb, cab, si, dw, ael, nro, oa,
    lg, dec⟩ := s
  unfold skip
  cases cb <;> cases cab <;> rfl

theorem release_prior_to_offset_dw (b all d : Bool) (s : sliding_shard) :
    release_prior_to_offset all d (with_disable_writes b s) =
      with_disable_writes b (release_prior_to_offset all d s) := rfl

theorem flush_dw (b : Bool) (s : sliding_shard) :
    flush (with_disable_writes b s) = with_disable_writes b (flush s) := by
  unfold flush
  simp only [release_prior_to_offset_dw]
  simp only [with_disable_writes]
  split <;> rfl

theorem set_offset_dw (b : Bool) (a v e : Nat) (s : sliding_shard) :
    set_offset a v e (with_disable_writes b s) = with_disable_writes b (set_offset a v e s) := by
  unfold set_offset
  simp only [with_disable_writes]
  split <;> rfl

theorem activate_curblock_dw (b : Bool) (s : sliding_shard) :
    activate_curblock (with_disable_writes b s) =
      res_with (with_disable_writes b) b (activate_curblock s) := by
  unfold activate_curblock
  simp only [with_disable_writes]
  split
  · rfl
  · split <;> rfl

theorem check_target_dw (b : Bool) (t : Nat) (s : sliding_shard) (v : svertex) :
    check_target t (with_disable_writes b s) v =
      res_with (fun x => (with_disable_writes b x.1, x.2)) b (check_target t s v) := by
  unfold check_target
  simp only [with_disable_writes]
  split <;> rfl

theorem read_edge_dw (b : Bool) (P : params) (adj : List Nat) (s : sliding_shard)
    (v : svertex) :
    read_edge P adj (with_disable_writes b s) v =
      res_with (fun x => (with_disable_writes b x.1, x.2)) b (read_edge P adj s v) := by
  unfold read_edge
  rw [read_val_dw]
  cases read_val adj 4 s with
  | error e => rfl
  | ok x =>
    obtain ⟨raw, s1⟩ := x
    simp only [res_with]
    rw [read_edgeptr_dw]
    cases read_edgeptr (if (if P.sizeof_ET = P.sizeof_ETspecial then (raw, false)
        else P.translate_edge raw).2 = true then P.sizeof_ETspecial else P.sizeof_ET) s1 with
    | error e => rfl
    | ok y =>
      obtain ⟨ev, s2⟩ := y
      simp only [res_with]
      by_cases hoa : s2.only_adjacency = false
      · rw [if_pos hoa, if_pos (show (with_disable_writes b s2).only_adjacency = false from hoa),
          activate_curblock_dw]
        cases activate_curblock s2 with
        | error e => rfl
        | ok s3 =>
          simp only [res_with]
          exact check_target_dw b _ s3 _
      · rw [if_neg hoa, if_neg (show ¬ (with_disable_writes b s2).only_adjacency = false from hoa)]
        exact check_target_dw b _ s2 _

theorem read_edges_dw (b : Bool) (P : params) (adj : List Nat) (k : Nat) :
    ∀ (s : sliding_shard) (v : svertex),
      read_edges P adj k (with_disable_writes b s) v =
        res_with (fun x => (with_disable_writes b x.1, x.2)) b (read_edges P adj k s v) := by
  induction k with
  | zero => intro s v; rfl
  | succ k ih =>
    intro s v
    unfold read_edges
    rw [read_edge_dw]
    cases read_edge P adj s v with
    | error e => rfl
    | ok x =>
      obtain ⟨s1, v1⟩ := x
      simp only [res_with]
      exact ih s1 v1

theorem record_checkpoint_dw (b : Bool) (nvecs : Int) (ri : Bool) (l : Nat) (s : sliding_shard) :
    record_checkpoint nvecs ri l (with_disable_writes b s) =
      (with_disable_writes b (record_checkpoint nvecs ri l s).1,
        (record_checkpoint nvecs ri l s).2) := by
  unfold record_checkpoint
  simp only [with_disable_writes]
  split <;> rfl

theorem read_count_dw (b : Bool) (adj : List Nat) (ns : Nat) (s : sliding_shard) :
    read_count adj ns (with_disable_writes b s) =
      res_with (fun x => (x.1, with_disable_writes b x.2)) b (read_count adj ns s) := by
  unfold read_count
  split
  · rw [read_val_dw]
    cases read_val adj 4 s with
    | error e => rfl
    | ok x => rfl
  · rfl

theorem read_record_dw (b : Bool) (P : params) (adj : List Nat) (i n : Int)
    (s : sliding_shard) (pre : List svertex) :
    read_record P adj i n (with_disable_writes b s) pre =
      res_with (fun x => (with_disable_writes b x.1, x.2)) b (read_record P adj i n s pre) := by
  unfold read_record
  split
  · simp only [skip_dw]
    rfl
  · split
    · rfl
    · rename_i vertex hv
      rw [show (with_disable_writes b s).curvid = s.curvid from rfl]
      split
      · rfl
      · split
        · rw [read_edges_dw]
          cases read_edges P adj n.toNat s vertex with
          | error e => rfl
          | ok x => rfl
        · simp only [skip_dw]
          rfl

theorem rnv_body_dw (b : Bool) (P : params) (adj : List Nat) (nvecs : Int) (ri : Bool)
    (i : Int) (lastrec : Nat) (s : sliding_shard) (pre : List svertex) :
    rnv_body P adj nvecs ri i lastrec (with_disable_writes b s) pre =
      res_with (fun x => (x.1, x.2.1, with_disable_writes b x.2.2.1, x.2.2.2)) b
        (rnv_body P adj nvecs ri i lastrec s pre) := by
  unfold rnv_body
  simp only []
  rw [record_checkpoint_dw]
  simp only []
  rw [read_val_dw]
  cases read_val adj 1 (record_checkpoint nvecs ri lastrec s).1 with
  | error e => rfl
  | ok x =>
    obtain ⟨ns, s1⟩ := x
    simp only [res_with]
    split
    · have e := read_val_dw b adj 1 { s1 with curvid := u32 (s1.curvid + 1) }
      have e' : read_val adj 1
          { (with_disable_writes b s1) with curvid := u32 ((with_disable_writes b s1).curvid + 1) }
          = res_with (fun x => (x.1, with_disable_writes b x.2)) b
            (read_val adj 1 { s1 with curvid := u32 (s1.curvid + 1) }) := e
      rw [e']
      cases read_val adj 1 { s1 with curvid := u32 (s1.curvid + 1) } with
      | error e => rfl
      | ok y => rfl
    · rw [read_count_dw]
      cases read_count adj ns s1 with
      | error e => rfl
      | ok y =>
        obtain ⟨n, s2⟩ := y
        simp only [res_with]
        rw [read_record_dw]
        cases read_record P adj i n s2 pre with
        | error e => rfl
        | ok z => rfl

theorem rnv_loop_dw (b : Bool) (P : params) (adj : List Nat) (nvecs : Int) (ri : Bool)
    (fuel : Nat) :
    ∀ (i : Int) (lastrec : Nat) (s : sliding_shard) (pre : List svertex),
      rnv_loop P adj nvecs ri fuel i lastrec (with_disable_writes b s) pre =
        res_with (fun x => (with_disable_writes b x.1, x.2)) b
          (rnv_loop P adj nvecs ri fuel i lastrec s pre) := by
  induction fuel with
  | zero => intro i lastrec s pre; rfl
  | succ fuel ih =>
    intro i lastrec s pre
    unfold rnv_loop
    split
    · by_cases ha : s.adjoffset ≥ s.adjfilesize
      · rw [if_pos ha, if_pos (show (with_disable_writes b s).adjoffset ≥
          (with_disable_writes b s).adjfilesize from ha)]
        rfl
      · rw [if_neg ha, if_neg (show ¬ (with_disable_writes b s).adjoffset ≥
          (with_disable_writes b s).adjfilesize from ha), rnv_body_dw]
        cases rnv_body P adj nvecs ri i lastrec s pre with
        | error e => rfl
        | ok x =>
          obtain ⟨i1, l1, s1, pre1⟩ := x
          simp only [res_with]
          exact ih _ _ _ _
    · rfl

theorem rnv_prepare_dw (b d : Bool) (s : sliding_shard) :
    rnv_prepare d (with_disable_writes b s) =
      res_with (with_disable_writes b) b (rnv_prepare d s) := by
  unfold rnv_prepare
  have e : release_prior_to_offset false d { (with_disable_writes b s) with curblock := none } =
      with_disable_writes b (release_prior_to_offset false d { s with curblock := none }) := rfl
  simp only []
  rw [e]
  simp only [with_disable_writes]
  split
  · rfl
  · split <;> rfl

theorem read_next_vertices_dw (b : Bool) (P : params) (adj : List Nat) (nvecs : Int)
    (start : Nat) (pre : List svertex) (ri d : Bool) (s : sliding_shard) :
    read_next_vertices P adj nvecs start pre ri d (with_disable_writes b s) =
      res_with (fun x => (with_disable_writes b x.1, x.2)) b
        (read_next_vertices P adj nvecs start pre ri d s) := by
  unfold read_next_vertices
  have e : (if ri = false then move_close_to start (with_disable_writes b s)
      else pure (with_disable_writes b s)) =
      res_with (with_disable_writes b) b (if ri = false then move_close_to start s else pure s) := by
    split
    · exact move_close_to_dw b start s
    · rfl
  rw [e]
  cases (if ri = false then move_close_to start s else pure s) with
  | error e => rfl
  | ok s1 =>
    simp only [res_with]
    rw [rnv_prepare_dw]
    cases rnv_prepare d s1 with
    | error e => rfl
    | ok s2 =>
      simp only [res_with]
      rw [show (with_disable_writes b s2).curvid = s2.curvid from rfl, rnv_loop_dw]
      cases rnv_loop P adj nvecs ri (nvecs - (to_int s2.curvid - to_int start)).toNat
          (to_int s2.curvid - to_int start) start s2 pre with
      | error e => rfl
      | ok x => rfl

theorem exec_dw (b : Bool) (P : params) (adj : List Nat) (s : sliding_shard) (o : op) :
    exec P adj (with_disable_writes b s) o =
      res_with (fun x => (with_disable_writes b x.1, x.2)) b (exec P adj s o) := by
  cases o with
  | read nvecs start pre ri d => exact read_next_vertices_dw b P adj nvecs start pre ri d s
  | flush =>
    simp only [exec, flush_dw]
    rfl
  | set_offset a v e =>
    simp only [exec, set_offset_dw]
    rfl

theorem run_dw (b : Bool) (P : params) (adj : List Nat) (ops : List op) :
    ∀ s : sliding_shard,
      run P adj (with_disable_writes b s) ops =
        res_with (fun x => (with_disable_writes b x.1, x.2)) b (run P adj s ops) := by
  induction ops with
  | nil => intro s; rfl
  | cons o ops ih =>
    intro s
    unfold run
    rw [exec_dw]
    cases exec P adj s o with
    | error e => rfl
    | ok x =>
      obtain ⟨s1, out⟩ := x
      simp only [res_with]
      rw [ih s1]
      cases run P adj s1 ops with
      | error e => rfl
      | ok y => rfl

theorem destroy_dw (b : Bool) (s : sliding_shard) :
    sliding_shard.destroy (with_disable_writes b s) =
      with_disable_writes b (sliding_shard.destroy s) := by
  obtain ⟨io, rs, re, bs, cv, ao, eo, af, ef, ws, ab, es, ads, cb, cab, si, dw, ael, nro, oa,
    lg, dec⟩ := s
  by_cases h : es ≥ 0
  · cases cb with
    | none =>
      cases cab <;>
        simp only [sliding_shard.destroy, with_disable_writes, release_prior_to_offset, h,
          if_true]
    | some idx =>
      cases hb : (release_blocks true false eo ab io).1[idx]? <;> cases cab <;>
        simp only [sliding_shard.destroy, with_disable_writes, release_prior_to_offset, h,
          if_true, hb]
  · cases cb with
    | none =>
      cases cab <;>
        simp only [sliding_shard.destroy, with_disable_writes, release_prior_to_offset, h,
          if_false]
    | some idx =>
      cases hb : (release_blocks true false eo ab io).1[idx]? <;> cases cab <;>
        simp only [sliding_shard.destroy, with_disable_writes, release_prior_to_offset, h,
          if_false, hb]

/-- C34: the constructor argument `_disable_writes` has no effect.  Two shards constructed
with the same arguments except `_disable_writes` are the same state, with the member
`disable_writes` false, so every sequence of calls gives the same result on both: the same
calls on the I/O manager and the same final state.  The member is not read either: setting
it to any value `b` in any state changes nothing in a run or in the destructor but the
member itself.  Whether `commit` writes a block depends on its parameter `disable_writes`
alone. -/
theorem disable_writes_argument_has_no_effect (P : params) (io : stripedio)
    (F A rs re bs : Nat) (dw1 dw2 oa : Bool) (adj : List Nat) (ops : List op)
    (s1 s2 : sliding_shard)
    (h1 : sliding_shard.construct P io F A rs re bs dw1 oa = some s1)
    (h2 : sliding_shard.construct P io F A rs re bs dw2 oa = some s2) :
    sliding_shard.construct P io F A rs re bs dw1 oa =
      sliding_shard.construct P io F A rs re bs dw2 oa ∧
    s1 = s2 ∧ s1.disable_writes = false ∧
    run P adj s1 ops = run P adj s2 ops ∧
    (∀ (b : Bool) (s : sliding_shard),
      run P adj (with_disable_writes b s) ops =
        res_with (fun x => (with_disable_writes b x.1, x.2)) b (run P adj s ops)) ∧
    (∀ (b : Bool) (s : sliding_shard),
      sliding_shard.destroy (with_disable_writes b s) =
        with_disable_writes b (sliding_shard.destroy s)) ∧
    (∀ (blk : sblock) (sync : Bool) (m : stripedio), commit blk sync true m = blk.release m) ∧
    (∀ (blk : sblock) (m : stripedio),
      commit blk true false m = blk.release (blk.commit_now m) ∧
      commit blk false false m = (blk, blk.commit_async m)) := by
  have e : sliding_shard.construct P io F A rs re bs dw1 oa =
      sliding_shard.construct P io F A rs re bs dw2 oa := by
    unfold sliding_shard.construct
    rfl
  have e12 : s1 = s2 := by
    rw [e, h2] at h1
    exact (Option.some.inj h1).symm
  have hf : s1.disable_writes = false := by
    unfold sliding_shard.construct at h1
    simp only [] at h1
    split at h1
    · cases h1
    · cases h1
      rfl
  refine ⟨e, e12, hf, by rw [e12], fun b s => run_dw b P adj ops s, destroy_dw, ?_, ?_⟩
  · intro blk sync m
    unfold commit
    cases sync <;> rfl
  · intro blk m
    exact ⟨rfl, rfl⟩

theorem disable_writes_argument_has_no_effect_witness :
    ∃ s1 s2,
      sliding_shard.construct sample_params sample_io 16 (encode_items sample_items).length
        0 100 1000 true false = some s1 ∧
      sliding_shard.construct sample_params sample_io 16 (encode_items sample_items).length
        0 100 1000 false false = some s2 ∧
      s1 = s2 ∧ s1.disable_writes = false ∧
      run sample_params (encode_items sample_items) s1 lookup_ops =
        run sample_params (encode_items sample_items) s2 lookup_ops :=
  ⟨_, _, rfl, rfl,
    (disable_writes_argument_has_no_effect sample_params sample_io 16
      (encode_items sample_items).length 0 100 1000 true false false
      (encode_items sample_items) lookup_ops _ _ rfl rfl).2.1,
    rfl, rfl⟩

theorem parse_pair_eq {T : Type} (value : List Nat → T) (x : PairContainer T) (s : List Nat) :
    parse_pair (parse_elem value) x s = PairContainer.mk (value s) (value s) := rfl

theorem convert_line_value {V : Type} (parse : List Nat → V) (dflt : V) {s : List Nat}
    {c : Nat × Nat × V} (h : convert_line parse dflt s = some (some c)) :
    c.2.2 = dflt ∨ ∃ t, c.2.2 = parse t := by
  unfold convert_line at h
  split at h
  · cases h
  · split at h
    · cases h
    · split at h
      · cases h
      · split at h
        · cases h
        · split at h
          · cases h
          · split at h
            · cases h
            · simp only [] at h
              split at h
              · cases h
                simp only []
                split
                · rename_i t3 r3 h3
                  exact Or.inr ⟨t3, rfl⟩
                · exact Or.inl rfl
              · cases h

theorem convert_edgelist_loop_value {V : Type} (parse : List Nat → V) (dflt : V) (fuel : Nat) :
    ∀ (inp : List Nat) (calls : List (Nat × Nat × V)),
      convert_edgelist_loop parse dflt fuel inp = some calls →
      ∀ c ∈ calls, c.2.2 = dflt ∨ ∃ t, c.2.2 = parse t := by
  induction fuel with
  | zero =>
    intro inp calls h c hc
    unfold convert_edgelist_loop at h
    cases h
    cases hc
  | succ fuel ih =>
    intro inp calls h c hc
    unfold convert_edgelist_loop at h
    split at h
    · cases h
      cases hc
    · split at h
      · cases h
      · split at h
        · cases h
        · rename_i s1 c1 h1
          split at h
          · cases h
          · rename_i cs hcs
            cases h
            rcases List.mem_append.1 hc with hm | hm
            · cases c1 with
              | none => cases hm
              | some c0 =>
                have : c = c0 := by simpa using hm
                rw [this]
                exact convert_line_value parse dflt h1
            · exact ih _ _ hcs c hm

/-- The body of the loop of `convert_edgelist` on a line with four tokens or more: the
value is parsed from the third token `v`, whatever follows the separator after it. -/
theorem convert_line_four_tokens {V : Type} (parse : List Nat → V) (dflt : V)
    {a sep b sep2 v : List Nat}
    (ha : token_ok a) (h35 : a.head? ≠ some 35) (h37 : a.head? ≠ some 37)
    (hx : (atoi a).isSome = true) (hs : seps_ok sep) (hb : token_ok b)
    (hy : (atoi b).isSome = true) (hs2 : seps_ok sep2) (hv : token_ok v) (d : Nat)
    (hd : d = 9 ∨ d = 32) (post : List Nat) :
    convert_line parse dflt (a ++ sep ++ b ++ (sep2 ++ v ++ d :: post)) =
      some (if atoi_vid a ≠ atoi_vid b then some (atoi_vid a, atoi_vid b, parse v) else none) := by
  obtain ⟨a1, a2, -⟩ := token_facts ha
  obtain ⟨b1, b2, -⟩ := token_facts hb
  obtain ⟨v1, v2, -⟩ := token_facts hv
  obtain ⟨x, a4⟩ := Option.isSome_iff_exists.1 hx
  obtain ⟨y, b4⟩ := Option.isSome_iff_exists.1 hy
  have a5 := atoi_vid_eq a4
  have b5 := atoi_vid_eq b4
  have hd' : d ∈ [9, 32] := by
    simp only [List.mem_cons, List.mem_singleton, List.not_mem_nil, or_false]
    exact hd
  obtain ⟨d1, sep', rfl, hd1, hsep', -⟩ := seps_split hs
  obtain ⟨d2, sep2', rfl, hd2, hsep2', -⟩ := seps_split hs2
  have hhead : (a ++ d1 :: sep' ++ b ++ (d2 :: sep2' ++ v ++ d :: post)).head? = a.head? := by
    cases a with
    | nil => exact absurd rfl a1
    | cons c t => rfl
  have t1 : strtok [9, 32] (a ++ d1 :: sep' ++ b ++ (d2 :: sep2' ++ v ++ d :: post)) =
      some (a, sep' ++ b ++ (d2 :: sep2' ++ v ++ d :: post)) := by
    have := (strtok_token [9, 32] [] a (by intro c hc; cases hc) a2 a1).2 d1
      (sep' ++ b ++ (d2 :: sep2' ++ v ++ d :: post)) hd1
    simpa [List.append_assoc] using this
  have t2 : strtok [9, 32] (sep' ++ b ++ (d2 :: sep2' ++ v ++ d :: post)) =
      some (b, sep2' ++ v ++ d :: post) := by
    have := (strtok_token [9, 32] sep' b hsep' b2 b1).2 d2 (sep2' ++ v ++ d :: post) hd2
    simpa [List.append_assoc] using this
  have t3 : strtok [9, 32] (sep2' ++ v ++ d :: post) = some (v, post) :=
    (strtok_token [9, 32] sep2' v hsep2' v2 v1).2 d post hd'
  unfold convert_line
  rw [hhead]
  simp only [h35, h37, if_false]
  rw [t1]
  simp only []
  rw [a4]
  simp only []
  rw [t2]
  simp only []
  rw [b4]
  simp only []
  rw [t3, a5, b5]
  by_cases hne : atoi_vid a ≠ atoi_vid b
  · simp only [hne, not_false_eq_true, if_true, ne_eq]
  · simp only [hne, if_false]

/-- C35: pair-valued edge data is parsed from a single token.  For every token `s` and
every element type, `parse(PairContainer<T>&, s)` sets `left` and `right` to the value the
parser of the element type gives for `s`.  So every value `convert_edgelist` hands to
`preprocessing_add_edge` for a pair type is the default value (no third token) or has
`left` equal to `right`; and on a line with a fourth token the value is the pair of the
third token, whatever follows it. -/
theorem pair_parsed_from_single_token {T : Type} (value : List Nat → T)
    (x0 dflt : PairContainer T) :
    (∀ (x : PairContainer T) (s : List Nat),
      (parse_pair (parse_elem value) x s).left = value s ∧
      (parse_pair (parse_elem value) x s).right = value s) ∧
    (∀ (inp : List Nat) (calls : List (Nat × Nat × PairContainer T)),
      convert_edgelist (parse_pair (parse_elem value) x0) dflt inp = some calls →
      ∀ c ∈ calls, c.2.2 = dflt ∨
        (c.2.2.left = c.2.2.right ∧ ∃ t, c.2.2 = PairContainer.mk (value t) (value t))) ∧
    (∀ (a sep b sep2 v : List Nat) (d : Nat) (post : List Nat),
      token_ok a → a.head? ≠ some 35 → a.head? ≠ some 37 → (atoi a).isSome = true →
      seps_ok sep → token_ok b → (atoi b).isSome = true → seps_ok sep2 → token_ok v →
      (d = 9 ∨ d = 32) →
      convert_line (parse_pair (parse_elem value) x0) dflt
          (a ++ sep ++ b ++ (sep2 ++ v ++ d :: post)) =
        some (if atoi_vid a ≠ atoi_vid b then
          some (atoi_vid a, atoi_vid b, PairContainer.mk (value v) (value v)) else none)) := by
  refine ⟨fun x s => ⟨rfl, rfl⟩, ?_, ?_⟩
  · intro inp calls h c hc
    rcases convert_edgelist_loop_value _ dflt _ inp calls h c hc with h1 | ⟨t, h1⟩
    · exact Or.inl h1
    · rw [parse_pair_eq] at h1
      exact Or.inr ⟨by rw [h1], t, h1⟩
  · intro a sep b sep2 v d post ha h35 h37 hx hs hb hy hs2 hv hd
    have := convert_line_four_tokens (parse_pair (parse_elem value) x0) dflt ha h35 h37 hx hs
      hb hy hs2 hv d hd post
    rw [parse_pair_eq] at this
    exact this

theorem pair_parsed_from_single_token_witness :
    convert_edgelist (parse_pair (parse_elem atoi) (PairContainer.mk none none))
      (PairContainer.mk (some 0) (some 0)) sample_pair_line =
      some [(1, 2, PairContainer.mk (some 5) (some 5))] ∧
    ∀ c ∈ [((1 : Nat), (2 : Nat), PairContainer.mk (some (5 : Int)) (some (5 : Int)))],
      c.2.2 = PairContainer.mk (some 0) (some 0) ∨
        (c.2.2.left = c.2.2.right ∧ ∃ t, c.2.2 = PairContainer.mk (atoi t) (atoi t)) :=
  ⟨by decide,
    (pair_parsed_from_single_token atoi (PairContainer.mk none none)
      (PairContainer.mk (some 0) (some 0))).2.1 sample_pair_line _ (by decide)⟩

theorem count_of_cons (e : labelcount_t) (nl : List labelcount_t) (L : Nat) :
    count_of (e :: nl) L = (if e.label = L then e.count else 0) + count_of nl L := by
  unfold count_of
  by_cases h : e.label = L
  · simp [List.filter_cons, h]
  · simp [List.filter_cons, h]

theorem count_of_append (a b : List labelcount_t) (L : Nat) :
    count_of (a ++ b) L = count_of a L + count_of b L := by
  unfold count_of
  simp [List.filter_append]

theorem count_of_zero {nl : List labelcount_t} {L : Nat} (h : ∀ e ∈ nl, e.label ≠ L) :
    count_of nl L = 0 := by
  induction nl with
  | nil => rfl
  | cons a t ih =>
    rw [count_of_cons, if_neg (h a (List.mem_cons_self _ _)),
      ih (fun e he => h e (List.mem_cons_of_mem _ he))]

theorem count_of_mem {nl : List labelcount_t} (hs : labels_increasing nl) {e : labelcount_t}
    (he : e ∈ nl) : count_of nl e.label = e.count := by
  induction nl with
  | nil => cases he
  | cons a t ih =>
    have h' := List.pairwise_cons.1 hs
    rw [count_of_cons]
    rcases List.mem_cons.1 he with rfl | hm
    · rw [if_pos rfl, count_of_zero (fun b hb => by have := h'.1 b hb; omega)]
      rfl
    · have := h'.1 e hm
      rw [if_neg (by omega), ih h'.2 hm]
      omega

theorem count_of_pos {nl : List labelcount_t} {L : Nat} (h : 0 < count_of nl L) :
    ∃ e ∈ nl, e.label = L := by
  by_contra hc
  have : ∀ e ∈ nl, e.label ≠ L := fun e he hl => hc ⟨e, he, hl⟩
  rw [count_of_zero this] at h
  omega

theorem carriers_from_append (L : Nat) (a b : List Nat) :
    ∀ k, carriers_from k (a ++ b) L = carriers_from k a L + carriers_from (k + a.length) b L := by
  induction a with
  | nil => intro k; simp [carriers_from]
  | cons x a ih =>
    intro k
    show (if x = L ∧ k ≠ L then 1 else 0) + carriers_from (k + 1) (a ++ b) L =
      (if x = L ∧ k ≠ L then 1 else 0) + carriers_from (k + 1) a L +
        carriers_from (k + (a.length + 1)) b L
    rw [ih (k + 1)]
    have : k + 1 + a.length = k + (a.length + 1) := by omega
    rw [this]
    omega

theorem carriers_from_le (L : Nat) (l : List Nat) : ∀ k, carriers_from k l L ≤ l.length := by
  induction l with
  | nil => intro k; simp [carriers_from]
  | cons x l ih =>
    intro k
    simp only [carriers_from, List.length_cons]
    have := ih (k + 1)
    split <;> omega

theorem carriers_from_range (L : Nat) (l : List Nat) : ∀ k,
    carriers_from k l L =
      ((List.range l.length).filter (fun v => decide (l[v]? = some L ∧ k + v ≠ L))).length := by
  induction l with
  | nil => intro k; rfl
  | cons x l ih =>
    intro k
    simp only [carriers_from, List.length_cons]
    rw [List.range_succ_eq_map, List.filter_cons, List.filter_map, ih (k + 1)]
    have e : (fun v => decide (l[v]? = some L ∧ k + 1 + v ≠ L)) =
        ((fun v => decide ((x :: l)[v]? = some L ∧ k + v ≠ L)) ∘ Nat.succ) := by
      funext v
      simp only [Function.comp, Nat.succ_eq_add_one, List.getElem?_cons_succ]
      have : k + 1 + v = k + (v + 1) := by omega
      rw [this]
    rw [e]
    by_cases h : x = L ∧ k ≠ L
    · have : decide ((x :: l)[0]? = some L ∧ k + 0 ≠ L) = true := by
        simp only [List.getElem?_cons_zero, Option.some.injEq, Nat.add_zero, decide_eq_true_eq]
        exact h
      rw [if_pos h, this]
      simp only [if_true, List.length_cons, List.length_map]
      omega
    · have : decide ((x :: l)[0]? = some L ∧ k + 0 ≠ L) = false := by
        simp only [List.getElem?_cons_zero, Option.some.injEq, Nat.add_zero, decide_eq_false_iff_not]
        exact h
      rw [if_neg h, this]
      simp

theorem carriers_from_zero (labels : List Nat) (L : Nat) :
    carriers_from 0 labels L = label_carriers labels L := by
  rw [carriers_from_range]
  unfold label_carriers
  simp only [Nat.zero_add]

theorem label_carriers_pos (labels : List Nat) (L : Nat) :
    0 < label_carriers labels L ↔ ∃ v, v ≠ L ∧ labels[v]? = some L := by
  unfold label_carriers
  rw [List.length_pos_iff_exists_mem]
  constructor
  · rintro ⟨v, hv⟩
    have := (List.mem_filter.1 hv).2
    simp only [decide_eq_true_eq] at this
    exact ⟨v, this.2, this.1⟩
  · rintro ⟨v, h1, h2⟩
    refine ⟨v, List.mem_filter.2 ⟨List.mem_range.2 ?_, ?_⟩⟩
    · exact (List.getElem?_eq_some.1 h2).1
    · simp only [decide_eq_true_eq]
      exact ⟨h2, h1⟩

theorem mark_own_spec (L : Nat) (hL : L ≠ 4294967295) (chunk : List Nat) :
    ∀ k, k + chunk.length < 4294967296 →
      (mark_own chunk k).1.count L = carriers_from k chunk L ∧
      (mark_own chunk k).2 = k + chunk.length ∧
      (mark_own chunk k).1.length = chunk.length := by
  induction chunk with
  | nil => intro k _; exact ⟨rfl, rfl, rfl⟩
  | cons x chunk ih =>
    intro k hk
    simp only [List.length_cons] at hk
    have hu : u32 (k + 1) = k + 1 := by unfold u32; omega
    obtain ⟨i1, i2, i3⟩ := ih (k + 1) (by omega)
    simp only [mark_own, carriers_from, List.length_cons, hu]
    refine ⟨?_, by rw [i2]; omega, by rw [i3]⟩
    rw [List.count_cons, i1]
    by_cases hx : x = k
    · by_cases hxl : x = L
      · have : ¬ (x = L ∧ k ≠ L) := by omega
        rw [if_pos hx, if_neg this]
        simp only [beq_iff_eq]
        rw [if_neg (by omega)]
        omega
      · have : ¬ (x = L ∧ k ≠ L) := by omega
        rw [if_pos hx, if_neg this]
        simp only [beq_iff_eq]
        rw [if_neg (by omega)]
        omega
    · rw [if_neg hx]
      simp only [beq_iff_eq]
      by_cases hxl : x = L
      · have : x = L ∧ k ≠ L := by omega
        rw [if_pos hxl, if_pos this]
        omega
      · have : ¬ (x = L ∧ k ≠ L) := by omega
        rw [if_neg hxl, if_neg this]
        omega

theorem bump_last_append (init : List labelcount_t) (e : labelcount_t) :
    bump_last (init ++ [e]) = some (init ++ [{ e with count := u32 (e.count + 1) }]) := by
  unfold bump_last
  rw [List.getLast?_concat, List.dropLast_concat]

theorem good_entries_nil : good_entries [] :=
  ⟨List.Pairwise.nil, fun e he => by cases he⟩

theorem good_entries_concat {nl : List labelcount_t} {e : labelcount_t} (h : good_entries nl)
    (h1 : ∀ a ∈ nl, a.label < e.label) (h2 : 0 < e.count) (h3 : e.label ≠ 4294967295) :
    good_entries (nl ++ [e]) := by
  refine ⟨?_, ?_⟩
  · unfold labels_increasing
    rw [List.pairwise_append]
    refine ⟨h.1, List.pairwise_singleton _ _, ?_⟩
    intro a ha b hb
    rw [List.mem_singleton.1 hb]
    exact h1 a ha
  · intro a ha
    rcases List.mem_append.1 ha with hm | hm
    · exact h.2 a hm
    · rw [List.mem_singleton.1 hm]
      exact ⟨h2, h3⟩

theorem good_entries_init {init : List labelcount_t} {e : labelcount_t}
    (h : good_entries (init ++ [e])) : good_entries init ∧ ∀ a ∈ init, a.label < e.label := by
  have h1 := h.1
  unfold labels_increasing at h1
  rw [List.pairwise_append] at h1
  exact ⟨⟨h1.1, fun a ha => h.2 a (List.mem_append_left _ ha)⟩,
    fun a ha => h1.2.2 a ha e (List.mem_singleton.2 rfl)⟩

theorem count_of_concat (nl : List labelcount_t) (e : labelcount_t) (L : Nat) :
    count_of (nl ++ [e]) L = count_of nl L + (if e.label = L then e.count else 0) := by
  rw [count_of_append, count_of_cons]
  have : count_of [] L = 0 := rfl
  rw [this]
  omega

theorem count_cons_label (x L : Nat) (rest : List Nat) :
    (x :: rest).count L = (if x = L then 1 else 0) + rest.count L := by
  rw [List.count_cons]
  simp only [beq_iff_eq]
  omega

/-- The collect loop on the rest of a sorted buffer: it returns, the entries stay strictly
increasing with positive counts, and the count of every label but `0xffffffff` grows by the
number of its occurrences in the rest of the buffer. -/
theorem collect_spec : ∀ (rest : List Nat) (nl : List labelcount_t) (last : Nat),
    rest.Pairwise (fun a b => a ≤ b) → good_entries nl →
    (∀ e ∈ nl, e.count + rest.length < 4294967296) → rest.length < 4294967296 →
    ((last = 4294967295 ∧ nl = []) ∨
      (last ≠ 4294967295 ∧ ∃ init e, nl = init ++ [e] ∧ e.label = last)) →
    (∀ x ∈ rest, last = 4294967295 ∨ last ≤ x) →
    ∃ out, collect rest nl last = some out ∧ good_entries out ∧
      ∀ L, L ≠ 4294967295 → count_of out L = count_of nl L + rest.count L := by
  intro rest
  induction rest with
  | nil =>
    intro nl last _ hg _ _ _ _
    exact ⟨nl, rfl, hg, fun L _ => by simp⟩
  | cons x rest ih =>
    intro nl last hs hg hb hlen hl hx
    have hs' := List.pairwise_cons.1 hs
    simp only [List.length_cons] at hb hlen
    unfold collect
    by_cases hxm : x = 4294967295
    · rw [if_neg (by simp only [ne_eq, not_not]; exact hxm)]
      obtain ⟨out, h1, h2, h3⟩ := ih nl last hs'.2 hg
        (fun e he => by have := hb e he; omega) (by omega) hl
        (fun y hy => hx y (List.mem_cons_of_mem _ hy))
      refine ⟨out, h1, h2, fun L hL => ?_⟩
      rw [h3 L hL, count_cons_label, if_neg (by omega)]
      omega
    · rw [if_pos hxm]
      by_cases hxl : x = last
      · rw [if_neg (by simp only [ne_eq, not_not]; exact hxl)]
        rcases hl with ⟨hl1, -⟩ | ⟨-, init, e, rfl, he⟩
        · omega
        · rw [bump_last_append]
          simp only []
          have hbe := hb e (List.mem_append_right _ (List.mem_singleton.2 rfl))
          have hu : u32 (e.count + 1) = e.count + 1 := by unfold u32; omega
          rw [hu]
          obtain ⟨gi, gl⟩ := good_entries_init hg
          have hg' : good_entries (init ++ [{ e with count := e.count + 1 }]) :=
            good_entries_concat gi gl (by show 0 < e.count + 1; omega)
              (hg.2 e (List.mem_append_right _ (List.mem_singleton.2 rfl))).2
          obtain ⟨out, h1, h2, h3⟩ := ih (init ++ [{ e with count := e.count + 1 }]) x hs'.2 hg'
            (by
              intro a ha
              rcases List.mem_append.1 ha with hm | hm
              · have := hb a (List.mem_append_left _ hm); omega
              · rw [List.mem_singleton.1 hm]
                show e.count + 1 + rest.length < 4294967296
                omega)
            (by omega)
            (Or.inr ⟨hxm, init, _, rfl, by show e.label = x; omega⟩)
            (fun y hy => Or.inr (hs'.1 y hy))
          refine ⟨out, h1, h2, fun L hL => ?_⟩
          rw [h3 L hL, count_of_concat, count_of_concat, count_cons_label]
          show count_of init L + (if e.label = L then e.count + 1 else 0) + rest.count L = _
          by_cases hel : e.label = L
          · rw [if_pos hel, if_pos hel, if_pos (by omega)]
            omega
          · rw [if_neg hel, if_neg hel, if_neg (by omega)]
            omega
      · rw [if_pos hxl]
        have hlt : ∀ a ∈ nl, a.label < x := by
          intro a ha
          rcases hl with ⟨-, hn⟩ | ⟨hl1, init, e, hn, he⟩
          · rw [hn] at ha
            cases ha
          · have h1 := hx x (List.mem_cons_self _ _)
            have h2 : a.label ≤ e.label := by
              rw [hn] at ha hg
              rcases List.mem_append.1 ha with hm | hm
              · exact Nat.le_of_lt ((good_entries_init hg).2 a hm)
              · rw [List.mem_singleton.1 hm]
            omega
        have hg' : good_entries (nl ++ [labelcount_t.mk x 1]) :=
          good_entries_concat hg hlt (by show 0 < 1; omega) hxm
        obtain ⟨out, h1, h2, h3⟩ := ih (nl ++ [labelcount_t.mk x 1]) x hs'.2 hg'
          (by
            intro a ha
            rcases List.mem_append.1 ha with hm | hm
            · have := hb a hm; omega
            · rw [List.mem_singleton.1 hm]
              show 1 + rest.length < 4294967296
              omega)
          (by omega)
          (Or.inr ⟨hxm, nl, _, rfl, rfl⟩)
          (fun y hy => Or.inr (hs'.1 y hy))
        refine ⟨out, h1, h2, fun L hL => ?_⟩
        rw [h3 L hL, count_of_concat, count_cons_label]
        show count_of nl L + (if x = L then 1 else 0) + rest.count L = _
        omega

/-- The collect loop on a sorted buffer, from an empty vector. -/
theorem collect_sorted {buffer : List Nat} (hs : buffer.Pairwise (fun a b => a ≤ b))
    (hlen : buffer.length < 4294967296) :
    ∃ out, collect buffer [] 4294967295 = some out ∧ good_entries out ∧
      ∀ L, L ≠ 4294967295 → count_of out L = buffer.count L := by
  obtain ⟨out, h1, h2, h3⟩ := collect_spec buffer [] 4294967295 hs good_entries_nil
    (fun e he => by cases he) hlen (Or.inl ⟨rfl, rfl⟩) (fun x _ => Or.inl rfl)
  refine ⟨out, h1, h2, fun L hL => ?_⟩
  rw [h3 L hL]
  have : count_of [] L = 0 := rfl
  omega

theorem merge_labels_nil_left (fuel : Nat) (b : List labelcount_t) :
    merge_labels fuel [] b = b := by
  cases fuel <;> simp [merge_labels]

theorem merge_labels_nil_right (fuel : Nat) (a : List labelcount_t) :
    merge_labels fuel a [] = a := by
  cases fuel <;> cases a <;> simp [merge_labels]

theorem good_entries_cons {e : labelcount_t} {l : List labelcount_t} :
    good_entries (e :: l) ↔
      (∀ x ∈ l, e.label < x.label) ∧ 0 < e.count ∧ e.label ≠ 4294967295 ∧ good_entries l := by
  unfold good_entries labels_increasing
  constructor
  · rintro ⟨h1, h2⟩
    have h1' := List.pairwise_cons.1 h1
    exact ⟨h1'.1, (h2 e (List.mem_cons_self _ _)).1, (h2 e (List.mem_cons_self _ _)).2, h1'.2,
      fun x hx => h2 x (List.mem_cons_of_mem _ hx)⟩
  · rintro ⟨h1, h2, h3, h4, h5⟩
    refine ⟨List.pairwise_cons.2 ⟨h1, h4⟩, ?_⟩
    intro x hx
    rcases List.mem_cons.1 hx with rfl | hm
    · exact ⟨h2, h3⟩
    · exact h5 x hm

/-- The merge of two lists of entries that are strictly increasing by label: the result is
strictly increasing, the counts of a label add up, and every label of the result is a
label of one of the lists. -/
theorem merge_spec : ∀ (fuel : Nat) (a b : List labelcount_t),
    a.length + b.length ≤ fuel → good_entries a → good_entries b →
    (∀ c ∈ a, ∀ n ∈ b, n.count + c.count < 4294967296) →
    good_entries (merge_labels fuel a b) ∧
    (∀ L, count_of (merge_labels fuel a b) L = count_of a L + count_of b L) ∧
    (∀ e ∈ merge_labels fuel a b, ∃ e' ∈ a ++ b, e'.label = e.label) := by
  intro fuel
  induction fuel with
  | zero =>
    intro a b hlen ha hb _
    have ea : a = [] := List.length_eq_zero.1 (by omega)
    have eb : b = [] := List.length_eq_zero.1 (by omega)
    subst ea
    subst eb
    exact ⟨good_entries_nil, fun L => rfl, fun e he => by cases he⟩
  | succ fuel ih =>
    intro a b hlen ha hb hw
    cases a with
    | nil =>
      rw [merge_labels_nil_left]
      refine ⟨hb, fun L => ?_, fun e he => ⟨e, he, rfl⟩⟩
      have : count_of [] L = 0 := rfl
      omega
    | cons c a =>
      cases b with
      | nil =>
        rw [merge_labels_nil_right]
        refine ⟨ha, fun L => ?_, fun e he => ⟨e, by simpa using he, rfl⟩⟩
        have : count_of [] L = 0 := rfl
        omega
      | cons n b =>
        simp only [List.length_cons] at hlen
        obtain ⟨c1, c2, c3, c4⟩ := good_entries_cons.1 ha
        obtain ⟨n1, n2, n3, n4⟩ := good_entries_cons.1 hb
        rw [merge_labels]
        by_cases h1 : n.label = c.label
        · rw [if_pos h1]
          obtain ⟨i1, i2, i3⟩ := ih a b (by omega) c4 n4
            (fun x hx y hy => hw x (List.mem_cons_of_mem _ hx) y (List.mem_cons_of_mem _ hy))
          have hwc := hw c (List.mem_cons_self _ _) n (List.mem_cons_self _ _)
          have hu : u32 (n.count + c.count) = n.count + c.count := by unfold u32; omega
          rw [hu]
          refine ⟨good_entries_cons.2 ⟨?_, by show 0 < n.count + c.count; omega, n3, i1⟩, ?_, ?_⟩
          · intro x hx
            obtain ⟨e', he', hl⟩ := i3 x hx
            show n.label < x.label
            rcases List.mem_append.1 he' with hm | hm
            · have := c1 e' hm; omega
            · have := n1 e' hm; omega
          · intro L
            rw [count_of_cons, i2 L, count_of_cons, count_of_cons]
            show (if n.label = L then n.count + c.count else 0) + _ = _
            by_cases hl : n.label = L
            · rw [if_pos hl, if_pos (by omega), if_pos hl]; omega
            · rw [if_neg hl, if_neg (by omega), if_neg hl]; omega
          · intro e he
            rcases List.mem_cons.1 he with rfl | hm
            · exact ⟨n, by simp, rfl⟩
            · obtain ⟨e', he', hl⟩ := i3 e hm
              refine ⟨e', ?_, hl⟩
              rcases List.mem_append.1 he' with hm' | hm'
              · exact List.mem_append_left _ (List.mem_cons_of_mem _ hm')
              · exact List.mem_append_right _ (List.mem_cons_of_mem _ hm')
        · rw [if_neg h1]
          by_cases h2 : n.label < c.label
          · rw [if_pos h2]
            obtain ⟨i1, i2, i3⟩ := ih (c :: a) b (by simp only [List.length_cons]; omega) ha n4
              (fun x hx y hy => hw x hx y (List.mem_cons_of_mem _ hy))
            refine ⟨good_entries_cons.2 ⟨?_, n2, n3, i1⟩, ?_, ?_⟩
            · intro x hx
              obtain ⟨e', he', hl⟩ := i3 x hx
              rcases List.mem_append.1 he' with hm | hm
              · rcases List.mem_cons.1 hm with rfl | hm'
                · omega
                · have := c1 e' hm'; omega
              · have := n1 e' hm; omega
            · intro L
              rw [count_of_cons, i2 L, count_of_cons n]
              omega
            · intro e he
              rcases List.mem_cons.1 he with rfl | hm
              · exact ⟨e, by simp, rfl⟩
              · obtain ⟨e', he', hl⟩ := i3 e hm
                refine ⟨e', ?_, hl⟩
                rcases List.mem_append.1 he' with hm' | hm'
                · exact List.mem_append_left _ hm'
                · exact List.mem_append_right _ (List.mem_cons_of_mem _ hm')
          · rw [if_neg h2]
            obtain ⟨i1, i2, i3⟩ := ih a (n :: b) (by simp only [List.length_cons]; omega) c4 hb
              (fun x hx y hy => hw x (List.mem_cons_of_mem _ hx) y hy)
            refine ⟨good_entries_cons.2 ⟨?_, c2, c3, i1⟩, ?_, ?_⟩
            · intro x hx
              obtain ⟨e', he', hl⟩ := i3 x hx
              rcases List.mem_append.1 he' with hm | hm
              · have := c1 e' hm; omega
              · rcases List.mem_cons.1 hm with rfl | hm'
                · omega
                · have := n1 e' hm'; omega
            · intro L
              rw [count_of_cons, i2 L, count_of_cons c]
              omega
            · intro e he
              rcases List.mem_cons.1 he with rfl | hm
              · exact ⟨e, by simp, rfl⟩
              · obtain ⟨e', he', hl⟩ := i3 e hm
                refine ⟨e', ?_, hl⟩
                rcases List.mem_append.1 he' with hm' | hm'
                · exact List.mem_append_left _ (List.mem_cons_of_mem _ hm')
                · exact List.mem_append_right _ hm'

/-- One pass of the loop of `analyze_labels` when `k` labels have been read and some are
left, in terms of labels: the pass reads the next `min (n - k) q` labels, where the buffer
holds `q` labels. -/
theorem analyze_loop_step (quickSort : List Nat → List Nat) (q : Nat) (labels : List Nat)
    (fuel k : Nat) (first : Bool) (cur : List labelcount_t) (hk : k < labels.length) :
    analyze_loop quickSort (4 * q) labels (fuel + 1) (4 * k) first k cur =
      match collect (quickSort (mark_own ((labels.drop k).take (min (labels.length - k) q))
          k).1) [] 4294967295 with
      | none => none
      | some newlabels =>
        analyze_loop quickSort (4 * q) labels fuel (4 * (k + min (labels.length - k) q)) false
          (mark_own ((labels.drop k).take (min (labels.length - k) q)) k).2
          (if first = true then cur ++ newlabels
            else merge_labels (cur.length + newlabels.length) cur newlabels) := by
  rw [analyze_loop]
  simp only []
  rw [if_pos (by omega)]
  have e1 : min (4 * labels.length - 4 * k) (4 * q) = 4 * min (labels.length - k) q := by omega
  have e2 : 4 * k / 4 = k := by omega
  have e3 : 4 * min (labels.length - k) q / 4 = min (labels.length - k) q := by omega
  rw [e1, e2, e3, ← Nat.mul_add]

theorem analyze_loop_done (quickSort : List Nat → List Nat) (q : Nat) (labels : List Nat)
    (fuel : Nat) (first : Bool) (cv : Nat) (cur : List labelcount_t) :
    analyze_loop quickSort (4 * q) labels (fuel + 1) (4 * labels.length) first cv cur =
      some cur := by
  rw [analyze_loop]
  simp only []
  rw [if_neg (by omega)]

/-- The loop of `analyze_labels` from the state after `k` labels: it returns, and the
entries it leaves are strictly increasing by label with positive counts, the count of a
label `L` being the number of vertices other than `L` that carry it. -/
theorem analyze_loop_spec (quickSort : List Nat → List Nat)
    (hq : ∀ b, (quickSort b).Perm b ∧ (quickSort b).Pairwise (fun x y => x ≤ y))
    (q : Nat) (hq0 : 0 < q) (labels : List Nat) (hn : labels.length < 4294967296) :
    ∀ (fuel k : Nat) (first : Bool) (cur : List labelcount_t),
      k ≤ labels.length → labels.length - k + 1 ≤ fuel → good_entries cur →
      (∀ L, L ≠ 4294967295 → count_of cur L = carriers_from 0 (labels.take k) L) →
      (first = true → cur = []) →
      ∃ out, analyze_loop quickSort (4 * q) labels fuel (4 * k) first k cur = some out ∧
        good_entries out ∧
        ∀ L, L ≠ 4294967295 → count_of out L = carriers_from 0 labels L := by
  intro fuel
  induction fuel with
  | zero =>
    intro k first cur _ hf
    omega
  | succ fuel ih =>
    intro k first cur hk hf hg hc hfirst
    by_cases hlt : k < labels.length
    · rw [analyze_loop_step quickSort q labels fuel k first cur hlt]
      have hnt : min (labels.length - k) q ≤ labels.length - k := Nat.min_le_left _ _
      have hnt1 : 1 ≤ min (labels.length - k) q := by omega
      generalize hntd : min (labels.length - k) q = nt at hnt hnt1
      have hlen : ((labels.drop k).take nt).length = nt := by
        rw [List.length_take, List.length_drop]
        omega
      generalize hch : (labels.drop k).take nt = chunk at hlen
      have htake : labels.take (k + nt) = labels.take k ++ chunk := by
        rw [← hch, List.take_add]
      have hm := fun L hL => mark_own_spec L hL chunk k (by omega)
      have hm2 : (mark_own chunk k).2 = k + nt := by
        rw [(hm 0 (by omega)).2.1, hlen]
      have hm3 : (mark_own chunk k).1.length = nt := by
        rw [(hm 0 (by omega)).2.2, hlen]
      obtain ⟨hp, hs⟩ := hq (mark_own chunk k).1
      obtain ⟨newl, n1, n2, n3⟩ := collect_sorted hs (by rw [hp.length_eq, hm3]; omega)
      rw [n1]
      simp only []
      rw [hm2]
      have hnew : ∀ L, L ≠ 4294967295 → count_of newl L = carriers_from k chunk L := by
        intro L hL
        rw [n3 L hL, hp.count_eq, (hm L hL).1]
      have hcur' : good_entries (if first = true then cur ++ newl
            else merge_labels (cur.length + newl.length) cur newl) ∧
          ∀ L, count_of (if first = true then cur ++ newl
            else merge_labels (cur.length + newl.length) cur newl) L =
              count_of cur L + count_of newl L := by
        by_cases hfi : first = true
        · rw [if_pos hfi, hfirst hfi]
          refine ⟨n2, fun L => ?_⟩
          have : count_of [] L = 0 := rfl
          simp only [List.nil_append]
          omega
        · rw [if_neg hfi]
          have hw : ∀ c ∈ cur, ∀ n ∈ newl, n.count + c.count < 4294967296 := by
            intro c hcm n hnm
            have b1 : c.count ≤ k := by
              rw [← count_of_mem hg.1 hcm, hc _ (hg.2 c hcm).2]
              have := carriers_from_le c.label (labels.take k) 0
              rw [List.length_take] at this
              omega
            have b2 : n.count ≤ nt := by
              rw [← count_of_mem n2.1 hnm, hnew _ (n2.2 n hnm).2]
              have := carriers_from_le n.label chunk k
              omega
            omega
          obtain ⟨m1, m2, -⟩ := merge_spec _ cur newl (le_refl _) hg n2 hw
          exact ⟨m1, m2⟩
      apply ih (k + nt) false _ (by omega) (by omega) hcur'.1
      · intro L hL
        rw [hcur'.2 L, hc L hL, hnew L hL, htake, carriers_from_append, List.length_take]
        have : min k labels.length = k := by omega
        rw [this, Nat.zero_add]
      · intro h
        cases h
    · have hk' : k = labels.length := by omega
      subst hk'
      rw [analyze_loop_done]
      refine ⟨cur, rfl, hg, fun L hL => ?_⟩
      rw [hc L hL, List.take_length]

theorem label_carriers_succ_lt {labels : List Nat} (hn : labels.length < 4294967296)
    (hl : ∀ l ∈ labels, l < 4294967296) {L : Nat} (hL : L ≠ 4294967295) :
    label_carriers labels L + 1 < 4294967296 := by
  have hle : label_carriers labels L ≤ labels.length := by
    unfold label_carriers
    have := List.length_filter_le (fun v => decide (labels[v]? = some L ∧ v ≠ L))
      (List.range labels.length)
    rw [List.length_range] at this
    exact this
  by_contra hc
  have heq : label_carriers labels L = (List.range labels.length).length := by
    rw [List.length_range]
    omega
  unfold label_carriers at heq
  rw [List.filter_length_eq_length] at heq
  have h0 := heq 0 (List.mem_range.2 (by omega))
  simp only [decide_eq_true_eq] at h0
  have hmem : L ∈ labels := mem_of_getElem?_some h0.1
  have hlt := hl L hmem
  have hL' := heq L (List.mem_range.2 (by omega))
  simp only [decide_eq_true_eq] at hL'
  exact hL'.2 rfl

/-- C36: label counting in `analyze_labels`.  For a vertex-data file with fewer than
`2^32` labels of 32 bits, whatever the number of chunks of one megabyte, and for a
`quickSort` that sorts: the loop returns, the list it builds is strictly increasing by
label before the final sort, it holds a label `L` exactly when `L` is not `0xffffffff` and
some vertex other than `L` carries `L`, the count of an entry is the number of those
vertices, the output file has the line `L,size` exactly when the list holds `L` and `size`
is that count plus one, and a label carried only by the vertex with that id is not in the
list. -/
theorem label_counts (quickSort : List Nat → List Nat)
    (std_sort : List labelcount_t → List labelcount_t)
    (hq : ∀ b, (quickSort b).Perm b ∧ (quickSort b).Pairwise (fun x y => x ≤ y))
    (hs : ∀ l, (std_sort l).Perm l) (labels : List Nat)
    (hl : ∀ l ∈ labels, l < 4294967296) (hn : labels.length < 4294967296) :
    ∃ cur lines, collected_labels quickSort labels = some cur ∧
      analyze_labels quickSort std_sort labels = some lines ∧
      labels_increasing cur ∧
      (∀ L, (∃ e ∈ cur, e.label = L) ↔
        (L ≠ 4294967295 ∧ ∃ v, v ≠ L ∧ labels[v]? = some L)) ∧
      (∀ e ∈ cur, e.count = label_carriers labels e.label) ∧
      (∀ L size, (L, size) ∈ lines ↔
        ((∃ e ∈ cur, e.label = L) ∧ size = label_carriers labels L + 1)) ∧
      (∀ L, (∀ v, labels[v]? = some L → v = L) → ∀ e ∈ cur, e.label ≠ L) := by
  obtain ⟨cur, h1, h2, h3⟩ := analyze_loop_spec quickSort hq 262144 (by omega) labels hn
    (labels.length + 1) 0 true [] (Nat.zero_le _) (by omega) good_entries_nil
    (fun L _ => rfl) (fun _ => rfl)
  have hc : collected_labels quickSort labels = some cur := h1
  have hcount : ∀ e ∈ cur, e.count = label_carriers labels e.label := by
    intro e he
    rw [← count_of_mem h2.1 he, h3 _ (h2.2 e he).2, carriers_from_zero]
  have hiff : ∀ L, (∃ e ∈ cur, e.label = L) ↔
      (L ≠ 4294967295 ∧ ∃ v, v ≠ L ∧ labels[v]? = some L) := by
    intro L
    constructor
    · rintro ⟨e, he, rfl⟩
      refine ⟨(h2.2 e he).2, (label_carriers_pos labels e.label).1 ?_⟩
      rw [← hcount e he]
      exact (h2.2 e he).1
    · rintro ⟨hL, hv⟩
      apply count_of_pos
      rw [h3 L hL, carriers_from_zero]
      exact (label_carriers_pos labels L).2 hv
  refine ⟨cur, (std_sort cur).map (fun e => (e.label, u32 (e.count + 1))), hc, ?_, h2.1, hiff,
    hcount, ?_, ?_⟩
  · unfold analyze_labels
    rw [hc]
  · intro L size
    rw [List.mem_map]
    constructor
    · rintro ⟨e, he, heq⟩
      have he' : e ∈ cur := (hs cur).mem_iff.1 he
      have e1 : e.label = L := (Prod.mk.inj heq).1
      have e2 : u32 (e.count + 1) = size := (Prod.mk.inj heq).2
      have hlt := label_carriers_succ_lt hn hl (h2.2 e he').2
      rw [hcount e he'] at e2
      unfold u32 at e2
      rw [e1] at hlt e2
      exact ⟨⟨e, he', e1⟩, by omega⟩
    · rintro ⟨⟨e, he, e1⟩, e2⟩
      refine ⟨e, (hs cur).mem_iff.2 he, ?_⟩
      have hlt := label_carriers_succ_lt hn hl (h2.2 e he).2
      rw [hcount e he]
      unfold u32
      rw [e1] at hlt ⊢
      rw [e2, Nat.mod_eq_of_lt hlt]
  · intro L hL e he hel
    obtain ⟨-, v, hv1, hv2⟩ := (hiff L).1 ⟨e, he, hel⟩
    exact hv1 (hL v hv2)

theorem sample_label_sort_sorts (b : List Nat) :
    (sample_label_sort b).Perm b ∧ (sample_label_sort b).Pairwise (fun x y => x ≤ y) :=
  ⟨List.perm_insertionSort _ _, List.sorted_insertionSort _ _⟩

theorem label_counts_witness :
    (∀ l ∈ sample_labels, l < 4294967296) ∧ sample_labels.length < 4294967296 ∧
    ∃ cur lines, collected_labels sample_label_sort sample_labels = some cur ∧
      analyze_labels sample_label_sort sample_count_sort sample_labels = some lines ∧
      labels_increasing cur ∧
      (∀ L, (∃ e ∈ cur, e.label = L) ↔
        (L ≠ 4294967295 ∧ ∃ v, v ≠ L ∧ sample_labels[v]? = some L)) ∧
      (∀ e ∈ cur, e.count = label_carriers sample_labels e.label) ∧
      (∀ L size, (L, size) ∈ lines ↔
        ((∃ e ∈ cur, e.label = L) ∧ size = label_carriers sample_labels L + 1)) ∧
      (∀ L, (∀ v, sample_labels[v]? = some L → v = L) → ∀ e ∈ cur, e.label ≠ L) :=
  ⟨by decide, by decide,
    label_counts sample_label_sort sample_count_sort sample_label_sort_sorts
      (fun _ => List.perm_insertionSort _ _) sample_labels (by decide) (by decide)⟩

/-- The sample file: the labels 0, 2 and 9 are counted, the label 5 of the vertex 5 is
not, and the sizes written are 3, 2 and 2. -/
theorem sample_label_lines :
    collected_labels sample_label_sort sample_labels =
      some [labelcount_t.mk 0 2, labelcount_t.mk 2 1, labelcount_t.mk 9 1] ∧
    analyze_labels sample_label_sort sample_count_sort sample_labels =
      some [(0, 3), (2, 2), (9, 2)] := by
  decide

/-- The sample file read eight bytes a time: four chunks, merged into the same list. -/
theorem sample_label_chunks :
    analyze_loop sample_label_sort 8 sample_labels 8 0 true 0 [] =
      some [labelcount_t.mk 0 2, labelcount_t.mk 2 1, labelcount_t.mk 9 1] := by
  decide

theorem load_adjblock_kind {s e : sliding_shard} {f : fault}
    (h : load_adjblock s = .error (f, e)) : data_fault f := by
  unfold load_adjblock at h
  simp only [] at h
  split at h
  · cases h; exact Or.inr (Or.inl rfl)
  · split at h
    · cases h; exact Or.inr (Or.inr (Or.inl rfl))
    · cases h

theorem check_adjblock_kind {sz : Nat} {s e : sliding_shard} {f : fault}
    (h : check_adjblock sz s = .error (f, e)) : data_fault f := by
  unfold check_adjblock at h
  split at h
  · exact load_adjblock_kind h
  · split at h
    · exact load_adjblock_kind h
    · cases h

theorem read_val_kind {adj : List Nat} {sz : Nat} {s e : sliding_shard} {f : fault}
    (h : read_val adj sz s = .error (f, e)) : data_fault f := by
  unfold read_val at h
  split at h
  · rename_i e1 h1
    cases h
    exact check_adjblock_kind h1
  · split at h
    · cases h; exact Or.inr (Or.inr (Or.inr (Or.inl rfl)))
    · split at h
      · cases h; exact Or.inr (Or.inr (Or.inr (Or.inl rfl)))
      · split at h
        · cases h
        · cases h; exact Or.inr (Or.inr (Or.inr (Or.inl rfl)))

theorem load_next_block_kind {s e : sliding_shard} {f : fault}
    (h : load_next_block s = .error (f, e)) : data_fault f := by
  unfold load_next_block at h
  simp only [] at h
  split at h
  · cases h; exact Or.inl rfl
  · cases h

theorem check_curblock_kind {sz : Nat} {s e : sliding_shard} {f : fault}
    (h : check_curblock sz s = .error (f, e)) : data_fault f := by
  unfold check_curblock at h
  split at h
  · exact load_next_block_kind h
  · split at h
    · cases h; exact Or.inr (Or.inr (Or.inr (Or.inl rfl)))
    · split at h
      · split at h <;> exact load_next_block_kind h
      · cases h

theorem read_edgeptr_kind {sz : Nat} {s e : sliding_shard} {f : fault}
    (h : read_edgeptr sz s = .error (f, e)) : data_fault f := by
  unfold read_edgeptr at h
  split at h
  · cases h
  · split at h
    · rename_i e1 h1
      cases h
      exact check_curblock_kind h1
    · split at h
      · cases h; exact Or.inr (Or.inr (Or.inr (Or.inl rfl)))
      · split at h
        · cases h; exact Or.inr (Or.inr (Or.inr (Or.inl rfl)))
        · cases h

theorem activate_curblock_kind {s e : sliding_shard} {f : fault}
    (h : activate_curblock s = .error (f, e)) : data_fault f := by
  unfold activate_curblock at h
  split at h
  · cases h; exact Or.inr (Or.inr (Or.inr (Or.inl rfl)))
  · split at h
    · cases h; exact Or.inr (Or.inr (Or.inr (Or.inl rfl)))
    · cases h

theorem read_edge_kind {P : params} {adj : List Nat} {s e : sliding_shard} {v : svertex}
    {f : fault} (h : read_edge P adj s v = .error (f, e)) : data_fault f := by
  unfold read_edge at h
  split at h
  · rename_i e1 h1
    cases h
    exact read_val_kind h1
  · simp only [] at h
    split at h
    · rename_i e2 h2
      cases h
      exact read_edgeptr_kind h2
    · split at h
      · rename_i e3 h3
        cases h
        split at h3
        · exact activate_curblock_kind h3
        · cases h3
      · exact Or.inr (Or.inr (Or.inr (Or.inr (check_target_fail h).1)))

theorem read_edges_kind {P : params} {adj : List Nat} (k : Nat) :
    ∀ {s e : sliding_shard} {v : svertex} {f : fault},
    read_edges P adj k s v = .error (f, e) → data_fault f := by
  induction k with
  | zero =>
    intro s e v f h
    unfold read_edges at h
    cases h
  | succ k ih =>
    intro s e v f h
    unfold read_edges at h
    split at h
    · rename_i e1 h1
      cases h
      exact read_edge_kind h1
    · exact ih h

theorem read_count_kind {adj : List Nat} {ns : Nat} {s e : sliding_shard} {f : fault}
    (h : read_count adj ns s = .error (f, e)) : data_fault f := by
  unfold read_count at h
  split at h
  · split at h
    · rename_i e1 h1
      cases h
      exact read_val_kind h1
    · cases h
  · cases h

/-- A failure of `read_record` is a failure of the read path, or the assertion
`vertex.id() == curvid` at an access `prealloc[i]` with `i ≥ 0`. -/
theorem read_record_kind {P : params} {adj : List Nat} {i n : Int} {s e : sliding_shard}
    {pre : List svertex} {f : fault} (h : read_record P adj i n s pre = .error (f, e)) :
    data_fault f ∨
      (f = fault.assert_vertex_id ∧ ¬ i < 0 ∧ ∃ v, pre[i.toNat]? = some v ∧ v.id ≠ s.curvid) := by
  unfold read_record at h
  split at h
  · cases h
  · rename_i hi
    split at h
    · cases h; exact Or.inl (Or.inr (Or.inr (Or.inr (Or.inl rfl))))
    · rename_i vertex hv
      split at h
      · rename_i hid
        cases h
        exact Or.inr ⟨rfl, hi, vertex, hv, hid⟩
      · split at h
        · split at h
          · rename_i e1 h1
            cases h
            exact Or.inl (read_edges_kind _ h1)
          · cases h
        · cases h

theorem rnv_body_kind {P : params} {adj : List Nat} {nvecs : Int} {ri : Bool} {i : Int}
    {lastrec : Nat} {s e : sliding_shard} {pre : List svertex} {f : fault}
    (h : rnv_body P adj nvecs ri i lastrec s pre = .error (f, e)) :
    data_fault f ∨
      (f = fault.assert_vertex_id ∧ ¬ i < 0 ∧ ∃ v, pre[i.toNat]? = some v ∧ v.id ≠ s.curvid) := by
  unfold rnv_body at h
  simp only [] at h
  have h0 := (record_checkpoint_static nvecs ri lastrec s).2
  split at h
  · rename_i e1 h1
    cases h
    exact Or.inl (read_val_kind h1)
  · rename_i ns s1 h1
    have f1 := (frame6_range (read_val_frame h1)).2.2.2.1
    split at h
    · split at h
      · rename_i e2 h2
        cases h
        exact Or.inl (read_val_kind h2)
      · cases h
    · split at h
      · rename_i e2 h2
        cases h
        exact Or.inl (read_count_kind h2)
      · rename_i n s2 h2
        have f2 := (frame6_range (read_count_ok h2)).2.2.2.1
        split at h
        · rename_i e3 h3
          cases h
          rcases read_record_kind h3 with hk | ⟨hk1, hk2, v, hk3, hk4⟩
          · exact Or.inl hk
          · refine Or.inr ⟨hk1, hk2, v, hk3, ?_⟩
            rw [f2, f1, h0] at hk4
            exact hk4
        · cases h

theorem move_close_to_kind {v : Nat} {s e : sliding_shard} {f : fault}
    (h : move_close_to v s = .error (f, e)) :
    f = fault.out_of_bounds ∨ f = fault.assert_closest_vid_nonneg ∨
      f = fault.assert_closest_vid_le := by
  unfold move_close_to at h
  split at h
  · cases h
  · split at h
    · cases h; exact Or.inl rfl
    · simp only [] at h
      split at h
      · cases h; exact Or.inr (Or.inl rfl)
      · split at h
        · cases h; exact Or.inr (Or.inr rfl)
        · split at h
          · split at h <;> split at h <;> cases h
          · cases h

theorem rnv_prepare_kind {dw : Bool} {s e : sliding_shard} {f : fault}
    (h : rnv_prepare dw s = .error (f, e)) : f = fault.assert_activeblocks_le_one := by
  unfold rnv_prepare at h
  simp only [] at h
  split at h
  · cases h; rfl
  · cases h

theorem slots_numbered_ext {lo hi start : Nat} {nvecs : Int} {pre pre' : List svertex}
    (h : slots_ext lo hi pre pre') (hp : slots_numbered start nvecs pre) :
    slots_numbered start nvecs pre' := by
  intro j hj
  obtain ⟨v, hv, hid⟩ := hp j hj
  obtain ⟨v', hv', hx⟩ := h.2 j v hv
  exact ⟨v', hv', by rw [hx.1, hid]⟩

/-- One pass of the body from a cursor below `2^31`: a skip pair adds `nz + 1` to `i`
(the `i++` of the loop header included) and to `curvid`, a record adds 1 to both. -/
theorem rnv_body_step {P : params} {adj : List Nat} {nvecs : Int} {ri : Bool} {i i' : Int}
    {lastrec lastrec' : Nat} {s s' : sliding_shard} {pre pre' : List svertex}
    (hb : ∀ b ∈ adj, b < 256) (hc : s.curvid < 2147483648)
    (h : rnv_body P adj nvecs ri i lastrec s pre = .ok (i', lastrec', s', pre')) :
    slots_ext s.range_st s.range_end pre pre' ∧
    ((∃ nz, nz < 256 ∧ i' + 1 = i + ((nz : Nat) + 1) ∧ s'.curvid = s.curvid + (nz + 1)) ∨
      (i' + 1 = i + 1 ∧ s'.curvid = s.curvid + 1)) := by
  obtain ⟨_, hext, hcase⟩ := rnv_body_ok h
  refine ⟨hext, ?_⟩
  rcases hcase with ⟨nz, p, hnz, hi1, hcv, -⟩ | ⟨hi1, hcv, -⟩
  · have hnzlt : nz < 256 := by
      have h1' : ∀ b ∈ (adj.drop p).take 1, b < 256 :=
        fun b hbm => hb b (List.mem_of_mem_drop (List.mem_of_mem_take hbm))
      have h2 := le_value_lt _ h1'
      have h3 : ((adj.drop p).take 1).length ≤ 1 := by simp
      have h4 : 256 ^ ((adj.drop p).take 1).length ≤ 256 ^ 1 :=
        Nat.pow_le_pow_right (by decide) h3
      omega
    refine Or.inl ⟨nz, hnzlt, by rw [hi1]; omega, ?_⟩
    rw [hcv]
    unfold u32
    omega
  · refine Or.inr ⟨by rw [hi1], ?_⟩
    rw [hcv]
    unfold u32
    omega

theorem rnv_body_invariant {P : params} {adj : List Nat} {nvecs : Int} {ri : Bool} {i i' : Int}
    {lastrec lastrec' : Nat} {s s' : sliding_shard} {pre pre' : List svertex} {start : Nat}
    (hb : ∀ b ∈ adj, b < 256) (hc : s.curvid < 2147483648)
    (hi : (s.curvid : Int) = start + i)
    (h : rnv_body P adj nvecs ri i lastrec s pre = .ok (i', lastrec', s', pre')) :
    (s'.curvid : Int) = start + (i' + 1) := by
  rcases (rnv_body_step hb hc h).2 with ⟨nz, -, h1, h2⟩ | ⟨h1, h2⟩
  · rw [h1, h2]; push_cast; omega
  · rw [h1, h2]; push_cast; omega

/-- The loop invariant on the passes of `rnv_trace`. -/
theorem rnv_trace_invariant {P : params} {adj : List Nat} {nvecs : Int} {ri : Bool}
    {start : Nat} (hb : ∀ b ∈ adj, b < 256) (hn : (start : Int) + nvecs ≤ 2147483648)
    (fuel : Nat) :
    ∀ (i : Int) (lastrec : Nat) (s : sliding_shard) (pre : List svertex),
      (s.curvid : Int) = start + i →
      ∀ x ∈ rnv_trace P adj nvecs ri fuel i lastrec s pre,
        (x.2.1.curvid : Int) = start + x.1 ∧ x.1 < nvecs ∧
        (slots_numbered start nvecs pre → 0 ≤ x.1 →
          ∃ v, x.2.2[x.1.toNat]? = some v ∧ v.id = x.2.1.curvid) := by
  induction fuel with
  | zero =>
    intro i lastrec s pre _ x hx
    unfold rnv_trace at hx
    cases hx
  | succ fuel ih =>
    intro i lastrec s pre hi x hx
    unfold rnv_trace at hx
    split at hx
    · rename_i hlt
      split at hx
      · cases hx
      · rcases List.mem_cons.1 hx with rfl | hm
        · refine ⟨hi, hlt, fun hp h0 => ?_⟩
          obtain ⟨v, hv, hid⟩ := hp i.toNat (by omega)
          refine ⟨v, hv, ?_⟩
          show v.id = s.curvid
          omega
        · split at hm
          · cases hm
          · rename_i i1 l1 s1 pre1 h1
            have hc : s.curvid < 2147483648 := by omega
            obtain ⟨a1, a2, a3⟩ := ih _ _ _ _ (rnv_body_invariant hb hc hi h1) x hm
            exact ⟨a1, a2, fun hp =>
              a3 (slots_numbered_ext (rnv_body_step hb hc h1).1 hp)⟩
    · cases hx

/-- The loop never fails at the assertion `vertex.id() == curvid` when it starts from
`i = curvid - start` and the slots are numbered from `start`. -/
theorem rnv_loop_vertex_id {P : params} {adj : List Nat} {nvecs : Int} {ri : Bool}
    {start : Nat} (hb : ∀ b ∈ adj, b < 256) (hn : (start : Int) + nvecs ≤ 2147483648)
    (fuel : Nat) :
    ∀ (i : Int) (lastrec : Nat) (s : sliding_shard) (pre : List svertex),
      (s.curvid : Int) = start + i → slots_numbered start nvecs pre →
      ∀ e, rnv_loop P adj nvecs ri fuel i lastrec s pre ≠ .error (fault.assert_vertex_id, e) := by
  induction fuel with
  | zero =>
    intro i lastrec s pre _ _ e h
    unfold rnv_loop at h
    cases h
  | succ fuel ih =>
    intro i lastrec s pre hi hp e h
    unfold rnv_loop at h
    split at h
    · rename_i hlt
      split at h
      · cases h
      · have hc : s.curvid < 2147483648 := by omega
        split at h
        · rename_i e1 h1
          cases h
          rcases rnv_body_kind h1 with hk | ⟨-, hk2, v, hk3, hk4⟩
          · rcases hk with hk | hk | hk | hk | hk <;> cases hk
          · obtain ⟨v', hv', hid⟩ := hp i.toNat (by omega)
            rw [hk3] at hv'
            cases hv'
            apply hk4
            omega
        · rename_i i1 l1 s1 pre1 h1
          exact ih _ _ _ _ (rnv_body_invariant hb hc hi h1)
            (slots_numbered_ext (rnv_body_step hb hc h1).1 hp) e h
    · cases h

theorem rnv_prepare_curvid {dw : Bool} {s s' : sliding_shard} (h : rnv_prepare dw s = .ok s') :
    s'.curvid = s.curvid := by
  unfold rnv_prepare release_prior_to_offset at h
  simp only [] at h
  split at h
  · cases h
  · split at h <;> cases h <;> rfl

/-- C31: the loop invariant of `read_next_vertices`.  For every adjacency byte string,
every state with the cursor below `2^31` and every call with `start + nvecs ≤ 2^31`: at
the start of every pass of the loop `i = (int)curvid - (int)start` and `i < nvecs`, so a
slot is accessed with `0 ≤ i < nvecs` only (with `i < 0` the record is skipped and no slot
is accessed); if the slot `j` holds the vertex `start + j` for every `j` in `[0, nvecs)`,
the slot `i` of a pass with `i ≥ 0` exists and holds the vertex `curvid`, and the call
never fails at the assertion `vertex.id() == curvid`; a skip pair adds `nz + 1` to `i` and
to `curvid`, a record adds 1 to both. -/
theorem loop_index_follows_curvid (P : params) (adj : List Nat) (nvecs : Int) (start : Nat)
    (pre : List svertex) (ri dw : Bool) (s : sliding_shard)
    (hb : ∀ b ∈ adj, b < 256) (hs : start < 2147483648)
    (hn : (start : Int) + nvecs ≤ 2147483648) (hc : s.curvid < 2147483648) :
    (∀ x ∈ rnv_passes P adj nvecs start pre ri dw s,
      x.1 = to_int x.2.1.curvid - to_int start ∧ x.1 < nvecs ∧
      (slots_numbered start nvecs pre → 0 ≤ x.1 →
        ∃ v, x.2.2[x.1.toNat]? = some v ∧ v.id = x.2.1.curvid)) ∧
    (slots_numbered start nvecs pre →
      ∀ e, read_next_vertices P adj nvecs start pre ri dw s ≠
        .error (fault.assert_vertex_id, e)) ∧
    (∀ (i n : Int) (s1 : sliding_shard) (pre1 : List svertex), i < 0 →
      read_record P adj i n s1 pre1 = .ok (skip P n 4 s1, pre1)) ∧
    (∀ (i i' : Int) (l l' : Nat) (s1 s' : sliding_shard) (pre1 pre' : List svertex),
      s1.curvid < 2147483648 →
      rnv_body P adj nvecs ri i l s1 pre1 = .ok (i', l', s', pre') →
      (∃ nz, nz < 256 ∧ i' + 1 = i + ((nz : Nat) + 1) ∧ s'.curvid = s1.curvid + (nz + 1)) ∨
        (i' + 1 = i + 1 ∧ s'.curvid = s1.curvid + 1)) := by
  have hmove : ∀ s1, (if ri = false then move_close_to start s else pure s) = .ok s1 →
      s1.curvid < 2147483648 := by
    intro s1 h1
    split at h1
    · exact (move_close_to_curvid h1 hc).2
    · cases h1; exact hc
  have hstart : ∀ s2 : sliding_shard, s2.curvid < 2147483648 →
      (s2.curvid : Int) = start + (to_int s2.curvid - to_int start) := by
    intro s2 h2
    rw [to_int_of_lt h2, to_int_of_lt hs]
    omega
  refine ⟨?_, ?_, ?_, ?_⟩
  · intro x hx
    unfold rnv_passes at hx
    split at hx
    · cases hx
    · rename_i s1 h1
      split at hx
      · cases hx
      · rename_i s2 h2
        have hc2 : s2.curvid < 2147483648 := by
          rw [rnv_prepare_curvid h2]; exact hmove s1 h1
        obtain ⟨a1, a2, a3⟩ := rnv_trace_invariant hb hn _ _ _ _ _ (hstart s2 hc2) x hx
        refine ⟨?_, a2, a3⟩
        have : x.2.1.curvid < 2147483648 := by omega
        rw [to_int_of_lt this, to_int_of_lt hs]
        omega
  · intro hp e h
    unfold read_next_vertices at h
    split at h
    · rename_i e1 h1
      cases h
      split at h1
      · rcases move_close_to_kind h1 with hk | hk | hk <;> cases hk
      · cases h1
    · rename_i s1 h1
      split at h
      · rename_i e2 h2
        cases h
        cases rnv_prepare_kind h2
      · rename_i s2 h2
        have hc2 : s2.curvid < 2147483648 := by
          rw [rnv_prepare_curvid h2]; exact hmove s1 h1
        simp only [] at h
        split at h
        · rename_i e3 h3
          cases h
          exact rnv_loop_vertex_id hb hn _ _ _ _ _ (hstart s2 hc2) hp _ h3
        · cases h
  · intro i n s1 pre1 hi
    unfold read_record
    rw [if_pos hi]
    rfl
  · intro i i' l l' s1 s' pre1 pre' hc1 h
    exact (rnv_body_step hb hc1 h).2

theorem sample_slots_numbered : slots_numbered 0 4 sample_slots := by
  intro j hj
  match j, hj with
  | 0, _ => exact ⟨_, rfl, rfl⟩
  | 1, _ => exact ⟨_, rfl, rfl⟩
  | 2, _ => exact ⟨_, rfl, rfl⟩
  | 3, _ => exact ⟨_, rfl, rfl⟩
  | (n + 4), h => omega

theorem loop_index_follows_curvid_witness :
    (∀ b ∈ encode_items sample_items, b < 256) ∧ (0 : Nat) < 2147483648 ∧
    ((0 : Nat) : Int) + 4 ≤ 2147483648 ∧ (sample_shard sample_params).curvid < 2147483648 ∧
    slots_numbered 0 4 sample_slots ∧
    (rnv_passes sample_params (encode_items sample_items) 4 0 sample_slots false false
      (sample_shard sample_params)).map (fun x => (x.1, x.2.1.curvid)) =
        [(0, 0), (1, 1), (2, 2), (3, 3)] ∧
    (∀ x ∈ rnv_passes sample_params (encode_items sample_items) 4 0 sample_slots false false
        (sample_shard sample_params),
      x.1 = to_int x.2.1.curvid - to_int 0 ∧ x.1 < 4 ∧
      (0 ≤ x.1 → ∃ v, x.2.2[x.1.toNat]? = some v ∧ v.id = x.2.1.curvid)) :=
  ⟨by decide, by decide, by decide, by decide, sample_slots_numbered, by decide,
    fun x hx =>
      have h := (loop_index_follows_curvid sample_params (encode_items sample_items) 4 0
        sample_slots false false (sample_shard sample_params) (by decide) (by decide)
        (by decide) (by decide)).1 x hx
      ⟨h.1, h.2.1, h.2.2 sample_slots_numbered⟩⟩

theorem set_view {β : Type} (g : sblock → β) {bs : List sblock} {idx : Nat} {cb x : sblock}
    (h : bs[idx]? = some cb) (hg : g x = g cb) : (bs.set idx x).map g = bs.map g := by
  apply List.ext_getElem?
  intro k
  rw [List.getElem?_map, List.getElem?_map, List.getElem?_set]
  by_cases hk : idx = k
  · subst hk
    obtain ⟨hl, -⟩ := List.getElem?_eq_some_iff.1 h
    simp [hl, h, hg]
  · simp [hk]

theorem blocks_behind_same {z : Nat} {s s' : sliding_shard}
    (h1 : block_spans s' = block_spans s) (h2 : s.edataoffset ≤ s'.edataoffset)
    (h : blocks_behind z s) : blocks_behind z s' := by
  refine ⟨?_, ?_, ?_⟩
  · intro init e he x hx
    rw [h1] at he
    exact le_trans (h.tail init e he x hx) h2
  · rw [h1]; exact h.algn
  · rw [h1]; exact h.order

theorem cur_last_same {s s' : sliding_shard} (h1 : block_spans s' = block_spans s)
    (h2 : s'.curblock = s.curblock) (h : cur_last s) : cur_last s' := by
  unfold cur_last
  rw [h1, h2]
  exact h

theorem frame_adj_spans {s s' : sliding_shard} (h : frame_adj s s') :
    block_spans s' = block_spans s ∧ s'.curblock = s.curblock ∧
      s'.edataoffset = s.edataoffset := by
  obtain ⟨io, ao, cab, rfl⟩ := h
  exact ⟨rfl, rfl, rfl⟩

/-- A new block is appended to the vector: it starts at the edge-data offset. -/
theorem load_next_block_spans {s s' : sliding_shard} (h : load_next_block s = .ok s') :
    block_spans s' = block_spans s ++
      [(s.edataoffset, min s.edatafilesize (u64 (s.edataoffset + s.blocksize)))] ∧
    s'.curblock = some (block_spans s).length ∧ s'.edataoffset = s.edataoffset := by
  unfold load_next_block at h
  simp only [] at h
  split at h
  · cases h
  · cases h
    refine ⟨?_, ?_, rfl⟩
    · unfold block_spans
      simp only [List.map_append, List.map_cons, List.map_nil]
    · unfold block_spans
      simp only [List.length_map]

theorem load_next_block_after {s0 s s' : sliding_shard} (h : load_next_block s = .ok s')
    (hsp : block_spans s = block_spans s0)
    (heo : s.edataoffset = s0.edataoffset) (hF : s.edatafilesize = s0.edatafilesize)
    (hbs : s.blocksize = s0.blocksize) :
    block_spans s' = block_spans s0 ++
      [(s0.edataoffset, min s0.edatafilesize (u64 (s0.edataoffset + s0.blocksize)))] ∧
    s'.curblock = some (block_spans s0).length ∧ s'.edataoffset = s0.edataoffset := by
  obtain ⟨a1, a2, a3⟩ := load_next_block_spans h
  rw [hsp, heo, hF, hbs] at a1
  rw [hsp] at a2
  rw [heo] at a3
  exact ⟨a1, a2, a3⟩

/-- What `check_curblock` does to the vector of blocks: nothing, or a new block is
appended, when there is no current block or the current block ends before the record. -/
theorem check_curblock_spans {sz : Nat} {s s' : sliding_shard}
    (h : check_curblock sz s = .ok s') :
    s'.edataoffset = s.edataoffset ∧
    ((block_spans s' = block_spans s ∧ s'.curblock = s.curblock ∧ s.curblock ≠ none) ∨
      (block_spans s' = block_spans s ++
          [(s.edataoffset, min s.edatafilesize (u64 (s.edataoffset + s.blocksize)))] ∧
        s'.curblock = some (block_spans s).length ∧
        (s.curblock = none ∨ ∃ idx e, s.curblock = some idx ∧
          (block_spans s)[idx]? = some e ∧ e.2 < u64 (s.edataoffset + sz)))) := by
  unfold check_curblock at h
  split at h
  · rename_i hn
    obtain ⟨a1, a2, a3⟩ := load_next_block_spans h
    exact ⟨a3, Or.inr ⟨a1, a2, Or.inl hn⟩⟩
  · rename_i idx hidx
    split at h
    · cases h
    · rename_i cb hcb
      have hspan : (block_spans s)[idx]? = some (cb.offset, cb.end_) := by
        unfold block_spans
        rw [List.getElem?_map, hcb]
        rfl
      split at h
      · rename_i hlt
        split at h
        · have hs : List.map (fun b => (b.offset, b.end_))
              (s.activeblocks.set idx (cb.release s.iomgr).1) = block_spans s := by
            unfold block_spans
            apply set_view _ hcb
            unfold sblock.release
            split <;> rfl
          obtain ⟨a1, a2, a3⟩ := @load_next_block_after s _ s' h hs rfl rfl rfl
          exact ⟨a3, Or.inr ⟨a1, a2, Or.inr ⟨idx, _, hidx, hspan, hlt⟩⟩⟩
        · obtain ⟨a1, a2, a3⟩ := load_next_block_spans h
          exact ⟨a3, Or.inr ⟨a1, a2, Or.inr ⟨idx, _, hidx, hspan, hlt⟩⟩⟩
      · cases h
        refine ⟨rfl, Or.inl ⟨rfl, rfl, ?_⟩⟩
        rw [hidx]
        exact fun hc => Option.noConfusion hc

theorem concat_eq_concat {α : Type} {a b : List α} {x y : α} (h : a ++ [x] = b ++ [y]) :
    a = b ∧ x = y := by
  have h1 := List.append_inj' h rfl
  exact ⟨h1.1, by simpa using h1.2⟩

/-- `read_edgeptr` for a record of `z` bytes keeps the blocks behind the cursor: a block is
added only when the last block ends at or before the edge-data offset. -/
theorem read_edgeptr_behind {z : Nat} {ev : Option edgeptr} {s s' : sliding_shard}
    (hoa : s.only_adjacency = false) (hc : cur_last s) (hb : blocks_behind z s)
    (he : z ∣ s.edataoffset) (hF : z ∣ s.edatafilesize) (hB : z ∣ s.blocksize)
    (h1 : s.edataoffset + z < 18446744073709551616)
    (h2 : s.edataoffset + s.blocksize < 18446744073709551616)
    (h : read_edgeptr z s = .ok (ev, s')) :
    cur_last s' ∧ blocks_behind z s' ∧ s'.edataoffset = s.edataoffset + z := by
  unfold read_edgeptr at h
  rw [hoa] at h
  simp only [Bool.false_eq_true, if_false] at h
  split at h
  · cases h
  · rename_i s1 hcc
    obtain ⟨e1, hcase⟩ := check_curblock_spans hcc
    have hmid : cur_last s1 ∧ blocks_behind z s1 := by
      rcases hcase with ⟨a1, a2, -⟩ | ⟨a1, a2, a3⟩
      · exact ⟨cur_last_same a1 a2 hc, blocks_behind_same a1 (by omega) hb⟩
      · have hold : ∀ x ∈ block_spans s, x.2 ≤ s.edataoffset := by
          rcases hc with ⟨-, hnil⟩ | ⟨init, e, hsp, hcur⟩
          · intro x hx
            rw [hnil] at hx
            cases hx
          · rcases a3 with hn | ⟨idx, e', hidx, hget, hlt⟩
            · rw [hcur] at hn
              cases hn
            · rw [hcur] at hidx
              cases hidx
              rw [hsp, getElem?_append_last] at hget
              cases hget
              have hal := hb.algn e (by rw [hsp]; simp)
              rw [u64_of_lt h1] at hlt
              have hle := dvd_le_of_lt_add hal he hlt
              intro x hx
              rw [hsp] at hx
              rcases List.mem_append.1 hx with hm | hm
              · exact hb.tail init e hsp x hm
              · rw [List.mem_singleton.1 hm]
                exact hle
        refine ⟨Or.inr ⟨block_spans s, _, a1, a2⟩, ?_, ?_, ?_⟩
        · intro init e hie x hx
          rw [a1] at hie
          obtain ⟨hi1, -⟩ := concat_eq_concat hie
          rw [e1]
          rw [← hi1] at hx
          exact hold x hx
        · intro x hx
          rw [a1] at hx
          rcases List.mem_append.1 hx with hm | hm
          · exact hb.algn x hm
          · rw [List.mem_singleton.1 hm]
            show z ∣ min s.edatafilesize (u64 (s.edataoffset + s.blocksize))
            rw [u64_of_lt h2]
            rcases Nat.le_total s.edatafilesize (s.edataoffset + s.blocksize) with hle | hle
            · rw [Nat.min_eq_left hle]; exact hF
            · rw [Nat.min_eq_right hle]; exact Nat.dvd_add he hB
        · rw [a1, List.pairwise_append]
          refine ⟨hb.order, List.pairwise_singleton _ _, ?_⟩
          intro x hx y hy
          rw [List.mem_singleton.1 hy]
          exact hold x hx
    split at h
    · cases h
    · rename_i idx hidx
      split at h
      · cases h
      · rename_i cb hcb
        cases h
        have hs : block_spans { s1 with edataoffset := u64 (s1.edataoffset + z), activeblocks := s1.activeblocks.set idx { cb with ptr := u64 (cb.ptr + z) } } = block_spans s1 := by
          unfold block_spans
          exact set_view _ hcb rfl
        have heo : u64 (s1.edataoffset + z) = s.edataoffset + z := by
          rw [e1, u64_of_lt h1]
        refine ⟨cur_last_same hs rfl hmid.1, blocks_behind_same hs ?_ hmid.2, heo⟩
        show s1.edataoffset ≤ u64 (s1.edataoffset + z)
        rw [heo, e1]
        omega

theorem activate_curblock_spans {s s' : sliding_shard} (h : activate_curblock s = .ok s') :
    block_spans s' = block_spans s ∧ s'.curblock = s.curblock ∧
      s'.edataoffset = s.edataoffset := by
  unfold activate_curblock at h
  split at h
  · cases h
  · split at h
    · cases h
    · rename_i cb hcb
      cases h
      refine ⟨?_, rfl, rfl⟩
      unfold block_spans
      exact set_view _ hcb rfl

theorem skip_spans (P : params) (n sz : Int) (s : sliding_shard) :
    block_spans (skip P n sz s) = block_spans s ∧ (skip P n sz s).curblock = s.curblock := by
  obtain ⟨io, rs, re, bs, cv, ao, eo, af, ef, ws, ab, es, ads, cb, cab, si, dw, ael, nro, oa,
    lg, dec⟩ := s
  cases cb with
  | none => cases cab <;> exact ⟨rfl, rfl⟩
  | some idx =>
    cases cab <;>
      (refine ⟨?_, rfl⟩
       show List.map _ (modify_block ab idx _) = List.map _ ab
       apply modify_block_view
       intro b
       rfl)

theorem move_close_to_spans {v : Nat} {s s' : sliding_shard}
    (h : move_close_to v s = .ok s') :
    block_spans s' = block_spans s ∧ s'.curblock = s.curblock := by
  obtain ⟨io, rs, re, bs, cv, ao, eo, af, ef, ws, ab, es, ads, cb, cab, si, dw, ael, nro, oa,
    lg, dec⟩ := s
  unfold move_close_to at h
  split at h
  · cases h; exact ⟨rfl, rfl⟩
  · split at h
    · cases h
    · simp only [] at h
      split at h
      · cases h
      · split at h
        · cases h
        · split at h
          · cases cb with
            | none => cases cab <;> (cases h; exact ⟨rfl, rfl⟩)
            | some idx =>
              cases cab <;>
                (cases h
                 refine ⟨?_, rfl⟩
                 show List.map _ (modify_block ab idx _) = List.map _ ab
                 apply modify_block_view
                 intro b
                 rfl)
          · cases h; exact ⟨rfl, rfl⟩

theorem behind_of_eq {z : Nat} {s s' : sliding_shard} (h1 : s'.activeblocks = s.activeblocks)
    (h2 : s'.curblock = s.curblock) (h3 : s'.edataoffset = s.edataoffset)
    (h : cur_last s ∧ blocks_behind z s) : cur_last s' ∧ blocks_behind z s' := by
  have hsp : block_spans s' = block_spans s := by unfold block_spans; rw [h1]
  exact ⟨cur_last_same hsp h2 h.1, blocks_behind_same hsp (by omega) h.2⟩

/-- One pass of the edge loop keeps the blocks behind the cursor and moves the edge-data
offset by one record. -/
theorem read_edge_behind {P : params} {adj : List Nat} {s s' : sliding_shard} {v v' : svertex}
    (hsz : P.sizeof_ET = P.sizeof_ETspecial) (hoa : s.only_adjacency = false)
    (hc : cur_last s ∧ blocks_behind P.sizeof_ET s) (he : P.sizeof_ET ∣ s.edataoffset)
    (hF : P.sizeof_ET ∣ s.edatafilesize) (hB : P.sizeof_ET ∣ s.blocksize)
    (h1 : s.edataoffset + P.sizeof_ET < 18446744073709551616)
    (h2 : s.edataoffset + s.blocksize < 18446744073709551616)
    (h : read_edge P adj s v = .ok (s', v')) :
    (cur_last s' ∧ blocks_behind P.sizeof_ET s') ∧
      s'.edataoffset = s.edataoffset + P.sizeof_ET := by
  unfold read_edge at h
  split at h
  · cases h
  · rename_i raw s1 hv
    have fa := frame_adj_blocks (read_val_fadj hv)
    have fs := frame6_static (read_val_frame hv)
    have hc1 := @behind_of_eq P.sizeof_ET s s1 fa.1 fa.2.1 fa.2.2.1 hc
    simp only [if_pos hsz, Bool.false_eq_true, if_false] at h
    split at h
    · cases h
    · rename_i ev s2 hp
      obtain ⟨c2, b2, e2⟩ := read_edgeptr_behind (by rw [fs.1]; exact hoa) hc1.1 hc1.2
        (by rw [fa.2.2.1]; exact he) (by rw [fa.2.2.2.2.2.2.2]; exact hF)
        (by rw [fa.2.2.2.2.2.2.1]; exact hB) (by rw [fa.2.2.1]; exact h1)
        (by rw [fa.2.2.1, fa.2.2.2.2.2.2.1]; exact h2) hp
      have fs2 := frame6_static (read_edgeptr_frame hp)
      have hoa2 : s2.only_adjacency = false := by rw [fs2.1, fs.1]; exact hoa
      rw [if_pos hoa2] at h
      split at h
      · cases h
      · rename_i s3 ha
        obtain ⟨a1, a2, a3⟩ := activate_curblock_spans ha
        obtain ⟨rfl, -, -, -⟩ := check_target_ok h
        refine ⟨⟨cur_last_same a1 a2 c2, blocks_behind_same a1 (by omega) b2⟩, ?_⟩
        rw [a3, e2, fa.2.2.1]

theorem read_edges_behind {P : params} {adj : List Nat} (k : Nat) :
    ∀ {s s' : sliding_shard} {v v' : svertex},
    P.sizeof_ET = P.sizeof_ETspecial → s.only_adjacency = false →
    cur_last s ∧ blocks_behind P.sizeof_ET s → P.sizeof_ET ∣ s.edataoffset →
    P.sizeof_ET ∣ s.edatafilesize → P.sizeof_ET ∣ s.blocksize →
    s.blocksize < 4611686018427387904 →
    s.edataoffset + P.sizeof_ET * k < 4611686018427387904 →
    read_edges P adj k s v = .ok (s', v') →
    (cur_last s' ∧ blocks_behind P.sizeof_ET s') ∧
      s'.edataoffset = s.edataoffset + P.sizeof_ET * k := by
  induction k with
  | zero =>
    intro s s' v v' _ _ hc _ _ _ _ _ h
    unfold read_edges at h
    cases h
    exact ⟨hc, by simp⟩
  | succ k ih =>
    intro s s' v v' hsz hoa hc he hF hB hbs hno h
    have hmul : P.sizeof_ET * (k + 1) = P.sizeof_ET * k + P.sizeof_ET := Nat.mul_succ _ _
    unfold read_edges at h
    split at h
    · cases h
    · rename_i s1 v1 h1
      obtain ⟨c1, e1⟩ := read_edge_behind hsz hoa hc he hF hB (by omega) (by omega) h1
      have fs := frame6_static (read_edge_ok h1).1
      obtain ⟨c2, e2⟩ := ih hsz (by rw [fs.1]; exact hoa) c1
        (by rw [e1]; exact Nat.dvd_add he (Nat.dvd_refl _)) (by rw [fs.2.1]; exact hF)
        (by rw [fs.2.2.1]; exact hB) (by rw [fs.2.2.1]; exact hbs) (by rw [e1]; omega) h
      exact ⟨c2, by rw [e2, e1]; omega⟩

/-- The destinations of a record, attached or skipped: the blocks stay behind the cursor,
and the edge-data offset moves by the records of the destinations. -/
theorem read_record_behind {P : params} {adj : List Nat} {s s' : sliding_shard} {i : Int}
    {slots slots' : List svertex} (m : Nat)
    (h : read_record P adj i (m : Int) s slots = .ok (s', slots'))
    (hsz : P.sizeof_ET = P.sizeof_ETspecial) (hoa : s.only_adjacency = false)
    (hc : cur_last s ∧ blocks_behind P.sizeof_ET s) (he : P.sizeof_ET ∣ s.edataoffset)
    (hF : P.sizeof_ET ∣ s.edatafilesize) (hB : P.sizeof_ET ∣ s.blocksize)
    (hbs : s.blocksize < 4611686018427387904) (hm : m < 536870912)
    (hno : s.edataoffset + P.sizeof_ET * m < 4611686018427387904) :
    cur_last s' ∧ blocks_behind P.sizeof_ET s' := by
  have hskip : cur_last (skip P (m : Int) 4 s) ∧ blocks_behind P.sizeof_ET (skip P (m : Int) 4 s) := by
    obtain ⟨k1, k2⟩ := skip_spans P (m : Int) 4 s
    have k3 := (skip_effect P (m : Int) s (by omega) (by omega)).2.1
    rw [Int.toNat_ofNat, u64_of_lt (by omega)] at k3
    exact ⟨cur_last_same k1 k2 hc.1, blocks_behind_same k1 (by omega) hc.2⟩
  unfold read_record at h
  split at h
  · cases h
    exact hskip
  · split at h
    · cases h
    · split at h
      · cases h
      · split at h
        · split at h
          · cases h
          · rename_i s1 v1 h1
            cases h
            rw [Int.toNat_ofNat] at h1
            exact (read_edges_behind m hsz hoa hc he hF hB hbs hno h1).1
        · cases h
          exact hskip

/-- A pass of the loop body that returns, on a coherent state with the bytes of the entry
`it` at the cursor, keeps the blocks behind the cursor. -/
theorem rnv_body_behind {P : params} {adj : List Nat} {s s' : sliding_shard}
    {slots slots' : List svertex} {nvecs : Int} {ri : Bool} {i i' : Int} {lastrec lastrec' : Nat}
    (it : adjitem) (pre tail : List Nat) (ha : aok P adj s)
    (hadj : adj = pre ++ (encode_item it ++ tail)) (hoff : s.adjoffset = pre.length)
    (hval : valid_item it) (hsm : small_item it)
    (hc : cur_last s ∧ blocks_behind P.sizeof_ET s) (he : P.sizeof_ET ∣ s.edataoffset)
    (hF : P.sizeof_ET ∣ s.edatafilesize)
    (hno : s.edataoffset + P.sizeof_ET * item_ndsts it < 4611686018427387904)
    (h : rnv_body P adj nvecs ri i lastrec s slots = .ok (i', lastrec', s', slots')) :
    cur_last s' ∧ blocks_behind P.sizeof_ET s' := by
  have hsc0 := same_core_record_checkpoint nvecs ri lastrec s
  have ha0 := aok_record_checkpoint nvecs ri lastrec ha
  have hoff0 : (record_checkpoint nvecs ri lastrec s).1.adjoffset = pre.length := by
    rw [hsc0.2.2.1]; exact hoff
  have heo0 : (record_checkpoint nvecs ri lastrec s).1.edataoffset = s.edataoffset :=
    hsc0.2.2.2.1
  have hF0 : (record_checkpoint nvecs ri lastrec s).1.edatafilesize = s.edatafilesize :=
    hsc0.2.2.2.2.2.1
  have hc0 : cur_last (record_checkpoint nvecs ri lastrec s).1 ∧
      blocks_behind P.sizeof_ET (record_checkpoint nvecs ri lastrec s).1 :=
    behind_of_eq hsc0.2.2.2.2.2.2.1 hsc0.2.2.2.2.2.2.2.2.2.1 heo0 hc
  unfold rnv_body at h
  simp only [] at h
  generalize (record_checkpoint nvecs ri lastrec s).1 = s0 at *
  generalize (record_checkpoint nvecs ri lastrec s).2 = l0 at *
  obtain ⟨c1, c2, c3, c4, c5, c6, c7, c8, c9, c10, c11⟩ := ha0.cfg
  cases it with
  | skip nz =>
    have hadj1 : adj = pre ++ ([0] ++ (nz :: tail)) := hadj
    obtain ⟨s1, h1, hl1, ha1, hf1⟩ := read_val_at_a ha0 hadj1 hoff0 (by decide) (by decide)
    obtain ⟨io1, ao1, cab1, rfl⟩ := hf1
    have hl1c := aok_curvid (u32 (s0.curvid + 1)) hl1
    have hadj2 : adj = (pre ++ [0]) ++ ([nz] ++ tail) := by rw [hadj]; simp [encode_item]
    obtain ⟨s2, h2, hl2, ha2, hf2⟩ := read_val_at_a hl1c hadj2 (by simpa using ha1)
      (by simp) (by simp)
    obtain ⟨io2, ao2, cab2, rfl⟩ := hf2
    simp only [List.length_singleton, le_value_single] at h1 h2
    rw [h1] at h
    simp only [if_true] at h
    rw [h2] at h
    cases h
    exact @behind_of_eq P.sizeof_ET s0 _ rfl rfl rfl hc0
  | record long dsts =>
    obtain ⟨ns, s1, s2, pre2, h1, hns, hrc, hl2, hadj2, hoff2, hlen2, hf2⟩ :=
      read_header_a long dsts pre tail ha0 hadj hoff0 hval
    obtain ⟨io2, ao2, cab2, rfl⟩ := hf2
    rw [h1] at h
    simp only [hns, if_false] at h
    rw [hrc] at h
    simp only [] at h
    split at h
    · cases h
    · rename_i s3 slots3 h3
      cases h
      have hno' : s0.edataoffset + P.sizeof_ET * dsts.length < 4611686018427387904 := by
        rw [heo0]
        simpa [item_ndsts] using hno
      have hb3 := read_record_behind dsts.length h3 c2 c9
        (@behind_of_eq P.sizeof_ET s0 _ rfl rfl rfl hc0)
        (by show P.sizeof_ET ∣ s0.edataoffset; rw [heo0]; exact he)
        (by show P.sizeof_ET ∣ s0.edatafilesize; rw [hF0]; exact hF) c8 c7 hsm hno'
      exact @behind_of_eq P.sizeof_ET s3 _ rfl rfl rfl hb3

theorem rnv_loop_behind {P : params} {items : List adjitem} {nvecs : Int} {ri : Bool}
    (fuel : Nat) :
    ∀ {done : List adjitem} {i : Int} {lastrec : Nat} {s s' : sliding_shard}
      {slots slots' : List svertex}, cinv P items done s →
    cur_last s ∧ blocks_behind P.sizeof_ET s → P.sizeof_ET ∣ s.edatafilesize →
    rnv_loop P (encode_items items) nvecs ri fuel i lastrec s slots = .ok (s', slots') →
    cur_last s' ∧ blocks_behind P.sizeof_ET s' := by
  induction fuel with
  | zero =>
    intro done i lastrec s s' slots slots' _ hc _ hl
    unfold rnv_loop at hl
    cases hl
    exact hc
  | succ fuel ih =>
    intro done i lastrec s s' slots slots' h hc hF hl
    unfold rnv_loop at hl
    split at hl
    · split at hl
      · cases hl
        exact hc
      · rename_i hlt
        split at hl
        · cases hl
        · rename_i i1 l1 s1 slots1 h1
          obtain ⟨rest, hr⟩ := h.pre
          cases rest with
          | nil =>
            exfalso
            apply hlt
            rw [List.append_nil] at hr
            show s.adjfilesize ≤ s.adjoffset
            rw [h.ok.cfg.2.2.1, h.adjo, hr]
          | cons it rest =>
            have hmem : it ∈ items := by rw [hr]; simp
            have hit2 : items = (done ++ [it]) ++ rest := by rw [hr]; simp
            have hnd := ndsts_prefix_le hit2
            rw [ndsts_append, ndsts_single] at hnd
            have hroom := h.room
            have hadj : encode_items items
                = encode_items done ++ (encode_item it ++ encode_items rest) := by
              rw [hr, encode_items_append]
              rfl
            have hmul : P.sizeof_ET * (ndsts done + item_ndsts it)
                = P.sizeof_ET * ndsts done + P.sizeof_ET * item_ndsts it := Nat.mul_add _ _ _
            have hle : P.sizeof_ET * (ndsts done + item_ndsts it) ≤ P.sizeof_ET * ndsts items :=
              Nat.mul_le_mul_left _ hnd
            have hb := rnv_body_behind it (encode_items done) (encode_items rest) h.ok hadj
              h.adjo (h.valid it hmem) (h.small it hmem) hc
              (by rw [h.edo]; exact Dvd.intro _ rfl) hF (by rw [h.edo]; omega) h1
            have hst := rnv_body_stat h1
            exact ih (cinv_body h hr h1) hb (by rw [hst.2.2.2.1]; exact hF) hl
    · cases hl
      exact hc

theorem rnv_loop_kind {P : params} {adj : List Nat} {nvecs : Int} {ri : Bool} (fuel : Nat) :
    ∀ {i : Int} {lastrec : Nat} {s e : sliding_shard} {pre : List svertex} {f : fault},
    rnv_loop P adj nvecs ri fuel i lastrec s pre = .error (f, e) →
    data_fault f ∨ f = fault.assert_vertex_id := by
  induction fuel with
  | zero =>
    intro i lastrec s e pre f h
    unfold rnv_loop at h
    cases h
  | succ fuel ih =>
    intro i lastrec s e pre f h
    unfold rnv_loop at h
    split at h
    · split at h
      · cases h
      · split at h
        · rename_i e1 h1
          cases h
          rcases rnv_body_kind h1 with hk | ⟨hk, -⟩
          · exact Or.inl hk
          · exact Or.inr hk
        · exact ih h
    · cases h

/-- The blocks `release_prior_to_offset(false)` keeps when the blocks lie behind the cursor:
none, or the last block. -/
theorem kept_behind {z : Nat} {s : sliding_shard} (hb : blocks_behind z s) :
    s.activeblocks.filter (fun b => !decide (b.end_ ≤ s.edataoffset ∨ false = true)) = [] ∨
    ∃ lb, s.activeblocks.filter (fun b => !decide (b.end_ ≤ s.edataoffset ∨ false = true))
      = [lb] ∧ lb ∈ s.activeblocks := by
  rcases List.eq_nil_or_concat s.activeblocks with hn | ⟨init, lb, hl⟩
  · left
    rw [hn]
    rfl
  · rw [List.concat_eq_append] at hl
    have hsp : block_spans s = init.map (fun b => (b.offset, b.end_)) ++ [(lb.offset, lb.end_)] := by
      unfold block_spans
      rw [hl]
      simp
    have hinit : init.filter (fun b => !decide (b.end_ ≤ s.edataoffset ∨ false = true)) = [] := by
      rw [List.filter_eq_nil_iff]
      intro b hbm
      have := hb.tail _ _ hsp (b.offset, b.end_) (List.mem_map.2 ⟨b, hbm, rfl⟩)
      simp only [Bool.false_eq_true, or_false, Bool.not_eq_true', decide_eq_false_iff_not,
        not_not]
      exact this
    rw [hl, List.filter_append, hinit, List.nil_append]
    by_cases hk : lb.end_ ≤ s.edataoffset
    · left
      simp [hk]
    · right
      exact ⟨lb, by simp [hk], by simp⟩

theorem rnv_prepare_fields {dw : Bool} {s s' : sliding_shard} (h : rnv_prepare dw s = .ok s') :
    s'.activeblocks
      = s.activeblocks.filter (fun b => !decide (b.end_ ≤ s.edataoffset ∨ false = true)) ∧
    (s'.activeblocks = [] → s'.curblock = none) ∧
    (s'.activeblocks ≠ [] → s.only_adjacency = false → s'.curblock = some 0) ∧
    s'.edataoffset = s.edataoffset ∧ s'.edatafilesize = s.edatafilesize ∧
    s'.only_adjacency = s.only_adjacency := by
  unfold rnv_prepare at h
  simp only [] at h
  rw [release_prior_eq] at h
  split at h
  · cases h
  · split at h
    · rename_i hne
      cases h
      refine ⟨rfl, ?_, fun _ _ => rfl, rfl, rfl, rfl⟩
      intro he
      exfalso
      apply hne.1
      show (List.filter _ s.activeblocks).isEmpty = true
      rw [show List.filter _ s.activeblocks = [] from he]
      rfl
    · rename_i hne
      cases h
      refine ⟨rfl, fun _ => rfl, ?_, rfl, rfl, rfl⟩
      intro he hoa
      exfalso
      apply hne
      refine ⟨?_, hoa⟩
      intro hem
      apply he
      exact List.isEmpty_iff.1 hem

theorem rnv_prepare_returns {dw : Bool} {s : sliding_shard}
    (h : (s.activeblocks.filter
      (fun b => !decide (b.end_ ≤ s.edataoffset ∨ false = true))).length ≤ 1) :
    ∃ s', rnv_prepare dw s = .ok s' := by
  unfold rnv_prepare
  simp only []
  rw [release_prior_eq]
  rw [if_neg (by simp only [not_not]; exact h)]
  exact ⟨_, rfl⟩

/-- With the blocks behind the cursor the assertion `activeblocks.size() <= 1` holds: the
statements before the loop return, the block that is left is the current block, and the
blocks are behind the cursor again. -/
theorem rnv_prepare_behind {z : Nat} {dw : Bool} {s : sliding_shard}
    (hoa : s.only_adjacency = false) (hb : blocks_behind z s) :
    (s.activeblocks.filter
      (fun b => !decide (b.end_ ≤ s.edataoffset ∨ false = true))).length ≤ 1 ∧
    ∃ s', rnv_prepare dw s = .ok s' ∧ cur_last s' ∧ blocks_behind z s' := by
  have hk := kept_behind hb
  have hlen : (s.activeblocks.filter
      (fun b => !decide (b.end_ ≤ s.edataoffset ∨ false = true))).length ≤ 1 := by
    rcases hk with e | ⟨lb, e, -⟩ <;> rw [e] <;> simp
  obtain ⟨s', hs'⟩ := @rnv_prepare_returns dw s hlen
  obtain ⟨f1, f2, f2', f3, -, -⟩ := rnv_prepare_fields hs'
  refine ⟨hlen, s', hs', ?_⟩
  rcases hk with e | ⟨lb, e, hmem⟩
  · have hsp : block_spans s' = [] := by unfold block_spans; rw [f1, e]; rfl
    have hcb : s'.curblock = none := f2 (by rw [f1, e])
    refine ⟨Or.inl ⟨hcb, hsp⟩, ?_, ?_, ?_⟩
    · intro init x hx
      rw [hsp] at hx
      exact absurd hx (by simp)
    · intro x hx
      rw [hsp] at hx
      cases hx
    · rw [hsp]
      exact List.Pairwise.nil
  · have hsp : block_spans s' = [] ++ [(lb.offset, lb.end_)] := by
      unfold block_spans; rw [f1, e]; rfl
    have hcb : s'.curblock = some ([] : List (Nat × Nat)).length :=
      f2' (by rw [f1, e]; simp) hoa
    refine ⟨Or.inr ⟨[], _, hsp, hcb⟩, ?_, ?_, ?_⟩
    · intro init x hx y hy
      rw [hsp] at hx
      obtain ⟨hi, -⟩ := concat_eq_concat hx
      rw [← hi] at hy
      cases hy
    · intro x hx
      rw [hsp] at hx
      simp only [List.nil_append, List.mem_singleton] at hx
      rw [hx]
      exact hb.algn (lb.offset, lb.end_) (List.mem_map.2 ⟨lb, hmem, rfl⟩)
    · rw [hsp]
      exact List.pairwise_singleton _ _

theorem move_close_to_behind {P : params} {items done : List adjitem} {v : Nat}
    {s s' : sliding_shard} (h : cinv P items done s) (hm : move_close_to v s = .ok s')
    (hb : blocks_behind P.sizeof_ET s) : blocks_behind P.sizeof_ET s' := by
  obtain ⟨k1, -⟩ := move_close_to_spans hm
  refine blocks_behind_same k1 ?_ hb
  rcases cinv_move h hm with e | ⟨mid, hc', -, -⟩
  · rw [e]
  · rw [hc'.edo, h.edo, ndsts_append]
    exact Nat.mul_le_mul_left _ (Nat.le_add_right _ _)

theorem blocks_behind_nil {z : Nat} {s : sliding_shard} (h : block_spans s = []) :
    blocks_behind z s := by
  refine ⟨?_, ?_, ?_⟩
  · intro init x hx
    rw [h] at hx
    exact absurd hx (by simp)
  · intro x hx
    rw [h] at hx
    cases hx
  · rw [h]
    exact List.Pairwise.nil

theorem flush_spans (s : sliding_shard) : block_spans (flush s) = [] := by
  unfold flush
  simp only []
  rw [release_prior_eq]
  unfold block_spans
  split <;> simp

theorem set_offset_spans (a v e : Nat) (s : sliding_shard) :
    block_spans (set_offset a v e s) = block_spans s := by
  unfold set_offset
  simp only []
  split <;> rfl

/-- After `set_offset` with the offsets and the vertex id of a position of the shard the
cursor stands at that position. -/
theorem cinv_position {P : params} {items done : List adjitem} {s : sliding_shard}
    {a v e : Nat} (h : cinv P items done s) (hp : position_ok P items a v e) :
    ∃ d0, cinv P items d0 (set_offset a v e s) := by
  obtain ⟨d0, r0, hd, rfl, rfl, rfl⟩ := hp
  have hcoh : adj_coherent (set_offset (encode_items d0).length (span d0)
      (P.sizeof_ET * ndsts d0) s) := by
    intro b hb
    unfold set_offset at hb
    simp only [] at hb
    split at hb
    · cases hb
    · rename_i hn
      have hn' : s.curadjblock = none := hn
      have hb' : s.curadjblock = some b := hb
      rw [hn'] at hb'
      cases hb'
  have hcfg : cfg_ok P (encode_items items) (set_offset (encode_items d0).length (span d0)
      (P.sizeof_ET * ndsts d0) s) := by
    unfold set_offset
    simp only []
    split <;> exact h.ok.cfg
  have hf : (set_offset (encode_items d0).length (span d0) (P.sizeof_ET * ndsts d0) s).adjoffset
        = (encode_items d0).length ∧
      (set_offset (encode_items d0).length (span d0) (P.sizeof_ET * ndsts d0) s).curvid
        = span d0 ∧
      (set_offset (encode_items d0).length (span d0) (P.sizeof_ET * ndsts d0) s).edataoffset
        = P.sizeof_ET * ndsts d0 ∧
      (set_offset (encode_items d0).length (span d0) (P.sizeof_ET * ndsts d0) s).sparse_index
        = s.sparse_index := by
    unfold set_offset
    simp only []
    split <;> exact ⟨rfl, rfl, rfl, rfl⟩
  refine ⟨d0, ⟨hcfg, hcoh⟩, h.valid, h.small, h.spanb, h.room, ⟨r0, hd⟩, hf.1, hf.2.1,
    hf.2.2.1, ?_, ?_⟩
  · rw [hf.2.2.2]; exact h.si
  · rw [hf.2.2.2]; exact h.si0

/-- A call of `read_next_vertices` from a state with the cursor at a position of the shard
and the blocks behind it: the assertion `activeblocks.size() <= 1` does not fail, and a call
that returns leaves the cursor at a position and the blocks behind it. -/
theorem read_next_vertices_behind {P : params} {items done : List adjitem} {nvecs : Int}
    {start : Nat} {slots : List svertex} {ri dw : Bool} {s : sliding_shard}
    (h : cinv P items done s) (hb : blocks_behind P.sizeof_ET s)
    (hF : P.sizeof_ET ∣ s.edatafilesize) :
    (∀ e, read_next_vertices P (encode_items items) nvecs start slots ri dw s ≠
      .error (fault.assert_activeblocks_le_one, e)) ∧
    (∀ s' slots', read_next_vertices P (encode_items items) nvecs start slots ri dw s
        = .ok (s', slots') →
      blocks_behind P.sizeof_ET s' ∧ P.sizeof_ET ∣ s'.edatafilesize) := by
  have hmid : ∀ s1, (if ri = false then move_close_to start s else pure s) = .ok s1 →
      (∃ d1, cinv P items d1 s1) ∧ blocks_behind P.sizeof_ET s1 ∧
        P.sizeof_ET ∣ s1.edatafilesize := by
    intro s1 h1
    split at h1
    · refine ⟨?_, move_close_to_behind h h1 hb, ?_⟩
      · rcases cinv_move h h1 with e | ⟨mid, hc, -, -⟩
        · rw [e]; exact ⟨done, h⟩
        · exact ⟨_, hc⟩
      · rw [(move_close_to_stat h1).2.2.2.1]; exact hF
    · cases h1
      exact ⟨⟨done, h⟩, hb, hF⟩
  refine ⟨?_, ?_⟩
  · intro e hr
    unfold read_next_vertices at hr
    split at hr
    · rename_i e1 h1
      cases hr
      split at h1
      · rcases move_close_to_kind h1 with hk | hk | hk <;> cases hk
      · cases h1
    · rename_i s1 h1
      obtain ⟨⟨d1, hc1⟩, hb1, hF1⟩ := hmid s1 h1
      obtain ⟨-, s2, hs2, -, -⟩ := @rnv_prepare_behind P.sizeof_ET dw s1
        hc1.ok.cfg.2.2.2.2.2.2.2.2.1 hb1
      rw [hs2] at hr
      simp only [] at hr
      split at hr
      · rename_i e3 h3
        cases hr
        rcases rnv_loop_kind _ h3 with hk | hk
        · rcases hk with hk | hk | hk | hk | hk <;> cases hk
        · cases hk
      · cases hr
  · intro s' slots' hr
    unfold read_next_vertices at hr
    split at hr
    · cases hr
    · rename_i s1 h1
      obtain ⟨⟨d1, hc1⟩, hb1, hF1⟩ := hmid s1 h1
      obtain ⟨-, s2, hs2, hcl2, hb2⟩ := @rnv_prepare_behind P.sizeof_ET dw s1
        hc1.ok.cfg.2.2.2.2.2.2.2.2.1 hb1
      have hc2 := cinv_prepare hc1 hs2
      have hF2 : P.sizeof_ET ∣ s2.edatafilesize := by
        rw [(rnv_prepare_fields hs2).2.2.2.2.1]; exact hF1
      rw [hs2] at hr
      simp only [] at hr
      split at hr
      · cases hr
      · rename_i s3 slots3 h3
        cases hr
        have hb3 := rnv_loop_behind _ hc2 ⟨hcl2, hb2⟩ hF2 h3
        have hst := rnv_loop_stat _ h3
        exact ⟨@blocks_behind_same P.sizeof_ET s3 _ rfl (le_refl _) hb3.2, by
          show P.sizeof_ET ∣ s3.edatafilesize
          rw [hst.2.2.2.1]; exact hF2⟩

/-- A guarded run from a state with the cursor at a position of the shard and the blocks
behind it ends in such a state. -/
theorem run_behind {P : params} {items : List adjitem} (ops : List op) :
    ∀ {flushed : Bool} {done : List adjitem} {s s' : sliding_shard}
      {outs : List (List svertex)},
    guarded P items flushed ops → cinv P items done s → blocks_behind P.sizeof_ET s →
    (flushed = true → block_spans s = []) → P.sizeof_ET ∣ s.edatafilesize →
    run P (encode_items items) s ops = .ok (s', outs) →
    (∃ done', cinv P items done' s') ∧ blocks_behind P.sizeof_ET s' ∧
      P.sizeof_ET ∣ s'.edatafilesize := by
  induction ops with
  | nil =>
    intro flushed done s s' outs _ h hb _ hF hr
    unfold run at hr
    cases hr
    exact ⟨⟨done, h⟩, hb, hF⟩
  | cons o ops ih =>
    intro flushed done s s' outs hg h hb hfl hF hr
    unfold run at hr
    split at hr
    · cases hr
    · rename_i s1 out h1
      split at hr
      · cases hr
      · rename_i s2 outs2 h2
        cases hr
        cases o with
        | read nvecs start slots ri dw =>
          obtain ⟨d1, hc1⟩ := cinv_read h h1
          obtain ⟨hb1, hF1⟩ := (read_next_vertices_behind h hb hF).2 _ _ h1
          exact ih hg hc1 hb1 (fun hc => by cases hc) hF1 h2
        | flush =>
          cases h1
          exact ih hg (cinv_flush h) (blocks_behind_nil (flush_spans s))
            (fun _ => flush_spans s) (by rw [(flush_stat s).2.2.2.1]; exact hF) h2
        | set_offset a v e =>
          cases h1
          obtain ⟨hfl1, hp, hg'⟩ := hg
          obtain ⟨d1, hc1⟩ := cinv_position h hp
          have hsp : block_spans (set_offset a v e s) = [] := by
            rw [set_offset_spans]; exact hfl hfl1
          exact ih hg' hc1 (blocks_behind_nil hsp) (fun hc => by cases hc)
            (by rw [(set_offset_stat a v e s).2.2.2.1]; exact hF) h2

set_option maxRecDepth 100000 in
theorem far_shard_ok : shard_ok sample_params far_items sample_io 24 0 100 4 := by
  refine ⟨?_, by decide, rfl, by decide, by decide, by decide, by decide, by decide, by decide,
    by decide⟩
  intro c hc
  cases hc

theorem six_shard_ok : shard_ok sample_params six_items sample_io 24 0 100 4 := by
  refine ⟨?_, by decide, rfl, by decide, by decide, by decide, by decide, by decide, by decide,
    by decide⟩
  intro c hc
  cases hc

theorem position_start {P : params} {items : List adjitem} {v e : Nat}
    (h : position_ok P items 0 v e) : e = 0 := by
  obtain ⟨d0, r0, -, h2, -, h4⟩ := h
  cases d0 with
  | nil => rw [h4]; simp [ndsts]
  | cons it d =>
    exfalso
    cases it with
    | skip nz => simp [encode_items, encode_item] at h2
    | record long dsts => cases long <;> simp [encode_items, encode_item] at h2

set_option maxRecDepth 100000 in
/-- C32, counterexample: the assertion `activeblocks.size() <= 1` fails in a state reached
from a fresh sliding shard by `read_next_vertices` calls and `set_offset` calls that come
right after `flush()`, over a well-formed shard whose edge-data size (24) is a multiple of
the record size (4), with one record size.  The shard has three sources with one
destination, 392 skip pairs and three more sources.  After `flush`,
`set_offset(797, 100099, 12)` puts the cursor before the last skip pair, with the offsets
and the vertex id of that position; a call with `record_index` and `start = 0` records the
checkpoint of vertex 100099, whose edge-data offset is 12, by the rule of the 100000
vertices.  After `flush`, `set_offset(0, 0, 12)` puts the cursor at vertex 0 with the
edge-data offset 12, which is not the offset of vertex 0; reading the vertices 0 and 1
allocates the blocks `[12, 16)` and `[16, 20)` and leaves the edge-data offset at 20; the
call for vertex 100099 moves the cursor to the checkpoint, edge-data offset 12, both blocks
end after it, none is released, and the assertion fails. -/
theorem assertion_fails_after_misplaced_set_offset :
    shard_ok sample_params far_items sample_io 24 0 100 4 ∧
    (∀ it ∈ far_items, small_item it) ∧ span far_items < 2147483648 ∧
    sample_params.sizeof_ET ∣ 24 ∧
    position_ok sample_params far_items 797 100099 12 ∧
    ¬ position_ok sample_params far_items 0 0 12 ∧
    ∃ s0 s1 outs e,
      sliding_shard.construct sample_params sample_io 24 (encode_items far_items).length
        0 100 4 false false = some s0 ∧
      run sample_params (encode_items far_items) s0 (far_ops.take 6) = .ok (s1, outs) ∧
      block_spans s1 = [(12, 16), (16, 20)] ∧ s1.edataoffset = 20 ∧ s1.curvid = 2 ∧
      s1.sparse_index = [(-100099, indexentry.mk 797 12), (0, indexentry.mk 0 0)] ∧
      run sample_params (encode_items far_items) s0 far_ops =
        .error (fault.assert_activeblocks_le_one, e) ∧
      block_spans e = [(12, 16), (16, 20)] ∧ e.edataoffset = 12 := by
  refine ⟨far_shard_ok, by decide, by decide, by decide, ?_, ?_, ?_⟩
  · exact ⟨[adjitem.record false [7], adjitem.record false [8], adjitem.record false [9]] ++
      List.replicate 391 (adjitem.skip 255),
      [adjitem.skip 255, adjitem.record false [5], adjitem.record false [6],
        adjitem.record false [4]], by decide, by decide, by decide, by decide⟩
  · intro hp
    have := position_start hp
    omega
  · exact ⟨_, _, _, _, rfl, rfl, rfl, rfl, rfl, rfl, rfl, rfl, rfl⟩

/-- The same failure on a shard of six sources: the checkpoint of vertex 3 (edge-data
offset 12) is recorded by a call for vertex 4 whose `start` lies ahead of the cursor;
after `flush` and `set_offset(0, 0, 12)` the vertices 0 and 1 are read, and the call for
vertex 4 finds two blocks that end after the checkpoint. -/
theorem six_sources_assertion_fails :
    ∃ s0 s1 outs e,
      sliding_shard.construct sample_params sample_io 24 (encode_items six_items).length
        0 100 4 false false = some s0 ∧
      run sample_params (encode_items six_items) s0 (six_ops.take 5) = .ok (s1, outs) ∧
      block_spans s1 = [(12, 16), (16, 20)] ∧ s1.edataoffset = 20 ∧ s1.curvid = 2 ∧
      s1.sparse_index = [(-3, indexentry.mk 15 12), (0, indexentry.mk 0 0)] ∧
      run sample_params (encode_items six_items) s0 six_ops =
        .error (fault.assert_activeblocks_le_one, e) ∧
      block_spans e = [(12, 16), (16, 20)] ∧ e.edataoffset = 12 :=
  ⟨_, _, _, _, rfl, rfl, rfl, rfl, rfl, rfl, rfl, rfl, rfl⟩

/-- C32, amended: the assertion `activeblocks.size() <= 1` of `read_next_vertices` holds in
every state reached from a freshly constructed sliding shard with edge data by calls of
`read_next_vertices` and `flush` that return and by calls of `set_offset` that come right
after a `flush` and name the offsets and the vertex id of one position of the shard, over
a well-formed shard (fewer than `2^31` source ids, fewer than `2^29` destinations per
record) whose edge-data size is a multiple of the record size, `ET` and `ETspecial` having
that size.  In such a state the blocks do not overlap, every block but the last ends at or
before `edataoffset`, so `release_prior_to_offset(false)` leaves one block at most, and no
call of `read_next_vertices` fails at the assertion. -/
theorem blocks_stay_behind_cursor (P : params) (items : List adjitem) (io : stripedio)
    (F rs re bs : Nat) (dw : Bool) (hs : shard_ok P items io F rs re bs)
    (hsm : ∀ it ∈ items, small_item it) (hsp : span items < 2147483648)
    (hF : P.sizeof_ET ∣ F) (ops : List op) (hops : guarded P items false ops)
    (s0 s : sliding_shard) (outs : List (List svertex))
    (h0 : sliding_shard.construct P io F (encode_items items).length rs re bs dw false
      = some s0)
    (hrun : run P (encode_items items) s0 ops = .ok (s, outs)) :
    blocks_behind P.sizeof_ET s ∧
    (∀ d, (release_prior_to_offset false d { s with curblock := none }).activeblocks.length
      ≤ 1) ∧
    (∀ nvecs start slots ri d e,
      read_next_vertices P (encode_items items) nvecs start slots ri d s ≠
        .error (fault.assert_activeblocks_le_one, e)) := by
  obtain ⟨s0', e0, hw, hF0, -⟩ := fresh_ok dw hs
  rw [h0] at e0
  cases e0
  have hnil : block_spans s0 = [] := by
    unfold block_spans
    rw [(construct_flags h0).2.2.2.1]
    rfl
  obtain ⟨⟨done, hc⟩, hb, hFs⟩ := run_behind ops hops (cinv_of_winv hw hsm hsp)
    (blocks_behind_nil hnil) (fun hc => by cases hc) (by rw [hF0]; exact hF) hrun
  refine ⟨hb, ?_, ?_⟩
  · intro d
    rw [release_prior_eq]
    exact (@rnv_prepare_behind P.sizeof_ET d s hc.ok.cfg.2.2.2.2.2.2.2.2.1 hb).1
  · intro nvecs start slots ri d e
    exact (read_next_vertices_behind hc hb hFs).1 e

theorem behind_ops_guarded : guarded sample_params six_items false behind_ops :=
  ⟨rfl, ⟨[adjitem.record false [7]], _, rfl, rfl, rfl, rfl⟩, trivial⟩

theorem blocks_stay_behind_cursor_witness :
    shard_ok sample_params six_items sample_io 24 0 100 4 ∧
    (∀ it ∈ six_items, small_item it) ∧ span six_items < 2147483648 ∧
    sample_params.sizeof_ET ∣ 24 ∧ guarded sample_params six_items false behind_ops ∧
    ∃ s0 s outs,
      sliding_shard.construct sample_params sample_io 24 (encode_items six_items).length
        0 100 4 false false = some s0 ∧
      run sample_params (encode_items six_items) s0 behind_ops = .ok (s, outs) ∧
      block_spans s = [(4, 8), (8, 12)] ∧ s.edataoffset = 12 ∧
      blocks_behind sample_params.sizeof_ET s ∧
      (∀ d, (release_prior_to_offset false d { s with curblock := none }).activeblocks.length
        ≤ 1) ∧
      (∀ nvecs start slots ri d e,
        read_next_vertices sample_params (encode_items six_items) nvecs start slots ri d s ≠
          .error (fault.assert_activeblocks_le_one, e)) :=
  ⟨six_shard_ok, by decide, by decide, by decide, behind_ops_guarded, _, _, _, rfl, rfl, rfl,
    rfl,
    blocks_stay_behind_cursor sample_params six_items sample_io 24 0 100 4 false six_shard_ok
      (by decide) (by decide) (by decide) behind_ops behind_ops_guarded _ _ _ rfl rfl⟩

theorem blocks_live_ptr {s s' : sliding_shard} (he : s'.edata_session = s.edata_session)
    (ho : s'.only_adjacency = s.only_adjacency)
    (hs : ∀ b ∈ s'.activeblocks,
      b ∈ s.activeblocks ∨ ∃ b0 ∈ s.activeblocks, ∃ p, b = { b0 with ptr := p })
    (hb : blocks_live s) : blocks_live s' := by
  refine ⟨fun h => ?_, fun b hb' => ?_⟩
  · rw [he]
    exact hb.1 (by rw [← ho]; exact h)
  · rcases hs b hb' with h1 | ⟨b0, h1, p, h2⟩
    · exact hb.2 b h1
    · rw [h2]
      exact hb.2 b0 h1

theorem blocks_live_same {s s' : sliding_shard} (he : s'.edata_session = s.edata_session)
    (ho : s'.only_adjacency = s.only_adjacency) (f : s'.activeblocks = s.activeblocks)
    (hb : blocks_live s) : blocks_live s' :=
  blocks_live_ptr he ho (fun b hb' => Or.inl (by rw [f] at hb'; exact hb')) hb

theorem blocks_live_fadj {s s' : sliding_shard} (f : frame_adj s s') (hb : blocks_live s) :
    blocks_live s' := by
  obtain ⟨io, ao, cab, rfl⟩ := f
  exact blocks_live_same rfl rfl rfl hb

theorem blocks_pending_of_live {s : sliding_shard} (hb : blocks_live s) : blocks_pending s :=
  ⟨hb.1, fun _ b h =>
    ⟨(hb.2 b (mem_of_getElem?_some h)).2.1, (hb.2 b (mem_of_getElem?_some h)).2.2,
      Or.inl (hb.2 b (mem_of_getElem?_some h)).1⟩⟩

theorem load_next_block_live {s s' : sliding_shard} (h : load_next_block s = .ok s')
    (hb : blocks_live s) (hoa : s.only_adjacency = false) :
    blocks_pending s' ∧ s'.only_adjacency = false := by
  unfold load_next_block at h
  simp only [] at h
  split at h
  · cases h
  · cases h
    refine ⟨⟨fun _ => hb.1 hoa, ?_⟩, hoa⟩
    intro i b hi
    simp only [] at hi
    rcases Nat.lt_or_ge i s.activeblocks.length with hlt | hge
    · rw [List.getElem?_append_left hlt] at hi
      have := hb.2 b (mem_of_getElem?_some hi)
      exact ⟨this.2.1, this.2.2, Or.inl this.1⟩
    · rw [List.getElem?_append_right hge] at hi
      have hi0 : i - s.activeblocks.length = 0 := by
        rcases Nat.eq_zero_or_pos (i - s.activeblocks.length) with h0 | h0
        · exact h0
        · rw [List.getElem?_eq_none (by simp only [List.length_singleton]; omega)] at hi
          cases hi
      rw [hi0] at hi
      cases hi
      refine ⟨by simp, hb.1 hoa, Or.inr ?_⟩
      show some s.activeblocks.length = some i
      congr 1
      omega

theorem check_curblock_live {sz : Nat} {s s' : sliding_shard}
    (h : check_curblock sz s = .ok s') (hb : blocks_live s) (hoa : s.only_adjacency = false) :
    blocks_pending s' ∧ s'.only_adjacency = false := by
  unfold check_curblock at h
  split at h
  · exact load_next_block_live h hb hoa
  · split at h
    · cases h
    · rename_i _ idx hidx _ cb hcb
      split at h
      · split at h
        · rename_i _ hact
          have := (hb.2 cb (mem_of_getElem?_some hcb)).1
          rw [this] at hact
          cases hact
        · exact load_next_block_live h hb hoa
      · cases h
        exact ⟨blocks_pending_of_live hb, hoa⟩

theorem read_edgeptr_live {sz : Nat} {s s' : sliding_shard} {ev : Option edgeptr}
    (h : read_edgeptr sz s = .ok (ev, s')) (hb : blocks_live s) :
    (s.only_adjacency = true ∧ s' = s) ∨ (blocks_pending s' ∧ s'.only_adjacency = false) := by
  unfold read_edgeptr at h
  split at h
  · rename_i hoa
    cases h
    exact Or.inl ⟨hoa, rfl⟩
  · rename_i hoa
    have hoa' : s.only_adjacency = false := by simpa using hoa
    split at h
    · cases h
    · rename_i s1 h1
      obtain ⟨hp, ho1⟩ := check_curblock_live h1 hb hoa'
      split at h
      · cases h
      · rename_i idx hidx
        split at h
        · cases h
        · rename_i cb hcb
          cases h
          refine Or.inr ⟨⟨hp.1, ?_⟩, ho1⟩
          intro i b hi
          simp only [] at hi
          by_cases hii : idx = i
          · subst hii
            have hlt : idx < s1.activeblocks.length := by
              rcases Nat.lt_or_ge idx s1.activeblocks.length with h | h
              · exact h
              · rw [List.getElem?_eq_none h] at hcb; cases hcb
            rw [List.getElem?_set_self hlt] at hi
            cases hi
            obtain ⟨a1, a2, a3⟩ := hp.2 idx cb hcb
            exact ⟨a1, a2, Or.inr hidx⟩
          · rw [List.getElem?_set_ne hii] at hi
            exact hp.2 i b hi

theorem activate_curblock_live {s s' : sliding_shard} (h : activate_curblock s = .ok s')
    (hp : blocks_pending s) : blocks_live s' := by
  unfold activate_curblock at h
  split at h
  · cases h
  · rename_i idx hidx
    split at h
    · cases h
    · rename_i cb hcb
      cases h
      refine ⟨hp.1, ?_⟩
      intro b hb'
      obtain ⟨j, hj⟩ := List.mem_iff_getElem?.1 hb'
      simp only [] at hj
      have hlt : idx < s.activeblocks.length := by
        rcases Nat.lt_or_ge idx s.activeblocks.length with h | h
        · exact h
        · rw [List.getElem?_eq_none h] at hcb; cases hcb
      by_cases hii : idx = j
      · subst hii
        rw [List.getElem?_set_self hlt] at hj
        cases hj
        obtain ⟨a1, a2, -⟩ := hp.2 idx cb hcb
        exact ⟨rfl, a1, a2⟩
      · rw [List.getElem?_set_ne hii] at hj
        obtain ⟨a1, a2, a3⟩ := hp.2 j b hj
        rcases a3 with a3 | a3
        · exact ⟨a3, a1, a2⟩
        · rw [hidx] at a3
          exact absurd (Option.some.inj a3) hii

theorem read_edge_live {P : params} {adj : List Nat} {s s' : sliding_shard} {v v' : svertex}
    (h : read_edge P adj s v = .ok (s', v')) (hb : blocks_live s) : blocks_live s' := by
  unfold read_edge at h
  split at h
  · cases h
  · rename_i raw s1 h1
    have hb1 : blocks_live s1 := blocks_live_fadj (read_val_fadj h1) hb
    simp only [] at h
    split at h
    · cases h
    · rename_i ev s2 h2
      split at h
      · cases h
      · rename_i s3 h3
        obtain ⟨rfl, -, -, -⟩ := check_target_ok h
        rcases read_edgeptr_live h2 hb1 with ⟨hoa, rfl⟩ | ⟨hp, hoa⟩
        · rw [if_neg (by rw [hoa]; simp)] at h3
          cases h3
          exact hb1
        · rw [if_pos hoa] at h3
          exact activate_curblock_live h3 hp

theorem read_edges_live {P : params} {adj : List Nat} (k : Nat) :
    ∀ {s s' : sliding_shard} {v v' : svertex}, read_edges P adj k s v = .ok (s', v') →
    blocks_live s → blocks_live s' := by
  induction k with
  | zero =>
    intro s s' v v' h hb
    unfold read_edges at h
    cases h
    exact hb
  | succ k ih =>
    intro s s' v v' h hb
    unfold read_edges at h
    split at h
    · cases h
    · rename_i s1 v1 h1
      exact ih h (read_edge_live h1 hb)

theorem skip_live (P : params) (n sz : Int) {s : sliding_shard} (hb : blocks_live s) :
    blocks_live (skip P n sz s) :=
  blocks_live_ptr (skip_tr P n sz s).esess (skip_tr P n sz s).onlya (skip_blocks P n sz s) hb

theorem read_record_live {P : params} {adj : List Nat} {i n : Int} {s s' : sliding_shard}
    {pre pre' : List svertex} (h : read_record P adj i n s pre = .ok (s', pre'))
    (hb : blocks_live s) : blocks_live s' := by
  unfold read_record at h
  split at h
  · cases h
    exact skip_live P n 4 hb
  · split at h
    · cases h
    · split at h
      · cases h
      · split at h
        · split at h
          · cases h
          · rename_i s1 v1 h1
            cases h
            exact read_edges_live _ h1 hb
        · cases h
          exact skip_live P n 4 hb

theorem rnv_body_live {P : params} {adj : List Nat} {nvecs : Int} {ri : Bool} {i i' : Int}
    {lastrec lastrec' : Nat} {s s' : sliding_shard} {pre pre' : List svertex}
    (h : rnv_body P adj nvecs ri i lastrec s pre = .ok (i', lastrec', s', pre'))
    (hb : blocks_live s) : blocks_live s' := by
  have hb0 : blocks_live (record_checkpoint nvecs ri lastrec s).1 := by
    rcases record_checkpoint_fields nvecs ri lastrec s with e | e <;> rw [e]
    · exact hb
    · exact blocks_live_same rfl rfl rfl hb
  unfold rnv_body at h
  simp only [] at h
  split at h
  · cases h
  · rename_i ns s1 h1
    have hb1 := blocks_live_fadj (read_val_fadj h1) hb0
    split at h
    · split at h
      · cases h
      · rename_i nz s2 h2
        cases h
        have hb2 := blocks_live_fadj (read_val_fadj h2)
          (blocks_live_same (s := s1) rfl rfl rfl hb1)
        exact blocks_live_same (s := s2) rfl rfl rfl hb2
    · split at h
      · cases h
      · rename_i n s2 h2
        have hb2 := blocks_live_fadj (read_count_fadj h2) hb1
        split at h
        · cases h
        · rename_i s3 pre3 h3
          cases h
          exact blocks_live_same (s := s3) rfl rfl rfl (read_record_live h3 hb2)

theorem rnv_loop_live {P : params} {adj : List Nat} {nvecs : Int} {ri : Bool} (fuel : Nat) :
    ∀ {i : Int} {lastrec : Nat} {s s' : sliding_shard} {pre pre' : List svertex},
    rnv_loop P adj nvecs ri fuel i lastrec s pre = .ok (s', pre') → blocks_live s →
    blocks_live s' := by
  induction fuel with
  | zero =>
    intro i lastrec s s' pre pre' h hb
    unfold rnv_loop at h
    cases h
    exact hb
  | succ fuel ih =>
    intro i lastrec s s' pre pre' h hb
    unfold rnv_loop at h
    split at h
    · split at h
      · cases h
        exact hb
      · split at h
        · cases h
        · rename_i i1 l1 s1 pre1 h1
          exact ih h (rnv_body_live h1 hb)
    · cases h
      exact hb

theorem release_prior_live (all dw : Bool) {s : sliding_shard} (hb : blocks_live s) :
    blocks_live (release_prior_to_offset all dw s) := by
  rw [release_prior_eq]
  exact ⟨hb.1, fun b hb' => hb.2 b (List.mem_of_mem_filter hb')⟩

theorem rnv_prepare_live {dw : Bool} {s s' : sliding_shard} (h : rnv_prepare dw s = .ok s')
    (hb : blocks_live s) : blocks_live s' := by
  have h0 : blocks_live (release_prior_to_offset false dw { s with curblock := none }) :=
    release_prior_live false dw (blocks_live_same (s := s) rfl rfl rfl hb)
  unfold rnv_prepare at h
  simp only [] at h
  split at h
  · cases h
  · cases h
    refine blocks_live_same ?_ ?_ ?_ h0
    · split <;> rfl
    · split <;> rfl
    · split <;> rfl

theorem move_close_to_live {v : Nat} {s s' : sliding_shard} (h : move_close_to v s = .ok s')
    (hb : blocks_live s) : blocks_live s' :=
  blocks_live_ptr (tr_of_ok (move_close_to_tr v s) h).esess
    (tr_of_ok (move_close_to_tr v s) h).onlya (move_close_to_blocks h) hb

theorem read_next_vertices_live {P : params} {adj : List Nat} {nvecs : Int} {start : Nat}
    {pre pre' : List svertex} {ri dw : Bool} {s s' : sliding_shard}
    (h : read_next_vertices P adj nvecs start pre ri dw s = .ok (s', pre'))
    (hb : blocks_live s) : blocks_live s' := by
  unfold read_next_vertices at h
  split at h
  · cases h
  · rename_i s1 h1
    have hb1 : blocks_live s1 := by
      split at h1
      · exact move_close_to_live h1 hb
      · cases h1; exact hb
    split at h
    · cases h
    · rename_i s2 h2
      have hb2 := rnv_prepare_live h2 hb1
      simp only [] at h
      split at h
      · cases h
      · rename_i s3 pre3 h3
        cases h
        exact blocks_live_same (s := s3) rfl rfl rfl (rnv_loop_live _ h3 hb2)

theorem flush_live {s : sliding_shard} (hb : blocks_live s) : blocks_live (flush s) := by
  refine blocks_live_ptr (flush_tr s).esess (flush_tr s).onlya ?_ hb
  intro b hb'
  left
  have h1 : b ∈ (release_prior_to_offset true false s).activeblocks := by
    unfold flush at hb'
    simp only [] at hb'
    split at hb' <;> exact hb'
  rw [release_prior_eq] at h1
  exact List.mem_of_mem_filter h1

theorem set_offset_live (a v e : Nat) {s : sliding_shard} (hb : blocks_live s) :
    blocks_live (set_offset a v e s) := by
  refine blocks_live_ptr (set_offset_tr a v e s).esess (set_offset_tr a v e s).onlya ?_ hb
  intro b hb'
  left
  unfold set_offset at hb'
  simp only [] at hb'
  split at hb' <;> exact hb'

theorem run_live {P : params} {adj : List Nat} (ops : List op) :
    ∀ {s s' : sliding_shard} {outs : List (List svertex)},
    run P adj s ops = .ok (s', outs) → blocks_live s → blocks_live s' := by
  induction ops with
  | nil =>
    intro s s' outs h hb
    unfold run at h
    cases h
    exact hb
  | cons o ops ih =>
    intro s s' outs h hb
    unfold run at h
    split at h
    · cases h
    · rename_i s1 out h1
      have hb1 : blocks_live s1 := by
        cases o with
        | read nvecs start pre ri dw => exact read_next_vertices_live h1 hb
        | flush => cases h1; exact flush_live hb
        | set_offset a v e => cases h1; exact set_offset_live a v e hb
      split at h
      · cases h
      · rename_i s2 outs2 h2
        cases h
        exact ih h2 hb1

theorem construct_live {P : params} {io : stripedio} {F A rs re bs : Nat} {dw oa : Bool}
    {s0 : sliding_shard} (h : sliding_shard.construct P io F A rs re bs dw oa = some s0) :
    blocks_live s0 := by
  refine ⟨fun hoa => ?_, fun b hb => ?_⟩
  · unfold sliding_shard.construct at h
    simp only [] at h
    split at h
    · cases h
    · cases h
      cases oa
      · show (0 : Int) ≤ (io.nsessions : Int)
        exact Int.ofNat_nonneg _
      · cases hoa
  · rw [(construct_flags h).2.2.2.1] at hb
    cases hb

theorem eviction_state_live {s t : sliding_shard} (h : eviction_state s t)
    (hb : blocks_live s) : blocks_live t := by
  rcases h with rfl | rfl | ⟨v, s1, h1, rfl⟩
  · exact hb
  · exact blocks_live_same rfl rfl rfl hb
  · exact blocks_live_same (s := s1) rfl rfl rfl (move_close_to_live h1 hb)

/-- The function `release_prior_to_offset(false)` on a state that no run reaches: the list
holds one block that is not active and owns a buffer, ending at the edge-data offset.  With
writes enabled the block is removed from the list and nothing is called on the I/O manager.
In the states of a run no such block is in the list: every block is marked active in the
pass of the edge loop that allocates it. -/
theorem inactive_block_is_not_released :
    idle_block.active = false ∧ idle_block.data ≠ none ∧
    idle_state.activeblocks = [idle_block] ∧
    (release_prior_to_offset false false idle_state).activeblocks = [] ∧
    (release_prior_to_offset false false idle_state).iomgr.calls = idle_state.iomgr.calls := by
  decide

theorem commit_calls_member (dw : Bool) (s : sliding_shard) (b : sblock) (c : iocall)
    (hb1 : b ∈ s.activeblocks) (hb2 : b.end_ ≤ s.edataoffset)
    (hc : c ∈ commit_calls false dw b) :
    c ∈ (release_prior_to_offset false dw s).iomgr.calls := by
  rw [release_prior_eq]
  apply List.mem_append_right
  generalize s.activeblocks = bs at hb1
  induction bs with
  | nil => cases hb1
  | cons x xs ih =>
    unfold released_calls
    rcases List.mem_cons.1 hb1 with h | h
    · subst h
      apply List.mem_append_right
      rw [if_pos (Or.inl hb2)]
      exact hc
    · exact List.mem_append_left _ (ih h)

/-- C27: commit policy on block eviction.  Let `s` be a state that a run of calls from a
freshly constructed sliding shard leaves, and `t` a state in which
`release_prior_to_offset(false, disable_writes)` runs then: `s` itself, or the state of
`read_next_vertices` after `curblock = NULL`.  The calls made are those of `commit` for the
evicted blocks, the last block first.  Every evicted block is active, owns a buffer and has
a valid write descriptor.  With writes not disabled, `commit` makes one call for it: the
asynchronous write of the range `[offset, end)` at `offset` with the flag that has the I/O
manager release the buffer after the write.  With writes disabled, `commit` makes one call:
the release of the buffer, and no write.  A block that is not active is never in the list
at that point; for such a block `commit` issues no write, whatever the flag: the only call
it can make is the release of the buffer, with writes disabled. -/
theorem eviction_commit_policy (P : params) (io : stripedio) (F A rs re bs : Nat)
    (dw oa : Bool) (adj : List Nat) (ops : List op) (s0 s t : sliding_shard)
    (outs : List (List svertex))
    (h0 : sliding_shard.construct P io F A rs re bs dw oa = some s0)
    (hr : run P adj s0 ops = .ok (s, outs)) (ht : eviction_state s t) (d : Bool) :
    (release_prior_to_offset false d t).iomgr.calls
      = t.iomgr.calls ++ released_calls false d t.edataoffset t.activeblocks ∧
    (∀ b ∈ t.activeblocks, b.active = true) ∧
    (∀ b ∈ t.activeblocks, b.end_ ≤ t.edataoffset →
      b ∉ (release_prior_to_offset false d t).activeblocks ∧
      0 ≤ b.writedesc ∧ ∃ buf, b.data = some buf ∧
        commit_calls false false b
          = [iocall.managed_pwritea_async b.writedesc buf (b.end_ - b.offset) b.offset true] ∧
        commit_calls false true b = [iocall.managed_release b.readdesc buf] ∧
        ∀ c ∈ commit_calls false d b, c ∈ (release_prior_to_offset false d t).iomgr.calls) ∧
    (∀ (b : sblock) (d' : Bool), b.active = false → ∀ c ∈ commit_calls false d' b,
      d' = true ∧ ∃ buf, b.data = some buf ∧ c = iocall.managed_release b.readdesc buf) := by
  have hl : blocks_live t := eviction_state_live ht (run_live ops hr (construct_live h0))
  refine ⟨?_, fun b hb => (hl.2 b hb).1, ?_, ?_⟩
  · rw [release_prior_eq]
  · intro b hb he
    obtain ⟨ha, hd, hw⟩ := hl.2 b hb
    refine ⟨?_, hw, ?_⟩
    · rw [release_prior_eq]
      intro hm
      have := (List.mem_filter.1 hm).2
      simp [he] at this
    · cases hbd : b.data with
      | none => exact absurd hbd hd
      | some buf =>
        refine ⟨buf, rfl, ?_, ?_, fun c hc => commit_calls_member d t b c hb he hc⟩
        · unfold commit_calls commit sblock.commit_async stripedio.call
          simp [hbd, ha, hw]
        · unfold commit_calls commit sblock.release stripedio.call
          simp [hbd]
  · intro b d' ha c hc
    cases d'
    · exfalso
      unfold commit_calls commit sblock.commit_async stripedio.call at hc
      cases hbd : b.data <;> simp [hbd, ha] at hc
    · refine ⟨rfl, ?_⟩
      unfold commit_calls commit sblock.release stripedio.call at hc
      cases hbd : b.data with
      | none => simp [hbd] at hc
      | some buf =>
        refine ⟨buf, rfl, ?_⟩
        simpa [hbd] using hc

/-- Witness for C27: after the vertices 0 to 2 of `six_items` have been read with blocks of
four bytes, the list holds three blocks that end at or before the edge-data offset 12;
`release_prior_to_offset(false)` with writes enabled evicts them with three asynchronous
writes, the last block first, and with writes disabled with three releases. -/
theorem eviction_commit_policy_witness :
    ∃ s0 s outs,
      sliding_shard.construct sample_params sample_io 24 (encode_items six_items).length
        0 100 4 false false = some s0 ∧
      run sample_params (encode_items six_items) s0 evict_ops = .ok (s, outs) ∧
      eviction_state s s ∧
      block_spans s = [(0, 4), (4, 8), (8, 12)] ∧ s.edataoffset = 12 ∧
      (release_prior_to_offset false false s).iomgr.calls = s.iomgr.calls ++
        [iocall.managed_pwritea_async 0 (buffer.mk 8 0 8 4) 4 8 true,
         iocall.managed_pwritea_async 0 (buffer.mk 5 0 4 4) 4 4 true,
         iocall.managed_pwritea_async 0 (buffer.mk 2 0 0 4) 4 0 true] ∧
      (release_prior_to_offset false true s).iomgr.calls = s.iomgr.calls ++
        [iocall.managed_release 0 (buffer.mk 8 0 8 4),
         iocall.managed_release 0 (buffer.mk 5 0 4 4),
         iocall.managed_release 0 (buffer.mk 2 0 0 4)] ∧
      (∀ b ∈ s.activeblocks, b.end_ ≤ s.edataoffset →
        b ∉ (release_prior_to_offset false false s).activeblocks ∧
        0 ≤ b.writedesc ∧ ∃ buf, b.data = some buf ∧
          commit_calls false false b
            = [iocall.managed_pwritea_async b.writedesc buf (b.end_ - b.offset) b.offset
                true] ∧
          commit_calls false true b = [iocall.managed_release b.readdesc buf] ∧
          ∀ c ∈ commit_calls false false b,
            c ∈ (release_prior_to_offset false false s).iomgr.calls) :=
  ⟨_, _, _, rfl, rfl, Or.inl rfl, rfl, rfl, rfl, rfl,
    (eviction_commit_policy sample_params sample_io 24 (encode_items six_items).length
      0 100 4 false false (encode_items six_items) evict_ops _ _ _ _ rfl rfl (Or.inl rfl)
      false).2.2.1⟩

end graphchi
